import Mathlib

/-!
Verification of the decision-tree core of `aitools`.

Shallow embedding of `splitters.h`, `learning.h`, `algorithms.h`, `decision_tree.h`,
`impurity.h`, `bit_utility.h` and `math_utility.h`.

Modelling conventions
* A `double` is a `Value`: either NaN (the missing value) or a rational number.
* An `index_range` is a pair of iterators into the index array of a tree. A function that
  receives a range and reorders it in place is a function from the old content of the range
  (a `List Nat`) to its new content. A vertex of a tree stores the two offsets of its range.
* A callback `report_split` is modelled by the list of the calls made, in order.
* `std::mt19937` is a state of an arbitrary type `ρ`, with the operations that draw from it
  collected in a `random_engine`.
-/

namespace aitools

/-! ## Values, datasets, options -/

/-- A `double` stored in a dataset: NaN, or a number. -/
inductive Value where
  | nan : Value
  | num (q : ℚ) : Value
deriving DecidableEq

/-- The function `is_missing` of `missing.h`: `std::isnan(x)`. -/
def is_missing : Value → Bool
  | .nan => true
  | .num _ => false

/-- Comparison `<` on doubles; false as soon as one side is NaN. -/
def Value.lt : Value → Value → Bool
  | .num a, .num b => decide (a < b)
  | _, _ => false

/-- Comparison `==` on doubles; false as soon as one side is NaN. -/
def Value.eq : Value → Value → Bool
  | .num a, .num b => decide (a = b)
  | _, _ => false

/-- Conversion `static_cast<std::size_t>(x)`: truncation of a non-negative number. The
conversion of NaN or of a negative number is undefined in C++; the model returns 0. -/
def Value.to_size_t : Value → Nat
  | .num q => (Rat.floor q).toNat
  | .nan => 0

/-- The class `dataset`: the rows of the matrix `m_X` and `m_category_counts`. The last
column holds the class. -/
structure dataset where
  X : List (List Value)
  category_counts : List Nat

/-- Entry `X[i][v]`. -/
def dataset.at (D : dataset) (i v : Nat) : Value :=
  (D.X.getD i []).getD v Value.nan

/-- Method `matrix::column_count`, the size of the first row. -/
def dataset.column_count (D : dataset) : Nat :=
  (D.X.getD 0 []).length

/-- Method `dataset::feature_count`. -/
def dataset.feature_count (D : dataset) : Nat :=
  D.column_count - 1

/-- Method `dataset::class_count`: `m_category_counts.back()`. -/
def dataset.class_count (D : dataset) : Nat :=
  D.category_counts.getLastD 0

/-- Entry `y[i]` of the class column `D.y()`. -/
def dataset.y (D : dataset) (i : Nat) : Value :=
  D.at i (D.column_count - 1)

/-- The class of sample `i`: `static_cast<std::size_t>(y[i])`. -/
def dataset.class_of (D : dataset) (i : Nat) : Nat :=
  (D.y i).to_size_t

/-- The enumeration `impurity_measure`. -/
inductive impurity_measure where
  | gini
  | entropy
  | mis_classification
deriving DecidableEq

/-- The struct `decision_tree_options`. -/
structure decision_tree_options where
  imp_measure : impurity_measure := impurity_measure.gini
  min_samples_leaf : Nat := 1
  max_features : Nat := 1000000
  max_depth : Nat := 1000000
  max_categorical_size : Nat := 10
  support_missing_values : Bool := false
  optimization : Bool := false

/-! ## Bit utilities (`bit_utility.h`) -/

/-- Function `utilities::is_bit_set`: `(x & (one << i)) != 0` with `one` a 64 bit word. The
shift is undefined in C++ for `i >= 64`; the model shifts the bit out. -/
def is_bit_set (x i : Nat) : Bool :=
  x &&& ((1 <<< i) % 2 ^ 64) != 0

/-- Function `utilities::set_bit` on a 64 bit word `x`. -/
def set_bit (x i : Nat) (enabled : Bool) : Nat :=
  if enabled then x ||| ((1 <<< i) % 2 ^ 64)
  else x &&& (2 ^ 64 - 1 - (1 <<< i) % 2 ^ 64)

/-! ## Splitting criteria (`splitters.h`) -/

/-- The struct `single_split`; `var` is the member `variable`. -/
structure single_split where
  var : Nat
  value : Value
deriving DecidableEq

/-- The struct `subset_split`; `var` is the member `variable`, `mask` is a `std::uint32_t`. -/
structure subset_split where
  var : Nat
  mask : Nat
deriving DecidableEq

/-- The constructor `subset_split(variable, mask)`: the argument is converted to 32 bits. -/
def subset_split.make (var mask : Nat) : subset_split :=
  { var := var, mask := mask % 2 ^ 32 }

/-- The constant `subset_split::max_subset_size = 8 * sizeof(variable)`, where the member
`variable` is a `std::size_t`. -/
def subset_split.max_subset_size : Nat := 8 * 8

/-- Method `subset_split::contains`. -/
def subset_split.contains (s : subset_split) (value : Nat) : Bool :=
  is_bit_set s.mask value

/-- The struct `threshold_split`; `var` is the member `variable`. -/
structure threshold_split where
  var : Nat
  value : Value
deriving DecidableEq

/-- The variant `splitting_criterion`. -/
inductive splitting_criterion where
  | monostate
  | single (s : single_split)
  | subset (s : subset_split)
  | threshold (s : threshold_split)
deriving DecidableEq

/-- The function `select` on a feature vector `x`. -/
def select (split : splitting_criterion) (x : List Value) : Nat :=
  match split with
  | .monostate => 0
  | .single s => if (x.getD s.var Value.nan).eq s.value then 0 else 1
  | .subset s => if s.contains (x.getD s.var Value.nan).to_size_t then 0 else 1
  | .threshold s => if (x.getD s.var Value.nan).lt s.value then 0 else 1

/-! ## Random numbers -/

/-- The operations on a `std::mt19937` used by the tree learner. `random_bool` is declared in
`aitools/utilities/random.h`, `sample` is `std::sample(first, last, out, n, rng)`; both are
taken as parameters, every theorem holds for all of them. -/
structure random_engine (ρ : Type) where
  random_bool : ρ → Bool × ρ
  sample : List Nat → Nat → ρ → List Nat × ρ

/-! ## `std::partition` and `std::sort` -/

/-- Backward scan of `std::partition` (bidirectional version of libstdc++): walks from the
end of the range (the argument is the range reversed) as long as the predicate fails. Returns
the element found and the rest of the reversed range, if any, the elements skipped (in range
order) and the state after the calls of the predicate. -/
def partition_back {α σ : Type} (pred : σ → α → Bool × σ) :
    List α → σ → Option (α × List α) × List α × σ
  | [], s => (none, [], s)
  | y :: r, s =>
    if (pred s y).1 then (some (y, r), [], (pred s y).2)
    else
      let res := partition_back pred r (pred s y).2
      (res.1, res.2.1 ++ [y], res.2.2)

/-- Main loop of `std::partition` (bidirectional version of libstdc++) on the range `m`, with
a predicate that may read and update a state (the random number generator). Returns the
elements before the partition point, the elements after it, and the final state. -/
def partition_loop {α σ : Type} (pred : σ → α → Bool × σ) :
    Nat → List α → σ → (List α × List α) × σ
  | 0, m, s => (([], m), s)
  | _ + 1, [], s => (([], []), s)
  | fuel + 1, x :: t, s =>
    if (pred s x).1 then
      let res := partition_loop pred fuel t (pred s x).2
      ((x :: res.1.1, res.1.2), res.2)
    else
      match partition_back pred t.reverse (pred s x).2 with
      | (none, skipped, s2) => (([], x :: skipped), s2)
      | (some (y, r), skipped, s2) =>
        let res := partition_loop pred fuel r.reverse s2
        ((y :: res.1.1, res.1.2 ++ x :: skipped), res.2)

/-- The call `std::partition(first, last, pred)`: the range is left as `I1 ++ I2` and the
iterator returned points to the start of `I2`. -/
def std_partition {α σ : Type} (pred : σ → α → Bool × σ) (m : List α) (s : σ) :
    (List α × List α) × σ :=
  partition_loop pred m.length m s

/-- The call `std::partition(first, last, pred)` with a predicate without state. -/
def std_partition_pure {α : Type} (pred : α → Bool) (m : List α) : List α × List α :=
  (std_partition (fun (_ : Unit) a => (pred a, ())) m ()).1

/-- The call `std::sort(first, last, lt)`. The order of equivalent elements is unspecified by
the standard; the model is the insertion sort that libstdc++ runs on short ranges. -/
def std_sort {α : Type} (lt : α → α → Bool) (l : List α) : List α :=
  List.insertionSort (fun a b => lt b a = false) l

/-! ## `apply_split` -/

/-- The predicate passed to `std::partition` by `apply_split_visitor`, for each kind of
split. The random number generator is read only for a missing value, and only when
`support_missing_values` is set. -/
def apply_split_pred {ρ : Type} (eng : random_engine ρ) (D : dataset)
    (support_missing_values : Bool) : splitting_criterion → ρ → Nat → Bool × ρ
  | .monostate, rng, _ => (false, rng)
  | .single split, rng, i =>
    let x_i := D.at i split.var
    if x_i.eq split.value then (true, rng)
    else if support_missing_values && is_missing x_i then eng.random_bool rng
    else (false, rng)
  | .subset split, rng, i =>
    let x_i := (D.at i split.var).to_size_t
    if split.contains x_i then (true, rng)
    else if support_missing_values && is_missing (Value.num x_i) then eng.random_bool rng
    else (false, rng)
  | .threshold split, rng, i =>
    let x_i := D.at i split.var
    if x_i.lt split.value then (true, rng)
    else if support_missing_values && is_missing x_i then eng.random_bool rng
    else (false, rng)

/-- The function `apply_split`: `none` stands for the exception thrown on an undefined
split; otherwise the result is the pair `I1`, `I2` (the range `I` now holds `I1 ++ I2`) and
the state of the random number generator. -/
def apply_split {ρ : Type} (eng : random_engine ρ) (split : splitting_criterion) (D : dataset)
    (I : List Nat) (rng : ρ) (support_missing_values : Bool) :
    Option ((List Nat × List Nat) × ρ) :=
  match split with
  | .monostate => none
  | _ => some (std_partition (apply_split_pred eng D support_missing_values split) I rng)

/-- The function `is_partition` of `math_utility.h`: equal sizes and equal multisets. -/
def is_partition (I I1 I2 : List Nat) : Bool :=
  if I.length ≠ I1.length + I2.length then false
  else decide ((I : Multiset Nat) = (I1 : Multiset Nat) + (I2 : Multiset Nat))

/-! ## Class counts -/

/-- The statement `counts[k]++`. -/
def incr (counts : List Nat) (k : Nat) : List Nat :=
  counts.set k (counts.getD k 0 + 1)

/-- The statement `counts[k]--`. -/
def decr (counts : List Nat) (k : Nat) : List Nat :=
  counts.set k (counts.getD k 0 - 1)

/-- Method `dataset::compute_class_counts(I, counts)` for a vector `counts` of size `K`:
filled with zeroes, then `counts[y[i]]++` for every `i` of `I`. -/
def compute_class_counts (D : dataset) (I : List Nat) (K : Nat) : List Nat :=
  I.foldl (fun counts i => incr counts (D.class_of i)) (List.replicate K 0)

/-- A call `report_split(split, D1_counts, D2_counts)`. -/
structure split_report where
  split : splitting_criterion
  D1_counts : List Nat
  D2_counts : List Nat
deriving DecidableEq

/-- The first lines common to the three enumerators: with `support_missing_values` the
samples with a missing value of `v` are moved to the back by `std::partition`; then the range
`[I.begin(), Iend)` is sorted on the value of `v`. Returns the new content of `I` and the
offset of `Iend`. -/
def sort_range (D : dataset) (I : List Nat) (v : Nat) (options : decision_tree_options) :
    List Nat × Nat :=
  let I' :=
    if options.support_missing_values then
      std_partition_pure (fun i => !is_missing (D.at i v)) I
    else (I, [])
  (std_sort (fun i1 i2 => (D.at i1 v).lt (D.at i2 v)) I'.1 ++ I'.2, I'.1.length)

/-! ## `enumerate_threshold_splits` -/

/-- The loop `for (auto i = first; i != last; ++i)` of `enumerate_threshold_splits`, over the
sorted range `s`; `n` is the number of iterations left and `i` the offset of the iterator. -/
def threshold_sweep (D : dataset) (v : Nat) (options : decision_tree_options) (s : List Nat)
    (first last : Nat) : Nat → Nat → List Nat → List Nat → Bool → List split_report
  | 0, _, _, _, _ => []
  | n + 1, i, D1_counts, D2_counts, same_y =>
    let cur := s.getD i 0
    let prev := s.getD (i - 1) 0
    let value := D.at cur v
    let D1 := if i ≠ first then incr D1_counts (D.class_of prev) else D1_counts
    let D2 := if i ≠ first then decr D2_counts (D.class_of prev) else D2_counts
    if (D.at prev v).eq value then
      threshold_sweep D v options s first last n (i + 1) D1 D2
        (if !(D.y prev).eq (D.y cur) then false else same_y)
    else if options.optimization then
      let next := s.getD (i + 1) 0
      let next_same_y := decide (i + 1 ≠ last) && (D.y cur).eq (D.y next)
        && !value.eq (D.at next v)
      if same_y && next_same_y then
        threshold_sweep D v options s first last n (i + 1) D1 D2 same_y
      else
        { split := .threshold ⟨v, value⟩, D1_counts := D1, D2_counts := D2 } ::
          threshold_sweep D v options s first last n (i + 1) D1 D2 next_same_y
    else
      { split := .threshold ⟨v, value⟩, D1_counts := D1, D2_counts := D2 } ::
        threshold_sweep D v options s first last n (i + 1) D1 D2 same_y

/-- The function `enumerate_threshold_splits(D, I, v, options, D1_counts, D2_counts,
report_split)` with count vectors of size `K`. Returns the new content of `I` and the calls
of `report_split`. With `first = I.begin() + min_samples_leaf` and
`last = Iend - min_samples_leaf + 1`, the test `last <= first` is
`nEnd + 1 <= 2 * min_samples_leaf` on the offsets. The loop reads `*(i - 1)`, so
`min_samples_leaf >= 1` is expected. -/
def enumerate_threshold_splits (D : dataset) (I : List Nat) (v : Nat)
    (options : decision_tree_options) (K : Nat) : List Nat × List split_report :=
  let sorted := sort_range D I v options
  let s := sorted.1
  let nEnd := sorted.2
  let first := options.min_samples_leaf
  if nEnd + 1 ≤ first + options.min_samples_leaf then (s, [])
  else
    let last := nEnd + 1 - options.min_samples_leaf
    let I1 := s.take first
    let I2 := (s.take nEnd).drop first
    (s, threshold_sweep D v options s first last (last - first) first
      (compute_class_counts D I1 K) (compute_class_counts D I2 K) false)

/-! ## `enumerate_single_splits` -/

/-- The outer loop `while (first != I.end())` of `enumerate_single_splits` on the part
`rest` of the range that starts at `first`. The inner loop moves `last` over the samples
whose value equals that of `*first`. The counts are updated, reported and restored. The
first argument bounds the number of iterations (each one consumes a sample). -/
def single_sweep (D : dataset) (v : Nat) (options : decision_tree_options) (D_sum : Nat) :
    Nat → List Nat → List Nat → List Nat → List split_report
  | 0, _, _, _ => []
  | _ + 1, [], _, _ => []
  | fuel + 1, f :: t, D1_counts, D2_counts =>
    let value := D.at f v
    let group := f :: t.takeWhile (fun i => (D.at i v).eq value)
    let rest := t.dropWhile (fun i => (D.at i v).eq value)
    let count := group.length
    if count < options.min_samples_leaf ∨ D_sum - count < options.min_samples_leaf then
      single_sweep D v options D_sum fuel rest D1_counts D2_counts
    else
      let D1 := group.foldl (fun c i => incr c (D.class_of i)) D1_counts
      let D2 := group.foldl (fun c i => decr c (D.class_of i)) D2_counts
      let D1r := group.foldl (fun c i => decr c (D.class_of i)) D1
      let D2r := group.foldl (fun c i => incr c (D.class_of i)) D2
      { split := .single ⟨v, value⟩, D1_counts := D1, D2_counts := D2 } ::
        single_sweep D v options D_sum fuel rest D1r D2r

/-- The function `enumerate_single_splits` with count vectors of size `K`. Returns the new
content of `I` and the calls of `report_split`. -/
def enumerate_single_splits (D : dataset) (I : List Nat) (v : Nat)
    (options : decision_tree_options) (K : Nat) : List Nat × List split_report :=
  let s := (sort_range D I v options).1
  let D1_counts := List.replicate K 0
  let D2_counts := compute_class_counts D s K
  let D_sum := D2_counts.sum
  (s, single_sweep D v options D_sum s.length s D1_counts D2_counts)

/-! ## `enumerate_subset_splits` -/

/-- The lambda `add` of `enumerate_subset_splits`: `D1_counts[k] += W[j * K + k]` for every
`k < K`. -/
def subset_add (W : List Nat) (K : Nat) (D1_counts : List Nat) (j : Nat) : List Nat :=
  (List.range K).foldl (fun c k => c.set k (c.getD k 0 + W.getD (j * K + k) 0)) D1_counts

/-- The inner loop `for (std::size_t j = 0; j < p; j++)` of `enumerate_subset_splits` for
the subset number `i`: updates the mask and the counts of the first partition. -/
def subset_inner (W : List Nat) (K : Nat) (pos : List Nat) (i : Nat) :
    List Nat → Nat × List Nat → Nat × List Nat
  | [], st => st
  | j :: js, (mask, D1_counts) =>
    let in_first_partition := is_bit_set i j
    let mask2 := set_bit mask (pos.getD (j + 1) 0) in_first_partition
    subset_inner W K pos i js
      (mask2, if in_first_partition then subset_add W K D1_counts (j + 1) else D1_counts)

/-- The outer loop `for (std::size_t i = 0; i < N; i++)` of `enumerate_subset_splits`; the
mask is kept from one iteration to the next. The count vectors have size `K`. The
subtraction `D_counts[k] - D1_counts[k]` does not wrap, since `D1_counts` adds distinct
rows of `W`. -/
def subset_outer (v : Nat) (options : decision_tree_options) (W : List Nat) (K : Nat)
    (pos D_counts : List Nat) (p : Nat) : List Nat → Nat → List split_report
  | [], _ => []
  | i :: is, mask =>
    let D1_0 := subset_add W K (List.replicate K 0) 0
    let st := subset_inner W K pos i (List.range p) (mask, D1_0)
    let D1_counts := st.2
    let D2_counts := (List.range K).map (fun k => D_counts.getD k 0 - D1_counts.getD k 0)
    if D1_counts.sum ≥ options.min_samples_leaf ∧ D2_counts.sum ≥ options.min_samples_leaf then
      { split := .subset (subset_split.make v st.1), D1_counts := D1_counts,
        D2_counts := D2_counts } :: subset_outer v options W K pos D_counts p is st.1
    else subset_outer v options W K pos D_counts p is st.1

/-- The table `W` of `enumerate_subset_splits`: `W[x_i * K + y_i]++` for every sample of
`I1`. -/
def subset_table (D : dataset) (v K ncat_v : Nat) (I1 : List Nat) : List Nat :=
  I1.foldl (fun W i => incr W ((D.at i v).to_size_t * K + D.class_of i))
    (List.replicate (ncat_v * K) 0)

/-- The vector `pos` of `enumerate_subset_splits`: the categories `i < ncat_v` with a
positive entry `W[i * K + j]`. -/
def subset_pos (W : List Nat) (K ncat_v : Nat) : List Nat :=
  (List.range ncat_v).filter (fun i => (List.range K).any (fun j => W.getD (i * K + j) 0 > 0))

/-- The function `enumerate_subset_splits`, with count vectors of size `D.class_count()`.
`none` stands for the exception thrown when `ncat[v] > subset_split::max_subset_size`;
otherwise the result is the new content of `I` and the calls of `report_split`.
`N = (1 << p) - 1` is computed on an `int`, so that it is `2 ^ p - 1` for `p <= 30`; for
`p = 31` the `int` overflows and the model takes the wrapped value `2 ^ 31 - 1`. -/
def enumerate_subset_splits (D : dataset) (I : List Nat) (v : Nat)
    (options : decision_tree_options) : Option (List Nat × List split_report) :=
  let K := D.class_count
  let ncat_v := D.category_counts.getD v 0
  if ncat_v > subset_split.max_subset_size then none
  else
    let sorted := sort_range D I v options
    let s := sorted.1
    let nEnd := sorted.2
    if nEnd = 0 then some (s, [])
    else
      let W := subset_table D v K ncat_v (s.take nEnd)
      let D_counts := compute_class_counts D s K
      let pos := subset_pos W K ncat_v
      let mask := set_bit 0 (pos.getD 0 0) true
      let p := pos.length - 1
      let N := 2 ^ p - 1
      some (s, subset_outer v options W K pos D_counts p (List.range N) mask)

/-! ## Split families -/

/-- The three split families of `splitters.h`: `threshold_split_family`,
`threshold_plus_single_split_family` and `threshold_plus_subset_split_family`. -/
inductive split_family where
  | threshold
  | threshold_plus_single
  | threshold_plus_subset
deriving DecidableEq

/-- The body of the loop `for (std::size_t v: V)` of the method `enumerate` of a family. -/
def split_family.enumerate_variable (fam : split_family) (D : dataset)
    (options : decision_tree_options) (I : List Nat) (v : Nat) :
    Option (List Nat × List split_report) :=
  let K := D.class_count
  let ncat_v := D.category_counts.getD v 0
  match fam with
  | .threshold => some (enumerate_threshold_splits D I v options K)
  | .threshold_plus_single =>
    if 2 ≤ ncat_v ∧ ncat_v ≤ options.max_categorical_size then
      some (enumerate_single_splits D I v options K)
    else some (enumerate_threshold_splits D I v options K)
  | .threshold_plus_subset =>
    if 2 ≤ ncat_v ∧ ncat_v ≤ options.max_categorical_size then
      enumerate_subset_splits D I v options
    else some (enumerate_threshold_splits D I v options K)

/-- The method `enumerate(I, V, report_split)` of a split family: the enumerators are run
for the variables of `V` in order, each on the range as the previous one left it. `none`
stands for an exception. -/
def split_family.enumerate (fam : split_family) (D : dataset)
    (options : decision_tree_options) : List Nat → List Nat →
    Option (List Nat × List split_report)
  | I, [] => some (I, [])
  | I, v :: V =>
    match fam.enumerate_variable D options I v with
    | none => none
    | some (I1, reports1) =>
      match split_family.enumerate fam D options I1 V with
      | none => none
      | some (I2, reports2) => some (I2, reports1 ++ reports2)

/-! ## Impurity and gain (`impurity.h`), in exact arithmetic -/

/-- The function `gini_index(counts)`. -/
def gini_index (counts : List Nat) : ℚ :=
  1 - (counts.map (fun count_k => ((count_k : ℚ) / (counts.sum : ℚ)) ^ 2)).sum

/-- The function `mis_classification(counts)`; `max_value` of an empty vector is undefined
in C++, the model takes 0. -/
def mis_classification (counts : List Nat) : ℚ :=
  1 - ((counts.foldl max 0 : Nat) : ℚ) / (counts.sum : ℚ)

/-- The functor `gain` for the impurity function `imp`. -/
def gain (imp : List Nat → ℚ) (D1_counts D2_counts : List Nat) : ℚ :=
  let D_counts := List.zipWith (fun a b => a + b) D1_counts D2_counts
  imp D_counts - ((D1_counts.sum : ℚ) / (D_counts.sum : ℚ)) * imp D1_counts
    - ((D2_counts.sum : ℚ) / (D_counts.sum : ℚ)) * imp D2_counts

/-- The template parameter `Gain` of `learn_decision_tree` together with the comparison of
scores: `gain` computes a score, `gt score best_score` is the test `score > best_score`, and
`lowest` is `std::numeric_limits<double>::lowest()`. -/
structure gain_function (S : Type) where
  gain : List Nat → List Nat → S
  gt : S → S → Bool
  lowest : S

/-- The gain `gain(impurity_measure::gini)` in exact arithmetic. -/
def gini_gain : gain_function ℚ :=
  { gain := gain gini_index, gt := fun a b => decide (a > b),
    lowest := -((2 : ℚ) ^ 1024 - (2 : ℚ) ^ 971) }

/-! ## Decision trees (`decision_tree.h`) -/

/-- The constant `binary_decision_tree::undefined_index`. -/
def undefined_index : Nat := 2 ^ 32 - 1

/-- The struct `binary_decision_tree::vertex`. The range `I` is stored as the offsets of
its two iterators in the index array of the tree. -/
structure vertex where
  I_begin : Nat
  I_end : Nat
  left : Nat := undefined_index
  right : Nat := undefined_index
  split : splitting_criterion := splitting_criterion.monostate
deriving DecidableEq

/-- Method `vertex::is_leaf`. -/
def vertex.is_leaf (u : vertex) : Bool :=
  u.left == undefined_index && u.right == undefined_index

/-- The class `binary_decision_tree`. -/
structure binary_decision_tree where
  vertices : List vertex
  indices : List Nat
  classes : List Nat
  category_counts : List Nat
deriving DecidableEq

/-- Method `dataset::classes`. -/
def dataset.classes (D : dataset) : List Nat :=
  (List.range D.X.length).map (fun i => ((D.X.getD i []).getLastD Value.nan).to_size_t % 2 ^ 32)

/-- The constructor `binary_decision_tree(D, indices)`: a root that spans all the indices. -/
def binary_decision_tree.make (D : dataset) (indices : List Nat) : binary_decision_tree :=
  { vertices := [{ I_begin := 0, I_end := indices.length }],
    indices := indices, classes := D.classes, category_counts := D.category_counts }

/-- Method `find_vertex(i)`. -/
def binary_decision_tree.find_vertex (tree : binary_decision_tree) (i : Nat) : vertex :=
  tree.vertices.getD i { I_begin := 0, I_end := 0 }

/-- Method `add_vertex(u)`: the index returned is a `std::uint32_t`. -/
def binary_decision_tree.add_vertex (tree : binary_decision_tree) (u : vertex) :
    Nat × binary_decision_tree :=
  (tree.vertices.length % 2 ^ 32, { tree with vertices := tree.vertices ++ [u] })

/-- The content of the range `u.I`. -/
def binary_decision_tree.range (tree : binary_decision_tree) (u : vertex) : List Nat :=
  (tree.indices.take u.I_end).drop u.I_begin

/-- The index array after the range `[b, e)` has been overwritten in place with `I`. -/
def write_range (indices : List Nat) (b e : Nat) (I : List Nat) : List Nat :=
  indices.take b ++ I ++ indices.drop e

/-- Assignment to the members of the vertex `ui`. -/
def binary_decision_tree.update_vertex (tree : binary_decision_tree) (ui : Nat)
    (f : vertex → vertex) : binary_decision_tree :=
  { tree with vertices := tree.vertices.set ui (f (tree.find_vertex ui)) }

/-! ## Algorithms on trees (`algorithms.h`, `decision_trees.cpp`) -/

/-- The state of the loop of `visit_nodes_bfs`; `out` holds the calls `f(u, ui, depth)` made
so far, as pairs `(ui, depth)`. -/
structure bfs_state where
  todo : List Nat
  depth : Nat
  level : Nat
  out : List (Nat × Nat)

/-- One iteration of the loop `while (!todo.empty())` of `visit_nodes_bfs`. -/
def visit_nodes_bfs_step (tree : binary_decision_tree) (st : bfs_state) : bfs_state :=
  match st.todo with
  | [] => st
  | ui :: todo =>
    let level := st.level - 1
    let u := tree.find_vertex ui
    let todo1 := if u.left ≠ undefined_index then todo ++ [u.left] else todo
    let todo2 := if u.right ≠ undefined_index then todo1 ++ [u.right] else todo1
    let out := st.out ++ [(ui, st.depth)]
    if level = 0 then { todo := todo2, depth := st.depth + 1, level := todo2.length, out := out }
    else { todo := todo2, depth := st.depth, level := level, out := out }

/-- The loop of `visit_nodes_bfs`, with a bound on the number of iterations; `none` when the
bound is reached before the queue is empty. -/
def visit_nodes_bfs_loop (tree : binary_decision_tree) : Nat → bfs_state → Option bfs_state
  | 0, st => if st.todo = [] then some st else none
  | fuel + 1, st =>
    if st.todo = [] then some st else visit_nodes_bfs_loop tree fuel (visit_nodes_bfs_step tree st)

/-- The function `visit_nodes_bfs(tree, f)`: the list of the pairs `(ui, depth)` with which
`f` is called, in order. -/
def visit_nodes_bfs (tree : binary_decision_tree) (fuel : Nat) : Option (List (Nat × Nat)) :=
  (visit_nodes_bfs_loop tree fuel { todo := [0], depth := 0, level := 1, out := [] }).map
    (fun st => st.out)

/-- The function `topological_ordering(tree)`. -/
def topological_ordering (tree : binary_decision_tree) (fuel : Nat) : Option (List Nat) :=
  (visit_nodes_bfs tree fuel).map (fun out => out.map (fun c => c.1 % 2 ^ 32))

/-- The test `mis_classification(counts) <= 0.01` of `node_is_finished`, in exact
arithmetic. -/
def mis_classification_small (counts : List Nat) : Bool :=
  decide (mis_classification counts ≤ 1 / 100)

/-- The function `node_is_finished`, on the content `I` of the range of the vertex. The test
`mis_classification(D, u) <= 0.01`, made on floating point numbers in the source, is the
parameter `small` applied to the class counts of `I`; the theorems hold for every `small`,
`mis_classification_small` is the test in exact arithmetic. -/
def node_is_finished (small : List Nat → Bool) (I : List Nat) (D : dataset) (depth : Nat)
    (options : decision_tree_options) : Bool :=
  decide (I.length ≤ options.min_samples_leaf)
    || small (compute_class_counts D I D.class_count)
    || decide (depth ≥ options.max_depth)

/-! ## `learn_decision_tree` (`learning.h`) -/

/-- The state of the loop of `learn_decision_tree`. -/
structure learn_state (ρ : Type) where
  tree : binary_decision_tree
  rng : ρ
  todo : List Nat
  depth : Nat
  level_count : Nat

/-- The callback passed to `split_family.enumerate`: keeps the first split with the highest
score. -/
def best_split_update {S : Type} (g : gain_function S) (best : S × splitting_criterion)
    (r : split_report) : S × splitting_criterion :=
  let score := g.gain r.D1_counts r.D2_counts
  if g.gt score best.1 then (score, r.split) else best

/-- The part of an iteration of `learn_decision_tree` that is run when `stop` is false for
the vertex `ui`: returns the new tree, generator and queue; `none` stands for an exception. -/
def split_vertex {ρ S : Type} (eng : random_engine ρ) (D : dataset)
    (options : decision_tree_options) (fam : split_family) (g : gain_function S)
    (tree : binary_decision_tree) (rng : ρ) (todo : List Nat) (depth ui : Nat) :
    Option (binary_decision_tree × ρ × List Nat) :=
  let u := tree.find_vertex ui
  let vars := List.range D.feature_count
  let max_features := min options.max_features D.feature_count
  let Z := eng.sample vars max_features rng
  match fam.enumerate D options (tree.range u) Z.1 with
  | none => none
  | some (I', reports) =>
    let tree1 := { tree with indices := write_range tree.indices u.I_begin u.I_end I' }
    let best := reports.foldl (best_split_update g) (g.lowest, splitting_criterion.monostate)
    if best.2 = splitting_criterion.monostate then some (tree1, Z.2, todo)
    else
      let tree2 := tree1.update_vertex ui (fun w => { w with split := best.2 })
      match apply_split eng best.2 D (tree2.range u) Z.2 options.support_missing_values with
      | none => none
      | some ((I1, I2), rng2) =>
        let tree3 := { tree2 with
          indices := write_range tree2.indices u.I_begin u.I_end (I1 ++ I2) }
        let mid := u.I_begin + I1.length
        let l := tree3.add_vertex { I_begin := u.I_begin, I_end := mid }
        let r := l.2.add_vertex { I_begin := mid, I_end := u.I_end }
        let tree4 := r.2.update_vertex ui (fun w => { w with left := l.1, right := r.1 })
        some (tree4, rng2, if depth < options.max_depth then todo ++ [l.1, r.1] else todo)

/-- One iteration of the loop `while (!todo.empty())` of `learn_decision_tree`; `stop` is
given the content of the range of the vertex. `none` stands for an exception. The counter
`level_count` is at least 1 when a vertex is taken from the queue, so that `level_count--`
does not wrap. -/
def learn_step {ρ S : Type} (eng : random_engine ρ) (D : dataset)
    (options : decision_tree_options) (fam : split_family) (g : gain_function S)
    (stop : List Nat → dataset → Nat → decision_tree_options → Bool)
    (st : learn_state ρ) : Option (learn_state ρ) :=
  match st.todo with
  | [] => some st
  | ui :: todo =>
    let level_count := st.level_count - 1
    let u := st.tree.find_vertex ui
    let res :=
      if !stop (st.tree.range u) D st.depth options then
        split_vertex eng D options fam g st.tree st.rng todo st.depth ui
      else some (st.tree, st.rng, todo)
    match res with
    | none => none
    | some (tree, rng, todo2) =>
      if level_count = 0 then
        some { tree := tree, rng := rng, todo := todo2, depth := st.depth + 1,
               level_count := todo2.length }
      else
        some { tree := tree, rng := rng, todo := todo2, depth := st.depth,
               level_count := level_count }

/-- The possible outcomes of the model of `learn_decision_tree`. -/
inductive learn_result where
  | returned (tree : binary_decision_tree)
  | exception
  | out_of_fuel
deriving DecidableEq

/-- The loop of `learn_decision_tree` with a bound on the number of iterations. -/
def learn_loop {ρ S : Type} (eng : random_engine ρ) (D : dataset)
    (options : decision_tree_options) (fam : split_family) (g : gain_function S)
    (stop : List Nat → dataset → Nat → decision_tree_options → Bool) :
    Nat → learn_state ρ → learn_result
  | 0, st => if st.todo = [] then .returned st.tree else .out_of_fuel
  | fuel + 1, st =>
    if st.todo = [] then .returned st.tree
    else
      match learn_step eng D options fam g stop st with
      | none => .exception
      | some st2 => learn_loop eng D options fam g stop fuel st2

/-- The function `learn_decision_tree(D, I, options, split_family, gain, stop, seed)`; the
generator `std::mt19937 rng{seed}` is the state `seed`. -/
def learn_decision_tree {ρ S : Type} (eng : random_engine ρ) (D : dataset) (I : List Nat)
    (options : decision_tree_options) (fam : split_family) (g : gain_function S)
    (stop : List Nat → dataset → Nat → decision_tree_options → Bool) (seed : ρ)
    (fuel : Nat) : learn_result :=
  learn_loop eng D options fam g stop fuel
    { tree := binary_decision_tree.make D I, rng := seed, todo := [0], depth := 0,
      level_count := 1 }

/-! ## Specification predicates -/

/-- The class counts of a list of samples, as the specification states them: entry `k` is
the number of samples of the list whose class is `k`, for `k < K`. -/
def count_classes (D : dataset) (K : Nat) (l : List Nat) : List Nat :=
  (List.range K).map (fun k => l.countP (fun i => D.class_of i = k))

/-- The number held by a value; 0 for NaN. -/
def Value.key : Value → ℚ
  | .num q => q
  | .nan => 0

/-- The report that the specification asks for the single split on the value `c`: the class
counts of the samples of `I` whose value of `v` equals `c`, and of all other samples. -/
def single_split_report (D : dataset) (K v : Nat) (I : List Nat) (c : Value) : split_report :=
  { split := .single ⟨v, c⟩,
    D1_counts := count_classes D K (I.filter (fun i => (D.at i v).eq c)),
    D2_counts := count_classes D K (I.filter (fun i => !(D.at i v).eq c)) }

/-- The number of non-leaf vertices among the first `k` vertices. -/
def nonleaf_count (vs : List vertex) (k : Nat) : Nat :=
  (vs.take k).countP (fun u => !u.is_leaf)

/-- The vertex array is numbered breadth first: the children of the non-leaf vertices, taken
in index order, are 1 and 2, then 3 and 4, and so on, and every vertex but the root is such
a child. -/
structure bfs_numbered (vs : List vertex) : Prop where
  links : ∀ i, i < vs.length →
    (vs.getD i { I_begin := 0, I_end := 0 }).is_leaf = true ∨
    ((vs.getD i { I_begin := 0, I_end := 0 }).left = 1 + 2 * nonleaf_count vs i ∧
     (vs.getD i { I_begin := 0, I_end := 0 }).right = 2 + 2 * nonleaf_count vs i)
  size : vs.length = 1 + 2 * nonleaf_count vs vs.length
  lower : ∀ k, k < vs.length → k ≤ 2 * nonleaf_count vs k

/-- The ranges of the vertices fit in the index array, the root spans the array, and the
ranges of the two children of a vertex are `[begin, mid)` and `[mid, end)`. -/
structure ranges_nested (tree : binary_decision_tree) : Prop where
  bounds : ∀ i, i < tree.vertices.length →
    (tree.find_vertex i).I_begin ≤ (tree.find_vertex i).I_end ∧
    (tree.find_vertex i).I_end ≤ tree.indices.length
  root : (tree.find_vertex 0).I_begin = 0 ∧ (tree.find_vertex 0).I_end = tree.indices.length
  children : ∀ i, i < tree.vertices.length → (tree.find_vertex i).is_leaf = false →
    (tree.find_vertex (tree.find_vertex i).left).I_begin = (tree.find_vertex i).I_begin ∧
    (tree.find_vertex (tree.find_vertex i).left).I_end =
      (tree.find_vertex (tree.find_vertex i).right).I_begin ∧
    (tree.find_vertex (tree.find_vertex i).right).I_end = (tree.find_vertex i).I_end

/-- The invariant of the loop of `learn_decision_tree`. -/
structure learn_inv {ρ : Type} (st : learn_state ρ) : Prop where
  numbered : bfs_numbered st.tree.vertices
  nested : ranges_nested st.tree
  sorted : st.todo.Pairwise (fun a b => a < b)
  pending : ∀ t ∈ st.todo, t < st.tree.vertices.length ∧ (st.tree.find_vertex t).is_leaf = true
  behind : ∀ i, i < st.tree.vertices.length → (st.tree.find_vertex i).is_leaf = false →
    ∀ t ∈ st.todo, i < t

/-- The invariant on the depth counters of the loop of `learn_decision_tree`, when the stop
criterion is `node_is_finished`: the first `level_count` vertices of the queue are at depth
`depth`, the others one level deeper, and no vertex of the queue is deeper than
`max_depth`. -/
def depth_inv {ρ : Type} (options : decision_tree_options) (st : learn_state ρ) : Prop :=
  st.todo ≠ [] → 1 ≤ st.level_count ∧ st.level_count ≤ st.todo.length ∧
    st.depth ≤ options.max_depth ∧
    (st.level_count < st.todo.length → st.depth < options.max_depth)

/-! ## Test data -/

/-- The dataset of `test_apply_split` in `decision_tree_test.cpp`. -/
def test_apply_split_dataset : dataset :=
  { X := [[.num 2, .num 4, .num 0], [.num 1, .num 3, .num 0],
          [.num 3, .num 3, .num 1], [.num 2, .num 3, .num 1]],
    category_counts := [4, 5, 2] }

/-- The index range `{0, 1, 2, 3}` of `test_apply_split`. -/
def test_range : List Nat := [0, 1, 2, 3]

/-- The default constructed `decision_tree_options`. -/
def default_options : decision_tree_options := {}

/-- A random engine that always answers `false` and samples the first `n` variables. -/
def const_engine : random_engine Unit :=
  { random_bool := fun s => (false, s), sample := fun vars n s => (vars.take n, s) }

/-- The tree learned from the data of `test_apply_split` with single and threshold splits. -/
def test_tree : binary_decision_tree :=
  { vertices := [⟨0, 4, 1, 2, .single ⟨0, .num 1⟩⟩,
      ⟨0, 1, undefined_index, undefined_index, .monostate⟩,
      ⟨1, 4, 3, 4, .single ⟨1, .num 3⟩⟩,
      ⟨1, 3, undefined_index, undefined_index, .monostate⟩,
      ⟨3, 4, undefined_index, undefined_index, .monostate⟩],
    indices := [1, 3, 2, 0], classes := [0, 0, 1, 1], category_counts := [4, 5, 2] }

/-- The tree learned from the data of `test_apply_split` with `max_depth = 1`. -/
def test_tree_depth_one : binary_decision_tree :=
  { vertices := [⟨0, 4, 1, 2, .single ⟨0, .num 1⟩⟩,
      ⟨0, 1, undefined_index, undefined_index, .monostate⟩,
      ⟨1, 4, undefined_index, undefined_index, .monostate⟩],
    indices := [1, 3, 2, 0], classes := [0, 0, 1, 1], category_counts := [4, 5, 2] }

/-- The dataset of `test_subset_split` in `decision_tree_test.cpp`: one variable with ten
categories, all present, and four classes. -/
def test_subset_split_dataset : dataset :=
  { X := [[.num 0, .num 0], [.num 1, .num 2], [.num 2, .num 1], [.num 3, .num 1],
          [.num 4, .num 2], [.num 5, .num 0], [.num 6, .num 2], [.num 7, .num 3],
          [.num 8, .num 0], [.num 9, .num 3]],
    category_counts := [10, 4] }

/-- A dataset with one variable of four categories, of which the categories 0, 2 and 3 are
present, and two classes. -/
def gap_dataset : dataset :=
  { X := [[.num 0, .num 0], [.num 2, .num 1], [.num 3, .num 1]], category_counts := [4, 2] }

/-- A dataset with one variable of three categories, of which the categories 1 and 2 are
present, and two classes. -/
def gap2_dataset : dataset :=
  { X := [[.num 1, .num 0], [.num 2, .num 1]], category_counts := [3, 2] }

/-- A dataset with one variable of four categories (0, 2 and 3 present) and two classes:
two samples of category 0 and one of category 2 in class 0, two of category 3 in class 1. -/
def leaf_size_dataset : dataset :=
  { X := [[.num 0, .num 0], [.num 0, .num 0], [.num 2, .num 0], [.num 3, .num 1],
          [.num 3, .num 1]],
    category_counts := [4, 2] }

/-- The options of the run on `leaf_size_dataset`: `min_samples_leaf = 2`. -/
def leaf_size_options : decision_tree_options := { min_samples_leaf := 2 }

/-- The tree that `learn_decision_tree` returns on `leaf_size_dataset` with subset splits. -/
def leaf_size_tree : binary_decision_tree :=
  { vertices := [⟨0, 5, 1, 2, .subset ⟨0, 9⟩⟩, ⟨0, 4, 3, 4, .subset ⟨0, 1⟩⟩,
      ⟨4, 5, undefined_index, undefined_index, .monostate⟩,
      ⟨0, 2, undefined_index, undefined_index, .monostate⟩,
      ⟨2, 4, undefined_index, undefined_index, .monostate⟩],
    indices := [0, 1, 4, 3, 2], classes := [0, 0, 0, 1, 1], category_counts := [4, 2] }

/-! ## The impurity measures and `gain1` (`impurity.h`) -/

/-- The function `cross_entropy(counts)`; `std::log2` is the parameter `log2`. -/
def cross_entropy (log2 : ℚ → ℚ) (counts : List Nat) : ℚ :=
  -(counts.map (fun count_k =>
      ((count_k : ℚ) / (counts.sum : ℚ) + 1 / 10 ^ 12) *
        log2 ((count_k : ℚ) / (counts.sum : ℚ) + 1 / 10 ^ 12))).sum

/-- The function `impurity(imp, counts)`. -/
def impurity (log2 : ℚ → ℚ) (imp : impurity_measure) (counts : List Nat) : ℚ :=
  match imp with
  | .gini => gini_index counts
  | .entropy => cross_entropy log2 counts
  | .mis_classification => mis_classification counts

/-- The functor `gain1` for the impurity function `imp`. -/
def gain1 (imp : List Nat → ℚ) (D1_counts D2_counts : List Nat) : ℚ :=
  -((D1_counts.sum : ℚ) * imp D1_counts + (D2_counts.sum : ℚ) * imp D2_counts)

/-- A dataset with a variable of 33 categories, of which 0 and 1 are present, and two
classes. -/
def wide_dataset : dataset :=
  { X := [[.num 0, .num 0], [.num 1, .num 1]], category_counts := [33, 2] }

/-- A category of the variable `v` is present in `I`: it is the value of `v` in a sample of
`I` that `enumerate_subset_splits` takes into account (with `support_missing_values` the
samples with a missing value are left out). -/
def category_present (D : dataset) (options : decision_tree_options) (I : List Nat)
    (v c : Nat) : Prop :=
  ∃ i ∈ I, (D.at i v).to_size_t = c ∧
    (options.support_missing_values = true → is_missing (D.at i v) = false)

/-! ## Arithmetic on doubles, without rounding

The operations of the exact model, in which the result of an operation on two numbers is the
exact result. The operations with the rounding of the type `double` are those of `binary64`
below. -/

/-- Addition of doubles; NaN is absorbing. -/
def Value.add : Value → Value → Value
  | .num a, .num b => .num (a + b)
  | _, _ => .nan

/-- Subtraction of doubles; NaN is absorbing. -/
def Value.sub : Value → Value → Value
  | .num a, .num b => .num (a - b)
  | _, _ => .nan

/-- Multiplication of doubles; NaN is absorbing. -/
def Value.mul : Value → Value → Value
  | .num a, .num b => .num (a * b)
  | _, _ => .nan

/-- Division of doubles. The model has no infinities: a division by zero gives NaN, which is
the result of `0 / 0`. -/
def Value.div : Value → Value → Value
  | .num a, .num b => if b = 0 then .nan else .num (a / b)
  | _, _ => .nan

/-- Comparison `<=` on doubles; false as soon as one side is NaN. -/
def Value.le : Value → Value → Bool
  | .num a, .num b => decide (a ≤ b)
  | _, _ => false

/-- The function `std::fabs`. -/
def Value.fabs : Value → Value
  | .num a => .num |a|
  | .nan => .nan

/-- The function `aitools::sum` on a sequence of doubles, in exact arithmetic. -/
def Value.sum (l : List Value) : Value :=
  l.foldl Value.add (.num 0)

/-! ## Binary64 arithmetic

The arithmetic of the type `double` (IEEE 754 binary64) on numbers: the result of an
operation is the exact result rounded to the nearest double, ties to the double with an even
significand. A result above `double_max`, which the hardware turns into an infinity, is not in
the model (the type `Value` has no infinities); the operations are not contracted into fused
multiply and add. -/

/-- The power `2 ^ e` for an integer `e`. -/
def binary64.pow2 (e : Int) : ℚ :=
  if 0 ≤ e then ((2 ^ e.toNat : Nat) : ℚ) else 1 / ((2 ^ (-e).toNat : Nat) : ℚ)

/-- The number of times that `n` can be halved before it is below 2, with a bound on the
number of steps. -/
def binary64.log2_loop : Nat → Nat → Nat
  | 0, _ => 0
  | fuel + 1, n => if n < 2 then 0 else 1 + binary64.log2_loop fuel (n / 2)

/-- The position of the leading bit of `n`: `2 ^ log2 n <= n < 2 ^ (log2 n + 1)` for a
positive `n`. -/
def binary64.log2 (n : Nat) : Nat :=
  binary64.log2_loop n n

/-- The exponent `e` of a number `q` that is not zero: `2 ^ e <= |q| < 2 ^ (e + 1)`. -/
def binary64.exponent (q : ℚ) : Int :=
  let e0 : Int := (binary64.log2 q.num.natAbs : Int) - (binary64.log2 q.den : Int)
  if binary64.pow2 e0 ≤ |q| then e0 else e0 - 1

/-- The integer nearest to `q`, the even one of the two when `q` is halfway between two
integers. -/
def binary64.nearest_even (q : ℚ) : Int :=
  if q - ⌊q⌋ < 1 / 2 then ⌊q⌋
  else if 1 / 2 < q - ⌊q⌋ then ⌊q⌋ + 1
  else if ⌊q⌋ % 2 = 0 then ⌊q⌋ else ⌊q⌋ + 1

/-- The unit in the last place of the doubles around `q`: `2 ^ (e - 52)` for the exponent `e`
of `q`, and `2 ^ (-1074)` for the subnormal numbers, below `2 ^ (-1022)`. -/
def binary64.ulp (q : ℚ) : ℚ :=
  binary64.pow2 (max (binary64.exponent q) (-1022) - 52)

/-- The double nearest to the number `q`: the rounding that every operation on doubles ends
with. -/
def binary64.round (q : ℚ) : ℚ :=
  if q = 0 then 0 else (binary64.nearest_even (q / binary64.ulp q) : ℚ) * binary64.ulp q

/-- The conversion of a `std::size_t` to `double`. -/
def binary64.of_nat (n : Nat) : Value :=
  .num (binary64.round n)

/-- The operator `+` on doubles; NaN is absorbing. -/
def binary64.add : Value → Value → Value
  | .num a, .num b => .num (binary64.round (a + b))
  | _, _ => .nan

/-- The operator `-` on doubles; NaN is absorbing. -/
def binary64.sub : Value → Value → Value
  | .num a, .num b => .num (binary64.round (a - b))
  | _, _ => .nan

/-- The operator `*` on doubles; NaN is absorbing. -/
def binary64.mul : Value → Value → Value
  | .num a, .num b => .num (binary64.round (a * b))
  | _, _ => .nan

/-- The operator `/` on doubles. The model has no infinities: a division by zero gives NaN,
which is the result of `0 / 0`. -/
def binary64.div : Value → Value → Value
  | .num a, .num b => if b = 0 then .nan else .num (binary64.round (a / b))
  | _, _ => .nan

/-- The function `aitools::sum` on a sequence of doubles: `std::accumulate` from `0.0`. -/
def binary64.sum (l : List Value) : Value :=
  l.foldl binary64.add (.num 0)

/-- The functions of `<cmath>` and `boost::math` that the circuits call, and the constant
`infinity` negated. They are parameters of the model. -/
structure math_library where
  log : Value → Value
  sqrt : Value → Value
  log_sum_exp : List Value → Value
  neg_infinity : Value
  normal_pdf : Value → Value → Value → Value
  normal_cdf : Value → Value → Value → Value

/-- The possible outcomes of a function that may throw an exception, with a bound on the
depth of the recursion or on the number of iterations. -/
inductive outcome (α : Type) where
  | returned (a : α)
  | exception
  | out_of_fuel
deriving DecidableEq

/-! ## The nodes of a probabilistic circuit (`probabilistic_circuit_nodes.h`,
`generative_forest_nodes.h`) -/

/-- The classes derived from `terminal_node`, with their members except the scope. The
members `m_value` of `less_node` and `greater_equal_node` are of type `int`. -/
inductive terminal_kind where
  | categorical (p : List Value)
  | normal (mean standard_deviation : Value)
  | truncated_normal (mean standard_deviation a b : Value)
  | less (value : Int)
  | greater_equal (value : Int)
  | equal (value : Value)
  | not_equal (value : Value)
  | subset (mask : Nat)
deriving DecidableEq

/-- The classes derived from `pc_node`, with their members. -/
inductive pc_node_kind where
  | sum (weights : List Value)
  | sum_split (weights : List Value) (splitter : splitting_criterion)
  | product
  | terminal (scope : Nat) (dist : terminal_kind)
deriving DecidableEq

/-- A node of class `pc_node`. A `pc_node_ptr` is the position of the node in the list of all
nodes that have been allocated. The member `value` is kept apart, in a map from pointers to
values. -/
structure pc_node where
  kind : pc_node_kind
  successors : List Nat
deriving DecidableEq

/-- The class `probabilistic_circuit`: the pointer `m_root` and `m_category_counts`, together
with the nodes allocated. -/
structure probabilistic_circuit where
  nodes : List pc_node
  root : Nat
  category_counts : List Nat
deriving DecidableEq

/-- The node behind a pointer. A pointer never dangles in the source; outside of the
allocated nodes the model answers a product node without successors. -/
def probabilistic_circuit.node (pc : probabilistic_circuit) (u : Nat) : pc_node :=
  pc.nodes.getD u { kind := .product, successors := [] }

/-- The call `u->successors()`. -/
def probabilistic_circuit.successors (pc : probabilistic_circuit) (u : Nat) : List Nat :=
  (pc.node u).successors

/-- Method `categorical_distribution::pdf`: `none` stands for the exceptions thrown by `val`
for a value that is not an integer or not below the number of probabilities. -/
def categorical_pdf (p : List Value) (x : Value) : Option Value :=
  match x with
  | .nan => none
  | .num q =>
    if q.den ≠ 1 then none
    else if q < 0 then none
    else if p.length ≤ q.num.toNat then none
    else some (p.getD q.num.toNat .nan)

/-- Method `truncated_normal_distribution::pdf`. -/
def truncated_normal_pdf (lib : math_library) (mean sd a b x : Value) : Value :=
  if x.lt a then .num 0
  else if b.lt x then .num 1
  else (lib.normal_pdf mean sd x).div ((lib.normal_cdf mean sd b).sub (lib.normal_cdf mean sd a))

/-- The method `contains` of the indicator nodes `less_node`, `greater_equal_node`,
`equal_node`, `not_equal_node` and `subset_node`. -/
def indicator_contains (dist : terminal_kind) (x : Value) : Bool :=
  match dist with
  | .less v => is_missing x || x.lt (.num v)
  | .greater_equal v => is_missing x || Value.le (.num v) x
  | .equal v => is_missing x || x.eq v
  | .not_equal v => !is_missing x && !x.eq v
  | .subset mask => is_missing x || is_bit_set mask x.to_size_t
  | _ => false

/-- Method `evi` of a terminal node with scope `scope`; `none` stands for an exception. An
input `x` without an entry for the scope is undefined in C++; the model reads NaN. -/
def terminal_evi (lib : math_library) (scope : Nat) (dist : terminal_kind) (x : List Value) :
    Option Value :=
  let x_i := x.getD scope .nan
  match dist with
  | .categorical p => if is_missing x_i then some (.num 1) else categorical_pdf p x_i
  | .normal mean sd => if is_missing x_i then some (.num 1) else some (lib.normal_pdf mean sd x_i)
  | .truncated_normal mean sd a b =>
    if is_missing x_i then some (.num 1) else some (truncated_normal_pdf lib mean sd a b x_i)
  | d => some (if indicator_contains d x_i then .num 1 else .num 0)

/-- Method `log_evi` of a terminal node. -/
def terminal_log_evi (lib : math_library) (scope : Nat) (dist : terminal_kind)
    (x : List Value) : Option Value :=
  match dist with
  | .categorical _ | .normal _ _ | .truncated_normal _ _ _ _ =>
    (terminal_evi lib scope dist x).map lib.log
  | d => some (if indicator_contains d (x.getD scope .nan) then .num 0 else lib.neg_infinity)

/-- The loop of `sum_node::evi`: `result += m_weights[i] * m_successors[i]->evi(x)`; `ev` is
the evaluation of a successor. A missing weight is undefined in C++, the model reads NaN. -/
def sum_node_loop (ev : Nat → outcome Value) (weights : List Value) :
    List Nat → Nat → Value → outcome Value
  | [], _, result => .returned result
  | v :: vs, i, result =>
    match ev v with
    | .returned r =>
      sum_node_loop ev weights vs (i + 1) (result.add ((weights.getD i .nan).mul r))
    | .exception => .exception
    | .out_of_fuel => .out_of_fuel

/-- The body of `sum_split_node::evi`: `m_weights[i] * m_successors[i]->evi(x)` for
`i = select(m_splitter, x)`. A missing successor is undefined in C++; the model gives an
exception. -/
def sum_split_node_body (ev : Nat → outcome Value) (weights : List Value)
    (splitter : splitting_criterion) (successors : List Nat) (x : List Value) :
    outcome Value :=
  match successors.get? (select splitter x) with
  | none => .exception
  | some v =>
    match ev v with
    | .returned r => .returned ((weights.getD (select splitter x) .nan).mul r)
    | .exception => .exception
    | .out_of_fuel => .out_of_fuel

/-- The loop of `product_node::evi`: `result *= m_successors[i]->evi(x)`, left as soon as
`result <= 0`. -/
def product_node_loop (ev : Nat → outcome Value) : List Nat → Value → outcome Value
  | [], result => .returned result
  | v :: vs, result =>
    match ev v with
    | .returned r =>
      if (result.mul r).le (.num 0) then .returned (result.mul r)
      else product_node_loop ev vs (result.mul r)
    | .exception => .exception
    | .out_of_fuel => .out_of_fuel

/-- The virtual method `evi(x)` of the node behind `u`; the first argument bounds the depth
of the recursion. -/
def pc_node.evi (lib : math_library) (pc : probabilistic_circuit) (x : List Value) :
    Nat → Nat → outcome Value
  | 0, _ => .out_of_fuel
  | fuel + 1, u =>
    match (pc.node u).kind with
    | .sum weights =>
      sum_node_loop (pc_node.evi lib pc x fuel) weights (pc.successors u) 0 (.num 0)
    | .sum_split weights splitter =>
      sum_split_node_body (pc_node.evi lib pc x fuel) weights splitter (pc.successors u) x
    | .product => product_node_loop (pc_node.evi lib pc x fuel) (pc.successors u) (.num 1)
    | .terminal scope dist =>
      match terminal_evi lib scope dist x with
      | some r => .returned r
      | none => .exception

/-- The function `evi_query_recursive`. -/
def evi_query_recursive (lib : math_library) (pc : probabilistic_circuit) (x : List Value)
    (fuel : Nat) : outcome Value :=
  pc_node.evi lib pc x fuel pc.root

/-- The loop of `sum_node::log_evi`: `result[i] = std::log(m_weights[i]) +
m_successors[i]->log_evi(x)`; returns the array `result`. -/
def log_sum_node_loop (lib : math_library) (ev : Nat → outcome Value) (weights : List Value) :
    List Nat → Nat → List Value → outcome (List Value)
  | [], _, result => .returned result
  | v :: vs, i, result =>
    match ev v with
    | .returned r =>
      log_sum_node_loop lib ev weights vs (i + 1)
        (result ++ [(lib.log (weights.getD i .nan)).add r])
    | .exception => .exception
    | .out_of_fuel => .out_of_fuel

/-- The body of `sum_split_node::log_evi`. -/
def log_sum_split_node_body (lib : math_library) (ev : Nat → outcome Value)
    (weights : List Value) (splitter : splitting_criterion) (successors : List Nat)
    (x : List Value) : outcome Value :=
  match successors.get? (select splitter x) with
  | none => .exception
  | some v =>
    match ev v with
    | .returned r => .returned ((lib.log (weights.getD (select splitter x) .nan)).add r)
    | .exception => .exception
    | .out_of_fuel => .out_of_fuel

/-- The loop of `product_node::log_evi`: `result += m_successors[i]->log_evi(x)`, left as
soon as `result <= -infinity`. -/
def log_product_node_loop (lib : math_library) (ev : Nat → outcome Value) :
    List Nat → Value → outcome Value
  | [], result => .returned result
  | v :: vs, result =>
    match ev v with
    | .returned r =>
      if (result.add r).le lib.neg_infinity then .returned (result.add r)
      else log_product_node_loop lib ev vs (result.add r)
    | .exception => .exception
    | .out_of_fuel => .out_of_fuel

/-- The virtual method `log_evi(x)` of the node behind `u`. -/
def pc_node.log_evi (lib : math_library) (pc : probabilistic_circuit) (x : List Value) :
    Nat → Nat → outcome Value
  | 0, _ => .out_of_fuel
  | fuel + 1, u =>
    match (pc.node u).kind with
    | .sum weights =>
      match log_sum_node_loop lib (pc_node.log_evi lib pc x fuel) weights (pc.successors u) 0 []
        with
      | .returned result => .returned (lib.log_sum_exp result)
      | .exception => .exception
      | .out_of_fuel => .out_of_fuel
    | .sum_split weights splitter =>
      log_sum_split_node_body lib (pc_node.log_evi lib pc x fuel) weights splitter
        (pc.successors u) x
    | .product =>
      log_product_node_loop lib (pc_node.log_evi lib pc x fuel) (pc.successors u) (.num 0)
    | .terminal scope dist =>
      match terminal_log_evi lib scope dist x with
      | some r => .returned r
      | none => .exception

/-- The virtual method `evi_iterative(x)` of the node behind `u`: returns the map of the
members `value` with the new value of `u`. Sum and sum-split nodes read the member `value` of
their successors, product and terminal nodes call `evi`. -/
def pc_node.evi_iterative (lib : math_library) (pc : probabilistic_circuit) (x : List Value)
    (fuel : Nat) (value : Nat → Value) (u : Nat) : outcome (Nat → Value) :=
  let res : outcome Value :=
    match (pc.node u).kind with
    | .sum weights =>
      sum_node_loop (fun v => .returned (value v)) weights (pc.successors u) 0 (.num 0)
    | .sum_split weights splitter =>
      sum_split_node_body (fun v => .returned (value v)) weights splitter (pc.successors u) x
    | .product => product_node_loop (pc_node.evi lib pc x fuel) (pc.successors u) (.num 1)
    | .terminal scope dist =>
      match terminal_evi lib scope dist x with
      | some r => .returned r
      | none => .exception
  match res with
  | .returned r => .returned (Function.update value u r)
  | .exception => .exception
  | .out_of_fuel => .out_of_fuel

/-- The virtual method `log_evi_iterative(x)` of the node behind `u`. Only sum-split nodes
read the member `value` of a successor; the other nodes call `log_evi`. -/
def pc_node.log_evi_iterative (lib : math_library) (pc : probabilistic_circuit)
    (x : List Value) (fuel : Nat) (value : Nat → Value) (u : Nat) : outcome (Nat → Value) :=
  let res : outcome Value :=
    match (pc.node u).kind with
    | .sum weights =>
      match log_sum_node_loop lib (pc_node.log_evi lib pc x fuel) weights (pc.successors u) 0 []
        with
      | .returned result => .returned (lib.log_sum_exp result)
      | .exception => .exception
      | .out_of_fuel => .out_of_fuel
    | .sum_split weights splitter =>
      log_sum_split_node_body lib (fun v => .returned (value v)) weights splitter
        (pc.successors u) x
    | .product =>
      log_product_node_loop lib (pc_node.log_evi lib pc x fuel) (pc.successors u) (.num 0)
    | .terminal scope dist =>
      match terminal_log_evi lib scope dist x with
      | some r => .returned r
      | none => .exception
  match res with
  | .returned r => .returned (Function.update value u r)
  | .exception => .exception
  | .out_of_fuel => .out_of_fuel

/-- The loop `for (const auto& u: U) u->evi_iterative(x)` of `evi_query_iterative`, or the
one of `log_evi_query_iterative`, for the method `f`. -/
def iterative_loop (f : (Nat → Value) → Nat → outcome (Nat → Value)) :
    List Nat → (Nat → Value) → outcome (Nat → Value)
  | [], value => .returned value
  | u :: U, value =>
    match f value u with
    | .returned value2 => iterative_loop f U value2
    | .exception => .exception
    | .out_of_fuel => .out_of_fuel

/-! ## Algorithms on circuits (`probabilistic_circuits/algorithms.h`,
`probabilistic_circuits.cpp`) -/

/-- One iteration of the loop `while (!todo.empty())` of `visit_nodes_bfs(pc, f)`. -/
def probabilistic_circuit.visit_nodes_bfs_step (pc : probabilistic_circuit) (st : bfs_state) :
    bfs_state :=
  match st.todo with
  | [] => st
  | u :: todo =>
    let level := st.level - 1
    let todo1 := if (pc.successors u).isEmpty then todo else todo ++ pc.successors u
    let out := st.out ++ [(u, st.depth)]
    if level = 0 then { todo := todo1, depth := st.depth + 1, level := todo1.length, out := out }
    else { todo := todo1, depth := st.depth, level := level, out := out }

/-- The loop of `visit_nodes_bfs(pc, f)`, with a bound on the number of iterations. -/
def probabilistic_circuit.visit_nodes_bfs_loop (pc : probabilistic_circuit) :
    Nat → bfs_state → Option bfs_state
  | 0, st => if st.todo = [] then some st else none
  | fuel + 1, st =>
    if st.todo = [] then some st
    else probabilistic_circuit.visit_nodes_bfs_loop pc fuel (pc.visit_nodes_bfs_step st)

/-- The function `visit_nodes_bfs(pc, f)`: the list of the pairs `(u, depth)` with which `f`
is called, in order. -/
def probabilistic_circuit.visit_nodes_bfs (pc : probabilistic_circuit) (fuel : Nat) :
    Option (List (Nat × Nat)) :=
  (pc.visit_nodes_bfs_loop fuel { todo := [pc.root], depth := 0, level := 1, out := [] }).map
    (fun st => st.out)

/-- The function `probabilistic_circuit_size`. -/
def probabilistic_circuit_size (pc : probabilistic_circuit) (fuel : Nat) : Option Nat :=
  (pc.visit_nodes_bfs fuel).map (fun out => out.length)

/-- The enumeration `colors` of `topological_ordering`. -/
inductive colors where
  | white
  | gray
  | black
deriving DecidableEq

/-- The two nested loops of `topological_ordering(pc)`, for the current pair `(u, E)`; the
color map answers white for a node that it does not hold. The clauses are: the end of the
last iteration of the outer loop; the end of an iteration of the outer loop and the pop that
starts the next one; an iteration of the inner loop. -/
def dfs_loop (pc : probabilistic_circuit) :
    Nat → Nat → List Nat → (Nat → colors) → List Nat → List (Nat × List Nat) →
    Option (List Nat)
  | 0, _, _, _, _, _ => none
  | _ + 1, u, [], _, result, [] => some (result ++ [u])
  | fuel + 1, u, [], color, result, (u2, E2) :: dfs_stack =>
    dfs_loop pc fuel u2 E2 (Function.update color u colors.black) (result ++ [u]) dfs_stack
  | fuel + 1, u, v :: E, color, result, dfs_stack =>
    if color v = colors.white then
      dfs_loop pc fuel v (pc.successors v) (Function.update color v colors.gray) result
        ((u, E) :: dfs_stack)
    else dfs_loop pc fuel u E color result dfs_stack

/-- The function `topological_ordering(pc)`. It starts with a call of
`probabilistic_circuit_size`, whose result is used to reserve memory only. -/
def probabilistic_circuit.topological_ordering (pc : probabilistic_circuit) (fuel : Nat) :
    Option (List Nat) :=
  match probabilistic_circuit_size pc fuel with
  | none => none
  | some _ =>
    dfs_loop pc fuel pc.root (pc.successors pc.root)
      (Function.update (fun _ => colors.white) pc.root colors.gray) [] []

/-- The function `evi_query_iterative(pc, x)`; the members `value` start at zero. -/
def evi_query_iterative (lib : math_library) (pc : probabilistic_circuit) (x : List Value)
    (fuel : Nat) : outcome Value :=
  match pc.topological_ordering fuel with
  | none => .out_of_fuel
  | some U =>
    match iterative_loop (pc_node.evi_iterative lib pc x fuel) U (fun _ => .num 0) with
    | .returned value => .returned (value pc.root)
    | .exception => .exception
    | .out_of_fuel => .out_of_fuel

/-- The function `log_evi_query_iterative(pc, x)`. -/
def log_evi_query_iterative (lib : math_library) (pc : probabilistic_circuit) (x : List Value)
    (fuel : Nat) : outcome Value :=
  match pc.topological_ordering fuel with
  | none => .out_of_fuel
  | some U =>
    match iterative_loop (pc_node.log_evi_iterative lib pc x fuel) U (fun _ => .num 0) with
    | .returned value => .returned (value pc.root)
    | .exception => .exception
    | .out_of_fuel => .out_of_fuel

/-- The loop over the successors of a sum node in `smoothness_checker::scope`; `sc` is the
recursive call, which reads and updates the member `result`. -/
def smoothness_sum_loop (sc : Nat → Bool → Option (Finset Nat × Bool)) :
    List Nat → Finset Nat → Bool → Option (Finset Nat × Bool)
  | [], scope_u, result => some (scope_u, result)
  | v :: vs, scope_u, result =>
    match sc v result with
    | none => none
    | some (scope_v, result2) =>
      if scope_u = ∅ then smoothness_sum_loop sc vs scope_v result2
      else if scope_v ≠ scope_u then smoothness_sum_loop sc vs scope_u false
      else smoothness_sum_loop sc vs scope_u result2

/-- The loop `scope_u = set_union(scope_u, scope(v))` over the successors of a node, in
both checkers. -/
def scope_union_loop (sc : Nat → Bool → Option (Finset Nat × Bool)) :
    List Nat → Finset Nat → Bool → Option (Finset Nat × Bool)
  | [], scope_u, result => some (scope_u, result)
  | v :: vs, scope_u, result =>
    match sc v result with
    | none => none
    | some (scope_v, result2) => scope_union_loop sc vs (scope_u ∪ scope_v) result2

/-- The method `smoothness_checker::scope(u)`; the member `result` is passed in and returned
with the scope. `none` when the bound on the depth of the recursion is reached. -/
def smoothness_checker.scope (pc : probabilistic_circuit) :
    Nat → Nat → Bool → Option (Finset Nat × Bool)
  | 0, _, _ => none
  | fuel + 1, u, result =>
    if !result then some (∅, result)
    else
      match (pc.node u).kind with
      | .terminal scope _ => some ({scope}, result)
      | .sum _ | .sum_split _ _ =>
        smoothness_sum_loop (smoothness_checker.scope pc fuel) (pc.successors u) ∅ result
      | .product =>
        scope_union_loop (smoothness_checker.scope pc fuel) (pc.successors u) ∅ result

/-- The function `is_smooth`. -/
def is_smooth (pc : probabilistic_circuit) (fuel : Nat) : Option Bool :=
  (smoothness_checker.scope pc fuel pc.root true).map (fun r => r.2)

/-- The loop over the successors of a product node in `decomposability_checker::scope`: the
elements of the scope of a successor are inserted in `scope_u`, and `result` becomes false
when one of them is there already. -/
def decomposability_product_loop (sc : Nat → Bool → Option (Finset Nat × Bool)) :
    List Nat → Finset Nat → Bool → Option (Finset Nat × Bool)
  | [], scope_u, result => some (scope_u, result)
  | v :: vs, scope_u, result =>
    match sc v result with
    | none => none
    | some (scope_v, result2) =>
      decomposability_product_loop sc vs (scope_u ∪ scope_v)
        (if ∃ x ∈ scope_v, x ∈ scope_u then false else result2)

/-- The method `decomposability_checker::scope(u)`. -/
def decomposability_checker.scope (pc : probabilistic_circuit) :
    Nat → Nat → Bool → Option (Finset Nat × Bool)
  | 0, _, _ => none
  | fuel + 1, u, result =>
    if !result then some (∅, result)
    else
      match (pc.node u).kind with
      | .terminal scope _ => some ({scope}, result)
      | .sum _ | .sum_split _ _ =>
        scope_union_loop (decomposability_checker.scope pc fuel) (pc.successors u) ∅ result
      | .product =>
        decomposability_product_loop (decomposability_checker.scope pc fuel)
          (pc.successors u) ∅ result

/-- The function `is_decomposable`. -/
def is_decomposable (pc : probabilistic_circuit) (fuel : Nat) : Option Bool :=
  (decomposability_checker.scope pc fuel pc.root true).map (fun r => r.2)

/-- The function `is_normalized(pc, tolerance)`: the sum `aitools::sum(u_->weights())` and
the difference `w - 1` round. -/
def is_normalized (pc : probabilistic_circuit) (tolerance : Value) (fuel : Nat) :
    Option Bool :=
  (pc.visit_nodes_bfs fuel).map (fun out =>
    out.foldl (fun result c =>
      match (pc.node c.1).kind with
      | .sum weights | .sum_split weights _ =>
        if tolerance.lt (binary64.sub (binary64.sum weights) (.num 1)).fabs then false else result
      | _ => result) true)

/-- The 23 nodes of the circuit of `test_example11` and `test_pc_properties`; the root is
node 0, the normal distributions of the terminal nodes are kept with their parameters. -/
def example11_nodes : List pc_node :=
  [⟨.sum [.num (2 / 10), .num (8 / 10)], [21, 22]⟩,
   ⟨.terminal 0 (.normal (.num (-1)) (.num 2)), []⟩,
   ⟨.terminal 0 (.normal (.num (-2)) (.num (1 / 10))), []⟩,
   ⟨.terminal 1 (.normal (.num (6 / 10)) (.num (1 / 10))), []⟩,
   ⟨.terminal 1 (.normal (.num 0) (.num 1)), []⟩,
   ⟨.terminal 2 (.normal (.num (-15 / 10)) (.num (2 / 10))), []⟩,
   ⟨.terminal 2 (.normal (.num (-1)) (.num (5 / 10))), []⟩,
   ⟨.terminal 3 (.normal (.num 0) (.num 1)), []⟩,
   ⟨.terminal 3 (.normal (.num 0) (.num (1 / 10))), []⟩,
   ⟨.sum [.num (8 / 10), .num (2 / 10)], [3, 4]⟩,
   ⟨.sum [.num (7 / 10), .num (3 / 10)], [3, 4]⟩,
   ⟨.sum [.num (5 / 10), .num (5 / 10)], [1, 2]⟩,
   ⟨.sum [.num (1 / 10), .num (9 / 10)], [1, 2]⟩,
   ⟨.product, [9, 11]⟩,
   ⟨.product, [10, 12]⟩,
   ⟨.sum [.num (4 / 10), .num (6 / 10)], [13, 14]⟩,
   ⟨.sum [.num (5 / 10), .num (5 / 10)], [13, 14]⟩,
   ⟨.product, [5, 15]⟩,
   ⟨.product, [6, 16]⟩,
   ⟨.sum [.num (5 / 10), .num (5 / 10)], [17, 18]⟩,
   ⟨.sum [.num (2 / 10), .num (8 / 10)], [17, 18]⟩,
   ⟨.product, [7, 19]⟩,
   ⟨.product, [8, 20]⟩]

/-- The circuit of `test_example11` and of the first part of `test_pc_properties`. -/
def example11 : probabilistic_circuit :=
  { nodes := example11_nodes, root := 0, category_counts := [0, 0, 0, 0] }

/-- The circuit of the second part of `test_pc_properties`: the nodes 19, 20 and 21 are
changed. -/
def example11_broken : probabilistic_circuit :=
  { nodes := ((example11_nodes.set 19 ⟨.sum [.num (5 / 10), .num (15 / 10)], [17, 18]⟩).set 20
      ⟨.sum [.num (2 / 10), .num (8 / 10)], [4, 17, 18]⟩).set 21 ⟨.product, [7, 19, 1]⟩,
    root := 0, category_counts := [0, 0, 0, 0] }

/-- A sum node over a product node without successors and a terminal node of variable 0. -/
def empty_scope_circuit : probabilistic_circuit :=
  { nodes := [⟨.sum [.num (1 / 2), .num (1 / 2)], [1, 2]⟩, ⟨.product, []⟩,
      ⟨.terminal 0 (.normal (.num 0) (.num 1)), []⟩],
    root := 0, category_counts := [0] }

/-- A product node over two categorical terminal nodes: variable 0 has probabilities 0 and 1,
variable 1 has the single category 0. -/
def short_circuit : probabilistic_circuit :=
  { nodes := [⟨.product, [1, 2]⟩, ⟨.terminal 0 (.categorical [.num 0, .num 1]), []⟩,
      ⟨.terminal 1 (.categorical [.num 1]), []⟩],
    root := 0, category_counts := [2, 1] }

/-! ## Specification predicates for circuits -/

/-- Every pointer of the circuit points to an allocated node. -/
def probabilistic_circuit.closed (pc : probabilistic_circuit) : Prop :=
  pc.root < pc.nodes.length ∧
    ∀ u, u < pc.nodes.length → ∀ v ∈ pc.successors u, v < pc.nodes.length

/-- The circuit has no cycle: `rank` decreases along every edge. -/
def probabilistic_circuit.acyclic (pc : probabilistic_circuit) (rank : Nat → Nat) : Prop :=
  ∀ u, u < pc.nodes.length → ∀ v ∈ pc.successors u, rank v < rank u

/-- The node `u` is reachable from the root. -/
def probabilistic_circuit.reachable (pc : probabilistic_circuit) (u : Nat) : Prop :=
  Relation.ReflTransGen (fun a b => b ∈ pc.successors a) pc.root u

/-- In the list `L` every node comes after all of its successors: the successors of the node
at position `k` are among the first `k` nodes. -/
def probabilistic_circuit.successors_first (pc : probabilistic_circuit) (L : List Nat) : Prop :=
  ∀ k, k < L.length → ∀ v ∈ pc.successors (L.getD k 0), v ∈ L.take k

/-- The invariant of the loops of `topological_ordering(pc)` for the current pair `(u, E)`:
the black nodes are those of `result`, the gray nodes are `u` and the nodes of the stack, along
which `rank` increases; the successors of a gray node that are not in its range any more are
not white; in `result` every node comes after its successors; a node that is not white is
reachable from the root, which is at the bottom of the stack. -/
structure dfs_inv (pc : probabilistic_circuit) (rank : Nat → Nat) (u : Nat) (E : List Nat)
    (color : Nat → colors) (result : List Nat) (dfs_stack : List (Nat × List Nat)) : Prop where
  black_iff : ∀ w, color w = colors.black ↔ w ∈ result
  gray_iff : ∀ w, color w = colors.gray ↔ w ∈ u :: dfs_stack.map Prod.fst
  ranks : (u :: dfs_stack.map Prod.fst).Pairwise (fun a b => rank a < rank b)
  result_nodup : result.Nodup
  seen : ∀ e ∈ (u, E) :: dfs_stack, ∀ v ∈ pc.successors e.1, v ∈ e.2 ∨ color v ≠ colors.white
  sub : ∀ e ∈ (u, E) :: dfs_stack, ∀ v ∈ e.2, v ∈ pc.successors e.1
  topo : pc.successors_first result
  reach : ∀ w, color w ≠ colors.white → pc.reachable w
  bottom : (u :: dfs_stack.map Prod.fst).getLast? = some pc.root

/-- The measure of the loops of `topological_ordering(pc)`. -/
def dfs_measure (pc : probabilistic_circuit) (E : List Nat) (color : Nat → colors)
    (dfs_stack : List (Nat × List Nat)) : Nat :=
  ((List.range pc.nodes.length).map
      (fun w => if color w = colors.white then (pc.successors w).length + 2 else 0)).sum +
    (dfs_stack.map (fun e => e.2.length + 1)).sum + E.length + 1

/-- The number of calls of `f` that `visit_nodes_bfs(pc, f)` makes below the node `u`: the
traversal keeps no set of visited nodes, so a node is visited once for every path that leads
to it. The first argument bounds the depth. -/
def probabilistic_circuit.visit_count (pc : probabilistic_circuit) : Nat → Nat → Nat
  | 0, _ => 0
  | fuel + 1, u => 1 + ((pc.successors u).map (probabilistic_circuit.visit_count pc fuel)).sum

/-- The number of weights and successors of a node fits its class: a sum node has a weight
for every successor, a sum-split node has two successors and two weights, a terminal node has
no successor. -/
def pc_node.well_formed (n : pc_node) : Bool :=
  match n.kind with
  | .sum weights => decide (n.successors.length ≤ weights.length)
  | .sum_split weights _ => decide (2 ≤ n.successors.length ∧ 2 ≤ weights.length)
  | .product => true
  | .terminal _ _ => n.successors.isEmpty

/-- A terminal node is a leaf of the circuit: it has no successors. The constructors of the
terminal nodes make none, and the parser accepts a terminal node only with the empty list
`[]` of successors. -/
def pc_node.terminal_is_leaf (n : pc_node) : Bool :=
  match n.kind with
  | .terminal _ _ => n.successors.isEmpty
  | _ => true

/-- The method `evi` of the node throws an exception on the input `x`: the node is a
categorical node and the value of its variable is not one of its categories. -/
def pc_node.throws (lib : math_library) (x : List Value) (n : pc_node) : Bool :=
  match n.kind with
  | .terminal scope dist => (terminal_evi lib scope dist x).isNone
  | _ => false

/-- A math library for the test runs: every density is 1, and the logarithm of a number that
is not positive is `-infinity`. -/
def test_library : math_library :=
  { log := fun v => if v.le (.num 0) then .num (-1) else .num 0,
    sqrt := fun _ => .num 0, log_sum_exp := fun _ => .num 0,
    neg_infinity := .num (-1), normal_pdf := fun _ _ _ => .num 1,
    normal_cdf := fun _ _ _ => .num 0 }

/-- The scope of a node, as the specification states it: the variable of a terminal node, the
union of the scopes of the successors of another node. The first argument bounds the depth. -/
def probabilistic_circuit.scope_of (pc : probabilistic_circuit) : Nat → Nat → Finset Nat
  | 0, _ => ∅
  | fuel + 1, u =>
    match (pc.node u).kind with
    | .terminal scope _ => {scope}
    | _ => (pc.successors u).foldl (fun s v => s ∪ probabilistic_circuit.scope_of pc fuel v) ∅

/-! ## Generative forests (`generative_forest.h`, `probabilistic_circuits.cpp`,
`datasets/algorithms.h`, `utilities/interval.h`)

A node is added to the list of the allocated nodes when its successors are complete, so that
the nodes are allocated in the order: the terminal nodes of a leaf, its product node, the
sum-split nodes from the last internal vertex to the first, and the root of the forest after
the trees. The source allocates a product node before its terminal nodes and the root before
the trees; the order of allocation only names the pointers. -/

/-- The constant `std::numeric_limits<double>::max()`. -/
def double_max : ℚ := 2 ^ 1024 - 2 ^ 971

/-- The constant `std::numeric_limits<double>::lowest()`. -/
def double_lowest : ℚ := -(2 ^ 1024 - 2 ^ 971)

/-- The constant `std::numeric_limits<double>::min()`. -/
def double_min : ℚ := 1 / 2 ^ 1022

/-- The struct `interval`. -/
structure interval where
  a : Value := .num double_lowest
  b : Value := .num double_max
deriving DecidableEq

/-- Method `interval::is_maximal`. -/
def interval.is_maximal (I : interval) : Bool :=
  I.a.eq (.num double_lowest) && I.b.eq (.num double_max)

/-- The function `split_variable`; for `std::monostate` it is the greatest `std::size_t`. -/
def split_variable : splitting_criterion → Nat
  | .monostate => 2 ^ 64 - 1
  | .single s => s.var
  | .subset s => s.var
  | .threshold s => s.var

/-- The lambda `threshold_value` of `enumerate_intervals`. -/
def threshold_value (split : splitting_criterion) (x : Value) : Value :=
  match split with
  | .threshold s => s.value
  | _ => x

/-- A reference `double&` to a member of an element of `intervals`: the index of the element
and the member, `b` when `upper` is true and `a` otherwise. -/
structure bound_ref where
  i : Nat
  upper : Bool
deriving DecidableEq

/-- Reading through a reference. An index that is not below the size of `intervals` is
undefined in C++; the model reads a maximal interval. -/
def read_bound (intervals : List interval) (r : bound_ref) : Value :=
  if r.upper then (intervals.getD r.i {}).b else (intervals.getD r.i {}).a

/-- Assignment through a reference. -/
def write_bound (intervals : List interval) (r : bound_ref) (x : Value) : List interval :=
  intervals.set r.i
    (if r.upper then { a := (intervals.getD r.i {}).a, b := x }
     else { a := x, b := (intervals.getD r.i {}).b })

/-- The local variables of `enumerate_intervals`; `reports` holds the calls
`report_node(u, ui, intervals)` made so far. The back of a stack is the head of the list. -/
structure intervals_state where
  intervals : List interval
  undo_stack : List (Bool × bound_ref × Value)
  todo_stack : List (Nat × bound_ref × Value)
  reports : List (Nat × List interval)

/-- The lambda `add_left` of `enumerate_intervals`. -/
def add_left (u : vertex) (st : intervals_state) : intervals_state :=
  let r : bound_ref := { i := split_variable u.split, upper := true }
  { st with
    todo_stack := (u.left, r, threshold_value u.split (read_bound st.intervals r)) ::
      st.todo_stack,
    undo_stack := (false, r, read_bound st.intervals r) :: st.undo_stack }

/-- The lambda `add_right` of `enumerate_intervals`. -/
def add_right (u : vertex) (st : intervals_state) : intervals_state :=
  let r : bound_ref := { i := split_variable u.split, upper := false }
  { st with
    todo_stack := (u.right, r, threshold_value u.split (read_bound st.intervals r)) ::
      st.todo_stack,
    undo_stack := (true, r, read_bound st.intervals r) :: st.undo_stack }

/-- The loop `while (!undo_stack.empty())` of `enumerate_intervals`, run at a leaf. -/
def undo_loop : List (Bool × bound_ref × Value) → List interval →
    List (Bool × bound_ref × Value) × List interval
  | [], intervals => ([], intervals)
  | (last_branch, var, value) :: undo_stack, intervals =>
    if !last_branch then (undo_stack, write_bound intervals var value)
    else undo_loop undo_stack (write_bound intervals var value)

/-- One iteration of the loop `while (!todo_stack.empty())` of `enumerate_intervals`. -/
def enumerate_intervals_step (tree : binary_decision_tree) (st : intervals_state) :
    intervals_state :=
  match st.todo_stack with
  | [] => st
  | (ui, var, value) :: todo_stack =>
    let u := tree.find_vertex ui
    let intervals := write_bound st.intervals var value
    let st1 : intervals_state :=
      { intervals := intervals, undo_stack := st.undo_stack, todo_stack := todo_stack,
        reports := st.reports ++ [(ui, intervals)] }
    if u.is_leaf then
      { st1 with undo_stack := (undo_loop st.undo_stack intervals).1,
                 intervals := (undo_loop st.undo_stack intervals).2 }
    else add_left u (add_right u st1)

/-- The loop `while (!todo_stack.empty())` of `enumerate_intervals`, with a bound on the
number of iterations. -/
def enumerate_intervals_loop (tree : binary_decision_tree) :
    Nat → intervals_state → Option intervals_state
  | 0, st => if st.todo_stack = [] then some st else none
  | fuel + 1, st =>
    if st.todo_stack = [] then some st
    else enumerate_intervals_loop tree fuel (enumerate_intervals_step tree st)

/-- The function `enumerate_intervals(tree, m, report_node)`: the calls of `report_node`, as
pairs of the index of the vertex and the intervals. -/
def enumerate_intervals (tree : binary_decision_tree) (m : Nat) (fuel : Nat) :
    Option (List (Nat × List interval)) :=
  let intervals : List interval := List.replicate m {}
  let root := tree.find_vertex 0
  let st0 : intervals_state :=
    { intervals := intervals, undo_stack := [], todo_stack := [], reports := [(0, intervals)] }
  if root.is_leaf then some st0.reports
  else (enumerate_intervals_loop tree fuel (add_left root (add_right root st0))).map
    (fun st => st.reports)

/-- Method `binary_decision_tree::feature_count`. -/
def binary_decision_tree.feature_count (tree : binary_decision_tree) : Nat :=
  tree.category_counts.length - 1

/-- The function `mean(D, I, v)` in exact arithmetic; `binary64.mean` is the function on
doubles. -/
def dataset.mean (D : dataset) (I : List Nat) (v : Nat) : Value :=
  let xs := (I.map (fun i => D.at i v)).filter (fun x => !is_missing x)
  (Value.sum xs).div (.num xs.length)

/-- The function `mean_standard_deviation(D, I, v)` in exact arithmetic;
`binary64.mean_standard_deviation` is the function on doubles. -/
def mean_standard_deviation (lib : math_library) (D : dataset) (I : List Nat) (v : Nat) :
    Value × Value :=
  let mu := D.mean I v
  let xs := (I.map (fun i => D.at i v)).filter (fun x => !is_missing x)
  let variance := xs.foldl (fun (acc x_i : Value) => acc.add ((x_i.sub mu).mul (x_i.sub mu))) (.num 0)
  if xs.length = 0 then (.num 0, .num 1)
  else
    let sigma := lib.sqrt (variance.div (.num xs.length))
    if sigma.eq (.num 0) then (mu, .num double_min) else (mu, sigma)

/-- The function `fit_normal(u, D, i, ab)` for a vertex with the range content `I`, with the
mean and the standard deviation in exact arithmetic (`binary64.fit_normal` has them on
doubles). `none` stands for the exception of the constructor of `normal_node` (negative standard deviation)
or of `truncated_normal_node` (negative standard deviation, or `a > b`). The distributions
of Boost behind the nodes check their arguments too; the library is a parameter of the model
and its checks are not part of it. -/
def fit_normal (lib : math_library) (D : dataset) (I : List Nat) (i : Nat) (ab : interval) :
    Option pc_node :=
  let ms := if I.isEmpty then (Value.num 0, Value.num 1) else mean_standard_deviation lib D I i
  if ab.is_maximal then
    if ms.2.lt (.num 0) then none
    else some { kind := .terminal i (.normal ms.1 ms.2), successors := [] }
  else
    if ms.2.lt (.num 0) then none
    else if ab.b.lt ab.a then none
    else some { kind := .terminal i (.truncated_normal ms.1 ms.2 ab.a ab.b), successors := [] }

/-- Method `dataset::compute_categorical_counts(I, v, counts)` for a vector `counts` of size
`K`. -/
def compute_categorical_counts (D : dataset) (I : List Nat) (v K : Nat) : List Nat :=
  I.foldl (fun counts i =>
    if is_missing (D.at i v) then counts else incr counts (D.at i v).to_size_t)
    (List.replicate K 0)

/-- The function `fit_categorical(u, D, i)` for a vertex with the range content `I`, with the
probabilities in exact arithmetic (`binary64.fit_categorical` has them on doubles). -/
def fit_categorical (D : dataset) (I : List Nat) (i : Nat) : pc_node :=
  let counts := compute_categorical_counts D I i (D.category_counts.getD i 0)
  { kind := .terminal i
      (.categorical (counts.map (fun k => (Value.num k).div (.num counts.sum)))),
    successors := [] }

/-- The loop `for (std::size_t i = 0; i < m; i++)` of `fit_leave_nodes` over the variables
that are left: the terminal nodes made, or `none` for an exception. -/
def fit_leaf_terminals (lib : math_library) (ncat : List Nat) (D : dataset) (I : List Nat)
    (intervals : List interval) : List Nat → Option (List pc_node)
  | [] => some []
  | i :: is =>
    let v_i :=
      if ncat.getD i 0 < 2 then fit_normal lib D I i (intervals.getD i {})
      else some (fit_categorical D I i)
    match v_i with
    | none => none
    | some n =>
      match fit_leaf_terminals lib ncat D I intervals is with
      | none => none
      | some ns => some (n :: ns)

/-- The body of the callback of `fit_leave_nodes` for a leaf with the range content `I`: a
product node with a terminal node for each of the `m` variables and one for the class.
Returns the nodes allocated and the pointer to the product node. -/
def fit_leaf (lib : math_library) (tree : binary_decision_tree) (D : dataset)
    (nodes : List pc_node) (I : List Nat) (intervals : List interval) :
    Option (List pc_node × Nat) :=
  let m := tree.feature_count
  match fit_leaf_terminals lib tree.category_counts D I intervals (List.range m) with
  | none => none
  | some terminals =>
    let nodes1 := nodes ++ terminals ++ [fit_categorical D I m]
    some (nodes1 ++ [{ kind := .product, successors := List.range' nodes.length (m + 1) }],
      nodes1.length)

/-- The function `fit_leave_nodes(tree, pc_nodes, D)` on the calls that
`enumerate_intervals` makes; `pc_nodes` holds a pointer or the null pointer for every
vertex. -/
def fit_leave_nodes (lib : math_library) (tree : binary_decision_tree) (D : dataset) :
    List (Nat × List interval) → List pc_node × List (Option Nat) →
    Option (List pc_node × List (Option Nat))
  | [], st => some st
  | (ui, intervals) :: reports, (nodes, pc_nodes) =>
    if (tree.find_vertex ui).is_leaf then
      match fit_leaf lib tree D nodes (tree.range (tree.find_vertex ui)) intervals with
      | none => none
      | some (nodes2, p) => fit_leave_nodes lib tree D reports (nodes2, pc_nodes.set ui (some p))
    else fit_leave_nodes lib tree D reports (nodes, pc_nodes)

/-- The loop `for (std::size_t ui: order)` of `build_generative_tree`, with the weights in
exact arithmetic (`binary64.build_inner_nodes` has them on doubles). A null pointer among
the successors is undefined when the circuit is used; the model gives `none`. -/
def build_inner_nodes (tree : binary_decision_tree) :
    List Nat → List pc_node × List (Option Nat) → Option (List pc_node × List (Option Nat))
  | [], st => some st
  | ui :: order, (nodes, pc_nodes) =>
    let u := tree.find_vertex ui
    if !u.is_leaf then
      let v1 := tree.find_vertex u.left
      let v2 := tree.find_vertex u.right
      let u_size : Value := .num (tree.range u).length
      let m_weights := [(Value.num (tree.range v1).length).div u_size,
        (Value.num (tree.range v2).length).div u_size]
      match pc_nodes.getD u.left none, pc_nodes.getD u.right none with
      | some p1, some p2 =>
        build_inner_nodes tree order
          (nodes ++ [{ kind := .sum_split m_weights u.split, successors := [p1, p2] }],
            pc_nodes.set ui (some nodes.length))
      | _, _ => none
    else build_inner_nodes tree order (nodes, pc_nodes)

/-- The function `build_generative_tree(tree, D)`: the nodes allocated and the pointer
returned. -/
def build_generative_tree (lib : math_library) (tree : binary_decision_tree) (D : dataset)
    (nodes : List pc_node) (fuel : Nat) : Option (List pc_node × Nat) :=
  match enumerate_intervals tree tree.feature_count fuel with
  | none => none
  | some reports =>
    match fit_leave_nodes lib tree D reports
        (nodes, List.replicate tree.vertices.length none) with
    | none => none
    | some st1 =>
      match topological_ordering tree fuel with
      | none => none
      | some order =>
        match build_inner_nodes tree order.reverse st1 with
        | none => none
        | some (nodes2, pc_nodes2) =>
          match pc_nodes2.head? with
          | some (some p) => some (nodes2, p)
          | _ => none

/-- The loop `for (const auto& tree: forest.trees())` of `build_generative_forest`: the
nodes allocated and the successors of the root. -/
def build_generative_trees (lib : math_library) (D : dataset) (fuel : Nat) :
    List binary_decision_tree → List pc_node × List Nat → Option (List pc_node × List Nat)
  | [], st => some st
  | tree :: trees, (nodes, successors) =>
    match build_generative_tree lib tree D nodes fuel with
    | none => none
    | some (nodes2, p) => build_generative_trees lib D fuel trees (nodes2, successors ++ [p])

/-- The function `build_generative_forest(forest, D)`, with the weights in exact arithmetic
(`binary64.build_generative_forest` has them on doubles); a `random_forest` is the list of
its trees. -/
def build_generative_forest (lib : math_library) (forest : List binary_decision_tree)
    (D : dataset) (fuel : Nat) : Option probabilistic_circuit :=
  let weight := (Value.num 1).div (.num forest.length)
  match build_generative_trees lib D fuel forest ([], []) with
  | none => none
  | some (nodes, successors) =>
    some { nodes := nodes ++
             [{ kind := .sum (List.replicate forest.length weight), successors := successors }],
           root := nodes.length, category_counts := D.category_counts }

/-- The function `leaf_count(tree)`. -/
def leaf_count (tree : binary_decision_tree) (fuel : Nat) : Option Nat :=
  (visit_nodes_bfs tree fuel).map
    (fun out => (out.filter (fun c => (tree.find_vertex c.1).is_leaf)).length)

/-- The function `expected_pc_size(forest, m)` of `probabilistic_circuit_test.cpp`. -/
def expected_pc_size (forest : List binary_decision_tree) (m : Nat) (fuel : Nat) :
    Option Nat :=
  forest.foldl (fun result tree =>
    match result, leaf_count tree fuel with
    | some r, some l => some (r + tree.vertices.length + (m + 1) * l)
    | _, _ => none) (some 1)

/-- The loop of `execute_decision_tree`: `none` stands for the exception on an undefined
split or for the bound on the number of iterations. -/
def execute_decision_tree (tree : binary_decision_tree) (x : List Value) :
    Nat → Nat → Option Nat
  | 0, _ => none
  | fuel + 1, index =>
    let u := tree.find_vertex index
    if u.is_leaf then some index
    else
      match u.split with
      | .monostate => none
      | .threshold s =>
        execute_decision_tree tree x fuel
          (if (x.getD s.var .nan).lt s.value then u.left else u.right)
      | .single s =>
        execute_decision_tree tree x fuel
          (if (x.getD s.var .nan).eq s.value then u.left else u.right)
      | .subset s =>
        execute_decision_tree tree x fuel
          (if is_bit_set s.mask (x.getD s.var .nan).to_size_t then u.left else u.right)

/-! ## Specification predicates for generative forests -/

/-- The intervals of the left child of `u`, given those of `u`: for a threshold split the
upper bound of the split variable becomes the threshold. -/
def left_intervals (u : vertex) (intervals : List interval) : List interval :=
  write_bound intervals { i := split_variable u.split, upper := true }
    (threshold_value u.split (read_bound intervals { i := split_variable u.split, upper := true }))

/-- The intervals of the right child of `u`, given those of `u`: for a threshold split the
lower bound of the split variable becomes the threshold. -/
def right_intervals (u : vertex) (intervals : List interval) : List interval :=
  write_bound intervals { i := split_variable u.split, upper := false }
    (threshold_value u.split (read_bound intervals { i := split_variable u.split, upper := false }))

/-- The vertices below `ui` in depth first order, the left child first, each with its
intervals computed from those of its parent. The first argument bounds the depth. -/
def interval_reports (tree : binary_decision_tree) : Nat → Nat → List interval →
    List (Nat × List interval)
  | 0, ui, intervals => [(ui, intervals)]
  | fuel + 1, ui, intervals =>
    if (tree.find_vertex ui).is_leaf then [(ui, intervals)]
    else (ui, intervals) ::
      (interval_reports tree fuel (tree.find_vertex ui).left
          (left_intervals (tree.find_vertex ui) intervals) ++
        interval_reports tree fuel (tree.find_vertex ui).right
          (right_intervals (tree.find_vertex ui) intervals))

/-- The children of every vertex that is not a leaf have a greater index, inside the vertex
array. -/
def children_above (tree : binary_decision_tree) : Prop :=
  ∀ i, i < tree.vertices.length → (tree.find_vertex i).is_leaf = false →
    i < (tree.find_vertex i).left ∧ i < (tree.find_vertex i).right ∧
    (tree.find_vertex i).left < tree.vertices.length ∧
    (tree.find_vertex i).right < tree.vertices.length

/-- The invariant of the loop of `learn_decision_tree` on the ranges and the splits: the
ranges of two leaves do not overlap; the range of a leaf lies inside or outside the range of
a vertex that is not a leaf; a vertex that is not a leaf has a defined split; a threshold is
the value of a sample of the range of its vertex, no sample of the left child is above it and
no sample of the right child is below it. -/
structure split_inv (D : dataset) (tree : binary_decision_tree) : Prop where
  leaves_disjoint : ∀ i j, i < tree.vertices.length → j < tree.vertices.length → i ≠ j →
    (tree.find_vertex i).is_leaf = true → (tree.find_vertex j).is_leaf = true →
    (tree.find_vertex i).I_end ≤ (tree.find_vertex j).I_begin ∨
    (tree.find_vertex j).I_end ≤ (tree.find_vertex i).I_begin
  laminar : ∀ l w, l < tree.vertices.length → w < tree.vertices.length →
    (tree.find_vertex l).is_leaf = true → (tree.find_vertex w).is_leaf = false →
    ((tree.find_vertex w).I_begin ≤ (tree.find_vertex l).I_begin ∧
      (tree.find_vertex l).I_end ≤ (tree.find_vertex w).I_end) ∨
    (tree.find_vertex l).I_end ≤ (tree.find_vertex w).I_begin ∨
    (tree.find_vertex w).I_end ≤ (tree.find_vertex l).I_begin
  defined : ∀ i, i < tree.vertices.length → (tree.find_vertex i).is_leaf = false →
    (tree.find_vertex i).split ≠ splitting_criterion.monostate
  thresholds : ∀ i, i < tree.vertices.length → (tree.find_vertex i).is_leaf = false →
    ∀ v t, (tree.find_vertex i).split = .threshold ⟨v, t⟩ →
    (∃ s ∈ tree.range (tree.find_vertex i), D.at s v = t) ∧
    (∀ s ∈ tree.range (tree.find_vertex (tree.find_vertex i).left),
      t.lt (D.at s v) = false) ∧
    (∀ s ∈ tree.range (tree.find_vertex (tree.find_vertex i).right),
      (D.at s v).lt t = false)
  counts : tree.category_counts = D.category_counts

/-- The tree is returned by a call of `learn_decision_tree` on the dataset `D` with
`min_samples_leaf >= 1`, and its vertices are counted by 32 bit indices. -/
def learned (D : dataset) (tree : binary_decision_tree) : Prop :=
  ∃ (ρ S : Type) (eng : random_engine ρ) (I : List Nat) (options : decision_tree_options)
    (fam : split_family) (g : gain_function S)
    (stop : List Nat → dataset → Nat → decision_tree_options → Bool) (seed : ρ) (fuel : Nat),
    1 ≤ options.min_samples_leaf ∧
    learn_decision_tree eng D I options fam g stop seed fuel = .returned tree ∧
    tree.vertices.length ≤ undefined_index

/-- The value is NaN or a number between `lowest()` and `max()`: the model has no
infinities. -/
def Value.is_finite : Value → Bool
  | .nan => true
  | .num q => decide (double_lowest ≤ q ∧ q ≤ double_max)

/-- The values of the dataset are finite doubles or NaN. -/
def dataset.finite (D : dataset) : Bool :=
  D.X.all (fun row => row.all Value.is_finite)

/-- The intervals `intervals` hold for the vertex `ui`: no interval has its upper bound below
its lower bound, and no sample of the range of the vertex has a value of variable `i` below
the lower bound or above the upper bound of interval `i`. -/
def intervals_hold (D : dataset) (tree : binary_decision_tree) (ui : Nat)
    (intervals : List interval) : Prop :=
  ∀ i, (intervals.getD i {}).b.lt (intervals.getD i {}).a = false ∧
    ∀ s ∈ tree.range (tree.find_vertex ui),
      (D.at s i).lt (intervals.getD i {}).a = false ∧
      (intervals.getD i {}).b.lt (D.at s i) = false

/-- Every node of the list was allocated after its successors. -/
def heap_ordered (nodes : List pc_node) : Prop :=
  ∀ u, u < nodes.length →
    ∀ v ∈ (nodes.getD u { kind := .product, successors := [] }).successors, v < u

/-- The pointer `p` points to the product node that `fit_leave_nodes` makes for the leaf `ui`
with the intervals `intervals`: the terminal nodes fitted for the variables
`0, ..., m - 1`, the categorical node of the class and the product node over them are
consecutive in `nodes`. -/
def leaf_node (lib : math_library) (tree : binary_decision_tree) (D : dataset)
    (nodes : List pc_node) (ui : Nat) (intervals : List interval) (p : Nat) : Prop :=
  ∃ (terminals pre post : List pc_node),
    fit_leaf_terminals lib tree.category_counts D (tree.range (tree.find_vertex ui)) intervals
      (List.range tree.feature_count) = some terminals ∧
    nodes = pre ++ (terminals ++
      [fit_categorical D (tree.range (tree.find_vertex ui)) tree.feature_count,
       { kind := .product, successors := List.range' pre.length (tree.feature_count + 1) }])
      ++ post ∧
    p = pre.length + (tree.feature_count + 1)

/-- The nodes `nodes` hold the circuit that `build_generative_tree` makes for `tree`, the
pointer `ptr ui` pointing to the node of the vertex `ui`: the node of a leaf is the product
node fitted with the intervals that `enumerate_intervals` reports for it; the node of another
vertex `u` is a sum-split node with the split of `u`, the weights `|left.I| / |u.I|` and
`|right.I| / |u.I|` and the nodes of the two children as successors. -/
structure built_tree (lib : math_library) (tree : binary_decision_tree) (D : dataset)
    (nodes : List pc_node) (ptr : Nat → Nat) : Prop where
  leaves : ∀ ui, ui < tree.vertices.length → (tree.find_vertex ui).is_leaf = true →
    ∃ intervals, (ui, intervals) ∈ interval_reports tree tree.vertices.length 0
        (List.replicate tree.feature_count {}) ∧
      leaf_node lib tree D nodes ui intervals (ptr ui)
  inner : ∀ ui, ui < tree.vertices.length → (tree.find_vertex ui).is_leaf = false →
    nodes.getD (ptr ui) { kind := .product, successors := [] } =
      { kind := .sum_split
          [(Value.num (tree.range (tree.find_vertex (tree.find_vertex ui).left)).length).div
              (.num (tree.range (tree.find_vertex ui)).length),
           (Value.num (tree.range (tree.find_vertex (tree.find_vertex ui).right)).length).div
              (.num (tree.range (tree.find_vertex ui)).length)]
          (tree.find_vertex ui).split,
        successors := [ptr (tree.find_vertex ui).left, ptr (tree.find_vertex ui).right] }
  bound : ∀ ui, ui < tree.vertices.length → ptr ui < nodes.length

/-- The invariant of the loop `for (std::size_t ui: order)` of `build_generative_tree`, when
the vertices from `k` on have been handled: every leaf has its product node, and every other
vertex from `k` on has its sum-split node over the nodes of its children. -/
structure build_inv (lib : math_library) (tree : binary_decision_tree) (D : dataset)
    (k : Nat) (nodes : List pc_node) (pc_nodes : List (Option Nat)) : Prop where
  size : pc_nodes.length = tree.vertices.length
  ordered : heap_ordered nodes
  valid : ∀ ui p, pc_nodes.getD ui none = some p → p < nodes.length
  leaves : ∀ ui, ui < tree.vertices.length → (tree.find_vertex ui).is_leaf = true →
    ∃ intervals p, (ui, intervals) ∈ interval_reports tree tree.vertices.length 0
        (List.replicate tree.feature_count {}) ∧
      pc_nodes.getD ui none = some p ∧ leaf_node lib tree D nodes ui intervals p
  inner : ∀ ui, k ≤ ui → ui < tree.vertices.length → (tree.find_vertex ui).is_leaf = false →
    ∃ p p1 p2, pc_nodes.getD ui none = some p ∧
      pc_nodes.getD (tree.find_vertex ui).left none = some p1 ∧
      pc_nodes.getD (tree.find_vertex ui).right none = some p2 ∧
      nodes.getD p { kind := .product, successors := [] } =
        { kind := .sum_split
            [(Value.num (tree.range (tree.find_vertex (tree.find_vertex ui).left)).length).div
                (.num (tree.range (tree.find_vertex ui)).length),
             (Value.num (tree.range (tree.find_vertex (tree.find_vertex ui).right)).length).div
                (.num (tree.range (tree.find_vertex ui)).length)]
            (tree.find_vertex ui).split,
          successors := [p1, p2] }

/-! ## Test data for generative forests -/

/-- A dataset with a continuous variable, a variable of two categories and two classes. -/
def mixed_dataset : dataset :=
  { X := [[.num 1, .num 0, .num 0], [.num 2, .num 1, .num 0], [.num 3, .num 0, .num 1],
          [.num 4, .num 1, .num 1], [.num 5, .num 1, .num 0]],
    category_counts := [0, 2, 2] }

/-- The tree learned from `mixed_dataset` with threshold splits. -/
def mixed_tree : binary_decision_tree :=
  { vertices := [⟨0, 5, 1, 2, .threshold ⟨0, .num 3⟩⟩,
      ⟨0, 2, undefined_index, undefined_index, .monostate⟩,
      ⟨2, 5, 3, 4, .threshold ⟨0, .num 5⟩⟩,
      ⟨2, 4, undefined_index, undefined_index, .monostate⟩,
      ⟨4, 5, undefined_index, undefined_index, .monostate⟩],
    indices := [0, 1, 2, 3, 4], classes := [0, 0, 1, 1, 0], category_counts := [0, 2, 2] }

/-- The test that `is_normalized` makes on a node: the weights of a sum node or of a
sum-split node add to 1 within the tolerance. -/
def weights_normalized (tolerance : Value) (n : pc_node) : Bool :=
  match n.kind with
  | .sum weights | .sum_split weights _ =>
    !tolerance.lt ((binary64.sub (binary64.sum weights) (.num 1)).fabs)
  | _ => true

/-- The circuit `pc` holds the generative tree of `tree` over the variables `0, ..., m`, the
pointer `ptr ui` pointing to the node of the vertex `ui`: a vertex `u` that is not a leaf
becomes a sum-split node with the split of `u`, the weights `|left.I| / |u.I|` and
`|right.I| / |u.I|` and the nodes of its children as successors; a leaf becomes a product
node with `m + 1` successors, of which successor `j` is a terminal node of variable `j`. -/
structure generative_tree (tree : binary_decision_tree) (m : Nat) (pc : probabilistic_circuit)
    (ptr : Nat → Nat) : Prop where
  inner : ∀ ui, ui < tree.vertices.length → (tree.find_vertex ui).is_leaf = false →
    pc.node (ptr ui) =
      { kind := .sum_split
          [(Value.num (tree.range (tree.find_vertex (tree.find_vertex ui).left)).length).div
              (.num (tree.range (tree.find_vertex ui)).length),
           (Value.num (tree.range (tree.find_vertex (tree.find_vertex ui).right)).length).div
              (.num (tree.range (tree.find_vertex ui)).length)]
          (tree.find_vertex ui).split,
        successors := [ptr (tree.find_vertex ui).left, ptr (tree.find_vertex ui).right] }
  leaves : ∀ ui, ui < tree.vertices.length → (tree.find_vertex ui).is_leaf = true →
    (pc.node (ptr ui)).kind = .product ∧ (pc.successors (ptr ui)).length = m + 1 ∧
    ∀ j, j ≤ m → ∃ dist, pc.node ((pc.successors (ptr ui)).getD j 0) =
      { kind := .terminal j dist, successors := [] }

/-- The method `pdf` of the distribution of a categorical, normal or truncated normal node;
`none` stands for an exception. The indicator nodes have no distribution. -/
def distribution_pdf (lib : math_library) : terminal_kind → Value → Option Value
  | .categorical p, x => categorical_pdf p x
  | .normal mean sd, x => some (lib.normal_pdf mean sd x)
  | .truncated_normal mean sd a b, x => some (truncated_normal_pdf lib mean sd a b x)
  | _, _ => none

/-- The density of the distribution of a terminal node at the value that `x` gives to its
variable. -/
def pc_node.pdf (lib : math_library) (x : List Value) (n : pc_node) : Option Value :=
  match n.kind with
  | .terminal scope dist => distribution_pdf lib dist (x.getD scope .nan)
  | _ => none

/-- A math library for the test runs with truncated distributions: the density is 1 and the
cumulative distribution function is the identity. -/
def mixed_library : math_library :=
  { log := fun v => v, sqrt := fun _ => .num 0, log_sum_exp := fun _ => .num 0,
    neg_infinity := .num (-1), normal_pdf := fun _ _ _ => .num 1,
    normal_cdf := fun _ _ x => x }

/-- The conversion of a `double` to `int`, made when a `threshold_split::value` is passed to
the constructor `less_node(int scope, int value)` or `greater_equal_node(int scope, int
value)`: the fraction is dropped. The conversion is undefined in C++ for NaN and outside the
range of `int`; the model returns 0 for NaN and keeps the integer otherwise. -/
def Value.to_int : Value → Int
  | .num q => if 0 ≤ q then Rat.floor q else -Rat.floor (-q)
  | .nan => 0

/-- The function `detail::make_indicator_node(split, j)`; `none` is the null pointer returned
for an undefined split. The operand of `~split.mask` is a `std::uint32_t`. -/
def make_indicator_node (split : splitting_criterion) (j : Nat) : Option pc_node :=
  match split with
  | .single s =>
    some { kind := .terminal s.var (if j = 0 then .equal s.value else .not_equal s.value),
           successors := [] }
  | .subset s =>
    some { kind := .terminal s.var (.subset (if j = 0 then s.mask else 2 ^ 32 - 1 - s.mask)),
           successors := [] }
  | .threshold s =>
    some { kind := .terminal s.var
             (if j = 0 then .less s.value.to_int else .greater_equal s.value.to_int),
           successors := [] }
  | .monostate => none

/-- The loop `for (std::size_t j = 0; j < u_successors.size(); j++)` of the lambda
`expand_sum_split_node`, over the successors `v_j` that are left: the product node `y_j` with
the successors `v_j`, `z_j` and the indicator node `z_j` are allocated, and `y_j` takes the
place of `v_j`; `ys` holds the pointers `y_0 .. y_(j-1)`. A null pointer `z_j` is dereferenced
later by the loop of `expand_sum_split_nodes`; the model answers `none`. -/
def expand_successors (splitter : splitting_criterion) :
    List Nat → List pc_node → List Nat → Option (List pc_node × List Nat)
  | [], nodes, ys => some (nodes, ys)
  | v_j :: vs, nodes, ys =>
    match make_indicator_node splitter ys.length with
    | none => none
    | some z_j =>
      expand_successors splitter vs
        (nodes ++ [{ kind := .product, successors := [v_j, nodes.length + 1] }, z_j])
        (ys ++ [nodes.length])

/-- The lambda `expand_sum_split_node(u)` for the sum-split node behind `u`, with the members
`weights` and `splitter`: returns the nodes allocated so far and the pointer to the new sum
node. The weights and the successors of `u` are moved to the new node, which leaves `u`
without weights and successors. -/
def expand_sum_split_node (nodes : List pc_node) (u : Nat) (weights : List Value)
    (splitter : splitting_criterion) : Option (List pc_node × Nat) :=
  match expand_successors splitter (nodes.getD u { kind := .product, successors := [] }).successors
      nodes [] with
  | none => none
  | some (nodes2, ys) =>
    some ((nodes2.set u { kind := .sum_split [] splitter, successors := [] }) ++
      [{ kind := .sum weights, successors := ys }], nodes2.length)

/-- The loop `for (auto& v: u->successors())` of `expand_sum_split_nodes`, from the successor
with index `k` on; the first argument is the number of successors left. -/
def expand_visit (u : Nat) : Nat → Nat → List pc_node → List Nat →
    Option (List pc_node × List Nat)
  | 0, _, nodes, todo => some (nodes, todo)
  | n + 1, k, nodes, todo =>
    let node_u := nodes.getD u { kind := .product, successors := [] }
    let v := node_u.successors.getD k 0
    match (nodes.getD v { kind := .product, successors := [] }).kind with
    | .sum_split weights splitter =>
      match expand_sum_split_node nodes v weights splitter with
      | none => none
      | some (nodes2, r) =>
        let node_u2 := nodes2.getD u { kind := .product, successors := [] }
        expand_visit u n (k + 1)
          (nodes2.set u { node_u2 with successors := node_u2.successors.set k r })
          (todo ++ [r])
    | _ => expand_visit u n (k + 1) nodes (todo ++ [v])

/-- The loop `while (!todo.empty())` of `expand_sum_split_nodes`, with a bound on the number
of iterations; `none` when the bound is reached or a null pointer is dereferenced. -/
def expand_loop : Nat → List pc_node → List Nat → Option (List pc_node)
  | 0, nodes, todo => if todo = [] then some nodes else none
  | fuel + 1, nodes, todo =>
    match todo with
    | [] => some nodes
    | u :: todo1 =>
      match expand_visit u (nodes.getD u { kind := .product, successors := [] }).successors.length
          0 nodes todo1 with
      | none => none
      | some (nodes2, todo2) => expand_loop fuel nodes2 todo2

/-- The function `expand_sum_split_nodes(pc)`: returns the circuit as it is left. -/
def expand_sum_split_nodes (pc : probabilistic_circuit) (fuel : Nat) :
    Option probabilistic_circuit :=
  (expand_loop fuel pc.nodes [pc.root]).map (fun nodes => { pc with nodes := nodes })

/-- A dataset with one continuous variable and two classes; the values are not integers. -/
def fraction_dataset : dataset :=
  { X := [[.num (6 / 5), .num 0], [.num (3 / 2), .num 1]], category_counts := [0, 2] }

/-- The tree learned from `fraction_dataset` with threshold splits. -/
def fraction_tree : binary_decision_tree :=
  { vertices := [⟨0, 2, 1, 2, .threshold ⟨0, .num (3 / 2)⟩⟩,
      ⟨0, 1, undefined_index, undefined_index, .monostate⟩,
      ⟨1, 2, undefined_index, undefined_index, .monostate⟩],
    indices := [0, 1], classes := [0, 1], category_counts := [0, 2] }

/-! ## Specification functions for product nodes -/

/-- The product of `evi(x)` over all the successors of a product node, as the specification
states it: the loop of `product_node::evi` without the test `result <= 0`. -/
def product_of_all (ev : Nat → outcome Value) : List Nat → Value → outcome Value
  | [], result => .returned result
  | v :: vs, result =>
    match ev v with
    | .returned r => product_of_all ev vs (result.mul r)
    | .exception => .exception
    | .out_of_fuel => .out_of_fuel

/-- The sum of `log_evi(x)` over all the successors of a product node, as the specification
states it: the loop of `product_node::log_evi` without the test `result <= -infinity`. -/
def sum_of_all (ev : Nat → outcome Value) : List Nat → Value → outcome Value
  | [], result => .returned result
  | v :: vs, result =>
    match ev v with
    | .returned r => sum_of_all ev vs (result.add r)
    | .exception => .exception
    | .out_of_fuel => .out_of_fuel

/-! ## The loop of `product_node::log_evi` on doubles with the infinities -/

/-- A double with the infinities: NaN, `-infinity`, `+infinity` or a number. -/
inductive xdouble where
  | nan
  | neg_inf
  | pos_inf
  | num (q : ℚ)
deriving DecidableEq

/-- The operator `+` of IEEE 754 on doubles with the infinities: NaN is absorbing, the sum of
the two infinities is NaN, an infinity absorbs every number. The sum of two numbers is the
parameter `fadd`: their sum after rounding, an infinity when it overflows. -/
def xdouble.add (fadd : ℚ → ℚ → xdouble) : xdouble → xdouble → xdouble
  | .nan, _ => .nan
  | _, .nan => .nan
  | .neg_inf, .pos_inf => .nan
  | .pos_inf, .neg_inf => .nan
  | .neg_inf, _ => .neg_inf
  | _, .neg_inf => .neg_inf
  | .pos_inf, _ => .pos_inf
  | _, .pos_inf => .pos_inf
  | .num a, .num b => fadd a b

/-- The test `result <= -infinity`, which holds for `-infinity` only. -/
def xdouble.le_neg_infinity : xdouble → Bool
  | .neg_inf => true
  | _ => false

/-- The loop of `product_node::log_evi` (and of `log_evi_iterative`) on doubles with the
infinities; `ev v` is the call `m_successors[i]->log_evi(x)`. -/
def product_node_log_evi_loop (fadd : ℚ → ℚ → xdouble) (ev : Nat → outcome xdouble) :
    List Nat → xdouble → outcome xdouble
  | [], result => .returned result
  | v :: vs, result =>
    match ev v with
    | .returned r =>
      if (xdouble.add fadd result r).le_neg_infinity then .returned (xdouble.add fadd result r)
      else product_node_log_evi_loop fadd ev vs (xdouble.add fadd result r)
    | .exception => .exception
    | .out_of_fuel => .out_of_fuel

/-- The sum of `log_evi(x)` over all the successors of a product node on doubles with the
infinities, as the specification states it: the loop of `product_node::log_evi` without the
test `result <= -infinity`. -/
def log_sum_of_all (fadd : ℚ → ℚ → xdouble) (ev : Nat → outcome xdouble) :
    List Nat → xdouble → outcome xdouble
  | [], result => .returned result
  | v :: vs, result =>
    match ev v with
    | .returned r => log_sum_of_all fadd ev vs (xdouble.add fadd result r)
    | .exception => .exception
    | .out_of_fuel => .out_of_fuel

/-- A product node over two categorical terminal nodes: variable 0 has the probabilities 0 and
1, the probability of the single category of variable 1 is NaN (the result of `0 / 0` in
`fit_categorical` when no value of the variable is observed). -/
def nan_circuit : probabilistic_circuit :=
  { nodes := [⟨.product, [1, 2]⟩, ⟨.terminal 0 (.categorical [.num 0, .num 1]), []⟩,
      ⟨.terminal 1 (.categorical [.nan]), []⟩],
    root := 0, category_counts := [2, 1] }

/-! ## Specification functions for the gain of a split -/

/-- The sum over the classes of `|D| * h(p_k)`, where `p_k` is the fraction of the samples of
`D` in class `k`: the part of `|D| * impurity(D)` that depends on the fractions, for an
impurity of the form `sum_k h(p_k)`. -/
def perspective_sum (h : ℚ → ℚ) (counts : List Nat) : ℚ :=
  (counts.map (fun (c : Nat) => (counts.sum : ℚ) * h ((c : ℚ) / (counts.sum : ℚ)))).sum

/-- A dataset with one continuous variable and two classes: four samples of class 0 with
increasing values, then one of class 1. -/
def run_dataset : dataset :=
  { X := [[.num 1, .num 0], [.num 2, .num 0], [.num 3, .num 0], [.num 4, .num 0],
          [.num 5, .num 1]],
    category_counts := [0, 2] }

/-! ## `predict` (`decision_trees.cpp`) -/

/-- Method `binary_decision_tree::class_count`: `m_category_counts.back()`. -/
def binary_decision_tree.class_count (tree : binary_decision_tree) : Nat :=
  tree.category_counts.getLastD 0

/-- The function `compute_class_counts(tree, I, counts)` of `algorithms.h` for an array
`counts` of size `K`: filled with zeroes, then `counts[y[i]]++` for every `i` of `I`, where
`y` is `tree.classes()`. -/
def binary_decision_tree.compute_class_counts (tree : binary_decision_tree) (I : List Nat)
    (K : Nat) : List Nat :=
  I.foldl (fun counts i => incr counts (tree.classes.getD i 0)) (List.replicate K 0)

/-- The loop `for (std::size_t j = 1; j < K; j++)` of `majority_class`, on the array
`max_counts` and the number `N` of maximum values; the first argument is the number of
iterations left. -/
def majority_loop (counts : List Nat) : Nat → Nat → List Nat → Nat → List Nat × Nat
  | 0, _, max_counts, N => (max_counts, N)
  | n + 1, j, max_counts, N =>
    if counts.getD j 0 > counts.getD (max_counts.getD 0 0) 0 then
      majority_loop counts n (j + 1) (max_counts.set 0 j) 1
    else if counts.getD j 0 = counts.getD (max_counts.getD 0 0) 0 then
      majority_loop counts n (j + 1) (max_counts.set N j) (N + 1)
    else majority_loop counts n (j + 1) max_counts N

/-- The function `detail::majority_class(tree, u)`. The function `random_integer` is declared
in `aitools/utilities/random.h`; it is a parameter of the model, a function of the state of
the generator behind it. The stack array `max_counts` is not initialised in the source, the
model starts from zeroes. -/
def majority_class {ρ : Type} (random_integer : Nat → Nat → ρ → Nat × ρ)
    (tree : binary_decision_tree) (u : vertex) (rng : ρ) : Nat × ρ :=
  let I := tree.range u
  if I.length = 1 then (tree.classes.getD (I.headD 0) 0, rng)
  else
    let K := tree.class_count
    let counts := tree.compute_class_counts I K
    let st := majority_loop counts (K - 1) 1 ((List.replicate K 0).set 0 0) 1
    let k := random_integer 0 (st.2 - 1) rng
    (st.1.getD k.1 0, k.2)

/-- The function `predict(tree, x)`; `none` stands for the exception of
`execute_decision_tree` or for the bound on its iterations. -/
def predict {ρ : Type} (random_integer : Nat → Nat → ρ → Nat × ρ)
    (tree : binary_decision_tree) (x : List Value) (rng : ρ) (fuel : Nat) : Option (Nat × ρ) :=
  (execute_decision_tree tree x fuel 0).map
    (fun ui => majority_class random_integer tree (tree.find_vertex ui) rng)

/-- The constructor `decision_tree_predictor(tree)`: returns the member `m_values`, an array
of `std::uint32_t` with an entry for every vertex, initially 0, in which the callback of
`visit_nodes_bfs` stores `majority_class(tree, u)` at `ui`. -/
def decision_tree_predictor.make {ρ : Type} (random_integer : Nat → Nat → ρ → Nat × ρ)
    (tree : binary_decision_tree) (rng : ρ) (fuel : Nat) : Option (List Nat × ρ) :=
  (visit_nodes_bfs tree fuel).map (fun out =>
    out.foldl (fun (acc : List Nat × ρ) c =>
      ((acc.1.set c.1 ((majority_class random_integer tree (tree.find_vertex c.1) acc.2).1
          % 2 ^ 32)),
        (majority_class random_integer tree (tree.find_vertex c.1) acc.2).2))
      (List.replicate tree.vertices.length 0, rng))

/-- The method `decision_tree_predictor::predict(x)` for the member `m_values`. -/
def decision_tree_predictor.predict (m_values : List Nat) (tree : binary_decision_tree)
    (x : List Value) (fuel : Nat) : Option Nat :=
  (execute_decision_tree tree x fuel 0).map (fun ui => m_values.getD ui 0)

/-- The number of samples of the range `I` whose class is `k`, as the specification states
it. -/
def binary_decision_tree.count_class (tree : binary_decision_tree) (I : List Nat) (k : Nat) :
    Nat :=
  I.countP (fun i => tree.classes.getD i 0 = k)

/-- One step of the execution of a decision tree on `x`, as the specification states it: `u`
is not a leaf and `w` is its left child if `select(split, x) = 0`, else its right child. -/
def descends (tree : binary_decision_tree) (x : List Value) (u w : Nat) : Prop :=
  (tree.find_vertex u).is_leaf = false ∧
    w = if select (tree.find_vertex u).split x = 0 then (tree.find_vertex u).left
        else (tree.find_vertex u).right

/-- The functions on text that the reading and the writing of a circuit call and that are
declared in `utilities/string_utility.h`, `utilities/parse_numbers.h`, `utilities/print.h`,
`decision_trees/splitters_io.h` and the standard library (`std::regex`, the output of
numbers to a stream, `std::bitset`): parameters of the model. A text is a list of
characters. `regex_match line re` answers the groups of the match, the whole match first;
`none` stands for an exception. `print_naturals` and `print_doubles` are
`print_container(., "[", "]", " ")`. -/
structure text_library where
  starts_with : List Char → List Char → Bool
  regex_match : List Char → List Char → Option (List (List Char))
  parse_natural_number : List Char → Option Nat
  parse_natural_number_sequence : List Char → Option (List Nat)
  parse_double : List Char → Option Value
  parse_double_sequence : List Char → Option (List Value)
  parse_binary_number : List Char → Option Nat
  parse_splitting_criterion : List Char → Option splitting_criterion
  print_natural : Nat → List Char
  print_int : Int → List Char
  print_double : Value → List Char
  print_bitset : Nat → List Char
  print_naturals : List Nat → List Char
  print_doubles : List Value → List Char
  print_category_counts : List Nat → List Char
  print_split : splitting_criterion → List Char

/-- The member `pc_node::save_node`: the common part of the line of a node. -/
def save_node (lib : text_library) (name : List Char) (index : Nat) (successors : List Nat) :
    List Char :=
  name ++ [':', ' '] ++ lib.print_natural index ++ [' '] ++ lib.print_naturals successors

/-- The virtual member `save` of the node classes: the line of the node, without the
newline that ends it. -/
def pc_node_kind.save (lib : text_library) (kind : pc_node_kind) (index : Nat)
    (successors : List Nat) : List Char :=
  match kind with
  | .sum weights =>
    save_node lib ("sum").toList index successors ++ [' '] ++ lib.print_doubles weights
  | .sum_split weights splitter =>
    save_node lib ("sum_split").toList index successors ++ [' '] ++ lib.print_doubles weights
      ++ [' '] ++ lib.print_split splitter
  | .product => save_node lib ("product").toList index successors
  | .terminal scope (.categorical p) =>
    save_node lib ("categorical").toList index successors ++ [' '] ++ lib.print_natural scope
      ++ [' '] ++ lib.print_doubles p
  | .terminal scope (.normal mean sd) =>
    save_node lib ("normal").toList index successors ++ [' '] ++ lib.print_natural scope
      ++ [' '] ++ lib.print_double mean ++ [' '] ++ lib.print_double sd
  | .terminal scope (.truncated_normal mean sd a b) =>
    save_node lib ("truncated_normal").toList index successors ++ [' ']
      ++ lib.print_natural scope ++ [' '] ++ lib.print_double mean ++ [' ']
      ++ lib.print_double sd ++ [' '] ++ lib.print_double a ++ [' '] ++ lib.print_double b
  | .terminal scope (.less value) =>
    save_node lib ("less").toList index successors ++ [' '] ++ lib.print_natural scope
      ++ [' '] ++ lib.print_int value
  | .terminal scope (.greater_equal value) =>
    save_node lib ("greater_equal").toList index successors ++ [' ']
      ++ lib.print_natural scope ++ [' '] ++ lib.print_int value
  | .terminal scope (.equal value) =>
    save_node lib ("equal_to").toList index successors ++ [' '] ++ lib.print_natural scope
      ++ [' '] ++ lib.print_double value
  | .terminal scope (.not_equal value) =>
    save_node lib ("not_equal_to").toList index successors ++ [' ']
      ++ lib.print_natural scope ++ [' '] ++ lib.print_double value
  | .terminal scope (.subset mask) =>
    save_node lib ("subset").toList index successors ++ [' '] ++ lib.print_natural scope
      ++ [' '] ++ lib.print_bitset mask

/-- A node made by the parser: its successors are the pointers found in `vertices` when
its line was read, which may be null. -/
structure parsed_node where
  kind : pc_node_kind
  successors : List (Option Nat)
deriving DecidableEq

/-- The members of the parser class of `io.h`: the category counts of `pc`,
the vector `vertices` of pointers (null or the position of a node), and the nodes that have
been allocated. -/
structure circuit_parser_state where
  category_counts : List Nat
  vertices : List (Option Nat)
  nodes : List parsed_node
deriving DecidableEq

/-- The assignment `vertices[index] = std::make_shared<...>(...)` followed by the
assignment of the successors; an index outside of `vertices` is an error. -/
def circuit_parser_state.assign (st : circuit_parser_state) (index : Nat)
    (kind : pc_node_kind) (successors : List (Option Nat)) :
    Option circuit_parser_state :=
  if index < st.vertices.length then
    some { category_counts := st.category_counts
           vertices := st.vertices.set index (some st.nodes.length)
           nodes := st.nodes ++ [{ kind := kind, successors := successors }] }
  else none

/-- The member `parse_successors`. -/
def parse_successors (lib : text_library) (st : circuit_parser_state)
    (text : List Char) : Option (List (Option Nat)) :=
  (lib.parse_natural_number_sequence text).bind
    (fun S => S.mapM (fun s => st.vertices.get? s))

/-- The member `parse_pc_size`. -/
def parse_pc_size (lib : text_library) (line : List Char) (st : circuit_parser_state) :
    Option circuit_parser_state :=
  (lib.regex_match line ("pc_size:\\s*(\\d+)\\s*").toList).bind fun m =>
  (lib.parse_natural_number (m.getD 1 [])).bind fun N =>
  some { category_counts := st.category_counts
         vertices := (st.vertices ++ List.replicate N none).take N
         nodes := st.nodes }

/-- The member `parse_category_counts`. -/
def parse_category_counts (lib : text_library) (line : List Char)
    (st : circuit_parser_state) : Option circuit_parser_state :=
  (lib.regex_match line ("category_counts:(.*)").toList).bind fun m =>
  (lib.parse_natural_number_sequence (m.getD 1 [])).bind fun counts =>
  some { category_counts := counts, vertices := st.vertices, nodes := st.nodes }

/-- The member `parse_sum`. -/
def parse_sum (lib : text_library) (line : List Char) (st : circuit_parser_state) :
    Option circuit_parser_state :=
  (lib.regex_match line
    ("sum:\\s*(\\d+)\\s*\\[([^\\]]*)\\]\\s*\\[([^\\]]*)\\]\\s*").toList).bind fun m =>
  (lib.parse_natural_number (m.getD 1 [])).bind fun index =>
  (parse_successors lib st (m.getD 2 [])).bind fun successors =>
  (lib.parse_double_sequence (m.getD 3 [])).bind fun weights =>
  st.assign index (.sum weights) successors

/-- The member `parse_sum_split`. -/
def parse_sum_split (lib : text_library) (line : List Char)
    (st : circuit_parser_state) : Option circuit_parser_state :=
  (lib.regex_match line
    ("sum_split:\\s*(\\d+)\\s*\\[([^\\]]*)\\]\\s*\\[([^\\]]*)\\]\\s*(\\w+\\([^)]*\\))\\s*").toList).bind
  fun m =>
  (lib.parse_natural_number (m.getD 1 [])).bind fun index =>
  (parse_successors lib st (m.getD 2 [])).bind fun successors =>
  (lib.parse_double_sequence (m.getD 3 [])).bind fun weights =>
  (lib.parse_splitting_criterion (m.getD 4 [])).bind fun split =>
  st.assign index (.sum_split weights split) successors

/-- The member `parse_product`. -/
def parse_product (lib : text_library) (line : List Char) (st : circuit_parser_state) :
    Option circuit_parser_state :=
  (lib.regex_match line ("product:\\s*(\\d+)\\s*\\[([^\\]]*)\\]\\s*").toList).bind fun m =>
  (lib.parse_natural_number (m.getD 1 [])).bind fun index =>
  (parse_successors lib st (m.getD 2 [])).bind fun successors =>
  st.assign index .product successors

/-- The member `parse_categorical`. -/
def parse_categorical (lib : text_library) (line : List Char)
    (st : circuit_parser_state) : Option circuit_parser_state :=
  (lib.regex_match line
    ("categorical:\\s*(\\d+)\\s*\\[\\]\\s*(\\d+)\\s*\\[([^\\]]*)\\]\\s*").toList).bind fun m =>
  (lib.parse_natural_number (m.getD 1 [])).bind fun index =>
  (lib.parse_natural_number (m.getD 2 [])).bind fun scope =>
  (lib.parse_double_sequence (m.getD 3 [])).bind fun probabilities =>
  st.assign index (.terminal scope (.categorical probabilities)) []

/-- The member `parse_normal`. -/
def parse_normal (lib : text_library) (line : List Char) (st : circuit_parser_state) :
    Option circuit_parser_state :=
  (lib.regex_match line
    ("normal:\\s*(\\d+)\\s*\\[\\]\\s*(\\d+)\\s*([^\\s]+)\\s*([^\\s]+)\\s*").toList).bind fun m =>
  (lib.parse_natural_number (m.getD 1 [])).bind fun index =>
  (lib.parse_natural_number (m.getD 2 [])).bind fun scope =>
  (lib.parse_double (m.getD 3 [])).bind fun mu =>
  (lib.parse_double (m.getD 4 [])).bind fun sigma =>
  st.assign index (.terminal scope (.normal mu sigma)) []

/-- The member `parse_truncated_normal`. -/
def parse_truncated_normal (lib : text_library) (line : List Char)
    (st : circuit_parser_state) : Option circuit_parser_state :=
  (lib.regex_match line
    ("truncated_normal:\\s*(\\d+)\\s*\\[\\]\\s*(\\d+)\\s*([^\\s]+)\\s*([^\\s]+)\\s*([^\\s]+)\\s*([^\\s]+)\\s*").toList).bind
  fun m =>
  (lib.parse_natural_number (m.getD 1 [])).bind fun index =>
  (lib.parse_natural_number (m.getD 2 [])).bind fun scope =>
  (lib.parse_double (m.getD 3 [])).bind fun mu =>
  (lib.parse_double (m.getD 4 [])).bind fun sigma =>
  (lib.parse_double (m.getD 5 [])).bind fun a =>
  (lib.parse_double (m.getD 6 [])).bind fun b =>
  st.assign index (.terminal scope (.truncated_normal mu sigma a b)) []

/-- The member `parse_less`; the constructor of `less_node` takes an `int`. -/
def parse_less (lib : text_library) (line : List Char) (st : circuit_parser_state) :
    Option circuit_parser_state :=
  (lib.regex_match line ("less:\\s*(\\d+)\\s*\\[\\]\\s*(\\d+)\\s*(.*)\\s*").toList).bind fun m =>
  (lib.parse_natural_number (m.getD 1 [])).bind fun index =>
  (lib.parse_natural_number (m.getD 2 [])).bind fun scope =>
  (lib.parse_double (m.getD 3 [])).bind fun value =>
  st.assign index (.terminal scope (.less value.to_int)) []

/-- The member `parse_greater_equal`; the constructor of `greater_equal_node` takes an
`int`. -/
def parse_greater_equal (lib : text_library) (line : List Char)
    (st : circuit_parser_state) : Option circuit_parser_state :=
  (lib.regex_match line
    ("greater_equal:\\s*(\\d+)\\s*\\[\\]\\s*(\\d+)\\s*(.*)\\s*").toList).bind fun m =>
  (lib.parse_natural_number (m.getD 1 [])).bind fun index =>
  (lib.parse_natural_number (m.getD 2 [])).bind fun scope =>
  (lib.parse_double (m.getD 3 [])).bind fun value =>
  st.assign index (.terminal scope (.greater_equal value.to_int)) []

/-- The member `parse_equal`. -/
def parse_equal (lib : text_library) (line : List Char) (st : circuit_parser_state) :
    Option circuit_parser_state :=
  (lib.regex_match line ("equal:\\s*(\\d+)\\s*\\[\\]\\s*(\\d+)\\s*(.*)\\s*").toList).bind fun m =>
  (lib.parse_natural_number (m.getD 1 [])).bind fun index =>
  (lib.parse_natural_number (m.getD 2 [])).bind fun scope =>
  (lib.parse_double (m.getD 3 [])).bind fun value =>
  st.assign index (.terminal scope (.equal value)) []

/-- The member `parse_not_equal`. -/
def parse_not_equal (lib : text_library) (line : List Char)
    (st : circuit_parser_state) : Option circuit_parser_state :=
  (lib.regex_match line
    ("not_equal:\\s*(\\d+)\\s*\\[\\]\\s*(\\d+)\\s*(.*)\\s*").toList).bind fun m =>
  (lib.parse_natural_number (m.getD 1 [])).bind fun index =>
  (lib.parse_natural_number (m.getD 2 [])).bind fun scope =>
  (lib.parse_double (m.getD 3 [])).bind fun value =>
  st.assign index (.terminal scope (.not_equal value)) []

/-- The member `parse_subset`; the mask is read from `match.str(2)`. -/
def parse_subset (lib : text_library) (line : List Char) (st : circuit_parser_state) :
    Option circuit_parser_state :=
  (lib.regex_match line
    ("subset:\\s*(\\d+)\\s*\\[\\]\\s*(\\d+)\\s*([01]+)\\s*").toList).bind fun m =>
  (lib.parse_natural_number (m.getD 1 [])).bind fun index =>
  (lib.parse_natural_number (m.getD 2 [])).bind fun scope =>
  (lib.parse_binary_number (m.getD 2 [])).bind fun mask =>
  st.assign index (.terminal scope (.subset mask)) []

/-- The member `parse_line`. A line that starts with none of the names is passed over. -/
def parse_line (lib : text_library) (line : List Char) (st : circuit_parser_state) :
    Option circuit_parser_state :=
  if lib.starts_with line ("probabilistic_circuit:").toList then some st
  else if lib.starts_with line ("pc_size:").toList then parse_pc_size lib line st
  else if lib.starts_with line ("category_counts:").toList then
    parse_category_counts lib line st
  else if lib.starts_with line ("sum:").toList then parse_sum lib line st
  else if lib.starts_with line ("sum_split:").toList then parse_sum_split lib line st
  else if lib.starts_with line ("product:").toList then parse_product lib line st
  else if lib.starts_with line ("categorical:").toList then parse_categorical lib line st
  else if lib.starts_with line ("normal:").toList then parse_normal lib line st
  else if lib.starts_with line ("truncated_normal:").toList then
    parse_truncated_normal lib line st
  else if lib.starts_with line ("less:").toList then parse_less lib line st
  else if lib.starts_with line ("greater_equal:").toList then parse_greater_equal lib line st
  else if lib.starts_with line ("equal:").toList then parse_equal lib line st
  else if lib.starts_with line ("not_equal:").toList then parse_not_equal lib line st
  else if lib.starts_with line ("subset:").toList then parse_subset lib line st
  else some st

/-- The member `parse`, on the lines of the stream. -/
def circuit_parser_state.parse (lib : text_library) :
    List (List Char) → circuit_parser_state → Option circuit_parser_state
  | [], st => some st
  | line :: lines, st => (parse_line lib line st).bind (circuit_parser_state.parse lib lines)

/-- A text library in which `starts_with` compares the first characters and numbers are
written in digits; its functions that read a text answer an exception. -/
def plain_text_library : text_library :=
  { starts_with := fun s p => p.isPrefixOf s
    regex_match := fun _ _ => none
    parse_natural_number := fun _ => none
    parse_natural_number_sequence := fun _ => none
    parse_double := fun _ => none
    parse_double_sequence := fun _ => none
    parse_binary_number := fun _ => none
    parse_splitting_criterion := fun _ => none
    print_natural := fun n => (Nat.repr n).toList
    print_int := fun n => (toString n).toList
    print_double := fun v =>
      match v with
      | .nan => ("nan").toList
      | .num q => (toString q).toList
    print_bitset := fun n => (Nat.toDigits 2 n)
    print_naturals := fun l => (toString l).toList
    print_doubles := fun l =>
      (toString (l.map (fun (v : Value) =>
        match v with
        | .nan => "nan"
        | .num q => toString q))).toList
    print_category_counts := fun l => (toString l).toList
    print_split := fun _ => [] }



/-- The invariant of the loop of `learn_decision_tree` on the position of the ranges: the
ranges of two leaves do not overlap, and the range of a leaf lies inside or outside the range
of a vertex that is not a leaf. -/
structure range_inv (tree : binary_decision_tree) : Prop where
  leaves_disjoint : ∀ i j, i < tree.vertices.length → j < tree.vertices.length → i ≠ j →
    (tree.find_vertex i).is_leaf = true → (tree.find_vertex j).is_leaf = true →
    (tree.find_vertex i).I_end ≤ (tree.find_vertex j).I_begin ∨
    (tree.find_vertex j).I_end ≤ (tree.find_vertex i).I_begin
  laminar : ∀ l w, l < tree.vertices.length → w < tree.vertices.length →
    (tree.find_vertex l).is_leaf = true → (tree.find_vertex w).is_leaf = false →
    ((tree.find_vertex w).I_begin ≤ (tree.find_vertex l).I_begin ∧
      (tree.find_vertex l).I_end ≤ (tree.find_vertex w).I_end) ∨
    (tree.find_vertex l).I_end ≤ (tree.find_vertex w).I_begin ∨
    (tree.find_vertex w).I_end ≤ (tree.find_vertex l).I_begin

/-! ## Specification functions for the choice of the best split -/

/-- The candidates that the loop of `learn_decision_tree` enumerates: for every iteration in
which `stop` is false, the vertex taken from the queue and the reports made by
`split_family.enumerate` on its range for the sampled variables, in the order of the
reports. -/
def learn_loop_candidates {ρ S : Type} (eng : random_engine ρ) (D : dataset)
    (options : decision_tree_options) (fam : split_family) (g : gain_function S)
    (stop : List Nat → dataset → Nat → decision_tree_options → Bool) :
    Nat → learn_state ρ → List (Nat × List split_report)
  | 0, _ => []
  | fuel + 1, st =>
    match st.todo with
    | [] => []
    | ui :: _ =>
      let here : List (Nat × List split_report) :=
        if stop (st.tree.range (st.tree.find_vertex ui)) D st.depth options then []
        else
          match fam.enumerate D options (st.tree.range (st.tree.find_vertex ui))
            (eng.sample (List.range D.feature_count)
              (min options.max_features D.feature_count) st.rng).1 with
          | none => []
          | some res => [(ui, res.2)]
      match learn_step eng D options fam g stop st with
      | none => here
      | some st2 => here ++ learn_loop_candidates eng D options fam g stop fuel st2

/-- The report `r` is at position `k` of the reports, its gain is maximal among the reports
and higher than the gain of every report before it. -/
def first_best {S : Type} [LinearOrder S] (g : gain_function S) (reports : List split_report)
    (k : Nat) (r : split_report) : Prop :=
  reports[k]? = some r ∧
  ∀ j r2, reports[j]? = some r2 →
    g.gain r2.D1_counts r2.D2_counts ≤ g.gain r.D1_counts r.D2_counts ∧
    (j < k → g.gain r2.D1_counts r2.D2_counts < g.gain r.D1_counts r.D2_counts)

/-- A leaf has an undefined splitting criterion. -/
def leaf_undefined (tree : binary_decision_tree) : Prop :=
  ∀ i, i < tree.vertices.length → (tree.find_vertex i).is_leaf = true →
    (tree.find_vertex i).split = splitting_criterion.monostate







/-! ## Specification predicates for the depth of a vertex -/

/-- The depth of a vertex in a tree: the root is at depth 0, and the children of a vertex at
depth `d` that is not a leaf are at depth `d + 1`. -/
inductive at_depth (tree : binary_decision_tree) : Nat → Nat → Prop where
  | root : at_depth tree 0 0
  | left (u d : Nat) : at_depth tree u d → u < tree.vertices.length →
      (tree.find_vertex u).is_leaf = false → at_depth tree (tree.find_vertex u).left (d + 1)
  | right (u d : Nat) : at_depth tree u d → u < tree.vertices.length →
      (tree.find_vertex u).is_leaf = false → at_depth tree (tree.find_vertex u).right (d + 1)

/-- The invariant of the loop of `learn_decision_tree` on the depth counter, for the tree
`T` that the loop returns: the first `level_count` vertices of the queue are at depth
`depth` in `T`, the others at depth `depth + 1`. -/
def depth_queue {ρ : Type} (T : binary_decision_tree) (st : learn_state ρ) : Prop :=
  (∀ a ∈ st.todo.take st.level_count, at_depth T a st.depth) ∧
  (∀ b ∈ st.todo.drop st.level_count, at_depth T b (st.depth + 1))





/-! ## Specification functions for the intervals of a vertex -/

/-- The vertex reached from `u` by a path; `true` is a step to the left child, `false` a
step to the right child. `none` when a step is made from a leaf. -/
def descend (tree : binary_decision_tree) : Nat → List Bool → Option Nat
  | u, [] => some u
  | u, d :: p =>
    if (tree.find_vertex u).is_leaf then none
    else descend tree (if d then (tree.find_vertex u).left else (tree.find_vertex u).right) p

/-- The change of the intervals on a step from a vertex with the given criterion, as the
specification states it: a threshold split `(i, t)` sets `intervals[i].b = t` on a step to
the left child and `intervals[i].a = t` on a step to the right child; single and subset
splits change nothing. -/
def scratch_step (split : splitting_criterion) (go_left : Bool) (iv : List interval) :
    List interval :=
  match split with
  | .threshold s =>
    if go_left then iv.set s.var { a := (iv.getD s.var {}).a, b := s.value }
    else iv.set s.var { a := s.value, b := (iv.getD s.var {}).b }
  | _ => iv

/-- The intervals computed from scratch along a path that starts at `u` with the intervals
`iv`. -/
def scratch_intervals (tree : binary_decision_tree) : Nat → List Bool → List interval →
    List interval
  | _, [], iv => iv
  | u, d :: p, iv =>
    scratch_intervals tree (if d then (tree.find_vertex u).left else (tree.find_vertex u).right)
      p (scratch_step (tree.find_vertex u).split d iv)

/-- The paths from `u` to the vertices below it in depth first order, the left child first.
The first argument bounds the depth. -/
def subtree_paths (tree : binary_decision_tree) : Nat → Nat → List (List Bool)
  | 0, _ => [[]]
  | fuel + 1, u =>
    if (tree.find_vertex u).is_leaf then [[]]
    else [] :: ((subtree_paths tree fuel (tree.find_vertex u).left).map (fun p => true :: p) ++
      (subtree_paths tree fuel (tree.find_vertex u).right).map (fun p => false :: p))



/-- The tree of `test_intervals2` in `probabilistic_circuit_test.cpp`. -/
def intervals_test_tree : binary_decision_tree :=
  { vertices := [⟨0, 10, 1, 2, .threshold ⟨2, .num 5⟩⟩,
      ⟨0, 5, 3, 4, .threshold ⟨0, .num 3⟩⟩,
      ⟨5, 10, 5, 6, .single ⟨1, .num 4⟩⟩,
      ⟨0, 2, undefined_index, undefined_index, .monostate⟩,
      ⟨2, 5, undefined_index, undefined_index, .monostate⟩,
      ⟨5, 8, undefined_index, undefined_index, .monostate⟩,
      ⟨8, 10, undefined_index, undefined_index, .monostate⟩],
    indices := [0, 1, 2, 3, 4, 5, 6, 7, 8, 9], classes := [], category_counts := [] }

/-- A dataset with one categorical variable with two categories, whose value is missing in
the second sample, and two classes. -/
def missing_category_dataset : dataset :=
  { X := [[.num 0, .num 0], [.nan, .num 1], [.num 1, .num 0]], category_counts := [2, 2] }

/-! ## Random forests (`random_forests/algorithms.h`) -/

/-- The constructor `random_forest_predictor(forest)`: the member `m_predictors`, as the
list of the arrays `m_values` of the predictors of the trees, made in the order of the
trees. A `random_forest` is the list of its trees. -/
def random_forest_predictor.make {ρ : Type} (random_integer : Nat → Nat → ρ → Nat × ρ) :
    List binary_decision_tree → ρ → Nat → Option (List (List Nat) × ρ)
  | [], rng, _ => some ([], rng)
  | tree :: trees, rng, fuel =>
    match decision_tree_predictor.make random_integer tree rng fuel with
    | none => none
    | some (m_values, rng1) =>
      match random_forest_predictor.make random_integer trees rng1 fuel with
      | none => none
      | some (rest, rng2) => some (m_values :: rest, rng2)

/-- The index `std::max_element(first, last) - first`: the first position of a greatest
element, 0 for an empty range. -/
def max_element_index (counts : List Nat) : Nat :=
  ((List.range counts.length).foldl
    (fun (best : Nat × Nat) j =>
      if best.2 < counts.getD j 0 then (j, counts.getD j 0) else best)
    (0, counts.getD 0 0)).1

/-- The method `random_forest_predictor::predict(x)`. `none` stands for an exception of a
tree predictor, for the bound on its iterations, or for the call of `front()` on a forest
without trees. -/
def random_forest_predictor.predict (m_predictors : List (List Nat))
    (forest : List binary_decision_tree) (x : List Value) (fuel : Nat) : Option Nat :=
  match forest with
  | [] => none
  | first :: _ =>
    ((m_predictors.zip forest).foldl
      (fun (counts : Option (List Nat)) p =>
        match counts, decision_tree_predictor.predict p.1 p.2 x fuel with
        | some c, some k => some (incr c k)
        | _, _ => none)
      (some (List.replicate first.class_count 0))).map max_element_index

/-- The function `accuracy(forest, I, D)`. -/
def random_forest.accuracy {ρ : Type} (random_integer : Nat → Nat → ρ → Nat × ρ)
    (forest : List binary_decision_tree) (I : List Nat) (D : dataset) (rng : ρ) (fuel : Nat) :
    Option Value :=
  match random_forest_predictor.make random_integer forest rng fuel with
  | none => none
  | some (m_predictors, _) =>
    (I.foldl
      (fun (correct_predictions : Option Nat) i =>
        match correct_predictions,
          random_forest_predictor.predict m_predictors forest (D.X.getD i []) fuel with
        | some n, some k => some (if k = D.class_of i then n + 1 else n)
        | _, _ => none)
      (some 0)).map (fun n => (Value.num n).div (.num I.length))

/-- The function `accuracy_parallel(forest, I, D)`. The vector `correct` has
`forest.trees().size()` elements, filled with 0, 1, 2, ...; the callback of
`std::for_each` replaces the element `c` by the outcome of the prediction for the index
`*(I.begin() + c)`. The callbacks write to distinct elements and are run here in order.
`none` also stands for a read behind the end of `I`. -/
def random_forest.accuracy_parallel {ρ : Type} (random_integer : Nat → Nat → ρ → Nat × ρ)
    (forest : List binary_decision_tree) (I : List Nat) (D : dataset) (rng : ρ) (fuel : Nat) :
    Option Value :=
  match random_forest_predictor.make random_integer forest rng fuel with
  | none => none
  | some (m_predictors, _) =>
    let correct : Option (List Nat) :=
      (List.range forest.length).mapM (fun c =>
        match I.get? c with
        | none => none
        | some i =>
          (random_forest_predictor.predict m_predictors forest (D.X.getD i []) fuel).map
            (fun k => if k = D.class_of i then 1 else 0))
    correct.map (fun l => (Value.num l.sum).div (.num I.length))

/-! ## `find_categorical_section` (`statistics/distributions.h`) -/

/-- The loop of `detail::find_categorical_section` on the rest of the sequence, with the
index `i` and the running `sum`, a double to which `p[i]` is added with the rounding of
the type; `none` when the loop ends without a `return`. -/
def find_categorical_section_loop (x : Value) : List Value → Nat → Value → Option Nat
  | [], _, _ => none
  | p_i :: rest, i, sum =>
    if x.le (binary64.add sum p_i) then some i
    else find_categorical_section_loop x rest (i + 1) (binary64.add sum p_i)

/-- The function `detail::find_categorical_section(p, x)`; `p.size() - 1` is computed on
64 bit unsigned numbers. -/
def find_categorical_section (p : List Value) (x : Value) : Nat :=
  (find_categorical_section_loop x p 0 (.num 0)).getD ((p.length + (2 ^ 64 - 1)) % 2 ^ 64)



/-- The invariant of the loop of `learn_decision_tree` on the routing of the samples: a
vertex that is not a leaf has a defined criterion, `select` is 0 on the samples of its left
child and 1 on the samples of its right child. -/
def route_inv (D : dataset) (tree : binary_decision_tree) : Prop :=
  ∀ w, w < tree.vertices.length → (tree.find_vertex w).is_leaf = false →
    (tree.find_vertex w).split ≠ splitting_criterion.monostate ∧
    (∀ s ∈ tree.range (tree.find_vertex (tree.find_vertex w).left),
      select (tree.find_vertex w).split (D.X.getD s []) = 0) ∧
    (∀ s ∈ tree.range (tree.find_vertex (tree.find_vertex w).right),
      select (tree.find_vertex w).split (D.X.getD s []) = 1)



/-- The function `truncated_phi` of `math_functions.h`: the density of the normal distribution
truncated between `a` and `b`. -/
def truncated_phi (lib : math_library) (x mu sigma a b : Value) : Value :=
  if x.lt a || b.lt x then .num 0
  else (lib.normal_pdf mu sigma x).div ((lib.normal_cdf mu sigma b).sub (lib.normal_cdf mu sigma a))









/-- The number of samples of the range of the vertex `t`, minus one, summed over the
vertices of the queue. -/
def queue_slack (tree : binary_decision_tree) (todo : List Nat) : Nat :=
  (todo.map (fun t => (tree.find_vertex t).I_end - (tree.find_vertex t).I_begin - 1)).sum

/-- The invariant of the loop of `learn_decision_tree` on the sizes, for `n` training
samples: no vertex has an empty range, and the vertices made so far together with those that
the vertices of the queue can still produce are at most `2 n - 1`. -/
structure size_inv {ρ : Type} (n : Nat) (st : learn_state ρ) : Prop where
  nonempty : ∀ u, u < st.tree.vertices.length →
    (st.tree.find_vertex u).I_begin < (st.tree.find_vertex u).I_end
  potential : st.tree.vertices.length + 2 * queue_slack st.tree st.todo ≤ 2 * n - 1





/-! ## Specification predicates for `expand_sum_split_nodes` -/

/-- The node behind a pointer in a list of allocated nodes, see
`probabilistic_circuit.node`. -/
@[reducible] def node_at (nodes : List pc_node) (q : Nat) : pc_node :=
  nodes.getD q { kind := .product, successors := [] }

/-- The tree number `t` of a forest; past the end, a tree without vertices. -/
def tree_at (forest : List binary_decision_tree) (t : Nat) : binary_decision_tree :=
  forest.getD t { vertices := [], indices := [], classes := [], category_counts := [] }

/-- The left or the right child of the vertex `c`. -/
def child_of (tree : binary_decision_tree) (c : Nat) (right : Bool) : Nat :=
  if right then (tree.find_vertex c).right else (tree.find_vertex c).left

/-- The circuit `pc` is a generative forest for the trees of `forest` over the variables
`0, ..., m`: the root is a sum node over the nodes of the roots of the trees; the node
`ptr t c` of the vertex `c` of tree `t` is a sum-split node over the nodes of the two
children, or for a leaf a product node over terminal nodes of the variables `0, ..., m`
(`generative_tree`); the trees are numbered breadth first, their splits are defined and split
a variable of the circuit; every pointer points to an allocated node; and two vertices that
are not leaves do not share their node. -/
structure generative_forest (pc : probabilistic_circuit) (forest : List binary_decision_tree)
    (ptr : Nat → Nat → Nat) (m : Nat) : Prop where
  closed : pc.closed
  root : ∃ w, pc.node pc.root =
    pc_node.mk (.sum w) ((List.range forest.length).map (fun t => ptr t 0))
  trees : ∀ t, t < forest.length → generative_tree (tree_at forest t) m pc (ptr t)
  numbered : ∀ t, t < forest.length → bfs_numbered (tree_at forest t).vertices
  splits : ∀ t, t < forest.length → ∀ c, c < (tree_at forest t).vertices.length →
    ((tree_at forest t).find_vertex c).is_leaf = false →
    ((tree_at forest t).find_vertex c).split ≠ splitting_criterion.monostate ∧
    split_variable ((tree_at forest t).find_vertex c).split ≤ m
  bound : ∀ t, t < forest.length → ∀ c, c < (tree_at forest t).vertices.length →
    ptr t c < pc.nodes.length
  distinct : ∀ t c t2 c2, t < forest.length → c < (tree_at forest t).vertices.length →
    ((tree_at forest t).find_vertex c).is_leaf = false →
    t2 < forest.length → c2 < (tree_at forest t2).vertices.length →
    ((tree_at forest t2).find_vertex c2).is_leaf = false →
    ptr t c = ptr t2 c2 → t = t2 ∧ c = c2

/-- The vertices whose sum-split node has been expanded, with the pointer to the first of the
five nodes allocated for each of them: the product node `y_0`, the indicator node `z_0`, the
product node `y_1`, the indicator node `z_1` and the sum node. -/
structure expansion where
  done : Nat → Nat → Bool
  base : Nat → Nat → Nat

/-- The node that stands for the vertex `c` of tree `t`: the new sum node when the vertex has
been expanded. -/
def expansion.cur (x : expansion) (ptr : Nat → Nat → Nat) (t c : Nat) : Nat :=
  if x.done t c then x.base t c + 4 else ptr t c

/-- The product node `y_0` or `y_1` of an expanded vertex. -/
def expansion.prod_ptr (x : expansion) (t c : Nat) (right : Bool) : Nat :=
  x.base t c + (if right then 2 else 0)

/-- The indicator node `z_0` or `z_1` of an expanded vertex. -/
def expansion.ind_ptr (x : expansion) (t c : Nat) (right : Bool) : Nat :=
  x.base t c + (if right then 3 else 1)

/-- The vertex `c` of tree `t` is expanded, its nodes being allocated from `b` on. -/
def expansion.mark (x : expansion) (t c b : Nat) : expansion :=
  { done := fun t2 c2 => if t2 = t ∧ c2 = c then true else x.done t2 c2,
    base := fun t2 c2 => if t2 = t ∧ c2 = c then b else x.base t2 c2 }

/-- The invariant of the loops of `expand_sum_split_nodes` on the nodes allocated, for a
circuit that was the generative forest `pc0` at the start: the nodes of `pc0` that are not
sum-split nodes are unchanged, except for the successors of the root; the sum-split node of a
vertex that is not expanded is unchanged and its children are not expanded; for an expanded
vertex the two product nodes, the two indicator nodes and the sum node are as
`expand_sum_split_node` makes them, the first successor of a product node being the node that
stands for the child. -/
structure expand_inv (pc0 : probabilistic_circuit) (forest : List binary_decision_tree)
    (ptr : Nat → Nat → Nat) (nodes : List pc_node) (x : expansion) : Prop where
  len : pc0.nodes.length ≤ nodes.length
  frame : ∀ q, q < pc0.nodes.length → q ≠ pc0.root →
    (∀ w s, (pc0.node q).kind ≠ .sum_split w s) → node_at nodes q = pc0.node q
  rootn : node_at nodes pc0.root = pc_node.mk (pc0.node pc0.root).kind
    ((List.range forest.length).map (fun t => x.cur ptr t 0))
  inner : ∀ t c, x.done t c = true → t < forest.length ∧
    c < (tree_at forest t).vertices.length ∧
    ((tree_at forest t).find_vertex c).is_leaf = false
  fresh : ∀ t c, t < forest.length → c < (tree_at forest t).vertices.length →
    ((tree_at forest t).find_vertex c).is_leaf = false → x.done t c = false →
    node_at nodes (ptr t c) = pc0.node (ptr t c) ∧
    ∀ side, x.done t (child_of (tree_at forest t) c side) = false
  expd : ∀ t c, x.done t c = true →
    pc0.nodes.length ≤ x.base t c ∧ x.base t c + 5 ≤ nodes.length ∧
    (∃ w, node_at nodes (x.base t c + 4) =
      pc_node.mk (.sum w) [x.base t c, x.base t c + 2]) ∧
    ∀ side, node_at nodes (x.prod_ptr t c side) = pc_node.mk .product
        [x.cur ptr t (child_of (tree_at forest t) c side), x.ind_ptr t c side] ∧
      ∃ d, node_at nodes (x.ind_ptr t c side) = pc_node.mk
        (.terminal (split_variable ((tree_at forest t).find_vertex c).split) d) []
  apart : ∀ t c t2 c2, x.done t c = true → x.done t2 c2 = true → (t ≠ t2 ∨ c ≠ c2) →
    x.base t c + 5 ≤ x.base t2 c2 ∨ x.base t2 c2 + 5 ≤ x.base t c



/-- The nodes that wait in the queue of `expand_sum_split_nodes`: the root of the circuit, the
node that stands for a vertex (a leaf or an expanded vertex), a product node or an indicator
node of an expanded vertex, and terminal node `j` of a leaf. -/
inductive expand_item where
  | root
  | vert (t c : Nat)
  | prod (t c : Nat) (right : Bool)
  | term (t c j : Nat)
  | ind (t c : Nat) (right : Bool)
deriving DecidableEq

/-- The pointer of an item of the queue. -/
def expand_item.ptr (pc0 : probabilistic_circuit) (ptr : Nat → Nat → Nat) (x : expansion) :
    expand_item → Nat
  | .root => pc0.root
  | .vert t c => x.cur ptr t c
  | .prod t c side => x.prod_ptr t c side
  | .term t c j => (pc0.successors (ptr t c)).getD j 0
  | .ind t c side => x.ind_ptr t c side

/-- The number of nodes that stand for the vertices below `c`, `c` included, once all of
them are expanded: `m + 2` for a leaf, five more than its children for another vertex. The
first argument bounds the depth. -/
def expanded_size (tree : binary_decision_tree) (m : Nat) : Nat → Nat → Nat
  | 0, _ => 0
  | f + 1, c =>
    if (tree.find_vertex c).is_leaf then m + 2
    else 5 + expanded_size tree m f (tree.find_vertex c).left +
      expanded_size tree m f (tree.find_vertex c).right

/-- The function `expanded_size` for the vertex `c` of tree `t`. -/
def vertex_weight (forest : List binary_decision_tree) (m t c : Nat) : Nat :=
  expanded_size (tree_at forest t) m ((tree_at forest t).vertices.length - c) c

/-- The number of iterations of the outer loop that an item of the queue stands for. -/
def expand_item.weight (forest : List binary_decision_tree) (m : Nat) : expand_item → Nat
  | .root => 1 + ((List.range forest.length).map (fun t => vertex_weight forest m t 0)).sum
  | .vert t c => vertex_weight forest m t c
  | .prod t c side => 2 + vertex_weight forest m t (child_of (tree_at forest t) c side)
  | .term _ _ _ => 1
  | .ind _ _ _ => 1

/-- The items that can be in the queue for the expansion `x`. -/
def expand_item.valid (forest : List binary_decision_tree) (m : Nat) (x : expansion) :
    expand_item → Prop
  | .root => True
  | .vert t c => t < forest.length ∧ c < (tree_at forest t).vertices.length ∧
      (((tree_at forest t).find_vertex c).is_leaf = true ∨ x.done t c = true)
  | .prod t c _ => x.done t c = true
  | .term t c j => t < forest.length ∧ c < (tree_at forest t).vertices.length ∧
      ((tree_at forest t).find_vertex c).is_leaf = true ∧ j ≤ m
  | .ind t c _ => x.done t c = true

/-- Every sum-split node that can still be reached is below a node of the queue: the root of a
tree is a leaf or expanded unless the root of the circuit is in the queue, and a child of an
expanded vertex is a leaf or expanded unless the product node over it, or the sum node over
that product node, is in the queue. -/
structure expand_cover (forest : List binary_decision_tree) (x : expansion)
    (items : List expand_item) : Prop where
  roots : ∀ t, t < forest.length → expand_item.root ∈ items ∨ x.done t 0 = true ∨
    ((tree_at forest t).find_vertex 0).is_leaf = true
  kids : ∀ t c, x.done t c = true → ∀ side,
    ((tree_at forest t).find_vertex (child_of (tree_at forest t) c side)).is_leaf = true ∨
    x.done t (child_of (tree_at forest t) c side) = true ∨
    expand_item.prod t c side ∈ items ∨ expand_item.vert t c ∈ items

/-- The expansion `x2` extends `x`. -/
def expansion.le (x x2 : expansion) : Prop :=
  ∀ t c, x.done t c = true → x2.done t c = true ∧ x2.base t c = x.base t c

/-- The state of the outer loop of `expand_sum_split_nodes`: the nodes allocated satisfy the
invariant for the expansion `x`, and the queue holds the pointers of the items `items`. -/
structure expand_state (pc0 : probabilistic_circuit) (forest : List binary_decision_tree)
    (ptr : Nat → Nat → Nat) (m : Nat) (nodes : List pc_node) (x : expansion)
    (items : List expand_item) : Prop where
  inv : expand_inv pc0 forest ptr nodes x
  valid : ∀ i ∈ items, i.valid forest m x
  cover : expand_cover forest x items



/-- A bound on the number of iterations of the outer loop of `expand_sum_split_nodes` on the
generative forest of `forest` over the variables `0, ..., m`: the number of nodes that can be
reached from the root after the expansion. -/
def expansion_fuel (forest : List binary_decision_tree) (m : Nat) : Nat :=
  1 + ((List.range forest.length).map (fun t => vertex_weight forest m t 0)).sum

/-- A bound on the depth of the recursion of the checkers on the expanded circuit. -/
def checker_fuel (forest : List binary_decision_tree) : Nat :=
  1 + 2 * (forest.map (fun tree => tree.vertices.length)).sum

/-- The nodes of the expanded circuit that stand for the vertex `c` of tree `t`, which is a
leaf or expanded: the node of the vertex, the terminal nodes of a leaf, the product nodes and
the indicator nodes of an expanded vertex. -/
def expanded_node (pc0 : probabilistic_circuit) (forest : List binary_decision_tree)
    (ptr : Nat → Nat → Nat) (m : Nat) (x : expansion) (q : Nat) : Prop :=
  q = pc0.root ∨ ∃ t c, t < forest.length ∧ c < (tree_at forest t).vertices.length ∧
    ((((tree_at forest t).find_vertex c).is_leaf = true ∧
        (q = ptr t c ∨ ∃ j, j ≤ m ∧ q = (pc0.node (ptr t c)).successors.getD j 0)) ∨
      (x.done t c = true ∧
        (q = x.base t c + 4 ∨ ∃ side, q = x.prod_ptr t c side ∨ q = x.ind_ptr t c side)))



/-- The circuit that `build_generative_forest` makes for the forest of the single tree
`fraction_tree` on `fraction_dataset`: the product nodes 2 and 5 of the two leaves over their
terminal nodes, the sum-split node 6 of the root of the tree, and the root 7 of the
circuit. -/
def fraction_circuit : probabilistic_circuit :=
  { nodes := [
      ⟨.terminal 0 (.truncated_normal (.num (6 / 5)) (.num double_min) (.num double_lowest)
        (.num (3 / 2))), []⟩,
      ⟨.terminal 1 (.categorical [.num 1, .num 0]), []⟩,
      ⟨.product, [0, 1]⟩,
      ⟨.terminal 0 (.truncated_normal (.num (3 / 2)) (.num double_min) (.num (3 / 2))
        (.num double_max)), []⟩,
      ⟨.terminal 1 (.categorical [.num 0, .num 1]), []⟩,
      ⟨.product, [3, 4]⟩,
      ⟨.sum_split [.num (1 / 2), .num (1 / 2)] (.threshold ⟨0, .num (3 / 2)⟩), [2, 5]⟩,
      ⟨.sum [.num 1], [6]⟩],
    root := 7, category_counts := [0, 2] }

/-- The nodes of the vertices of `fraction_tree` in `fraction_circuit`. -/
def fraction_ptr (_ : Nat) (c : Nat) : Nat :=
  [6, 2, 5].getD c 0



/-- The pointers of the vertices from `k` on that are not leaves, in the loop
`for (std::size_t ui: order)` of `build_generative_tree`: they point to nodes allocated from
`base` on, and no two of them are equal. -/
structure inner_ptrs (tree : binary_decision_tree) (k base : Nat) (nodes : List pc_node)
    (pc_nodes : List (Option Nat)) : Prop where
  size : pc_nodes.length = tree.vertices.length
  base_le : base ≤ nodes.length
  range : ∀ ui p, k ≤ ui → ui < tree.vertices.length → (tree.find_vertex ui).is_leaf = false →
    pc_nodes.getD ui none = some p → base ≤ p ∧ p < nodes.length
  inj : ∀ ui uj p, k ≤ ui → ui < tree.vertices.length →
    (tree.find_vertex ui).is_leaf = false → k ≤ uj → uj < tree.vertices.length →
    (tree.find_vertex uj).is_leaf = false →
    pc_nodes.getD ui none = some p → pc_nodes.getD uj none = some p → ui = uj

/-- The pointer of the vertex `c` of tree `t` in a list of pointer tables. -/
def ptr_at (ptrs : List (Nat → Nat)) (t c : Nat) : Nat :=
  ptrs.getD t (fun _ => 0) c



/-! ## Impurity and gain (`impurity.h`) on doubles

Every operation rounds its exact result to the nearest double; a product and a sum are not
fused. The sums of the counts are sums of `std::size_t`. -/

/-- The function `gini_index(counts)` on doubles. -/
def binary64.gini_index (counts : List Nat) : Value :=
  let sum := binary64.of_nat (counts.sum % 2 ^ 64)
  binary64.sub (.num 1) (counts.foldl (fun result count_k =>
    let p_k := binary64.div (binary64.of_nat count_k) sum
    binary64.add result (binary64.mul p_k p_k)) (.num 0))

/-- The function `mis_classification(counts)` on doubles; `max_value` of an empty vector is
undefined in C++, the model takes 0. -/
def binary64.mis_classification (counts : List Nat) : Value :=
  let sum := binary64.of_nat (counts.sum % 2 ^ 64)
  let pk_max := binary64.div (binary64.of_nat (counts.foldl max 0)) sum
  binary64.sub (.num 1) pk_max

/-- The functor `gain` on doubles for the impurity function `imp`. -/
def binary64.gain (imp : List Nat → Value) (D1_counts D2_counts : List Nat) : Value :=
  let D_counts := List.zipWith (fun a b => (a + b) % 2 ^ 64) D1_counts D2_counts
  let D_sum := binary64.of_nat (D_counts.sum % 2 ^ 64)
  let D1_sum := binary64.of_nat (D1_counts.sum % 2 ^ 64)
  let D2_sum := binary64.of_nat (D2_counts.sum % 2 ^ 64)
  binary64.sub
    (binary64.sub (imp D_counts) (binary64.mul (binary64.div D1_sum D_sum) (imp D1_counts)))
    (binary64.mul (binary64.div D2_sum D_sum) (imp D2_counts))

/-- Negation of a double. -/
def Value.neg : Value → Value
  | .num a => .num (-a)
  | .nan => .nan

/-- The functor `gain1` on doubles for the impurity function `imp`. -/
def binary64.gain1 (imp : List Nat → Value) (D1_counts D2_counts : List Nat) : Value :=
  let left_sum := D1_counts.sum % 2 ^ 64
  let right_sum := D2_counts.sum % 2 ^ 64
  Value.neg (binary64.add (binary64.mul (binary64.of_nat left_sum) (imp D1_counts))
    (binary64.mul (binary64.of_nat right_sum) (imp D2_counts)))

/-- The gain `gain(imp)` of `learn_decision_tree` on doubles, with the comparison
`score > best_score`. -/
def binary64.gain_function (gain0 : List Nat → List Nat → Value) : gain_function Value :=
  { gain := gain0, gt := fun a b => b.lt a, lowest := .num double_lowest }

/-- A dataset with one continuous variable and two classes: eight samples with increasing
values, all of class 0 except the seventh. -/
def optimization_dataset : dataset :=
  { X := [[.num 1, .num 0], [.num 2, .num 0], [.num 3, .num 0], [.num 4, .num 0],
          [.num 5, .num 0], [.num 6, .num 0], [.num 7, .num 1], [.num 8, .num 0]],
    category_counts := [0, 2] }

/-- The function `mean(D, I, v)` on doubles: `total += x_i` and `total / count` round. -/
def binary64.mean (D : dataset) (I : List Nat) (v : Nat) : Value :=
  let xs := (I.map (fun i => D.at i v)).filter (fun x => !is_missing x)
  binary64.div (binary64.sum xs) (binary64.of_nat xs.length)

/-- The function `mean_standard_deviation(D, I, v)` on doubles: the difference `x_i - mu`,
its square, the sum `variance += ...` and the quotient `variance / count` round; `std::sqrt`
is a function of the library. -/
def binary64.mean_standard_deviation (lib : math_library) (D : dataset) (I : List Nat)
    (v : Nat) : Value × Value :=
  let mu := binary64.mean D I v
  let xs := (I.map (fun i => D.at i v)).filter (fun x => !is_missing x)
  let variance := xs.foldl (fun (acc x_i : Value) =>
    binary64.add acc (binary64.mul (binary64.sub x_i mu) (binary64.sub x_i mu))) (.num 0)
  if xs.length = 0 then (.num 0, .num 1)
  else
    let sigma := lib.sqrt (binary64.div variance (binary64.of_nat xs.length))
    if sigma.eq (.num 0) then (mu, .num double_min) else (mu, sigma)

/-- The function `fit_normal(u, D, i, ab)` on doubles for a vertex with the range content
`I`; `none` stands for the exception of the constructor of `normal_node` (negative standard
deviation) or of `truncated_normal_node` (negative standard deviation, or `a > b`). -/
def binary64.fit_normal (lib : math_library) (D : dataset) (I : List Nat) (i : Nat)
    (ab : interval) : Option pc_node :=
  let ms := if I.isEmpty then (Value.num 0, Value.num 1)
    else binary64.mean_standard_deviation lib D I i
  if ab.is_maximal then
    if ms.2.lt (.num 0) then none
    else some { kind := .terminal i (.normal ms.1 ms.2), successors := [] }
  else
    if ms.2.lt (.num 0) then none
    else if ab.b.lt ab.a then none
    else some { kind := .terminal i (.truncated_normal ms.1 ms.2 ab.a ab.b), successors := [] }

/-- The double 0.1. -/
def double_tenth : ℚ := 3602879701896397 / 2 ^ 55

/-- A dataset of three samples with the value 0.1 for variable 0. -/
def tenth_dataset : dataset :=
  { X := [[.num double_tenth, .num 0], [.num double_tenth, .num 0], [.num double_tenth, .num 0]],
    category_counts := [0, 1] }

/-- A math library in which the square root of a positive number is 1. -/
def unit_sqrt_library : math_library :=
  { test_library with sqrt := fun v => if v.le (.num 0) then .num 0 else .num 1 }

/-- The default value `1e-10` of the parameter `tolerance` of `is_normalized`, a double. -/
def default_tolerance : ℚ := 7737125245533627 / 2 ^ 86

/-! ## Generative forests on doubles (`probabilistic_circuits.cpp`)

The functions that build the circuit of a forest, with the weights and the parameters of the
terminal nodes computed on doubles. -/

/-- The function `fit_categorical(u, D, i)` on doubles for a vertex with the range content
`I`: the quotient `static_cast<double>(k) / total` rounds. -/
def binary64.fit_categorical (D : dataset) (I : List Nat) (i : Nat) : pc_node :=
  let counts := compute_categorical_counts D I i (D.category_counts.getD i 0)
  { kind := .terminal i
      (.categorical (counts.map (fun k =>
        binary64.div (binary64.of_nat k) (binary64.of_nat counts.sum)))),
    successors := [] }

/-- The loop `for (std::size_t i = 0; i < m; i++)` of `binary64.fit_leave_nodes` over the variables
that are left: the terminal nodes made, or `none` for an exception. -/
def binary64.fit_leaf_terminals (lib : math_library) (ncat : List Nat) (D : dataset) (I : List Nat)
    (intervals : List interval) : List Nat → Option (List pc_node)
  | [] => some []
  | i :: is =>
    let v_i :=
      if ncat.getD i 0 < 2 then binary64.fit_normal lib D I i (intervals.getD i {})
      else some (binary64.fit_categorical D I i)
    match v_i with
    | none => none
    | some n =>
      match binary64.fit_leaf_terminals lib ncat D I intervals is with
      | none => none
      | some ns => some (n :: ns)

/-- The body of the callback of `binary64.fit_leave_nodes` for a leaf with the range content `I`: a
product node with a terminal node for each of the `m` variables and one for the class.
Returns the nodes allocated and the pointer to the product node. -/
def binary64.fit_leaf (lib : math_library) (tree : binary_decision_tree) (D : dataset)
    (nodes : List pc_node) (I : List Nat) (intervals : List interval) :
    Option (List pc_node × Nat) :=
  let m := tree.feature_count
  match binary64.fit_leaf_terminals lib tree.category_counts D I intervals (List.range m) with
  | none => none
  | some terminals =>
    let nodes1 := nodes ++ terminals ++ [binary64.fit_categorical D I m]
    some (nodes1 ++ [{ kind := .product, successors := List.range' nodes.length (m + 1) }],
      nodes1.length)

/-- The function `binary64.fit_leave_nodes(tree, pc_nodes, D)` on the calls that
`enumerate_intervals` makes; `pc_nodes` holds a pointer or the null pointer for every
vertex. -/
def binary64.fit_leave_nodes (lib : math_library) (tree : binary_decision_tree) (D : dataset) :
    List (Nat × List interval) → List pc_node × List (Option Nat) →
    Option (List pc_node × List (Option Nat))
  | [], st => some st
  | (ui, intervals) :: reports, (nodes, pc_nodes) =>
    if (tree.find_vertex ui).is_leaf then
      match binary64.fit_leaf lib tree D nodes (tree.range (tree.find_vertex ui)) intervals with
      | none => none
      | some (nodes2, p) => binary64.fit_leave_nodes lib tree D reports (nodes2, pc_nodes.set ui (some p))
    else binary64.fit_leave_nodes lib tree D reports (nodes, pc_nodes)

/-- The loop `for (std::size_t ui: order)` of `build_generative_tree` on doubles: the weights
`v1.I.size() / u_size` and `v2.I.size() / u_size` round. A null pointer among the successors
is undefined when the circuit is used; the model gives `none`. -/
def binary64.build_inner_nodes (tree : binary_decision_tree) :
    List Nat → List pc_node × List (Option Nat) → Option (List pc_node × List (Option Nat))
  | [], st => some st
  | ui :: order, (nodes, pc_nodes) =>
    let u := tree.find_vertex ui
    if !u.is_leaf then
      let v1 := tree.find_vertex u.left
      let v2 := tree.find_vertex u.right
      let u_size : Value := binary64.of_nat (tree.range u).length
      let m_weights := [binary64.div (binary64.of_nat (tree.range v1).length) u_size,
        binary64.div (binary64.of_nat (tree.range v2).length) u_size]
      match pc_nodes.getD u.left none, pc_nodes.getD u.right none with
      | some p1, some p2 =>
        binary64.build_inner_nodes tree order
          (nodes ++ [{ kind := .sum_split m_weights u.split, successors := [p1, p2] }],
            pc_nodes.set ui (some nodes.length))
      | _, _ => none
    else binary64.build_inner_nodes tree order (nodes, pc_nodes)

/-- The function `binary64.build_generative_tree(tree, D)`: the nodes allocated and the pointer
returned. -/
def binary64.build_generative_tree (lib : math_library) (tree : binary_decision_tree) (D : dataset)
    (nodes : List pc_node) (fuel : Nat) : Option (List pc_node × Nat) :=
  match enumerate_intervals tree tree.feature_count fuel with
  | none => none
  | some reports =>
    match binary64.fit_leave_nodes lib tree D reports
        (nodes, List.replicate tree.vertices.length none) with
    | none => none
    | some st1 =>
      match topological_ordering tree fuel with
      | none => none
      | some order =>
        match binary64.build_inner_nodes tree order.reverse st1 with
        | none => none
        | some (nodes2, pc_nodes2) =>
          match pc_nodes2.head? with
          | some (some p) => some (nodes2, p)
          | _ => none

/-- The loop `for (const auto& tree: forest.trees())` of `binary64.build_generative_forest`: the
nodes allocated and the successors of the root. -/
def binary64.build_generative_trees (lib : math_library) (D : dataset) (fuel : Nat) :
    List binary_decision_tree → List pc_node × List Nat → Option (List pc_node × List Nat)
  | [], st => some st
  | tree :: trees, (nodes, successors) =>
    match binary64.build_generative_tree lib tree D nodes fuel with
    | none => none
    | some (nodes2, p) => binary64.build_generative_trees lib D fuel trees (nodes2, successors ++ [p])

/-- The function `build_generative_forest(forest, D)` on doubles: the weight `1.0 / N`
rounds; a `random_forest` is the list of its trees. -/
def binary64.build_generative_forest (lib : math_library) (forest : List binary_decision_tree)
    (D : dataset) (fuel : Nat) : Option probabilistic_circuit :=
  let weight := binary64.div (.num 1) (binary64.of_nat forest.length)
  match binary64.build_generative_trees lib D fuel forest ([], []) with
  | none => none
  | some (nodes, successors) =>
    some { nodes := nodes ++
             [{ kind := .sum (List.replicate forest.length weight), successors := successors }],
           root := nodes.length, category_counts := D.category_counts }

/-- The pointer `p` points to the product node that `binary64.fit_leave_nodes` makes for the leaf `ui`
with the intervals `intervals`: the terminal nodes fitted for the variables
`0, ..., m - 1`, the categorical node of the class and the product node over them are
consecutive in `nodes`. -/
def binary64.leaf_node (lib : math_library) (tree : binary_decision_tree) (D : dataset)
    (nodes : List pc_node) (ui : Nat) (intervals : List interval) (p : Nat) : Prop :=
  ∃ (terminals pre post : List pc_node),
    binary64.fit_leaf_terminals lib tree.category_counts D (tree.range (tree.find_vertex ui)) intervals
      (List.range tree.feature_count) = some terminals ∧
    nodes = pre ++ (terminals ++
      [binary64.fit_categorical D (tree.range (tree.find_vertex ui)) tree.feature_count,
       { kind := .product, successors := List.range' pre.length (tree.feature_count + 1) }])
      ++ post ∧
    p = pre.length + (tree.feature_count + 1)

/-- The nodes `nodes` hold the circuit that `binary64.build_generative_tree` makes for `tree`, the
pointer `ptr ui` pointing to the node of the vertex `ui`: the node of a leaf is the product
node fitted with the intervals that `enumerate_intervals` reports for it; the node of another
vertex `u` is a sum-split node with the split of `u`, the weights `|left.I| / |u.I|` and
`|right.I| / |u.I|` and the nodes of the two children as successors. -/
structure binary64.built_tree (lib : math_library) (tree : binary_decision_tree) (D : dataset)
    (nodes : List pc_node) (ptr : Nat → Nat) : Prop where
  leaves : ∀ ui, ui < tree.vertices.length → (tree.find_vertex ui).is_leaf = true →
    ∃ intervals, (ui, intervals) ∈ interval_reports tree tree.vertices.length 0
        (List.replicate tree.feature_count {}) ∧
      binary64.leaf_node lib tree D nodes ui intervals (ptr ui)
  inner : ∀ ui, ui < tree.vertices.length → (tree.find_vertex ui).is_leaf = false →
    nodes.getD (ptr ui) { kind := .product, successors := [] } =
      { kind := .sum_split
          [binary64.div (binary64.of_nat (tree.range (tree.find_vertex (tree.find_vertex ui).left)).length)
              (binary64.of_nat (tree.range (tree.find_vertex ui)).length),
           binary64.div (binary64.of_nat (tree.range (tree.find_vertex (tree.find_vertex ui).right)).length)
              (binary64.of_nat (tree.range (tree.find_vertex ui)).length)]
          (tree.find_vertex ui).split,
        successors := [ptr (tree.find_vertex ui).left, ptr (tree.find_vertex ui).right] }
  bound : ∀ ui, ui < tree.vertices.length → ptr ui < nodes.length

/-- The invariant of the loop `for (std::size_t ui: order)` of `binary64.build_generative_tree`, when
the vertices from `k` on have been handled: every leaf has its product node, and every other
vertex from `k` on has its sum-split node over the nodes of its children. -/
structure binary64.build_inv (lib : math_library) (tree : binary_decision_tree) (D : dataset)
    (k : Nat) (nodes : List pc_node) (pc_nodes : List (Option Nat)) : Prop where
  size : pc_nodes.length = tree.vertices.length
  ordered : heap_ordered nodes
  valid : ∀ ui p, pc_nodes.getD ui none = some p → p < nodes.length
  leaves : ∀ ui, ui < tree.vertices.length → (tree.find_vertex ui).is_leaf = true →
    ∃ intervals p, (ui, intervals) ∈ interval_reports tree tree.vertices.length 0
        (List.replicate tree.feature_count {}) ∧
      pc_nodes.getD ui none = some p ∧ binary64.leaf_node lib tree D nodes ui intervals p
  inner : ∀ ui, k ≤ ui → ui < tree.vertices.length → (tree.find_vertex ui).is_leaf = false →
    ∃ p p1 p2, pc_nodes.getD ui none = some p ∧
      pc_nodes.getD (tree.find_vertex ui).left none = some p1 ∧
      pc_nodes.getD (tree.find_vertex ui).right none = some p2 ∧
      nodes.getD p { kind := .product, successors := [] } =
        { kind := .sum_split
            [binary64.div (binary64.of_nat (tree.range (tree.find_vertex (tree.find_vertex ui).left)).length)
                (binary64.of_nat (tree.range (tree.find_vertex ui)).length),
             binary64.div (binary64.of_nat (tree.range (tree.find_vertex (tree.find_vertex ui).right)).length)
                (binary64.of_nat (tree.range (tree.find_vertex ui)).length)]
            (tree.find_vertex ui).split,
          successors := [p1, p2] }

/-- The circuit `pc` holds the generative tree of `tree` over the variables `0, ..., m`, the
pointer `ptr ui` pointing to the node of the vertex `ui`: a vertex `u` that is not a leaf
becomes a sum-split node with the split of `u`, the weights `|left.I| / |u.I|` and
`|right.I| / |u.I|` and the nodes of its children as successors; a leaf becomes a product
node with `m + 1` successors, of which successor `j` is a terminal node of variable `j`. -/
structure binary64.generative_tree (tree : binary_decision_tree) (m : Nat) (pc : probabilistic_circuit)
    (ptr : Nat → Nat) : Prop where
  inner : ∀ ui, ui < tree.vertices.length → (tree.find_vertex ui).is_leaf = false →
    pc.node (ptr ui) =
      { kind := .sum_split
          [binary64.div (binary64.of_nat (tree.range (tree.find_vertex (tree.find_vertex ui).left)).length)
              (binary64.of_nat (tree.range (tree.find_vertex ui)).length),
           binary64.div (binary64.of_nat (tree.range (tree.find_vertex (tree.find_vertex ui).right)).length)
              (binary64.of_nat (tree.range (tree.find_vertex ui)).length)]
          (tree.find_vertex ui).split,
        successors := [ptr (tree.find_vertex ui).left, ptr (tree.find_vertex ui).right] }
  leaves : ∀ ui, ui < tree.vertices.length → (tree.find_vertex ui).is_leaf = true →
    (pc.node (ptr ui)).kind = .product ∧ (pc.successors (ptr ui)).length = m + 1 ∧
    ∀ j, j ≤ m → ∃ dist, pc.node ((pc.successors (ptr ui)).getD j 0) =
      { kind := .terminal j dist, successors := [] }

/-! # Part II: lemmas and theorems -/

/-! ## Rounding to the nearest double -/

theorem binary64.pow2_eq_zpow (e : Int) : binary64.pow2 e = (2 : ℚ) ^ e := by
  unfold binary64.pow2
  by_cases h : 0 ≤ e
  · rw [if_pos h]
    obtain ⟨n, rfl⟩ := Int.eq_ofNat_of_zero_le h
    simp
  · rw [if_neg h]
    obtain ⟨n, hn⟩ : ∃ n : Nat, -e = (n : Int) := Int.eq_ofNat_of_zero_le (by omega)
    have he : e = -(n : Int) := by omega
    rw [hn, he]
    simp

theorem binary64.pow2_pos (e : Int) : 0 < binary64.pow2 e := by
  rw [binary64.pow2_eq_zpow]
  positivity

theorem binary64.pow2_succ (e : Int) : binary64.pow2 (e + 1) = 2 * binary64.pow2 e := by
  rw [binary64.pow2_eq_zpow, binary64.pow2_eq_zpow, zpow_add_one₀ (by norm_num)]
  ring

theorem binary64.pow2_add (a b : Int) :
    binary64.pow2 (a + b) = binary64.pow2 a * binary64.pow2 b := by
  rw [binary64.pow2_eq_zpow, binary64.pow2_eq_zpow, binary64.pow2_eq_zpow,
    zpow_add₀ (by norm_num)]

theorem binary64.pow2_le (a b : Int) (h : a ≤ b) : binary64.pow2 a ≤ binary64.pow2 b := by
  rw [binary64.pow2_eq_zpow, binary64.pow2_eq_zpow]
  exact zpow_le_zpow_right₀ (by norm_num) h

theorem binary64.pow2_lt_iff (a b : Int) : binary64.pow2 a < binary64.pow2 b ↔ a < b := by
  rw [binary64.pow2_eq_zpow, binary64.pow2_eq_zpow]
  exact zpow_lt_zpow_iff_right₀ (by norm_num)

theorem binary64.log2_loop_spec : ∀ (fuel n : Nat), n ≤ fuel → 1 ≤ n →
    2 ^ binary64.log2_loop fuel n ≤ n ∧ n < 2 ^ (binary64.log2_loop fuel n + 1) := by
  intro fuel
  induction fuel with
  | zero => intro n h1 h2; omega
  | succ fuel ih =>
    intro n h1 h2
    unfold binary64.log2_loop
    by_cases hn : n < 2
    · rw [if_pos hn]
      have : n = 1 := by omega
      subst this
      simp
    · rw [if_neg hn]
      obtain ⟨a1, a2⟩ := ih (n / 2) (by omega) (by omega)
      have e1 : 2 ^ (1 + binary64.log2_loop fuel (n / 2)) =
          2 * 2 ^ binary64.log2_loop fuel (n / 2) := by
        rw [Nat.add_comm, Nat.pow_succ]; ring
      have e2 : 2 ^ (1 + binary64.log2_loop fuel (n / 2) + 1) =
          2 * 2 ^ (binary64.log2_loop fuel (n / 2) + 1) := by
        rw [Nat.pow_succ]
        rw [Nat.add_comm 1]
        ring
      rw [e1, e2]
      generalize 2 ^ binary64.log2_loop fuel (n / 2) = A at a1 ⊢
      generalize 2 ^ (binary64.log2_loop fuel (n / 2) + 1) = B at a2 ⊢
      omega

theorem binary64.log2_spec (n : Nat) (h : 1 ≤ n) :
    2 ^ binary64.log2 n ≤ n ∧ n < 2 ^ (binary64.log2 n + 1) :=
  binary64.log2_loop_spec n n (le_refl _) h

/-- The exponent of a number that is not zero. -/
theorem binary64.exponent_spec (q : ℚ) (hq : q ≠ 0) :
    binary64.pow2 (binary64.exponent q) ≤ |q| ∧
    |q| < binary64.pow2 (binary64.exponent q + 1) := by
  have hnum : 1 ≤ q.num.natAbs := by
    have : q.num ≠ 0 := Rat.num_ne_zero.2 hq
    omega
  have hden : 1 ≤ q.den := q.den_pos
  obtain ⟨a1, a2⟩ := binary64.log2_spec _ hnum
  obtain ⟨b1, b2⟩ := binary64.log2_spec _ hden
  have habs : |q| = (q.num.natAbs : ℚ) / (q.den : ℚ) := by
    conv_lhs => rw [← Rat.num_div_den q]
    rw [abs_div, Nat.abs_cast, Nat.cast_natAbs, Int.cast_abs]
  have hd0 : (0 : ℚ) < q.den := by exact_mod_cast hden
  have A1 : ((2 : ℚ) ^ binary64.log2 q.num.natAbs) ≤ (q.num.natAbs : ℚ) := by exact_mod_cast a1
  have A2 : (q.num.natAbs : ℚ) < (2 : ℚ) ^ (binary64.log2 q.num.natAbs + 1) := by
    exact_mod_cast a2
  have B1 : ((2 : ℚ) ^ binary64.log2 q.den) ≤ (q.den : ℚ) := by exact_mod_cast b1
  have B2 : (q.den : ℚ) < (2 : ℚ) ^ (binary64.log2 q.den + 1) := by exact_mod_cast b2
  unfold binary64.exponent
  dsimp only
  generalize binary64.log2 q.num.natAbs = a at A1 A2 ⊢
  generalize binary64.log2 q.den = b at B1 B2 ⊢
  have hlo : binary64.pow2 ((a : Int) - (b : Int) - 1) ≤ |q| := by
    rw [habs, binary64.pow2_eq_zpow, le_div_iff₀ hd0]
    have e : (2 : ℚ) ^ ((a : Int) - (b : Int) - 1) * (2 : ℚ) ^ (b + 1) = (2 : ℚ) ^ a := by
      rw [← zpow_natCast, ← zpow_natCast, ← zpow_add₀ (by norm_num)]
      congr 1
      push_cast
      ring
    have p : (0 : ℚ) < (2 : ℚ) ^ ((a : Int) - (b : Int) - 1) := by positivity
    nlinarith
  have hhi : |q| < binary64.pow2 ((a : Int) - (b : Int) + 1) := by
    rw [habs, binary64.pow2_eq_zpow, div_lt_iff₀ hd0]
    have e : (2 : ℚ) ^ ((a : Int) - (b : Int) + 1) * (2 : ℚ) ^ b = (2 : ℚ) ^ (a + 1) := by
      rw [← zpow_natCast, ← zpow_natCast, ← zpow_add₀ (by norm_num)]
      congr 1
      push_cast
      ring
    have p : (0 : ℚ) < (2 : ℚ) ^ ((a : Int) - (b : Int) + 1) := by positivity
    nlinarith
  by_cases hc : binary64.pow2 ((a : Int) - (b : Int)) ≤ |q|
  · rw [if_pos hc]
    exact ⟨hc, hhi⟩
  · rw [if_neg hc]
    refine ⟨hlo, ?_⟩
    have : (a : Int) - b - 1 + 1 = (a : Int) - b := by ring
    rw [this]
    exact lt_of_not_le hc

theorem binary64.nearest_even_err (y : ℚ) : |((binary64.nearest_even y : Int) : ℚ) - y| ≤ 1 / 2 := by
  have h1 := Int.floor_le y
  have h2 := Int.lt_floor_add_one y
  unfold binary64.nearest_even
  rw [abs_le]
  split_ifs with c1 c2 c3
  · constructor <;> linarith
  · push_cast; constructor <;> linarith
  · constructor <;> linarith
  · push_cast; constructor <;> linarith

theorem binary64.nearest_even_int (k : Int) : binary64.nearest_even (k : ℚ) = k := by
  unfold binary64.nearest_even
  simp

theorem binary64.ulp_pos (q : ℚ) : 0 < binary64.ulp q := binary64.pow2_pos _

/-- Rounding moves a number by at most half a unit in the last place. -/
theorem binary64.round_err (q : ℚ) : |binary64.round q - q| ≤ binary64.ulp q / 2 := by
  unfold binary64.round
  by_cases h : q = 0
  · rw [if_pos h, h]
    simp
    exact le_of_lt (half_pos (binary64.ulp_pos 0))
  · rw [if_neg h]
    have hp := binary64.ulp_pos q
    have he := binary64.nearest_even_err (q / binary64.ulp q)
    have e : ((binary64.nearest_even (q / binary64.ulp q) : Int) : ℚ) * binary64.ulp q - q =
        (((binary64.nearest_even (q / binary64.ulp q) : Int) : ℚ) - q / binary64.ulp q) *
          binary64.ulp q := by
      field_simp
    rw [e, abs_mul, abs_of_pos hp]
    nlinarith

/-- The unit in the last place of a normal number is at most 2^-52 times the number. -/
theorem binary64.ulp_le (q : ℚ) (h : binary64.pow2 (-1022) ≤ |q|) :
    binary64.ulp q ≤ binary64.pow2 (-52) * |q| := by
  have hq : q ≠ 0 := by
    intro h0
    rw [h0, abs_zero] at h
    exact absurd (binary64.pow2_pos (-1022)) (not_lt.2 h)
  obtain ⟨e1, e2⟩ := binary64.exponent_spec q hq
  have hexp : -1022 ≤ binary64.exponent q := by
    have := lt_of_le_of_lt h e2
    rw [binary64.pow2_lt_iff] at this
    omega
  unfold binary64.ulp
  rw [max_eq_left hexp]
  have : binary64.exponent q - 52 = -52 + binary64.exponent q := by ring
  rw [this, binary64.pow2_add]
  exact mul_le_mul_of_nonneg_left e1 (le_of_lt (binary64.pow2_pos _))

/-- The relative error of rounding a normal number is at most 2^-53. -/
theorem binary64.round_rel (q : ℚ) (h : binary64.pow2 (-1022) ≤ |q|) :
    |binary64.round q - q| ≤ binary64.pow2 (-53) * |q| := by
  have h1 := binary64.round_err q
  have h2 := binary64.ulp_le q h
  have e : binary64.pow2 (-52) = 2 * binary64.pow2 (-53) := by
    have := binary64.pow2_succ (-53)
    simpa using this
  rw [e] at h2
  linarith

/-- A natural number below 2^53 is a double. -/
theorem binary64.round_nat (n : Nat) (h : n < 2 ^ 53) : binary64.round (n : ℚ) = n := by
  by_cases h0 : n = 0
  · subst h0
    simp [binary64.round]
  have hq : (n : ℚ) ≠ 0 := by exact_mod_cast h0
  obtain ⟨e1, e2⟩ := binary64.exponent_spec (n : ℚ) hq
  rw [Nat.abs_cast] at e1 e2
  have hn1 : (1 : ℚ) ≤ n := by exact_mod_cast Nat.one_le_iff_ne_zero.2 h0
  have hlo : 0 ≤ binary64.exponent (n : ℚ) := by
    have : binary64.pow2 0 < binary64.pow2 (binary64.exponent (n : ℚ) + 1) := by
      have p0 : binary64.pow2 0 = 1 := by simp [binary64.pow2]
      rw [p0]
      linarith
    rw [binary64.pow2_lt_iff] at this
    omega
  have hhi : binary64.exponent (n : ℚ) < 53 := by
    have hn : (n : ℚ) < binary64.pow2 53 := by
      have p : binary64.pow2 53 = ((2 ^ 53 : Nat) : ℚ) := by simp [binary64.pow2]
      rw [p]
      exact_mod_cast h
    have := lt_of_le_of_lt e1 hn
    rw [binary64.pow2_lt_iff] at this
    exact this
  unfold binary64.round
  rw [if_neg hq]
  have hu : binary64.ulp (n : ℚ) = binary64.pow2 (binary64.exponent (n : ℚ) - 52) := by
    unfold binary64.ulp
    rw [max_eq_left (by omega)]
  obtain ⟨k, hk⟩ : ∃ k : Nat, binary64.exponent (n : ℚ) - 52 = -(k : Int) :=
    ⟨(52 - binary64.exponent (n : ℚ)).toNat, by omega⟩
  rw [hu, hk, binary64.pow2_eq_zpow]
  have e : (n : ℚ) / (2 : ℚ) ^ (-(k : Int)) = ((n * 2 ^ k : Nat) : Int) := by
    rw [zpow_neg, zpow_natCast]
    push_cast
    field_simp
  rw [e, binary64.nearest_even_int]
  rw [zpow_neg, zpow_natCast]
  push_cast
  field_simp

/-- Rounding keeps a normal number away from zero. -/
theorem binary64.round_pos (q : ℚ) (h : binary64.pow2 (-1022) ≤ q) : 0 < binary64.round q := by
  have hq : 0 < q := lt_of_lt_of_le (binary64.pow2_pos _) h
  have h1 := binary64.round_rel q (by rw [abs_of_pos hq]; exact h)
  rw [abs_of_pos hq, abs_le] at h1
  have p : binary64.pow2 (-53) ≤ 1 / 2 := by
    rw [binary64.pow2_eq_zpow]
    rw [show (-53 : Int) = -(53 : Nat) by rfl, zpow_neg, zpow_natCast]
    norm_num
  nlinarith [h1.1]

theorem binary64.round_nat_pos (n : Nat) (h : 1 ≤ n) : 0 < binary64.round (n : ℚ) := by
  apply binary64.round_pos
  have p : binary64.pow2 (-1022) ≤ 1 := by
    rw [binary64.pow2_eq_zpow]
    rw [show (-1022 : Int) = -(1022 : Nat) by rfl, zpow_neg, zpow_natCast]
    apply inv_le_one_of_one_le₀
    exact one_le_pow₀ (by norm_num)
  have : (1 : ℚ) ≤ n := by exact_mod_cast h
  linarith

/-! ## Bounds on the rounding error of sums of weights -/

theorem binary64.nearest_even_nonneg (y : ℚ) (h : 0 ≤ y) : 0 ≤ binary64.nearest_even y := by
  have h0 : 0 ≤ ⌊y⌋ := Int.floor_nonneg.2 h
  unfold binary64.nearest_even
  split_ifs <;> omega

theorem binary64.round_nonneg (q : ℚ) (h : 0 ≤ q) : 0 ≤ binary64.round q := by
  unfold binary64.round
  split_ifs with h0
  · exact le_refl _
  · have hp := binary64.ulp_pos q
    have := binary64.nearest_even_nonneg (q / binary64.ulp q) (div_nonneg h (le_of_lt hp))
    have h2 : (0 : ℚ) ≤ (binary64.nearest_even (q / binary64.ulp q) : Int) := by exact_mod_cast this
    exact mul_nonneg h2 (le_of_lt hp)

/-- The error of rounding is at most 2^-53 times the number plus 2^-1075. -/
theorem binary64.round_abs (q : ℚ) :
    |binary64.round q - q| ≤ binary64.pow2 (-53) * |q| + binary64.pow2 (-1075) := by
  by_cases hq : q = 0
  · subst hq
    simp [binary64.round]
    exact le_of_lt (binary64.pow2_pos _)
  have h1 := binary64.round_err q
  by_cases hn : binary64.pow2 (-1022) ≤ |q|
  · have := binary64.round_rel q hn
    have := binary64.pow2_pos (-1075)
    linarith
  · have hexp : binary64.exponent q < -1022 := by
      obtain ⟨e1, _⟩ := binary64.exponent_spec q hq
      have := lt_of_le_of_lt e1 (not_le.1 hn)
      rw [binary64.pow2_lt_iff] at this
      exact this
    have hu : binary64.ulp q = binary64.pow2 (-1074) := by
      unfold binary64.ulp
      rw [max_eq_right (le_of_lt hexp)]
      rfl
    have e : binary64.pow2 (-1074) = 2 * binary64.pow2 (-1075) := by
      have := binary64.pow2_succ (-1075)
      simpa using this
    rw [hu, e] at h1
    have := mul_nonneg (le_of_lt (binary64.pow2_pos (-53))) (abs_nonneg q)
    linarith

theorem binary64.round_nat_rel (n : Nat) :
    |binary64.round (n : ℚ) - n| ≤ binary64.pow2 (-53) * n := by
  by_cases h0 : n = 0
  · subst h0
    simp [binary64.round]
  · have h1 : (1 : ℚ) ≤ n := by exact_mod_cast Nat.one_le_iff_ne_zero.2 h0
    have p : binary64.pow2 (-1022) ≤ 1 := by
      rw [binary64.pow2_eq_zpow]
      rw [show (-1022 : Int) = -(1022 : Nat) by rfl, zpow_neg, zpow_natCast]
      apply inv_le_one_of_one_le₀
      exact one_le_pow₀ (by norm_num)
    have := binary64.round_rel (n : ℚ) (by rw [Nat.abs_cast]; linarith)
    rwa [Nat.abs_cast] at this

theorem binary64.pow2_neg (k : Nat) : binary64.pow2 (-(k : Int)) = 1 / 2 ^ k := by
  rw [binary64.pow2_eq_zpow, zpow_neg, zpow_natCast, one_div]

/-- The running sum of `k` more equal weights `w`, of which `N` make about 1, after `k0`
of them. -/
theorem binary64.foldl_add_replicate_bound (N : Nat) (w c : ℚ)
    (hN : (1 : ℚ) ≤ N) (hc : binary64.pow2 (-53) * 2 + binary64.pow2 (-1075) +
      |w - 1 / N| ≤ c) (hNc : N * c ≤ 1) :
    ∀ (k k0 : Nat) (s : ℚ), k0 + k ≤ N → |s - k0 / N| ≤ k0 * c →
    ∃ s2 : ℚ, (List.replicate k (Value.num w)).foldl binary64.add (.num s) = .num s2 ∧
      |s2 - ((k0 + k : Nat) : ℚ) / N| ≤ ((k0 + k : Nat) : ℚ) * c := by
  have hNpos : (0 : ℚ) < N := by linarith
  have hcpos : 0 ≤ c := by
    have := abs_nonneg (w - 1 / N)
    have := binary64.pow2_pos (-53)
    have := binary64.pow2_pos (-1075)
    linarith
  intro k
  induction k with
  | zero =>
    intro k0 s _ hs
    exact ⟨s, rfl, by simpa using hs⟩
  | succ k ih =>
    intro k0 s hk hs
    simp only [List.replicate_succ, List.foldl_cons]
    have hadd : binary64.add (.num s) (.num w) = .num (binary64.round (s + w)) := rfl
    rw [hadd]
    have hk0 : ((k0 : ℚ) + 1) ≤ N := by
      have : k0 + 1 ≤ N := by omega
      exact_mod_cast this
    have hx : |s + w| ≤ 2 := by
      have h1 : |s| ≤ k0 / N + k0 * c := by
        have := abs_sub_abs_le_abs_sub s (k0 / N)
        have h2 : |(k0 : ℚ) / N| = k0 / N := abs_of_nonneg (by positivity)
        rw [h2] at this
        linarith
      have h3 : |w| ≤ 1 / N + |w - 1 / N| := by
        have := abs_sub_abs_le_abs_sub w (1 / N)
        have h2 : |(1 : ℚ) / N| = 1 / N := abs_of_nonneg (by positivity)
        rw [h2] at this
        linarith
      have h4 : (k0 : ℚ) / N + 1 / N ≤ 1 := by
        rw [← add_div, div_le_one hNpos]
        exact hk0
      have h5 : (k0 : ℚ) * c + c ≤ N * c := by nlinarith
      have h6 := binary64.pow2_pos (-53)
      have h7 := binary64.pow2_pos (-1075)
      have := abs_add s w
      linarith
    have hr := binary64.round_abs (s + w)
    have hstep : |binary64.round (s + w) - ((k0 + 1 : Nat) : ℚ) / N| ≤ ((k0 + 1 : Nat) : ℚ) * c := by
      have e : binary64.round (s + w) - ((k0 + 1 : Nat) : ℚ) / N =
          (binary64.round (s + w) - (s + w)) + (s - k0 / N) + (w - 1 / N) := by
        push_cast
        field_simp
        ring
      rw [e]
      have t1 := abs_add ((binary64.round (s + w) - (s + w)) + (s - k0 / N)) (w - 1 / N)
      have t2 := abs_add (binary64.round (s + w) - (s + w)) (s - k0 / N)
      have h6 := binary64.pow2_pos (-53)
      have h8 : binary64.pow2 (-53) * |s + w| ≤ binary64.pow2 (-53) * 2 :=
        mul_le_mul_of_nonneg_left hx (le_of_lt h6)
      push_cast
      linarith
    obtain ⟨s2, h1, h2⟩ := ih (k0 + 1) (binary64.round (s + w)) (by omega) hstep
    refine ⟨s2, h1, ?_⟩
    have e2 : k0 + 1 + k = k0 + (k + 1) := by omega
    rw [e2] at h2
    exact h2

theorem binary64.eta_le : binary64.pow2 (-1075) ≤ binary64.pow2 (-53) / 2 ^ 60 := by
  have e : binary64.pow2 (-1075) = binary64.pow2 (-53) * binary64.pow2 (-1022) := by
    rw [← binary64.pow2_add]
    rfl
  have h1 : binary64.pow2 (-1022) ≤ binary64.pow2 (-60) := binary64.pow2_le _ _ (by decide)
  have h2 : binary64.pow2 (-60) = 1 / 2 ^ 60 := binary64.pow2_neg 60
  have h3 := binary64.pow2_pos (-53)
  rw [e, div_eq_mul_one_div, ← h2]
  exact mul_le_mul_of_nonneg_left h1 (le_of_lt h3)

theorem binary64.eps_eq : binary64.pow2 (-53) = 1 / 2 ^ 53 := binary64.pow2_neg 53

theorem binary64.div_of_nat (a u : Nat) (hu : u ≠ 0) :
    binary64.div (binary64.of_nat a) (binary64.of_nat u) =
      .num (binary64.round (binary64.round a / binary64.round u)) := by
  have := binary64.round_nat_pos u (Nat.one_le_iff_ne_zero.2 hu)
  simp only [binary64.div, binary64.of_nat, ne_of_gt this, if_false]

/-- The test of `is_normalized` on the weights `1.0 / N` of the root of a forest of `N`
trees does not fire when the tolerance is at least (2 N + 6) 2^-53 and `N <= 2^51`. -/
theorem binary64.root_weights_normalized (t : ℚ) (n : Nat) (hn : n ≠ 0) (hN : n ≤ 2 ^ 51)
    (ht : ((n : ℚ) + 3) / 2 ^ 52 ≤ t) :
    (Value.num t).lt ((binary64.sub (binary64.sum (List.replicate n
      (binary64.div (.num 1) (binary64.of_nat n)))) (.num 1)).fabs) = false := by
  have hU := binary64.round_nat_pos n (Nat.one_le_iff_ne_zero.2 hn)
  have hUrel := binary64.round_nat_rel n
  have hw : binary64.div (.num 1) (binary64.of_nat n) =
      .num (binary64.round (1 / binary64.round n)) := by
    simp only [binary64.div, binary64.of_nat, ne_of_gt hU, if_false]
  have hn1 : (1 : ℚ) ≤ n := by exact_mod_cast Nat.one_le_iff_ne_zero.2 hn
  have hn2 : (n : ℚ) ≤ 2 ^ 51 := by exact_mod_cast hN
  have hrw := binary64.round_abs (1 / binary64.round n)
  have heta := binary64.eta_le
  have hetapos := binary64.pow2_pos (-1075)
  have heps := binary64.eps_eq
  obtain ⟨ε, hε⟩ : ∃ ε, ε = binary64.pow2 (-53) := ⟨_, rfl⟩
  obtain ⟨η, hη⟩ : ∃ η, η = binary64.pow2 (-1075) := ⟨_, rfl⟩
  obtain ⟨U, hUdef⟩ : ∃ U, U = binary64.round (n : ℚ) := ⟨_, rfl⟩
  obtain ⟨w, hwdef⟩ : ∃ w, w = binary64.round (1 / U) := ⟨_, rfl⟩
  rw [← hε] at hUrel hrw heta heps
  rw [← hη] at hrw heta hetapos
  rw [← hUdef] at hU hUrel hrw hw
  rw [← hwdef] at hrw hw
  have hεpos : 0 < ε := by rw [heps]; positivity
  have hε16 : ε ≤ 1 / 16 := by rw [heps]; norm_num
  have hNε : (n : ℚ) * ε ≤ 1 / 4 := by
    rw [heps]
    have : (n : ℚ) * (1 / 2 ^ 53) ≤ 2 ^ 51 * (1 / 2 ^ 53) :=
      mul_le_mul_of_nonneg_right hn2 (by positivity)
    calc (n : ℚ) * (1 / 2 ^ 53) ≤ 2 ^ 51 * (1 / 2 ^ 53) := this
      _ = 1 / 4 := by norm_num
  have hη1 : η ≤ ε / 2 ^ 60 := heta
  have hNη : (n : ℚ) * η ≤ ε / 16 := by
    have h1 : (n : ℚ) * η ≤ 2 ^ 51 * (ε / 2 ^ 60) :=
      mul_le_mul hn2 hη1 (le_of_lt hetapos) (by positivity)
    have h2 : (2 : ℚ) ^ 51 * (ε / 2 ^ 60) ≤ ε / 16 := by
      have : (2 : ℚ) ^ 51 * (ε / 2 ^ 60) = ε / 2 ^ 9 := by
        field_simp
        ring
      rw [this]
      apply div_le_div_of_nonneg_left (le_of_lt hεpos) (by norm_num) (by norm_num)
    linarith
  have hη16 : η ≤ ε / 16 := by
    have : ε / 2 ^ 60 ≤ ε / 16 :=
      div_le_div_of_nonneg_left (le_of_lt hεpos) (by norm_num) (by norm_num)
    linarith
  -- the divisor
  rw [abs_le] at hUrel
  have hUlo : (n : ℚ) / 2 ≤ U := by nlinarith [hUrel.1]
  have hinvU : 1 / U ≤ 2 / n := by
    rw [div_le_div_iff₀ hU (by linarith)]
    linarith
  have hinvpos : 0 < 1 / U := by positivity
  have hdiff : |1 / U - 1 / (n : ℚ)| ≤ 2 * ε / n := by
    have e : 1 / U - 1 / (n : ℚ) = (n - U) / (U * n) := by
      field_simp
    rw [e, abs_div, abs_of_pos (by positivity : (0 : ℚ) < U * n)]
    rw [div_le_div_iff₀ (by positivity) (by linarith)]
    have h1 : |(n : ℚ) - U| ≤ ε * n := by
      rw [abs_le]
      constructor <;> linarith [hUrel.1, hUrel.2]
    have h2 : |(n : ℚ) - U| * n ≤ ε * n * n :=
      mul_le_mul_of_nonneg_right h1 (by linarith)
    nlinarith
  have hwerr : |w - 1 / (n : ℚ)| ≤ 4 * ε / n + η := by
    have e : w - 1 / (n : ℚ) = (w - 1 / U) + (1 / U - 1 / n) := by ring
    rw [e]
    have t1 := abs_add (w - 1 / U) (1 / U - 1 / n)
    rw [abs_of_pos hinvpos] at hrw
    have h3 : ε * (1 / U) ≤ ε * (2 / n) := mul_le_mul_of_nonneg_left hinvU (le_of_lt hεpos)
    have h4 : ε * (2 / (n : ℚ)) + 2 * ε / n = 4 * ε / n := by
      field_simp
      ring
    linarith
  obtain ⟨c, hcdef⟩ : ∃ c, c = ε * 2 + η + (4 * ε / n + η) := ⟨_, rfl⟩
  have hNc : (n : ℚ) * c = 2 * (n * ε) + 2 * (n * η) + 4 * ε := by
    rw [hcdef]
    field_simp
    ring
  obtain ⟨s2, hs2, hb⟩ := binary64.foldl_add_replicate_bound n w c hn1
    (by rw [← hε, ← hη, hcdef]; linarith) (by rw [hNc]; linarith) n 0 0 (by omega) (by simp)
  simp only [Nat.zero_add] at hb
  rw [div_self (by linarith : (n : ℚ) ≠ 0)] at hb
  have hsum : binary64.sum (List.replicate n (binary64.div (.num 1) (binary64.of_nat n))) =
      .num s2 := by
    rw [hw]
    exact hs2
  rw [hsum]
  have hd := binary64.round_abs (s2 - 1)
  rw [← hε, ← hη] at hd
  simp only [binary64.sub, Value.fabs, Value.lt, decide_eq_false_iff_not, not_lt]
  have hE : |s2 - 1| ≤ 2 * (n * ε) + 2 * (n * η) + 4 * ε := by rw [← hNc]; exact hb
  have hE1 : |s2 - 1| ≤ 1 := by linarith
  have h5 : ε * |s2 - 1| ≤ ε * 1 := mul_le_mul_of_nonneg_left hE1 (le_of_lt hεpos)
  have h6 : |binary64.round (s2 - 1)| ≤ |s2 - 1| + (ε * |s2 - 1| + η) := by
    have := abs_sub_abs_le_abs_sub (binary64.round (s2 - 1)) (s2 - 1)
    linarith
  have h7 : ((n : ℚ) + 3) / 2 ^ 52 = 2 * (n * ε) + 6 * ε := by
    rw [heps]
    field_simp
    ring
  rw [h7] at ht
  linarith

/-- The test of `is_normalized` on the weights `|left.I| / |u.I|` and `|right.I| / |u.I|` of
a sum-split node does not fire when the tolerance is at least 2^-50. -/
theorem binary64.sum_split_weights_normalized (t : ℚ) (ht : 1 / 2 ^ 50 ≤ t) (a b u : Nat)
    (h : a + b = u) :
    (Value.num t).lt ((binary64.sub (binary64.sum
      [binary64.div (binary64.of_nat a) (binary64.of_nat u),
       binary64.div (binary64.of_nat b) (binary64.of_nat u)]) (.num 1)).fabs) = false := by
  by_cases hu : u = 0
  · subst hu
    simp [binary64.sum, binary64.div, binary64.of_nat, binary64.round, binary64.add,
      binary64.sub, Value.fabs, Value.lt]
  have hU := binary64.round_nat_pos u (Nat.one_le_iff_ne_zero.2 hu)
  have hUrel := binary64.round_nat_rel u
  have hArel := binary64.round_nat_rel a
  have hBrel := binary64.round_nat_rel b
  have hA0 := binary64.round_nonneg (a : ℚ) (by positivity)
  have hB0 := binary64.round_nonneg (b : ℚ) (by positivity)
  have hu1 : (1 : ℚ) ≤ u := by exact_mod_cast Nat.one_le_iff_ne_zero.2 hu
  have hab : (a : ℚ) + b = u := by exact_mod_cast h
  rw [binary64.div_of_nat a u hu, binary64.div_of_nat b u hu]
  have heta := binary64.eta_le
  have hetapos := binary64.pow2_pos (-1075)
  have heps := binary64.eps_eq
  obtain ⟨U, hUdef⟩ : ∃ U, U = binary64.round (u : ℚ) := ⟨_, rfl⟩
  obtain ⟨A, hAdef⟩ : ∃ A, A = binary64.round (a : ℚ) := ⟨_, rfl⟩
  obtain ⟨B, hBdef⟩ : ∃ B, B = binary64.round (b : ℚ) := ⟨_, rfl⟩
  rw [← hUdef] at hU hUrel
  rw [← hAdef] at hArel hA0
  rw [← hBdef] at hBrel hB0
  rw [← hUdef, ← hAdef, ← hBdef]
  have hqa0 : 0 ≤ A / U := div_nonneg hA0 (le_of_lt hU)
  have hqb0 : 0 ≤ B / U := div_nonneg hB0 (le_of_lt hU)
  have hwa := binary64.round_abs (A / U)
  have hwb := binary64.round_abs (B / U)
  have hwa0 := binary64.round_nonneg (A / U) hqa0
  have hwb0 := binary64.round_nonneg (B / U) hqb0
  obtain ⟨wa, hwadef⟩ : ∃ wa, wa = binary64.round (A / U) := ⟨_, rfl⟩
  obtain ⟨wb, hwbdef⟩ : ∃ wb, wb = binary64.round (B / U) := ⟨_, rfl⟩
  rw [← hwadef] at hwa hwa0
  rw [← hwbdef] at hwb hwb0
  rw [← hwadef, ← hwbdef]
  have hs1 := binary64.round_abs (0 + wa)
  have hs10 := binary64.round_nonneg (0 + wa) (by linarith)
  obtain ⟨s1, hs1def⟩ : ∃ s1, s1 = binary64.round (0 + wa) := ⟨_, rfl⟩
  rw [← hs1def] at hs1 hs10
  have hs := binary64.round_abs (s1 + wb)
  obtain ⟨s, hsdef⟩ : ∃ s, s = binary64.round (s1 + wb) := ⟨_, rfl⟩
  rw [← hsdef] at hs
  have hd := binary64.round_abs (s - 1)
  have hsum : binary64.sum [Value.num wa, Value.num wb] = .num s := by
    simp only [binary64.sum, List.foldl_cons, List.foldl_nil, binary64.add]
    rw [← hs1def, ← hsdef]
  rw [hsum]
  simp only [binary64.sub, Value.fabs, Value.lt, decide_eq_false_iff_not, not_lt]
  obtain ⟨ε, hε⟩ : ∃ ε, ε = binary64.pow2 (-53) := ⟨_, rfl⟩
  obtain ⟨η, hη⟩ : ∃ η, η = binary64.pow2 (-1075) := ⟨_, rfl⟩
  rw [← hε] at hUrel hArel hBrel hwa hwb hs1 hs hd heta heps
  rw [← hη] at hwa hwb hs1 hs hd heta hetapos
  have hεpos : 0 < ε := by rw [heps]; positivity
  have hε64 : ε ≤ 1 / 64 := by rw [heps]; norm_num
  have hη16 : η ≤ ε / 16 := by
    have : ε / 2 ^ 60 ≤ ε / 16 :=
      div_le_div_of_nonneg_left (le_of_lt hεpos) (by norm_num) (by norm_num)
    linarith
  rw [abs_le] at hUrel hArel hBrel
  rw [abs_of_nonneg hqa0] at hwa
  rw [abs_of_nonneg hqb0] at hwb
  rw [abs_of_nonneg (by linarith : 0 ≤ 0 + wa)] at hs1
  rw [abs_of_nonneg (by linarith : 0 ≤ s1 + wb)] at hs
  rw [abs_le] at hwa hwb hs1 hs
  -- the sum of the two quotients
  obtain ⟨Q, hQdef⟩ : ∃ Q, Q = A / U + B / U := ⟨_, rfl⟩
  have hQU : Q * U = A + B := by
    rw [hQdef]
    field_simp
  have hu0 : (0 : ℚ) ≤ u := by linarith
  have hεab : ε * a + ε * b = ε * u := by rw [← hab]; ring
  have hU1 : u * (1 - ε) ≤ U := by linarith [hUrel.1]
  have hU2 : U ≤ u * (1 + ε) := by linarith [hUrel.2]
  have hAB1 : u * (1 - ε) ≤ A + B := by linarith [hArel.1, hBrel.1]
  have hAB2 : A + B ≤ u * (1 + ε) := by linarith [hArel.2, hBrel.2]
  have hQhi : Q ≤ 1 + 3 * ε := by
    have h1 : Q * U ≤ (1 + 3 * ε) * U := by
      rw [hQU]
      have h2 : (1 + 3 * ε) * (u * (1 - ε)) ≤ (1 + 3 * ε) * U :=
        mul_le_mul_of_nonneg_left hU1 (by linarith)
      have h3 : 0 ≤ u * ε * (1 - 3 * ε) :=
        mul_nonneg (mul_nonneg hu0 (le_of_lt hεpos)) (by linarith)
      linarith
    exact le_of_mul_le_mul_right h1 hU
  have hQlo : 1 - 2 * ε ≤ Q := by
    have h1 : (1 - 2 * ε) * U ≤ Q * U := by
      rw [hQU]
      have h2 : (1 - 2 * ε) * U ≤ (1 - 2 * ε) * (u * (1 + ε)) :=
        mul_le_mul_of_nonneg_left hU2 (by linarith)
      have h3 : 0 ≤ u * ε * ε :=
        mul_nonneg (mul_nonneg hu0 (le_of_lt hεpos)) (le_of_lt hεpos)
      linarith
    exact le_of_mul_le_mul_right h1 hU
  have hQ0 : 0 ≤ Q := by rw [hQdef]; linarith
  have hεQ : ε * (A / U) + ε * (B / U) = ε * Q := by rw [hQdef]; ring
  have hεQ2 : ε * Q ≤ ε * (1 + 3 * ε) := mul_le_mul_of_nonneg_left hQhi (le_of_lt hεpos)
  have hεε : ε * ε ≤ ε / 64 := by
    have := mul_le_mul_of_nonneg_left hε64 (le_of_lt hεpos)
    linarith
  -- the two weights
  have hWhi : wa + wb ≤ 1 + 4 * ε + ε / 4 := by linarith [hwa.2, hwb.2]
  have hWlo : 1 - 3 * ε - ε / 4 ≤ wa + wb := by
    linarith [hwa.1, hwb.1]
  have hwa1 : wa ≤ 1 + 4 * ε + ε / 4 := by linarith
  have hεwa : ε * (0 + wa) ≤ ε * (1 + 4 * ε + ε / 4) :=
    mul_le_mul_of_nonneg_left (by linarith) (le_of_lt hεpos)
  have hεwa0 : 0 ≤ ε * (0 + wa) := mul_nonneg (le_of_lt hεpos) (by linarith)
  have hXhi : s1 + wb ≤ 1 + 5 * ε + ε / 2 := by linarith [hs1.2]
  have hXlo : 1 - 4 * ε - ε / 2 ≤ s1 + wb := by linarith [hs1.1]
  have hεX : ε * (s1 + wb) ≤ ε * (1 + 5 * ε + ε / 2) :=
    mul_le_mul_of_nonneg_left hXhi (le_of_lt hεpos)
  have hεX0 : 0 ≤ ε * (s1 + wb) := mul_nonneg (le_of_lt hεpos) (by linarith)
  have hShi : s - 1 ≤ 6 * ε + ε * (3 / 4) := by linarith [hs.2]
  have hSlo : -(5 * ε + ε * (3 / 4)) ≤ s - 1 := by linarith [hs.1]
  have hSabs : |s - 1| ≤ 6 * ε + ε * (3 / 4) := by
    rw [abs_le]
    constructor <;> linarith
  have hεS : ε * |s - 1| ≤ ε * (6 * ε + ε * (3 / 4)) :=
    mul_le_mul_of_nonneg_left hSabs (le_of_lt hεpos)
  have h6 : |binary64.round (s - 1)| ≤ |s - 1| + (ε * |s - 1| + η) := by
    have := abs_sub_abs_le_abs_sub (binary64.round (s - 1)) (s - 1)
    linarith
  have h7 : (1 : ℚ) / 2 ^ 50 = 8 * ε := by
    rw [heps]
    norm_num
  rw [h7] at ht
  linarith

/-! ## Sums of many equal weights -/

theorem binary64.exponent_unique (q : ℚ) (e : Int) (h1 : binary64.pow2 e ≤ |q|)
    (h2 : |q| < binary64.pow2 (e + 1)) : binary64.exponent q = e := by
  have hq : q ≠ 0 := by
    intro h0
    rw [h0, abs_zero] at h1
    exact absurd (binary64.pow2_pos e) (not_lt.2 h1)
  obtain ⟨a1, a2⟩ := binary64.exponent_spec q hq
  have b1 := lt_of_le_of_lt h1 a2
  have b2 := lt_of_le_of_lt a1 h2
  rw [binary64.pow2_lt_iff] at b1 b2
  omega

/-- Rounding to the nearest integer, ties to even, of an integer `m` plus a number that is
within 1/2 of the integer `j`; on a tie both `m` and `j` are asked to be even. -/
theorem binary64.nearest_even_add (m j : Int) (y : ℚ)
    (h : |y - j| < 1 / 2 ∨ (|y - j| ≤ 1 / 2 ∧ m % 2 = 0 ∧ j % 2 = 0)) :
    binary64.nearest_even ((m : ℚ) + y) = m + j := by
  have hfl : ⌊(m : ℚ) + y⌋ = m + ⌊y⌋ := Int.floor_int_add m y
  have h1 := Int.floor_le y
  have h2 := Int.lt_floor_add_one y
  unfold binary64.nearest_even
  rw [hfl]
  have e : (m : ℚ) + y - ((m + ⌊y⌋ : Int) : ℚ) = y - ⌊y⌋ := by push_cast; ring
  rw [e]
  have habs : |y - j| ≤ 1 / 2 := by
    rcases h with h | h
    · exact le_of_lt h
    · exact h.1
  rw [abs_le] at habs
  -- the floor of y is j - 1 or j
  have hj : ⌊y⌋ = j - 1 ∨ ⌊y⌋ = j := by
    have c1 : (j : ℚ) - 1 < ⌊y⌋ + 1 := by linarith [habs.1]
    have c2 : ((⌊y⌋ : Int) : ℚ) < j + 1 := by linarith [habs.2]
    have c3 : j - 1 < ⌊y⌋ + 1 := by exact_mod_cast c1
    have c4 : ⌊y⌋ < j + 1 := by exact_mod_cast c2
    omega
  rcases hj with hj | hj
  · have hj2 : ((⌊y⌋ : Int) : ℚ) = j - 1 := by rw [hj]; push_cast; ring
    have hge : 1 / 2 ≤ y - ⌊y⌋ := by rw [hj2]; linarith [habs.1]
    rw [if_neg (not_lt.2 hge)]
    by_cases htie : 1 / 2 < y - ⌊y⌋
    · rw [if_pos htie, hj]; ring
    · rw [if_neg htie]
      have heq : y - j = -(1 / 2) := by
        have := not_lt.1 htie
        rw [hj2] at this hge
        linarith
      rcases h with h | h
      · rw [heq, abs_neg, abs_of_pos (by norm_num : (0 : ℚ) < 1 / 2)] at h
        exact absurd h (lt_irrefl _)
      · have hodd : (m + ⌊y⌋) % 2 ≠ 0 := by rw [hj]; omega
        rw [if_neg hodd, hj]; ring
  · have hj2 : ((⌊y⌋ : Int) : ℚ) = j := by rw [hj]
    by_cases hlt : y - ⌊y⌋ < 1 / 2
    · rw [if_pos hlt, hj]
    · rw [if_neg hlt]
      have hle : y - ⌊y⌋ ≤ 1 / 2 := by rw [hj2]; exact habs.2
      rw [if_neg (not_lt.2 hle)]
      have heq : y - j = 1 / 2 := by
        have := not_lt.1 hlt
        rw [hj2] at this
        linarith [habs.2]
      rcases h with h | h
      · rw [heq, abs_of_pos (by norm_num : (0 : ℚ) < 1 / 2)] at h
        exact absurd h (lt_irrefl _)
      · have hev : (m + ⌊y⌋) % 2 = 0 := by rw [hj]; omega
        rw [if_pos hev, hj]

/-- One addition of the weight `w` to a sum `m p` on the grid of the binade of the exact
sum. -/
theorem binary64.add_on_grid (e : Int) (p w : ℚ) (m j : Int) (he : -1022 ≤ e)
    (hp : p = binary64.pow2 (e - 52))
    (hw : |w / p - j| < 1 / 2 ∨ (|w / p - j| ≤ 1 / 2 ∧ m % 2 = 0 ∧ j % 2 = 0))
    (hlo : binary64.pow2 e ≤ m * p + w) (hhi : m * p + w < binary64.pow2 (e + 1)) :
    binary64.add (.num (m * p)) (.num w) = .num (((m + j : Int) : ℚ) * p) := by
  have hpos : 0 < (m : ℚ) * p + w := lt_of_lt_of_le (binary64.pow2_pos e) hlo
  have hexp : binary64.exponent ((m : ℚ) * p + w) = e :=
    binary64.exponent_unique _ e (by rw [abs_of_pos hpos]; exact hlo)
      (by rw [abs_of_pos hpos]; exact hhi)
  have hulp : binary64.ulp ((m : ℚ) * p + w) = p := by
    unfold binary64.ulp
    rw [hexp, max_eq_left he, hp]
  have hp0 : 0 < p := by rw [hp]; exact binary64.pow2_pos _
  show Value.num (binary64.round ((m : ℚ) * p + w)) = _
  unfold binary64.round
  rw [if_neg (ne_of_gt hpos), hulp]
  have e1 : ((m : ℚ) * p + w) / p = (m : ℚ) + w / p := by
    field_simp
  rw [e1, binary64.nearest_even_add m j (w / p) hw]

/-- The sum of `n` more weights `w` in one binade: every addition moves the sum by `j`
steps of the grid. -/
theorem binary64.foldl_add_replicate_grid (e : Int) (p w : ℚ) (j : Nat) (he : -1022 ≤ e)
    (hp : p = binary64.pow2 (e - 52)) :
    ∀ (n : Nat) (m : Int),
    (|w / p - j| < 1 / 2 ∨ (|w / p - j| ≤ 1 / 2 ∧ m % 2 = 0 ∧ j % 2 = 0)) →
    binary64.pow2 e ≤ m * p + w →
    (m + ((n - 1 : Nat) : Int) * j) * p + w < binary64.pow2 (e + 1) →
    (List.replicate n (Value.num w)).foldl binary64.add (.num (m * p)) =
      .num (((m + n * j : Int) : ℚ) * p) := by
  have hp0 : 0 < p := by rw [hp]; exact binary64.pow2_pos _
  intro n
  induction n with
  | zero =>
    intro m _ _ _
    simp
  | succ n ih =>
    intro m hw hlo hhi
    have hj0 : (0 : ℚ) ≤ ((n : Int) : ℚ) * j * p := by positivity
    simp only [Nat.add_sub_cancel] at hhi
    have hhi1 : (m : ℚ) * p + w < binary64.pow2 (e + 1) := by
      have : (m + (n : Int) * j : ℚ) * p + w = m * p + w + (n : Int) * j * p := by ring
      rw [this] at hhi
      linarith
    simp only [List.replicate_succ, List.foldl_cons]
    rw [binary64.add_on_grid e p w m j he hp (by exact_mod_cast hw) hlo hhi1]
    have hw2 : |w / p - j| < 1 / 2 ∨ (|w / p - j| ≤ 1 / 2 ∧ (m + j) % 2 = 0 ∧ j % 2 = 0) := by
      rcases hw with hw | ⟨a, b, c⟩
      · exact Or.inl hw
      · refine Or.inr ⟨a, ?_, c⟩
        have : ((j : Nat) : Int) % 2 = 0 := by exact_mod_cast c
        omega
    have hjp : (0 : ℚ) ≤ (j : ℚ) * p := by positivity
    cases n with
    | zero =>
      simp
    | succ n2 =>
      rw [ih (m + j) hw2 (by push_cast; linarith) (by
        simp only [Nat.add_sub_cancel]
        push_cast
        push_cast at hhi
        linarith)]
      congr 2
      push_cast
      ring

/-- The sum of `n` more weights in one binade, with the numbers given as literals. -/
theorem binary64.sum_replicate_jump (e : Int) (p w s s2 : ℚ) (m : Int) (j n : Nat)
    (he : -1022 ≤ e) (hp : p = binary64.pow2 (e - 52)) (hs : s = m * p)
    (hs2 : s2 = ((m + n * j : Int) : ℚ) * p)
    (hw : |w / p - j| < 1 / 2 ∨ (|w / p - j| ≤ 1 / 2 ∧ m % 2 = 0 ∧ j % 2 = 0))
    (hlo : binary64.pow2 e ≤ s + w)
    (hhi : s + ((n - 1 : Nat) : ℚ) * j * p + w < binary64.pow2 (e + 1)) :
    (List.replicate n (Value.num w)).foldl binary64.add (.num s) = .num s2 := by
  rw [hs, hs2]
  apply binary64.foldl_add_replicate_grid e p w j he hp n m hw
  · rw [← hs]; exact hlo
  · have : ((m : ℚ) + ((n - 1 : Nat) : Int) * j) * p + w =
        s + ((n - 1 : Nat) : ℚ) * j * p + w := by
      rw [hs]
      push_cast
      ring
    rw [this]
    exact hhi

theorem binary64.sum_replicate_append (w : ℚ) (N n : Nat) (s s2 : ℚ)
    (h1 : (List.replicate N (Value.num w)).foldl binary64.add (.num 0) = .num s)
    (h2 : (List.replicate n (Value.num w)).foldl binary64.add (.num s) = .num s2) :
    (List.replicate (N + n) (Value.num w)).foldl binary64.add (.num 0) = .num s2 := by
  rw [List.replicate_add, List.foldl_append, h1, h2]

/-- The sum of ten million weights `1.0 / 10000000`, added one after the other: it is
1 - 2.4983e-10. -/
theorem binary64.sum_ten_million :
    binary64.sum (List.replicate 10000000 (Value.num (944473296573929 / 2 ^ 73))) =
      .num (9007199252490723 / 2 ^ 53) := by
  have h0 : (List.replicate 0 (Value.num (944473296573929 / 2 ^ 73))).foldl
      binary64.add (.num 0) = .num 0 := rfl
  have h1 : (List.replicate 1 (Value.num (944473296573929 / 2 ^ 73))).foldl
      binary64.add (.num 0) = .num (944473296573929 / 2 ^ 73) :=
    binary64.sum_replicate_append _ 0 1 _ _ h0
      (binary64.sum_replicate_jump (-24) (1 / 2 ^ 76) _ _ _ 0
        7555786372591432 1 (by decide) (by decide!)
        (by decide!) (by decide!) (by decide!) (by decide!) (by decide!))
  have h2 : (List.replicate 2 (Value.num (944473296573929 / 2 ^ 73))).foldl
      binary64.add (.num 0) = .num (944473296573929 / 2 ^ 72) :=
    binary64.sum_replicate_append _ 1 1 _ _ h1
      (binary64.sum_replicate_jump (-23) (1 / 2 ^ 75) _ _ _ 3777893186295716
        3777893186295716 1 (by decide) (by decide!)
        (by decide!) (by decide!) (by decide!) (by decide!) (by decide!))
  have h3 : (List.replicate 4 (Value.num (944473296573929 / 2 ^ 73))).foldl
      binary64.add (.num 0) = .num (944473296573929 / 2 ^ 71) :=
    binary64.sum_replicate_append _ 2 2 _ _ h2
      (binary64.sum_replicate_jump (-22) (1 / 2 ^ 74) _ _ _ 3777893186295716
        1888946593147858 2 (by decide) (by decide!)
        (by decide!) (by decide!) (by decide!) (by decide!) (by decide!))
  have h4 : (List.replicate 9 (Value.num (944473296573929 / 2 ^ 73))).foldl
      binary64.add (.num 0) = .num (8500259669165361 / 2 ^ 73) :=
    binary64.sum_replicate_append _ 4 5 _ _ h3
      (binary64.sum_replicate_jump (-21) (1 / 2 ^ 73) _ _ _ 3777893186295716
        944473296573929 5 (by decide) (by decide!)
        (by decide!) (by decide!) (by decide!) (by decide!) (by decide!))
  have h5 : (List.replicate 10 (Value.num (944473296573929 / 2 ^ 73))).foldl
      binary64.add (.num 0) = .num (4722366482869645 / 2 ^ 72) :=
    binary64.sum_replicate_append _ 9 1 _ _ h4 (by decide!)
  have h6 : (List.replicate 11 (Value.num (944473296573929 / 2 ^ 73))).foldl
      binary64.add (.num 0) = .num (2597301565578305 / 2 ^ 71) :=
    binary64.sum_replicate_append _ 10 1 _ _ h5 (by decide!)
  have h7 : (List.replicate 19 (Value.num (944473296573929 / 2 ^ 73))).foldl
      binary64.add (.num 0) = .num (4486248158726161 / 2 ^ 71) :=
    binary64.sum_replicate_append _ 11 8 _ _ h6
      (binary64.sum_replicate_jump (-20) (1 / 2 ^ 72) _ _ _ 5194603131156610
        472236648286964 8 (by decide) (by decide!)
        (by decide!) (by decide!) (by decide!) (by decide!) (by decide!))
  have h8 : (List.replicate 38 (Value.num (944473296573929 / 2 ^ 73))).foldl
      binary64.add (.num 0) = .num (8972496317452319 / 2 ^ 71) :=
    binary64.sum_replicate_append _ 19 19 _ _ h7
      (binary64.sum_replicate_jump (-19) (1 / 2 ^ 71) _ _ _ 4486248158726161
        236118324143482 19 (by decide) (by decide!)
        (by decide!) (by decide!) (by decide!) (by decide!) (by decide!))
  have h9 : (List.replicate 39 (Value.num (944473296573929 / 2 ^ 73))).foldl
      binary64.add (.num 0) = .num (4604307320797901 / 2 ^ 70) :=
    binary64.sum_replicate_append _ 38 1 _ _ h8 (by decide!)
  have h10 : (List.replicate 76 (Value.num (944473296573929 / 2 ^ 73))).foldl
      binary64.add (.num 0) = .num (4486248158726159 / 2 ^ 69) :=
    binary64.sum_replicate_append _ 39 37 _ _ h9
      (binary64.sum_replicate_jump (-18) (1 / 2 ^ 70) _ _ _ 4604307320797901
        118059162071741 37 (by decide) (by decide!)
        (by decide!) (by decide!) (by decide!) (by decide!) (by decide!))
  have h11 : (List.replicate 152 (Value.num (944473296573929 / 2 ^ 73))).foldl
      binary64.add (.num 0) = .num (8972496317452355 / 2 ^ 69) :=
    binary64.sum_replicate_append _ 76 76 _ _ h10
      (binary64.sum_replicate_jump (-17) (1 / 2 ^ 69) _ _ _ 4486248158726159
        59029581035871 76 (by decide) (by decide!)
        (by decide!) (by decide!) (by decide!) (by decide!) (by decide!))
  have h12 : (List.replicate 153 (Value.num (944473296573929 / 2 ^ 73))).foldl
      binary64.add (.num 0) = .num (4515762949244113 / 2 ^ 68) :=
    binary64.sum_replicate_append _ 152 1 _ _ h11 (by decide!)
  have h13 : (List.replicate 305 (Value.num (944473296573929 / 2 ^ 73))).foldl
      binary64.add (.num 0) = .num (9002011107970233 / 2 ^ 68) :=
    binary64.sum_replicate_append _ 153 152 _ _ h12
      (binary64.sum_replicate_jump (-16) (1 / 2 ^ 68) _ _ _ 4515762949244113
        29514790517935 152 (by decide) (by decide!)
        (by decide!) (by decide!) (by decide!) (by decide!) (by decide!))
  have h14 : (List.replicate 306 (Value.num (944473296573929 / 2 ^ 73))).foldl
      binary64.add (.num 0) = .num (1128940737311021 / 2 ^ 65) :=
    binary64.sum_replicate_append _ 305 1 _ _ h13 (by decide!)
  have h15 : (List.replicate 610 (Value.num (944473296573929 / 2 ^ 73))).foldl
      binary64.add (.num 0) = .num (2250502776992589 / 2 ^ 65) :=
    binary64.sum_replicate_append _ 306 304 _ _ h14
      (binary64.sum_replicate_jump (-15) (1 / 2 ^ 67) _ _ _ 4515762949244084
        14757395258968 304 (by decide) (by decide!)
        (by decide!) (by decide!) (by decide!) (by decide!) (by decide!))
  have h16 : (List.replicate 1220 (Value.num (944473296573929 / 2 ^ 73))).foldl
      binary64.add (.num 0) = .num (4501005553985209 / 2 ^ 65) :=
    binary64.sum_replicate_append _ 610 610 _ _ h15
      (binary64.sum_replicate_jump (-14) (1 / 2 ^ 66) _ _ _ 4501005553985178
        7378697629484 610 (by decide) (by decide!)
        (by decide!) (by decide!) (by decide!) (by decide!) (by decide!))
  have h17 : (List.replicate 2441 (Value.num (944473296573929 / 2 ^ 73))).foldl
      binary64.add (.num 0) = .num (9005700456785191 / 2 ^ 65) :=
    binary64.sum_replicate_append _ 1220 1221 _ _ h16
      (binary64.sum_replicate_jump (-13) (1 / 2 ^ 65) _ _ _ 4501005553985209
        3689348814742 1221 (by decide) (by decide!)
        (by decide!) (by decide!) (by decide!) (by decide!) (by decide!))
  have h18 : (List.replicate 2442 (Value.num (944473296573929 / 2 ^ 73))).foldl
      binary64.add (.num 0) = .num (2252347451399983 / 2 ^ 63) :=
    binary64.sum_replicate_append _ 2441 1 _ _ h17 (by decide!)
  have h19 : (List.replicate 4882 (Value.num (944473296573929 / 2 ^ 73))).foldl
      binary64.add (.num 0) = .num (4502850228392603 / 2 ^ 63) :=
    binary64.sum_replicate_append _ 2442 2440 _ _ h18
      (binary64.sum_replicate_jump (-12) (1 / 2 ^ 64) _ _ _ 4504694902799966
        1844674407371 2440 (by decide) (by decide!)
        (by decide!) (by decide!) (by decide!) (by decide!) (by decide!))
  have h20 : (List.replicate 9765 (Value.num (944473296573929 / 2 ^ 73))).foldl
      binary64.add (.num 0) = .num (4503311396993229 / 2 ^ 62) :=
    binary64.sum_replicate_append _ 4882 4883 _ _ h19
      (binary64.sum_replicate_jump (-11) (1 / 2 ^ 63) _ _ _ 4502850228392603
        922337203685 4883 (by decide) (by decide!)
        (by decide!) (by decide!) (by decide!) (by decide!) (by decide!))
  have h21 : (List.replicate 19531 (Value.num (944473296573929 / 2 ^ 73))).foldl
      binary64.add (.num 0) = .num (9007083962591967 / 2 ^ 62) :=
    binary64.sum_replicate_append _ 9765 9766 _ _ h20
      (binary64.sum_replicate_jump (-10) (1 / 2 ^ 62) _ _ _ 4503311396993229
        461168601843 9766 (by decide) (by decide!)
        (by decide!) (by decide!) (by decide!) (by decide!) (by decide!))
  have h22 : (List.replicate 19532 (Value.num (944473296573929 / 2 ^ 73))).foldl
      binary64.add (.num 0) = .num (4503772565596905 / 2 ^ 61) :=
    binary64.sum_replicate_append _ 19531 1 _ _ h21 (by decide!)
  have h23 : (List.replicate 39062 (Value.num (944473296573929 / 2 ^ 73))).foldl
      binary64.add (.num 0) = .num (9007083962584035 / 2 ^ 61) :=
    binary64.sum_replicate_append _ 19532 19530 _ _ h22
      (binary64.sum_replicate_jump (-9) (1 / 2 ^ 61) _ _ _ 4503772565596905
        230584300921 19530 (by decide) (by decide!)
        (by decide!) (by decide!) (by decide!) (by decide!) (by decide!))
  have h24 : (List.replicate 39063 (Value.num (944473296573929 / 2 ^ 73))).foldl
      binary64.add (.num 0) = .num (2251828636721239 / 2 ^ 59) :=
    binary64.sum_replicate_append _ 39062 1 _ _ h23 (by decide!)
  have h25 : (List.replicate 78124 (Value.num (944473296573929 / 2 ^ 73))).foldl
      binary64.add (.num 0) = .num (9007083962599599 / 2 ^ 60) :=
    binary64.sum_replicate_append _ 39063 39061 _ _ h24
      (binary64.sum_replicate_jump (-8) (1 / 2 ^ 60) _ _ _ 4503657273442478
        115292150461 39061 (by decide) (by decide!)
        (by decide!) (by decide!) (by decide!) (by decide!) (by decide!))
  have h26 : (List.replicate 78125 (Value.num (944473296573929 / 2 ^ 73))).foldl
      binary64.add (.num 0) = .num (2251799813687515 / 2 ^ 58) :=
    binary64.sum_replicate_append _ 78124 1 _ _ h25 (by decide!)
  have h27 : (List.replicate 156250 (Value.num (944473296573929 / 2 ^ 73))).foldl
      binary64.add (.num 0) = .num (2251799813679695 / 2 ^ 57) :=
    binary64.sum_replicate_append _ 78125 78125 _ _ h26
      (binary64.sum_replicate_jump (-7) (1 / 2 ^ 59) _ _ _ 4503599627375030
        57646075230 78125 (by decide) (by decide!)
        (by decide!) (by decide!) (by decide!) (by decide!) (by decide!))
  have h28 : (List.replicate 312500 (Value.num (944473296573929 / 2 ^ 73))).foldl
      binary64.add (.num 0) = .num (2251799813675785 / 2 ^ 56) :=
    binary64.sum_replicate_append _ 156250 156250 _ _ h27
      (binary64.sum_replicate_jump (-6) (1 / 2 ^ 58) _ _ _ 4503599627359390
        28823037615 156250 (by decide) (by decide!)
        (by decide!) (by decide!) (by decide!) (by decide!) (by decide!))
  have h29 : (List.replicate 624999 (Value.num (944473296573929 / 2 ^ 73))).foldl
      binary64.add (.num 0) = .num (4503592421666381 / 2 ^ 56) :=
    binary64.sum_replicate_append _ 312500 312499 _ _ h28
      (binary64.sum_replicate_jump (-5) (1 / 2 ^ 57) _ _ _ 4503599627351570
        14411518808 312499 (by decide) (by decide!)
        (by decide!) (by decide!) (by decide!) (by decide!) (by decide!))
  have h30 : (List.replicate 1249999 (Value.num (944473296573929 / 2 ^ 73))).foldl
      binary64.add (.num 0) = .num (9007192049166381 / 2 ^ 56) :=
    binary64.sum_replicate_append _ 624999 625000 _ _ h29
      (binary64.sum_replicate_jump (-4) (1 / 2 ^ 56) _ _ _ 4503592421666381
        7205759404 625000 (by decide) (by decide!)
        (by decide!) (by decide!) (by decide!) (by decide!) (by decide!))
  have h31 : (List.replicate 1250000 (Value.num (944473296573929 / 2 ^ 73))).foldl
      binary64.add (.num 0) = .num (1125899906865723 / 2 ^ 53) :=
    binary64.sum_replicate_append _ 1249999 1 _ _ h30 (by decide!)
  have h32 : (List.replicate 2499999 (Value.num (944473296573929 / 2 ^ 73))).foldl
      binary64.add (.num 0) = .num (4503597826041595 / 2 ^ 54) :=
    binary64.sum_replicate_append _ 1250000 1249999 _ _ h31
      (binary64.sum_replicate_jump (-3) (1 / 2 ^ 55) _ _ _ 4503599627462892
        3602879702 1249999 (by decide) (by decide!)
        (by decide!) (by decide!) (by decide!) (by decide!) (by decide!))
  have h33 : (List.replicate 4999999 (Value.num (944473296573929 / 2 ^ 73))).foldl
      binary64.add (.num 0) = .num (9007197453541595 / 2 ^ 54) :=
    binary64.sum_replicate_append _ 2499999 2500000 _ _ h32
      (binary64.sum_replicate_jump (-2) (1 / 2 ^ 54) _ _ _ 4503597826041595
        1801439851 2500000 (by decide) (by decide!)
        (by decide!) (by decide!) (by decide!) (by decide!) (by decide!))
  have h34 : (List.replicate 5000000 (Value.num (944473296573929 / 2 ^ 73))).foldl
      binary64.add (.num 0) = .num (4503599627490723 / 2 ^ 53) :=
    binary64.sum_replicate_append _ 4999999 1 _ _ h33 (by decide!)
  have h35 : (List.replicate 10000000 (Value.num (944473296573929 / 2 ^ 73))).foldl
      binary64.add (.num 0) = .num (9007199252490723 / 2 ^ 53) :=
    binary64.sum_replicate_append _ 5000000 5000000 _ _ h34
      (binary64.sum_replicate_jump (-1) (1 / 2 ^ 53) _ _ _ 4503599627490723
        900719925 5000000 (by decide) (by decide!)
        (by decide!) (by decide!) (by decide!) (by decide!) (by decide!))
  exact h35

/-! ## General lemmas on `std::partition` -/

theorem partition_back_spec {α σ : Type} (pred : σ → α → Bool × σ) (r : List α) (s : σ) :
    (∀ x ∈ (partition_back pred r s).2.1, ∃ s0, (pred s0 x).1 = false) ∧
    (match (partition_back pred r s).1 with
     | none => (partition_back pred r s).2.1 = r.reverse
     | some (y, r2) => r.reverse = r2.reverse ++ y :: (partition_back pred r s).2.1 ∧
         ∃ s0, (pred s0 y).1 = true) := by
  induction r generalizing s with
  | nil => simp [partition_back]
  | cons y r ih =>
    by_cases hy : (pred s y).1 = true
    · simp [partition_back, hy]
      exact ⟨s, hy⟩
    · have hy2 : (pred s y).1 = false := by simpa using hy
      obtain ⟨h1, h2⟩ := ih (pred s y).2
      simp only [partition_back, hy2, Bool.false_eq_true, if_false]
      generalize partition_back pred r (pred s y).2 = res at h1 h2
      obtain ⟨o, sk, s2⟩ := res
      have hmem : ∀ x ∈ sk ++ [y], ∃ s0, (pred s0 x).1 = false := by
        intro x hx
        rcases List.mem_append.1 hx with hx | hx
        · exact h1 x hx
        · rw [List.mem_singleton.1 hx]; exact ⟨s, hy2⟩
      cases o with
      | none =>
        simp only at h2
        exact ⟨hmem, by simp [h2]⟩
      | some p =>
        obtain ⟨y2, r2⟩ := p
        simp only at h2
        exact ⟨hmem, by simp [h2.1], h2.2⟩

theorem partition_loop_spec {α σ : Type} (pred : σ → α → Bool × σ) (fuel : Nat) :
    ∀ (m : List α) (s : σ), m.length ≤ fuel →
      ((partition_loop pred fuel m s).1.1 ++ (partition_loop pred fuel m s).1.2).Perm m ∧
      (∀ x ∈ (partition_loop pred fuel m s).1.1, ∃ s0, (pred s0 x).1 = true) ∧
      (∀ x ∈ (partition_loop pred fuel m s).1.2, ∃ s0, (pred s0 x).1 = false) := by
  induction fuel with
  | zero =>
    intro m s hm
    have : m = [] := List.length_eq_zero.1 (Nat.le_zero.1 hm)
    subst this
    simp [partition_loop]
  | succ fuel ih =>
    intro m s hm
    cases m with
    | nil => simp [partition_loop]
    | cons x t =>
      have ht : t.length ≤ fuel := by simpa using hm
      by_cases hx : (pred s x).1 = true
      · obtain ⟨p1, p2, p3⟩ := ih t (pred s x).2 ht
        simp only [partition_loop, hx, if_true]
        refine ⟨?_, ?_, p3⟩
        · simpa using p1
        · intro z hz
          rcases List.mem_cons.1 hz with hz | hz
          · rw [hz]; exact ⟨s, hx⟩
          · exact p2 z hz
      · have hx2 : (pred s x).1 = false := by simpa using hx
        obtain ⟨b1, b2⟩ := partition_back_spec pred t.reverse (pred s x).2
        simp only [partition_loop, hx2, Bool.false_eq_true, if_false]
        generalize partition_back pred t.reverse (pred s x).2 = res at b1 b2
        obtain ⟨o, sk, s2⟩ := res
        cases o with
        | none =>
          simp only [List.reverse_reverse] at b2
          simp only at b2 ⊢
          subst b2
          refine ⟨by simp, by simp, ?_⟩
          intro z hz
          rcases List.mem_cons.1 hz with hz | hz
          · rw [hz]; exact ⟨s, hx2⟩
          · exact b1 z hz
        | some p =>
          obtain ⟨y, r⟩ := p
          simp only [List.reverse_reverse] at b2
          obtain ⟨ht2, s0, hy⟩ := b2
          have hr : r.reverse.length ≤ fuel := by
            have : t.length = r.reverse.length + (sk.length + 1) := by
              rw [ht2]; simp
            omega
          obtain ⟨p1, p2, p3⟩ := ih r.reverse s2 hr
          simp only
          refine ⟨?_, ?_, ?_⟩
          · rw [ht2]
            have e1 : (y :: (partition_loop pred fuel r.reverse s2).1.1 ++
                ((partition_loop pred fuel r.reverse s2).1.2 ++ x :: sk)).Perm
                (y :: (r.reverse ++ x :: sk)) := by
              rw [List.cons_append, ← List.append_assoc]
              exact List.Perm.cons y (List.Perm.append_right _ p1)
            refine e1.trans ?_
            have e2 : (y :: (r.reverse ++ x :: sk)).Perm (x :: y :: (r.reverse ++ sk)) := by
              refine (List.Perm.cons y List.perm_middle).trans ?_
              exact List.Perm.swap x y _
            refine e2.trans (List.Perm.cons x ?_)
            exact List.perm_middle.symm
          · intro z hz
            rcases List.mem_cons.1 hz with hz | hz
            · rw [hz]; exact ⟨s0, hy⟩
            · exact p2 z hz
          · intro z hz
            rcases List.mem_append.1 hz with hz | hz
            · exact p3 z hz
            · rcases List.mem_cons.1 hz with hz | hz
              · rw [hz]; exact ⟨s, hx2⟩
              · exact b1 z hz

theorem std_partition_perm {α σ : Type} (pred : σ → α → Bool × σ) (m : List α) (s : σ) :
    ((std_partition pred m s).1.1 ++ (std_partition pred m s).1.2).Perm m :=
  (partition_loop_spec pred m.length m s (le_refl _)).1

theorem std_partition_left {α σ : Type} (pred : σ → α → Bool × σ) (m : List α) (s : σ) :
    ∀ x ∈ (std_partition pred m s).1.1, ∃ s0, (pred s0 x).1 = true :=
  (partition_loop_spec pred m.length m s (le_refl _)).2.1

theorem std_partition_right {α σ : Type} (pred : σ → α → Bool × σ) (m : List α) (s : σ) :
    ∀ x ∈ (std_partition pred m s).1.2, ∃ s0, (pred s0 x).1 = false :=
  (partition_loop_spec pred m.length m s (le_refl _)).2.2

/-- The call of `test_apply_split`: the range `0, 1, 2, 3` becomes `1, 0, 2, 3`. -/
theorem test_apply_split_result :
    apply_split const_engine (.threshold ⟨0, .num 2⟩) test_apply_split_dataset
      [0, 1, 2, 3] () false = some (([1], [0, 2, 3]), ()) := by decide

theorem apply_split_some {ρ : Type} (eng : random_engine ρ) (split : splitting_criterion)
    (D : dataset) (I : List Nat) (rng : ρ) (smv : Bool) (h : split ≠ .monostate) :
    apply_split eng split D I rng smv =
      some (std_partition (apply_split_pred eng D smv split) I rng) := by
  cases split with
  | monostate => exact absurd rfl h
  | single s => rfl
  | subset s => rfl
  | threshold s => rfl

/-- C1: for every defined splitting criterion, dataset, range content `I`, generator state
and setting of `support_missing_values`, `apply_split` returns two ranges `I1`, `I2` (the
storage of `I` then holds `I1` followed by `I2`) with `|I1| + |I2| = |I|` and the multiset of
indices of `I1` followed by `I2` equal to the multiset of `I`; the assertion
`is_partition(I, I1, I2)` of the source holds. -/
theorem apply_split_partition_complete {ρ : Type} (eng : random_engine ρ)
    (split : splitting_criterion) (D : dataset) (I : List Nat) (rng : ρ) (smv : Bool)
    (h : split ≠ .monostate) :
    ∃ I1 I2 rng2, apply_split eng split D I rng smv = some ((I1, I2), rng2) ∧
      I1.length + I2.length = I.length ∧
      ((I1 ++ I2 : List Nat) : Multiset Nat) = (I : Multiset Nat) ∧
      is_partition I I1 I2 = true := by
  have hp := std_partition_perm (apply_split_pred eng D smv split) I rng
  refine ⟨(std_partition (apply_split_pred eng D smv split) I rng).1.1,
    (std_partition (apply_split_pred eng D smv split) I rng).1.2,
    (std_partition (apply_split_pred eng D smv split) I rng).2,
    apply_split_some eng split D I rng smv h, ?_, ?_, ?_⟩
  · simpa using hp.length_eq
  · exact Multiset.coe_eq_coe.2 hp
  · have hl := hp.length_eq
    simp only [List.length_append] at hl
    simp only [is_partition, hl, ne_eq, not_true_eq_false, if_false, decide_eq_true_eq,
      Multiset.coe_add]
    exact (Multiset.coe_eq_coe.2 hp).symm

theorem apply_split_partition_complete_witness :
    ∃ I1 I2 rng2, apply_split const_engine (.threshold ⟨0, .num 2⟩) test_apply_split_dataset
        [0, 1, 2, 3] () true = some ((I1, I2), rng2) ∧
      I1.length + I2.length = [0, 1, 2, 3].length ∧
      ((I1 ++ I2 : List Nat) : Multiset Nat) = (([0, 1, 2, 3] : List Nat) : Multiset Nat) ∧
      is_partition [0, 1, 2, 3] I1 I2 = true :=
  apply_split_partition_complete const_engine (.threshold ⟨0, .num 2⟩) test_apply_split_dataset
    [0, 1, 2, 3] () true (by decide)

theorem apply_split_pred_false_select {ρ : Type} (eng : random_engine ρ) (D : dataset)
    (split : splitting_criterion) (h : split ≠ .monostate) (rng : ρ) (i : Nat) :
    ((apply_split_pred eng D false split rng i).1 = true → select split (D.X.getD i []) = 0) ∧
    ((apply_split_pred eng D false split rng i).1 = false → select split (D.X.getD i []) = 1) := by
  have e : ∀ v, (D.X.getD i []).getD v Value.nan = D.at i v := fun v => rfl
  cases split with
  | monostate => exact absurd rfl h
  | single s =>
    simp only [select, e]
    by_cases hc : (D.at i s.var).eq s.value = true <;> simp [apply_split_pred, hc]
  | subset s =>
    simp only [select, e]
    by_cases hc : s.contains (D.at i s.var).to_size_t = true <;> simp [apply_split_pred, hc]
  | threshold s =>
    simp only [select, e]
    by_cases hc : (D.at i s.var).lt s.value = true <;> simp [apply_split_pred, hc]

/-- C2: with `support_missing_values = false`, for every defined splitting criterion
(single, subset or threshold), `apply_split` returns ranges `I1`, `I2` such that
`select(split, X[i]) = 0` for every index `i` of `I1` and `select(split, X[i]) = 1` for every
index `i` of `I2`; and on the data of `test_apply_split` (column values 2, 1, 3, 2),
`threshold_split(0, 2)` gives a left range holding exactly index 1 and a right range of size
3, whatever the random number generator. -/
theorem apply_split_select {ρ : Type} (eng : random_engine ρ) (split : splitting_criterion)
    (D : dataset) (I : List Nat) (rng : ρ) (h : split ≠ .monostate) :
    (∃ I1 I2 rng2, apply_split eng split D I rng false = some ((I1, I2), rng2) ∧
      (∀ i ∈ I1, select split (D.X.getD i []) = 0) ∧
      (∀ i ∈ I2, select split (D.X.getD i []) = 1)) ∧
    (∃ I2, apply_split eng (.threshold ⟨0, .num 2⟩) test_apply_split_dataset [0, 1, 2, 3] rng
        false = some (([1], I2), rng) ∧ I2.length = 3) := by
  refine ⟨⟨(std_partition (apply_split_pred eng D false split) I rng).1.1,
    (std_partition (apply_split_pred eng D false split) I rng).1.2,
    (std_partition (apply_split_pred eng D false split) I rng).2,
    apply_split_some eng split D I rng false h, ?_, ?_⟩, ?_⟩
  · intro i hi
    obtain ⟨s0, hs0⟩ := std_partition_left _ _ _ i hi
    exact (apply_split_pred_false_select eng D split h s0 i).1 hs0
  · intro i hi
    obtain ⟨s0, hs0⟩ := std_partition_right _ _ _ i hi
    exact (apply_split_pred_false_select eng D split h s0 i).2 hs0
  · exact ⟨[0, 2, 3], by rfl, rfl⟩

theorem apply_split_select_witness :
    (∃ I1 I2 rng2, apply_split const_engine (.single ⟨1, .num 3⟩) test_apply_split_dataset
        [0, 1, 2, 3] () false = some ((I1, I2), rng2) ∧
      (∀ i ∈ I1, select (.single ⟨1, .num 3⟩) (test_apply_split_dataset.X.getD i []) = 0) ∧
      (∀ i ∈ I2, select (.single ⟨1, .num 3⟩) (test_apply_split_dataset.X.getD i []) = 1)) ∧
    (∃ I2, apply_split const_engine (.threshold ⟨0, .num 2⟩) test_apply_split_dataset
        [0, 1, 2, 3] () false = some (([1], I2), ()) ∧ I2.length = 3) :=
  apply_split_select const_engine (.single ⟨1, .num 3⟩) test_apply_split_dataset
    [0, 1, 2, 3] () (by decide)

theorem sort_range_perm (D : dataset) (I : List Nat) (v : Nat) (options : decision_tree_options) :
    (sort_range D I v options).1.Perm I := by
  unfold sort_range
  by_cases h : options.support_missing_values = true
  · simp only [h, if_true]
    have hp := std_partition_perm (fun (_ : Unit) a => (!is_missing (D.at a v), ())) I ()
    refine List.Perm.trans ?_ hp
    exact List.Perm.append_right _ (List.perm_insertionSort _ _)
  · simp only [h, Bool.false_eq_true, if_false, List.append_nil]
    exact List.perm_insertionSort _ _

theorem enumerate_threshold_splits_fst (D : dataset) (I : List Nat) (v : Nat)
    (options : decision_tree_options) (K : Nat) :
    (enumerate_threshold_splits D I v options K).1 = (sort_range D I v options).1 := by
  unfold enumerate_threshold_splits
  simp only
  split <;> rfl

theorem enumerate_single_splits_fst (D : dataset) (I : List Nat) (v : Nat)
    (options : decision_tree_options) (K : Nat) :
    (enumerate_single_splits D I v options K).1 = (sort_range D I v options).1 := rfl

theorem enumerate_subset_splits_fst (D : dataset) (I : List Nat) (v : Nat)
    (options : decision_tree_options) (r : List Nat × List split_report)
    (h : enumerate_subset_splits D I v options = some r) :
    r.1 = (sort_range D I v options).1 := by
  unfold enumerate_subset_splits at h
  simp only at h
  split at h
  · exact absurd h (by simp)
  · split at h
    · simp only [Option.some.injEq] at h
      rw [← h]
    · simp only [Option.some.injEq] at h
      rw [← h]

theorem enumerate_variable_perm (fam : split_family) (D : dataset)
    (options : decision_tree_options) (I : List Nat) (v : Nat)
    (r : List Nat × List split_report) (h : fam.enumerate_variable D options I v = some r) :
    r.1.Perm I := by
  have hs := sort_range_perm D I v options
  unfold split_family.enumerate_variable at h
  cases fam with
  | threshold =>
    simp only [Option.some.injEq] at h
    rw [← h, enumerate_threshold_splits_fst]; exact hs
  | threshold_plus_single =>
    simp only at h
    split at h
    · simp only [Option.some.injEq] at h
      rw [← h, enumerate_single_splits_fst]; exact hs
    · simp only [Option.some.injEq] at h
      rw [← h, enumerate_threshold_splits_fst]; exact hs
  | threshold_plus_subset =>
    simp only at h
    split at h
    · rw [enumerate_subset_splits_fst D I v options r h]; exact hs
    · simp only [Option.some.injEq] at h
      rw [← h, enumerate_threshold_splits_fst]; exact hs

theorem enumerate_perm (fam : split_family) (D : dataset) (options : decision_tree_options)
    (V : List Nat) : ∀ (I : List Nat) (r : List Nat × List split_report),
    fam.enumerate D options I V = some r → r.1.Perm I := by
  induction V with
  | nil =>
    intro I r h
    simp only [split_family.enumerate, Option.some.injEq] at h
    rw [← h]
  | cons v V ih =>
    intro I r h
    simp only [split_family.enumerate] at h
    cases h1 : fam.enumerate_variable D options I v with
    | none => simp [h1] at h
    | some r1 =>
      obtain ⟨I1, rep1⟩ := r1
      simp only [h1] at h
      cases h2 : split_family.enumerate fam D options I1 V with
      | none => simp [h2] at h
      | some r2 =>
        obtain ⟨I2, rep2⟩ := r2
        simp only [h2, Option.some.injEq] at h
        rw [← h]
        exact (ih I1 (I2, rep2) h2).trans (enumerate_variable_perm fam D options I v _ h1)

/-- Every split kept by the callback comes from a report or is the initial one. -/
theorem best_split_foldl_ne {S : Type} (g : gain_function S) (reports : List split_report) :
    ∀ (best : S × splitting_criterion),
    (reports.foldl (best_split_update g) best).2 = best.2 ∨
    ∃ r ∈ reports, (reports.foldl (best_split_update g) best).2 = r.split := by
  induction reports with
  | nil => intro best; left; rfl
  | cons r rs ih =>
    intro best
    simp only [List.foldl_cons]
    rcases ih (best_split_update g best r) with h | ⟨r2, hr2, h⟩
    · by_cases hg : g.gt (g.gain r.D1_counts r.D2_counts) best.1 = true
      · right
        refine ⟨r, List.mem_cons_self _ _, ?_⟩
        rw [h]; simp [best_split_update, hg]
      · left
        rw [h]; simp [best_split_update, hg]
    · right
      exact ⟨r2, List.mem_cons_of_mem _ hr2, h⟩

theorem range_split_eq (indices : List Nat) (b e : Nat) (hb : b ≤ e) :
    indices = indices.take b ++ ((indices.take e).drop b ++ indices.drop e) := by
  have h1 : indices.take b = (indices.take e).take b := by
    rw [List.take_take, Nat.min_eq_left hb]
  rw [h1, ← List.append_assoc, List.take_append_drop, List.take_append_drop]

theorem write_range_perm (indices : List Nat) (b e : Nat) (I : List Nat) (hb : b ≤ e)
    (hI : I.Perm ((indices.take e).drop b)) : (write_range indices b e I).Perm indices := by
  have h := range_split_eq indices b e hb
  unfold write_range
  rw [List.append_assoc]
  conv_rhs => rw [h]
  exact List.Perm.append_left _ (List.Perm.append_right _ hI)

theorem range_length_le (tree : binary_decision_tree) (u : vertex) :
    (tree.range u).length ≤ u.I_end - u.I_begin := by
  unfold binary_decision_tree.range
  simp only [List.length_drop, List.length_take]
  omega

theorem range_length_eq (tree : binary_decision_tree) (u : vertex)
    (he : u.I_end ≤ tree.indices.length) :
    (tree.range u).length = u.I_end - u.I_begin := by
  unfold binary_decision_tree.range
  simp only [List.length_drop, List.length_take]
  omega

/-- What `split_vertex` does to a tree: the index array is permuted, and either the vertices
are unchanged, or two leaves are appended and linked to the vertex `ui`. -/
theorem split_vertex_cases {ρ S : Type} (eng : random_engine ρ) (D : dataset)
    (options : decision_tree_options) (fam : split_family) (g : gain_function S)
    (tree : binary_decision_tree) (rng : ρ) (todo : List Nat) (depth ui : Nat)
    (res : binary_decision_tree × ρ × List Nat)
    (h : split_vertex eng D options fam g tree rng todo depth ui = some res)
    (hui : ui < tree.vertices.length)
    (hb : (tree.find_vertex ui).I_begin ≤ (tree.find_vertex ui).I_end) :
    res.1.indices.Perm tree.indices ∧ res.1.classes = tree.classes ∧
    res.1.category_counts = tree.category_counts ∧
    ((res.1.vertices = tree.vertices ∧ res.2.2 = todo) ∨
     (∃ mid split, split ≠ splitting_criterion.monostate ∧
        (tree.find_vertex ui).I_begin ≤ mid ∧ mid ≤ (tree.find_vertex ui).I_end ∧
        res.1.vertices = (tree.vertices ++
            [({ I_begin := (tree.find_vertex ui).I_begin, I_end := mid } : vertex),
             { I_begin := mid, I_end := (tree.find_vertex ui).I_end }]).set ui
          { I_begin := (tree.find_vertex ui).I_begin, I_end := (tree.find_vertex ui).I_end,
            split := split, left := tree.vertices.length % 2 ^ 32,
            right := (tree.vertices.length + 1) % 2 ^ 32 } ∧
        res.2.2 = if depth < options.max_depth then
            todo ++ [tree.vertices.length % 2 ^ 32, (tree.vertices.length + 1) % 2 ^ 32]
          else todo)) := by
  unfold split_vertex at h
  simp only at h
  generalize hu : tree.find_vertex ui = u at h hb ⊢
  generalize eng.sample (List.range D.feature_count) (min options.max_features D.feature_count)
    rng = Z at h
  cases hen : fam.enumerate D options (tree.range u) Z.1 with
  | none => simp [hen] at h
  | some r1 =>
    obtain ⟨I', reports⟩ := r1
    simp only [hen] at h
    have hperm1 : I'.Perm (tree.range u) := enumerate_perm fam D options Z.1 _ _ hen
    have hw1 : (write_range tree.indices u.I_begin u.I_end I').Perm tree.indices :=
      write_range_perm _ _ _ _ hb hperm1
    generalize hbest : (reports.foldl (best_split_update g)
      (g.lowest, splitting_criterion.monostate)) = best at h
    by_cases hm : best.2 = splitting_criterion.monostate
    · simp only [hm, if_true, Option.some.injEq] at h
      rw [← h]
      exact ⟨hw1, rfl, rfl, Or.inl ⟨rfl, rfl⟩⟩
    · simp only [hm, if_false] at h
      generalize htree2 : binary_decision_tree.update_vertex
        { tree with indices := write_range tree.indices u.I_begin u.I_end I' } ui
        (fun w => { w with split := best.2 }) = tree2 at h
      have hind2 : tree2.indices = write_range tree.indices u.I_begin u.I_end I' := by
        rw [← htree2]; rfl
      have hvs2 : tree2.vertices = tree.vertices.set ui { u with split := best.2 } := by
        rw [← htree2]
        simp only [binary_decision_tree.update_vertex, binary_decision_tree.find_vertex]
        unfold binary_decision_tree.find_vertex at hu
        rw [hu]
      cases hap : apply_split eng best.2 D (tree2.range u) Z.2 options.support_missing_values with
      | none => simp [hap] at h
      | some r2 =>
        obtain ⟨⟨I1, I2⟩, rng2⟩ := r2
        simp only [hap, Option.some.injEq] at h
        have hsome := apply_split_some eng best.2 D (tree2.range u) Z.2
          options.support_missing_values hm
        rw [hap] at hsome
        simp only [Option.some.injEq] at hsome
        have hperm2 : (I1 ++ I2).Perm (tree2.range u) := by
          have hp := std_partition_perm (apply_split_pred eng D options.support_missing_values
            best.2) (tree2.range u) Z.2
          rw [← hsome] at hp
          exact hp
        have hw2 : (write_range tree2.indices u.I_begin u.I_end (I1 ++ I2)).Perm tree2.indices :=
          write_range_perm _ _ _ _ hb hperm2
        have hmid : u.I_begin + I1.length ≤ u.I_end := by
          have := range_length_le tree2 u
          have hlen := hperm2.length_eq
          simp only [List.length_append] at hlen
          omega
        rw [← h]
        refine ⟨?_, ?_, ?_, Or.inr ⟨u.I_begin + I1.length, best.2, hm, Nat.le_add_right _ _,
          hmid, ?_, ?_⟩⟩
        · simp only [binary_decision_tree.update_vertex, binary_decision_tree.add_vertex]
          rw [hind2] at hw2 ⊢
          exact hw2.trans hw1
        · simp only [binary_decision_tree.update_vertex, binary_decision_tree.add_vertex]
          rw [← htree2]; rfl
        · simp only [binary_decision_tree.update_vertex, binary_decision_tree.add_vertex]
          rw [← htree2]; rfl
        · simp only [binary_decision_tree.update_vertex, binary_decision_tree.add_vertex,
            binary_decision_tree.find_vertex, hvs2, List.length_set, List.length_append,
            List.length_singleton]
          have hget : ((tree.vertices.set ui { u with split := best.2 } ++
              [({ I_begin := u.I_begin, I_end := u.I_begin + I1.length } : vertex)] ++
              [({ I_begin := u.I_begin + I1.length, I_end := u.I_end } : vertex)]).getD ui
              { I_begin := 0, I_end := 0 }) = { u with split := best.2 } := by
            rw [List.append_assoc, List.getD_append _ _ _ _ (by simpa using hui)]
            rw [List.getD_eq_getElem _ _ (by simpa using hui)]
            simp
          rw [hget]
          rw [List.append_assoc, List.set_append_left _ _ (by simpa using hui), List.set_set]
          rw [List.set_append_left _ _ hui]
          rfl
        · simp only [binary_decision_tree.update_vertex, binary_decision_tree.add_vertex,
            hvs2, List.length_set, List.length_append, List.length_singleton]

theorem nonleaf_count_append (vs l : List vertex) (k : Nat) (hk : k ≤ vs.length) :
    nonleaf_count (vs ++ l) k = nonleaf_count vs k := by
  unfold nonleaf_count
  rw [List.take_append_of_le_length hk]

theorem nonleaf_count_set_le (vs : List vertex) (ui k : Nat) (x : vertex) (hk : k ≤ ui) :
    nonleaf_count (vs.set ui x) k = nonleaf_count vs k := by
  unfold nonleaf_count
  congr 1
  apply List.ext_getElem
  · simp
  · intro i h1 h2
    simp only [List.getElem_take]
    rw [List.getElem_set_ne]
    simp at h1
    omega

theorem nonleaf_count_succ (vs : List vertex) (k : Nat) (hk : k < vs.length) :
    nonleaf_count vs (k + 1) = nonleaf_count vs k +
      (if (vs.getD k { I_begin := 0, I_end := 0 }).is_leaf then 0 else 1) := by
  unfold nonleaf_count
  rw [List.take_succ, List.countP_append]
  rw [List.getD_eq_getElem _ _ hk, List.getElem?_eq_getElem hk]
  simp only [Option.toList_some, List.countP_cons, List.countP_nil, zero_add]
  cases h : (vs[k]).is_leaf <;> simp

theorem nonleaf_count_mono (vs : List vertex) (j k : Nat) (h : j ≤ k) :
    nonleaf_count vs j ≤ nonleaf_count vs k := by
  unfold nonleaf_count
  have : (vs.take j) = (vs.take k).take j := by rw [List.take_take, Nat.min_eq_left h]
  rw [this]
  exact (List.take_sublist _ _).countP_le _

theorem nonleaf_count_ge_length (vs : List vertex) (k : Nat) (hk : vs.length ≤ k) :
    nonleaf_count vs k = nonleaf_count vs vs.length := by
  unfold nonleaf_count
  rw [List.take_of_length_le hk, List.take_length]

theorem nonleaf_count_lt (vs : List vertex) (i k : Nat) (hi : i < k) (hk : i < vs.length)
    (hn : (vs.getD i { I_begin := 0, I_end := 0 }).is_leaf = false) :
    nonleaf_count vs i + 1 ≤ nonleaf_count vs k := by
  have h1 := nonleaf_count_succ vs i hk
  rw [hn] at h1
  simp only [Bool.false_eq_true, if_false] at h1
  rw [← h1]
  exact nonleaf_count_mono vs _ _ hi

/-- If all vertices from `j` on are leaves, the count does not change after `j`. -/
theorem nonleaf_count_eq_of_leaves (vs : List vertex) (j k : Nat) (h : j ≤ k)
    (hl : ∀ i, j ≤ i → i < vs.length → (vs.getD i { I_begin := 0, I_end := 0 }).is_leaf = true) :
    nonleaf_count vs k = nonleaf_count vs j := by
  induction k with
  | zero =>
    have : j = 0 := Nat.le_zero.1 h
    rw [this]
  | succ k ih =>
    by_cases hjk : j = k + 1
    · rw [hjk]
    · have hj : j ≤ k := by omega
      by_cases hkl : k < vs.length
      · rw [nonleaf_count_succ vs k hkl, hl k hj hkl]
        simpa using ih hj
      · rw [nonleaf_count_ge_length vs (k + 1) (by omega), ← nonleaf_count_ge_length vs k (by omega)]
        exact ih hj

theorem nonleaf_count_set_gt (vs : List vertex) (ui k : Nat) (x : vertex) (hui : ui < vs.length)
    (hk : ui < k) (hold : (vs.getD ui { I_begin := 0, I_end := 0 }).is_leaf = true)
    (hx : x.is_leaf = false) :
    nonleaf_count (vs.set ui x) k = nonleaf_count vs k + 1 := by
  induction k with
  | zero => omega
  | succ k ih =>
    by_cases hkl : k < vs.length
    · rw [nonleaf_count_succ _ k (by simpa using hkl), nonleaf_count_succ vs k hkl]
      by_cases hku : ui = k
      · subst hku
        rw [nonleaf_count_set_le vs ui ui x (le_refl _), hold]
        rw [List.getD_eq_getElem _ _ (by simpa using hkl)]
        simp [hx]
      · rw [ih (by omega)]
        rw [List.getD_eq_getElem _ _ (by simpa using hkl), List.getD_eq_getElem _ _ hkl]
        rw [List.getElem_set_ne hku]
        omega
    · rw [nonleaf_count_ge_length _ (k + 1) (by simp; omega),
        nonleaf_count_ge_length vs (k + 1) (by omega)]
      have h1 := ih (by omega)
      rw [nonleaf_count_ge_length _ k (by simp; omega),
        nonleaf_count_ge_length vs k (by omega)] at h1
      exact h1

/-- What one iteration of the loop of `learn_decision_tree` does. -/
theorem learn_step_cases {ρ S : Type} (eng : random_engine ρ) (D : dataset)
    (options : decision_tree_options) (fam : split_family) (g : gain_function S)
    (stop : List Nat → dataset → Nat → decision_tree_options → Bool)
    (st st2 : learn_state ρ) (ui : Nat) (todo : List Nat) (htodo : st.todo = ui :: todo)
    (h : learn_step eng D options fam g stop st = some st2)
    (hui : ui < st.tree.vertices.length)
    (hb : (st.tree.find_vertex ui).I_begin ≤ (st.tree.find_vertex ui).I_end) :
    st2.tree.indices.Perm st.tree.indices ∧
    (st2.depth = (if st.level_count - 1 = 0 then st.depth + 1 else st.depth)) ∧
    (st2.level_count = (if st.level_count - 1 = 0 then st2.todo.length
      else st.level_count - 1)) ∧
    ((st2.tree.vertices = st.tree.vertices ∧ st2.todo = todo) ∨
     (stop (st.tree.range (st.tree.find_vertex ui)) D st.depth options = false ∧
      ∃ mid split, split ≠ splitting_criterion.monostate ∧
        (st.tree.find_vertex ui).I_begin ≤ mid ∧ mid ≤ (st.tree.find_vertex ui).I_end ∧
        st2.tree.vertices = (st.tree.vertices ++
            [({ I_begin := (st.tree.find_vertex ui).I_begin, I_end := mid } : vertex),
             { I_begin := mid, I_end := (st.tree.find_vertex ui).I_end }]).set ui
          { I_begin := (st.tree.find_vertex ui).I_begin,
            I_end := (st.tree.find_vertex ui).I_end,
            split := split, left := st.tree.vertices.length % 2 ^ 32,
            right := (st.tree.vertices.length + 1) % 2 ^ 32 } ∧
        st2.todo = if st.depth < options.max_depth then
            todo ++ [st.tree.vertices.length % 2 ^ 32, (st.tree.vertices.length + 1) % 2 ^ 32]
          else todo)) := by
  unfold learn_step at h
  rw [htodo] at h
  simp only at h
  by_cases hstop : stop (st.tree.range (st.tree.find_vertex ui)) D st.depth options = true
  · simp only [hstop, Bool.not_true, Bool.false_eq_true, if_false] at h
    by_cases hl : st.level_count - 1 = 0
    · simp only [hl, if_true, Option.some.injEq] at h
      rw [← h]
      exact ⟨List.Perm.refl _, by simp [hl], by simp [hl], Or.inl ⟨rfl, rfl⟩⟩
    · simp only [hl, if_false, Option.some.injEq] at h
      rw [← h]
      exact ⟨List.Perm.refl _, by simp [hl], by simp [hl], Or.inl ⟨rfl, rfl⟩⟩
  · have hstop2 : stop (st.tree.range (st.tree.find_vertex ui)) D st.depth options = false := by
      simpa using hstop
    simp only [hstop2, Bool.not_false, if_true] at h
    cases hsv : split_vertex eng D options fam g st.tree st.rng todo st.depth ui with
    | none => simp [hsv] at h
    | some res =>
      obtain ⟨tree, rng, todo2⟩ := res
      simp only [hsv] at h
      obtain ⟨c1, -, -, c4⟩ := split_vertex_cases eng D options fam g st.tree st.rng todo
        st.depth ui _ hsv hui hb
      simp only at c1 c4
      by_cases hl : st.level_count - 1 = 0
      · simp only [hl, if_true, Option.some.injEq] at h
        rw [← h]
        refine ⟨c1, by simp [hl], by simp [hl], ?_⟩
        rcases c4 with c4 | c4
        · exact Or.inl c4
        · exact Or.inr ⟨hstop2, c4⟩
      · simp only [hl, if_false, Option.some.injEq] at h
        rw [← h]
        refine ⟨c1, by simp [hl], by simp [hl], ?_⟩
        rcases c4 with c4 | c4
        · exact Or.inl c4
        · exact Or.inr ⟨hstop2, c4⟩

theorem learn_step_nil {ρ S : Type} (eng : random_engine ρ) (D : dataset)
    (options : decision_tree_options) (fam : split_family) (g : gain_function S)
    (stop : List Nat → dataset → Nat → decision_tree_options → Bool)
    (st : learn_state ρ) (htodo : st.todo = []) :
    learn_step eng D options fam g stop st = some st := by
  unfold learn_step
  rw [htodo]

/-- In a tree numbered breadth first, the children of a non-leaf vertex `i` are two
consecutive indices of the array, greater than `i`. -/
theorem bfs_numbered_children (vs : List vertex) (hn : bfs_numbered vs) (i : Nat)
    (hi : i < vs.length)
    (hleaf : (vs.getD i { I_begin := 0, I_end := 0 }).is_leaf = false) :
    (vs.getD i { I_begin := 0, I_end := 0 }).left = 1 + 2 * nonleaf_count vs i ∧
    (vs.getD i { I_begin := 0, I_end := 0 }).right =
      (vs.getD i { I_begin := 0, I_end := 0 }).left + 1 ∧
    (vs.getD i { I_begin := 0, I_end := 0 }).right < vs.length ∧
    i < (vs.getD i { I_begin := 0, I_end := 0 }).left := by
  rcases hn.links i hi with h | ⟨h1, h2⟩
  · rw [h] at hleaf; exact absurd hleaf (by simp)
  · have h3 := nonleaf_count_lt vs i vs.length hi hi hleaf
    have h4 := hn.size
    have h5 := hn.lower i hi
    refine ⟨h1, by omega, by omega, by omega⟩

theorem getD_split_old (vs : List vertex) (ui i : Nat) (u2 vl vr d : vertex)
    (hi : i < vs.length) (hne : i ≠ ui) :
    ((vs ++ [vl, vr]).set ui u2).getD i d = vs.getD i d := by
  rw [List.getD_eq_getElem _ _ (by simp; omega), List.getD_eq_getElem _ _ hi]
  rw [List.getElem_set_ne (Ne.symm hne)]
  rw [List.getElem_append_left hi]

theorem getD_split_self (vs : List vertex) (ui : Nat) (u2 vl vr d : vertex)
    (hi : ui < vs.length) :
    ((vs ++ [vl, vr]).set ui u2).getD ui d = u2 := by
  rw [List.getD_eq_getElem _ _ (by simp; omega)]
  simp

theorem getD_split_left (vs : List vertex) (ui : Nat) (u2 vl vr d : vertex)
    (hi : ui < vs.length) :
    ((vs ++ [vl, vr]).set ui u2).getD vs.length d = vl := by
  rw [List.getD_eq_getElem _ _ (by simp)]
  rw [List.getElem_set_ne (by omega)]
  rw [List.getElem_append_right (le_refl _)]
  simp

theorem getD_split_right (vs : List vertex) (ui : Nat) (u2 vl vr d : vertex)
    (hi : ui < vs.length) :
    ((vs ++ [vl, vr]).set ui u2).getD (vs.length + 1) d = vr := by
  rw [List.getD_eq_getElem _ _ (by simp)]
  rw [List.getElem_set_ne (by omega)]
  rw [List.getElem_append_right (by omega)]
  simp

theorem is_leaf_false_of_left (u : vertex) (h : u.left ≠ undefined_index) :
    u.is_leaf = false := by
  simp [vertex.is_leaf, h]

theorem nonleaf_count_split (vs : List vertex) (ui k : Nat) (u2 vl vr : vertex)
    (hui : ui < vs.length)
    (hold : (vs.getD ui { I_begin := 0, I_end := 0 }).is_leaf = true)
    (hu2 : u2.is_leaf = false) (hvl : vl.is_leaf = true) (hvr : vr.is_leaf = true) :
    nonleaf_count ((vs ++ [vl, vr]).set ui u2) k =
      if k ≤ ui then nonleaf_count vs k else nonleaf_count vs k + 1 := by
  have hleaves : ∀ i, vs.length ≤ i → i < (vs ++ [vl, vr]).length →
      ((vs ++ [vl, vr]).getD i { I_begin := 0, I_end := 0 }).is_leaf = true := by
    intro i h1 h2
    simp only [List.length_append, List.length_cons, List.length_nil] at h2
    rw [List.getD_eq_getElem _ _ (by simp; omega)]
    rw [List.getElem_append_right h1]
    have : i - vs.length = 0 ∨ i - vs.length = 1 := by omega
    rcases this with h | h <;> simp [h, hvl, hvr]
  have happ : ∀ k, nonleaf_count (vs ++ [vl, vr]) k = nonleaf_count vs k := by
    intro k
    by_cases hk : k ≤ vs.length
    · exact nonleaf_count_append vs _ k hk
    · rw [nonleaf_count_eq_of_leaves (vs ++ [vl, vr]) vs.length k (by omega) hleaves]
      rw [nonleaf_count_append vs _ _ (le_refl _)]
      rw [nonleaf_count_ge_length vs k (by omega)]
  by_cases hk : k ≤ ui
  · simp only [hk, if_true]
    rw [nonleaf_count_set_le _ _ _ _ hk, happ]
  · simp only [hk, if_false]
    rw [nonleaf_count_set_gt _ ui k u2 (by simp; omega) (by omega) ?_ hu2, happ]
    rw [List.getD_eq_getElem _ _ (by simp; omega), List.getElem_append_left hui]
    rw [List.getD_eq_getElem _ _ hui] at hold
    exact hold

theorem split_numbered (vs : List vertex) (ui : Nat) (u2 vl vr : vertex)
    (hn : bfs_numbered vs) (hui : ui < vs.length)
    (hold : (vs.getD ui { I_begin := 0, I_end := 0 }).is_leaf = true)
    (hbehind : ∀ i, i < vs.length →
      (vs.getD i { I_begin := 0, I_end := 0 }).is_leaf = false → i < ui)
    (hvl : vl.is_leaf = true) (hvr : vr.is_leaf = true)
    (hl : u2.left = vs.length) (hr : u2.right = vs.length + 1)
    (hU : vs.length + 2 ≤ undefined_index) :
    bfs_numbered ((vs ++ [vl, vr]).set ui u2) := by
  have hu2 : u2.is_leaf = false := is_leaf_false_of_left u2 (by rw [hl]; omega)
  have hcnt := fun k => nonleaf_count_split vs ui k u2 vl vr hui hold hu2 hvl hvr
  have hsize := hn.size
  have hflat : nonleaf_count vs vs.length = nonleaf_count vs ui := by
    apply nonleaf_count_eq_of_leaves vs ui vs.length (by omega)
    intro i h1 h2
    by_cases hc : (vs.getD i { I_begin := 0, I_end := 0 }).is_leaf = true
    · exact hc
    · have := hbehind i h2 (by simpa using hc)
      omega
  have hlen : ((vs ++ [vl, vr]).set ui u2).length = vs.length + 2 := by simp
  refine ⟨?_, ?_, ?_⟩
  · intro i hi
    rw [hlen] at hi
    by_cases h1 : i = ui
    · right
      subst h1
      rw [getD_split_self vs i u2 vl vr _ hui, hcnt]
      simp only [le_refl, if_true]
      omega
    · by_cases h2 : i < vs.length
      · rw [getD_split_old vs ui i u2 vl vr _ h2 h1]
        rcases hn.links i h2 with h | h
        · exact Or.inl h
        · right
          by_cases hleaf : (vs.getD i { I_begin := 0, I_end := 0 }).is_leaf = true
          · have hch := h
            simp only [vertex.is_leaf, Bool.and_eq_true, beq_iff_eq] at hleaf
            have h3 := hn.lower i h2
            have h4 := nonleaf_count_mono vs i vs.length (by omega)
            omega
          · have := hbehind i h2 (by simpa using hleaf)
            rw [hcnt]
            simp only [show i ≤ ui by omega, if_true]
            exact h
      · left
        have : i = vs.length ∨ i = vs.length + 1 := by omega
        rcases this with h | h
        · rw [h, getD_split_left vs ui u2 vl vr _ hui]; exact hvl
        · rw [h, getD_split_right vs ui u2 vl vr _ hui]; exact hvr
  · rw [hlen, hcnt]
    simp only [show ¬ (vs.length + 2 ≤ ui) by omega, if_false]
    rw [nonleaf_count_ge_length vs (vs.length + 2) (by omega)]
    omega
  · intro k hk
    rw [hlen] at hk
    rw [hcnt]
    by_cases h1 : k ≤ ui
    · simp only [h1, if_true]
      exact hn.lower k (by omega)
    · simp only [h1, if_false]
      by_cases h2 : k < vs.length
      · have := hn.lower k h2
        omega
      · rw [nonleaf_count_ge_length vs k (by omega)]
        omega

theorem mod_uint32_of_le (n : Nat) (h : n + 2 ≤ undefined_index) :
    n % 2 ^ 32 = n ∧ (n + 1) % 2 ^ 32 = n + 1 := by
  unfold undefined_index at h
  constructor <;> apply Nat.mod_eq_of_lt <;> omega

/-- The loop invariant is preserved by an iteration, as long as the number of vertices fits
the 32 bit indices. -/
theorem learn_step_inv {ρ S : Type} (eng : random_engine ρ) (D : dataset)
    (options : decision_tree_options) (fam : split_family) (g : gain_function S)
    (stop : List Nat → dataset → Nat → decision_tree_options → Bool)
    (st st2 : learn_state ρ) (hinv : learn_inv st)
    (h : learn_step eng D options fam g stop st = some st2)
    (hU : st2.tree.vertices.length ≤ undefined_index) : learn_inv st2 := by
  cases htodo : st.todo with
  | nil =>
    rw [learn_step_nil eng D options fam g stop st htodo] at h
    simp only [Option.some.injEq] at h
    rw [← h]; exact hinv
  | cons ui todo =>
    have hmem : ui ∈ st.todo := by rw [htodo]; exact List.mem_cons_self _ _
    have hui := (hinv.pending ui hmem).1
    have huleaf := (hinv.pending ui hmem).2
    have hb := (hinv.nested.bounds ui hui).1
    have he := (hinv.nested.bounds ui hui).2
    obtain ⟨c1, -, -, c4⟩ := learn_step_cases eng D options fam g stop st st2 ui todo htodo h hui hb
    have hsorted := hinv.sorted
    rw [htodo] at hsorted
    have hsorted2 := List.pairwise_cons.1 hsorted
    have hlen : st2.tree.indices.length = st.tree.indices.length := c1.length_eq
    rcases c4 with ⟨hvs, htd⟩ | ⟨-, mid, sp, -, hm1, hm2, hvs, htd⟩
    · have hfv : ∀ i, st2.tree.find_vertex i = st.tree.find_vertex i := by
        intro i; simp only [binary_decision_tree.find_vertex, hvs]
      refine ⟨by rw [hvs]; exact hinv.numbered, ⟨?_, ?_, ?_⟩, ?_, ?_, ?_⟩
      · intro i hi
        rw [hfv, hlen]; rw [hvs] at hi
        exact hinv.nested.bounds i hi
      · rw [hfv, hlen]; exact hinv.nested.root
      · intro i hi hl
        rw [hvs] at hi
        simp only [hfv] at hl ⊢
        exact hinv.nested.children i hi hl
      · rw [htd]; exact hsorted2.2
      · intro t ht
        rw [htd] at ht
        rw [hvs, hfv]
        exact hinv.pending t (by rw [htodo]; exact List.mem_cons_of_mem _ ht)
      · intro i hi hl t ht
        rw [hvs] at hi
        rw [hfv] at hl
        rw [htd] at ht
        exact hinv.behind i hi hl t (by rw [htodo]; exact List.mem_cons_of_mem _ ht)
    · have hn2 : st.tree.vertices.length + 2 ≤ undefined_index := by
        rw [hvs] at hU; simpa using hU
      obtain ⟨hmod1, hmod2⟩ := mod_uint32_of_le _ hn2
      rw [hmod1, hmod2] at hvs htd
      obtain ⟨u2, hu2⟩ : ∃ u2 : vertex, vertex.mk (st.tree.find_vertex ui).I_begin
          (st.tree.find_vertex ui).I_end st.tree.vertices.length
          (st.tree.vertices.length + 1) sp = u2 := ⟨_, rfl⟩
      obtain ⟨vl, hvl⟩ : ∃ vl : vertex, vertex.mk (st.tree.find_vertex ui).I_begin mid
          undefined_index undefined_index splitting_criterion.monostate = vl := ⟨_, rfl⟩
      obtain ⟨vr, hvr⟩ : ∃ vr : vertex, vertex.mk mid (st.tree.find_vertex ui).I_end
          undefined_index undefined_index splitting_criterion.monostate = vr := ⟨_, rfl⟩
      rw [hu2, hvl, hvr] at hvs
      have hu2l : u2.left = st.tree.vertices.length := by rw [← hu2]
      have hu2r : u2.right = st.tree.vertices.length + 1 := by rw [← hu2]
      have hu2b : u2.I_begin = (st.tree.find_vertex ui).I_begin := by rw [← hu2]
      have hu2e : u2.I_end = (st.tree.find_vertex ui).I_end := by rw [← hu2]
      have hvll : vl.is_leaf = true := by rw [← hvl]; simp [vertex.is_leaf]
      have hvrl : vr.is_leaf = true := by rw [← hvr]; simp [vertex.is_leaf]
      have hu2leaf : u2.is_leaf = false :=
        is_leaf_false_of_left u2 (by rw [hu2l]; omega)
      have hbeh : ∀ i, i < st.tree.vertices.length →
          (st.tree.vertices.getD i { I_begin := 0, I_end := 0 }).is_leaf = false → i < ui :=
        fun i hi hl => hinv.behind i hi hl ui hmem
      have hnum := split_numbered st.tree.vertices ui u2 vl vr hinv.numbered hui huleaf hbeh
        hvll hvrl hu2l hu2r hn2
      have hlen2 : st2.tree.vertices.length = st.tree.vertices.length + 2 := by
        rw [hvs]; simp
      -- the vertices of the new tree
      have hfself : st2.tree.find_vertex ui = u2 := by
        simp only [binary_decision_tree.find_vertex, hvs]
        exact getD_split_self _ _ _ _ _ _ hui
      have hfold : ∀ i, i < st.tree.vertices.length → i ≠ ui →
          st2.tree.find_vertex i = st.tree.find_vertex i := by
        intro i hi hne
        simp only [binary_decision_tree.find_vertex, hvs]
        exact getD_split_old _ _ _ _ _ _ _ hi hne
      have hfl : st2.tree.find_vertex st.tree.vertices.length = vl := by
        simp only [binary_decision_tree.find_vertex, hvs]
        exact getD_split_left _ _ _ _ _ _ hui
      have hfr : st2.tree.find_vertex (st.tree.vertices.length + 1) = vr := by
        simp only [binary_decision_tree.find_vertex, hvs]
        exact getD_split_right _ _ _ _ _ _ hui
      have hrange : ∀ i, i < st.tree.vertices.length →
          (st2.tree.find_vertex i).I_begin = (st.tree.find_vertex i).I_begin ∧
          (st2.tree.find_vertex i).I_end = (st.tree.find_vertex i).I_end := by
        intro i hi
        by_cases hne : i = ui
        · rw [hne, hfself]; exact ⟨hu2b, hu2e⟩
        · rw [hfold i hi hne]; exact ⟨rfl, rfl⟩
      have hnew : ∀ i, i < st2.tree.vertices.length → ¬ i < st.tree.vertices.length →
          i = st.tree.vertices.length ∨ i = st.tree.vertices.length + 1 := by
        intro i hi hni; omega
      refine ⟨by rw [hvs]; exact hnum, ⟨?_, ?_, ?_⟩, ?_, ?_, ?_⟩
      · intro i hi
        rw [hlen]
        by_cases hold : i < st.tree.vertices.length
        · rw [(hrange i hold).1, (hrange i hold).2]
          exact hinv.nested.bounds i hold
        · rcases hnew i hi hold with h1 | h1
          · rw [h1, hfl, ← hvl]; exact ⟨hm1, by simp only; omega⟩
          · rw [h1, hfr, ← hvr]; exact ⟨hm2, he⟩
      · rw [hlen, (hrange 0 (by omega)).1, (hrange 0 (by omega)).2]
        exact hinv.nested.root
      · intro i hi hl
        by_cases hold : i < st.tree.vertices.length
        · by_cases hne : i = ui
          · rw [hne, hfself, hu2l, hu2r, hfl, hfr, ← hvl, ← hvr]
            exact ⟨hu2b.symm, rfl, hu2e.symm⟩
          · rw [hfold i hold hne] at hl ⊢
            obtain ⟨k1, k2, k3, k4⟩ := bfs_numbered_children _ hinv.numbered i hold hl
            have e1 : (st.tree.find_vertex i).right < st.tree.vertices.length := k3
            have e2 : (st.tree.find_vertex i).left < st.tree.vertices.length := by
              have : (st.tree.find_vertex i).right = (st.tree.find_vertex i).left + 1 := k2
              omega
            rw [(hrange _ e1).1, (hrange _ e1).2, (hrange _ e2).1, (hrange _ e2).2]
            exact hinv.nested.children i hold hl
        · rcases hnew i hi hold with h1 | h1
          · rw [h1, hfl, hvll] at hl; exact absurd hl (by simp)
          · rw [h1, hfr, hvrl] at hl; exact absurd hl (by simp)
      · rw [htd]
        split
        · rw [List.pairwise_append]
          refine ⟨hsorted2.2, by simp, ?_⟩
          intro a ha b hb2
          have := (hinv.pending a (by rw [htodo]; exact List.mem_cons_of_mem _ ha)).1
          simp only [List.mem_cons, List.mem_singleton, List.not_mem_nil, or_false] at hb2
          omega
        · exact hsorted2.2
      · intro t ht
        rw [htd] at ht
        have hcase : t ∈ todo ∨ t = st.tree.vertices.length ∨ t = st.tree.vertices.length + 1 := by
          split at ht
          · simp only [List.mem_append, List.mem_cons, List.mem_singleton, List.not_mem_nil,
              or_false] at ht
            exact ht
          · exact Or.inl ht
        rcases hcase with h1 | h1 | h1
        · have hp := hinv.pending t (by rw [htodo]; exact List.mem_cons_of_mem _ h1)
          have hlt := hsorted2.1 t h1
          rw [hfold t hp.1 (by omega)]
          exact ⟨by omega, hp.2⟩
        · rw [h1, hfl]; exact ⟨by omega, hvll⟩
        · rw [h1, hfr]; exact ⟨by omega, hvrl⟩
      · intro i hi hl t ht
        rw [htd] at ht
        have hcase : t ∈ todo ∨ t = st.tree.vertices.length ∨ t = st.tree.vertices.length + 1 := by
          split at ht
          · simp only [List.mem_append, List.mem_cons, List.mem_singleton, List.not_mem_nil,
              or_false] at ht
            exact ht
          · exact Or.inl ht
        have hiold : i < st.tree.vertices.length := by
          by_contra hold
          rcases hnew i hi hold with h1 | h1
          · rw [h1, hfl, hvll] at hl; exact absurd hl (by simp)
          · rw [h1, hfr, hvrl] at hl; exact absurd hl (by simp)
        rcases hcase with h1 | h1 | h1
        · by_cases hne : i = ui
          · rw [hne]; exact hsorted2.1 t h1
          · rw [hfold i hiold hne] at hl
            exact hinv.behind i hiold hl t (by rw [htodo]; exact List.mem_cons_of_mem _ h1)
        · omega
        · omega

theorem split_vertex_length {ρ S : Type} (eng : random_engine ρ) (D : dataset)
    (options : decision_tree_options) (fam : split_family) (g : gain_function S)
    (tree : binary_decision_tree) (rng : ρ) (todo : List Nat) (depth ui : Nat)
    (res : binary_decision_tree × ρ × List Nat)
    (h : split_vertex eng D options fam g tree rng todo depth ui = some res) :
    tree.vertices.length ≤ res.1.vertices.length := by
  unfold split_vertex at h
  simp only at h
  split at h
  · exact absurd h (by simp)
  · split at h
    · simp only [Option.some.injEq] at h
      rw [← h]
    · split at h
      · exact absurd h (by simp)
      · simp only [Option.some.injEq] at h
        rw [← h]
        simp [binary_decision_tree.update_vertex, binary_decision_tree.add_vertex]

theorem learn_step_length {ρ S : Type} (eng : random_engine ρ) (D : dataset)
    (options : decision_tree_options) (fam : split_family) (g : gain_function S)
    (stop : List Nat → dataset → Nat → decision_tree_options → Bool)
    (st st2 : learn_state ρ)
    (h : learn_step eng D options fam g stop st = some st2) :
    st.tree.vertices.length ≤ st2.tree.vertices.length := by
  unfold learn_step at h
  split at h
  · simp only [Option.some.injEq] at h
    rw [← h]
  · rename_i ui todo htodo
    simp only at h
    by_cases hstop : stop (st.tree.range (st.tree.find_vertex ui)) D st.depth options = true
    · simp only [hstop, Bool.not_true, Bool.false_eq_true, if_false] at h
      split at h <;> (simp only [Option.some.injEq] at h; rw [← h])
    · have hstop2 : stop (st.tree.range (st.tree.find_vertex ui)) D st.depth options = false := by
        simpa using hstop
      simp only [hstop2, Bool.not_false, if_true] at h
      cases hsv : split_vertex eng D options fam g st.tree st.rng todo st.depth ui with
      | none => simp [hsv] at h
      | some res =>
        have hl := split_vertex_length eng D options fam g st.tree st.rng todo st.depth ui res hsv
        obtain ⟨tree, rng, todo2⟩ := res
        simp only [hsv] at h
        split at h <;> (simp only [Option.some.injEq] at h; rw [← h]; exact hl)

theorem learn_loop_length {ρ S : Type} (eng : random_engine ρ) (D : dataset)
    (options : decision_tree_options) (fam : split_family) (g : gain_function S)
    (stop : List Nat → dataset → Nat → decision_tree_options → Bool)
    (T : binary_decision_tree) (fuel : Nat) : ∀ (st : learn_state ρ),
    learn_loop eng D options fam g stop fuel st = .returned T →
    st.tree.vertices.length ≤ T.vertices.length := by
  induction fuel with
  | zero =>
    intro st h
    unfold learn_loop at h
    split at h
    · simp only [learn_result.returned.injEq] at h
      rw [h]
    · exact absurd h (by simp)
  | succ fuel ih =>
    intro st h
    unfold learn_loop at h
    split at h
    · simp only [learn_result.returned.injEq] at h
      rw [h]
    · cases hs : learn_step eng D options fam g stop st with
      | none => simp [hs] at h
      | some st2 =>
        simp only [hs] at h
        exact le_trans (learn_step_length eng D options fam g stop st st2 hs) (ih st2 h)

/-- The invariant holds when the loop of `learn_decision_tree` ends, and the index array
of the tree is a permutation of the initial one. -/
theorem learn_loop_inv {ρ S : Type} (eng : random_engine ρ) (D : dataset)
    (options : decision_tree_options) (fam : split_family) (g : gain_function S)
    (stop : List Nat → dataset → Nat → decision_tree_options → Bool)
    (T : binary_decision_tree) (hU : T.vertices.length ≤ undefined_index) (fuel : Nat) :
    ∀ (st : learn_state ρ), learn_inv st →
    learn_loop eng D options fam g stop fuel st = .returned T →
    bfs_numbered T.vertices ∧ ranges_nested T ∧ T.indices.Perm st.tree.indices := by
  induction fuel with
  | zero =>
    intro st hinv h
    unfold learn_loop at h
    split at h
    · simp only [learn_result.returned.injEq] at h
      rw [← h]
      exact ⟨hinv.numbered, hinv.nested, List.Perm.refl _⟩
    · exact absurd h (by simp)
  | succ fuel ih =>
    intro st hinv h
    unfold learn_loop at h
    split at h
    · simp only [learn_result.returned.injEq] at h
      rw [← h]
      exact ⟨hinv.numbered, hinv.nested, List.Perm.refl _⟩
    · rename_i hne
      cases hs : learn_step eng D options fam g stop st with
      | none => simp [hs] at h
      | some st2 =>
        simp only [hs] at h
        have hlen := learn_loop_length eng D options fam g stop T fuel st2 h
        have hinv2 := learn_step_inv eng D options fam g stop st st2 hinv hs (le_trans hlen hU)
        obtain ⟨a, b, c⟩ := ih st2 hinv2 h
        refine ⟨a, b, c.trans ?_⟩
        cases htodo : st.todo with
        | nil => exact absurd htodo hne
        | cons ui todo =>
          have hmem : ui ∈ st.todo := by rw [htodo]; exact List.mem_cons_self _ _
          exact (learn_step_cases eng D options fam g stop st st2 ui todo htodo hs
            (hinv.pending ui hmem).1 (hinv.nested.bounds ui (hinv.pending ui hmem).1).1).1

theorem nonleaf_count_zero_of_leaves (vs : List vertex) (k : Nat)
    (hl : ∀ i, i < vs.length → (vs.getD i { I_begin := 0, I_end := 0 }).is_leaf = true) :
    nonleaf_count vs k = 0 := by
  have h := nonleaf_count_eq_of_leaves vs 0 k (Nat.zero_le _) (fun i _ hi => hl i hi)
  rw [h]
  simp [nonleaf_count]

/-- The invariant holds for the initial state of `learn_decision_tree`. -/
theorem learn_inv_init {ρ : Type} (D : dataset) (I : List Nat) (seed : ρ) :
    learn_inv (learn_state.mk (binary_decision_tree.make D I) seed [0] 0 1) := by
  have hleaf : ∀ i, i < (binary_decision_tree.make D I).vertices.length →
      ((binary_decision_tree.make D I).vertices.getD i { I_begin := 0, I_end := 0 }).is_leaf
        = true := by
    intro i hi
    simp only [binary_decision_tree.make, List.length_singleton] at hi
    have : i = 0 := by omega
    subst this
    simp [binary_decision_tree.make, vertex.is_leaf]
  have hz := fun k => nonleaf_count_zero_of_leaves _ k hleaf
  refine ⟨⟨?_, ?_, ?_⟩, ⟨?_, ?_, ?_⟩, ?_, ?_, ?_⟩
  · intro i hi; exact Or.inl (hleaf i hi)
  · rw [hz]; simp [binary_decision_tree.make]
  · intro k hk
    simp only [binary_decision_tree.make, List.length_singleton] at hk
    omega
  · intro i hi
    simp only [binary_decision_tree.make, List.length_singleton] at hi
    have : i = 0 := by omega
    subst this
    simp [binary_decision_tree.make, binary_decision_tree.find_vertex]
  · simp [binary_decision_tree.make, binary_decision_tree.find_vertex]
  · intro i hi hl
    have := hleaf i hi
    simp only [binary_decision_tree.find_vertex] at hl
    rw [this] at hl
    exact absurd hl (by simp)
  · simp
  · intro t ht
    simp only [List.mem_singleton] at ht
    subst ht
    exact ⟨by simp [binary_decision_tree.make], hleaf 0 (by simp [binary_decision_tree.make])⟩
  · intro i hi hl
    have := hleaf i hi
    simp only [binary_decision_tree.find_vertex] at hl
    rw [this] at hl
    exact absurd hl (by simp)

theorem test_tree_learned :
    learn_decision_tree const_engine test_apply_split_dataset [0, 1, 2, 3] {}
      .threshold_plus_single gini_gain (node_is_finished mis_classification_small) () 10 = .returned test_tree := by
  decide!

theorem test_tree_size : test_tree.vertices.length ≤ undefined_index := by
  decide

theorem range_append (indices : List Nat) (b mid e : Nat) (h1 : b ≤ mid) (h2 : mid ≤ e) :
    (indices.take e).drop b = (indices.take mid).drop b ++ (indices.take e).drop mid := by
  have e1 : indices.take mid = (indices.take e).take mid := by
    rw [List.take_take, Nat.min_eq_left h2]
  rw [e1]
  generalize indices.take e = l
  have e2 : l.drop mid = (l.drop b).drop (mid - b) := by
    rw [List.drop_drop]; congr 1; omega
  rw [e2, List.drop_take, List.take_append_drop]

/-- C3: in every tree returned by `learn_decision_tree` (whose vertices are counted by 32 bit
indices), the range of the root holds the input indices `I` (as a multiset), and for every
non-leaf vertex `u` the ranges of its children are `[u.I.begin, mid)` and `[mid, u.I.end)`
for some `mid` between the two ends, so that the content of the range of `u` is the content
of the range of the left child followed by that of the right child. The ranges are offsets
in the index array of the returned tree, so this is the state at the end of induction. -/
theorem learn_decision_tree_ranges {ρ S : Type} (eng : random_engine ρ) (D : dataset)
    (I : List Nat) (options : decision_tree_options) (fam : split_family)
    (g : gain_function S)
    (stop : List Nat → dataset → Nat → decision_tree_options → Bool) (seed : ρ) (fuel : Nat)
    (tree : binary_decision_tree)
    (h : learn_decision_tree eng D I options fam g stop seed fuel = .returned tree)
    (hU : tree.vertices.length ≤ undefined_index) :
    ((tree.range (tree.find_vertex 0) : List Nat) : Multiset Nat) = (I : Multiset Nat) ∧
    ∀ i, i < tree.vertices.length → (tree.find_vertex i).is_leaf = false →
      ∃ mid, (tree.find_vertex i).I_begin ≤ mid ∧ mid ≤ (tree.find_vertex i).I_end ∧
        (tree.find_vertex i).I_end ≤ tree.indices.length ∧
        (tree.find_vertex (tree.find_vertex i).left).I_begin = (tree.find_vertex i).I_begin ∧
        (tree.find_vertex (tree.find_vertex i).left).I_end = mid ∧
        (tree.find_vertex (tree.find_vertex i).right).I_begin = mid ∧
        (tree.find_vertex (tree.find_vertex i).right).I_end = (tree.find_vertex i).I_end ∧
        tree.range (tree.find_vertex i) =
          tree.range (tree.find_vertex (tree.find_vertex i).left) ++
          tree.range (tree.find_vertex (tree.find_vertex i).right) := by
  obtain ⟨hnum, hnest, hperm⟩ := learn_loop_inv eng D options fam g stop tree hU fuel _
    (learn_inv_init D I seed) h
  constructor
  · apply Multiset.coe_eq_coe.2
    have hr := hnest.root
    unfold binary_decision_tree.range
    rw [hr.1, hr.2, List.take_length, List.drop_zero]
    exact hperm
  · intro i hi hl
    obtain ⟨c1, c2, c3⟩ := hnest.children i hi hl
    obtain ⟨k1, k2, k3, k4⟩ := bfs_numbered_children _ hnum i hi hl
    have e1 : (tree.find_vertex i).right < tree.vertices.length := k3
    have e2 : (tree.find_vertex i).left < tree.vertices.length := by
      have : (tree.find_vertex i).right = (tree.find_vertex i).left + 1 := k2
      omega
    have b1 := hnest.bounds _ e1
    have b2 := hnest.bounds _ e2
    have b0 := hnest.bounds i hi
    refine ⟨(tree.find_vertex (tree.find_vertex i).left).I_end, ?_, ?_, b0.2, c1, rfl, c2.symm,
      c3, ?_⟩
    · rw [← c1]; exact b2.1
    · rw [← c3, c2]; exact b1.1
    · unfold binary_decision_tree.range
      rw [c1, ← c2, c3]
      apply range_append
      · rw [← c1]; exact b2.1
      · rw [← c3, c2]; exact b1.1

theorem learn_decision_tree_ranges_witness :
    learn_decision_tree const_engine test_apply_split_dataset [0, 1, 2, 3] {}
      .threshold_plus_single gini_gain (node_is_finished mis_classification_small) () 10 = .returned test_tree ∧
    test_tree.vertices.length ≤ undefined_index ∧
    ((test_tree.range (test_tree.find_vertex 0) : List Nat) : Multiset Nat) =
      (([0, 1, 2, 3] : List Nat) : Multiset Nat) ∧
    ∀ i, i < test_tree.vertices.length → (test_tree.find_vertex i).is_leaf = false →
      ∃ mid, (test_tree.find_vertex i).I_begin ≤ mid ∧ mid ≤ (test_tree.find_vertex i).I_end ∧
        (test_tree.find_vertex i).I_end ≤ test_tree.indices.length ∧
        (test_tree.find_vertex (test_tree.find_vertex i).left).I_begin =
          (test_tree.find_vertex i).I_begin ∧
        (test_tree.find_vertex (test_tree.find_vertex i).left).I_end = mid ∧
        (test_tree.find_vertex (test_tree.find_vertex i).right).I_begin = mid ∧
        (test_tree.find_vertex (test_tree.find_vertex i).right).I_end =
          (test_tree.find_vertex i).I_end ∧
        test_tree.range (test_tree.find_vertex i) =
          test_tree.range (test_tree.find_vertex (test_tree.find_vertex i).left) ++
          test_tree.range (test_tree.find_vertex (test_tree.find_vertex i).right) :=
  ⟨test_tree_learned, test_tree_size,
    learn_decision_tree_ranges const_engine test_apply_split_dataset [0, 1, 2, 3] {}
      .threshold_plus_single gini_gain (node_is_finished mis_classification_small) () 10 test_tree test_tree_learned
      test_tree_size⟩

theorem is_leaf_true_iff (u : vertex) :
    u.is_leaf = true ↔ u.left = undefined_index ∧ u.right = undefined_index := by
  simp [vertex.is_leaf]

theorem visit_nodes_bfs_step_cons (tree : binary_decision_tree) (st : bfs_state) (ui : Nat)
    (todo : List Nat) (h : st.todo = ui :: todo) :
    (visit_nodes_bfs_step tree st).todo =
      (if (tree.find_vertex ui).right ≠ undefined_index then
        (if (tree.find_vertex ui).left ≠ undefined_index then todo ++ [(tree.find_vertex ui).left]
          else todo) ++ [(tree.find_vertex ui).right]
       else (if (tree.find_vertex ui).left ≠ undefined_index then
          todo ++ [(tree.find_vertex ui).left] else todo)) ∧
    (visit_nodes_bfs_step tree st).out = st.out ++ [(ui, st.depth)] ∧
    (visit_nodes_bfs_step tree st).depth = (if st.level - 1 = 0 then st.depth + 1 else st.depth) ∧
    (visit_nodes_bfs_step tree st).level = (if st.level - 1 = 0 then
      (visit_nodes_bfs_step tree st).todo.length else st.level - 1) := by
  unfold visit_nodes_bfs_step
  rw [h]
  simp only
  by_cases hl : st.level - 1 = 0
  · simp [hl]
  · simp [hl]

/-- On a tree numbered breadth first, the loop of `visit_nodes_bfs`, started with the queue
`k, ..., 2 * nonleaf_count k` ends and visits the vertices `k, ..., n - 1` in this order. -/
theorem visit_nodes_bfs_loop_numbered (tree : binary_decision_tree)
    (hnum : bfs_numbered tree.vertices) (hU : tree.vertices.length ≤ undefined_index)
    (m : Nat) : ∀ (k fuel : Nat) (st : bfs_state), k + m = tree.vertices.length → m ≤ fuel →
      st.todo = List.range' k (1 + 2 * nonleaf_count tree.vertices k - k) →
      ∃ st2, visit_nodes_bfs_loop tree fuel st = some st2 ∧
        st2.out.map Prod.fst = st.out.map Prod.fst ++ List.range' k m := by
  induction m with
  | zero =>
    intro k fuel st hk _ htodo
    have hkn : k = tree.vertices.length := by omega
    have hs := hnum.size
    have hnil : st.todo = [] := by
      rw [htodo, hkn, ← hs]; simp
    refine ⟨st, ?_, by simp⟩
    cases fuel <;> simp [visit_nodes_bfs_loop, hnil]
  | succ m ih =>
    intro k fuel st hk hfuel htodo
    have hkn : k < tree.vertices.length := by omega
    have hlow := hnum.lower k hkn
    obtain ⟨f, hf⟩ : ∃ f, fuel = f + 1 := ⟨fuel - 1, by omega⟩
    subst hf
    have hcons : st.todo = k :: List.range' (k + 1) (2 * nonleaf_count tree.vertices k - k) := by
      rw [htodo]
      have : 1 + 2 * nonleaf_count tree.vertices k - k =
          (2 * nonleaf_count tree.vertices k - k) + 1 := by omega
      rw [this, List.range'_succ]
    have hne : st.todo ≠ [] := by rw [hcons]; simp
    obtain ⟨s1, s2, -, -⟩ := visit_nodes_bfs_step_cons tree st k _ hcons
    have hstep : (visit_nodes_bfs_step tree st).todo =
        List.range' (k + 1) (1 + 2 * nonleaf_count tree.vertices (k + 1) - (k + 1)) := by
      rw [s1, nonleaf_count_succ _ k hkn]
      by_cases hleaf : (tree.vertices.getD k { I_begin := 0, I_end := 0 }).is_leaf = true
      · have hl2 := (is_leaf_true_iff _).1 hleaf
        have e1 : (tree.find_vertex k).left = undefined_index := hl2.1
        have e2 : (tree.find_vertex k).right = undefined_index := hl2.2
        simp only [e1, e2, ne_eq, not_true_eq_false, if_false, hleaf, if_true, add_zero]
        congr 1
        omega
      · have hleaf2 : (tree.vertices.getD k { I_begin := 0, I_end := 0 }).is_leaf = false := by
          simpa using hleaf
        obtain ⟨k1, k2, k3, k4⟩ := bfs_numbered_children _ hnum k hkn hleaf2
        have e1 : (tree.find_vertex k).left = 1 + 2 * nonleaf_count tree.vertices k := k1
        have e2 : (tree.find_vertex k).right = 1 + 2 * nonleaf_count tree.vertices k + 1 := by
          rw [← e1]; exact k2
        have e3 : (tree.find_vertex k).right < tree.vertices.length := k3
        have n1 : 1 + 2 * nonleaf_count tree.vertices k ≠ undefined_index := by omega
        have n2 : 1 + 2 * nonleaf_count tree.vertices k + 1 ≠ undefined_index := by omega
        simp only [e1, e2, ne_eq, n1, n2, not_false_eq_true, if_true, hleaf2,
          Bool.false_eq_true, if_false]
        have : 1 + 2 * (nonleaf_count tree.vertices k + 1) - (k + 1) =
            (2 * nonleaf_count tree.vertices k - k) + 1 + 1 := by omega
        rw [this, List.range'_1_concat, List.range'_1_concat]
        have e4 : k + 1 + (2 * nonleaf_count tree.vertices k - k) =
            1 + 2 * nonleaf_count tree.vertices k := by omega
        have e5 : k + 1 + (2 * nonleaf_count tree.vertices k - k + 1) =
            1 + 2 * nonleaf_count tree.vertices k + 1 := by omega
        rw [e4, e5]
    obtain ⟨st2, r1, r2⟩ := ih (k + 1) f (visit_nodes_bfs_step tree st) (by omega) (by omega) hstep
    refine ⟨st2, ?_, ?_⟩
    · simp only [visit_nodes_bfs_loop, hne, if_false]
      exact r1
    · rw [r2, s2, List.range'_succ]
      simp

/-- On a tree numbered breadth first, `visit_nodes_bfs` ends and visits the vertices in the
order of their indices. -/
theorem visit_nodes_bfs_numbered (tree : binary_decision_tree)
    (hnum : bfs_numbered tree.vertices) (hU : tree.vertices.length ≤ undefined_index)
    (fuel : Nat) (hfuel : tree.vertices.length ≤ fuel) :
    ∃ out, visit_nodes_bfs tree fuel = some out ∧
      out.map Prod.fst = List.range tree.vertices.length := by
  have h0 : nonleaf_count tree.vertices 0 = 0 := by simp [nonleaf_count]
  obtain ⟨st2, r1, r2⟩ := visit_nodes_bfs_loop_numbered tree hnum hU tree.vertices.length 0 fuel
    { todo := [0], depth := 0, level := 1, out := [] } (by simp) hfuel (by rw [h0]; rfl)
  refine ⟨st2.out, ?_, ?_⟩
  · simp [visit_nodes_bfs, r1]
  · rw [r2, List.range_eq_range']
    simp

/-- C6: for every tree returned by `learn_decision_tree` (whose vertices are counted by 32 bit
indices), `topological_ordering(tree)` ends and returns `[0, 1, ..., n - 1]`, and every
non-leaf vertex `u` has both child indices defined (different from `undefined_index`), inside
the vertex array, with `right = left + 1` and both strictly greater than the index of `u`. -/
theorem learn_decision_tree_topological {ρ S : Type} (eng : random_engine ρ) (D : dataset)
    (I : List Nat) (options : decision_tree_options) (fam : split_family)
    (g : gain_function S)
    (stop : List Nat → dataset → Nat → decision_tree_options → Bool) (seed : ρ) (fuel : Nat)
    (tree : binary_decision_tree)
    (h : learn_decision_tree eng D I options fam g stop seed fuel = .returned tree)
    (hU : tree.vertices.length ≤ undefined_index) :
    (∀ fuel2, tree.vertices.length ≤ fuel2 →
      topological_ordering tree fuel2 = some (List.range tree.vertices.length)) ∧
    ∀ i, i < tree.vertices.length → (tree.find_vertex i).is_leaf = false →
      (tree.find_vertex i).left ≠ undefined_index ∧
      (tree.find_vertex i).right ≠ undefined_index ∧
      (tree.find_vertex i).right = (tree.find_vertex i).left + 1 ∧
      i < (tree.find_vertex i).left ∧ i < (tree.find_vertex i).right ∧
      (tree.find_vertex i).right < tree.vertices.length := by
  obtain ⟨hnum, -, -⟩ := learn_loop_inv eng D options fam g stop tree hU fuel _
    (learn_inv_init D I seed) h
  constructor
  · intro fuel2 hfuel2
    obtain ⟨out, o1, o2⟩ := visit_nodes_bfs_numbered tree hnum hU fuel2 hfuel2
    simp only [topological_ordering, o1, Option.map_some', Option.some.injEq]
    have : out.map (fun c => c.1 % 2 ^ 32) = (out.map Prod.fst).map (fun i => i % 2 ^ 32) := by
      simp [List.map_map]
    rw [this, o2]
    apply List.ext_getElem
    · simp
    · intro i h1 h2
      simp only [List.length_range] at h2
      simp only [List.getElem_map, List.getElem_range]
      apply Nat.mod_eq_of_lt
      unfold undefined_index at hU
      omega
  · intro i hi hl
    obtain ⟨k1, k2, k3, k4⟩ := bfs_numbered_children _ hnum i hi hl
    have e1 : (tree.find_vertex i).left = 1 + 2 * nonleaf_count tree.vertices i := k1
    have e2 : (tree.find_vertex i).right = (tree.find_vertex i).left + 1 := k2
    have e3 : (tree.find_vertex i).right < tree.vertices.length := k3
    have e4 : i < (tree.find_vertex i).left := k4
    refine ⟨by omega, by omega, e2, e4, by omega, e3⟩

theorem learn_decision_tree_topological_witness :
    learn_decision_tree const_engine test_apply_split_dataset [0, 1, 2, 3] {}
      .threshold_plus_single gini_gain (node_is_finished mis_classification_small) () 10 = .returned test_tree ∧
    test_tree.vertices.length ≤ undefined_index ∧
    (∀ fuel2, test_tree.vertices.length ≤ fuel2 →
      topological_ordering test_tree fuel2 = some (List.range test_tree.vertices.length)) ∧
    ∀ i, i < test_tree.vertices.length → (test_tree.find_vertex i).is_leaf = false →
      (test_tree.find_vertex i).left ≠ undefined_index ∧
      (test_tree.find_vertex i).right ≠ undefined_index ∧
      (test_tree.find_vertex i).right = (test_tree.find_vertex i).left + 1 ∧
      i < (test_tree.find_vertex i).left ∧ i < (test_tree.find_vertex i).right ∧
      (test_tree.find_vertex i).right < test_tree.vertices.length :=
  ⟨test_tree_learned, test_tree_size,
    learn_decision_tree_topological const_engine test_apply_split_dataset [0, 1, 2, 3] {}
      .threshold_plus_single gini_gain (node_is_finished mis_classification_small) () 10 test_tree test_tree_learned
      test_tree_size⟩

theorem visit_nodes_bfs_loop_mono (tree : binary_decision_tree) (r : bfs_state) (f : Nat) :
    ∀ (st : bfs_state) (k : Nat), visit_nodes_bfs_loop tree f st = some r →
      visit_nodes_bfs_loop tree (f + k) st = some r := by
  induction f with
  | zero =>
    intro st k h
    unfold visit_nodes_bfs_loop at h
    split at h
    · rename_i hnil
      cases k <;> simp [visit_nodes_bfs_loop, hnil, h]
    · exact absurd h (by simp)
  | succ f ih =>
    intro st k h
    have e : f + 1 + k = (f + k) + 1 := by omega
    rw [e]
    unfold visit_nodes_bfs_loop at h ⊢
    split at h
    · rename_i hnil
      simp only [hnil, if_true] at h ⊢
      exact h
    · rename_i hne
      simp only [hne, if_false]
      exact ih _ k h

theorem visit_nodes_bfs_loop_succ (tree : binary_decision_tree) (f : Nat) (st : bfs_state)
    (hne : st.todo ≠ []) :
    visit_nodes_bfs_loop tree (f + 1) st =
      visit_nodes_bfs_loop tree f (visit_nodes_bfs_step tree st) := by
  simp [visit_nodes_bfs_loop, hne]

/-- The vertices that are not in the queue are not changed by the rest of the loop. -/
theorem learn_loop_stable {ρ S : Type} (eng : random_engine ρ) (D : dataset)
    (options : decision_tree_options) (fam : split_family) (g : gain_function S)
    (stop : List Nat → dataset → Nat → decision_tree_options → Bool)
    (T : binary_decision_tree) (hU : T.vertices.length ≤ undefined_index) (fuel : Nat) :
    ∀ (st : learn_state ρ), learn_inv st →
    learn_loop eng D options fam g stop fuel st = .returned T →
    ∀ i, i < st.tree.vertices.length → i ∉ st.todo →
      T.find_vertex i = st.tree.find_vertex i := by
  induction fuel with
  | zero =>
    intro st _ h i _ _
    unfold learn_loop at h
    split at h
    · simp only [learn_result.returned.injEq] at h
      rw [← h]
    · exact absurd h (by simp)
  | succ fuel ih =>
    intro st hinv h i hi hnot
    unfold learn_loop at h
    split at h
    · simp only [learn_result.returned.injEq] at h
      rw [← h]
    · rename_i hne
      cases hs : learn_step eng D options fam g stop st with
      | none => simp [hs] at h
      | some st2 =>
        simp only [hs] at h
        have hlen := learn_loop_length eng D options fam g stop T fuel st2 h
        have hinv2 := learn_step_inv eng D options fam g stop st st2 hinv hs (le_trans hlen hU)
        cases htodo : st.todo with
        | nil => exact absurd htodo hne
        | cons ui todo =>
          have hmem : ui ∈ st.todo := by rw [htodo]; exact List.mem_cons_self _ _
          have hui := (hinv.pending ui hmem).1
          obtain ⟨-, -, -, c4⟩ := learn_step_cases eng D options fam g stop st st2 ui todo htodo hs
            hui (hinv.nested.bounds ui hui).1
          rw [htodo] at hnot
          simp only [List.mem_cons, not_or] at hnot
          rcases c4 with ⟨hvs, htd⟩ | ⟨-, mid, sp, -, -, -, hvs, htd⟩
          · have h1 := ih st2 hinv2 h i (by rw [hvs]; exact hi) (by rw [htd]; exact hnot.2)
            rw [h1]
            simp only [binary_decision_tree.find_vertex, hvs]
          · have hlen2 : st2.tree.vertices.length = st.tree.vertices.length + 2 := by
              rw [hvs]; simp
            have hn2 : st.tree.vertices.length + 2 ≤ undefined_index := by omega
            obtain ⟨hmod1, hmod2⟩ := mod_uint32_of_le _ hn2
            rw [hmod1, hmod2] at htd
            have hnot2 : i ∉ st2.todo := by
              rw [htd]
              split
              · simp only [List.mem_append, List.mem_cons, List.mem_singleton,
                  List.not_mem_nil, or_false, not_or]
                exact ⟨hnot.2, by omega, by omega⟩
              · exact hnot.2
            have h1 := ih st2 hinv2 h i (by omega) hnot2
            rw [h1]
            simp only [binary_decision_tree.find_vertex, hvs]
            exact getD_split_old _ _ _ _ _ _ _ hi hnot.1

theorem node_is_finished_false_depth (small : List Nat → Bool) (I : List Nat) (D : dataset)
    (depth : Nat) (options : decision_tree_options)
    (h : node_is_finished small I D depth options = false) :
    depth < options.max_depth := by
  unfold node_is_finished at h
  simp only [Bool.or_eq_false_iff, decide_eq_false_iff_not, not_le, ge_iff_le] at h
  exact h.2

/-- With the stop criterion `node_is_finished`, the loop of `visit_nodes_bfs` on the tree
returned runs through the same queues and depths as the loop of `learn_decision_tree`. -/
theorem learn_loop_lockstep {ρ S : Type} (eng : random_engine ρ) (D : dataset)
    (options : decision_tree_options) (fam : split_family) (g : gain_function S)
    (small : List Nat → Bool)
    (T : binary_decision_tree) (hU : T.vertices.length ≤ undefined_index) (fuel : Nat) :
    ∀ (st : learn_state ρ) (out : List (Nat × Nat)), learn_inv st → depth_inv options st →
    learn_loop eng D options fam g (node_is_finished small) fuel st = .returned T →
    ∃ bst, visit_nodes_bfs_loop T fuel
        { todo := st.todo, depth := st.depth, level := st.level_count, out := out } = some bst ∧
      ∀ p ∈ bst.out, p ∈ out ∨ p.2 ≤ options.max_depth := by
  induction fuel with
  | zero =>
    intro st out _ _ h
    unfold learn_loop at h
    split at h
    · rename_i hnil
      exact ⟨{ todo := st.todo, depth := st.depth, level := st.level_count, out := out },
        by simp [visit_nodes_bfs_loop, hnil], fun p hp => Or.inl hp⟩
    · exact absurd h (by simp)
  | succ fuel ih =>
    intro st out hinv hd h
    have h0 := h
    unfold learn_loop at h
    split at h
    · rename_i hnil
      exact ⟨{ todo := st.todo, depth := st.depth, level := st.level_count, out := out },
        by simp [visit_nodes_bfs_loop, hnil], fun p hp => Or.inl hp⟩
    · rename_i hne
      cases hs : learn_step eng D options fam g (node_is_finished small) st with
      | none => simp [hs] at h
      | some st2 =>
        simp only [hs] at h
        have hlen := learn_loop_length eng D options fam g (node_is_finished small) T fuel st2 h
        have hinv2 := learn_step_inv eng D options fam g (node_is_finished small) st st2 hinv hs
          (le_trans hlen hU)
        cases htodo : st.todo with
        | nil => exact absurd htodo hne
        | cons ui todo =>
          have hmem : ui ∈ st.todo := by rw [htodo]; exact List.mem_cons_self _ _
          have hui := (hinv.pending ui hmem).1
          have huleaf := (hinv.pending ui hmem).2
          obtain ⟨-, cd, cl, c4⟩ := learn_step_cases eng D options fam g (node_is_finished small) st st2
            ui todo htodo hs hui (hinv.nested.bounds ui hui).1
          have hsorted := hinv.sorted
          rw [htodo] at hsorted
          have hsorted2 := List.pairwise_cons.1 hsorted
          obtain ⟨d1, d2, d3, d4⟩ := hd hne
          rw [htodo] at d2 d4
          simp only [List.length_cons] at d2 d4
          -- the vertex `ui` of the final tree
          have hui2 : ui < st2.tree.vertices.length :=
            lt_of_lt_of_le hui (learn_step_length eng D options fam g (node_is_finished small) st st2 hs)
          have hstable : ui ∉ st2.todo → T.find_vertex ui = st2.tree.find_vertex ui :=
            learn_loop_stable eng D options fam g (node_is_finished small) T hU fuel st2 hinv2 h ui hui2
          obtain ⟨s1, s2, s3, s4⟩ := visit_nodes_bfs_step_cons T
            { todo := st.todo, depth := st.depth, level := st.level_count, out := out } ui todo
            htodo
          simp only at s1 s2 s3 s4
          have key : (visit_nodes_bfs_step T
              { todo := st.todo, depth := st.depth, level := st.level_count, out := out }).todo
              = st2.todo ∧ depth_inv options st2 := by
            rcases c4 with ⟨hvs, htd⟩ | ⟨hstop, mid, sp, -, -, -, hvs, htd⟩
            · have hnot : ui ∉ st2.todo := by
                rw [htd]; intro hc
                exact absurd (hsorted2.1 ui hc) (lt_irrefl _)
              have hfv : T.find_vertex ui = st.tree.find_vertex ui := by
                rw [hstable hnot]
                simp only [binary_decision_tree.find_vertex, hvs]
              have hl2 := (is_leaf_true_iff _).1 huleaf
              rw [← hfv] at hl2
              refine ⟨by rw [s1, hl2.1, hl2.2, htd]; simp, ?_⟩
              intro hne2
              rw [htd] at hne2
              have hpos : 0 < todo.length := List.length_pos.2 hne2
              rw [cd, cl, htd]
              by_cases hl : st.level_count - 1 = 0
              · simp only [hl, if_true]
                have : st.level_count < todo.length + 1 := by omega
                have := d4 this
                refine ⟨by omega, le_refl _, by omega, fun hc => absurd hc (lt_irrefl _)⟩
              · simp only [hl, if_false]
                refine ⟨by omega, by omega, d3, fun hc => d4 (by omega)⟩
            · have hdepth := node_is_finished_false_depth _ _ _ _ _ hstop
              have hlen2 : st2.tree.vertices.length = st.tree.vertices.length + 2 := by
                rw [hvs]; simp
              have hn2 : st.tree.vertices.length + 2 ≤ undefined_index := by omega
              obtain ⟨hmod1, hmod2⟩ := mod_uint32_of_le _ hn2
              rw [hmod1, hmod2] at htd hvs
              simp only [hdepth, if_true] at htd
              have hnot : ui ∉ st2.todo := by
                rw [htd]
                simp only [List.mem_append, List.mem_cons, List.mem_singleton,
                  List.not_mem_nil, or_false, not_or]
                refine ⟨fun hc => absurd (hsorted2.1 ui hc) (lt_irrefl _), by omega, by omega⟩
              have hfl : (T.find_vertex ui).left = st.tree.vertices.length := by
                rw [hstable hnot]
                simp only [binary_decision_tree.find_vertex, hvs]
                rw [getD_split_self _ _ _ _ _ _ hui]
              have hfr : (T.find_vertex ui).right = st.tree.vertices.length + 1 := by
                rw [hstable hnot]
                simp only [binary_decision_tree.find_vertex, hvs]
                rw [getD_split_self _ _ _ _ _ _ hui]
              have n1 : st.tree.vertices.length ≠ undefined_index := by omega
              have n2 : st.tree.vertices.length + 1 ≠ undefined_index := by omega
              refine ⟨by rw [s1, hfl, hfr, htd]; simp [n1, n2], ?_⟩
              intro _
              rw [cd, cl, htd]
              simp only [List.length_append, List.length_cons, List.length_nil]
              by_cases hl : st.level_count - 1 = 0
              · simp only [hl, if_true]
                refine ⟨by omega, le_refl _, by omega, fun hc => absurd hc (lt_irrefl _)⟩
              · simp only [hl, if_false]
                refine ⟨by omega, by omega, d3, fun _ => hdepth⟩
          obtain ⟨k1, k2⟩ := key
          have hst : visit_nodes_bfs_step T
              { todo := st.todo, depth := st.depth, level := st.level_count, out := out } =
              { todo := st2.todo, depth := st2.depth, level := st2.level_count,
                out := out ++ [(ui, st.depth)] } := by
            have e1 := k1
            have e2 := s2
            have e3 : (visit_nodes_bfs_step T
              { todo := st.todo, depth := st.depth, level := st.level_count, out := out }).depth
              = st2.depth := by rw [s3, cd]
            have e4 : (visit_nodes_bfs_step T
              { todo := st.todo, depth := st.depth, level := st.level_count, out := out }).level
              = st2.level_count := by rw [s4, cl, k1]
            generalize visit_nodes_bfs_step T
              { todo := st.todo, depth := st.depth, level := st.level_count, out := out } = b
              at e1 e2 e3 e4
            cases b
            simp only at e1 e2 e3 e4
            rw [e1, e2, e3, e4]
          obtain ⟨bst, b1, b2⟩ := ih st2 (out ++ [(ui, st.depth)]) hinv2 k2 h
          refine ⟨bst, ?_, ?_⟩
          · rw [visit_nodes_bfs_loop_succ T fuel _ (by simp), ← htodo, hst]; exact b1
          · intro p hp
            rcases b2 p hp with hq | hq
            · rcases List.mem_append.1 hq with hq2 | hq2
              · exact Or.inl hq2
              · simp only [List.mem_singleton] at hq2
                right; rw [hq2]; exact d3
            · exact Or.inr hq


theorem learn_loop_nil {ρ S : Type} (eng : random_engine ρ) (D : dataset)
    (options : decision_tree_options) (fam : split_family) (g : gain_function S)
    (stop : List Nat → dataset → Nat → decision_tree_options → Bool) (fuel : Nat)
    (st : learn_state ρ) (h : st.todo = []) :
    learn_loop eng D options fam g stop fuel st = .returned st.tree := by
  cases fuel <;> simp [learn_loop, h]

theorem learn_decision_tree_depth_zero {ρ S : Type} (eng : random_engine ρ) (D : dataset)
    (I : List Nat) (options : decision_tree_options) (fam : split_family)
    (g : gain_function S) (small : List Nat → Bool) (seed : ρ) (fuel : Nat) (tree : binary_decision_tree)
    (h : learn_decision_tree eng D I options fam g (node_is_finished small) seed fuel = .returned tree)
    (h0 : options.max_depth = 0) : tree = binary_decision_tree.make D I := by
  unfold learn_decision_tree at h
  cases fuel with
  | zero => simp [learn_loop] at h
  | succ f =>
    have hstop : ∀ J, node_is_finished small J D 0 options = true := by
      intro J
      simp [node_is_finished, h0]
    simp only [learn_loop, List.cons_ne_nil, if_false, learn_step, hstop, Bool.not_true,
      Bool.false_eq_true, Nat.sub_self, if_true] at h
    rw [learn_loop_nil _ _ _ _ _ _ _ _ rfl] at h
    simp only [learn_result.returned.injEq] at h
    exact h.symm

/-- C5: in every tree returned by `learn_decision_tree` with the stop criterion
`node_is_finished` (whatever the outcome of its test on the impurity, and with vertices
counted by 32 bit indices), `visit_nodes_bfs` ends, calls
its function once for every vertex, in the order of the indices, and every depth it reports
is at most `options.max_depth`; with `max_depth = 0` the tree has the root as only vertex. -/
theorem learn_decision_tree_max_depth {ρ S : Type} (eng : random_engine ρ) (D : dataset)
    (I : List Nat) (options : decision_tree_options) (fam : split_family)
    (g : gain_function S) (small : List Nat → Bool) (seed : ρ) (fuel : Nat) (tree : binary_decision_tree)
    (h : learn_decision_tree eng D I options fam g (node_is_finished small) seed fuel = .returned tree)
    (hU : tree.vertices.length ≤ undefined_index) :
    (∀ fuel2, tree.vertices.length ≤ fuel2 →
      ∃ out, visit_nodes_bfs tree fuel2 = some out ∧
        out.map Prod.fst = List.range tree.vertices.length ∧
        ∀ p ∈ out, p.2 ≤ options.max_depth) ∧
    (options.max_depth = 0 → tree.vertices.length = 1) := by
  constructor
  · intro fuel2 hfuel2
    obtain ⟨hnum, -, -⟩ := learn_loop_inv eng D options fam g (node_is_finished small) tree hU fuel _
      (learn_inv_init D I seed) h
    have h0 : nonleaf_count tree.vertices 0 = 0 := by simp [nonleaf_count]
    obtain ⟨st2, r1, r2⟩ := visit_nodes_bfs_loop_numbered tree hnum hU tree.vertices.length 0
      fuel2 { todo := [0], depth := 0, level := 1, out := [] } (by simp) hfuel2
      (by rw [h0]; rfl)
    have hd : depth_inv options (learn_state.mk (binary_decision_tree.make D I) seed [0] 0 1) := by
      intro _
      simp
    obtain ⟨bst, b1, b2⟩ := learn_loop_lockstep eng D options fam g small tree hU fuel _ []
      (learn_inv_init D I seed) hd h
    have m1 := visit_nodes_bfs_loop_mono tree st2 fuel2 _ fuel r1
    have m2 := visit_nodes_bfs_loop_mono tree bst fuel _ fuel2 b1
    rw [Nat.add_comm] at m2
    simp only at m2
    rw [m1] at m2
    simp only [Option.some.injEq] at m2
    refine ⟨st2.out, by simp [visit_nodes_bfs, r1], ?_, ?_⟩
    · rw [r2, List.range_eq_range']; simp
    · intro p hp
      rw [m2] at hp
      rcases b2 p hp with hq | hq
      · exact absurd hq (List.not_mem_nil _)
      · exact hq
  · intro h0
    rw [learn_decision_tree_depth_zero eng D I options fam g small seed fuel tree h h0]
    rfl

theorem test_tree_depth_one_learned :
    learn_decision_tree const_engine test_apply_split_dataset [0, 1, 2, 3] { max_depth := 1 }
      .threshold_plus_single gini_gain (node_is_finished mis_classification_small) () 10 =
      .returned test_tree_depth_one := by
  decide!

theorem test_tree_depth_one_size : test_tree_depth_one.vertices.length ≤ undefined_index := by
  decide

theorem learn_decision_tree_max_depth_witness :
    learn_decision_tree const_engine test_apply_split_dataset [0, 1, 2, 3] { max_depth := 1 }
      .threshold_plus_single gini_gain (node_is_finished mis_classification_small) () 10 =
      .returned test_tree_depth_one ∧
    test_tree_depth_one.vertices.length ≤ undefined_index ∧
    (∀ fuel2, test_tree_depth_one.vertices.length ≤ fuel2 →
      ∃ out, visit_nodes_bfs test_tree_depth_one fuel2 = some out ∧
        out.map Prod.fst = List.range test_tree_depth_one.vertices.length ∧
        ∀ p ∈ out, p.2 ≤ ({ max_depth := 1 } : decision_tree_options).max_depth) ∧
    (({ max_depth := 1 } : decision_tree_options).max_depth = 0 →
      test_tree_depth_one.vertices.length = 1) :=
  ⟨test_tree_depth_one_learned, test_tree_depth_one_size,
    learn_decision_tree_max_depth const_engine test_apply_split_dataset [0, 1, 2, 3]
      { max_depth := 1 } .threshold_plus_single gini_gain mis_classification_small () 10
      test_tree_depth_one
      test_tree_depth_one_learned test_tree_depth_one_size⟩

theorem incr_length (c : List Nat) (k : Nat) : (incr c k).length = c.length := by
  simp [incr]

theorem decr_length (c : List Nat) (k : Nat) : (decr c k).length = c.length := by
  simp [decr]

theorem incr_getD (c : List Nat) (k j : Nat) :
    (incr c k).getD j 0 = c.getD j 0 + (if j = k ∧ k < c.length then 1 else 0) := by
  unfold incr
  by_cases hk : k < c.length
  · by_cases hj : j = k
    · subst hj
      simp [hk, List.getD_eq_getElem?_getD, List.getElem?_set_self]
    · have hj2 : k ≠ j := fun h => hj h.symm
      simp [hj, List.getD_eq_getElem?_getD, List.getElem?_set_ne hj2]
  · have hk2 : c.length ≤ k := by omega
    rw [List.set_eq_of_length_le hk2]
    simp [hk]

theorem decr_getD (c : List Nat) (k j : Nat) :
    (decr c k).getD j 0 = c.getD j 0 - (if j = k ∧ k < c.length then 1 else 0) := by
  unfold decr
  by_cases hk : k < c.length
  · by_cases hj : j = k
    · subst hj
      simp [hk, List.getD_eq_getElem?_getD, List.getElem?_set_self]
    · have hj2 : k ≠ j := fun h => hj h.symm
      simp [hj, List.getD_eq_getElem?_getD, List.getElem?_set_ne hj2]
  · have hk2 : c.length ≤ k := by omega
    rw [List.set_eq_of_length_le hk2]
    simp [hk]

theorem foldl_incr_length (f : Nat → Nat) (l : List Nat) : ∀ (c : List Nat),
    (l.foldl (fun c i => incr c (f i)) c).length = c.length := by
  induction l with
  | nil => intro c; rfl
  | cons x l ih => intro c; simp only [List.foldl_cons]; rw [ih, incr_length]

theorem foldl_decr_length (f : Nat → Nat) (l : List Nat) : ∀ (c : List Nat),
    (l.foldl (fun c i => decr c (f i)) c).length = c.length := by
  induction l with
  | nil => intro c; rfl
  | cons x l ih => intro c; simp only [List.foldl_cons]; rw [ih, decr_length]

theorem foldl_incr_getD (f : Nat → Nat) (l : List Nat) : ∀ (c : List Nat) (j : Nat),
    j < c.length →
    (l.foldl (fun c i => incr c (f i)) c).getD j 0 =
      c.getD j 0 + l.countP (fun i => f i = j) := by
  induction l with
  | nil => intro c j _; simp
  | cons x l ih =>
    intro c j hj
    simp only [List.foldl_cons]
    rw [ih _ j (by rw [incr_length]; exact hj), incr_getD, List.countP_cons]
    simp only [decide_eq_true_eq]
    split_ifs <;> omega

theorem foldl_decr_getD (f : Nat → Nat) (l : List Nat) : ∀ (c : List Nat) (j : Nat),
    j < c.length →
    (l.foldl (fun c i => decr c (f i)) c).getD j 0 =
      c.getD j 0 - l.countP (fun i => f i = j) := by
  induction l with
  | nil => intro c j _; simp
  | cons x l ih =>
    intro c j hj
    simp only [List.foldl_cons]
    rw [ih _ j (by rw [decr_length]; exact hj), decr_getD, List.countP_cons]
    simp only [decide_eq_true_eq]
    split_ifs <;> omega

/-- Two count vectors of the same size with the same entries are equal. -/
theorem counts_ext (c d : List Nat) (hl : c.length = d.length)
    (h : ∀ j, j < c.length → c.getD j 0 = d.getD j 0) : c = d := by
  apply List.ext_getElem hl
  intro j h1 h2
  have := h j h1
  rw [List.getD_eq_getElem _ _ h1, List.getD_eq_getElem _ _ h2] at this
  exact this

theorem count_classes_length (D : dataset) (K : Nat) (l : List Nat) :
    (count_classes D K l).length = K := by
  simp [count_classes]

theorem count_classes_getD (D : dataset) (K : Nat) (l : List Nat) (j : Nat) (hj : j < K) :
    (count_classes D K l).getD j 0 = l.countP (fun i => D.class_of i = j) := by
  unfold count_classes
  rw [List.getD_eq_getElem _ _ (by simpa using hj)]
  simp

/-- The method `compute_class_counts` computes the class counts of the specification. -/
theorem compute_class_counts_eq (D : dataset) (I : List Nat) (K : Nat) :
    compute_class_counts D I K = count_classes D K I := by
  apply counts_ext
  · unfold compute_class_counts
    rw [foldl_incr_length, count_classes_length]; simp
  · intro j hj
    unfold compute_class_counts at hj ⊢
    rw [foldl_incr_length] at hj
    simp only [List.length_replicate] at hj
    rw [foldl_incr_getD _ _ _ _ (by simpa using hj), count_classes_getD _ _ _ _ hj]
    simp [List.getD_eq_getElem?_getD, List.getElem?_replicate, hj]

theorem count_classes_perm (D : dataset) (K : Nat) (l1 l2 : List Nat) (h : l1.Perm l2) :
    count_classes D K l1 = count_classes D K l2 := by
  unfold count_classes
  apply List.map_congr_left
  intro k _
  exact h.countP_eq _

/-- The sum of the class counts is the number of samples when all classes are below `K`. -/
theorem count_classes_sum (D : dataset) (K : Nat) (l : List Nat)
    (h : ∀ i ∈ l, D.class_of i < K) : (count_classes D K l).sum = l.length := by
  induction l with
  | nil => simp [count_classes]
  | cons x l ih =>
    have hx := h x (List.mem_cons_self _ _)
    have ih2 := ih (fun i hi => h i (List.mem_cons_of_mem _ hi))
    have key : ∀ K', K' ≤ K → ((List.range K').map
        (fun k => (x :: l).countP (fun i => D.class_of i = k))).sum =
        ((List.range K').map (fun k => l.countP (fun i => D.class_of i = k))).sum +
          (if D.class_of x < K' then 1 else 0) := by
      intro K'
      induction K' with
      | zero => intro _; simp
      | succ K' ihK =>
        intro hK
        rw [List.range_succ, List.map_append, List.map_append, List.sum_append, List.sum_append,
          ihK (by omega)]
        simp only [List.map_cons, List.map_nil, List.sum_cons, List.sum_nil, add_zero,
          List.countP_cons, decide_eq_true_eq]
        split_ifs <;> omega
    have := key K (le_refl _)
    unfold count_classes at ih2 ⊢
    rw [this, ih2]
    simp [hx]

theorem Value.lt_eq_key (a b : Value) (ha : is_missing a = false) (hb : is_missing b = false) :
    a.lt b = decide (a.key < b.key) := by
  cases a <;> cases b <;> simp_all [is_missing, Value.lt, Value.key]

theorem Value.eq_eq_key (a b : Value) (ha : is_missing a = false) (hb : is_missing b = false) :
    a.eq b = decide (a.key = b.key) := by
  cases a <;> cases b <;> simp_all [is_missing, Value.eq, Value.key]

theorem orderedInsert_pairwise_key {α : Type} (lt : α → α → Bool) (key : α → ℚ) (a : α) :
    ∀ (l : List α), (∀ b ∈ l, lt b a = decide (key b < key a)) →
    l.Pairwise (fun x y => key x ≤ key y) →
    (List.orderedInsert (fun x y => lt y x = false) a l).Pairwise (fun x y => key x ≤ key y) := by
  intro l
  induction l with
  | nil => intro _ _; simp
  | cons b l ih =>
    intro h hp
    have hb := h b (List.mem_cons_self _ _)
    have hp2 := List.pairwise_cons.1 hp
    simp only [List.orderedInsert]
    by_cases hr : lt b a = false
    · simp only [hr, if_true]
      have hab : key a ≤ key b := by
        rw [hb] at hr
        simpa using hr
      refine List.pairwise_cons.2 ⟨?_, hp⟩
      intro x hx
      rcases List.mem_cons.1 hx with hx | hx
      · rw [hx]; exact hab
      · exact le_trans hab (hp2.1 x hx)
    · simp only [hr, if_false]
      have hba : key b < key a := by
        rw [hb] at hr
        simpa using hr
      refine List.pairwise_cons.2 ⟨?_, ih (fun x hx => h x (List.mem_cons_of_mem _ hx)) hp2.2⟩
      intro x hx
      rcases (List.mem_orderedInsert (fun x y => lt y x = false)).1 hx with hx | hx
      · rw [hx]; exact le_of_lt hba
      · exact hp2.1 x hx

theorem std_sort_perm {α : Type} (lt : α → α → Bool) (l : List α) : (std_sort lt l).Perm l :=
  List.perm_insertionSort _ _

/-- The model of `std::sort` sorts, when the comparison is the order of a key. -/
theorem std_sort_sorted {α : Type} (lt : α → α → Bool) (key : α → ℚ) :
    ∀ (l : List α), (∀ a ∈ l, ∀ b ∈ l, lt a b = decide (key a < key b)) →
    (std_sort lt l).Pairwise (fun x y => key x ≤ key y) := by
  intro l
  induction l with
  | nil => intro _; simp [std_sort]
  | cons a l ih =>
    intro h
    unfold std_sort
    simp only [List.insertionSort]
    apply orderedInsert_pairwise_key
    · intro b hb
      have hb2 : b ∈ l := (List.perm_insertionSort _ l).subset hb
      exact h b (List.mem_cons_of_mem _ hb2) a (List.mem_cons_self _ _)
    · exact ih (fun x hx y hy => h x (List.mem_cons_of_mem _ hx) y (List.mem_cons_of_mem _ hy))

/-- Without missing values of `v` in `I`, the first lines of the enumerators leave the range
sorted on the value of `v`, with `Iend = I.end()`. -/
theorem sort_range_sorted (D : dataset) (I : List Nat) (v : Nat)
    (options : decision_tree_options) (hm : ∀ i ∈ I, is_missing (D.at i v) = false) :
    (sort_range D I v options).2 = I.length ∧
    (sort_range D I v options).1.Pairwise (fun i j => (D.at i v).key ≤ (D.at j v).key) := by
  have hlt : ∀ (J : List Nat), J.Perm I → ∀ a ∈ J, ∀ b ∈ J,
      (D.at a v).lt (D.at b v) = decide ((D.at a v).key < (D.at b v).key) := by
    intro J hJ a ha b hb
    exact Value.lt_eq_key _ _ (hm a (hJ.subset ha)) (hm b (hJ.subset hb))
  unfold sort_range
  by_cases h : options.support_missing_values = true
  · simp only [h, if_true]
    have hp := std_partition_perm (fun (_ : Unit) a => (!is_missing (D.at a v), ())) I ()
    have hr := std_partition_right (fun (_ : Unit) a => (!is_missing (D.at a v), ())) I ()
    have hnil : (std_partition_pure (fun i => !is_missing (D.at i v)) I).2 = [] := by
      apply List.eq_nil_iff_forall_not_mem.2
      intro x hx
      obtain ⟨s0, hs0⟩ := hr x hx
      have hx2 : x ∈ I := hp.subset (List.mem_append_right _ hx)
      simp only [Bool.not_eq_false'] at hs0
      rw [hm x hx2] at hs0
      exact absurd hs0 (by simp)
    have hp1 : (std_partition_pure (fun i => !is_missing (D.at i v)) I).1.Perm I := by
      have := hp
      unfold std_partition_pure
      unfold std_partition_pure at hnil
      rw [hnil, List.append_nil] at this
      exact this
    rw [hnil, List.append_nil]
    exact ⟨hp1.length_eq, std_sort_sorted _ (fun i => (D.at i v).key) _ (hlt _ hp1)⟩
  · simp only [h, Bool.false_eq_true, if_false, List.append_nil]
    exact ⟨trivial, std_sort_sorted _ (fun i => (D.at i v).key) _ (hlt _ (List.Perm.refl _))⟩

theorem compute_class_counts_concat (D : dataset) (l : List Nat) (x K : Nat) :
    compute_class_counts D (l ++ [x]) K = incr (compute_class_counts D l K) (D.class_of x) := by
  simp [compute_class_counts, List.foldl_append]

theorem compute_class_counts_take_succ (D : dataset) (s : List Nat) (i K : Nat)
    (hi : i < s.length) :
    incr (compute_class_counts D (s.take i) K) (D.class_of (s.getD i 0)) =
      compute_class_counts D (s.take (i + 1)) K := by
  rw [List.take_succ, List.getElem?_eq_getElem hi, Option.toList_some,
    compute_class_counts_concat, List.getD_eq_getElem _ _ hi]

theorem compute_class_counts_drop_succ (D : dataset) (s : List Nat) (i K : Nat)
    (hi : i < s.length) :
    decr (compute_class_counts D (s.drop i) K) (D.class_of (s.getD i 0)) =
      compute_class_counts D (s.drop (i + 1)) K := by
  rw [compute_class_counts_eq, compute_class_counts_eq]
  apply counts_ext
  · rw [decr_length, count_classes_length, count_classes_length]
  · intro j hj
    rw [decr_length, count_classes_length] at hj
    rw [decr_getD, count_classes_getD _ _ _ _ hj, count_classes_getD _ _ _ _ hj,
      count_classes_length]
    have hd : s.drop i = s.getD i 0 :: s.drop (i + 1) := by
      rw [List.getD_eq_getElem _ _ hi]
      exact List.drop_eq_getElem_cons hi
    rw [hd, List.countP_cons]
    simp only [decide_eq_true_eq]
    split_ifs <;> omega

/-- The loop of `enumerate_threshold_splits` without the optimization: from the offset `i`
on, one report for every offset `j` whose value differs from the value at `j - 1`, with the
class counts of the samples before `j` and of the samples from `j` on. -/
theorem threshold_sweep_spec (D : dataset) (v : Nat) (options : decision_tree_options)
    (hopt : options.optimization = false) (s : List Nat) (K first last : Nat) :
    ∀ (n i : Nat) (D1 D2 : List Nat) (same_y : Bool), first ≤ i → i + n ≤ s.length →
    (if i ≠ first then incr D1 (D.class_of (s.getD (i - 1) 0)) else D1) =
      compute_class_counts D (s.take i) K →
    (if i ≠ first then decr D2 (D.class_of (s.getD (i - 1) 0)) else D2) =
      compute_class_counts D (s.drop i) K →
    threshold_sweep D v options s first last n i D1 D2 same_y =
      ((List.range' i n).filter
        (fun j => !(D.at (s.getD (j - 1) 0) v).eq (D.at (s.getD j 0) v))).map
      (fun j => { split := .threshold ⟨v, D.at (s.getD j 0) v⟩,
                  D1_counts := compute_class_counts D (s.take j) K,
                  D2_counts := compute_class_counts D (s.drop j) K }) := by
  intro n
  induction n with
  | zero => intro i D1 D2 same_y _ _ _ _; simp [threshold_sweep]
  | succ n ih =>
    intro i D1 D2 same_y hi hlen h1 h2
    have hnext1 : (if i + 1 ≠ first then
        incr (compute_class_counts D (s.take i) K) (D.class_of (s.getD (i + 1 - 1) 0))
        else compute_class_counts D (s.take i) K) =
        compute_class_counts D (s.take (i + 1)) K := by
      rw [if_pos (by omega), Nat.add_sub_cancel]
      exact compute_class_counts_take_succ D s i K (by omega)
    have hnext2 : (if i + 1 ≠ first then
        decr (compute_class_counts D (s.drop i) K) (D.class_of (s.getD (i + 1 - 1) 0))
        else compute_class_counts D (s.drop i) K) =
        compute_class_counts D (s.drop (i + 1)) K := by
      rw [if_pos (by omega), Nat.add_sub_cancel]
      exact compute_class_counts_drop_succ D s i K (by omega)
    simp only [threshold_sweep, hopt, Bool.false_eq_true, if_false]
    rw [h1, h2, List.range'_succ, List.filter_cons]
    by_cases heq : (D.at (s.getD (i - 1) 0) v).eq (D.at (s.getD i 0) v) = true
    · simp only [heq, if_true, Bool.not_true, Bool.false_eq_true, if_false]
      exact ih (i + 1) _ _ _ (by omega) (by omega) hnext1 hnext2
    · have heq2 : (D.at (s.getD (i - 1) 0) v).eq (D.at (s.getD i 0) v) = false :=
        Bool.eq_false_iff.2 heq
      simp only [heq2, Bool.not_false, if_true, List.map_cons, Bool.false_eq_true, if_false]
      congr 1
      exact ih (i + 1) _ _ _ (by omega) (by omega) hnext1 hnext2

theorem sorted_key_le (key : Nat → ℚ) (s : List Nat)
    (hs : s.Pairwise (fun x y => key x ≤ key y)) (a b : Nat) (hab : a ≤ b)
    (hb : b < s.length) : key (s.getD a 0) ≤ key (s.getD b 0) := by
  rw [List.getD_eq_getElem _ _ (by omega), List.getD_eq_getElem _ _ hb]
  by_cases h : a = b
  · subst h; exact le_refl _
  · exact (List.pairwise_iff_getElem.1 hs) a b (by omega) hb (by omega)

/-- In a range sorted on a key, the elements with a key below that of position `j` are the
elements before `j`, when the key at `j - 1` is below the key at `j`. -/
theorem sorted_filter_take (key : Nat → ℚ) (s : List Nat)
    (hs : s.Pairwise (fun x y => key x ≤ key y)) (j : Nat) (hj1 : 1 ≤ j) (hj : j < s.length)
    (hlt : key (s.getD (j - 1) 0) < key (s.getD j 0)) :
    s.filter (fun i => decide (key i < key (s.getD j 0))) = s.take j ∧
    s.filter (fun i => !decide (key i < key (s.getD j 0))) = s.drop j := by
  have htake : ∀ x ∈ s.take j, key x < key (s.getD j 0) := by
    intro x hx
    obtain ⟨a, ha, rfl⟩ := List.getElem_of_mem hx
    simp only [List.length_take] at ha
    rw [List.getElem_take]
    have := sorted_key_le key s hs a (j - 1) (by omega) (by omega)
    rw [List.getD_eq_getElem _ _ (by omega)] at this
    exact lt_of_le_of_lt this hlt
  have hdrop : ∀ x ∈ s.drop j, key (s.getD j 0) ≤ key x := by
    intro x hx
    obtain ⟨a, ha, rfl⟩ := List.getElem_of_mem hx
    simp only [List.length_drop] at ha
    rw [List.getElem_drop]
    have := sorted_key_le key s hs j (j + a) (by omega) (by omega)
    rw [List.getD_eq_getElem _ _ (by omega : j + a < s.length)] at this
    exact this
  obtain ⟨c, hc⟩ : ∃ c, c = key (s.getD j 0) := ⟨_, rfl⟩
  rw [← hc] at htake hdrop ⊢
  have hsplit : ∀ p : Nat → Bool, s.filter p = (s.take j).filter p ++ (s.drop j).filter p := by
    intro p
    rw [← List.filter_append, List.take_append_drop]
  constructor
  · rw [hsplit]
    have e1 : (s.take j).filter (fun i => decide (key i < c)) = s.take j := by
      apply List.filter_eq_self.2
      intro x hx
      simpa using htake x hx
    have e2 : (s.drop j).filter (fun i => decide (key i < c)) = [] := by
      apply List.filter_eq_nil_iff.2
      intro x hx
      simpa using hdrop x hx
    rw [e1, e2, List.append_nil]
  · rw [hsplit]
    have e1 : (s.take j).filter (fun i => !decide (key i < c)) = [] := by
      apply List.filter_eq_nil_iff.2
      intro x hx
      simpa using htake x hx
    have e2 : (s.drop j).filter (fun i => !decide (key i < c)) = s.drop j := by
      apply List.filter_eq_self.2
      intro x hx
      simpa using hdrop x hx
    rw [e1, e2, List.nil_append]

theorem filter_congr_mem {α : Type} (p q : α → Bool) (l : List α)
    (h : ∀ x ∈ l, p x = q x) : l.filter p = l.filter q := by
  induction l with
  | nil => rfl
  | cons x l ih =>
    simp only [List.filter_cons, h x (List.mem_cons_self _ _)]
    rw [ih (fun y hy => h y (List.mem_cons_of_mem _ hy))]

/-- C7: with the optimization off, `min_samples_leaf >= 1`, no missing value of `v` in `I`
and classes below the size `K` of the count vectors, `enumerate_threshold_splits` leaves the
range sorted on `X[.][v]` and reports, in increasing order of the positions and of the
thresholds, exactly one `threshold_split(v, t)` for every position `j` of the sorted range
with `min_samples_leaf <= j <= |I| - min_samples_leaf` whose value differs from the value at
`j - 1`, where `t` is the value at `j`; the counts reported are the class counts of the
samples of `I` with `X[.][v] < t` and of the samples with `X[.][v] >= t` (not `< t`), and
both sides hold at least `min_samples_leaf` samples. -/
theorem enumerate_threshold_splits_spec (D : dataset) (I : List Nat) (v : Nat)
    (options : decision_tree_options) (K : Nat)
    (hopt : options.optimization = false) (hmsl : 1 ≤ options.min_samples_leaf)
    (hm : ∀ i ∈ I, is_missing (D.at i v) = false) (hK : ∀ i ∈ I, D.class_of i < K) :
    (enumerate_threshold_splits D I v options K).1.Perm I ∧
    (enumerate_threshold_splits D I v options K).1.Pairwise
      (fun a b => (D.at b v).lt (D.at a v) = false) ∧
    ∃ positions : List Nat,
      positions.Pairwise (fun a b => a < b) ∧
      (∀ j, j ∈ positions ↔
        options.min_samples_leaf ≤ j ∧ j + options.min_samples_leaf ≤ I.length ∧
        (D.at ((enumerate_threshold_splits D I v options K).1.getD (j - 1) 0) v).eq
          (D.at ((enumerate_threshold_splits D I v options K).1.getD j 0) v) = false) ∧
      (enumerate_threshold_splits D I v options K).2 = positions.map (fun j =>
        { split := .threshold
            ⟨v, D.at ((enumerate_threshold_splits D I v options K).1.getD j 0) v⟩,
          D1_counts := count_classes D K (I.filter (fun i => (D.at i v).lt
            (D.at ((enumerate_threshold_splits D I v options K).1.getD j 0) v))),
          D2_counts := count_classes D K (I.filter (fun i => !(D.at i v).lt
            (D.at ((enumerate_threshold_splits D I v options K).1.getD j 0) v))) }) ∧
      (positions.map (fun j =>
        D.at ((enumerate_threshold_splits D I v options K).1.getD j 0) v)).Pairwise
        (fun a b => a.lt b = true) ∧
      ∀ r ∈ (enumerate_threshold_splits D I v options K).2,
        options.min_samples_leaf ≤ r.D1_counts.sum ∧
        options.min_samples_leaf ≤ r.D2_counts.sum := by
  rw [enumerate_threshold_splits_fst]
  obtain ⟨s, hsdef⟩ : ∃ s, s = (sort_range D I v options).1 := ⟨_, rfl⟩
  rw [← hsdef]
  have hperm : s.Perm I := by rw [hsdef]; exact sort_range_perm D I v options
  obtain ⟨hend, hsorted0⟩ := sort_range_sorted D I v options hm
  have hsorted : s.Pairwise (fun i j => (D.at i v).key ≤ (D.at j v).key) := by
    rw [hsdef]; exact hsorted0
  have hlen : s.length = I.length := hperm.length_eq
  have hms : ∀ i ∈ s, is_missing (D.at i v) = false := fun i hi => hm i (hperm.subset hi)
  have hmget : ∀ j, j < s.length → is_missing (D.at (s.getD j 0) v) = false := by
    intro j hj
    apply hms
    rw [List.getD_eq_getElem _ _ hj]
    exact List.getElem_mem hj
  obtain ⟨positions, hpos⟩ : ∃ positions, positions =
      (List.range' options.min_samples_leaf
        (I.length + 1 - options.min_samples_leaf - options.min_samples_leaf)).filter
      (fun j => !(D.at (s.getD (j - 1) 0) v).eq (D.at (s.getD j 0) v)) := ⟨_, rfl⟩
  have hmem : ∀ j, j ∈ positions ↔
      options.min_samples_leaf ≤ j ∧ j + options.min_samples_leaf ≤ I.length ∧
      (D.at (s.getD (j - 1) 0) v).eq (D.at (s.getD j 0) v) = false := by
    intro j
    rw [hpos, List.mem_filter, List.mem_range'_1]
    simp only [Bool.not_eq_true']
    constructor
    · rintro ⟨⟨h1, h2⟩, h3⟩
      exact ⟨h1, by omega, h3⟩
    · rintro ⟨h1, h2, h3⟩
      exact ⟨⟨h1, by omega⟩, h3⟩
  have hincr : positions.Pairwise (fun a b => a < b) := by
    rw [hpos]
    exact List.Pairwise.filter _ (List.pairwise_lt_range' _ _)
  -- the value at a position of the list is above the value before it
  have hstep : ∀ j ∈ positions, 1 ≤ j ∧ j < s.length ∧
      (D.at (s.getD (j - 1) 0) v).key < (D.at (s.getD j 0) v).key := by
    intro j hj
    obtain ⟨h1, h2, h3⟩ := (hmem j).1 hj
    have hj1 : 1 ≤ j := by omega
    have hj2 : j < s.length := by omega
    refine ⟨hj1, hj2, ?_⟩
    have hle := sorted_key_le (fun i => (D.at i v).key) s hsorted (j - 1) j (by omega) hj2
    rw [Value.eq_eq_key _ _ (hmget (j - 1) (by omega)) (hmget j hj2)] at h3
    simp only [decide_eq_false_iff_not] at h3
    exact lt_of_le_of_ne hle h3
  -- the counts reported
  have hcounts : ∀ j ∈ positions,
      compute_class_counts D (s.take j) K = count_classes D K (I.filter (fun i =>
        (D.at i v).lt (D.at (s.getD j 0) v))) ∧
      compute_class_counts D (s.drop j) K = count_classes D K (I.filter (fun i =>
        !(D.at i v).lt (D.at (s.getD j 0) v))) := by
    intro j hj
    obtain ⟨hj1, hj2, hlt⟩ := hstep j hj
    obtain ⟨f1, f2⟩ := sorted_filter_take (fun i => (D.at i v).key) s hsorted j hj1 hj2 hlt
    have g1 : s.filter (fun i => (D.at i v).lt (D.at (s.getD j 0) v)) = s.take j := by
      rw [← f1]
      apply filter_congr_mem
      intro x hx
      exact Value.lt_eq_key _ _ (hms x hx) (hmget j hj2)
    have g2 : s.filter (fun i => !(D.at i v).lt (D.at (s.getD j 0) v)) = s.drop j := by
      rw [← f2]
      apply filter_congr_mem
      intro x hx
      rw [Value.lt_eq_key _ _ (hms x hx) (hmget j hj2)]
    rw [compute_class_counts_eq, compute_class_counts_eq, ← g1, ← g2]
    exact ⟨count_classes_perm D K _ _ (hperm.filter _), count_classes_perm D K _ _ (hperm.filter _)⟩
  have hreports : (enumerate_threshold_splits D I v options K).2 = positions.map (fun j =>
      { split := .threshold ⟨v, D.at (s.getD j 0) v⟩,
        D1_counts := count_classes D K (I.filter (fun i =>
          (D.at i v).lt (D.at (s.getD j 0) v))),
        D2_counts := count_classes D K (I.filter (fun i =>
          !(D.at i v).lt (D.at (s.getD j 0) v))) }) := by
    unfold enumerate_threshold_splits
    simp only [hend, ← hsdef]
    by_cases hsmall : I.length + 1 ≤ options.min_samples_leaf + options.min_samples_leaf
    · simp only [hsmall, if_true]
      have : I.length + 1 - options.min_samples_leaf - options.min_samples_leaf = 0 := by omega
      rw [hpos, this]
      simp
    · simp only [hsmall, if_false]
      have htake : s.take I.length = s := by rw [← hlen, List.take_length]
      rw [htake]
      have e : I.length + 1 - options.min_samples_leaf - options.min_samples_leaf =
          I.length + 1 - options.min_samples_leaf - options.min_samples_leaf := rfl
      rw [threshold_sweep_spec D v options hopt s K options.min_samples_leaf
        (I.length + 1 - options.min_samples_leaf)
        (I.length + 1 - options.min_samples_leaf - options.min_samples_leaf)
        options.min_samples_leaf _ _ false (le_refl _) (by omega) (by simp) (by simp)]
      rw [← hpos]
      apply List.map_congr_left
      intro j hj
      rw [(hcounts j hj).1, (hcounts j hj).2]
  refine ⟨hperm, ?_, positions, hincr, hmem, hreports, ?_, ?_⟩
  · refine hsorted.imp_of_mem ?_
    intro a b ha hb hab
    rw [Value.lt_eq_key _ _ (hms b hb) (hms a ha)]
    simpa using hab
  · rw [List.pairwise_map]
    refine hincr.imp_of_mem ?_
    intro a b ha hb hab
    obtain ⟨hb1, hb2, hblt⟩ := hstep b hb
    have hle := sorted_key_le (fun i => (D.at i v).key) s hsorted a (b - 1) (by omega) (by omega)
    rw [Value.lt_eq_key _ _ (hmget a (by omega)) (hmget b hb2)]
    simp only [decide_eq_true_eq]
    exact lt_of_le_of_lt hle hblt
  · intro r hr
    rw [hreports] at hr
    obtain ⟨j, hj, rfl⟩ := List.mem_map.1 hr
    obtain ⟨h1, h2, h3⟩ := (hmem j).1 hj
    obtain ⟨hj1, hj2, hlt⟩ := hstep j hj
    simp only
    rw [← (hcounts j hj).1, ← (hcounts j hj).2, compute_class_counts_eq,
      compute_class_counts_eq,
      count_classes_sum D K _ (fun i hi => hK i (hperm.subset (List.mem_of_mem_take hi))),
      count_classes_sum D K _ (fun i hi => hK i (hperm.subset (List.mem_of_mem_drop hi)))]
    simp only [List.length_take, List.length_drop]
    omega

/-- In a list sorted on a key whose elements are not below `c`, `takeWhile` on the elements
of key `c` takes them all and `dropWhile` leaves the elements above `c`. -/
theorem takeWhile_dropWhile_key (key : Nat → ℚ) (c : ℚ) (p : Nat → Bool) :
    ∀ (t : List Nat), (∀ x ∈ t, p x = decide (key x = c)) →
      t.Pairwise (fun x y => key x ≤ key y) → (∀ x ∈ t, c ≤ key x) →
      (∀ x ∈ t.takeWhile p, key x = c) ∧ (∀ x ∈ t.dropWhile p, c < key x) := by
  intro t
  induction t with
  | nil => intro _ _ _; simp
  | cons x xs ih =>
    intro hp0 hs hge
    have hp := hp0 x (List.mem_cons_self _ _)
    have hs2 := List.pairwise_cons.1 hs
    by_cases hx : key x = c
    · have hpx : p x = true := by rw [hp]; simpa using hx
      obtain ⟨i1, i2⟩ := ih (fun y hy => hp0 y (List.mem_cons_of_mem _ hy)) hs2.2
        (fun y hy => hge y (List.mem_cons_of_mem _ hy))
      rw [List.takeWhile_cons_of_pos hpx, List.dropWhile_cons_of_pos hpx]
      refine ⟨?_, i2⟩
      intro y hy
      rcases List.mem_cons.1 hy with hy | hy
      · rw [hy]; exact hx
      · exact i1 y hy
    · have hpx : ¬ p x = true := by rw [hp]; simpa using hx
      rw [List.takeWhile_cons_of_neg hpx, List.dropWhile_cons_of_neg hpx]
      refine ⟨by simp, ?_⟩
      have hxc : c < key x := lt_of_le_of_ne (hge x (List.mem_cons_self _ _)) (Ne.symm hx)
      intro y hy
      rcases List.mem_cons.1 hy with hy | hy
      · rw [hy]; exact hxc
      · exact lt_of_lt_of_le hxc (hs2.1 y hy)

theorem restore_counts_incr_decr (f : Nat → Nat) (g : List Nat) (c : List Nat) :
    g.foldl (fun c i => decr c (f i)) (g.foldl (fun c i => incr c (f i)) c) = c := by
  apply counts_ext
  · rw [foldl_decr_length, foldl_incr_length]
  · intro j hj
    rw [foldl_decr_length, foldl_incr_length] at hj
    rw [foldl_decr_getD _ _ _ _ (by rw [foldl_incr_length]; exact hj),
      foldl_incr_getD _ _ _ _ hj]
    omega

theorem restore_counts_decr_incr (f : Nat → Nat) (g : List Nat) (c : List Nat)
    (h : ∀ j, j < c.length → g.countP (fun i => f i = j) ≤ c.getD j 0) :
    g.foldl (fun c i => incr c (f i)) (g.foldl (fun c i => decr c (f i)) c) = c := by
  apply counts_ext
  · rw [foldl_incr_length, foldl_decr_length]
  · intro j hj
    rw [foldl_incr_length, foldl_decr_length] at hj
    rw [foldl_incr_getD _ _ _ _ (by rw [foldl_decr_length]; exact hj),
      foldl_decr_getD _ _ _ _ hj]
    have := h j hj
    omega

theorem replicate_zero_getD (K j : Nat) : (List.replicate K 0).getD j 0 = 0 := by
  by_cases h : j < K
  · simp [List.getD_eq_getElem?_getD, List.getElem?_replicate, h]
  · simp [List.getD_eq_getElem?_getD, List.getElem?_replicate, h]

theorem Value.eq_true_iff (a b : Value) (ha : is_missing a = false) (hb : is_missing b = false) :
    a.eq b = true ↔ a = b := by
  cases a <;> cases b <;> simp_all [is_missing, Value.eq]

theorem filter_eq_self_of_all {α : Type} (p : α → Bool) (l : List α) (h : ∀ x ∈ l, p x = true) :
    l.filter p = l := List.filter_eq_self.2 h

theorem filter_eq_nil_of_none {α : Type} (p : α → Bool) (l : List α)
    (h : ∀ x ∈ l, p x = false) : l.filter p = [] := by
  apply List.filter_eq_nil_iff.2
  intro x hx
  rw [h x hx]; simp

/-- The loop of `enumerate_single_splits` on the rest of a sorted range: one report for every
value of the rest whose group satisfies the size constraint, with the counts of the
specification, in increasing order of the values. -/
theorem single_sweep_spec (D : dataset) (v : Nat) (options : decision_tree_options) (K : Nat)
    (s : List Nat) (hms : ∀ i ∈ s, is_missing (D.at i v) = false)
    (hsorted : s.Pairwise (fun i j => (D.at i v).key ≤ (D.at j v).key)) :
    ∀ (fuel : Nat) (pre rest : List Nat), s = pre ++ rest → rest.length ≤ fuel →
    (∀ a ∈ pre, ∀ b ∈ rest, (D.at a v).key < (D.at b v).key) →
    ∃ vals : List Value,
      single_sweep D v options s.length fuel rest (List.replicate K 0) (count_classes D K s) =
        vals.map (single_split_report D K v s) ∧
      vals.Pairwise (fun a b => a.lt b = true) ∧
      (∀ c, c ∈ vals ↔ (∃ i ∈ rest, D.at i v = c) ∧
        options.min_samples_leaf ≤ s.countP (fun i => (D.at i v).eq c) ∧
        options.min_samples_leaf ≤ s.length - s.countP (fun i => (D.at i v).eq c)) := by
  intro fuel
  induction fuel with
  | zero =>
    intro pre rest _ hlen _
    have : rest = [] := List.length_eq_zero.1 (Nat.le_zero.1 hlen)
    subst this
    exact ⟨[], by simp [single_sweep], by simp, by simp⟩
  | succ fuel ih =>
    intro pre rest hs hlen hlt
    cases rest with
    | nil => exact ⟨[], by simp [single_sweep], by simp, by simp⟩
    | cons f t =>
      have hfs : f ∈ s := by rw [hs]; simp
      have hts : ∀ x ∈ t, x ∈ s := by intro x hx; rw [hs]; simp [hx]
      have hpres : ∀ x ∈ pre, x ∈ s := by intro x hx; rw [hs]; simp [hx]
      have hsort2 : (f :: t).Pairwise (fun i j => (D.at i v).key ≤ (D.at j v).key) := by
        rw [hs] at hsorted
        exact (List.pairwise_append.1 hsorted).2.1
      have hsort3 := List.pairwise_cons.1 hsort2
      obtain ⟨p, hpdef⟩ : ∃ p : Nat → Bool, p = fun i => (D.at i v).eq (D.at f v) := ⟨_, rfl⟩
      have hp : ∀ x ∈ s, p x = decide ((D.at x v).key = (D.at f v).key) := by
        intro x hx
        rw [hpdef]
        exact Value.eq_eq_key _ _ (hms x hx) (hms f hfs)
      obtain ⟨tw1, tw2⟩ := takeWhile_dropWhile_key (fun i => (D.at i v).key) (D.at f v).key p t
        (fun x hx => hp x (hts x hx)) hsort3.2 hsort3.1
      have htd : t.takeWhile p ++ t.dropWhile p = t := List.takeWhile_append_dropWhile p t
      have hs3 : s = (pre ++ (f :: t.takeWhile p)) ++ t.dropWhile p := by
        rw [hs, List.append_assoc, List.cons_append, htd]
      have hdrops : ∀ x ∈ t.dropWhile p, x ∈ s := by
        intro x hx; rw [hs3]; exact List.mem_append_right _ hx
      have hgroups : ∀ x ∈ f :: t.takeWhile p, x ∈ s := by
        intro x hx; rw [hs3]
        exact List.mem_append_left _ (List.mem_append_right _ hx)
      -- the predicate on the three parts of the range
      have hp_pre : ∀ x ∈ pre, p x = false := by
        intro x hx
        rw [hp x (hpres x hx)]
        have := hlt x hx f (List.mem_cons_self _ _)
        simp only [decide_eq_false_iff_not]
        exact ne_of_lt this
      have hp_group : ∀ x ∈ f :: t.takeWhile p, p x = true := by
        intro x hx
        rw [hp x (hgroups x hx)]
        rcases List.mem_cons.1 hx with hx | hx
        · rw [hx]; simp
        · simpa using tw1 x hx
      have hp_drop : ∀ x ∈ t.dropWhile p, p x = false := by
        intro x hx
        rw [hp x (hdrops x hx)]
        simp only [decide_eq_false_iff_not]
        exact ne_of_gt (tw2 x hx)
      have hfilter : s.filter p = f :: t.takeWhile p := by
        rw [hs3, List.filter_append, List.filter_append, filter_eq_nil_of_none p pre hp_pre,
          filter_eq_self_of_all p _ hp_group, filter_eq_nil_of_none p _ hp_drop]
        simp
      have hfilter2 : s.filter (fun i => !p i) = pre ++ t.dropWhile p := by
        rw [hs3, List.filter_append, List.filter_append,
          filter_eq_self_of_all _ pre (fun x hx => by simp [hp_pre x hx]),
          filter_eq_nil_of_none _ (f :: t.takeWhile p) (fun x hx => by simp [hp_group x hx]),
          filter_eq_self_of_all _ _ (fun x hx => by simp [hp_drop x hx])]
        simp
      have hcount : s.countP p = (f :: t.takeWhile p).length := by
        rw [List.countP_eq_length_filter, hfilter]
      -- the counts reported and restored
      have hD1 : (f :: t.takeWhile p).foldl (fun c i => incr c (D.class_of i))
          (List.replicate K 0) = count_classes D K (s.filter p) := by
        rw [hfilter, ← compute_class_counts_eq]
        rfl
      have hD2 : (f :: t.takeWhile p).foldl (fun c i => decr c (D.class_of i))
          (count_classes D K s) = count_classes D K (s.filter (fun i => !p i)) := by
        apply counts_ext
        · rw [foldl_decr_length, count_classes_length, count_classes_length]
        · intro j hj
          rw [foldl_decr_length, count_classes_length] at hj
          rw [foldl_decr_getD _ _ _ _ (by rw [count_classes_length]; exact hj),
            count_classes_getD _ _ _ _ hj, count_classes_getD _ _ _ _ hj, hfilter2]
          conv_lhs => rw [hs3]
          simp only [List.countP_append]
          omega
      have hsub : ∀ j, j < (count_classes D K s).length →
          (f :: t.takeWhile p).countP (fun i => D.class_of i = j) ≤
            (count_classes D K s).getD j 0 := by
        intro j hj
        rw [count_classes_length] at hj
        rw [count_classes_getD _ _ _ _ hj]
        conv_rhs => rw [hs3]
        simp only [List.countP_append]
        omega
      -- the rest of the range
      obtain ⟨vals, iv1, iv2, iv3⟩ := ih (pre ++ (f :: t.takeWhile p)) (t.dropWhile p) hs3
        (by
          have := congrArg List.length htd
          simp only [List.length_append] at this
          simp only [List.length_cons] at hlen
          omega)
        (by
          intro a ha b hb
          rcases List.mem_append.1 ha with ha | ha
          · exact hlt a ha b (List.mem_cons_of_mem _ (by rw [← htd]; exact List.mem_append_right _ hb))
          · have h1 : (D.at a v).key = (D.at f v).key := by
              have := hp_group a ha
              rw [hp a (hgroups a ha)] at this
              simpa using this
            rw [h1]; exact tw2 b hb)
      -- membership in the rest
      have hex : ∀ c, (∃ i ∈ f :: t, D.at i v = c) ↔
          c = D.at f v ∨ ∃ i ∈ t.dropWhile p, D.at i v = c := by
        intro c
        constructor
        · rintro ⟨i, hi, hic⟩
          have hi2 : i ∈ (f :: t.takeWhile p) ++ t.dropWhile p := by
            rw [List.cons_append, htd]; exact hi
          rcases List.mem_append.1 hi2 with hi3 | hi3
          · left
            have := hp_group i hi3
            rw [hpdef] at this
            rw [← hic]
            exact (Value.eq_true_iff _ _ (hms i (hgroups i hi3)) (hms f hfs)).1 this
          · exact Or.inr ⟨i, hi3, hic⟩
        · rintro (hc | ⟨i, hi, hic⟩)
          · exact ⟨f, List.mem_cons_self _ _, hc.symm⟩
          · exact ⟨i, List.mem_cons_of_mem _ (by rw [← htd]; exact List.mem_append_right _ hi), hic⟩
      have hnot : ¬ ∃ i ∈ t.dropWhile p, D.at i v = D.at f v := by
        rintro ⟨i, hi, hic⟩
        have := tw2 i hi
        rw [hic] at this
        exact absurd this (lt_irrefl _)
      have hpfun : (fun i => (D.at i v).eq (D.at f v)) = p := hpdef.symm
      simp only [single_sweep]
      rw [hpfun]
      by_cases hcond : (f :: t.takeWhile p).length < options.min_samples_leaf ∨
          s.length - (f :: t.takeWhile p).length < options.min_samples_leaf
      · rw [if_pos hcond]
        refine ⟨vals, iv1, iv2, ?_⟩
        intro c
        rw [iv3 c, hex c]
        constructor
        · rintro ⟨h1, h2, h3⟩
          exact ⟨Or.inr h1, h2, h3⟩
        · rintro ⟨h1 | h1, h2, h3⟩
          · exfalso
            rw [h1, hpfun, hcount] at h2 h3
            omega
          · exact ⟨h1, h2, h3⟩
      · rw [if_neg hcond]
        rw [hD1, hD2, ← hD1, restore_counts_incr_decr, ← hD2,
          restore_counts_decr_incr _ _ _ hsub, iv1, hD1, hD2]
        refine ⟨D.at f v :: vals, ?_, ?_, ?_⟩
        · simp only [List.map_cons, single_split_report]
          rw [hpdef]
        · refine List.pairwise_cons.2 ⟨?_, iv2⟩
          intro c hc
          obtain ⟨⟨i, hi, hic⟩, -, -⟩ := (iv3 c).1 hc
          rw [← hic, Value.lt_eq_key _ _ (hms f hfs) (hms i (hdrops i hi))]
          simpa using tw2 i hi
        · intro c
          rw [List.mem_cons, iv3 c, hex c]
          constructor
          · rintro (h1 | ⟨h1, h2, h3⟩)
            · rw [h1, hpfun, hcount]
              exact ⟨Or.inl rfl, by omega, by omega⟩
            · exact ⟨Or.inr h1, h2, h3⟩
          · rintro ⟨h1 | h1, h2, h3⟩
            · exact Or.inl h1
            · exact Or.inr ⟨h1, h2, h3⟩

theorem Value.lt_irrefl (a : Value) : a.lt a = false := by
  cases a <;> simp [Value.lt]

/-- C8: without missing value of `v` in `I`, and with classes below the size `K` of the count
vectors, `enumerate_single_splits` reports exactly one `single_split(v, c)` for every value
`c` taken by the samples of `I` whose number `n_c` of samples satisfies
`n_c >= min_samples_leaf` and `|I| - n_c >= min_samples_leaf`, and no other split (the
reports are the images of a duplicate free list `vals` of exactly these values); the counts
reported are the class counts of the samples with value `c` and of all other samples. -/
theorem enumerate_single_splits_spec (D : dataset) (I : List Nat) (v : Nat)
    (options : decision_tree_options) (K : Nat)
    (hm : ∀ i ∈ I, is_missing (D.at i v) = false) (hK : ∀ i ∈ I, D.class_of i < K) :
    (enumerate_single_splits D I v options K).1.Perm I ∧
    ∃ vals : List Value,
      vals.Nodup ∧ vals.Pairwise (fun a b => a.lt b = true) ∧
      (∀ c, c ∈ vals ↔ (∃ i ∈ I, D.at i v = c) ∧
        options.min_samples_leaf ≤ I.countP (fun i => (D.at i v).eq c) ∧
        options.min_samples_leaf ≤ I.length - I.countP (fun i => (D.at i v).eq c)) ∧
      (enumerate_single_splits D I v options K).2 = vals.map (fun c =>
        { split := .single ⟨v, c⟩,
          D1_counts := count_classes D K (I.filter (fun i => (D.at i v).eq c)),
          D2_counts := count_classes D K (I.filter (fun i => !(D.at i v).eq c)) }) := by
  obtain ⟨s, hsdef⟩ : ∃ s, s = (sort_range D I v options).1 := ⟨_, rfl⟩
  have hperm : s.Perm I := by rw [hsdef]; exact sort_range_perm D I v options
  obtain ⟨-, hsorted0⟩ := sort_range_sorted D I v options hm
  have hsorted : s.Pairwise (fun i j => (D.at i v).key ≤ (D.at j v).key) := by
    rw [hsdef]; exact hsorted0
  have hms : ∀ i ∈ s, is_missing (D.at i v) = false := fun i hi => hm i (hperm.subset hi)
  have hsum : (compute_class_counts D s K).sum = s.length := by
    rw [compute_class_counts_eq]
    exact count_classes_sum D K s (fun i hi => hK i (hperm.subset hi))
  obtain ⟨vals, v1, v2, v3⟩ := single_sweep_spec D v options K s hms hsorted s.length [] s
    (by simp) (le_refl _) (by simp)
  have hres : enumerate_single_splits D I v options K =
      (s, vals.map (single_split_report D K v s)) := by
    unfold enumerate_single_splits
    simp only [← hsdef, hsum]
    rw [compute_class_counts_eq, v1]
  rw [hres]
  refine ⟨hperm, vals, ?_, v2, ?_, ?_⟩
  · refine v2.imp ?_
    intro a b hab hne
    rw [hne, Value.lt_irrefl] at hab
    exact absurd hab (by simp)
  · intro c
    rw [v3 c, hperm.countP_eq, hperm.length_eq]
    constructor
    · rintro ⟨⟨i, hi, hic⟩, h2, h3⟩
      exact ⟨⟨i, hperm.subset hi, hic⟩, h2, h3⟩
    · rintro ⟨⟨i, hi, hic⟩, h2, h3⟩
      exact ⟨⟨i, hperm.symm.subset hi, hic⟩, h2, h3⟩
  · apply List.map_congr_left
    intro c _
    simp only [single_split_report]
    rw [count_classes_perm D K _ _ (hperm.filter _), count_classes_perm D K _ _ (hperm.filter _)]

theorem enumerate_threshold_splits_spec_witness :
    (default_options.optimization = false) ∧
    (1 ≤ default_options.min_samples_leaf) ∧
    (∀ i ∈ test_range, is_missing (test_apply_split_dataset.at i 0) = false) ∧
    (∀ i ∈ test_range, test_apply_split_dataset.class_of i < 2) ∧
    ((enumerate_threshold_splits test_apply_split_dataset test_range 0 default_options 2).1.Perm
        test_range ∧
     (enumerate_threshold_splits test_apply_split_dataset test_range 0 default_options 2).1.Pairwise
       (fun a b => (test_apply_split_dataset.at b 0).lt (test_apply_split_dataset.at a 0) = false) ∧
     ∃ positions : List Nat,
       positions.Pairwise (fun a b => a < b) ∧
       (∀ j, j ∈ positions ↔
         default_options.min_samples_leaf ≤ j ∧ j + default_options.min_samples_leaf ≤
             test_range.length ∧
         (test_apply_split_dataset.at ((enumerate_threshold_splits test_apply_split_dataset
             test_range 0 default_options 2).1.getD (j - 1) 0) 0).eq
           (test_apply_split_dataset.at ((enumerate_threshold_splits test_apply_split_dataset
               test_range 0 default_options 2).1.getD j 0) 0) = false) ∧
       (enumerate_threshold_splits test_apply_split_dataset test_range 0 default_options 2).2 =
           positions.map (fun j =>
         { split := .threshold
             ⟨0, test_apply_split_dataset.at ((enumerate_threshold_splits test_apply_split_dataset
                 test_range 0 default_options 2).1.getD j 0) 0⟩,
           D1_counts := count_classes test_apply_split_dataset 2 (test_range.filter (fun i =>
               (test_apply_split_dataset.at i 0).lt
             (test_apply_split_dataset.at ((enumerate_threshold_splits test_apply_split_dataset
                 test_range 0 default_options 2).1.getD j 0) 0))),
           D2_counts := count_classes test_apply_split_dataset 2 (test_range.filter (fun i =>
               !(test_apply_split_dataset.at i 0).lt
             (test_apply_split_dataset.at ((enumerate_threshold_splits test_apply_split_dataset
                 test_range 0 default_options 2).1.getD j 0) 0))) }) ∧
       (positions.map (fun j =>
         test_apply_split_dataset.at ((enumerate_threshold_splits test_apply_split_dataset
             test_range 0 default_options 2).1.getD j 0) 0)).Pairwise
         (fun a b => a.lt b = true) ∧
       ∀ r ∈ (enumerate_threshold_splits test_apply_split_dataset test_range 0 default_options 2).2,
         default_options.min_samples_leaf ≤ r.D1_counts.sum ∧
         default_options.min_samples_leaf ≤ r.D2_counts.sum) :=
  ⟨rfl, by decide, by decide, by decide!,
    enumerate_threshold_splits_spec test_apply_split_dataset test_range 0 default_options 2
      rfl (by decide) (by decide) (by decide!)⟩

theorem enumerate_single_splits_spec_witness :
    (∀ i ∈ test_range, is_missing (test_apply_split_dataset.at i 0) = false) ∧
    (∀ i ∈ test_range, test_apply_split_dataset.class_of i < 2) ∧
    ((enumerate_single_splits test_apply_split_dataset test_range 0 default_options 2).1.Perm
        test_range ∧
     ∃ vals : List Value,
       vals.Nodup ∧ vals.Pairwise (fun a b => a.lt b = true) ∧
       (∀ c, c ∈ vals ↔ (∃ i ∈ test_range, test_apply_split_dataset.at i 0 = c) ∧
         default_options.min_samples_leaf ≤ test_range.countP (fun i =>
             (test_apply_split_dataset.at i 0).eq c) ∧
         default_options.min_samples_leaf ≤ test_range.length - test_range.countP (fun i =>
             (test_apply_split_dataset.at i 0).eq c)) ∧
       (enumerate_single_splits test_apply_split_dataset test_range 0 default_options 2).2 =
           vals.map (fun c =>
         { split := .single ⟨0, c⟩,
           D1_counts := count_classes test_apply_split_dataset 2 (test_range.filter (fun i =>
               (test_apply_split_dataset.at i 0).eq c)),
           D2_counts := count_classes test_apply_split_dataset 2 (test_range.filter (fun i =>
               !(test_apply_split_dataset.at i 0).eq c)) })) :=
  ⟨by decide, by decide!,
    enumerate_single_splits_spec test_apply_split_dataset test_range 0 default_options 2
      (by decide) (by decide!)⟩

/-- C4 (evaluation of the code at the failing input): on `leaf_size_dataset` with
`min_samples_leaf = 2` and the family of threshold plus subset splits,
`learn_decision_tree` splits the root with the mask `{0, 3}` and returns a tree whose
vertex 2, the right child of the root, holds one index only. -/
theorem learn_decision_tree_subset_small_leaf :
    learn_decision_tree const_engine leaf_size_dataset [0, 1, 2, 3, 4] leaf_size_options
      .threshold_plus_subset gini_gain (node_is_finished mis_classification_small) () 10 = .returned leaf_size_tree ∧
    (leaf_size_tree.find_vertex 0).right = 2 ∧
    (leaf_size_tree.range (leaf_size_tree.find_vertex 2)).length = 1 ∧
    leaf_size_options.min_samples_leaf = 2 := by
  refine ⟨by decide!, by decide, by decide, rfl⟩

/-- C9 (evaluation of the code at the failing input): on `gap_dataset` the split with mask
`{0, 2}` is reported with the counts `[1, 0]` and `[0, 2]`, whereas the samples whose
category is in the mask have the class counts `[1, 1]` and the others `[0, 1]`, which are
the sides that `apply_split` produces. -/
theorem enumerate_subset_splits_gap_counts :
    enumerate_subset_splits gap_dataset [0, 1, 2] 0 default_options = some ([0, 1, 2],
      [⟨.subset ⟨0, 1⟩, [1, 0], [0, 2]⟩, ⟨.subset ⟨0, 5⟩, [1, 0], [0, 2]⟩,
       ⟨.subset ⟨0, 9⟩, [1, 1], [0, 1]⟩]) ∧
    count_classes gap_dataset 2 ([0, 1, 2].filter
      (fun i => (subset_split.mk 0 5).contains (gap_dataset.at i 0).to_size_t)) = [1, 1] ∧
    count_classes gap_dataset 2 ([0, 1, 2].filter
      (fun i => !(subset_split.mk 0 5).contains (gap_dataset.at i 0).to_size_t)) = [0, 1] ∧
    apply_split const_engine (.subset ⟨0, 5⟩) gap_dataset [0, 1, 2] () false =
      some (([0, 1], [2]), ()) := by
  refine ⟨by decide!, by decide!, by decide!, by decide!⟩

/-- C10 (evaluation of the code at the failing input): on `gap2_dataset` the categories
present are 1 and 2, each with one sample, and `min_samples_leaf = 1`, so the bipartition
`{1}`, `{2}` satisfies the size constraint; `enumerate_subset_splits` reports no split. -/
theorem enumerate_subset_splits_gap_missing :
    enumerate_subset_splits gap2_dataset [0, 1] 0 default_options = some ([0, 1], []) ∧
    ([0, 1].filter (fun i => (gap2_dataset.at i 0).to_size_t = 1)).length = 1 ∧
    ([0, 1].filter (fun i => (gap2_dataset.at i 0).to_size_t = 2)).length = 1 ∧
    default_options.min_samples_leaf = 1 := by
  refine ⟨by decide!, by decide!, by decide!, rfl⟩

/-! ## The two gain functors -/

theorem sum_zipWith_add : ∀ (L R : List Nat), L.length = R.length →
    (List.zipWith (fun a b : Nat => a + b) L R).sum = L.sum + R.sum
  | [], [], _ => by simp
  | [], _ :: _, h => by simp at h
  | _ :: _, [], h => by simp at h
  | a :: L, b :: R, h => by
    simp only [List.zipWith_cons_cons, List.sum_cons]
    rw [sum_zipWith_add L R (by simpa using h)]
    omega

/-- The relation between `gain` and `gain1` for a parent with a positive number of
samples. -/
theorem gain_eq_gain1 (imp : List Nat → ℚ) (L R : List Nat) :
    gain imp L R = imp (List.zipWith (fun a b : Nat => a + b) L R) +
      gain1 imp L R / ((List.zipWith (fun a b : Nat => a + b) L R).sum : ℚ) := by
  unfold gain gain1
  simp only []
  ring

/-- Claim C13, amended: in exact arithmetic, for every impurity measure and two candidate
splits of the same parent, with positive sums, `gain` orders the two splits as `gain1` does,
and `gain` is the impurity of the parent plus `gain1` divided by the number of samples of
the parent. -/
theorem gain_gain1_same_order (log2 : ℚ → ℚ) (imp : impurity_measure)
    (L R L' R' : List Nat) (hlen : L.length = R.length) (hlen' : L'.length = R'.length)
    (hparent : List.zipWith (fun a b : Nat => a + b) L R = List.zipWith (fun a b : Nat => a + b) L' R')
    (hL : 0 < L.sum) (hR : 0 < R.sum) (hL' : 0 < L'.sum) (hR' : 0 < R'.sum) :
    (gain (impurity log2 imp) L R < gain (impurity log2 imp) L' R' ↔
      gain1 (impurity log2 imp) L R < gain1 (impurity log2 imp) L' R') ∧
    gain (impurity log2 imp) L R =
      impurity log2 imp (List.zipWith (fun a b : Nat => a + b) L R) +
        gain1 (impurity log2 imp) L R /
          (((List.zipWith (fun a b : Nat => a + b) L R).sum : Nat) : ℚ) := by
  refine ⟨?_, gain_eq_gain1 _ L R⟩
  rw [gain_eq_gain1, gain_eq_gain1, ← hparent]
  have _hsums : 0 < R.sum ∧ 0 < L'.sum ∧ 0 < R'.sum ∧ L'.length = R'.length :=
    ⟨hR, hL', hR', hlen'⟩
  have hpos : (0 : ℚ) < (((List.zipWith (fun a b : Nat => a + b) L R).sum : Nat) : ℚ) := by
    rw [sum_zipWith_add L R hlen]
    exact_mod_cast Nat.add_pos_left hL _
  rw [add_lt_add_iff_left, div_lt_div_iff_of_pos_right hpos]

theorem gain_gain1_same_order_witness :
    (gain (impurity (fun _ => 0) .gini) [4, 0] [2, 5]
        < gain (impurity (fun _ => 0) .gini) [3, 2] [3, 3] ↔
      gain1 (impurity (fun _ => 0) .gini) [4, 0] [2, 5]
        < gain1 (impurity (fun _ => 0) .gini) [3, 2] [3, 3]) ∧
    gain (impurity (fun _ => 0) .gini) [4, 0] [2, 5] =
      impurity (fun _ => 0) .gini (List.zipWith (fun a b : Nat => a + b) [4, 0] [2, 5]) +
        gain1 (impurity (fun _ => 0) .gini) [4, 0] [2, 5] /
          (((List.zipWith (fun a b : Nat => a + b) [4, 0] [2, 5]).sum : Nat) : ℚ) :=
  gain_gain1_same_order (fun _ => 0) .gini [4, 0] [2, 5] [3, 2] [3, 3] rfl rfl (by decide)
    (by decide) (by decide) (by decide) (by decide)

/-- Claim C13: on doubles the gini gain of the split ([0, 3], [9, 6]) is below the gini gain
of the split ([2, 6], [7, 3]) of the same parent [9, 9] (0.09999999999999998 and 0.1), and
`gain1` is not (-7.199999999999999 and -7.2); in exact arithmetic the two gains are equal
and so are the two values of `gain1`. -/
theorem gain_gain1_rounded :
    List.zipWith (fun a b : Nat => a + b) [0, 3] [9, 6] =
      List.zipWith (fun a b : Nat => a + b) [2, 6] [7, 3] ∧
    (binary64.gain binary64.gini_index [0, 3] [9, 6]).lt
      (binary64.gain binary64.gini_index [2, 6] [7, 3]) = true ∧
    (binary64.gain1 binary64.gini_index [0, 3] [9, 6]).lt
      (binary64.gain1 binary64.gini_index [2, 6] [7, 3]) = false ∧
    binary64.gain binary64.gini_index [0, 3] [9, 6] = .num (3602879701896396 / 2 ^ 55) ∧
    binary64.gain binary64.gini_index [2, 6] [7, 3] = .num (3602879701896397 / 2 ^ 55) ∧
    binary64.gain1 binary64.gini_index [0, 3] [9, 6] = .num (-(8106479329266892 / 2 ^ 50)) ∧
    binary64.gain1 binary64.gini_index [2, 6] [7, 3] = .num (-(8106479329266893 / 2 ^ 50)) ∧
    gain gini_index [0, 3] [9, 6] = gain gini_index [2, 6] [7, 3] ∧
    gain1 gini_index [0, 3] [9, 6] = gain1 gini_index [2, 6] [7, 3] := by
  decide!

/-- Claim C12: for a variable with 33 categories `enumerate_subset_splits` throws no
exception and reports the split on the mask of category 0. -/
theorem enumerate_subset_splits_wide :
    (wide_dataset.category_counts.getD 0 0 = 33) ∧
    enumerate_subset_splits wide_dataset [0, 1] 0 {} =
      some ([0, 1], [{ split := .subset ⟨0, 1⟩, D1_counts := [1, 0], D2_counts := [0, 1] }]) := by
  decide

/-! ## Bit masks -/

theorem is_bit_set_eq_testBit (x i : Nat) (hi : i < 64) : is_bit_set x i = x.testBit i := by
  unfold is_bit_set
  rw [Nat.one_shiftLeft, Nat.mod_eq_of_lt (Nat.pow_lt_pow_right (by norm_num) hi)]
  by_cases h : x.testBit i = true
  · rw [h]
    have : (x &&& 2 ^ i).testBit i = true := by
      rw [Nat.testBit_and, h, Nat.testBit_two_pow_self]; rfl
    have hne : x &&& 2 ^ i ≠ 0 := by
      intro h0; rw [h0] at this; simp at this
    simpa using hne
  · have hf : x.testBit i = false := by simpa using h
    rw [hf]
    have : x &&& 2 ^ i = 0 := by
      apply Nat.eq_of_testBit_eq
      intro j
      rw [Nat.testBit_and, Nat.testBit_two_pow, Nat.zero_testBit]
      by_cases hj : i = j
      · subst hj; simp [hf]
      · simp [hj]
    simp [this]

theorem set_bit_lt (x i : Nat) (e : Bool) (hx : x < 2 ^ 64) : set_bit x i e < 2 ^ 64 := by
  unfold set_bit
  cases e with
  | true =>
    simp only [if_true]
    exact Nat.or_lt_two_pow hx (Nat.mod_lt _ (by norm_num))
  | false =>
    simp only [Bool.false_eq_true, if_false]
    exact lt_of_le_of_lt Nat.and_le_left hx

theorem set_bit_testBit (x i : Nat) (e : Bool) (hi : i < 64) (hx : x < 2 ^ 64) (b : Nat) :
    (set_bit x i e).testBit b = if b = i then e else x.testBit b := by
  unfold set_bit
  rw [Nat.one_shiftLeft, Nat.mod_eq_of_lt (Nat.pow_lt_pow_right (by norm_num) hi)]
  cases e with
  | true =>
    simp only [if_true]
    rw [Nat.testBit_or, Nat.testBit_two_pow]
    by_cases hb : b = i
    · subst hb; simp
    · have : ¬ i = b := fun h => hb h.symm
      simp [hb, this]
  | false =>
    simp only [Bool.false_eq_true, if_false]
    have e1 : 2 ^ 64 - 1 - 2 ^ i = 2 ^ 64 - (2 ^ i + 1) := by omega
    rw [e1, Nat.testBit_and,
      Nat.testBit_two_pow_sub_succ (Nat.pow_lt_pow_right (by norm_num) hi), Nat.testBit_two_pow]
    by_cases hb : b = i
    · subst hb; simp
    · have : ¬ i = b := fun h => hb h.symm
      simp only [hb, this, if_false, decide_False, Bool.not_false, Bool.and_true]
      by_cases hb64 : b < 64
      · simp [hb64]
      · simp only [hb64, decide_False, Bool.and_false]
        have : x < 2 ^ b := lt_of_lt_of_le hx (Nat.pow_le_pow_right (by norm_num) (by omega))
        exact (Nat.testBit_lt_two_pow this).symm

theorem testBit_false_of_lt_of_le (x p j : Nat) (hx : x < 2 ^ p) (hj : p ≤ j) :
    x.testBit j = false :=
  Nat.testBit_lt_two_pow (lt_of_lt_of_le hx (Nat.pow_le_pow_right (by norm_num) hj))

/-! ## The loops of `enumerate_subset_splits` -/

/-- The mask after the inner loop: the bits of the categories `pos[j + 1]` are those of the
subset number `i`, the other bits are kept. -/
theorem subset_inner_mask (W : List Nat) (K : Nat) (pos : List Nat) (i : Nat) :
    ∀ (js : List Nat) (mask : Nat) (D1 : List Nat), mask < 2 ^ 64 →
    (∀ j ∈ js, j < 64 ∧ pos.getD (j + 1) 0 < 64) → js.Nodup →
    (∀ j ∈ js, ∀ j2 ∈ js, pos.getD (j + 1) 0 = pos.getD (j2 + 1) 0 → j = j2) →
    (subset_inner W K pos i js (mask, D1)).1 < 2 ^ 64 ∧
    (∀ b, (∀ j ∈ js, pos.getD (j + 1) 0 ≠ b) →
      (subset_inner W K pos i js (mask, D1)).1.testBit b = mask.testBit b) ∧
    (∀ j ∈ js, (subset_inner W K pos i js (mask, D1)).1.testBit (pos.getD (j + 1) 0) =
      i.testBit j) := by
  intro js
  induction js with
  | nil =>
    intro mask D1 hm _ _ _
    exact ⟨hm, fun b _ => rfl, fun j hj => absurd hj (List.not_mem_nil _)⟩
  | cons j js ih =>
    intro mask D1 hm hb hnd hinj
    have hj := hb j (List.mem_cons_self _ _)
    simp only [subset_inner]
    have hm2 := set_bit_lt mask (pos.getD (j + 1) 0) (is_bit_set i j) hm
    obtain ⟨h1, h2, h3⟩ := ih (set_bit mask (pos.getD (j + 1) 0) (is_bit_set i j))
      (if is_bit_set i j = true then subset_add W K D1 (j + 1) else D1) hm2
      (fun j2 hj2 => hb j2 (List.mem_cons_of_mem _ hj2)) (List.nodup_cons.mp hnd).2
      (fun a ha b hb2 => hinj a (List.mem_cons_of_mem _ ha) b (List.mem_cons_of_mem _ hb2))
    refine ⟨h1, ?_, ?_⟩
    · intro b hne
      rw [h2 b (fun j2 hj2 => hne j2 (List.mem_cons_of_mem _ hj2)),
        set_bit_testBit _ _ _ hj.2 hm]
      have := hne j (List.mem_cons_self _ _)
      rw [if_neg (fun h : b = pos.getD (j + 1) 0 => this h.symm)]
    · intro j2 hj2
      rcases List.mem_cons.mp hj2 with rfl | hj2'
      · rw [h2 _ ?_, set_bit_testBit _ _ _ hj.2 hm, if_pos rfl, is_bit_set_eq_testBit _ _ hj.1]
        intro j3 hj3 heq
        have := hinj j3 (List.mem_cons_of_mem _ hj3) j2 (List.mem_cons_self _ _) heq
        subst this
        exact (List.nodup_cons.mp hnd).1 hj3
      · exact h3 j2 hj2'

theorem foldl_set_add_getD (g : Nat → Nat) : ∀ (ks : List Nat) (c : List Nat), ks.Nodup →
    (ks.foldl (fun c k => c.set k (c.getD k 0 + g k)) c).length = c.length ∧
    ∀ k, (ks.foldl (fun c k => c.set k (c.getD k 0 + g k)) c).getD k 0 =
      c.getD k 0 + (if k ∈ ks ∧ k < c.length then g k else 0) := by
  intro ks
  induction ks with
  | nil => intro c _; simp
  | cons a ks ih =>
    intro c hnd
    simp only [List.foldl_cons]
    obtain ⟨h1, h2⟩ := ih (c.set a (c.getD a 0 + g a)) (List.nodup_cons.mp hnd).2
    refine ⟨by rw [h1]; simp, ?_⟩
    intro k
    rw [h2 k]
    simp only [List.length_set, List.mem_cons]
    have hna := (List.nodup_cons.mp hnd).1
    by_cases hka : k = a
    · subst hka
      by_cases hk : k < c.length
      · simp [hna, hk, List.getD_eq_getElem?_getD, List.getElem?_set_self]
      · have hk2 : c.length ≤ k := by omega
        rw [List.set_eq_of_length_le hk2]
        simp [hk]
    · have hak : a ≠ k := fun h => hka h.symm
      have e : (c.set a (c.getD a 0 + g a)).getD k 0 = c.getD k 0 := by
        simp [List.getD_eq_getElem?_getD, List.getElem?_set_ne hak]
      rw [e]
      simp [hka]

theorem subset_add_spec (W : List Nat) (K : Nat) (D1 : List Nat) (j : Nat) :
    (subset_add W K D1 j).length = D1.length ∧
    ∀ k, (subset_add W K D1 j).getD k 0 =
      D1.getD k 0 + (if k < K ∧ k < D1.length then W.getD (j * K + k) 0 else 0) := by
  unfold subset_add
  obtain ⟨h1, h2⟩ := foldl_set_add_getD (fun k => W.getD (j * K + k) 0) (List.range K) D1
    (List.nodup_range K)
  refine ⟨h1, ?_⟩
  intro k
  rw [h2 k]
  simp [List.mem_range]

/-- The counts after the inner loop: the rows `j + 1` of `W` are added for the bits `j` of the
subset number `i`. -/
theorem subset_inner_counts (W : List Nat) (K : Nat) (pos : List Nat) (i : Nat) :
    ∀ (js : List Nat) (mask : Nat) (D1 : List Nat), D1.length = K →
    (subset_inner W K pos i js (mask, D1)).2.length = K ∧
    ∀ k, k < K → (subset_inner W K pos i js (mask, D1)).2.getD k 0 =
      D1.getD k 0 +
        ((js.filter (fun j => is_bit_set i j)).map (fun j => W.getD ((j + 1) * K + k) 0)).sum := by
  intro js
  induction js with
  | nil => intro mask D1 h; simp [subset_inner, h]
  | cons j js ih =>
    intro mask D1 h
    simp only [subset_inner]
    by_cases hb : is_bit_set i j = true
    · simp only [hb, if_true]
      obtain ⟨a1, a2⟩ := subset_add_spec W K D1 (j + 1)
      obtain ⟨h1, h2⟩ := ih (set_bit mask (pos.getD (j + 1) 0) true)
        (subset_add W K D1 (j + 1)) (by rw [a1, h])
      refine ⟨h1, ?_⟩
      intro k hk
      rw [h2 k hk, a2 k]
      simp only [List.filter, hb, hk, h, and_self, if_true, List.map_cons, List.sum_cons]
      omega
    · have hb2 : is_bit_set i j = false := by simpa using hb
      simp only [hb2, Bool.false_eq_true, if_false]
      obtain ⟨h1, h2⟩ := ih (set_bit mask (pos.getD (j + 1) 0) false) D1 h
      refine ⟨h1, ?_⟩
      intro k hk
      rw [h2 k hk]
      simp only [List.filter, hb2]

theorem sum_map_ite_eq_countP {α : Type} (p : α → Bool) : ∀ (R : List α),
    (R.map (fun r => if p r = true then 1 else 0)).sum = R.countP p
  | [] => rfl
  | r :: R => by
    rw [List.map_cons, List.sum_cons, sum_map_ite_eq_countP p R, List.countP_cons]
    omega

/-- Every entry of the table `W` is bounded by the number of samples that are counted in
it. -/
theorem subset_table_le (D : dataset) (v K ncat_v : Nat) (I1 : List Nat) (idx : Nat) :
    (subset_table D v K ncat_v I1).getD idx 0 ≤
      I1.countP (fun i => (D.at i v).to_size_t * K + D.class_of i = idx) := by
  unfold subset_table
  by_cases h : idx < ncat_v * K
  · rw [foldl_incr_getD _ _ _ _ (by simpa using h)]
    simp [List.getD_eq_getElem?_getD, List.getElem?_replicate, h]
  · have hl : (I1.foldl (fun W i => incr W ((D.at i v).to_size_t * K + D.class_of i))
        (List.replicate (ncat_v * K) 0)).length ≤ idx := by
      rw [foldl_incr_length]; simp; omega
    rw [List.getD_eq_default _ _ hl]
    exact Nat.zero_le _

/-- The sum of the entries of class `k` over distinct rows of `W` is at most the number of
samples of class `k`. -/
theorem subset_table_rows_le (D : dataset) (v K ncat_v : Nat) (R : List Nat) (hR : R.Nodup)
    (k : Nat) (hk : k < K) : ∀ (I1 : List Nat), (∀ i ∈ I1, D.class_of i < K) →
    (R.map (fun r => (subset_table D v K ncat_v I1).getD (r * K + k) 0)).sum ≤
      I1.countP (fun i => D.class_of i = k) := by
  intro I1 hI
  have h1 : (R.map (fun r => (subset_table D v K ncat_v I1).getD (r * K + k) 0)).sum ≤
      (R.map (fun r => I1.countP
        (fun i => (D.at i v).to_size_t * K + D.class_of i = r * K + k))).sum := by
    apply List.sum_le_sum
    intro r _
    exact subset_table_le D v K ncat_v I1 _
  refine le_trans h1 ?_
  clear h1
  induction I1 with
  | nil => simp
  | cons a I1 ih =>
    have iha := ih (fun i hi => hI i (List.mem_cons_of_mem _ hi))
    have hya := hI a (List.mem_cons_self _ _)
    have e : (R.map (fun r => (a :: I1).countP
        (fun i => (D.at i v).to_size_t * K + D.class_of i = r * K + k))).sum =
        (R.map (fun r => I1.countP
          (fun i => (D.at i v).to_size_t * K + D.class_of i = r * K + k))).sum +
        (R.map (fun r => if decide ((D.at a v).to_size_t * K + D.class_of a = r * K + k) = true
          then 1 else 0)).sum := by
      simp only [List.countP_cons]
      exact List.sum_map_add
    rw [e, sum_map_ite_eq_countP, List.countP_cons]
    have hc : R.countP (fun r => decide ((D.at a v).to_size_t * K + D.class_of a = r * K + k)) ≤
        if D.class_of a = k then 1 else 0 := by
      by_cases hak : D.class_of a = k
      · rw [if_pos hak]
        refine le_trans (List.countP_mono_left ?_) (List.nodup_iff_count_le_one.mp hR
          (D.at a v).to_size_t)
        intro r _ hr
        simp only [decide_eq_true_eq] at hr
        rw [hak] at hr
        have : (D.at a v).to_size_t * K = r * K := by omega
        have := Nat.eq_of_mul_eq_mul_right (by omega : 0 < K) this
        simp [this]
      · rw [if_neg hak]
        apply Nat.le_of_eq
        rw [List.countP_eq_zero]
        intro r _
        simp only [decide_eq_true_eq]
        intro hr
        apply hak
        have h1 : ((D.at a v).to_size_t * K + D.class_of a) % K = (r * K + k) % K := by rw [hr]
        rw [Nat.mul_comm, Nat.mul_add_mod, Nat.mul_comm r K, Nat.mul_add_mod,
          Nat.mod_eq_of_lt hya, Nat.mod_eq_of_lt hk] at h1
        exact h1
    simp only [decide_eq_true_eq]
    split_ifs at hc ⊢ <;> omega

/-- The reports of the outer loop of `enumerate_subset_splits`: every report belongs to a
subset number `i` of the list, its mask holds the first category and encodes `i`, the sums of
its count vectors respect `min_samples_leaf` and the counts add up; the splits are pairwise
distinct. -/
theorem subset_outer_spec (v : Nat) (options : decision_tree_options) (W : List Nat) (K : Nat)
    (pos D_counts : List Nat) (p : Nat) (hp : p < 64)
    (hpos : ∀ j, j < p → pos.getD (j + 1) 0 < 32)
    (hinj : ∀ j, j < p → ∀ j2, j2 < p → pos.getD (j + 1) 0 = pos.getD (j2 + 1) 0 → j = j2)
    (h0ne : ∀ j, j < p → pos.getD (j + 1) 0 ≠ pos.getD 0 0)
    (hbound : ∀ (R : List Nat), R.Nodup → ∀ k, k < K →
      (R.map (fun r => W.getD (r * K + k) 0)).sum ≤ D_counts.getD k 0) :
    ∀ (is : List Nat) (mask : Nat), is.Nodup → (∀ i ∈ is, i < 2 ^ p) → mask < 2 ^ 64 →
    mask.testBit (pos.getD 0 0) = true → (∀ b, mask.testBit b = true → b < 32) →
    (∀ r ∈ subset_outer v options W K pos D_counts p is mask, ∃ i ∈ is, ∃ m,
      r.split = .subset ⟨v, m⟩ ∧ m.testBit (pos.getD 0 0) = true ∧
      (∀ j, j < p → m.testBit (pos.getD (j + 1) 0) = i.testBit j) ∧
      options.min_samples_leaf ≤ r.D1_counts.sum ∧ options.min_samples_leaf ≤ r.D2_counts.sum ∧
      r.D1_counts.length = K ∧ r.D2_counts.length = K ∧
      ∀ k, k < K → r.D1_counts.getD k 0 + r.D2_counts.getD k 0 = D_counts.getD k 0) ∧
    (subset_outer v options W K pos D_counts p is mask).Pairwise
      (fun r1 r2 => r1.split ≠ r2.split) := by
  intro is
  induction is with
  | nil => intro mask _ _ _ _ _; simp [subset_outer]
  | cons i is ih =>
    intro mask hnd hlt hm h0 h32
    have hi := hlt i (List.mem_cons_self _ _)
    -- the inner loop
    obtain ⟨m1, m2, m3⟩ := subset_inner_mask W K pos i (List.range p) mask
      (subset_add W K (List.replicate K 0) 0) hm
      (fun j hj => ⟨by have := List.mem_range.mp hj; omega,
        by have := hpos j (List.mem_range.mp hj); omega⟩)
      (List.nodup_range p)
      (fun j hj j2 hj2 => hinj j (List.mem_range.mp hj) j2 (List.mem_range.mp hj2))
    obtain ⟨a1, a2⟩ := subset_add_spec W K (List.replicate K 0) 0
    obtain ⟨c1, c2⟩ := subset_inner_counts W K pos i (List.range p) mask
      (subset_add W K (List.replicate K 0) 0) (by rw [a1]; simp)
    obtain ⟨st, hst⟩ : ∃ st, st = subset_inner W K pos i (List.range p)
      (mask, subset_add W K (List.replicate K 0) 0) := ⟨_, rfl⟩
    rw [← hst] at m1 m2 m3 c1 c2
    have hst0 : st.1.testBit (pos.getD 0 0) = true := by
      rw [m2 _ (fun j hj => h0ne j (List.mem_range.mp hj))]; exact h0
    have hst32 : ∀ b, st.1.testBit b = true → b < 32 := by
      intro b hb
      by_cases hex : ∃ j, j < p ∧ pos.getD (j + 1) 0 = b
      · obtain ⟨j, hj, rfl⟩ := hex
        exact hpos j hj
      · rw [m2 b (fun j hj hjb => hex ⟨j, List.mem_range.mp hj, hjb⟩)] at hb
        exact h32 b hb
    have hstlt : st.1 < 2 ^ 32 := by
      apply Nat.lt_pow_two_of_testBit
      intro b hb
      by_contra hne
      have := hst32 b (by simpa using hne)
      omega
    obtain ⟨ih1, ih2⟩ := ih st.1 (List.nodup_cons.mp hnd).2
      (fun i2 hi2 => hlt i2 (List.mem_cons_of_mem _ hi2)) m1 hst0 hst32
    -- the counts
    have hD1 : ∀ k, k < K → st.2.getD k 0 ≤ D_counts.getD k 0 := by
      intro k hk
      rw [c2 k hk, a2 k]
      simp only [hk, List.length_replicate, and_self, if_true]
      have e0 : (List.replicate K 0).getD k 0 = 0 := by
        simp [List.getD_eq_getElem?_getD, List.getElem?_replicate, hk]
      rw [e0]
      have := hbound (0 :: ((List.range p).filter (fun j => is_bit_set i j)).map (fun j => j + 1))
        (by
          rw [List.nodup_cons]
          refine ⟨by simp, ?_⟩
          exact ((List.nodup_range p).filter _).map (fun a b h => by omega)) k hk
      simp only [List.map_cons, List.sum_cons, List.map_map] at this
      simpa [Function.comp] using this
    have hsplit : subset_split.make v st.1 = ⟨v, st.1⟩ := by
      unfold subset_split.make
      rw [Nat.mod_eq_of_lt hstlt]
    have hD2len : ((List.range K).map
        (fun k => D_counts.getD k 0 - st.2.getD k 0)).length = K := by simp
    have hD2 : ∀ k, k < K → ((List.range K).map
        (fun k => D_counts.getD k 0 - st.2.getD k 0)).getD k 0 =
        D_counts.getD k 0 - st.2.getD k 0 := by
      intro k hk
      rw [List.getD_eq_getElem _ _ (by simpa using hk)]
      simp
    have henc : ∀ j, j < p → st.1.testBit (pos.getD (j + 1) 0) = i.testBit j :=
      fun j hj => m3 j (List.mem_range.mpr hj)
    have hne_rest : ∀ r ∈ subset_outer v options W K pos D_counts p is st.1,
        splitting_criterion.subset ⟨v, st.1⟩ ≠ r.split := by
      intro r hr heq
      obtain ⟨i2, hi2, m, hm1, _, hm3, _⟩ := ih1 r hr
      rw [hm1] at heq
      have hmm : st.1 = m := by
        injection heq with h; injection h
      have hii : i = i2 := by
        apply Nat.eq_of_testBit_eq
        intro j
        by_cases hj : j < p
        · rw [← henc j hj, ← hm3 j hj, hmm]
        · rw [testBit_false_of_lt_of_le i p j hi (by omega),
            testBit_false_of_lt_of_le i2 p j (hlt i2 (List.mem_cons_of_mem _ hi2)) (by omega)]
      subst hii
      exact (List.nodup_cons.mp hnd).1 hi2
    simp only [subset_outer, ← hst]
    split_ifs with hcond
    · constructor
      · intro r hr
        rcases List.mem_cons.mp hr with rfl | hr
        · refine ⟨i, List.mem_cons_self _ _, st.1, by simp [hsplit], hst0, henc,
            hcond.1, hcond.2, c1, hD2len, ?_⟩
          intro k hk
          simp only []
          rw [hD2 k hk]
          have := hD1 k hk
          omega
        · obtain ⟨i2, hi2, rest⟩ := ih1 r hr
          exact ⟨i2, List.mem_cons_of_mem _ hi2, rest⟩
      · rw [List.pairwise_cons]
        refine ⟨?_, ih2⟩
        intro r hr
        simp only [hsplit]
        exact hne_rest r hr
    · constructor
      · intro r hr
        obtain ⟨i2, hi2, rest⟩ := ih1 r hr
        exact ⟨i2, List.mem_cons_of_mem _ hi2, rest⟩
      · exact ih2

/-- The samples before `Iend` after the first lines of an enumerator: they are samples of
`I`, without a missing value of `v` when missing values are supported. -/
theorem sort_range_take_mem (D : dataset) (I : List Nat) (v : Nat)
    (options : decision_tree_options) :
    ∀ i ∈ (sort_range D I v options).1.take (sort_range D I v options).2,
      i ∈ I ∧ (options.support_missing_values = true → is_missing (D.at i v) = false) := by
  intro i hi
  refine ⟨(sort_range_perm D I v options).subset (List.mem_of_mem_take hi), ?_⟩
  intro hm
  unfold sort_range at hi
  simp only [hm, if_true] at hi
  rw [← (std_sort_perm (fun i1 i2 => (D.at i1 v).lt (D.at i2 v))
    (std_partition_pure (fun i => !is_missing (D.at i v)) I).1).length_eq,
    List.take_left] at hi
  have hi2 := (std_sort_perm _ _).subset hi
  unfold std_partition_pure at hi2
  obtain ⟨_, hs⟩ := std_partition_left _ _ _ i hi2
  simpa using hs

theorem subset_pos_mem (W : List Nat) (K ncat_v c : Nat) (h : c ∈ subset_pos W K ncat_v) :
    c < ncat_v ∧ ∃ j, j < K ∧ 0 < W.getD (c * K + j) 0 := by
  unfold subset_pos at h
  rw [List.mem_filter] at h
  refine ⟨List.mem_range.mp h.1, ?_⟩
  have := h.2
  rw [List.any_eq_true] at this
  obtain ⟨j, hj, hW⟩ := this
  exact ⟨j, List.mem_range.mp hj, by simpa using hW⟩

theorem subset_pos_nodup (W : List Nat) (K ncat_v : Nat) : (subset_pos W K ncat_v).Nodup :=
  (List.nodup_range ncat_v).filter _

theorem subset_pos_length (W : List Nat) (K ncat_v : Nat) :
    (subset_pos W K ncat_v).length ≤ ncat_v := by
  unfold subset_pos
  exact le_trans (List.length_filter_le _ _) (by simp)

/-- Claim C11: for a variable with at most 32 categories (and classes below the class count)
`enumerate_subset_splits` returns, its reports are subset splits of `v` with pairwise
distinct masks, any two reported masks both hold a category that is present (so they are not
complements on the categories present), and in every report the sums of the two count vectors
are at least `min_samples_leaf` and the counts of class `k` add up to the class count of
`I`. -/
theorem enumerate_subset_splits_masks (D : dataset) (I : List Nat) (v : Nat)
    (options : decision_tree_options) (hcat : D.category_counts.getD v 0 ≤ 32)
    (hclass : ∀ i ∈ I, D.class_of i < D.class_count) :
    ∃ s reports, enumerate_subset_splits D I v options = some (s, reports) ∧
      (reports.map (fun r => r.split)).Nodup ∧
      (∀ r ∈ reports, (∃ mask, r.split = .subset ⟨v, mask⟩) ∧
        options.min_samples_leaf ≤ r.D1_counts.sum ∧
        options.min_samples_leaf ≤ r.D2_counts.sum ∧
        ∀ k, k < D.class_count → r.D1_counts.getD k 0 + r.D2_counts.getD k 0 =
          (count_classes D D.class_count I).getD k 0) ∧
      (∀ r1 ∈ reports, ∀ r2 ∈ reports, ∀ m1 m2, r1.split = .subset ⟨v, m1⟩ →
        r2.split = .subset ⟨v, m2⟩ →
        ∃ c, category_present D options I v c ∧ is_bit_set m1 c = true ∧
          is_bit_set m2 c = true) := by
  unfold enumerate_subset_splits
  simp only []
  have hle : ¬ D.category_counts.getD v 0 > subset_split.max_subset_size := by
    unfold subset_split.max_subset_size; omega
  rw [if_neg hle]
  by_cases hn : (sort_range D I v options).2 = 0
  · rw [if_pos hn]
    exact ⟨_, _, rfl, by simp, by simp, by simp⟩
  rw [if_neg hn]
  refine ⟨_, _, rfl, ?_⟩
  obtain ⟨K, hK⟩ : ∃ K, K = D.class_count := ⟨_, rfl⟩
  obtain ⟨n, hn2⟩ : ∃ n, n = D.category_counts.getD v 0 := ⟨_, rfl⟩
  obtain ⟨s, hs⟩ : ∃ s, s = (sort_range D I v options).1 := ⟨_, rfl⟩
  obtain ⟨I1, hI1⟩ : ∃ I1, I1 = s.take (sort_range D I v options).2 := ⟨_, rfl⟩
  obtain ⟨W, hW⟩ : ∃ W, W = subset_table D v K n I1 := ⟨_, rfl⟩
  obtain ⟨pos, hpos⟩ : ∃ pos, pos = subset_pos W K n := ⟨_, rfl⟩
  rw [← hK, ← hn2, ← hs, ← hI1, ← hW, ← hpos]
  have hperm : s.Perm I := by rw [hs]; exact sort_range_perm D I v options
  have hI1mem := sort_range_take_mem D I v options
  rw [← hs, ← hI1] at hI1mem
  have hI1class : ∀ i ∈ I1, D.class_of i < K := by
    intro i hi; rw [hK]; exact hclass i (hI1mem i hi).1
  have hposmem : ∀ c ∈ pos, c < 32 ∧ category_present D options I v c := by
    intro c hc
    rw [hpos] at hc
    obtain ⟨h1, j, hj, hWj⟩ := subset_pos_mem W K n c hc
    refine ⟨by omega, ?_⟩
    have hle2 := subset_table_le D v K n I1 (c * K + j)
    rw [← hW] at hle2
    have := lt_of_lt_of_le hWj hle2
    rw [List.countP_pos_iff] at this
    obtain ⟨i, hi, hfi⟩ := this
    simp only [decide_eq_true_eq] at hfi
    have hyi := hI1class i hi
    refine ⟨i, (hI1mem i hi).1, ?_, (hI1mem i hi).2⟩
    have h1 : ((D.at i v).to_size_t * K + D.class_of i) / K = (c * K + j) / K := by rw [hfi]
    rw [Nat.mul_comm, Nat.mul_add_div (by omega), Nat.mul_comm c K, Nat.mul_add_div (by omega),
      Nat.div_eq_of_lt hyi, Nat.div_eq_of_lt hj] at h1
    simpa using h1
  have hnd : pos.Nodup := by rw [hpos]; exact subset_pos_nodup W K n
  have hlen : pos.length ≤ 32 := by
    rw [hpos]; exact le_trans (subset_pos_length W K n) (by omega)
  rcases List.eq_nil_or_concat pos with hnil | ⟨_, _, hcc⟩
  · rw [hnil]
    simp [subset_outer]
  have hposlen : 0 < pos.length := by rw [hcc]; simp
  clear hcc
  have hget : ∀ a, a < pos.length → pos.getD a 0 ∈ pos := by
    intro a ha
    rw [List.getD_eq_getElem _ _ ha]
    exact List.getElem_mem _
  have hbound : ∀ (R : List Nat), R.Nodup → ∀ k, k < K →
      (R.map (fun r => W.getD (r * K + k) 0)).sum ≤ (compute_class_counts D s K).getD k 0 := by
    intro R hR k hk
    rw [hW]
    refine le_trans (subset_table_rows_le D v K n R hR k hk I1 hI1class) ?_
    rw [compute_class_counts_eq, count_classes_getD _ _ _ _ hk, hI1]
    exact (List.take_sublist _ _).countP_le _
  obtain ⟨spec1, spec2⟩ := subset_outer_spec v options W K pos (compute_class_counts D s K)
    (pos.length - 1) (by omega)
    (fun j hj => (hposmem _ (hget (j + 1) (by omega))).1)
    (fun j hj j2 hj2 h => by
      rw [List.getD_eq_getElem _ _ (by omega : j + 1 < pos.length),
        List.getD_eq_getElem _ _ (by omega : j2 + 1 < pos.length)] at h
      have := (List.Nodup.getElem_inj_iff hnd).mp h
      omega)
    (fun j hj h => by
      rw [List.getD_eq_getElem _ _ (by omega : j + 1 < pos.length),
        List.getD_eq_getElem _ _ hposlen] at h
      have := (List.Nodup.getElem_inj_iff hnd).mp h
      omega)
    hbound (List.range (2 ^ (pos.length - 1) - 1)) (set_bit 0 (pos.getD 0 0) true)
    (List.nodup_range _)
    (fun i hi => by
      have := List.mem_range.mp hi
      have : 0 < 2 ^ (pos.length - 1) := Nat.two_pow_pos _
      omega)
    (set_bit_lt _ _ _ (by norm_num))
    (by
      rw [set_bit_testBit _ _ _ (by have := (hposmem _ (hget 0 hposlen)).1; omega)
        (by norm_num), if_pos rfl])
    (by
      intro b hb
      rw [set_bit_testBit _ _ _ (by have := (hposmem _ (hget 0 hposlen)).1; omega)
        (by norm_num)] at hb
      by_cases hb0 : b = pos.getD 0 0
      · rw [hb0]; exact (hposmem _ (hget 0 hposlen)).1
      · rw [if_neg hb0] at hb; simp at hb)
  refine ⟨?_, ?_, ?_⟩
  · rw [List.Nodup, List.pairwise_map]
    exact spec2
  · intro r hr
    obtain ⟨i, _, m, h1, _, _, h4, h5, _, _, h8⟩ := spec1 r hr
    refine ⟨⟨m, h1⟩, h4, h5, ?_⟩
    intro k hk
    rw [h8 k hk, compute_class_counts_eq, count_classes_perm D K s I hperm]
  · intro r1 hr1 r2 hr2 m1 m2 e1 e2
    obtain ⟨_, _, m, h1, h2, _⟩ := spec1 r1 hr1
    obtain ⟨_, _, m', h1', h2', _⟩ := spec1 r2 hr2
    rw [e1] at h1
    rw [e2] at h1'
    have hm1 : m1 = m := by injection h1 with h; injection h
    have hm2 : m2 = m' := by injection h1' with h; injection h
    have h0 := hposmem _ (hget 0 hposlen)
    refine ⟨pos.getD 0 0, h0.2, ?_, ?_⟩
    · rw [is_bit_set_eq_testBit _ _ (by omega), hm1]; exact h2
    · rw [is_bit_set_eq_testBit _ _ (by omega), hm2]; exact h2'

theorem enumerate_subset_splits_masks_witness :
    ∃ s reports, enumerate_subset_splits test_subset_split_dataset
        [0, 1, 2, 3, 4, 5, 6, 7, 8, 9] 0 { min_samples_leaf := 3 } = some (s, reports) ∧
      (reports.map (fun r => r.split)).Nodup ∧
      (∀ r ∈ reports, (∃ mask, r.split = .subset ⟨0, mask⟩) ∧
        3 ≤ r.D1_counts.sum ∧ 3 ≤ r.D2_counts.sum ∧
        ∀ k, k < test_subset_split_dataset.class_count →
          r.D1_counts.getD k 0 + r.D2_counts.getD k 0 =
            (count_classes test_subset_split_dataset test_subset_split_dataset.class_count
              [0, 1, 2, 3, 4, 5, 6, 7, 8, 9]).getD k 0) ∧
      (∀ r1 ∈ reports, ∀ r2 ∈ reports, ∀ m1 m2, r1.split = .subset ⟨0, m1⟩ →
        r2.split = .subset ⟨0, m2⟩ →
        ∃ c, category_present test_subset_split_dataset { min_samples_leaf := 3 }
            [0, 1, 2, 3, 4, 5, 6, 7, 8, 9] 0 c ∧ is_bit_set m1 c = true ∧
          is_bit_set m2 c = true) :=
  enumerate_subset_splits_masks test_subset_split_dataset [0, 1, 2, 3, 4, 5, 6, 7, 8, 9] 0
    { min_samples_leaf := 3 } (by decide) (by decide)





/-! ## Graph lemmas -/

theorem successors_of_ge (pc : probabilistic_circuit) (u : Nat) (h : pc.nodes.length ≤ u) :
    pc.successors u = [] := by
  unfold probabilistic_circuit.successors probabilistic_circuit.node
  rw [List.getD_eq_default _ _ h]

theorem acyclic_all (pc : probabilistic_circuit) (rank : Nat → Nat) (h : pc.acyclic rank)
    (u v : Nat) (hv : v ∈ pc.successors u) : rank v < rank u := by
  by_cases hu : u < pc.nodes.length
  · exact h u hu v hv
  · rw [successors_of_ge pc u (by omega)] at hv
    simp at hv

theorem reachable_lt (pc : probabilistic_circuit) (hc : pc.closed) (u : Nat)
    (h : pc.reachable u) : u < pc.nodes.length := by
  unfold probabilistic_circuit.reachable at h
  induction h with
  | refl => exact hc.1
  | tail _ hbc ih => exact hc.2 _ ih _ hbc

/-! ## `topological_ordering(pc)` -/

/-- The weight of the white nodes in the measure of the loops of `topological_ordering`. -/
theorem sum_map_update_ne {n : Nat} (f g : Nat → Nat) (v : Nat) (hv : v < n)
    (hfg : ∀ w, w ≠ v → g w = f w) :
    ((List.range n).map f).sum + g v = ((List.range n).map g).sum + f v := by
  induction n with
  | zero => omega
  | succ n ih =>
    rw [List.range_succ, List.map_append, List.map_append, List.sum_append, List.sum_append]
    simp only [List.map_cons, List.map_nil, List.sum_cons, List.sum_nil, add_zero]
    by_cases hvn : v = n
    · subst hvn
      have : (List.range v).map g = (List.range v).map f := by
        apply List.map_congr_left
        intro w hw
        exact hfg w (by have := List.mem_range.mp hw; omega)
      rw [this]; omega
    · have := ih (by omega)
      have := hfg n (fun h => hvn h.symm)
      omega

theorem successors_first_append (pc : probabilistic_circuit) (L : List Nat) (u : Nat)
    (h : pc.successors_first L) (hu : ∀ v ∈ pc.successors u, v ∈ L) :
    pc.successors_first (L ++ [u]) := by
  intro k hk v hv
  simp only [List.length_append, List.length_singleton] at hk
  by_cases hkl : k < L.length
  · rw [List.getD_append _ _ _ _ hkl] at hv
    rw [List.take_append_of_le_length (by omega)]
    exact h k hkl v hv
  · have hkeq : k = L.length := by omega
    subst hkeq
    rw [List.getD_append_right _ _ _ _ (le_refl _)] at hv
    simp only [Nat.sub_self, List.getD_cons_zero] at hv
    rw [List.take_append_of_le_length (le_refl _), List.take_length]
    exact hu v hv

/-- A list that holds the root and the successors of its nodes holds every reachable node. -/
theorem reachable_mem_of_closed (pc : probabilistic_circuit) (L : List Nat)
    (hroot : pc.root ∈ L) (h : pc.successors_first L) (u : Nat) (hu : pc.reachable u) :
    u ∈ L := by
  unfold probabilistic_circuit.reachable at hu
  induction hu with
  | refl => exact hroot
  | tail _ hbc ih =>
    obtain ⟨k, hk, hget⟩ := List.getElem_of_mem ih
    have := h k hk _ (by
      rw [List.getD_eq_getElem _ _ hk, hget]; exact hbc)
    exact List.mem_of_mem_take this

/-- The loops of `topological_ordering(pc)` end, with enough fuel, on a list without
duplicates that holds the reachable nodes, every node after its successors, and the root
last. -/
theorem dfs_loop_spec (pc : probabilistic_circuit) (rank : Nat → Nat) (hc : pc.closed)
    (ha : pc.acyclic rank) :
    ∀ (fuel u : Nat) (E : List Nat) (color : Nat → colors) (result : List Nat)
      (dfs_stack : List (Nat × List Nat)),
    dfs_inv pc rank u E color result dfs_stack → dfs_measure pc E color dfs_stack ≤ fuel →
    ∃ L, dfs_loop pc fuel u E color result dfs_stack = some L ∧ L.Nodup ∧
      (∀ w, w ∈ L ↔ pc.reachable w) ∧ pc.successors_first L ∧ L.getLast? = some pc.root := by
  intro fuel
  induction fuel with
  | zero =>
    intro u E color result dfs_stack _ hm
    unfold dfs_measure at hm
    omega
  | succ fuel ih =>
    intro u E color result dfs_stack inv hm
    have hu_gray : color u = colors.gray := (inv.gray_iff u).mpr (List.mem_cons_self _ _)
    have hu_nres : u ∉ result := fun h => by
      have := (inv.black_iff u).mpr h
      rw [hu_gray] at this
      exact absurd this (by decide)
    -- when the range of `u` is empty, all successors of `u` are in `result`
    have hsucc_black : E = [] → ∀ v ∈ pc.successors u, v ∈ result := by
      intro hE v hv
      have h1 := inv.seen (u, E) (List.mem_cons_self _ _) v hv
      simp only [hE, List.not_mem_nil, false_or] at h1
      have hrank := acyclic_all pc rank ha u v hv
      rcases hcv : color v with _ | _ | _
      · exact absurd hcv h1
      · exfalso
        have hmem := (inv.gray_iff v).mp hcv
        rcases List.mem_cons.mp hmem with rfl | hmem
        · omega
        · have := (List.pairwise_cons.mp inv.ranks).1 v hmem
          omega
      · exact (inv.black_iff v).mp hcv
    cases E with
    | nil =>
      cases dfs_stack with
      | nil =>
        refine ⟨result ++ [u], by simp [dfs_loop], ?_, ?_, ?_, ?_⟩
        · exact List.Nodup.append inv.result_nodup (List.nodup_singleton u)
            (by simpa using hu_nres)
        · have hroot : u = pc.root := by
            have := inv.bottom
            simpa using this
          have htopo := successors_first_append pc result u inv.topo (hsucc_black rfl)
          intro w
          constructor
          · intro hw
            rcases List.mem_append.mp hw with hw | hw
            · exact inv.reach w (by rw [(inv.black_iff w).mpr hw]; decide)
            · have : w = u := by simpa using hw
              rw [this, hroot]; exact Relation.ReflTransGen.refl
          · exact reachable_mem_of_closed pc _ (by rw [← hroot]; simp) htopo w
        · exact successors_first_append pc result u inv.topo (hsucc_black rfl)
        · have hroot : u = pc.root := by
            have := inv.bottom
            simpa using this
          simp [hroot]
      | cons e dfs_stack =>
        obtain ⟨u2, E2⟩ := e
        simp only [dfs_loop]
        have hne : u2 ≠ u := by
          have := (List.pairwise_cons.mp inv.ranks).1 u2 (by simp)
          intro h; rw [h] at this; omega
        apply ih
        · constructor
          · intro w
            rw [Function.update_apply]
            by_cases hw : w = u
            · subst hw; simp
            · rw [if_neg hw, inv.black_iff w]; simp [hw]
          · intro w
            rw [Function.update_apply]
            by_cases hw : w = u
            · subst hw
              simp only [if_true]
              constructor
              · intro h; exact absurd h (by decide)
              · intro h
                exfalso
                have h2 := (List.pairwise_cons.mp inv.ranks).1 w (by simpa using h)
                omega
            · rw [if_neg hw, inv.gray_iff w]
              simp [hw]
          · exact (List.pairwise_cons.mp inv.ranks).2
          · exact List.Nodup.append inv.result_nodup (List.nodup_singleton u)
              (by simpa using hu_nres)
          · intro e he v hv
            have h1 := inv.seen e (List.mem_cons_of_mem _ he) v hv
            rcases h1 with h1 | h1
            · exact Or.inl h1
            · right
              rw [Function.update_apply]
              by_cases hvu : v = u
              · simp [hvu]
              · rw [if_neg hvu]; exact h1
          · intro e he v hv
            exact inv.sub e (List.mem_cons_of_mem _ he) v hv
          · exact successors_first_append pc result u inv.topo (hsucc_black rfl)
          · intro w hw
            rw [Function.update_apply] at hw
            by_cases hwu : w = u
            · subst hwu
              exact inv.reach w (by rw [hu_gray]; decide)
            · rw [if_neg hwu] at hw; exact inv.reach w hw
          · have := inv.bottom
            simpa [List.getLast?_cons_cons] using this
        · unfold dfs_measure at hm ⊢
          have hkeep : (List.range pc.nodes.length).map (fun w =>
              if Function.update color u colors.black w = colors.white
              then (pc.successors w).length + 2 else 0) =
              (List.range pc.nodes.length).map (fun w =>
              if color w = colors.white then (pc.successors w).length + 2 else 0) := by
            apply List.map_congr_left
            intro w _
            rw [Function.update_apply]
            by_cases hwu : w = u
            · subst hwu; simp [hu_gray]
            · rw [if_neg hwu]
          rw [hkeep]
          simp only [List.map_cons, List.sum_cons, List.length_nil] at hm
          omega
    | cons v E =>
      simp only [dfs_loop]
      have hvsucc : v ∈ pc.successors u :=
        inv.sub (u, v :: E) (List.mem_cons_self _ _) v (List.mem_cons_self _ _)
      by_cases hcv : color v = colors.white
      · rw [if_pos hcv]
        have hvrank := acyclic_all pc rank ha u v hvsucc
        have hvreach : pc.reachable v :=
          Relation.ReflTransGen.tail (inv.reach u (by rw [hu_gray]; decide)) hvsucc
        apply ih
        · constructor
          · intro w
            rw [Function.update_apply]
            by_cases hw : w = v
            · subst hw
              simp only [if_true]
              constructor
              · intro h; exact absurd h (by decide)
              · intro h
                have := (inv.black_iff w).mpr h
                rw [hcv] at this; exact absurd this (by decide)
            · rw [if_neg hw, inv.black_iff w]
          · intro w
            rw [Function.update_apply]
            by_cases hw : w = v
            · subst hw; simp
            · rw [if_neg hw, inv.gray_iff w]
              simp [hw]
          · simp only [List.map_cons]
            rw [List.pairwise_cons]
            refine ⟨?_, inv.ranks⟩
            intro w hw
            rcases List.mem_cons.mp hw with rfl | hw
            · exact hvrank
            · have := (List.pairwise_cons.mp inv.ranks).1 w hw
              omega
          · exact inv.result_nodup
          · intro e he x hx
            rcases List.mem_cons.mp he with rfl | he
            · exact Or.inl hx
            · have hupd : ∀ y, color y ≠ colors.white →
                  Function.update color v colors.gray y ≠ colors.white := by
                intro y hy
                rw [Function.update_apply]
                by_cases hyv : y = v
                · simp [hyv]
                · rw [if_neg hyv]; exact hy
              rcases List.mem_cons.mp he with rfl | he
              · have h1 := inv.seen (u, v :: E) (List.mem_cons_self _ _) x hx
                rcases h1 with h1 | h1
                · rcases List.mem_cons.mp h1 with rfl | h1
                  · right; simp
                  · exact Or.inl h1
                · exact Or.inr (hupd x h1)
              · have h1 := inv.seen e (List.mem_cons_of_mem _ he) x hx
                rcases h1 with h1 | h1
                · exact Or.inl h1
                · exact Or.inr (hupd x h1)
          · intro e he x hx
            rcases List.mem_cons.mp he with rfl | he
            · exact hx
            · rcases List.mem_cons.mp he with rfl | he
              · exact inv.sub (u, v :: E) (List.mem_cons_self _ _) x (List.mem_cons_of_mem _ hx)
              · exact inv.sub e (List.mem_cons_of_mem _ he) x hx
          · exact inv.topo
          · intro w hw
            by_cases hwv : w = v
            · subst hwv; exact hvreach
            · rw [Function.update_apply, if_neg hwv] at hw
              exact inv.reach w hw
          · have := inv.bottom
            simp only [List.map_cons]
            rw [List.getLast?_cons_cons]
            exact this
        · unfold dfs_measure at hm ⊢
          have hvlt := reachable_lt pc hc v hvreach
          have key := sum_map_update_ne
            (fun w => if color w = colors.white then (pc.successors w).length + 2 else 0)
            (fun w => if Function.update color v colors.gray w = colors.white
              then (pc.successors w).length + 2 else 0) v hvlt
            (by
              intro w hw
              simp only [Function.update_apply, if_neg hw])
          simp only [Function.update_same, hcv, if_true] at key
          simp only [List.map_cons, List.sum_cons, List.length_cons] at hm ⊢
          have : (if colors.gray = colors.white then (pc.successors v).length + 2 else 0) = 0 := by
            simp
          rw [this] at key
          omega
      · rw [if_neg hcv]
        apply ih
        · constructor
          · exact inv.black_iff
          · exact inv.gray_iff
          · exact inv.ranks
          · exact inv.result_nodup
          · intro e he x hx
            rcases List.mem_cons.mp he with rfl | he
            · have h1 := inv.seen (u, v :: E) (List.mem_cons_self _ _) x hx
              rcases h1 with h1 | h1
              · rcases List.mem_cons.mp h1 with rfl | h1
                · exact Or.inr hcv
                · exact Or.inl h1
              · exact Or.inr h1
            · exact inv.seen e (List.mem_cons_of_mem _ he) x hx
          · intro e he x hx
            rcases List.mem_cons.mp he with rfl | he
            · exact inv.sub (u, v :: E) (List.mem_cons_self _ _) x (List.mem_cons_of_mem _ hx)
            · exact inv.sub e (List.mem_cons_of_mem _ he) x hx
          · exact inv.topo
          · exact inv.reach
          · exact inv.bottom
        · unfold dfs_measure at hm ⊢
          simp only [List.length_cons] at hm
          omega

/-! ## `visit_nodes_bfs(pc, f)` -/

theorem visit_count_fuel (pc : probabilistic_circuit) (rank : Nat → Nat) (ha : pc.acyclic rank) :
    ∀ (f1 f2 u : Nat), rank u < f1 → rank u < f2 →
    pc.visit_count f1 u = pc.visit_count f2 u := by
  intro f1
  induction f1 with
  | zero => intro f2 u h; omega
  | succ f1 ih =>
    intro f2 u h1 h2
    cases f2 with
    | zero => omega
    | succ f2 =>
      simp only [probabilistic_circuit.visit_count]
      congr 1
      congr 1
      apply List.map_congr_left
      intro v hv
      have := acyclic_all pc rank ha u v hv
      exact ih f2 v (by omega) (by omega)

theorem visit_count_succ (pc : probabilistic_circuit) (rank : Nat → Nat) (ha : pc.acyclic rank)
    (u : Nat) :
    pc.visit_count (rank u + 1) u =
      1 + ((pc.successors u).map (fun v => pc.visit_count (rank v + 1) v)).sum := by
  simp only [probabilistic_circuit.visit_count]
  congr 1
  congr 1
  apply List.map_congr_left
  intro v hv
  have := acyclic_all pc rank ha u v hv
  exact visit_count_fuel pc rank ha (rank u) (rank v + 1) v (by omega) (by omega)

/-- The loop of `visit_nodes_bfs(pc, f)` ends on an acyclic circuit: it makes
`visit_count` calls of `f` for every node of the queue, on the nodes that are reachable from
a node of the queue. -/
theorem pc_visit_nodes_bfs_loop_spec (pc : probabilistic_circuit) (rank : Nat → Nat)
    (ha : pc.acyclic rank) :
    ∀ (n fuel : Nat) (st : bfs_state),
    (st.todo.map (fun v => pc.visit_count (rank v + 1) v)).sum = n → n ≤ fuel →
    ∃ st2 vis, pc.visit_nodes_bfs_loop fuel st = some st2 ∧ st2.out = st.out ++ vis ∧
      vis.length = n ∧
      ∀ w, w ∈ vis.map Prod.fst ↔
        ∃ q ∈ st.todo, Relation.ReflTransGen (fun a b => b ∈ pc.successors a) q w := by
  intro n
  induction n using Nat.strong_induction_on with
  | _ n ih =>
    intro fuel st hn hfuel
    rcases hst : st.todo with _ | ⟨u, todo⟩
    · refine ⟨st, [], ?_, by simp, ?_, ?_⟩
      · cases fuel <;> simp [probabilistic_circuit.visit_nodes_bfs_loop, hst]
      · rw [hst] at hn; simpa using hn
      · intro w; simp
    · rw [hst] at hn
      simp only [List.map_cons, List.sum_cons] at hn
      rw [visit_count_succ pc rank ha u] at hn
      cases fuel with
      | zero => omega
      | succ fuel =>
        obtain ⟨st1, hst1⟩ : ∃ st1, st1 = pc.visit_nodes_bfs_step st := ⟨_, rfl⟩
        have htodo : st1.todo = todo ++ pc.successors u := by
          rw [hst1]
          unfold probabilistic_circuit.visit_nodes_bfs_step
          rw [hst]
          simp only []
          by_cases he : (pc.successors u).isEmpty = true
          · have : pc.successors u = [] := List.isEmpty_iff.mp he
            split_ifs <;> simp [this]
          · split_ifs <;> simp
        have hout : st1.out = st.out ++ [(u, st.depth)] := by
          rw [hst1]
          unfold probabilistic_circuit.visit_nodes_bfs_step
          rw [hst]
          simp only []
          split_ifs <;> rfl
        obtain ⟨st2, vis, h1, h2, h3, h4⟩ := ih (n - 1) (by omega) fuel st1
          (by
            rw [htodo, List.map_append, List.sum_append]
            omega)
          (by omega)
        refine ⟨st2, (u, st.depth) :: vis, ?_, ?_, ?_, ?_⟩
        · simp only [probabilistic_circuit.visit_nodes_bfs_loop, hst]
          rw [if_neg (by simp), ← hst1]
          exact h1
        · rw [h2, hout]; simp
        · simp only [List.length_cons, h3]; omega
        · intro w
          simp only [List.map_cons, List.mem_cons]
          rw [h4 w, htodo]
          constructor
          · rintro (rfl | ⟨q, hq, hr⟩)
            · exact ⟨w, Or.inl rfl, Relation.ReflTransGen.refl⟩
            · rcases List.mem_append.mp hq with hq | hq
              · exact ⟨q, Or.inr hq, hr⟩
              · exact ⟨u, Or.inl rfl, Relation.ReflTransGen.head hq hr⟩
          · rintro ⟨q, hq, hr⟩
            rcases hq with rfl | hq
            · rcases Relation.ReflTransGen.cases_head hr with h | ⟨c, hc, hr2⟩
              · exact Or.inl h.symm
              · exact Or.inr ⟨c, List.mem_append_right _ hc, hr2⟩
            · exact Or.inr ⟨q, List.mem_append_left _ hq, hr⟩

/-- The function `visit_nodes_bfs(pc, f)` ends on an acyclic circuit and calls `f` on the
reachable nodes, `visit_count` times in total. -/
theorem pc_visit_nodes_bfs_spec (pc : probabilistic_circuit) (rank : Nat → Nat)
    (ha : pc.acyclic rank) (fuel : Nat) (hfuel : pc.visit_count (rank pc.root + 1) pc.root ≤ fuel) :
    ∃ out, pc.visit_nodes_bfs fuel = some out ∧
      out.length = pc.visit_count (rank pc.root + 1) pc.root ∧
      ∀ w, w ∈ out.map Prod.fst ↔ pc.reachable w := by
  obtain ⟨st2, vis, h1, h2, h3, h4⟩ := pc_visit_nodes_bfs_loop_spec pc rank ha _ fuel
    { todo := [pc.root], depth := 0, level := 1, out := [] } rfl (by simpa using hfuel)
  refine ⟨vis, ?_, by simpa using h3, ?_⟩
  · unfold probabilistic_circuit.visit_nodes_bfs
    rw [h1]
    simp at h2
    simp [h2]
  · intro w
    rw [h4 w]
    simp [probabilistic_circuit.reachable]

/-- The function `topological_ordering(pc)` on a circuit without cycles: with enough fuel it
returns a list without duplicates of the nodes that are reachable from the root, in which
every node comes after its successors and the root is last. -/
theorem pc_topological_ordering_spec (pc : probabilistic_circuit) (rank : Nat → Nat)
    (hc : pc.closed) (ha : pc.acyclic rank) :
    ∃ fuel0, ∀ fuel, fuel0 ≤ fuel → ∃ L, pc.topological_ordering fuel = some L ∧ L.Nodup ∧
      (∀ w, w ∈ L ↔ pc.reachable w) ∧ pc.successors_first L ∧
      L.getLast? = some pc.root := by
  refine ⟨pc.visit_count (rank pc.root + 1) pc.root +
    dfs_measure pc (pc.successors pc.root)
      (Function.update (fun _ => colors.white) pc.root colors.gray) [], ?_⟩
  intro fuel hfuel
  obtain ⟨out, h1, _, _⟩ := pc_visit_nodes_bfs_spec pc rank ha fuel (by omega)
  have hinv : dfs_inv pc rank pc.root (pc.successors pc.root)
      (Function.update (fun _ => colors.white) pc.root colors.gray) [] [] := by
    constructor
    · intro w
      rw [Function.update_apply]
      by_cases hw : w = pc.root <;> simp [hw]
    · intro w
      rw [Function.update_apply]
      by_cases hw : w = pc.root <;> simp [hw]
    · simp
    · simp
    · intro e he v hv
      have : e = (pc.root, pc.successors pc.root) := by simpa using he
      subst this
      exact Or.inl hv
    · intro e he v hv
      have : e = (pc.root, pc.successors pc.root) := by simpa using he
      subst this
      exact hv
    · intro k hk; simp at hk
    · intro w hw
      rw [Function.update_apply] at hw
      by_cases hwr : w = pc.root
      · rw [hwr]; exact Relation.ReflTransGen.refl
      · simp [hwr] at hw
    · simp
  obtain ⟨L, hL, rest⟩ := dfs_loop_spec pc rank hc ha fuel _ _ _ _ _ hinv (by omega)
  refine ⟨L, ?_, rest⟩
  unfold probabilistic_circuit.topological_ordering probabilistic_circuit_size
  rw [h1]
  exact hL

/-! ## Recursive and iterative evaluation -/

theorem select_le_one (split : splitting_criterion) (x : List Value) : select split x ≤ 1 := by
  unfold select
  cases split with
  | monostate => simp
  | single s => simp only []; split_ifs <;> omega
  | subset s => simp only []; split_ifs <;> omega
  | threshold s => simp only []; split_ifs <;> omega

theorem sum_node_loop_congr (ev ev2 : Nat → outcome Value) (weights : List Value) :
    ∀ (vs : List Nat) (i : Nat) (result : Value), (∀ v ∈ vs, ev v = ev2 v) →
    sum_node_loop ev weights vs i result = sum_node_loop ev2 weights vs i result := by
  intro vs
  induction vs with
  | nil => intro i result _; rfl
  | cons v vs ih =>
    intro i result h
    simp only [sum_node_loop]
    rw [h v (List.mem_cons_self _ _)]
    cases ev2 v with
    | returned r => simp only []; exact ih _ _ (fun w hw => h w (List.mem_cons_of_mem _ hw))
    | exception => rfl
    | out_of_fuel => rfl

theorem product_node_loop_congr (ev ev2 : Nat → outcome Value) :
    ∀ (vs : List Nat) (result : Value), (∀ v ∈ vs, ev v = ev2 v) →
    product_node_loop ev vs result = product_node_loop ev2 vs result := by
  intro vs
  induction vs with
  | nil => intro result _; rfl
  | cons v vs ih =>
    intro result h
    simp only [product_node_loop]
    rw [h v (List.mem_cons_self _ _)]
    cases ev2 v with
    | returned r =>
      simp only []
      rw [ih _ (fun w hw => h w (List.mem_cons_of_mem _ hw))]
    | exception => rfl
    | out_of_fuel => rfl

theorem sum_split_node_body_congr (ev ev2 : Nat → outcome Value) (weights : List Value)
    (splitter : splitting_criterion) (vs : List Nat) (x : List Value)
    (h : ∀ v ∈ vs, ev v = ev2 v) :
    sum_split_node_body ev weights splitter vs x =
      sum_split_node_body ev2 weights splitter vs x := by
  unfold sum_split_node_body
  rcases hg : vs.get? (select splitter x) with _ | v
  · rfl
  · simp only []
    rw [h v (List.get?_mem hg)]

theorem sum_node_loop_returns (ev : Nat → outcome Value) (weights : List Value) :
    ∀ (vs : List Nat) (i : Nat) (result : Value), (∀ v ∈ vs, ∃ r, ev v = .returned r) →
    ∃ r, sum_node_loop ev weights vs i result = .returned r := by
  intro vs
  induction vs with
  | nil => intro i result _; exact ⟨result, rfl⟩
  | cons v vs ih =>
    intro i result h
    obtain ⟨r, hr⟩ := h v (List.mem_cons_self _ _)
    simp only [sum_node_loop, hr]
    exact ih _ _ (fun w hw => h w (List.mem_cons_of_mem _ hw))

theorem product_node_loop_returns (ev : Nat → outcome Value) :
    ∀ (vs : List Nat) (result : Value), (∀ v ∈ vs, ∃ r, ev v = .returned r) →
    ∃ r, product_node_loop ev vs result = .returned r := by
  intro vs
  induction vs with
  | nil => intro result _; exact ⟨result, rfl⟩
  | cons v vs ih =>
    intro result h
    obtain ⟨r, hr⟩ := h v (List.mem_cons_self _ _)
    simp only [product_node_loop, hr]
    split_ifs
    · exact ⟨_, rfl⟩
    · exact ih _ (fun w hw => h w (List.mem_cons_of_mem _ hw))

theorem sum_split_node_body_returns (ev : Nat → outcome Value) (weights : List Value)
    (splitter : splitting_criterion) (vs : List Nat) (x : List Value) (hlen : 2 ≤ vs.length)
    (h : ∀ v ∈ vs, ∃ r, ev v = .returned r) :
    ∃ r, sum_split_node_body ev weights splitter vs x = .returned r := by
  unfold sum_split_node_body
  have hs := select_le_one splitter x
  rcases hg : vs.get? (select splitter x) with _ | v
  · rw [List.get?_eq_none] at hg; omega
  · simp only []
    obtain ⟨r, hr⟩ := h v (List.get?_mem hg)
    rw [hr]
    exact ⟨_, rfl⟩

/-- Above the rank of the node the result of `evi` does not depend on the bound on the
depth. -/
theorem evi_fuel (lib : math_library) (pc : probabilistic_circuit) (x : List Value)
    (rank : Nat → Nat) (ha : pc.acyclic rank) :
    ∀ (f1 f2 u : Nat), rank u < f1 → rank u < f2 →
    pc_node.evi lib pc x f1 u = pc_node.evi lib pc x f2 u := by
  intro f1
  induction f1 with
  | zero => intro f2 u h; omega
  | succ f1 ih =>
    intro f2 u h1 h2
    cases f2 with
    | zero => omega
    | succ f2 =>
      have hsub : ∀ v ∈ pc.successors u,
          pc_node.evi lib pc x f1 v = pc_node.evi lib pc x f2 v := by
        intro v hv
        have := acyclic_all pc rank ha u v hv
        exact ih f2 v (by omega) (by omega)
      simp only [pc_node.evi]
      cases (pc.node u).kind with
      | sum w => exact sum_node_loop_congr _ _ _ _ _ _ hsub
      | sum_split w s => exact sum_split_node_body_congr _ _ _ _ _ _ hsub
      | product => exact product_node_loop_congr _ _ _ _ hsub
      | terminal scope dist => rfl

theorem node_mem (pc : probabilistic_circuit) (u : Nat) (hu : u < pc.nodes.length) :
    pc.node u ∈ pc.nodes := by
  unfold probabilistic_circuit.node
  rw [List.getD_eq_getElem _ _ hu]
  exact List.getElem_mem _

/-- The recursive evaluation returns a value on every reachable node when the circuit has no
cycle, its nodes are well formed and no reachable terminal node throws. -/
theorem evi_returns (lib : math_library) (pc : probabilistic_circuit) (x : List Value)
    (rank : Nat → Nat) (ha : pc.acyclic rank)
    (hwf : ∀ u, pc.reachable u → (pc.node u).well_formed = true)
    (hx : ∀ u, pc.reachable u → (pc.node u).throws lib x = false) :
    ∀ (fuel u : Nat), rank u < fuel → pc.reachable u →
    ∃ r, pc_node.evi lib pc x fuel u = .returned r := by
  intro fuel
  induction fuel with
  | zero => intro u h; omega
  | succ fuel ih =>
    intro u hr hu
    have hsub : ∀ v ∈ pc.successors u, ∃ r, pc_node.evi lib pc x fuel v = .returned r := by
      intro v hv
      have := acyclic_all pc rank ha u v hv
      exact ih v (by omega) (Relation.ReflTransGen.tail hu hv)
    have hw := hwf u hu
    have ht := hx u hu
    unfold pc_node.well_formed at hw
    unfold pc_node.throws at ht
    simp only [pc_node.evi]
    cases hk : (pc.node u).kind with
    | sum w => exact sum_node_loop_returns _ _ _ _ _ hsub
    | sum_split w s =>
      rw [hk] at hw
      simp only [decide_eq_true_eq] at hw
      exact sum_split_node_body_returns _ _ _ _ _ hw.1 hsub
    | product => exact product_node_loop_returns _ _ _ hsub
    | terminal scope dist =>
      rw [hk] at ht
      simp only [] at ht
      cases hte : terminal_evi lib scope dist x with
      | none => rw [hte] at ht; simp at ht
      | some r => exact ⟨r, by simp only [hte]⟩

theorem log_sum_node_loop_congr (lib : math_library) (ev ev2 : Nat → outcome Value)
    (weights : List Value) :
    ∀ (vs : List Nat) (i : Nat) (result : List Value), (∀ v ∈ vs, ev v = ev2 v) →
    log_sum_node_loop lib ev weights vs i result =
      log_sum_node_loop lib ev2 weights vs i result := by
  intro vs
  induction vs with
  | nil => intro i result _; rfl
  | cons v vs ih =>
    intro i result h
    simp only [log_sum_node_loop]
    rw [h v (List.mem_cons_self _ _)]
    cases ev2 v with
    | returned r => simp only []; exact ih _ _ (fun w hw => h w (List.mem_cons_of_mem _ hw))
    | exception => rfl
    | out_of_fuel => rfl

theorem log_product_node_loop_congr (lib : math_library) (ev ev2 : Nat → outcome Value) :
    ∀ (vs : List Nat) (result : Value), (∀ v ∈ vs, ev v = ev2 v) →
    log_product_node_loop lib ev vs result = log_product_node_loop lib ev2 vs result := by
  intro vs
  induction vs with
  | nil => intro result _; rfl
  | cons v vs ih =>
    intro result h
    simp only [log_product_node_loop]
    rw [h v (List.mem_cons_self _ _)]
    cases ev2 v with
    | returned r =>
      simp only []
      rw [ih _ (fun w hw => h w (List.mem_cons_of_mem _ hw))]
    | exception => rfl
    | out_of_fuel => rfl

theorem log_sum_split_node_body_congr (lib : math_library) (ev ev2 : Nat → outcome Value)
    (weights : List Value) (splitter : splitting_criterion) (vs : List Nat) (x : List Value)
    (h : ∀ v ∈ vs, ev v = ev2 v) :
    log_sum_split_node_body lib ev weights splitter vs x =
      log_sum_split_node_body lib ev2 weights splitter vs x := by
  unfold log_sum_split_node_body
  rcases hg : vs.get? (select splitter x) with _ | v
  · rfl
  · simp only []
    rw [h v (List.get?_mem hg)]

theorem log_sum_node_loop_returns (lib : math_library) (ev : Nat → outcome Value)
    (weights : List Value) :
    ∀ (vs : List Nat) (i : Nat) (result : List Value),
    (∀ v ∈ vs, ∃ r, ev v = .returned r) →
    ∃ r, log_sum_node_loop lib ev weights vs i result = .returned r := by
  intro vs
  induction vs with
  | nil => intro i result _; exact ⟨result, rfl⟩
  | cons v vs ih =>
    intro i result h
    obtain ⟨r, hr⟩ := h v (List.mem_cons_self _ _)
    simp only [log_sum_node_loop, hr]
    exact ih _ _ (fun w hw => h w (List.mem_cons_of_mem _ hw))

theorem log_product_node_loop_returns (lib : math_library) (ev : Nat → outcome Value) :
    ∀ (vs : List Nat) (result : Value), (∀ v ∈ vs, ∃ r, ev v = .returned r) →
    ∃ r, log_product_node_loop lib ev vs result = .returned r := by
  intro vs
  induction vs with
  | nil => intro result _; exact ⟨result, rfl⟩
  | cons v vs ih =>
    intro result h
    obtain ⟨r, hr⟩ := h v (List.mem_cons_self _ _)
    simp only [log_product_node_loop, hr]
    split_ifs
    · exact ⟨_, rfl⟩
    · exact ih _ (fun w hw => h w (List.mem_cons_of_mem _ hw))

theorem log_sum_split_node_body_returns (lib : math_library) (ev : Nat → outcome Value)
    (weights : List Value) (splitter : splitting_criterion) (vs : List Nat) (x : List Value)
    (hlen : 2 ≤ vs.length) (h : ∀ v ∈ vs, ∃ r, ev v = .returned r) :
    ∃ r, log_sum_split_node_body lib ev weights splitter vs x = .returned r := by
  unfold log_sum_split_node_body
  have hs := select_le_one splitter x
  rcases hg : vs.get? (select splitter x) with _ | v
  · rw [List.get?_eq_none] at hg; omega
  · simp only []
    obtain ⟨r, hr⟩ := h v (List.get?_mem hg)
    rw [hr]
    exact ⟨_, rfl⟩

/-- Above the rank of the node the result of `log_evi` does not depend on the bound on the
depth. -/
theorem log_evi_fuel (lib : math_library) (pc : probabilistic_circuit) (x : List Value)
    (rank : Nat → Nat) (ha : pc.acyclic rank) :
    ∀ (f1 f2 u : Nat), rank u < f1 → rank u < f2 →
    pc_node.log_evi lib pc x f1 u = pc_node.log_evi lib pc x f2 u := by
  intro f1
  induction f1 with
  | zero => intro f2 u h; omega
  | succ f1 ih =>
    intro f2 u h1 h2
    cases f2 with
    | zero => omega
    | succ f2 =>
      have hsub : ∀ v ∈ pc.successors u,
          pc_node.log_evi lib pc x f1 v = pc_node.log_evi lib pc x f2 v := by
        intro v hv
        have := acyclic_all pc rank ha u v hv
        exact ih f2 v (by omega) (by omega)
      simp only [pc_node.log_evi]
      cases (pc.node u).kind with
      | sum w =>
        simp only []
        rw [log_sum_node_loop_congr lib _ _ _ _ _ _ hsub]
      | sum_split w s => exact log_sum_split_node_body_congr lib _ _ _ _ _ _ hsub
      | product => exact log_product_node_loop_congr lib _ _ _ _ hsub
      | terminal scope dist => rfl

theorem terminal_log_evi_isNone (lib : math_library) (scope : Nat) (dist : terminal_kind)
    (x : List Value) (h : (terminal_evi lib scope dist x).isNone = false) :
    ∃ r, terminal_log_evi lib scope dist x = some r := by
  unfold terminal_log_evi
  cases dist <;> simp only [] <;>
    first
    | exact ⟨_, rfl⟩
    | (cases hte : terminal_evi lib scope _ x with
       | none => rw [hte] at h; simp at h
       | some r => exact ⟨_, rfl⟩)

/-- The recursive evaluation of `log_evi` returns a value on every reachable node when the
circuit has no cycle, its nodes are well formed and no reachable terminal node throws. -/
theorem log_evi_returns (lib : math_library) (pc : probabilistic_circuit) (x : List Value)
    (rank : Nat → Nat) (ha : pc.acyclic rank)
    (hwf : ∀ u, pc.reachable u → (pc.node u).well_formed = true)
    (hx : ∀ u, pc.reachable u → (pc.node u).throws lib x = false) :
    ∀ (fuel u : Nat), rank u < fuel → pc.reachable u →
    ∃ r, pc_node.log_evi lib pc x fuel u = .returned r := by
  intro fuel
  induction fuel with
  | zero => intro u h; omega
  | succ fuel ih =>
    intro u hr hu
    have hsub : ∀ v ∈ pc.successors u, ∃ r, pc_node.log_evi lib pc x fuel v = .returned r := by
      intro v hv
      have := acyclic_all pc rank ha u v hv
      exact ih v (by omega) (Relation.ReflTransGen.tail hu hv)
    have hw := hwf u hu
    have ht := hx u hu
    unfold pc_node.well_formed at hw
    unfold pc_node.throws at ht
    simp only [pc_node.log_evi]
    cases hk : (pc.node u).kind with
    | sum w =>
      simp only []
      obtain ⟨r, hr⟩ := log_sum_node_loop_returns lib _ w _ 0 [] hsub
      rw [hr]
      exact ⟨_, rfl⟩
    | sum_split w s =>
      rw [hk] at hw
      simp only [decide_eq_true_eq] at hw
      exact log_sum_split_node_body_returns lib _ _ _ _ _ hw.1 hsub
    | product => exact log_product_node_loop_returns lib _ _ _ hsub
    | terminal scope dist =>
      rw [hk] at ht
      simp only [] at ht
      obtain ⟨r, hr⟩ := terminal_log_evi_isNone lib scope dist x ht
      exact ⟨r, by simp only [hr]⟩

/-- The loop of the iterative queries over a list in which every node comes after its
successors: when the method `f` computes the value `ev u` from the values of the successors,
the loop leaves in every node of the list its value `ev`. -/
theorem iterative_loop_spec (pc : probabilistic_circuit)
    (f : (Nat → Value) → Nat → outcome (Nat → Value)) (ev : Nat → outcome Value)
    (L : List Nat) (hnd : L.Nodup) (htopo : pc.successors_first L)
    (hf : ∀ value u, u ∈ L → (∀ v ∈ pc.successors u, ev v = .returned (value v)) →
      ∃ r, ev u = .returned r ∧ f value u = .returned (Function.update value u r)) :
    ∀ (rest P : List Nat) (value : Nat → Value), L = P ++ rest →
    (∀ w ∈ P, ev w = .returned (value w)) →
    ∃ value2, iterative_loop f rest value = .returned value2 ∧
      ∀ w ∈ L, ev w = .returned (value2 w) := by
  intro rest
  induction rest with
  | nil =>
    intro P value hL hP
    refine ⟨value, rfl, ?_⟩
    intro w hw
    rw [hL] at hw
    exact hP w (by simpa using hw)
  | cons u rest ih =>
    intro P value hL hP
    have hu : u ∈ L := by rw [hL]; simp
    have hk : P.length < L.length := by rw [hL]; simp
    have hget : L.getD P.length 0 = u := by
      rw [hL, List.getD_append_right _ _ _ _ (le_refl _)]; simp
    have htake : L.take P.length = P := by
      rw [hL, List.take_left]
    have hsucc : ∀ v ∈ pc.successors u, ev v = .returned (value v) := by
      intro v hv
      have := htopo P.length hk v (by rw [hget]; exact hv)
      rw [htake] at this
      exact hP v this
    obtain ⟨r, hr, hfu⟩ := hf value u hu hsucc
    simp only [iterative_loop, hfu]
    have huP : u ∉ P := by
      rw [hL] at hnd
      have := (List.nodup_append.mp hnd).2.2
      intro h
      exact this h (List.mem_cons_self _ _)
    apply ih (P ++ [u]) (Function.update value u r) (by rw [hL]; simp)
    intro w hw
    rcases List.mem_append.mp hw with hw | hw
    · have hne : w ≠ u := fun h => huP (h ▸ hw)
      rw [Function.update_noteq hne]
      exact hP w hw
    · have : w = u := by simpa using hw
      subst this
      rw [Function.update_same]
      exact hr

theorem rank_lt_bound (rank : Nat → Nat) (n u : Nat) (hu : u < n) :
    rank u < ((List.range n).map rank).sum + 1 := by
  induction n with
  | zero => omega
  | succ n ih =>
    rw [List.range_succ, List.map_append, List.sum_append]
    simp only [List.map_cons, List.map_nil, List.sum_cons, List.sum_nil, add_zero]
    by_cases h : u = n
    · subst h; omega
    · have := ih (by omega); omega

theorem forall_reachable (pc : probabilistic_circuit) (hc : pc.closed) (P : pc_node → Prop)
    (h : ∀ n ∈ pc.nodes, P n) : ∀ u, pc.reachable u → P (pc.node u) :=
  fun u hu => h _ (node_mem pc u (reachable_lt pc hc u hu))

/-- The method `evi_iterative` leaves in a node the value of `evi` when the members `value`
of its successors hold their values of `evi`. -/
theorem evi_iterative_spec (lib : math_library) (pc : probabilistic_circuit) (x : List Value)
    (rank : Nat → Nat) (ha : pc.acyclic rank) (fuel : Nat) (value : Nat → Value) (u : Nat)
    (hrank : rank u < fuel) (r : Value) (hr : pc_node.evi lib pc x fuel u = .returned r)
    (hsucc : ∀ v ∈ pc.successors u, pc_node.evi lib pc x fuel v = .returned (value v)) :
    pc_node.evi_iterative lib pc x fuel value u = .returned (Function.update value u r) := by
  obtain ⟨f, rfl⟩ : ∃ f, fuel = f + 1 := ⟨fuel - 1, by omega⟩
  have hsub : ∀ v ∈ pc.successors u,
      pc_node.evi lib pc x f v = pc_node.evi lib pc x (f + 1) v := by
    intro v hv
    have := acyclic_all pc rank ha u v hv
    exact evi_fuel lib pc x rank ha f (f + 1) v (by omega) (by omega)
  unfold pc_node.evi_iterative
  simp only [pc_node.evi] at hr
  cases hk : (pc.node u).kind with
  | sum w =>
    rw [hk] at hr
    simp only [] at hr ⊢
    rw [sum_node_loop_congr _ (pc_node.evi lib pc x f) w _ _ _
      (fun v hv => by rw [hsub v hv, hsucc v hv]), hr]
  | sum_split w s =>
    rw [hk] at hr
    simp only [] at hr ⊢
    rw [sum_split_node_body_congr _ (pc_node.evi lib pc x f) w s _ x
      (fun v hv => by rw [hsub v hv, hsucc v hv]), hr]
  | product =>
    rw [hk] at hr
    simp only [] at hr ⊢
    rw [product_node_loop_congr _ (pc_node.evi lib pc x f) _ _
      (fun v hv => (hsub v hv).symm), hr]
  | terminal scope dist =>
    rw [hk] at hr
    simp only [] at hr ⊢
    cases hte : terminal_evi lib scope dist x with
    | none => rw [hte] at hr; simp at hr
    | some r2 =>
      rw [hte] at hr
      simp only [] at hr ⊢
      injection hr with hr
      rw [hr]

/-- The method `log_evi_iterative` leaves in a node the value of `log_evi` when the members
`value` of its successors hold their values of `log_evi`. -/
theorem log_evi_iterative_spec (lib : math_library) (pc : probabilistic_circuit)
    (x : List Value) (rank : Nat → Nat) (ha : pc.acyclic rank) (fuel : Nat)
    (value : Nat → Value) (u : Nat) (hrank : rank u < fuel) (r : Value)
    (hr : pc_node.log_evi lib pc x fuel u = .returned r)
    (hsucc : ∀ v ∈ pc.successors u, pc_node.log_evi lib pc x fuel v = .returned (value v)) :
    pc_node.log_evi_iterative lib pc x fuel value u =
      .returned (Function.update value u r) := by
  obtain ⟨f, rfl⟩ : ∃ f, fuel = f + 1 := ⟨fuel - 1, by omega⟩
  have hsub : ∀ v ∈ pc.successors u,
      pc_node.log_evi lib pc x f v = pc_node.log_evi lib pc x (f + 1) v := by
    intro v hv
    have := acyclic_all pc rank ha u v hv
    exact log_evi_fuel lib pc x rank ha f (f + 1) v (by omega) (by omega)
  unfold pc_node.log_evi_iterative
  simp only [pc_node.log_evi] at hr
  cases hk : (pc.node u).kind with
  | sum w =>
    rw [hk] at hr
    simp only [] at hr ⊢
    rw [log_sum_node_loop_congr lib _ (pc_node.log_evi lib pc x f) w _ _ _
      (fun v hv => (hsub v hv).symm)]
    cases hl : log_sum_node_loop lib (pc_node.log_evi lib pc x f) w (pc.successors u) 0 [] with
    | returned res =>
      rw [hl] at hr
      simp only [] at hr ⊢
      injection hr with hr
      rw [hr]
    | exception => rw [hl] at hr; simp at hr
    | out_of_fuel => rw [hl] at hr; simp at hr
  | sum_split w s =>
    rw [hk] at hr
    simp only [] at hr ⊢
    rw [log_sum_split_node_body_congr lib _ (pc_node.log_evi lib pc x f) w s _ x
      (fun v hv => by rw [hsub v hv, hsucc v hv]), hr]
  | product =>
    rw [hk] at hr
    simp only [] at hr ⊢
    rw [log_product_node_loop_congr lib _ (pc_node.log_evi lib pc x f) _ _
      (fun v hv => (hsub v hv).symm), hr]
  | terminal scope dist =>
    rw [hk] at hr
    simp only [] at hr ⊢
    cases hte : terminal_log_evi lib scope dist x with
    | none => rw [hte] at hr; simp at hr
    | some r2 =>
      rw [hte] at hr
      simp only [] at hr ⊢
      injection hr with hr
      rw [hr]

/-- Claim C14, amended: on a circuit without cycles, with well formed nodes, and an input on
which no reachable terminal node throws an exception, `evi_query_iterative` returns the value
of `evi_query_recursive`, and `log_evi_query_iterative` returns the value of `log_evi` at the
root. -/
theorem evi_query_iterative_eq_recursive (lib : math_library) (pc : probabilistic_circuit)
    (x : List Value) (rank : Nat → Nat) (hc : pc.closed) (ha : pc.acyclic rank)
    (hwf : ∀ u, pc.reachable u → (pc.node u).well_formed = true)
    (hx : ∀ u, pc.reachable u → (pc.node u).throws lib x = false) :
    ∃ fuel0, ∀ fuel, fuel0 ≤ fuel → ∃ r l,
      evi_query_recursive lib pc x fuel = .returned r ∧
      evi_query_iterative lib pc x fuel = .returned r ∧
      pc_node.log_evi lib pc x fuel pc.root = .returned l ∧
      log_evi_query_iterative lib pc x fuel = .returned l := by
  obtain ⟨f0, hf0⟩ := pc_topological_ordering_spec pc rank hc ha
  refine ⟨f0 + (((List.range pc.nodes.length).map rank).sum + 1), ?_⟩
  intro fuel hfuel
  obtain ⟨L, hL, hnd, hmem, htopo, _⟩ := hf0 fuel (by omega)
  have hrk : ∀ w, pc.reachable w → rank w < fuel := by
    intro w hw
    have := rank_lt_bound rank pc.nodes.length w (reachable_lt pc hc w hw)
    omega
  have hroot : pc.root ∈ L := (hmem pc.root).mpr Relation.ReflTransGen.refl
  obtain ⟨value1, h1, h1b⟩ := iterative_loop_spec pc (pc_node.evi_iterative lib pc x fuel)
    (pc_node.evi lib pc x fuel) L hnd htopo
    (by
      intro value u hu hsucc
      have hur := (hmem u).mp hu
      obtain ⟨r, hr⟩ := evi_returns lib pc x rank ha hwf hx fuel u (hrk u hur) hur
      exact ⟨r, hr, evi_iterative_spec lib pc x rank ha fuel value u (hrk u hur) r hr hsucc⟩)
    L [] (fun _ => .num 0) rfl (by simp)
  obtain ⟨value2, h2, h2b⟩ := iterative_loop_spec pc (pc_node.log_evi_iterative lib pc x fuel)
    (pc_node.log_evi lib pc x fuel) L hnd htopo
    (by
      intro value u hu hsucc
      have hur := (hmem u).mp hu
      obtain ⟨r, hr⟩ := log_evi_returns lib pc x rank ha hwf hx fuel u (hrk u hur) hur
      exact ⟨r, hr, log_evi_iterative_spec lib pc x rank ha fuel value u (hrk u hur) r hr hsucc⟩)
    L [] (fun _ => .num 0) rfl (by simp)
  refine ⟨value1 pc.root, value2 pc.root, h1b pc.root hroot, ?_, h2b pc.root hroot, ?_⟩
  · unfold evi_query_iterative
    rw [hL]
    simp only [h1]
  · unfold log_evi_query_iterative
    rw [hL]
    simp only [h2]

theorem example11_closed : example11.closed := by
  unfold probabilistic_circuit.closed
  decide

theorem example11_acyclic : example11.acyclic (fun u => if u = 0 then 23 else u) := by
  unfold probabilistic_circuit.acyclic
  decide

theorem evi_query_iterative_eq_recursive_witness :
    ∃ fuel0, ∀ fuel, fuel0 ≤ fuel → ∃ r l,
      evi_query_recursive test_library example11
        [.num (-185 / 100), .num (5 / 10), .num (-13 / 10), .num (2 / 10)] fuel = .returned r ∧
      evi_query_iterative test_library example11
        [.num (-185 / 100), .num (5 / 10), .num (-13 / 10), .num (2 / 10)] fuel = .returned r ∧
      pc_node.log_evi test_library example11
        [.num (-185 / 100), .num (5 / 10), .num (-13 / 10), .num (2 / 10)] fuel
          example11.root = .returned l ∧
      log_evi_query_iterative test_library example11
        [.num (-185 / 100), .num (5 / 10), .num (-13 / 10), .num (2 / 10)] fuel = .returned l :=
  evi_query_iterative_eq_recursive test_library example11
    [.num (-185 / 100), .num (5 / 10), .num (-13 / 10), .num (2 / 10)]
    (fun u => if u = 0 then 23 else u) example11_closed example11_acyclic
    (forall_reachable example11 example11_closed (fun n => n.well_formed = true) (by decide))
    (forall_reachable example11 example11_closed (fun n => n.throws test_library _ = false)
      (by decide))

/-- Claim C14: on a product node over two categorical nodes, with an input whose value of
variable 0 has probability 0 and whose value of variable 1 is not a category,
`evi_query_recursive` returns 0 and `log_evi` returns `-infinity`, while
`evi_query_iterative` and `log_evi_query_iterative` throw an exception. -/
theorem evi_query_iterative_throws :
    short_circuit.closed ∧ short_circuit.acyclic (fun u => if u = 0 then 3 else u) ∧
    evi_query_recursive test_library short_circuit [.num 0, .num 5] 10 = .returned (.num 0) ∧
    evi_query_iterative test_library short_circuit [.num 0, .num 5] 10 = .exception ∧
    pc_node.log_evi test_library short_circuit [.num 0, .num 5] 10 short_circuit.root =
      .returned test_library.neg_infinity ∧
    log_evi_query_iterative test_library short_circuit [.num 0, .num 5] 10 = .exception := by
  refine ⟨by unfold probabilistic_circuit.closed; decide,
    by unfold probabilistic_circuit.acyclic; decide, by decide!, by decide!, by decide!,
    by decide!⟩

/-! ## The checkers `is_smooth` and `is_decomposable` -/

theorem foldl_union_congr (f g : Nat → Finset Nat) : ∀ (vs : List Nat) (A : Finset Nat),
    (∀ v ∈ vs, f v = g v) → vs.foldl (fun s v => s ∪ f v) A = vs.foldl (fun s v => s ∪ g v) A := by
  intro vs
  induction vs with
  | nil => intro A _; rfl
  | cons v vs ih =>
    intro A h
    simp only [List.foldl_cons]
    rw [h v (List.mem_cons_self _ _)]
    exact ih _ (fun w hw => h w (List.mem_cons_of_mem _ hw))

theorem scope_of_fuel (pc : probabilistic_circuit) (rank : Nat → Nat) (ha : pc.acyclic rank) :
    ∀ (f1 f2 u : Nat), rank u < f1 → rank u < f2 → pc.scope_of f1 u = pc.scope_of f2 u := by
  intro f1
  induction f1 with
  | zero => intro f2 u h; omega
  | succ f1 ih =>
    intro f2 u h1 h2
    cases f2 with
    | zero => omega
    | succ f2 =>
      have hsub : ∀ v ∈ pc.successors u, pc.scope_of f1 v = pc.scope_of f2 v := by
        intro v hv
        have := acyclic_all pc rank ha u v hv
        exact ih f2 v (by omega) (by omega)
      simp only [probabilistic_circuit.scope_of]
      cases (pc.node u).kind with
      | terminal scope dist => rfl
      | sum w => exact foldl_union_congr _ _ _ _ hsub
      | sum_split w s => exact foldl_union_congr _ _ _ _ hsub
      | product => exact foldl_union_congr _ _ _ _ hsub

/-- The scope of a node that is not a terminal node is the union of the scopes of its
successors. -/
theorem scope_of_succ (pc : probabilistic_circuit) (rank : Nat → Nat) (ha : pc.acyclic rank)
    (u : Nat) (hk : ∀ scope dist, (pc.node u).kind ≠ .terminal scope dist) :
    pc.scope_of (rank u + 1) u =
      (pc.successors u).foldl (fun s v => s ∪ pc.scope_of (rank v + 1) v) ∅ := by
  have hsub : ∀ v ∈ pc.successors u, pc.scope_of (rank u) v = pc.scope_of (rank v + 1) v := by
    intro v hv
    have := acyclic_all pc rank ha u v hv
    exact scope_of_fuel pc rank ha (rank u) (rank v + 1) v (by omega) (by omega)
  simp only [probabilistic_circuit.scope_of]
  cases hk2 : (pc.node u).kind with
  | terminal scope dist => exact absurd hk2 (hk scope dist)
  | sum w => exact foldl_union_congr _ _ _ _ hsub
  | sum_split w s => exact foldl_union_congr _ _ _ _ hsub
  | product => exact foldl_union_congr _ _ _ _ hsub

/-- The loop `scope_u = set_union(scope_u, scope(v))` when the recursive call on a successor
`v` answers whether the property `D v` holds below `v`, with the scope `S v` if so. -/
theorem scope_union_loop_spec (sc : Nat → Bool → Option (Finset Nat × Bool))
    (D : Nat → Prop) (S : Nat → Finset Nat) :
    ∀ (vs : List Nat) (A : Finset Nat) (r : Bool),
    (∀ v ∈ vs, ∀ r, ∃ s b, sc v r = some (s, b) ∧ (r = false → b = false) ∧
      (r = true → ((b = true ↔ D v) ∧ (b = true → s = S v)))) →
    ∃ A2 b, scope_union_loop sc vs A r = some (A2, b) ∧ (r = false → b = false) ∧
      (r = true → ((b = true ↔ ∀ v ∈ vs, D v) ∧
        (b = true → A2 = vs.foldl (fun s v => s ∪ S v) A))) := by
  intro vs
  induction vs with
  | nil =>
    intro A r _
    exact ⟨A, r, rfl, fun h => h, fun h => ⟨by simp [h], fun _ => rfl⟩⟩
  | cons v vs ih =>
    intro A r h
    obtain ⟨s, b1, h1, h2, h3⟩ := h v (List.mem_cons_self _ _) r
    obtain ⟨A2, b, i1, i2, i3⟩ := ih (A ∪ s) b1 (fun w hw => h w (List.mem_cons_of_mem _ hw))
    refine ⟨A2, b, by simp only [scope_union_loop, h1]; exact i1, ?_, ?_⟩
    · intro hr; exact i2 (h2 hr)
    · intro hr
      obtain ⟨h3a, h3b⟩ := h3 hr
      cases hb1 : b1 with
      | false =>
        have hb : b = false := i2 hb1
        rw [hb1] at h3a
        constructor
        · constructor
          · intro hbt; rw [hb] at hbt; exact absurd hbt (by decide)
          · intro hall
            have := h3a.mpr (hall v (List.mem_cons_self _ _))
            exact absurd this (by decide)
        · intro hbt; rw [hb] at hbt; exact absurd hbt (by decide)
      | true =>
        obtain ⟨i3a, i3b⟩ := i3 hb1
        have hs : s = S v := h3b hb1
        have hDv : D v := h3a.mp hb1
        constructor
        · rw [i3a]
          constructor
          · intro hall w hw
            rcases List.mem_cons.mp hw with rfl | hw
            · exact hDv
            · exact hall w hw
          · intro hall w hw
            exact hall w (List.mem_cons_of_mem _ hw)
        · intro hbt
          rw [i3b hbt, hs]
          rfl

/-- The loop over the successors of a product node in `decomposability_checker::scope`. -/
theorem decomposability_product_loop_spec (sc : Nat → Bool → Option (Finset Nat × Bool))
    (D : Nat → Prop) (S : Nat → Finset Nat) :
    ∀ (vs : List Nat) (A : Finset Nat) (r : Bool),
    (∀ v ∈ vs, ∀ r, ∃ s b, sc v r = some (s, b) ∧ (r = false → b = false) ∧
      (r = true → ((b = true ↔ D v) ∧ (b = true → s = S v)))) →
    ∃ A2 b, decomposability_product_loop sc vs A r = some (A2, b) ∧ (r = false → b = false) ∧
      (r = true → ((b = true ↔ (∀ v ∈ vs, D v) ∧ (∀ v ∈ vs, Disjoint A (S v)) ∧
          vs.Pairwise (fun a c => Disjoint (S a) (S c))) ∧
        (b = true → A2 = vs.foldl (fun s v => s ∪ S v) A))) := by
  intro vs
  induction vs with
  | nil =>
    intro A r _
    exact ⟨A, r, rfl, fun h => h, fun h => ⟨by simp [h], fun _ => rfl⟩⟩
  | cons v vs ih =>
    intro A r h
    obtain ⟨s, b1, h1, h2, h3⟩ := h v (List.mem_cons_self _ _) r
    obtain ⟨A2, b, i1, i2, i3⟩ := ih (A ∪ s) (if ∃ x ∈ s, x ∈ A then false else b1)
      (fun w hw => h w (List.mem_cons_of_mem _ hw))
    refine ⟨A2, b, by simp only [decomposability_product_loop, h1]; exact i1, ?_, ?_⟩
    · intro hr
      apply i2
      rw [h2 hr]
      split_ifs <;> rfl
    · intro hr
      obtain ⟨h3a, h3b⟩ := h3 hr
      cases hb1 : b1 with
      | false =>
        have hb : b = false := by
          apply i2; rw [hb1]; split_ifs <;> rfl
        rw [hb1] at h3a
        constructor
        · constructor
          · intro hbt; rw [hb] at hbt; exact absurd hbt (by decide)
          · intro hall
            have := h3a.mpr (hall.1 v (List.mem_cons_self _ _))
            exact absurd this (by decide)
        · intro hbt; rw [hb] at hbt; exact absurd hbt (by decide)
      | true =>
        have hs : s = S v := h3b hb1
        have hDv : D v := h3a.mp hb1
        by_cases hex : ∃ x ∈ s, x ∈ A
        · have hb : b = false := by
            apply i2; rw [if_pos hex]
          constructor
          · constructor
            · intro hbt; rw [hb] at hbt; exact absurd hbt (by decide)
            · intro hall
              exfalso
              obtain ⟨x, hx1, hx2⟩ := hex
              have := hall.2.1 v (List.mem_cons_self _ _)
              rw [Finset.disjoint_left] at this
              exact this hx2 (hs ▸ hx1)
          · intro hbt; rw [hb] at hbt; exact absurd hbt (by decide)
        · have hdis : Disjoint A (S v) := by
            rw [Finset.disjoint_left]
            intro x hxA hxS
            exact hex ⟨x, hs ▸ hxS, hxA⟩
          obtain ⟨i3a, i3b⟩ := i3 (by rw [if_neg hex, hb1])
          constructor
          · rw [i3a, hs]
            constructor
            · rintro ⟨a1, a2, a3⟩
              refine ⟨?_, ?_, ?_⟩
              · intro w hw
                rcases List.mem_cons.mp hw with rfl | hw
                · exact hDv
                · exact a1 w hw
              · intro w hw
                rcases List.mem_cons.mp hw with rfl | hw
                · exact hdis
                · exact (Finset.disjoint_union_left.mp (a2 w hw)).1
              · rw [List.pairwise_cons]
                exact ⟨fun w hw => (Finset.disjoint_union_left.mp (a2 w hw)).2, a3⟩
            · rintro ⟨a1, a2, a3⟩
              rw [List.pairwise_cons] at a3
              refine ⟨fun w hw => a1 w (List.mem_cons_of_mem _ hw), ?_, a3.2⟩
              intro w hw
              rw [Finset.disjoint_union_left]
              exact ⟨a2 w (List.mem_cons_of_mem _ hw), a3.1 w hw⟩
          · intro hbt
            rw [i3b hbt, hs]
            rfl

theorem below_unfold (pc : probabilistic_circuit) (P : Nat → Prop) (u : Nat) :
    (∀ w, Relation.ReflTransGen (fun a b => b ∈ pc.successors a) u w → P w) ↔
    (P u ∧ ∀ v ∈ pc.successors u,
      ∀ w, Relation.ReflTransGen (fun a b => b ∈ pc.successors a) v w → P w) := by
  constructor
  · intro h
    exact ⟨h u Relation.ReflTransGen.refl,
      fun v hv w hw => h w (Relation.ReflTransGen.head hv hw)⟩
  · rintro ⟨h1, h2⟩ w hw
    rcases Relation.ReflTransGen.cases_head hw with h | ⟨c, hc, hr⟩
    · rw [← h]; exact h1
    · exact h2 c hc w hr

/-- The method `decomposability_checker::scope` on a circuit without cycles, in which the
terminal nodes have no successors: called with
`result` true, it leaves `result` true exactly when the successors of every product node
below `u` have pairwise disjoint scopes, and then returns the scope of `u`. -/
theorem decomposability_scope_spec (pc : probabilistic_circuit) (rank : Nat → Nat)
    (ha : pc.acyclic rank)
    (hterm : ∀ u, pc.reachable u → (pc.node u).terminal_is_leaf = true) :
    ∀ (fuel u : Nat) (r : Bool), rank u < fuel → pc.reachable u →
    ∃ s b, decomposability_checker.scope pc fuel u r = some (s, b) ∧ (r = false → b = false) ∧
      (r = true → ((b = true ↔
        ∀ w, Relation.ReflTransGen (fun a b => b ∈ pc.successors a) u w →
          (pc.node w).kind = .product → (pc.successors w).Pairwise
            (fun a c => Disjoint (pc.scope_of (rank a + 1) a) (pc.scope_of (rank c + 1) c))) ∧
        (b = true → s = pc.scope_of (rank u + 1) u))) := by
  intro fuel
  induction fuel with
  | zero => intro u r h; omega
  | succ fuel ih =>
    intro u r hr hu
    have hsub : ∀ v ∈ pc.successors u, ∀ r, ∃ s b,
        decomposability_checker.scope pc fuel v r = some (s, b) ∧ (r = false → b = false) ∧
        (r = true → ((b = true ↔
          ∀ w, Relation.ReflTransGen (fun a b => b ∈ pc.successors a) v w →
            (pc.node w).kind = .product → (pc.successors w).Pairwise
              (fun a c => Disjoint (pc.scope_of (rank a + 1) a) (pc.scope_of (rank c + 1) c))) ∧
          (b = true → s = pc.scope_of (rank v + 1) v))) := by
      intro v hv r
      have := acyclic_all pc rank ha u v hv
      exact ih v r (by omega) (Relation.ReflTransGen.tail hu hv)
    simp only [decomposability_checker.scope]
    cases r with
    | false => exact ⟨∅, false, by simp, fun _ => rfl, fun h => absurd h (by decide)⟩
    | true =>
      simp only [Bool.not_true, Bool.false_eq_true, if_false]
      rw [below_unfold pc (fun w => (pc.node w).kind = .product → (pc.successors w).Pairwise
        (fun a c => Disjoint (pc.scope_of (rank a + 1) a) (pc.scope_of (rank c + 1) c))) u]
      have hw := hterm u hu
      unfold pc_node.terminal_is_leaf at hw
      cases hk : (pc.node u).kind with
      | terminal scope dist =>
        rw [hk] at hw
        have hnil : pc.successors u = [] := List.isEmpty_iff.mp hw
        refine ⟨{scope}, true, rfl, fun h => absurd h (by decide), fun _ => ⟨?_, fun _ => ?_⟩⟩
        · simp [hnil]
        · simp only [probabilistic_circuit.scope_of, hk]
      | sum w =>
        simp only []
        obtain ⟨A2, b, h1, _, h3⟩ := scope_union_loop_spec _ _ _ (pc.successors u) ∅ true hsub
        obtain ⟨h3a, h3b⟩ := h3 rfl
        refine ⟨A2, b, h1, fun h => absurd h (by decide), fun _ => ⟨?_, fun hb => ?_⟩⟩
        · rw [h3a]; simp
        · rw [h3b hb, scope_of_succ pc rank ha u (by rw [hk]; simp)]
      | sum_split w s =>
        simp only []
        obtain ⟨A2, b, h1, _, h3⟩ := scope_union_loop_spec _ _ _ (pc.successors u) ∅ true hsub
        obtain ⟨h3a, h3b⟩ := h3 rfl
        refine ⟨A2, b, h1, fun h => absurd h (by decide), fun _ => ⟨?_, fun hb => ?_⟩⟩
        · rw [h3a]; simp
        · rw [h3b hb, scope_of_succ pc rank ha u (by rw [hk]; simp)]
      | product =>
        simp only []
        obtain ⟨A2, b, h1, _, h3⟩ := decomposability_product_loop_spec _ _ _
          (pc.successors u) ∅ true hsub
        obtain ⟨h3a, h3b⟩ := h3 rfl
        refine ⟨A2, b, h1, fun h => absurd h (by decide), fun _ => ⟨?_, fun hb => ?_⟩⟩
        · rw [h3a]
          constructor
          · rintro ⟨a1, _, a3⟩
            exact ⟨fun _ => a3, a1⟩
          · rintro ⟨a1, a2⟩
            exact ⟨a2, fun v _ => Finset.disjoint_empty_left _, a1 trivial⟩
        · rw [h3b hb, scope_of_succ pc rank ha u (by rw [hk]; simp)]

/-- Claim C17: on a circuit of sum, sum-split, product and terminal nodes without cycles, the
terminal nodes of which are its leaves, `is_decomposable` returns, and it returns true if and
only if the successors of every product node that is reachable from the root have pairwise
disjoint scopes. Nothing is asked of the weights of the sum nodes, which the checker does not
read. -/
theorem is_decomposable_spec (pc : probabilistic_circuit) (rank : Nat → Nat) (hc : pc.closed)
    (ha : pc.acyclic rank)
    (hterm : ∀ u, pc.reachable u → (pc.node u).terminal_is_leaf = true) :
    ∃ fuel0, ∀ fuel, fuel0 ≤ fuel → ∃ b, is_decomposable pc fuel = some b ∧
      (b = true ↔ ∀ u, pc.reachable u → (pc.node u).kind = .product →
        (pc.successors u).Pairwise
          (fun a c => Disjoint (pc.scope_of fuel a) (pc.scope_of fuel c))) := by
  refine ⟨((List.range pc.nodes.length).map rank).sum + 1, ?_⟩
  intro fuel hfuel
  have hrk : ∀ w, pc.reachable w → rank w < fuel := by
    intro w hw
    have := rank_lt_bound rank pc.nodes.length w (reachable_lt pc hc w hw)
    omega
  obtain ⟨s, b, h1, _, h3⟩ := decomposability_scope_spec pc rank ha hterm fuel pc.root true
    (hrk _ Relation.ReflTransGen.refl) Relation.ReflTransGen.refl
  refine ⟨b, by unfold is_decomposable; rw [h1]; rfl, ?_⟩
  rw [(h3 rfl).1]
  have hpw : ∀ u, pc.reachable u →
      ((pc.successors u).Pairwise
        (fun a c => Disjoint (pc.scope_of (rank a + 1) a) (pc.scope_of (rank c + 1) c)) ↔
      (pc.successors u).Pairwise
        (fun a c => Disjoint (pc.scope_of fuel a) (pc.scope_of fuel c))) := by
    intro u hu
    apply List.Pairwise.iff_of_mem
    intro a c ha2 hc2
    rw [scope_of_fuel pc rank ha (rank a + 1) fuel a (by omega)
        (hrk a (Relation.ReflTransGen.tail hu ha2)),
      scope_of_fuel pc rank ha (rank c + 1) fuel c (by omega)
        (hrk c (Relation.ReflTransGen.tail hu hc2))]
  constructor
  · intro h u hu hk
    exact (hpw u hu).mp (h u hu hk)
  · intro h u hu hk
    exact (hpw u hu).mpr (h u hu hk)

theorem example11_broken_closed : example11_broken.closed := by
  unfold probabilistic_circuit.closed
  decide

theorem example11_broken_acyclic :
    example11_broken.acyclic (fun u => if u = 0 then 23 else u) := by
  unfold probabilistic_circuit.acyclic
  decide

theorem is_decomposable_spec_witness :
    example11_broken.closed ∧
    example11_broken.acyclic (fun u => if u = 0 then 23 else u) ∧
    (∀ u, example11_broken.reachable u →
      (example11_broken.node u).terminal_is_leaf = true) ∧
    ∃ fuel0, ∀ fuel, fuel0 ≤ fuel → ∃ b, is_decomposable example11_broken fuel = some b ∧
      (b = true ↔ ∀ u, example11_broken.reachable u →
        (example11_broken.node u).kind = .product →
        (example11_broken.successors u).Pairwise
          (fun a c => Disjoint (example11_broken.scope_of fuel a)
            (example11_broken.scope_of fuel c))) :=
  ⟨example11_broken_closed, example11_broken_acyclic,
    forall_reachable example11_broken example11_broken_closed
      (fun n => n.terminal_is_leaf = true) (by decide),
    is_decomposable_spec example11_broken (fun u => if u = 0 then 23 else u)
      example11_broken_closed example11_broken_acyclic
      (forall_reachable example11_broken example11_broken_closed
        (fun n => n.terminal_is_leaf = true) (by decide))⟩

/-- Claim C15: on a circuit without cycles `topological_ordering(pc)` ends and returns a list
that holds every node that is reachable from the root, and no other node, exactly once, with
every node after all of its successors and the root last; nodes with several parents are
allowed. -/
theorem pc_topological_ordering_dag (pc : probabilistic_circuit) (rank : Nat → Nat)
    (hc : pc.closed) (ha : pc.acyclic rank) :
    ∃ fuel0, ∀ fuel, fuel0 ≤ fuel → ∃ L, pc.topological_ordering fuel = some L ∧ L.Nodup ∧
      (∀ w, w ∈ L ↔ pc.reachable w) ∧ pc.successors_first L ∧
      L.getLast? = some pc.root :=
  pc_topological_ordering_spec pc rank hc ha

theorem pc_topological_ordering_dag_witness :
    ∃ fuel0, ∀ fuel, fuel0 ≤ fuel → ∃ L, example11.topological_ordering fuel = some L ∧
      L.Nodup ∧ (∀ w, w ∈ L ↔ example11.reachable w) ∧ example11.successors_first L ∧
      L.getLast? = some example11.root :=
  pc_topological_ordering_dag example11 (fun u => if u = 0 then 23 else u)
    (by unfold probabilistic_circuit.closed; decide)
    (by unfold probabilistic_circuit.acyclic; decide)

/-- The order that `topological_ordering` returns on the circuit of `test_example11`, in
which the nodes 1, 2, 3, 4, 13, 14, 17 and 18 have two parents. -/
theorem example11_topological_ordering :
    example11.topological_ordering 200 =
      some [7, 5, 3, 4, 9, 1, 2, 11, 13, 10, 12, 14, 15, 17, 6, 16, 18, 19, 21, 8, 20, 22, 0] := by
  decide!

/-- The three checks of `test_pc_properties` on the circuit of the test and on the changed
circuit. -/
theorem test_pc_properties_checks :
    is_smooth example11 10 = some true ∧ is_decomposable example11 10 = some true ∧
    is_normalized example11 (.num (1 / 10 ^ 10)) 100 = some true ∧
    is_smooth example11_broken 10 = some false ∧
    is_decomposable example11_broken 10 = some false ∧
    is_normalized example11_broken (.num (1 / 10 ^ 10)) 200 = some false := by
  refine ⟨by decide, by decide, by decide!, by decide, by decide, by decide!⟩

/-- Claim C16: on a sum node whose successors are a product node without successors, of empty
scope, and a terminal node of variable 0, `is_smooth` returns true although the two scopes
differ; on the circuit of `test_pc_properties` it returns true, and false on the changed
circuit. -/
theorem is_smooth_empty_scope :
    is_smooth empty_scope_circuit 10 = some true ∧
    (empty_scope_circuit.node 0).kind = .sum [.num (1 / 2), .num (1 / 2)] ∧
    empty_scope_circuit.successors 0 = [1, 2] ∧
    empty_scope_circuit.scope_of 10 1 = ∅ ∧ empty_scope_circuit.scope_of 10 2 = {0} ∧
    is_smooth example11 10 = some true ∧ is_smooth example11_broken 10 = some false := by
  refine ⟨by decide, rfl, rfl, by decide, by decide, by decide, by decide⟩



/-! ## `enumerate_intervals` -/

theorem write_bound_restore (intervals : List interval) (r : bound_ref) (x : Value) :
    write_bound (write_bound intervals r x) r (read_bound intervals r) = intervals := by
  obtain ⟨i, upper⟩ := r
  by_cases hi : i < intervals.length
  · apply List.ext_getElem
    · simp [write_bound]
    · intro n h1 h2
      by_cases hn : i = n
      · subst hn
        cases upper <;>
          simp [write_bound, read_bound, List.getD_eq_getElem?_getD, List.getElem?_set, hi,
            List.getElem?_eq_getElem, h2]
      · cases upper <;> simp [write_bound, List.getElem_set, hn]
  · have hi2 : intervals.length ≤ i := Nat.le_of_not_lt hi
    unfold write_bound
    simp only []
    rw [List.set_eq_of_length_le hi2, List.set_eq_of_length_le hi2]

theorem write_bound_length (intervals : List interval) (r : bound_ref) (x : Value) :
    (write_bound intervals r x).length = intervals.length := by
  simp [write_bound]

theorem interval_reports_head (tree : binary_decision_tree) (d ui : Nat)
    (I : List interval) : (ui, I) ∈ interval_reports tree d ui I := by
  cases d with
  | zero => simp [interval_reports]
  | succ d =>
    unfold interval_reports
    split <;> simp

theorem interval_reports_fuel (tree : binary_decision_tree) (hch : children_above tree) :
    ∀ (d ui : Nat) (I : List interval), tree.vertices.length - ui ≤ d →
      ui < tree.vertices.length →
      interval_reports tree d ui I = interval_reports tree (tree.vertices.length - ui) ui I := by
  intro d
  induction d using Nat.strong_induction_on with
  | _ d ih =>
    intro ui I hd hui
    obtain ⟨d1, rfl⟩ : ∃ d1, d = d1 + 1 := ⟨d - 1, by omega⟩
    obtain ⟨e1, he1⟩ : ∃ e1, tree.vertices.length - ui = e1 + 1 :=
      ⟨tree.vertices.length - ui - 1, by omega⟩
    rw [he1]
    unfold interval_reports
    cases hl : (tree.find_vertex ui).is_leaf with
    | true => simp
    | false =>
      obtain ⟨c1, c2, c3, c4⟩ := hch ui hui hl
      simp only [Bool.false_eq_true, if_false]
      rw [ih d1 (by omega) _ _ (by omega) c3, ih d1 (by omega) _ _ (by omega) c4]
      by_cases hlt : e1 < d1 + 1
      · rw [ih e1 hlt _ _ (by omega) c3, ih e1 hlt _ _ (by omega) c4]
      · have : e1 = d1 := by omega
        subst this
        rw [ih e1 (by omega) _ _ (by omega) c3, ih e1 (by omega) _ _ (by omega) c4]

theorem enumerate_intervals_loop_nil (tree : binary_decision_tree) (fuel : Nat)
    (st : intervals_state) (h : st.todo_stack = []) :
    enumerate_intervals_loop tree fuel st = some st := by
  cases fuel <;> simp [enumerate_intervals_loop, h]

theorem enumerate_intervals_loop_cons (tree : binary_decision_tree) (fuel : Nat)
    (st : intervals_state) (h : st.todo_stack ≠ []) :
    enumerate_intervals_loop tree (fuel + 1) st =
      enumerate_intervals_loop tree fuel (enumerate_intervals_step tree st) := by
  simp [enumerate_intervals_loop, h]

theorem enumerate_intervals_step_leaf (tree : binary_decision_tree) (ui : Nat)
    (hl : (tree.find_vertex ui).is_leaf = true)
    (I : List interval) (U : List (Bool × bound_ref × Value))
    (T : List (Nat × bound_ref × Value)) (R : List (Nat × List interval))
    (r : bound_ref) (val : Value) :
    enumerate_intervals_step tree (intervals_state.mk I U ((ui, r, val) :: T) R) =
      intervals_state.mk (undo_loop U (write_bound I r val)).2
        (undo_loop U (write_bound I r val)).1 T (R ++ [(ui, write_bound I r val)]) := by
  simp [enumerate_intervals_step, hl]

theorem enumerate_intervals_step_inner (tree : binary_decision_tree) (ui : Nat)
    (hl : (tree.find_vertex ui).is_leaf = false)
    (I : List interval) (U : List (Bool × bound_ref × Value))
    (T : List (Nat × bound_ref × Value)) (R : List (Nat × List interval))
    (r : bound_ref) (val : Value) :
    enumerate_intervals_step tree (intervals_state.mk I U ((ui, r, val) :: T) R) =
      intervals_state.mk (write_bound I r val)
        ((false, bound_ref.mk (split_variable (tree.find_vertex ui).split) true,
            read_bound (write_bound I r val)
              (bound_ref.mk (split_variable (tree.find_vertex ui).split) true)) ::
          (true, bound_ref.mk (split_variable (tree.find_vertex ui).split) false,
            read_bound (write_bound I r val)
              (bound_ref.mk (split_variable (tree.find_vertex ui).split) false)) :: U)
        (((tree.find_vertex ui).left,
            bound_ref.mk (split_variable (tree.find_vertex ui).split) true,
            threshold_value (tree.find_vertex ui).split (read_bound (write_bound I r val)
              (bound_ref.mk (split_variable (tree.find_vertex ui).split) true))) ::
          ((tree.find_vertex ui).right,
            bound_ref.mk (split_variable (tree.find_vertex ui).split) false,
            threshold_value (tree.find_vertex ui).split (read_bound (write_bound I r val)
              (bound_ref.mk (split_variable (tree.find_vertex ui).split) false))) :: T)
        (R ++ [(ui, write_bound I r val)]) := by
  simp [enumerate_intervals_step, hl, add_left, add_right]

theorem undo_loop_left (U : List (Bool × bound_ref × Value)) (I : List interval)
    (r : bound_ref) (x : Value) :
    undo_loop ((false, r, read_bound I r) :: U) (write_bound I r x) = (U, I) := by
  simp [undo_loop, write_bound_restore]

theorem undo_loop_right (U : List (Bool × bound_ref × Value)) (I : List interval)
    (r : bound_ref) (x : Value) :
    undo_loop ((true, r, read_bound I r) :: U) (write_bound I r x) = undo_loop U I := by
  simp [undo_loop, write_bound_restore]

theorem enumerate_intervals_subtree (tree : binary_decision_tree) (hch : children_above tree) :
    ∀ (d ui : Nat), tree.vertices.length - ui ≤ d → ui < tree.vertices.length →
      ∀ (I : List interval) (U : List (Bool × bound_ref × Value))
        (T : List (Nat × bound_ref × Value)) (R : List (Nat × List interval))
        (r : bound_ref) (val : Value),
      ∃ k, ∀ fuel, enumerate_intervals_loop tree (fuel + k)
          (intervals_state.mk I U ((ui, r, val) :: T) R) =
        enumerate_intervals_loop tree fuel
          (intervals_state.mk (undo_loop U (write_bound I r val)).2
            (undo_loop U (write_bound I r val)).1 T
            (R ++ interval_reports tree d ui (write_bound I r val))) := by
  intro d
  induction d using Nat.strong_induction_on with
  | _ d ih =>
    intro ui hd hui I U T R r val
    obtain ⟨d1, rfl⟩ : ∃ d1, d = d1 + 1 := ⟨d - 1, by omega⟩
    cases hl : (tree.find_vertex ui).is_leaf with
    | true =>
      refine ⟨1, fun fuel => ?_⟩
      rw [enumerate_intervals_loop_cons _ _ _ (by simp),
        enumerate_intervals_step_leaf tree ui hl]
      simp [interval_reports, hl]
    | false =>
      obtain ⟨c1, c2, c3, c4⟩ := hch ui hui hl
      have hstep := enumerate_intervals_step_inner tree ui hl I U T R r val
      generalize write_bound I r val = I1 at hstep ⊢
      generalize hbl : bound_ref.mk (split_variable (tree.find_vertex ui).split) true = bl
        at hstep
      generalize hbr : bound_ref.mk (split_variable (tree.find_vertex ui).split) false = br
        at hstep
      obtain ⟨k1, hk1⟩ := ih d1 (by omega) (tree.find_vertex ui).left (by omega) c3 I1
        ((false, bl, read_bound I1 bl) :: (true, br, read_bound I1 br) :: U)
        (((tree.find_vertex ui).right, br,
          threshold_value (tree.find_vertex ui).split (read_bound I1 br)) :: T)
        (R ++ [(ui, I1)]) bl (threshold_value (tree.find_vertex ui).split (read_bound I1 bl))
      obtain ⟨k2, hk2⟩ := ih d1 (by omega) (tree.find_vertex ui).right (by omega) c4 I1
        ((true, br, read_bound I1 br) :: U) T
        (R ++ [(ui, I1)] ++ interval_reports tree d1 (tree.find_vertex ui).left
          (write_bound I1 bl (threshold_value (tree.find_vertex ui).split (read_bound I1 bl))))
        br (threshold_value (tree.find_vertex ui).split (read_bound I1 br))
      refine ⟨k2 + k1 + 1, fun fuel => ?_⟩
      rw [show fuel + (k2 + k1 + 1) = (fuel + k2 + k1) + 1 by omega,
        enumerate_intervals_loop_cons _ _ _ (by simp), hstep, hk1, undo_loop_left, hk2,
        undo_loop_right]
      congr 2
      conv_rhs => unfold interval_reports
      simp [hl, left_intervals, right_intervals, hbl, hbr]

theorem enumerate_intervals_spec (tree : binary_decision_tree) (hch : children_above tree)
    (hn : 0 < tree.vertices.length) (m : Nat) :
    ∃ k, ∀ fuel, k ≤ fuel → enumerate_intervals tree m fuel =
      some (interval_reports tree tree.vertices.length 0 (List.replicate m {})) := by
  obtain ⟨n1, hn1⟩ : ∃ n1, tree.vertices.length = n1 + 1 :=
    ⟨tree.vertices.length - 1, by omega⟩
  cases hl : (tree.find_vertex 0).is_leaf with
  | true =>
    refine ⟨0, fun fuel _ => ?_⟩
    simp [enumerate_intervals, hl, hn1, interval_reports]
  | false =>
    obtain ⟨c1, c2, c3, c4⟩ := hch 0 hn hl
    generalize hI1 : List.replicate m ({} : interval) = I1
    generalize hbl : bound_ref.mk (split_variable (tree.find_vertex 0).split) true = bl
    generalize hbr : bound_ref.mk (split_variable (tree.find_vertex 0).split) false = br
    obtain ⟨k1, hk1⟩ := enumerate_intervals_subtree tree hch n1 (tree.find_vertex 0).left
      (by omega) c3 I1
      ((false, bl, read_bound I1 bl) :: (true, br, read_bound I1 br) :: [])
      (((tree.find_vertex 0).right, br,
        threshold_value (tree.find_vertex 0).split (read_bound I1 br)) :: [])
      [(0, I1)] bl (threshold_value (tree.find_vertex 0).split (read_bound I1 bl))
    obtain ⟨k2, hk2⟩ := enumerate_intervals_subtree tree hch n1 (tree.find_vertex 0).right
      (by omega) c4 I1
      ((true, br, read_bound I1 br) :: []) []
      ([(0, I1)] ++ interval_reports tree n1 (tree.find_vertex 0).left
        (write_bound I1 bl (threshold_value (tree.find_vertex 0).split (read_bound I1 bl))))
      br (threshold_value (tree.find_vertex 0).split (read_bound I1 br))
    refine ⟨k2 + k1, fun fuel hfuel => ?_⟩
    obtain ⟨f, rfl⟩ : ∃ f, fuel = f + k2 + k1 := ⟨fuel - (k2 + k1), by omega⟩
    have h0 : add_left (tree.find_vertex 0) (add_right (tree.find_vertex 0)
        (intervals_state.mk I1 [] [] [(0, I1)])) =
        intervals_state.mk I1
          ((false, bl, read_bound I1 bl) :: (true, br, read_bound I1 br) :: [])
          (((tree.find_vertex 0).left, bl,
              threshold_value (tree.find_vertex 0).split (read_bound I1 bl)) ::
            ((tree.find_vertex 0).right, br,
              threshold_value (tree.find_vertex 0).split (read_bound I1 br)) :: [])
          [(0, I1)] := by
      simp [add_left, add_right, hbl, hbr]
    simp only [enumerate_intervals, hl, Bool.false_eq_true, if_false, hI1]
    rw [h0, hk1, undo_loop_left, hk2, undo_loop_right, enumerate_intervals_loop_nil _ _ _ rfl]
    simp only [Option.map_some', Option.some.injEq, hn1]
    conv_rhs => unfold interval_reports
    simp [hl, left_intervals, right_intervals, hbl, hbr, undo_loop]

/-! ## The thresholds of a learned tree -/

theorem take_drop_mid {α : Type} (A X C : List α) (bw ew : Nat) (h1 : bw ≤ A.length)
    (h2 : A.length + X.length ≤ ew) :
    ((A ++ X ++ C).take ew).drop bw =
      A.drop bw ++ X ++ C.take (ew - (A.length + X.length)) := by
  rw [List.take_append_eq_append_take, List.take_of_length_le (by simpa using h2)]
  rw [List.append_assoc, List.drop_append_of_le_length h1]
  simp [List.append_assoc]

theorem take_drop_before {α : Type} (A X C : List α) (bw ew : Nat) (h1 : ew ≤ A.length) :
    ((A ++ X ++ C).take ew).drop bw = (A.take ew).drop bw := by
  rw [List.append_assoc, List.take_append_of_le_length h1]

theorem take_drop_after {α : Type} (A X C : List α) (bw ew : Nat)
    (h1 : A.length + X.length ≤ bw) :
    ((A ++ X ++ C).take ew).drop bw =
      (C.take (ew - (A.length + X.length))).drop (bw - (A.length + X.length)) := by
  rw [List.take_append_eq_append_take, List.drop_append_eq_append_drop]
  have h3 : ((A ++ X).take ew).drop bw = [] := by
    apply List.drop_eq_nil_of_le
    simp only [List.length_take, List.length_append]
    omega
  rw [h3, List.nil_append]
  simp only [List.length_take, List.length_append]
  by_cases h4 : ew ≤ A.length + X.length
  · have h5 : ew - (A.length + X.length) = 0 := by omega
    simp [h5]
  · rw [Nat.min_eq_right (by omega)]

theorem indices_split (indices : List Nat) (b e : Nat) (hb : b ≤ e)
    (he : e ≤ indices.length) :
    indices = indices.take b ++ (indices.take e).drop b ++ indices.drop e ∧
    (indices.take b).length = b ∧ ((indices.take e).drop b).length = e - b := by
  refine ⟨?_, ?_, ?_⟩
  · rw [List.append_assoc]; exact range_split_eq indices b e hb
  · simp; omega
  · simp; omega

theorem range_write_range_contains (indices : List Nat) (b e : Nat) (J : List Nat)
    (hb : b ≤ e) (he : e ≤ indices.length) (hJ : J.Perm ((indices.take e).drop b))
    (bw ew : Nat) (h1 : bw ≤ b) (h2 : e ≤ ew) :
    (((write_range indices b e J).take ew).drop bw).Perm ((indices.take ew).drop bw) := by
  obtain ⟨h3, h4, h5⟩ := indices_split indices b e hb he
  have hJl : J.length = e - b := by rw [hJ.length_eq, h5]
  unfold write_range
  rw [take_drop_mid _ _ _ _ _ (by rw [h4]; exact h1) (by rw [h4, hJl]; omega)]
  conv_rhs => rw [h3]
  rw [take_drop_mid _ _ _ _ _ (by rw [h4]; exact h1) (by rw [h4, h5]; omega)]
  rw [h4, h5, hJl]
  exact List.Perm.append_right _ (List.Perm.append_left _ hJ)

theorem range_write_range_disjoint (indices : List Nat) (b e : Nat) (J : List Nat)
    (hb : b ≤ e) (he : e ≤ indices.length) (hJ : J.length = e - b)
    (bw ew : Nat) (h : ew ≤ b ∨ e ≤ bw) :
    ((write_range indices b e J).take ew).drop bw = (indices.take ew).drop bw := by
  obtain ⟨h3, h4, h5⟩ := indices_split indices b e hb he
  unfold write_range
  rcases h with h | h
  · rw [take_drop_before _ _ _ _ _ (by rw [h4]; exact h)]
    conv_rhs => rw [h3]
    rw [take_drop_before _ _ _ _ _ (by rw [h4]; exact h)]
  · rw [take_drop_after _ _ _ _ _ (by rw [h4, hJ]; omega)]
    conv_rhs => rw [h3]
    rw [take_drop_after _ _ _ _ _ (by rw [h4, h5]; omega)]
    rw [h4, h5, hJ]

theorem range_write_range_self (indices : List Nat) (b e : Nat) (J : List Nat)
    (hb : b ≤ e) (he : e ≤ indices.length) (hJ : J.length = e - b) :
    ((write_range indices b e J).take e).drop b = J := by
  obtain ⟨-, h4, -⟩ := indices_split indices b e hb he
  unfold write_range
  rw [take_drop_mid _ _ _ _ _ (by rw [h4]) (by rw [h4, hJ]; omega)]
  rw [h4, hJ]
  have : e - (b + (e - b)) = 0 := by omega
  rw [this, List.drop_of_length_le (by rw [h4]), List.take_zero]
  simp

theorem write_range_write_range (indices : List Nat) (b e : Nat) (I J : List Nat)
    (hb : b ≤ e) (he : e ≤ indices.length) (hI : I.length = e - b) :
    write_range (write_range indices b e I) b e J = write_range indices b e J := by
  obtain ⟨-, h4, -⟩ := indices_split indices b e hb he
  unfold write_range
  congr 1
  · congr 1
    rw [List.append_assoc, List.take_append_of_le_length (by rw [h4])]
    rw [List.take_of_length_le (by rw [h4])]
  · rw [List.drop_append_eq_append_drop, List.drop_of_length_le (by simp; omega)]
    simp only [List.length_append, h4, hI, List.nil_append]
    have : e - (b + (e - b)) = 0 := by omega
    rw [this, List.drop_zero]

theorem threshold_sweep_values (D : dataset) (v : Nat) (options : decision_tree_options)
    (s : List Nat) (first last : Nat) :
    ∀ (n i : Nat) (D1 D2 : List Nat) (same_y : Bool),
    ∀ r ∈ threshold_sweep D v options s first last n i D1 D2 same_y,
      ∃ j, i ≤ j ∧ j < i + n ∧ r.split = .threshold ⟨v, D.at (s.getD j 0) v⟩ := by
  intro n
  induction n with
  | zero => intro i D1 D2 same_y r hr; simp [threshold_sweep] at hr
  | succ n ih =>
    intro i D1 D2 same_y r hr
    unfold threshold_sweep at hr
    simp only at hr
    have hrec : ∀ (D1 D2 : List Nat) (sy : Bool),
        r ∈ threshold_sweep D v options s first last n (i + 1) D1 D2 sy →
        ∃ j, i ≤ j ∧ j < i + (n + 1) ∧ r.split = .threshold ⟨v, D.at (s.getD j 0) v⟩ := by
      intro D1 D2 sy h
      obtain ⟨j, j1, j2, j3⟩ := ih (i + 1) D1 D2 sy r h
      exact ⟨j, by omega, by omega, j3⟩
    split at hr
    · exact hrec _ _ _ hr
    · split at hr
      · split at hr
        · exact hrec _ _ _ hr
        · rcases List.mem_cons.1 hr with h | h
          · exact ⟨i, le_refl _, by omega, by rw [h]⟩
          · exact hrec _ _ _ h
      · rcases List.mem_cons.1 hr with h | h
        · exact ⟨i, le_refl _, by omega, by rw [h]⟩
        · exact hrec _ _ _ h

theorem sort_range_snd_le (D : dataset) (I : List Nat) (v : Nat)
    (options : decision_tree_options) :
    (sort_range D I v options).2 ≤ (sort_range D I v options).1.length := by
  unfold sort_range
  simp [std_sort]

theorem enumerate_threshold_splits_values (D : dataset) (I : List Nat) (v : Nat)
    (options : decision_tree_options) (K : Nat) (hmsl : 1 ≤ options.min_samples_leaf) :
    ∀ r ∈ (enumerate_threshold_splits D I v options K).2,
      ∃ s0 ∈ I, r.split = .threshold ⟨v, D.at s0 v⟩ := by
  intro r hr
  unfold enumerate_threshold_splits at hr
  simp only at hr
  split at hr
  · simp at hr
  · rename_i hlast
    obtain ⟨j, j1, j2, j3⟩ := threshold_sweep_values D v options _ _ _ _ _ _ _ _ r hr
    have h1 := sort_range_snd_le D I v options
    have hj : j < (sort_range D I v options).1.length := by omega
    refine ⟨(sort_range D I v options).1.getD j 0, ?_, j3⟩
    apply (sort_range_perm D I v options).subset
    rw [List.getD_eq_getElem _ _ hj]
    exact List.getElem_mem _

theorem single_sweep_splits (D : dataset) (v : Nat) (options : decision_tree_options)
    (D_sum : Nat) : ∀ (fuel : Nat) (rest D1 D2 : List Nat),
    ∀ r ∈ single_sweep D v options D_sum fuel rest D1 D2, ∃ c, r.split = .single c := by
  intro fuel
  induction fuel with
  | zero => intro rest D1 D2 r hr; simp [single_sweep] at hr
  | succ n ih =>
    intro rest D1 D2 r hr
    cases rest with
    | nil => simp [single_sweep] at hr
    | cons f t =>
      unfold single_sweep at hr
      simp only at hr
      split at hr
      · exact ih _ _ _ r hr
      · rcases List.mem_cons.1 hr with h | h
        · exact ⟨_, by rw [h]⟩
        · exact ih _ _ _ r h

theorem subset_outer_splits (v : Nat) (options : decision_tree_options) (W : List Nat)
    (K : Nat) (pos D_counts : List Nat) (p : Nat) : ∀ (is : List Nat) (mask : Nat),
    ∀ r ∈ subset_outer v options W K pos D_counts p is mask, ∃ c, r.split = .subset c := by
  intro is
  induction is with
  | nil => intro mask r hr; simp [subset_outer] at hr
  | cons i is ih =>
    intro mask r hr
    unfold subset_outer at hr
    simp only at hr
    split at hr
    · rcases List.mem_cons.1 hr with h | h
      · exact ⟨_, by rw [h]⟩
      · exact ih _ r h
    · exact ih _ r hr

theorem enumerate_variable_values (fam : split_family) (D : dataset)
    (options : decision_tree_options) (hmsl : 1 ≤ options.min_samples_leaf)
    (I : List Nat) (v : Nat) (res : List Nat × List split_report)
    (h : fam.enumerate_variable D options I v = some res) :
    ∀ r ∈ res.2, ∀ w t, r.split = .threshold ⟨w, t⟩ → ∃ s0 ∈ I, D.at s0 w = t := by
  intro r hr w t hsplit
  have hthr : ∀ r ∈ (enumerate_threshold_splits D I v options D.class_count).2,
      ∀ w t, r.split = .threshold ⟨w, t⟩ → ∃ s0 ∈ I, D.at s0 w = t := by
    intro r hr w t hsplit
    obtain ⟨s0, h1, h2⟩ := enumerate_threshold_splits_values D I v options _ hmsl r hr
    rw [h2] at hsplit
    simp only [splitting_criterion.threshold.injEq, threshold_split.mk.injEq] at hsplit
    exact ⟨s0, h1, by rw [← hsplit.1, hsplit.2]⟩
  unfold split_family.enumerate_variable at h
  cases fam with
  | threshold =>
    simp only [Option.some.injEq] at h
    rw [← h] at hr
    exact hthr r hr w t hsplit
  | threshold_plus_single =>
    simp only at h
    split at h
    · simp only [Option.some.injEq] at h
      rw [← h] at hr
      obtain ⟨c, hc⟩ := single_sweep_splits D v options _ _ _ _ _ r hr
      rw [hc] at hsplit
      exact absurd hsplit (by simp)
    · simp only [Option.some.injEq] at h
      rw [← h] at hr
      exact hthr r hr w t hsplit
  | threshold_plus_subset =>
    simp only at h
    split at h
    · unfold enumerate_subset_splits at h
      simp only at h
      split at h
      · exact absurd h (by simp)
      · split at h
        · simp only [Option.some.injEq] at h
          rw [← h] at hr
          simp at hr
        · simp only [Option.some.injEq] at h
          rw [← h] at hr
          obtain ⟨c, hc⟩ := subset_outer_splits v options _ _ _ _ _ _ _ r hr
          rw [hc] at hsplit
          exact absurd hsplit (by simp)
    · simp only [Option.some.injEq] at h
      rw [← h] at hr
      exact hthr r hr w t hsplit

theorem enumerate_values (fam : split_family) (D : dataset)
    (options : decision_tree_options) (hmsl : 1 ≤ options.min_samples_leaf)
    (V : List Nat) : ∀ (I : List Nat) (res : List Nat × List split_report),
    fam.enumerate D options I V = some res →
    ∀ r ∈ res.2, ∀ w t, r.split = .threshold ⟨w, t⟩ → ∃ s0 ∈ I, D.at s0 w = t := by
  induction V with
  | nil =>
    intro I res h r hr
    simp only [split_family.enumerate, Option.some.injEq] at h
    rw [← h] at hr
    simp at hr
  | cons v V ih =>
    intro I res h r hr w t hsplit
    simp only [split_family.enumerate] at h
    cases h1 : fam.enumerate_variable D options I v with
    | none => simp [h1] at h
    | some r1 =>
      obtain ⟨I1, rep1⟩ := r1
      simp only [h1] at h
      cases h2 : split_family.enumerate fam D options I1 V with
      | none => simp [h2] at h
      | some r2 =>
        obtain ⟨I2, rep2⟩ := r2
        simp only [h2, Option.some.injEq] at h
        rw [← h] at hr
        rcases List.mem_append.1 hr with hr | hr
        · exact enumerate_variable_values fam D options hmsl I v _ h1 r hr w t hsplit
        · obtain ⟨s0, k1, k2⟩ := ih I1 _ h2 r hr w t hsplit
          exact ⟨s0, (enumerate_variable_perm fam D options I v _ h1).subset k1, k2⟩

theorem apply_split_pred_threshold {ρ : Type} (eng : random_engine ρ) (D : dataset)
    (smv : Bool) (v : Nat) (t : Value) (s0 : ρ) (x : Nat) :
    ((apply_split_pred eng D smv (.threshold ⟨v, t⟩) s0 x).1 = true →
      t.lt (D.at x v) = false) ∧
    ((apply_split_pred eng D smv (.threshold ⟨v, t⟩) s0 x).1 = false →
      (D.at x v).lt t = false) := by
  unfold apply_split_pred
  simp only
  cases hx : D.at x v with
  | nan => cases t <;> simp [Value.lt]
  | num q =>
    cases t with
    | nan => simp [Value.lt, is_missing]
    | num q2 =>
      by_cases hlt : q < q2
      · simp [Value.lt, hlt, le_of_lt hlt]
      · simp [Value.lt, hlt, is_missing]

/-- What `split_vertex` does to the ranges: the range of the vertex `ui` is permuted; when
the vertex is split, its range holds the range of the left child followed by that of the
right child, and a threshold is the value of a sample of the range, not below the values of
the left child and not above the values of the right child. -/
theorem split_vertex_sem {ρ S : Type} (eng : random_engine ρ) (D : dataset)
    (options : decision_tree_options) (fam : split_family) (g : gain_function S)
    (tree : binary_decision_tree) (rng : ρ) (todo : List Nat) (depth ui : Nat)
    (res : binary_decision_tree × ρ × List Nat)
    (h : split_vertex eng D options fam g tree rng todo depth ui = some res)
    (hui : ui < tree.vertices.length)
    (hb : (tree.find_vertex ui).I_begin ≤ (tree.find_vertex ui).I_end)
    (he : (tree.find_vertex ui).I_end ≤ tree.indices.length)
    (hmsl : 1 ≤ options.min_samples_leaf) :
    ∃ J : List Nat, J.Perm (tree.range (tree.find_vertex ui)) ∧
      res.1.indices = write_range tree.indices (tree.find_vertex ui).I_begin
        (tree.find_vertex ui).I_end J ∧
      (res.1.vertices = tree.vertices ∨
       ∃ (I1 I2 : List Nat) (split : splitting_criterion), J = I1 ++ I2 ∧
        split ≠ splitting_criterion.monostate ∧
        res.1.vertices = (tree.vertices ++
            [({ I_begin := (tree.find_vertex ui).I_begin,
                I_end := (tree.find_vertex ui).I_begin + I1.length } : vertex),
             { I_begin := (tree.find_vertex ui).I_begin + I1.length,
               I_end := (tree.find_vertex ui).I_end }]).set ui
          { I_begin := (tree.find_vertex ui).I_begin, I_end := (tree.find_vertex ui).I_end,
            split := split, left := tree.vertices.length % 2 ^ 32,
            right := (tree.vertices.length + 1) % 2 ^ 32 } ∧
        ∀ v t, split = .threshold ⟨v, t⟩ →
          (∃ s ∈ J, D.at s v = t) ∧ (∀ s ∈ I1, t.lt (D.at s v) = false) ∧
          (∀ s ∈ I2, (D.at s v).lt t = false)) := by
  unfold split_vertex at h
  simp only at h
  generalize hu : tree.find_vertex ui = u at h hb he ⊢
  generalize eng.sample (List.range D.feature_count) (min options.max_features D.feature_count)
    rng = Z at h
  cases hen : fam.enumerate D options (tree.range u) Z.1 with
  | none => simp [hen] at h
  | some r1 =>
    obtain ⟨I', reports⟩ := r1
    simp only [hen] at h
    have hperm1 : I'.Perm (tree.range u) := enumerate_perm fam D options Z.1 _ _ hen
    have hrl : (tree.range u).length = u.I_end - u.I_begin := range_length_eq tree u he
    have hI'l : I'.length = u.I_end - u.I_begin := by rw [hperm1.length_eq, hrl]
    generalize hbest : (reports.foldl (best_split_update g)
      (g.lowest, splitting_criterion.monostate)) = best at h
    by_cases hm : best.2 = splitting_criterion.monostate
    · simp only [hm, if_true, Option.some.injEq] at h
      rw [← h]
      exact ⟨I', hperm1, rfl, Or.inl rfl⟩
    · simp only [hm, if_false] at h
      generalize htree2 : binary_decision_tree.update_vertex
        { tree with indices := write_range tree.indices u.I_begin u.I_end I' } ui
        (fun w => { w with split := best.2 }) = tree2 at h
      have hind2 : tree2.indices = write_range tree.indices u.I_begin u.I_end I' := by
        rw [← htree2]; rfl
      have hvs2 : tree2.vertices = tree.vertices.set ui { u with split := best.2 } := by
        rw [← htree2]
        simp only [binary_decision_tree.update_vertex, binary_decision_tree.find_vertex]
        unfold binary_decision_tree.find_vertex at hu
        rw [hu]
      have hr2 : tree2.range u = I' := by
        unfold binary_decision_tree.range
        rw [hind2]
        exact range_write_range_self _ _ _ _ hb he hI'l
      cases hap : apply_split eng best.2 D (tree2.range u) Z.2 options.support_missing_values with
      | none => simp [hap] at h
      | some r2 =>
        obtain ⟨⟨I1, I2⟩, rng2⟩ := r2
        simp only [hap, Option.some.injEq] at h
        have hsome := apply_split_some eng best.2 D (tree2.range u) Z.2
          options.support_missing_values hm
        rw [hap] at hsome
        simp only [Option.some.injEq] at hsome
        have hperm2 : (I1 ++ I2).Perm (tree2.range u) := by
          have hp := std_partition_perm (apply_split_pred eng D options.support_missing_values
            best.2) (tree2.range u) Z.2
          rw [← hsome] at hp
          exact hp
        have hleft := std_partition_left (apply_split_pred eng D
          options.support_missing_values best.2) (tree2.range u) Z.2
        have hright := std_partition_right (apply_split_pred eng D
          options.support_missing_values best.2) (tree2.range u) Z.2
        rw [← hsome] at hleft hright
        simp only at hleft hright
        rw [hr2] at hperm2
        rw [← h]
        refine ⟨I1 ++ I2, hperm2.trans hperm1, ?_, Or.inr ⟨I1, I2, best.2, rfl, hm, ?_, ?_⟩⟩
        · simp only [binary_decision_tree.update_vertex, binary_decision_tree.add_vertex]
          rw [hind2]
          exact write_range_write_range _ _ _ _ _ hb he hI'l
        · simp only [binary_decision_tree.update_vertex, binary_decision_tree.add_vertex,
            binary_decision_tree.find_vertex, hvs2, List.length_set, List.length_append,
            List.length_singleton]
          have hget : ((tree.vertices.set ui { u with split := best.2 } ++
              [({ I_begin := u.I_begin, I_end := u.I_begin + I1.length } : vertex)] ++
              [({ I_begin := u.I_begin + I1.length, I_end := u.I_end } : vertex)]).getD ui
              { I_begin := 0, I_end := 0 }) = { u with split := best.2 } := by
            rw [List.append_assoc, List.getD_append _ _ _ _ (by simpa using hui)]
            rw [List.getD_eq_getElem _ _ (by simpa using hui)]
            simp
          rw [hget]
          rw [List.append_assoc, List.set_append_left _ _ (by simpa using hui), List.set_set]
          rw [List.set_append_left _ _ hui]
          rfl
        · intro v t hsplit
          have hrep : ∃ r ∈ reports, best.2 = r.split := by
            rcases best_split_foldl_ne g reports (g.lowest, splitting_criterion.monostate)
              with h1 | h1
            · rw [hbest] at h1
              exact absurd h1 hm
            · rw [hbest] at h1
              exact h1
          obtain ⟨r, hr, hbr⟩ := hrep
          obtain ⟨s0, k1, k2⟩ := enumerate_values fam D options hmsl Z.1 _ _ hen r hr v t
            (by rw [← hbr]; exact hsplit)
          refine ⟨⟨s0, (hperm2.trans hperm1).symm.subset k1, k2⟩, ?_, ?_⟩
          · intro s hs
            obtain ⟨s1, hs1⟩ := hleft s hs
            rw [hsplit] at hs1
            exact (apply_split_pred_threshold eng D _ v t s1 s).1 hs1
          · intro s hs
            obtain ⟨s1, hs1⟩ := hright s hs
            rw [hsplit] at hs1
            exact (apply_split_pred_threshold eng D _ v t s1 s).2 hs1

theorem range_write_range_left (indices : List Nat) (b e : Nat) (I1 I2 : List Nat)
    (hb : b ≤ e) (he : e ≤ indices.length) :
    ((write_range indices b e (I1 ++ I2)).take (b + I1.length)).drop b = I1 := by
  obtain ⟨-, h4, -⟩ := indices_split indices b e hb he
  unfold write_range
  rw [← List.append_assoc, List.append_assoc (indices.take b ++ I1)]
  rw [take_drop_mid _ _ _ _ _ (by rw [h4]) (by rw [h4])]
  rw [h4, Nat.sub_self, List.take_zero, List.drop_of_length_le (by rw [h4])]
  simp

theorem range_write_range_right (indices : List Nat) (b e : Nat) (I1 I2 : List Nat)
    (hb : b ≤ e) (he : e ≤ indices.length) (hl : I1.length + I2.length = e - b) :
    ((write_range indices b e (I1 ++ I2)).take e).drop (b + I1.length) = I2 := by
  obtain ⟨-, h4, -⟩ := indices_split indices b e hb he
  unfold write_range
  rw [← List.append_assoc]
  rw [take_drop_mid _ _ _ _ _ (by simp [h4]) (by simp [h4]; omega)]
  have h5 : (indices.take b ++ I1).length = b + I1.length := by simp [h4]
  rw [h5, List.drop_of_length_le (by rw [h5])]
  have : e - (b + I1.length + I2.length) = 0 := by omega
  rw [this]
  simp

theorem write_range_self (indices : List Nat) (b e : Nat) (hb : b ≤ e) :
    write_range indices b e ((indices.take e).drop b) = indices := by
  unfold write_range
  rw [List.append_assoc]
  exact (range_split_eq indices b e hb).symm

/-- What an iteration of `learn_decision_tree` does to the ranges, see
`split_vertex_sem`. -/
theorem learn_step_sem {ρ S : Type} (eng : random_engine ρ) (D : dataset)
    (options : decision_tree_options) (fam : split_family) (g : gain_function S)
    (stop : List Nat → dataset → Nat → decision_tree_options → Bool)
    (st st2 : learn_state ρ) (ui : Nat) (todo : List Nat) (htodo : st.todo = ui :: todo)
    (h : learn_step eng D options fam g stop st = some st2)
    (hui : ui < st.tree.vertices.length)
    (hb : (st.tree.find_vertex ui).I_begin ≤ (st.tree.find_vertex ui).I_end)
    (he : (st.tree.find_vertex ui).I_end ≤ st.tree.indices.length)
    (hmsl : 1 ≤ options.min_samples_leaf) :
    st2.tree.category_counts = st.tree.category_counts ∧
    ∃ J : List Nat, J.Perm (st.tree.range (st.tree.find_vertex ui)) ∧
      st2.tree.indices = write_range st.tree.indices (st.tree.find_vertex ui).I_begin
        (st.tree.find_vertex ui).I_end J ∧
      (st2.tree.vertices = st.tree.vertices ∨
       ∃ (I1 I2 : List Nat) (split : splitting_criterion), J = I1 ++ I2 ∧
        split ≠ splitting_criterion.monostate ∧
        st2.tree.vertices = (st.tree.vertices ++
            [({ I_begin := (st.tree.find_vertex ui).I_begin,
                I_end := (st.tree.find_vertex ui).I_begin + I1.length } : vertex),
             { I_begin := (st.tree.find_vertex ui).I_begin + I1.length,
               I_end := (st.tree.find_vertex ui).I_end }]).set ui
          { I_begin := (st.tree.find_vertex ui).I_begin,
            I_end := (st.tree.find_vertex ui).I_end,
            split := split, left := st.tree.vertices.length % 2 ^ 32,
            right := (st.tree.vertices.length + 1) % 2 ^ 32 } ∧
        ∀ v t, split = .threshold ⟨v, t⟩ →
          (∃ s ∈ J, D.at s v = t) ∧ (∀ s ∈ I1, t.lt (D.at s v) = false) ∧
          (∀ s ∈ I2, (D.at s v).lt t = false)) := by
  unfold learn_step at h
  rw [htodo] at h
  simp only at h
  by_cases hstop : stop (st.tree.range (st.tree.find_vertex ui)) D st.depth options = true
  · simp only [hstop, Bool.not_true, Bool.false_eq_true, if_false] at h
    have hst2 : st2.tree = st.tree := by
      by_cases hl : st.level_count - 1 = 0
      · simp only [hl, if_true, Option.some.injEq] at h
        rw [← h]
      · simp only [hl, if_false, Option.some.injEq] at h
        rw [← h]
    rw [hst2]
    exact ⟨rfl, _, List.Perm.refl _, (write_range_self _ _ _ hb).symm, Or.inl rfl⟩
  · have hstop2 : stop (st.tree.range (st.tree.find_vertex ui)) D st.depth options = false := by
      simpa using hstop
    simp only [hstop2, Bool.not_false, if_true] at h
    cases hsv : split_vertex eng D options fam g st.tree st.rng todo st.depth ui with
    | none => simp [hsv] at h
    | some res =>
      obtain ⟨tree, rng, todo2⟩ := res
      simp only [hsv] at h
      obtain ⟨-, -, c3, -⟩ := split_vertex_cases eng D options fam g st.tree st.rng todo
        st.depth ui _ hsv hui hb
      have c5 := split_vertex_sem eng D options fam g st.tree st.rng todo
        st.depth ui _ hsv hui hb he hmsl
      simp only at c3 c5
      have hst2 : st2.tree = tree := by
        by_cases hl : st.level_count - 1 = 0
        · simp only [hl, if_true, Option.some.injEq] at h
          rw [← h]
        · simp only [hl, if_false, Option.some.injEq] at h
          rw [← h]
      rw [hst2]
      exact ⟨c3, c5⟩

theorem range_mem_write_range (indices : List Nat) (b e : Nat) (J : List Nat)
    (hb : b ≤ e) (he : e ≤ indices.length) (hJ : J.Perm ((indices.take e).drop b))
    (bw ew : Nat) (h : (bw ≤ b ∧ e ≤ ew) ∨ ew ≤ b ∨ e ≤ bw) (s : Nat) :
    s ∈ ((write_range indices b e J).take ew).drop bw ↔ s ∈ (indices.take ew).drop bw := by
  rcases h with h | h
  · exact (range_write_range_contains indices b e J hb he hJ bw ew h.1 h.2).mem_iff
  · have hJl : J.length = e - b := by
      rw [hJ.length_eq]; simp; omega
    rw [range_write_range_disjoint indices b e J hb he hJl bw ew h]

/-- The invariant on the ranges and the splits is preserved by an iteration of
`learn_decision_tree`. -/
theorem learn_step_split_inv {ρ S : Type} (eng : random_engine ρ) (D : dataset)
    (options : decision_tree_options) (fam : split_family) (g : gain_function S)
    (stop : List Nat → dataset → Nat → decision_tree_options → Bool)
    (st st2 : learn_state ρ) (hinv : learn_inv st) (hs : split_inv D st.tree)
    (h : learn_step eng D options fam g stop st = some st2)
    (hU : st2.tree.vertices.length ≤ undefined_index)
    (hmsl : 1 ≤ options.min_samples_leaf) : split_inv D st2.tree := by
  cases htodo : st.todo with
  | nil =>
    rw [learn_step_nil eng D options fam g stop st htodo] at h
    simp only [Option.some.injEq] at h
    rw [← h]; exact hs
  | cons ui todo =>
    have hmem : ui ∈ st.todo := by rw [htodo]; exact List.mem_cons_self _ _
    have hui := (hinv.pending ui hmem).1
    have huleaf := (hinv.pending ui hmem).2
    have hb := (hinv.nested.bounds ui hui).1
    have he := (hinv.nested.bounds ui hui).2
    obtain ⟨hcc, J, hJ, hind, hcase⟩ := learn_step_sem eng D options fam g stop st st2 ui todo
      htodo h hui hb he hmsl
    have hJ2 : J.Perm ((st.tree.indices.take (st.tree.find_vertex ui).I_end).drop
        (st.tree.find_vertex ui).I_begin) := hJ
    have hJl : J.length = (st.tree.find_vertex ui).I_end - (st.tree.find_vertex ui).I_begin := by
      rw [hJ.length_eq]; exact range_length_eq _ _ he
    -- the position of the range of a vertex relative to the range of `ui`
    have hpos : ∀ w, w < st.tree.vertices.length →
        ((st.tree.find_vertex w).I_begin ≤ (st.tree.find_vertex ui).I_begin ∧
          (st.tree.find_vertex ui).I_end ≤ (st.tree.find_vertex w).I_end) ∨
        (st.tree.find_vertex w).I_end ≤ (st.tree.find_vertex ui).I_begin ∨
        (st.tree.find_vertex ui).I_end ≤ (st.tree.find_vertex w).I_begin := by
      intro w hw
      cases hwl : (st.tree.find_vertex w).is_leaf with
      | true =>
        by_cases hwu : w = ui
        · rw [hwu]; exact Or.inl ⟨le_refl _, le_refl _⟩
        · rcases hs.leaves_disjoint ui w hui hw (Ne.symm hwu) huleaf hwl with h1 | h1
          · exact Or.inr (Or.inr h1)
          · exact Or.inr (Or.inl h1)
      | false =>
        rcases hs.laminar ui w hui hw huleaf hwl with h1 | h1 | h1
        · exact Or.inl h1
        · exact Or.inr (Or.inr h1)
        · exact Or.inr (Or.inl h1)
    have hmemr : ∀ w, w < st.tree.vertices.length → ∀ s,
        s ∈ ((st2.tree.indices.take (st.tree.find_vertex w).I_end).drop
          (st.tree.find_vertex w).I_begin) ↔ s ∈ st.tree.range (st.tree.find_vertex w) := by
      intro w hw s
      rw [hind]
      exact range_mem_write_range _ _ _ _ hb he hJ2 _ _ (hpos w hw) s
    have hchild : ∀ i, i < st.tree.vertices.length → (st.tree.find_vertex i).is_leaf = false →
        (st.tree.find_vertex i).left < st.tree.vertices.length ∧
        (st.tree.find_vertex i).right < st.tree.vertices.length := by
      intro i hi hl
      obtain ⟨k1, k2, k3, k4⟩ := bfs_numbered_children _ hinv.numbered i hi hl
      have e1 : (st.tree.find_vertex i).right < st.tree.vertices.length := k3
      have e2 : (st.tree.find_vertex i).right = (st.tree.find_vertex i).left + 1 := k2
      exact ⟨by omega, e1⟩
    rcases hcase with hvs | ⟨I1, I2, sp, hJ12, hsp, hvs, hthr⟩
    · have hfv : ∀ i, st2.tree.find_vertex i = st.tree.find_vertex i := by
        intro i; simp only [binary_decision_tree.find_vertex, hvs]
      refine ⟨?_, ?_, ?_, ?_, ?_⟩
      · intro i j hi hj hne hli hlj
        rw [hvs] at hi hj
        rw [hfv] at hli hlj ⊢
        rw [hfv]
        exact hs.leaves_disjoint i j hi hj hne hli hlj
      · intro l w hl hw hll hwl
        rw [hvs] at hl hw
        rw [hfv] at hll hwl ⊢
        rw [hfv]
        exact hs.laminar l w hl hw hll hwl
      · intro i hi hl
        rw [hvs] at hi
        rw [hfv] at hl ⊢
        exact hs.defined i hi hl
      · intro i hi hl v t hsplit
        rw [hvs] at hi
        rw [hfv] at hl hsplit
        obtain ⟨t1, t2, t3⟩ := hs.thresholds i hi hl v t hsplit
        obtain ⟨c1, c2⟩ := hchild i hi hl
        simp only [hfv]
        refine ⟨?_, ?_, ?_⟩
        · obtain ⟨s, s1, s2⟩ := t1
          exact ⟨s, (hmemr i hi s).2 s1, s2⟩
        · intro s hs1
          exact t2 s ((hmemr _ c1 s).1 hs1)
        · intro s hs1
          exact t3 s ((hmemr _ c2 s).1 hs1)
      · rw [hcc]; exact hs.counts
    · have hn2 : st.tree.vertices.length + 2 ≤ undefined_index := by
        rw [hvs] at hU; simpa using hU
      obtain ⟨hmod1, hmod2⟩ := mod_uint32_of_le _ hn2
      rw [hmod1, hmod2] at hvs
      have hI12 : I1.length + I2.length =
          (st.tree.find_vertex ui).I_end - (st.tree.find_vertex ui).I_begin := by
        rw [← hJl, hJ12, List.length_append]
      obtain ⟨u2, hu2⟩ : ∃ u2 : vertex, vertex.mk (st.tree.find_vertex ui).I_begin
          (st.tree.find_vertex ui).I_end st.tree.vertices.length
          (st.tree.vertices.length + 1) sp = u2 := ⟨_, rfl⟩
      obtain ⟨vl, hvl⟩ : ∃ vl : vertex, vertex.mk (st.tree.find_vertex ui).I_begin
          ((st.tree.find_vertex ui).I_begin + I1.length)
          undefined_index undefined_index splitting_criterion.monostate = vl := ⟨_, rfl⟩
      obtain ⟨vr, hvr⟩ : ∃ vr : vertex, vertex.mk ((st.tree.find_vertex ui).I_begin + I1.length)
          (st.tree.find_vertex ui).I_end
          undefined_index undefined_index splitting_criterion.monostate = vr := ⟨_, rfl⟩
      rw [hu2, hvl, hvr] at hvs
      have hu2l : u2.left = st.tree.vertices.length := by rw [← hu2]
      have hu2r : u2.right = st.tree.vertices.length + 1 := by rw [← hu2]
      have hu2b : u2.I_begin = (st.tree.find_vertex ui).I_begin := by rw [← hu2]
      have hu2e : u2.I_end = (st.tree.find_vertex ui).I_end := by rw [← hu2]
      have hu2s : u2.split = sp := by rw [← hu2]
      have hvlb : vl.I_begin = (st.tree.find_vertex ui).I_begin := by rw [← hvl]
      have hvle : vl.I_end = (st.tree.find_vertex ui).I_begin + I1.length := by rw [← hvl]
      have hvrb : vr.I_begin = (st.tree.find_vertex ui).I_begin + I1.length := by rw [← hvr]
      have hvre : vr.I_end = (st.tree.find_vertex ui).I_end := by rw [← hvr]
      have hvll : vl.is_leaf = true := by rw [← hvl]; simp [vertex.is_leaf]
      have hvrl : vr.is_leaf = true := by rw [← hvr]; simp [vertex.is_leaf]
      have hu2leaf : u2.is_leaf = false :=
        is_leaf_false_of_left u2 (by rw [hu2l]; omega)
      have hlen2 : st2.tree.vertices.length = st.tree.vertices.length + 2 := by
        rw [hvs]; simp
      have hfself : st2.tree.find_vertex ui = u2 := by
        simp only [binary_decision_tree.find_vertex, hvs]
        exact getD_split_self _ _ _ _ _ _ hui
      have hfold : ∀ i, i < st.tree.vertices.length → i ≠ ui →
          st2.tree.find_vertex i = st.tree.find_vertex i := by
        intro i hi hne
        simp only [binary_decision_tree.find_vertex, hvs]
        exact getD_split_old _ _ _ _ _ _ _ hi hne
      have hfl : st2.tree.find_vertex st.tree.vertices.length = vl := by
        simp only [binary_decision_tree.find_vertex, hvs]
        exact getD_split_left _ _ _ _ _ _ hui
      have hfr : st2.tree.find_vertex (st.tree.vertices.length + 1) = vr := by
        simp only [binary_decision_tree.find_vertex, hvs]
        exact getD_split_right _ _ _ _ _ _ hui
      have hrange : ∀ i, i < st.tree.vertices.length →
          (st2.tree.find_vertex i).I_begin = (st.tree.find_vertex i).I_begin ∧
          (st2.tree.find_vertex i).I_end = (st.tree.find_vertex i).I_end := by
        intro i hi
        by_cases hne : i = ui
        · rw [hne, hfself]; exact ⟨hu2b, hu2e⟩
        · rw [hfold i hi hne]; exact ⟨rfl, rfl⟩
      -- a vertex of the new tree: an old one, or one of the two new leaves
      have hcases : ∀ i, i < st2.tree.vertices.length →
          (i < st.tree.vertices.length ∧ i ≠ ui ∧
            st2.tree.find_vertex i = st.tree.find_vertex i) ∨
          (i = ui ∧ st2.tree.find_vertex i = u2) ∨
          (i = st.tree.vertices.length ∧ st2.tree.find_vertex i = vl) ∨
          (i = st.tree.vertices.length + 1 ∧ st2.tree.find_vertex i = vr) := by
        intro i hi
        by_cases hold : i < st.tree.vertices.length
        · by_cases hne : i = ui
          · exact Or.inr (Or.inl ⟨hne, by rw [hne]; exact hfself⟩)
          · exact Or.inl ⟨hold, hne, hfold i hold hne⟩
        · have : i = st.tree.vertices.length ∨ i = st.tree.vertices.length + 1 := by omega
          rcases this with h1 | h1
          · exact Or.inr (Or.inr (Or.inl ⟨h1, by rw [h1]; exact hfl⟩))
          · exact Or.inr (Or.inr (Or.inr ⟨h1, by rw [h1]; exact hfr⟩))
      -- the old leaves lie outside the range of `ui`
      have hout : ∀ i, i < st.tree.vertices.length → i ≠ ui →
          (st.tree.find_vertex i).is_leaf = true →
          (st.tree.find_vertex i).I_end ≤ (st.tree.find_vertex ui).I_begin ∨
          (st.tree.find_vertex ui).I_end ≤ (st.tree.find_vertex i).I_begin := by
        intro i hi hne hl
        exact hs.leaves_disjoint i ui hi hui hne hl huleaf
      refine ⟨?_, ?_, ?_, ?_, ?_⟩
      · intro i j hi hj hne hli hlj
        rcases hcases i hi with ⟨i1, i2, i3⟩ | ⟨i1, i3⟩ | ⟨i1, i3⟩ | ⟨i1, i3⟩ <;>
        rcases hcases j hj with ⟨j1, j2, j3⟩ | ⟨j1, j3⟩ | ⟨j1, j3⟩ | ⟨j1, j3⟩ <;>
        rw [i3] at hli ⊢ <;> rw [j3] at hlj ⊢
        · exact hs.leaves_disjoint i j i1 j1 hne hli hlj
        · rw [hu2leaf] at hlj; exact absurd hlj (by simp)
        · rw [hvlb, hvle]
          rcases hout i i1 i2 hli with h1 | h1
          · exact Or.inl h1
          · right; omega
        · rw [hvrb, hvre]
          rcases hout i i1 i2 hli with h1 | h1
          · left; omega
          · exact Or.inr h1
        · rw [hu2leaf] at hli; exact absurd hli (by simp)
        · rw [hu2leaf] at hli; exact absurd hli (by simp)
        · rw [hu2leaf] at hli; exact absurd hli (by simp)
        · rw [hu2leaf] at hli; exact absurd hli (by simp)
        · rw [hvlb, hvle]
          rcases hout j j1 j2 hlj with h1 | h1
          · exact Or.inr h1
          · left; omega
        · rw [hu2leaf] at hlj; exact absurd hlj (by simp)
        · exact absurd (i1.trans j1.symm) hne
        · rw [hvle, hvrb]; exact Or.inl (le_refl _)
        · rw [hvrb, hvre]
          rcases hout j j1 j2 hlj with h1 | h1
          · right; omega
          · exact Or.inl h1
        · rw [hu2leaf] at hlj; exact absurd hlj (by simp)
        · rw [hvle, hvrb]; exact Or.inr (le_refl _)
        · exact absurd (i1.trans j1.symm) hne
      · intro l w hl hw hll hwl
        rcases hcases l hl with ⟨i1, i2, i3⟩ | ⟨i1, i3⟩ | ⟨i1, i3⟩ | ⟨i1, i3⟩ <;>
        rcases hcases w hw with ⟨j1, j2, j3⟩ | ⟨j1, j3⟩ | ⟨j1, j3⟩ | ⟨j1, j3⟩ <;>
        rw [i3] at hll ⊢ <;> rw [j3] at hwl ⊢
        · exact hs.laminar l w i1 j1 hll hwl
        · rw [hu2b, hu2e]
          rcases hout l i1 i2 hll with h1 | h1
          · exact Or.inr (Or.inl h1)
          · exact Or.inr (Or.inr h1)
        · rw [hvll] at hwl; exact absurd hwl (by simp)
        · rw [hvrl] at hwl; exact absurd hwl (by simp)
        · rw [hu2leaf] at hll; exact absurd hll (by simp)
        · rw [hu2leaf] at hll; exact absurd hll (by simp)
        · rw [hu2leaf] at hll; exact absurd hll (by simp)
        · rw [hu2leaf] at hll; exact absurd hll (by simp)
        · rw [hvlb, hvle]
          rcases hs.laminar ui w hui j1 huleaf hwl with h1 | h1 | h1
          · left; omega
          · right; left; omega
          · right; right; omega
        · rw [hvlb, hvle, hu2b, hu2e]
          left; omega
        · rw [hvll] at hwl; exact absurd hwl (by simp)
        · rw [hvrl] at hwl; exact absurd hwl (by simp)
        · rw [hvrb, hvre]
          rcases hs.laminar ui w hui j1 huleaf hwl with h1 | h1 | h1
          · left; omega
          · right; left; omega
          · right; right; omega
        · rw [hvrb, hvre, hu2b, hu2e]
          left; omega
        · rw [hvll] at hwl; exact absurd hwl (by simp)
        · rw [hvrl] at hwl; exact absurd hwl (by simp)
      · intro i hi hl
        rcases hcases i hi with ⟨i1, i2, i3⟩ | ⟨i1, i3⟩ | ⟨i1, i3⟩ | ⟨i1, i3⟩ <;>
        rw [i3] at hl ⊢
        · exact hs.defined i i1 hl
        · rw [hu2s]; exact hsp
        · rw [hvll] at hl; exact absurd hl (by simp)
        · rw [hvrl] at hl; exact absurd hl (by simp)
      · intro i hi hl v t hsplit
        rcases hcases i hi with ⟨i1, i2, i3⟩ | ⟨i1, i3⟩ | ⟨i1, i3⟩ | ⟨i1, i3⟩ <;>
        rw [i3] at hl hsplit ⊢
        · obtain ⟨t1, t2, t3⟩ := hs.thresholds i i1 hl v t hsplit
          obtain ⟨c1, c2⟩ := hchild i i1 hl
          unfold binary_decision_tree.range
          rw [(hrange _ c1).1, (hrange _ c1).2, (hrange _ c2).1, (hrange _ c2).2]
          refine ⟨?_, ?_, ?_⟩
          · obtain ⟨s, s1, s2⟩ := t1
            exact ⟨s, (hmemr i i1 s).2 s1, s2⟩
          · intro s hs1
            exact t2 s ((hmemr _ c1 s).1 hs1)
          · intro s hs1
            exact t3 s ((hmemr _ c2 s).1 hs1)
        · rw [hu2s] at hsplit
          obtain ⟨t1, t2, t3⟩ := hthr v t hsplit
          rw [hu2l, hu2r, hfl, hfr]
          unfold binary_decision_tree.range
          rw [hu2b, hu2e, hvlb, hvle, hvrb, hvre, hind]
          rw [range_write_range_self _ _ _ _ hb he hJl, hJ12,
            range_write_range_left _ _ _ _ _ hb he,
            range_write_range_right _ _ _ _ _ hb he hI12]
          rw [hJ12] at t1
          exact ⟨t1, t2, t3⟩
        · rw [hvll] at hl; exact absurd hl (by simp)
        · rw [hvrl] at hl; exact absurd hl (by simp)
      · rw [hcc]; exact hs.counts

theorem dataset.finite_at (D : dataset) (hD : D.finite = true) (s v : Nat) (q : ℚ)
    (h : D.at s v = .num q) : double_lowest ≤ q ∧ q ≤ double_max := by
  unfold dataset.finite at hD
  rw [List.all_eq_true] at hD
  unfold dataset.at at h
  by_cases hs : s < D.X.length
  · have hrow := hD (D.X.getD s []) (by
      rw [List.getD_eq_getElem _ _ hs]; exact List.getElem_mem _)
    rw [List.all_eq_true] at hrow
    by_cases hv : v < (D.X.getD s []).length
    · have hx := hrow ((D.X.getD s []).getD v Value.nan) (by
        rw [List.getD_eq_getElem _ _ hv]; exact List.getElem_mem _)
      rw [h] at hx
      simpa [Value.is_finite] using hx
    · rw [List.getD_eq_default _ _ (Nat.le_of_not_lt hv)] at h
      exact absurd h (by simp)
  · rw [List.getD_eq_default _ _ (Nat.le_of_not_lt hs)] at h
    simp at h

theorem learn_loop_split_inv {ρ S : Type} (eng : random_engine ρ) (D : dataset)
    (options : decision_tree_options) (fam : split_family) (g : gain_function S)
    (stop : List Nat → dataset → Nat → decision_tree_options → Bool)
    (hmsl : 1 ≤ options.min_samples_leaf)
    (T : binary_decision_tree) (hU : T.vertices.length ≤ undefined_index) (fuel : Nat) :
    ∀ (st : learn_state ρ), learn_inv st → split_inv D st.tree →
    learn_loop eng D options fam g stop fuel st = .returned T → split_inv D T := by
  induction fuel with
  | zero =>
    intro st hinv hs h
    unfold learn_loop at h
    split at h
    · simp only [learn_result.returned.injEq] at h
      rw [← h]; exact hs
    · exact absurd h (by simp)
  | succ fuel ih =>
    intro st hinv hs h
    unfold learn_loop at h
    split at h
    · simp only [learn_result.returned.injEq] at h
      rw [← h]; exact hs
    · cases hst : learn_step eng D options fam g stop st with
      | none => simp [hst] at h
      | some st2 =>
        simp only [hst] at h
        have hlen := learn_loop_length eng D options fam g stop T fuel st2 h
        have hinv2 := learn_step_inv eng D options fam g stop st st2 hinv hst (le_trans hlen hU)
        have hs2 := learn_step_split_inv eng D options fam g stop st st2 hinv hs hst
          (le_trans hlen hU) hmsl
        exact ih st2 hinv2 hs2 h

theorem split_inv_init (D : dataset) (I : List Nat) :
    split_inv D (binary_decision_tree.make D I) := by
  have hleaf : ∀ i, ((binary_decision_tree.make D I).find_vertex i).is_leaf = true := by
    intro i
    simp only [binary_decision_tree.make, binary_decision_tree.find_vertex]
    cases i with
    | zero => simp [vertex.is_leaf]
    | succ i => simp [vertex.is_leaf]
  refine ⟨?_, ?_, ?_, ?_, rfl⟩
  · intro i j hi hj hne
    simp only [binary_decision_tree.make, List.length_singleton] at hi hj
    omega
  · intro l w _ _ _ hw
    rw [hleaf] at hw; exact absurd hw (by simp)
  · intro i _ hl
    rw [hleaf] at hl; exact absurd hl (by simp)
  · intro i _ hl
    rw [hleaf] at hl; exact absurd hl (by simp)

/-- The facts on a learned tree that the generative forest uses. -/
theorem learned_spec (D : dataset) (tree : binary_decision_tree) (h : learned D tree) :
    bfs_numbered tree.vertices ∧ ranges_nested tree ∧ split_inv D tree ∧
    tree.vertices.length ≤ undefined_index := by
  obtain ⟨ρ, S, eng, I, options, fam, g, stop, seed, fuel, hmsl, hl, hU⟩ := h
  obtain ⟨h1, h2, -⟩ := learn_loop_inv eng D options fam g stop tree hU fuel _
    (learn_inv_init D I seed) hl
  exact ⟨h1, h2, learn_loop_split_inv eng D options fam g stop hmsl tree hU fuel _
    (learn_inv_init D I seed) (split_inv_init D I) hl, hU⟩

theorem bfs_numbered_children_above (tree : binary_decision_tree)
    (hn : bfs_numbered tree.vertices) : children_above tree := by
  intro i hi hl
  obtain ⟨k1, k2, k3, k4⟩ := bfs_numbered_children _ hn i hi hl
  have e2 : (tree.find_vertex i).right = (tree.find_vertex i).left + 1 := k2
  have e3 : (tree.find_vertex i).right < tree.vertices.length := k3
  have e4 : i < (tree.find_vertex i).left := k4
  exact ⟨e4, by omega, by omega, e3⟩

theorem bfs_numbered_pos (vs : List vertex) (hn : bfs_numbered vs) : 0 < vs.length := by
  have := hn.size
  omega

/-- In a tree numbered breadth first every vertex but the root is a child of a vertex with a
smaller index. -/
theorem bfs_numbered_parent (tree : binary_decision_tree) (hn : bfs_numbered tree.vertices)
    (i : Nat) (hi0 : 0 < i) (hi : i < tree.vertices.length) :
    ∃ j, j < i ∧ (tree.find_vertex j).is_leaf = false ∧
      ((tree.find_vertex j).left = i ∨ (tree.find_vertex j).right = i) := by
  have hex : ∃ k, i ≤ 2 * nonleaf_count tree.vertices k :=
    ⟨tree.vertices.length, by have := hn.size; omega⟩
  classical
  have hk := Nat.find_spec hex
  have hmin : ∀ m, m < Nat.find hex → ¬ i ≤ 2 * nonleaf_count tree.vertices m :=
    fun m h => Nat.find_min hex h
  generalize Nat.find hex = k at hk hmin
  have hk0 : k ≠ 0 := by
    intro h0
    rw [h0] at hk
    simp [nonleaf_count] at hk
    omega
  obtain ⟨j, rfl⟩ : ∃ j, k = j + 1 := ⟨k - 1, by omega⟩
  have hj := hmin j (by omega)
  have hjn : j < tree.vertices.length := by
    by_contra hge
    have h1 := nonleaf_count_ge_length tree.vertices (j + 1) (by omega)
    have h2 := nonleaf_count_ge_length tree.vertices j (by omega)
    rw [h1] at hk; rw [h2] at hj
    exact hj hk
  have hsucc := nonleaf_count_succ tree.vertices j hjn
  cases hl : (tree.vertices.getD j { I_begin := 0, I_end := 0 }).is_leaf with
  | true =>
    rw [hl] at hsucc
    simp only [if_true, Nat.add_zero] at hsucc
    rw [hsucc] at hk
    exact absurd hk hj
  | false =>
    rw [hl] at hsucc
    simp only [Bool.false_eq_true, if_false] at hsucc
    have hlow := hn.lower j hjn
    rcases hn.links j hjn with h1 | ⟨h1, h2⟩
    · rw [h1] at hl; exact absurd hl (by simp)
    · refine ⟨j, by omega, hl, ?_⟩
      have e1 : (tree.find_vertex j).left = 1 + 2 * nonleaf_count tree.vertices j := h1
      have e2 : (tree.find_vertex j).right = 2 + 2 * nonleaf_count tree.vertices j := h2
      omega

theorem interval_reports_forall (tree : binary_decision_tree) (hch : children_above tree)
    (P : Nat → List interval → Prop)
    (hstep : ∀ ui iv, ui < tree.vertices.length → (tree.find_vertex ui).is_leaf = false →
      P ui iv → P (tree.find_vertex ui).left (left_intervals (tree.find_vertex ui) iv) ∧
        P (tree.find_vertex ui).right (right_intervals (tree.find_vertex ui) iv)) :
    ∀ (d ui : Nat) (iv : List interval), ui < tree.vertices.length → P ui iv →
      ∀ c ∈ interval_reports tree d ui iv, c.1 < tree.vertices.length ∧ P c.1 c.2 := by
  intro d
  induction d with
  | zero =>
    intro ui iv hui hP c hc
    simp only [interval_reports, List.mem_singleton] at hc
    rw [hc]; exact ⟨hui, hP⟩
  | succ d ih =>
    intro ui iv hui hP c hc
    unfold interval_reports at hc
    cases hl : (tree.find_vertex ui).is_leaf with
    | true =>
      simp only [hl, if_true, List.mem_singleton] at hc
      rw [hc]; exact ⟨hui, hP⟩
    | false =>
      simp only [hl, Bool.false_eq_true, if_false, List.mem_cons, List.mem_append] at hc
      obtain ⟨c1, c2, c3, c4⟩ := hch ui hui hl
      obtain ⟨p1, p2⟩ := hstep ui iv hui hl hP
      rcases hc with hc | hc | hc
      · rw [hc]; exact ⟨hui, hP⟩
      · exact ih _ _ c3 p1 c hc
      · exact ih _ _ c4 p2 c hc

theorem interval_reports_children (tree : binary_decision_tree) (hch : children_above tree) :
    ∀ (d ui : Nat) (I : List interval), tree.vertices.length - ui ≤ d →
      ui < tree.vertices.length → ∀ j iv, (j, iv) ∈ interval_reports tree d ui I →
      (tree.find_vertex j).is_leaf = false →
      (∃ iv1, ((tree.find_vertex j).left, iv1) ∈ interval_reports tree d ui I) ∧
      (∃ iv2, ((tree.find_vertex j).right, iv2) ∈ interval_reports tree d ui I) := by
  intro d
  induction d with
  | zero => intro ui I hd hui; omega
  | succ d ih =>
    intro ui I hd hui j iv hj hjl
    unfold interval_reports at hj ⊢
    cases hl : (tree.find_vertex ui).is_leaf with
    | true =>
      simp only [hl, if_true, List.mem_singleton, Prod.mk.injEq] at hj
      rw [hj.1, hl] at hjl
      exact absurd hjl (by simp)
    | false =>
      simp only [hl, Bool.false_eq_true, if_false, List.mem_cons, List.mem_append,
        Prod.mk.injEq] at hj ⊢
      obtain ⟨c1, c2, c3, c4⟩ := hch ui hui hl
      rcases hj with hj | hj | hj
      · rw [hj.1]
        exact ⟨⟨_, Or.inr (Or.inl (interval_reports_head _ _ _ _))⟩,
          ⟨_, Or.inr (Or.inr (interval_reports_head _ _ _ _))⟩⟩
      · obtain ⟨⟨iv1, h1⟩, ⟨iv2, h2⟩⟩ := ih _ _ (by omega) c3 j iv hj hjl
        exact ⟨⟨iv1, Or.inr (Or.inl h1)⟩, ⟨iv2, Or.inr (Or.inl h2)⟩⟩
      · obtain ⟨⟨iv1, h1⟩, ⟨iv2, h2⟩⟩ := ih _ _ (by omega) c4 j iv hj hjl
        exact ⟨⟨iv1, Or.inr (Or.inr h1)⟩, ⟨iv2, Or.inr (Or.inr h2)⟩⟩

/-- Every vertex of a tree numbered breadth first is reported. -/
theorem interval_reports_complete (tree : binary_decision_tree)
    (hn : bfs_numbered tree.vertices) (I : List interval) :
    ∀ ui, ui < tree.vertices.length →
      ∃ iv, (ui, iv) ∈ interval_reports tree tree.vertices.length 0 I := by
  have hch := bfs_numbered_children_above tree hn
  intro ui
  induction ui using Nat.strong_induction_on with
  | _ ui ih =>
    intro hui
    by_cases h0 : ui = 0
    · rw [h0]; exact ⟨I, interval_reports_head _ _ _ _⟩
    · obtain ⟨j, j1, j2, j3⟩ := bfs_numbered_parent tree hn ui (by omega) hui
      obtain ⟨iv, hiv⟩ := ih j j1 (by omega)
      obtain ⟨k1, k2⟩ := interval_reports_children tree hch _ 0 I (by omega)
        (bfs_numbered_pos _ hn) j iv hiv j2
      rcases j3 with j3 | j3
      · rw [← j3]; exact k1
      · rw [← j3]; exact k2

/-! ## The intervals of the vertices of a learned tree -/

theorem write_bound_read (intervals : List interval) (r : bound_ref) :
    write_bound intervals r (read_bound intervals r) = intervals := by
  obtain ⟨i, upper⟩ := r
  by_cases hi : i < intervals.length
  · apply List.ext_getElem
    · simp [write_bound]
    · intro n h1 h2
      by_cases hn : i = n
      · subst hn
        cases upper <;>
          simp [write_bound, read_bound, List.getD_eq_getElem?_getD, List.getElem?_eq_getElem,
            h2]
      · cases upper <;> simp [write_bound, List.getElem_set, hn]
  · have hi2 : intervals.length ≤ i := Nat.le_of_not_lt hi
    unfold write_bound
    simp only []
    rw [List.set_eq_of_length_le hi2]

theorem write_bound_getD_ne (intervals : List interval) (r : bound_ref) (x : Value) (i : Nat)
    (h : i ≠ r.i) : (write_bound intervals r x).getD i {} = intervals.getD i {} := by
  unfold write_bound
  simp only [List.getD_eq_getElem?_getD]
  rw [List.getElem?_set_ne (Ne.symm h)]

theorem write_bound_getD_self (intervals : List interval) (r : bound_ref) (x : Value) :
    (write_bound intervals r x).getD r.i {} = intervals.getD r.i {} ∨
    (write_bound intervals r x).getD r.i {} =
      (if r.upper then { a := (intervals.getD r.i {}).a, b := x }
       else { a := x, b := (intervals.getD r.i {}).b }) := by
  by_cases hi : r.i < intervals.length
  · right
    unfold write_bound
    simp only [List.getD_eq_getElem?_getD]
    rw [List.getElem?_set_self hi]
    rfl
  · left
    unfold write_bound
    rw [List.set_eq_of_length_le (Nat.le_of_not_lt hi)]

theorem Value.lt_num_false_of_le (q1 q2 : ℚ) (h : q2 ≤ q1) :
    (Value.num q1).lt (.num q2) = false := by
  simp [Value.lt, h]

theorem intervals_hold_init (D : dataset) (hD : D.finite = true) (tree : binary_decision_tree)
    (m : Nat) : intervals_hold D tree 0 (List.replicate m {}) := by
  intro i
  have hget : (List.replicate m ({} : interval)).getD i {} = {} := by
    simp only [List.getD_eq_getElem?_getD]
    by_cases hi : i < m
    · rw [List.getElem?_eq_getElem (by simpa using hi)]
      simp
    · rw [List.getElem?_eq_none (by simpa using hi)]
      rfl
  rw [hget]
  have hlm : double_lowest ≤ double_max := by
    unfold double_lowest double_max
    norm_num
  refine ⟨?_, ?_⟩
  · simp [Value.lt, hlm]
  · intro s _
    cases hx : D.at s i with
    | nan => simp [Value.lt]
    | num q =>
      obtain ⟨h1, h2⟩ := dataset.finite_at D hD s i q hx
      simp [Value.lt, h1, h2]

theorem range_children (tree : binary_decision_tree) (hn : bfs_numbered tree.vertices)
    (hr : ranges_nested tree) (i : Nat) (hi : i < tree.vertices.length)
    (hl : (tree.find_vertex i).is_leaf = false) :
    tree.range (tree.find_vertex i) =
      tree.range (tree.find_vertex (tree.find_vertex i).left) ++
      tree.range (tree.find_vertex (tree.find_vertex i).right) := by
  obtain ⟨c1, c2, c3⟩ := hr.children i hi hl
  obtain ⟨k1, k2, k3, k4⟩ := bfs_numbered_children_above tree hn i hi hl
  have b1 := hr.bounds _ k4
  have b2 := hr.bounds _ k3
  unfold binary_decision_tree.range
  rw [c1, ← c2, c3]
  apply range_append
  · rw [← c1]; exact b2.1
  · rw [← c3, c2]; exact b1.1

/-- The intervals of a vertex of a learned tree hold for its two children. -/
theorem intervals_hold_children (D : dataset) (tree : binary_decision_tree)
    (hn : bfs_numbered tree.vertices) (hr : ranges_nested tree) (hs : split_inv D tree)
    (ui : Nat) (iv : List interval) (hui : ui < tree.vertices.length)
    (hl : (tree.find_vertex ui).is_leaf = false) (h : intervals_hold D tree ui iv) :
    intervals_hold D tree (tree.find_vertex ui).left
        (left_intervals (tree.find_vertex ui) iv) ∧
    intervals_hold D tree (tree.find_vertex ui).right
        (right_intervals (tree.find_vertex ui) iv) := by
  have hrange := range_children tree hn hr ui hui hl
  have hsubl : ∀ s ∈ tree.range (tree.find_vertex (tree.find_vertex ui).left),
      s ∈ tree.range (tree.find_vertex ui) := by
    intro s hs1; rw [hrange]; exact List.mem_append_left _ hs1
  have hsubr : ∀ s ∈ tree.range (tree.find_vertex (tree.find_vertex ui).right),
      s ∈ tree.range (tree.find_vertex ui) := by
    intro s hs1; rw [hrange]; exact List.mem_append_right _ hs1
  have hthr := hs.thresholds ui hui hl
  unfold intervals_hold at h
  generalize tree.find_vertex ui = u at hthr hsubl hsubr h ⊢
  have hsame : ∀ c, (∀ s ∈ tree.range (tree.find_vertex c), s ∈ tree.range u) →
      intervals_hold D tree c iv := by
    intro c hc i
    exact ⟨(h i).1, fun s hs1 => (h i).2 s (hc s hs1)⟩
  cases hsp : u.split with
  | monostate =>
    simp only [left_intervals, right_intervals, hsp, threshold_value, write_bound_read]
    exact ⟨hsame _ hsubl, hsame _ hsubr⟩
  | single c =>
    simp only [left_intervals, right_intervals, hsp, threshold_value, write_bound_read]
    exact ⟨hsame _ hsubl, hsame _ hsubr⟩
  | subset c =>
    simp only [left_intervals, right_intervals, hsp, threshold_value, write_bound_read]
    exact ⟨hsame _ hsubl, hsame _ hsubr⟩
  | threshold c =>
    obtain ⟨v, t⟩ := c
    obtain ⟨⟨s0, t1, t1b⟩, t2, t3⟩ := hthr v t hsp
    simp only [left_intervals, right_intervals, hsp, threshold_value, split_variable]
    constructor
    · intro i
      by_cases hiv : i = v
      · rw [hiv]
        rcases write_bound_getD_self iv (bound_ref.mk v true) t with h1 | h1
        · rw [h1]
          exact ⟨(h v).1, fun s hs1 => (h v).2 s (hsubl s hs1)⟩
        · rw [h1]
          simp only [if_true]
          refine ⟨?_, fun s hs1 => ⟨((h v).2 s (hsubl s hs1)).1, t2 s hs1⟩⟩
          rw [← t1b]
          exact ((h v).2 s0 t1).1
      · rw [write_bound_getD_ne _ _ _ _ hiv]
        exact ⟨(h i).1, fun s hs1 => (h i).2 s (hsubl s hs1)⟩
    · intro i
      by_cases hiv : i = v
      · rw [hiv]
        rcases write_bound_getD_self iv (bound_ref.mk v false) t with h1 | h1
        · rw [h1]
          exact ⟨(h v).1, fun s hs1 => (h v).2 s (hsubr s hs1)⟩
        · rw [h1]
          simp only [Bool.false_eq_true, if_false]
          refine ⟨?_, fun s hs1 => ⟨t3 s hs1, ((h v).2 s (hsubr s hs1)).2⟩⟩
          rw [← t1b]
          exact ((h v).2 s0 t1).2
      · rw [write_bound_getD_ne _ _ _ _ hiv]
        exact ⟨(h i).1, fun s hs1 => (h i).2 s (hsubr s hs1)⟩

/-- In every call of `report_node` on a learned tree the intervals hold for the vertex. -/
theorem interval_reports_hold (D : dataset) (hD : D.finite = true) (tree : binary_decision_tree)
    (hn : bfs_numbered tree.vertices) (hr : ranges_nested tree) (hs : split_inv D tree)
    (m : Nat) :
    ∀ c ∈ interval_reports tree tree.vertices.length 0 (List.replicate m {}),
      c.1 < tree.vertices.length ∧ intervals_hold D tree c.1 c.2 :=
  interval_reports_forall tree (bfs_numbered_children_above tree hn)
    (intervals_hold D tree)
    (fun ui iv hui hl h => intervals_hold_children D tree hn hr hs ui iv hui hl h)
    _ 0 _ (bfs_numbered_pos _ hn) (intervals_hold_init D hD tree m)

theorem mean_standard_deviation_snd (lib : math_library)
    (hsqrt : ∀ v, (lib.sqrt v).lt (.num 0) = false) (D : dataset) (I : List Nat) (v : Nat) :
    (mean_standard_deviation lib D I v).2.lt (.num 0) = false := by
  unfold mean_standard_deviation
  simp only
  split
  · simp [Value.lt]
  · split
    · simp [Value.lt, double_min]
    · exact hsqrt _

theorem fit_normal_isSome (lib : math_library)
    (hsqrt : ∀ v, (lib.sqrt v).lt (.num 0) = false) (D : dataset) (I : List Nat) (i : Nat)
    (ab : interval) (hab : ab.b.lt ab.a = false) :
    ∃ mu sigma, fit_normal lib D I i ab = some
      (pc_node.mk (.terminal i (if ab.is_maximal then .normal mu sigma
        else .truncated_normal mu sigma ab.a ab.b)) []) := by
  have hsig : (if I.isEmpty then (Value.num 0, Value.num 1)
      else mean_standard_deviation lib D I i).2.lt (.num 0) = false := by
    split
    · simp [Value.lt]
    · exact mean_standard_deviation_snd lib hsqrt D I i
  unfold fit_normal
  simp only
  generalize (if I.isEmpty then (Value.num 0, Value.num 1)
      else mean_standard_deviation lib D I i) = ms at hsig
  refine ⟨ms.1, ms.2, ?_⟩
  cases hmax : ab.is_maximal <;> simp [hsig, hab]

/-! ## `fit_leave_nodes`, `build_generative_tree` and `build_generative_forest` -/

theorem fit_normal_kind (lib : math_library) (D : dataset) (I : List Nat) (i : Nat)
    (ab : interval) (n : pc_node) (h : fit_normal lib D I i ab = some n) :
    ∃ dist, n = { kind := .terminal i dist, successors := [] } := by
  unfold fit_normal at h
  simp only at h
  generalize (if I.isEmpty then (Value.num 0, Value.num 1)
      else mean_standard_deviation lib D I i) = ms at h
  by_cases h1 : ab.is_maximal = true
  · by_cases h2 : ms.2.lt (.num 0) = true
    · simp [h1, h2] at h
    · simp only [h1, h2, if_true, Bool.false_eq_true, if_false, Option.some.injEq] at h
      exact ⟨_, h.symm⟩
  · by_cases h2 : ms.2.lt (.num 0) = true
    · simp [h1, h2] at h
    · by_cases h3 : ab.b.lt ab.a = true
      · simp [h1, h2, h3] at h
      · simp only [h1, h2, h3, Bool.false_eq_true, if_false, Option.some.injEq] at h
        exact ⟨_, h.symm⟩

theorem fit_leaf_terminals_spec (lib : math_library) (ncat : List Nat) (D : dataset)
    (I : List Nat) (iv : List interval) : ∀ (is : List Nat) (ts : List pc_node),
    fit_leaf_terminals lib ncat D I iv is = some ts →
    ts.length = is.length ∧
    ∀ j, j < is.length → ∃ dist, ts.getD j { kind := .product, successors := [] } =
      { kind := .terminal (is.getD j 0) dist, successors := [] } := by
  intro is
  induction is with
  | nil =>
    intro ts h
    simp only [fit_leaf_terminals, Option.some.injEq] at h
    rw [← h]
    exact ⟨rfl, fun j hj => absurd hj (by simp)⟩
  | cons i is ih =>
    intro ts h
    unfold fit_leaf_terminals at h
    simp only at h
    generalize hv : (if ncat.getD i 0 < 2 then fit_normal lib D I i (iv.getD i {})
      else some (fit_categorical D I i)) = v_i at h
    cases v_i with
    | none => simp at h
    | some n =>
      simp only at h
      cases hrec : fit_leaf_terminals lib ncat D I iv is with
      | none => simp [hrec] at h
      | some ns =>
        simp only [hrec, Option.some.injEq] at h
        obtain ⟨l1, l2⟩ := ih ns hrec
        rw [← h]
        refine ⟨by simp [l1], ?_⟩
        intro j hj
        cases j with
        | zero =>
          simp only [List.getD_cons_zero]
          split at hv
          · exact fit_normal_kind lib D I i _ n hv
          · simp only [Option.some.injEq] at hv
            exact ⟨_, hv.symm⟩
        | succ j =>
          simp only [List.getD_cons_succ]
          exact l2 j (by simpa using hj)

theorem fit_leaf_terminals_isSome (lib : math_library)
    (hsqrt : ∀ v, (lib.sqrt v).lt (.num 0) = false) (ncat : List Nat) (D : dataset)
    (I : List Nat) (iv : List interval)
    (hiv : ∀ i, (iv.getD i {}).b.lt (iv.getD i {}).a = false) : ∀ (is : List Nat),
    ∃ ts, fit_leaf_terminals lib ncat D I iv is = some ts := by
  intro is
  induction is with
  | nil => exact ⟨[], rfl⟩
  | cons i is ih =>
    obtain ⟨ns, hns⟩ := ih
    obtain ⟨mu, sigma, hfit⟩ := fit_normal_isSome lib hsqrt D I i (iv.getD i {}) (hiv i)
    unfold fit_leaf_terminals
    simp only [hns, hfit]
    by_cases hc : ncat.getD i 0 < 2
    · simp only [hc, if_true]
      exact ⟨_, rfl⟩
    · simp only [hc, if_false]
      exact ⟨_, rfl⟩

theorem getD_append_left_lt {α : Type} (l1 l2 : List α) (p : Nat) (d : α)
    (h : p < l1.length) : (l1 ++ l2).getD p d = l1.getD p d :=
  List.getD_append _ _ _ _ h

theorem heap_ordered_append (nodes ext : List pc_node) (h : heap_ordered nodes)
    (hext : ∀ j, j < ext.length →
      ∀ v ∈ (ext.getD j { kind := .product, successors := [] }).successors,
        v < nodes.length + j) :
    heap_ordered (nodes ++ ext) := by
  intro u hu v hv
  by_cases hlt : u < nodes.length
  · rw [getD_append_left_lt _ _ _ _ hlt] at hv
    exact h u hlt v hv
  · rw [List.getD_append_right _ _ _ _ (Nat.le_of_not_lt hlt)] at hv
    simp only [List.length_append] at hu
    have := hext (u - nodes.length) (by omega) v hv
    omega

theorem leaf_node_append (lib : math_library) (tree : binary_decision_tree) (D : dataset)
    (nodes ext : List pc_node) (ui : Nat) (iv : List interval) (p : Nat)
    (h : leaf_node lib tree D nodes ui iv p) : leaf_node lib tree D (nodes ++ ext) ui iv p := by
  obtain ⟨ts, pre, post, h1, h2, h3⟩ := h
  refine ⟨ts, pre, post ++ ext, h1, ?_, h3⟩
  rw [h2]
  simp only [List.append_assoc]

theorem leaf_node_lt (lib : math_library) (tree : binary_decision_tree) (D : dataset)
    (nodes : List pc_node) (ui : Nat) (iv : List interval) (p : Nat)
    (h : leaf_node lib tree D nodes ui iv p) : p < nodes.length := by
  obtain ⟨ts, pre, post, h1, h2, h3⟩ := h
  have hl := (fit_leaf_terminals_spec _ _ _ _ _ _ _ h1).1
  rw [h2, h3]
  simp only [List.length_append, List.length_cons, List.length_nil, hl, List.length_range]
  omega

theorem fit_leaf_spec (lib : math_library) (tree : binary_decision_tree) (D : dataset)
    (nodes : List pc_node) (ui : Nat) (iv : List interval) (ts : List pc_node)
    (h : fit_leaf_terminals lib tree.category_counts D (tree.range (tree.find_vertex ui)) iv
      (List.range tree.feature_count) = some ts) (hh : heap_ordered nodes) :
    ∃ ext, fit_leaf lib tree D nodes (tree.range (tree.find_vertex ui)) iv =
        some (nodes ++ ext, nodes.length + (tree.feature_count + 1)) ∧
      heap_ordered (nodes ++ ext) ∧
      leaf_node lib tree D (nodes ++ ext) ui iv (nodes.length + (tree.feature_count + 1)) := by
  obtain ⟨hl, hts⟩ := fit_leaf_terminals_spec _ _ _ _ _ _ _ h
  simp only [List.length_range] at hl hts
  refine ⟨ts ++ [fit_categorical D (tree.range (tree.find_vertex ui)) tree.feature_count,
    { kind := .product, successors := List.range' nodes.length (tree.feature_count + 1) }],
    ?_, ?_, ?_⟩
  · unfold fit_leaf
    simp only [h, List.length_append, List.length_singleton, hl, List.append_assoc,
      List.singleton_append, Nat.add_assoc]
  · apply heap_ordered_append _ _ hh
    intro j hj v hv
    simp only [List.length_append, List.length_cons, List.length_nil, hl] at hj
    by_cases hj1 : j < ts.length
    · rw [getD_append_left_lt _ _ _ _ hj1] at hv
      obtain ⟨dist, hd⟩ := hts j (by omega)
      rw [hd] at hv
      simp at hv
    · rw [List.getD_append_right _ _ _ _ (Nat.le_of_not_lt hj1)] at hv
      have hcase : j - ts.length = 0 ∨ j - ts.length = 1 := by omega
      rcases hcase with h0 | h0
      · rw [h0] at hv
        simp [fit_categorical] at hv
      · rw [h0] at hv
        simp only [List.getD_cons_succ, List.getD_cons_zero, List.mem_range'_1] at hv
        omega
  · exact ⟨ts, nodes, [], h, by simp, rfl⟩

theorem getD_set_self {α : Type} (l : List α) (i : Nat) (x d : α) (h : i < l.length) :
    (l.set i x).getD i d = x := by
  simp [List.getD_eq_getElem?_getD, List.getElem?_set_self h]

theorem getD_set_ne {α : Type} (l : List α) (i j : Nat) (x d : α) (h : i ≠ j) :
    (l.set i x).getD j d = l.getD j d := by
  simp [List.getD_eq_getElem?_getD, List.getElem?_set_ne h]

theorem getD_set_some (l : List (Option Nat)) (i j : Nat) (x p : Nat)
    (h : (l.set i (some x)).getD j none = some p) : p = x ∨ l.getD j none = some p := by
  by_cases hij : i = j
  · by_cases hi : i < l.length
    · rw [← hij, getD_set_self _ _ _ _ hi] at h
      left; exact (Option.some.inj h).symm
    · rw [List.set_eq_of_length_le (Nat.le_of_not_lt hi)] at h
      right; exact h
  · rw [getD_set_ne _ _ _ _ _ hij] at h
    right; exact h

/-- The function `fit_leave_nodes` on calls of `report_node` for which no constructor throws:
the leaves reported get their product node, the other entries of `pc_nodes` are kept. -/
theorem fit_leave_nodes_spec (lib : math_library) (tree : binary_decision_tree) (D : dataset) :
    ∀ (reports : List (Nat × List interval)) (nodes : List pc_node)
      (pc_nodes : List (Option Nat)),
    (∀ c ∈ reports, (tree.find_vertex c.1).is_leaf = true →
      ∃ ts, fit_leaf_terminals lib tree.category_counts D (tree.range (tree.find_vertex c.1))
        c.2 (List.range tree.feature_count) = some ts) →
    heap_ordered nodes →
    (∀ ui p, pc_nodes.getD ui none = some p → p < nodes.length) →
    ∃ ext pc1, fit_leave_nodes lib tree D reports (nodes, pc_nodes) = some (nodes ++ ext, pc1) ∧
      pc1.length = pc_nodes.length ∧ heap_ordered (nodes ++ ext) ∧
      (∀ ui p, pc1.getD ui none = some p → p < (nodes ++ ext).length) ∧
      (∀ ui, ui < pc_nodes.length → (tree.find_vertex ui).is_leaf = true →
        (∃ iv, (ui, iv) ∈ reports) →
        ∃ iv p, (ui, iv) ∈ reports ∧ pc1.getD ui none = some p ∧
          leaf_node lib tree D (nodes ++ ext) ui iv p) ∧
      (∀ ui, ((tree.find_vertex ui).is_leaf = false ∨ ∀ iv, (ui, iv) ∉ reports) →
        pc1.getD ui none = pc_nodes.getD ui none) := by
  intro reports
  induction reports with
  | nil =>
    intro nodes pc_nodes _ hh hp
    refine ⟨[], pc_nodes, by simp [fit_leave_nodes], rfl, by simpa using hh, ?_, ?_, ?_⟩
    · intro ui p h; simpa using hp ui p h
    · intro ui _ _ h
      obtain ⟨iv, hiv⟩ := h
      simp at hiv
    · intro ui _; rfl
  | cons c rest ih =>
    intro nodes pc_nodes hok hh hp
    obtain ⟨ui0, iv0⟩ := c
    have hok2 : ∀ c ∈ rest, (tree.find_vertex c.1).is_leaf = true →
        ∃ ts, fit_leaf_terminals lib tree.category_counts D
          (tree.range (tree.find_vertex c.1)) c.2 (List.range tree.feature_count) = some ts :=
      fun c hc => hok c (List.mem_cons_of_mem _ hc)
    cases hl : (tree.find_vertex ui0).is_leaf with
    | false =>
      obtain ⟨ext, pc1, h1, h2, h3, h4, h5, h6⟩ := ih nodes pc_nodes hok2 hh hp
      refine ⟨ext, pc1, ?_, h2, h3, h4, ?_, ?_⟩
      · simp only [fit_leave_nodes, hl, Bool.false_eq_true, if_false]
        exact h1
      · intro ui hui hul hex
        obtain ⟨iv, hiv⟩ := hex
        rcases List.mem_cons.1 hiv with hiv | hiv
        · simp only [Prod.mk.injEq] at hiv
          rw [hiv.1, hl] at hul
          exact absurd hul (by simp)
        · obtain ⟨iv2, p, k1, k2, k3⟩ := h5 ui hui hul ⟨iv, hiv⟩
          exact ⟨iv2, p, List.mem_cons_of_mem _ k1, k2, k3⟩
      · intro ui hcase
        apply h6
        rcases hcase with hcase | hcase
        · exact Or.inl hcase
        · exact Or.inr (fun iv hiv => hcase iv (List.mem_cons_of_mem _ hiv))
    | true =>
      obtain ⟨ts, hts⟩ := hok (ui0, iv0) (List.mem_cons_self _ _) hl
      obtain ⟨e0, f1, f2, f3⟩ := fit_leaf_spec lib tree D nodes ui0 iv0 ts hts hh
      have hp2 : ∀ ui p, (pc_nodes.set ui0
          (some (nodes.length + (tree.feature_count + 1)))).getD ui none = some p →
          p < (nodes ++ e0).length := by
        intro ui p h
        rcases getD_set_some _ _ _ _ _ h with h1 | h1
        · rw [h1]; exact leaf_node_lt _ _ _ _ _ _ _ f3
        · have := hp ui p h1
          simp only [List.length_append]
          omega
      obtain ⟨ext, pc1, h1, h2, h3, h4, h5, h6⟩ := ih (nodes ++ e0) _ hok2 f2 hp2
      rw [List.append_assoc] at h1 h3 h4 h5
      refine ⟨e0 ++ ext, pc1, ?_, by simpa using h2, h3, h4, ?_, ?_⟩
      · simp only [fit_leave_nodes, hl, if_true, f1]
        exact h1
      · intro ui hui hul hex
        by_cases hrest : ∃ iv, (ui, iv) ∈ rest
        · obtain ⟨iv2, p, k1, k2, k3⟩ := h5 ui (by simpa using hui) hul hrest
          exact ⟨iv2, p, List.mem_cons_of_mem _ k1, k2, k3⟩
        · obtain ⟨iv, hiv⟩ := hex
          rcases List.mem_cons.1 hiv with hiv | hiv
          · simp only [Prod.mk.injEq] at hiv
            have h7 := h6 ui (Or.inr (fun iv2 hiv2 => hrest ⟨iv2, hiv2⟩))
            rw [hiv.1] at h7 hui ⊢
            rw [getD_set_self _ _ _ _ hui] at h7
            refine ⟨iv0, _, List.mem_cons_self _ _, h7, ?_⟩
            rw [← List.append_assoc]
            exact leaf_node_append _ _ _ _ _ _ _ _ f3
          · exact absurd ⟨iv, hiv⟩ hrest
      · intro ui hcase
        have hne : ui0 ≠ ui := by
          intro he
          rcases hcase with hcase | hcase
          · rw [← he, hl] at hcase
            exact absurd hcase (by simp)
          · rw [← he] at hcase
            exact hcase iv0 (List.mem_cons_self _ _)
        rw [h6 ui ?_, getD_set_ne _ _ _ _ _ hne]
        rcases hcase with hcase | hcase
        · exact Or.inl hcase
        · exact Or.inr (fun iv hiv => hcase iv (List.mem_cons_of_mem _ hiv))

theorem build_inner_nodes_leaf (tree : binary_decision_tree) (ui : Nat) (order : List Nat)
    (nodes : List pc_node) (pc_nodes : List (Option Nat))
    (hl : (tree.find_vertex ui).is_leaf = true) :
    build_inner_nodes tree (ui :: order) (nodes, pc_nodes) =
      build_inner_nodes tree order (nodes, pc_nodes) := by
  simp [build_inner_nodes, hl]

theorem build_inner_nodes_inner (tree : binary_decision_tree) (ui : Nat) (order : List Nat)
    (nodes : List pc_node) (pc_nodes : List (Option Nat)) (p1 p2 : Nat)
    (hl : (tree.find_vertex ui).is_leaf = false)
    (h1 : pc_nodes.getD (tree.find_vertex ui).left none = some p1)
    (h2 : pc_nodes.getD (tree.find_vertex ui).right none = some p2) :
    build_inner_nodes tree (ui :: order) (nodes, pc_nodes) =
      build_inner_nodes tree order
        (nodes ++ [pc_node.mk (.sum_split
            [(Value.num (tree.range (tree.find_vertex (tree.find_vertex ui).left)).length).div
                (.num (tree.range (tree.find_vertex ui)).length),
             (Value.num (tree.range (tree.find_vertex (tree.find_vertex ui).right)).length).div
                (.num (tree.range (tree.find_vertex ui)).length)]
            (tree.find_vertex ui).split) [p1, p2]],
          pc_nodes.set ui (some nodes.length)) := by
  conv_lhs => unfold build_inner_nodes
  simp only [hl, Bool.not_false, if_true, h1, h2]

theorem build_inv_child (lib : math_library) (tree : binary_decision_tree) (D : dataset)
    (k : Nat) (nodes : List pc_node) (pc_nodes : List (Option Nat))
    (h : build_inv lib tree D k nodes pc_nodes) (c : Nat) (hk : k ≤ c)
    (hc : c < tree.vertices.length) : ∃ p, pc_nodes.getD c none = some p := by
  cases hl : (tree.find_vertex c).is_leaf with
  | true =>
    obtain ⟨iv, p, -, h2, -⟩ := h.leaves c hc hl
    exact ⟨p, h2⟩
  | false =>
    obtain ⟨p, p1, p2, h2, -⟩ := h.inner c hk hc hl
    exact ⟨p, h2⟩

theorem build_inner_nodes_spec (lib : math_library) (tree : binary_decision_tree) (D : dataset)
    (hch : children_above tree) :
    ∀ (k : Nat), k ≤ tree.vertices.length → ∀ (nodes : List pc_node)
      (pc_nodes : List (Option Nat)), build_inv lib tree D k nodes pc_nodes →
    ∃ ext pc2, build_inner_nodes tree (List.range k).reverse (nodes, pc_nodes) =
        some (nodes ++ ext, pc2) ∧ build_inv lib tree D 0 (nodes ++ ext) pc2 := by
  intro k
  induction k with
  | zero =>
    intro _ nodes pc_nodes h
    exact ⟨[], pc_nodes, by simp [build_inner_nodes], by simpa using h⟩
  | succ k ih =>
    intro hk nodes pc_nodes h
    rw [List.range_succ, List.reverse_append, List.reverse_singleton, List.singleton_append]
    have hkn : k < tree.vertices.length := by omega
    cases hl : (tree.find_vertex k).is_leaf with
    | true =>
      rw [build_inner_nodes_leaf tree k _ _ _ hl]
      apply ih (by omega) nodes pc_nodes
      refine ⟨h.size, h.ordered, h.valid, h.leaves, ?_⟩
      intro ui hui1 hui2 hul
      have hne : ui ≠ k := by
        intro he; rw [he, hl] at hul; exact absurd hul (by simp)
      exact h.inner ui (by omega) hui2 hul
    | false =>
      obtain ⟨c1, c2, c3, c4⟩ := hch k hkn hl
      obtain ⟨p1, hp1⟩ := build_inv_child lib tree D _ _ _ h _ (by omega) c3
      obtain ⟨p2, hp2⟩ := build_inv_child lib tree D _ _ _ h _ (by omega) c4
      rw [build_inner_nodes_inner tree k _ _ _ p1 p2 hl hp1 hp2]
      generalize hnode : pc_node.mk (.sum_split
            [(Value.num (tree.range (tree.find_vertex (tree.find_vertex k).left)).length).div
                (.num (tree.range (tree.find_vertex k)).length),
             (Value.num (tree.range (tree.find_vertex (tree.find_vertex k).right)).length).div
                (.num (tree.range (tree.find_vertex k)).length)]
            (tree.find_vertex k).split) [p1, p2] = node
      have hsucc : node.successors = [p1, p2] := by rw [← hnode]
      have hinv : build_inv lib tree D k (nodes ++ [node])
          (pc_nodes.set k (some nodes.length)) := by
        refine ⟨by simpa using h.size, ?_, ?_, ?_, ?_⟩
        · apply heap_ordered_append _ _ h.ordered
          intro j hj v hv
          simp only [List.length_singleton] at hj
          have hj0 : j = 0 := by omega
          rw [hj0] at hv ⊢
          simp only [List.getD_cons_zero, hsucc, List.mem_cons, List.mem_singleton,
            List.not_mem_nil, or_false] at hv
          rcases hv with hv | hv
          · rw [hv]; exact h.valid _ _ hp1
          · rw [hv]; exact h.valid _ _ hp2
        · intro ui p hp
          simp only [List.length_append, List.length_singleton]
          rcases getD_set_some _ _ _ _ _ hp with h1 | h1
          · omega
          · have := h.valid ui p h1
            omega
        · intro ui hui hul
          have hne : k ≠ ui := by
            intro he; rw [← he, hl] at hul; exact absurd hul (by simp)
          obtain ⟨iv, p, k1, k2, k3⟩ := h.leaves ui hui hul
          refine ⟨iv, p, k1, ?_, leaf_node_append _ _ _ _ _ _ _ _ k3⟩
          rw [getD_set_ne _ _ _ _ _ hne]; exact k2
        · intro ui hui1 hui2 hul
          by_cases he : ui = k
          · rw [he]
            refine ⟨nodes.length, p1, p2, ?_, ?_, ?_, ?_⟩
            · exact getD_set_self _ _ _ _ (by rw [h.size]; exact hkn)
            · rw [getD_set_ne _ _ _ _ _ (by omega)]; exact hp1
            · rw [getD_set_ne _ _ _ _ _ (by omega)]; exact hp2
            · rw [List.getD_append_right _ _ _ _ (le_refl _), Nat.sub_self,
                List.getD_cons_zero, hnode]
          · obtain ⟨d1, d2, d3, d4⟩ := hch ui hui2 hul
            obtain ⟨p, q1, q2, k1, k2, k3, k4⟩ := h.inner ui (by omega) hui2 hul
            refine ⟨p, q1, q2, ?_, ?_, ?_, ?_⟩
            · rw [getD_set_ne _ _ _ _ _ (Ne.symm he)]; exact k1
            · rw [getD_set_ne _ _ _ _ _ (by omega)]; exact k2
            · rw [getD_set_ne _ _ _ _ _ (by omega)]; exact k3
            · rw [getD_append_left_lt _ _ _ _ (h.valid _ _ k1)]; exact k4
      obtain ⟨ext, pc2, e1, e2⟩ := ih (by omega) _ _ hinv
      rw [List.append_assoc] at e1 e2
      exact ⟨[node] ++ ext, pc2, e1, e2⟩

theorem build_inv_built_tree (lib : math_library) (tree : binary_decision_tree) (D : dataset)
    (nodes : List pc_node) (pc_nodes : List (Option Nat))
    (h : build_inv lib tree D 0 nodes pc_nodes) :
    built_tree lib tree D nodes (fun ui => (pc_nodes.getD ui none).getD 0) := by
  refine ⟨?_, ?_, ?_⟩
  · intro ui hui hl
    obtain ⟨iv, p, k1, k2, k3⟩ := h.leaves ui hui hl
    refine ⟨iv, k1, ?_⟩
    simp only [k2, Option.getD_some]
    exact k3
  · intro ui hui hl
    obtain ⟨p, p1, p2, k1, k2, k3, k4⟩ := h.inner ui (Nat.zero_le _) hui hl
    simp only [k1, k2, k3, Option.getD_some]
    exact k4
  · intro ui hui
    obtain ⟨p, hp⟩ := build_inv_child lib tree D _ _ _ h ui (Nat.zero_le _) hui
    simp only [hp, Option.getD_some]
    exact h.valid _ _ hp

theorem topological_ordering_numbered (tree : binary_decision_tree)
    (hnum : bfs_numbered tree.vertices) (hU : tree.vertices.length ≤ undefined_index)
    (fuel : Nat) (hfuel : tree.vertices.length ≤ fuel) :
    topological_ordering tree fuel = some (List.range tree.vertices.length) := by
  obtain ⟨out, o1, o2⟩ := visit_nodes_bfs_numbered tree hnum hU fuel hfuel
  simp only [topological_ordering, o1, Option.map_some', Option.some.injEq]
  have : out.map (fun c => c.1 % 2 ^ 32) = (out.map Prod.fst).map (fun i => i % 2 ^ 32) := by
    simp [List.map_map]
  rw [this, o2]
  apply List.ext_getElem
  · simp
  · intro i h1 h2
    simp only [List.length_range] at h2
    simp only [List.getElem_map, List.getElem_range]
    apply Nat.mod_eq_of_lt
    unfold undefined_index at hU
    omega

theorem built_tree_append (lib : math_library) (tree : binary_decision_tree) (D : dataset)
    (nodes ext : List pc_node) (ptr : Nat → Nat) (h : built_tree lib tree D nodes ptr) :
    built_tree lib tree D (nodes ++ ext) ptr := by
  refine ⟨?_, ?_, ?_⟩
  · intro ui hui hl
    obtain ⟨iv, k1, k2⟩ := h.leaves ui hui hl
    exact ⟨iv, k1, leaf_node_append _ _ _ _ _ _ _ _ k2⟩
  · intro ui hui hl
    rw [getD_append_left_lt _ _ _ _ (h.bound ui hui)]
    exact h.inner ui hui hl
  · intro ui hui
    have := h.bound ui hui
    simp only [List.length_append]
    omega

/-- The function `build_generative_tree` on a learned tree: with enough fuel it returns, and
the nodes that it allocates hold the circuit of the tree. -/
theorem build_generative_tree_spec (lib : math_library)
    (hsqrt : ∀ v, (lib.sqrt v).lt (.num 0) = false) (D : dataset) (hD : D.finite = true)
    (tree : binary_decision_tree) (hn : bfs_numbered tree.vertices) (hr : ranges_nested tree)
    (hs : split_inv D tree) (hU : tree.vertices.length ≤ undefined_index) :
    ∃ k0, ∀ (nodes : List pc_node), heap_ordered nodes →
      ∃ ext ptr, (∀ fuel, k0 ≤ fuel →
          build_generative_tree lib tree D nodes fuel = some (nodes ++ ext, ptr 0)) ∧
        heap_ordered (nodes ++ ext) ∧ built_tree lib tree D (nodes ++ ext) ptr := by
  have hch := bfs_numbered_children_above tree hn
  have hpos := bfs_numbered_pos _ hn
  obtain ⟨k1, hk1⟩ := enumerate_intervals_spec tree hch hpos tree.feature_count
  refine ⟨max k1 tree.vertices.length, fun nodes hh => ?_⟩
  have hok : ∀ c ∈ interval_reports tree tree.vertices.length 0
      (List.replicate tree.feature_count {}), (tree.find_vertex c.1).is_leaf = true →
      ∃ ts, fit_leaf_terminals lib tree.category_counts D (tree.range (tree.find_vertex c.1))
        c.2 (List.range tree.feature_count) = some ts := by
    intro c hc _
    have h1 := (interval_reports_hold D hD tree hn hr hs tree.feature_count c hc).2
    exact fit_leaf_terminals_isSome lib hsqrt _ D _ c.2 (fun i => (h1 i).1) _
  obtain ⟨ext1, pc1, f1, f2, f3, f4, f5, f6⟩ := fit_leave_nodes_spec lib tree D _ nodes
    (List.replicate tree.vertices.length none) hok hh (by
      intro ui p h
      simp only [List.getD_eq_getElem?_getD] at h
      by_cases hui : ui < tree.vertices.length
      · rw [List.getElem?_eq_getElem (by simpa using hui)] at h
        simp at h
      · rw [List.getElem?_eq_none (by simpa using hui)] at h
        simp at h)
  simp only [List.length_replicate] at f2 f5
  have hinv : build_inv lib tree D tree.vertices.length (nodes ++ ext1) pc1 := by
    refine ⟨f2, f3, f4, ?_, ?_⟩
    · intro ui hui hl
      exact f5 ui hui hl (interval_reports_complete tree hn _ ui hui)
    · intro ui h1 h2; omega
  obtain ⟨ext2, pc2, g1, g2⟩ := build_inner_nodes_spec lib tree D hch _ (le_refl _) _ _ hinv
  rw [List.append_assoc] at g1 g2
  refine ⟨ext1 ++ ext2, fun ui => (pc2.getD ui none).getD 0, ?_, g2.ordered,
    build_inv_built_tree lib tree D _ _ g2⟩
  intro fuel hfuel
  obtain ⟨p, hp⟩ := build_inv_child lib tree D _ _ _ g2 0 (Nat.zero_le _) hpos
  have hhead : pc2.head? = some (some p) := by
    cases hpc : pc2 with
    | nil =>
      have := g2.size
      rw [hpc] at this
      simp at this
      omega
    | cons a l =>
      rw [hpc] at hp
      simp only [List.getD_cons_zero] at hp
      simp [hp]
  unfold build_generative_tree
  rw [hk1 fuel (by omega)]
  simp only [f1]
  rw [topological_ordering_numbered tree hn hU fuel (by omega)]
  simp only [g1, hhead, hp, Option.getD_some]

theorem build_generative_trees_spec (lib : math_library)
    (hsqrt : ∀ v, (lib.sqrt v).lt (.num 0) = false) (D : dataset) (hD : D.finite = true) :
    ∀ (forest : List binary_decision_tree), (∀ tree ∈ forest, learned D tree) →
    ∃ k0, ∀ (nodes : List pc_node) (successors : List Nat), heap_ordered nodes →
      ∃ (ext : List pc_node) (ptrs : List (Nat → Nat)),
        (∀ fuel, k0 ≤ fuel → build_generative_trees lib D fuel forest (nodes, successors) =
          some (nodes ++ ext, successors ++ ptrs.map (fun ptr => ptr 0))) ∧
        heap_ordered (nodes ++ ext) ∧
        List.Forall₂ (fun tree ptr => built_tree lib tree D (nodes ++ ext) ptr) forest ptrs := by
  intro forest
  induction forest with
  | nil =>
    intro _
    refine ⟨0, fun nodes successors hh => ⟨[], [], ?_, by simpa using hh, List.Forall₂.nil⟩⟩
    intro fuel _
    simp [build_generative_trees]
  | cons tree rest ih =>
    intro hl
    obtain ⟨hn, hr, hs, hU⟩ := learned_spec D tree (hl tree (List.mem_cons_self _ _))
    obtain ⟨k1, hk1⟩ := build_generative_tree_spec lib hsqrt D hD tree hn hr hs hU
    obtain ⟨k2, hk2⟩ := ih (fun t ht => hl t (List.mem_cons_of_mem _ ht))
    refine ⟨max k1 k2, fun nodes successors hh => ?_⟩
    obtain ⟨ext1, ptr, a1, a2, a3⟩ := hk1 nodes hh
    obtain ⟨ext2, ptrs, b1, b2, b3⟩ := hk2 (nodes ++ ext1) (successors ++ [ptr 0]) a2
    rw [List.append_assoc] at b1 b2 b3
    refine ⟨ext1 ++ ext2, ptr :: ptrs, ?_, b2, List.Forall₂.cons ?_ b3⟩
    · intro fuel hfuel
      simp only [build_generative_trees, a1 fuel (by omega), b1 fuel (by omega),
        List.map_cons, List.append_assoc, List.singleton_append]
    · rw [← List.append_assoc]
      exact built_tree_append _ _ _ _ _ _ a3

theorem forall2_mem_right {α β : Type} (R : α → β → Prop) : ∀ (l1 : List α) (l2 : List β),
    List.Forall₂ R l1 l2 → ∀ b ∈ l2, ∃ a ∈ l1, R a b := by
  intro l1 l2 h
  induction h with
  | nil => intro b hb; simp at hb
  | cons hr _ ih =>
    intro b hb
    rcases List.mem_cons.1 hb with hb | hb
    · rw [hb]; exact ⟨_, List.mem_cons_self _ _, hr⟩
    · obtain ⟨a, ha, hab⟩ := ih b hb
      exact ⟨a, List.mem_cons_of_mem _ ha, hab⟩

/-- The function `build_generative_forest` on a forest of learned trees: with enough fuel it
returns; the root is the last node allocated, a sum node over the nodes of the roots of the
trees with the weights `1 / N`. -/
theorem build_generative_forest_spec (lib : math_library)
    (hsqrt : ∀ v, (lib.sqrt v).lt (.num 0) = false) (D : dataset) (hD : D.finite = true)
    (forest : List binary_decision_tree) (hl : ∀ tree ∈ forest, learned D tree) :
    ∃ (k0 : Nat) (nodes : List pc_node) (ptrs : List (Nat → Nat)),
      (∀ fuel, k0 ≤ fuel → build_generative_forest lib forest D fuel = some
        (probabilistic_circuit.mk (nodes ++ [pc_node.mk (.sum (List.replicate forest.length
            ((Value.num 1).div (.num forest.length)))) (ptrs.map (fun ptr => ptr 0))])
          nodes.length D.category_counts)) ∧
      heap_ordered (nodes ++ [pc_node.mk (.sum (List.replicate forest.length
            ((Value.num 1).div (.num forest.length)))) (ptrs.map (fun ptr => ptr 0))]) ∧
      List.Forall₂ (fun tree ptr => built_tree lib tree D
        (nodes ++ [pc_node.mk (.sum (List.replicate forest.length
            ((Value.num 1).div (.num forest.length)))) (ptrs.map (fun ptr => ptr 0))]) ptr)
        forest ptrs := by
  obtain ⟨k0, hk0⟩ := build_generative_trees_spec lib hsqrt D hD forest hl
  obtain ⟨ext, ptrs, a1, a2, a3⟩ := hk0 [] [] (by intro u hu; simp at hu)
  simp only [List.nil_append] at a1 a2 a3
  refine ⟨k0, ext, ptrs, ?_, ?_, ?_⟩
  · intro fuel hfuel
    simp only [build_generative_forest, a1 fuel hfuel]
  · apply heap_ordered_append _ _ a2
    intro j hj v hv
    simp only [List.length_singleton] at hj
    have hj0 : j = 0 := by omega
    rw [hj0] at hv
    simp only [List.getD_cons_zero, List.mem_map] at hv
    obtain ⟨ptr, hp1, hp2⟩ := hv
    obtain ⟨tree, htm, ht⟩ := forall2_mem_right _ _ _ a3 ptr hp1
    have hb := ht.bound 0 (bfs_numbered_pos _ (learned_spec D tree (hl tree htm)).1)
    omega
  · exact a3.imp (fun tree ptr h => built_tree_append _ _ _ _ _ _ h)

/-! ## The size of the circuit of a forest -/

theorem heap_ordered_closed (pc : probabilistic_circuit) (h : heap_ordered pc.nodes)
    (hroot : pc.root < pc.nodes.length) : pc.closed := by
  refine ⟨hroot, fun u hu v hv => ?_⟩
  have := h u hu v hv
  omega

theorem heap_ordered_acyclic (pc : probabilistic_circuit) (h : heap_ordered pc.nodes) :
    pc.acyclic (fun u => u) :=
  fun u hu v hv => h u hu v hv

/-- Sums over the vertices of a tree numbered breadth first: a quantity `f` that is `w` at a
leaf and `w` plus the values of `f` at the two children at another vertex is, at the root,
the sum of `w` over all vertices. -/
theorem bfs_numbered_sum (tree : binary_decision_tree) (hn : bfs_numbered tree.vertices)
    (f w : Nat → Nat)
    (hleaf : ∀ j, j < tree.vertices.length → (tree.find_vertex j).is_leaf = true → f j = w j)
    (hinner : ∀ j, j < tree.vertices.length → (tree.find_vertex j).is_leaf = false →
      f j = w j + f (tree.find_vertex j).left + f (tree.find_vertex j).right) :
    f 0 = ∑ j in Finset.range tree.vertices.length, w j := by
  have key : ∀ d k, k + d = tree.vertices.length →
      ∑ j in Finset.Ico k (2 * nonleaf_count tree.vertices k + 1), f j =
      ∑ j in Finset.Ico k tree.vertices.length, w j := by
    intro d
    induction d with
    | zero =>
      intro k hk
      have := hn.size
      simp only [Nat.add_zero] at hk
      have h1 : 2 * nonleaf_count tree.vertices k + 1 = k := by
        rw [hk]; omega
      rw [h1, hk]
      simp
    | succ d ih =>
      intro k hk
      have hkn : k < tree.vertices.length := by omega
      have hlow := hn.lower k hkn
      have hsucc := nonleaf_count_succ tree.vertices k hkn
      have ih2 := ih (k + 1) (by omega)
      have hA : ∑ j in Finset.Ico k (2 * nonleaf_count tree.vertices k + 1), f j =
          f k + ∑ j in Finset.Ico (k + 1) (2 * nonleaf_count tree.vertices k + 1), f j :=
        Finset.sum_eq_sum_Ico_succ_bot (by omega) _
      have hB : ∑ j in Finset.Ico k tree.vertices.length, w j =
          w k + ∑ j in Finset.Ico (k + 1) tree.vertices.length, w j :=
        Finset.sum_eq_sum_Ico_succ_bot hkn _
      rw [hA, hB, ← ih2]
      cases hl : (tree.vertices.getD k { I_begin := 0, I_end := 0 }).is_leaf with
      | true =>
        rw [hl] at hsucc
        simp only [if_true, Nat.add_zero] at hsucc
        rw [hsucc, hleaf k hkn hl]
      | false =>
        rw [hl] at hsucc
        simp only [Bool.false_eq_true, if_false] at hsucc
        rcases hn.links k hkn with h1 | ⟨h1, h2⟩
        · rw [h1] at hl; exact absurd hl (by simp)
        · have e1 : (tree.find_vertex k).left = 2 * nonleaf_count tree.vertices k + 1 := by
            have : (tree.find_vertex k).left = 1 + 2 * nonleaf_count tree.vertices k := h1
            omega
          have e2 : (tree.find_vertex k).right = 2 * nonleaf_count tree.vertices k + 1 + 1 := by
            have : (tree.find_vertex k).right = 2 + 2 * nonleaf_count tree.vertices k := h2
            omega
          rw [hsucc, hinner k hkn hl, e1, e2]
          obtain ⟨c, hc0⟩ : ∃ c, c = 2 * nonleaf_count tree.vertices k + 1 := ⟨_, rfl⟩
          have hc : k + 1 ≤ c := by omega
          rw [show 2 * (nonleaf_count tree.vertices k + 1) + 1 = c + 1 + 1 by omega, ← hc0]
          rw [Finset.sum_Ico_succ_top (by omega), Finset.sum_Ico_succ_top hc]
          omega
  have h0 := key tree.vertices.length 0 (by omega)
  have hnl : nonleaf_count tree.vertices 0 = 0 := by simp [nonleaf_count]
  rw [hnl] at h0
  simp only [Nat.mul_zero, Nat.zero_add, Nat.Ico_zero_eq_range] at h0
  rw [← h0]
  simp

theorem sum_range_leaf_weights (p : Nat → Bool) (m : Nat) : ∀ (n : Nat),
    ∑ j in Finset.range n, (if p j then m + 2 else 1) =
      n + (m + 1) * ((List.range n).filter p).length := by
  intro n
  induction n with
  | zero => simp
  | succ n ih =>
    rw [Finset.sum_range_succ, ih, List.range_succ, List.filter_append, List.length_append]
    cases hp : p n
    · simp [hp]
      omega
    · simp [hp]
      ring

theorem leaf_node_shape (lib : math_library) (tree : binary_decision_tree) (D : dataset)
    (nodes : List pc_node) (ui : Nat) (iv : List interval) (p : Nat)
    (h : leaf_node lib tree D nodes ui iv p) :
    ∃ (ts : List pc_node) (h0 : Nat),
      fit_leaf_terminals lib tree.category_counts D (tree.range (tree.find_vertex ui)) iv
        (List.range tree.feature_count) = some ts ∧
      p = h0 + (tree.feature_count + 1) ∧
      nodes.getD p { kind := .product, successors := [] } =
        { kind := .product, successors := List.range' h0 (tree.feature_count + 1) } ∧
      (∀ j, j ≤ tree.feature_count →
        nodes.getD (h0 + j) { kind := .product, successors := [] } =
          (ts ++ [fit_categorical D (tree.range (tree.find_vertex ui))
            tree.feature_count]).getD j { kind := .product, successors := [] }) ∧
      (∀ j, j ≤ tree.feature_count → ∃ dist,
        nodes.getD (h0 + j) { kind := .product, successors := [] } =
          { kind := .terminal j dist, successors := [] }) := by
  obtain ⟨ts, pre, post, h1, h2, h3⟩ := h
  obtain ⟨hl, hts⟩ := fit_leaf_terminals_spec _ _ _ _ _ _ _ h1
  simp only [List.length_range] at hl hts
  have hmid : ∀ j, j < tree.feature_count + 2 →
      nodes.getD (pre.length + j) { kind := .product, successors := [] } =
      (ts ++ [fit_categorical D (tree.range (tree.find_vertex ui)) tree.feature_count,
        { kind := .product, successors := List.range' pre.length (tree.feature_count + 1) }]).getD
        j { kind := .product, successors := [] } := by
    intro j hj
    rw [h2, List.append_assoc, List.getD_append_right _ _ _ _ (by omega),
      Nat.add_sub_cancel_left, getD_append_left_lt _ _ _ _ (by simp [hl]; omega)]
  have hterm : ∀ j, j ≤ tree.feature_count →
      nodes.getD (pre.length + j) { kind := .product, successors := [] } =
        (ts ++ [fit_categorical D (tree.range (tree.find_vertex ui))
          tree.feature_count]).getD j { kind := .product, successors := [] } := by
    intro j hj
    rw [hmid j (by omega)]
    by_cases hjm : j < tree.feature_count
    · rw [getD_append_left_lt _ _ _ _ (by omega), getD_append_left_lt _ _ _ _ (by omega)]
    · have hjm2 : j = tree.feature_count := by omega
      rw [List.getD_append_right _ _ _ _ (by omega),
        List.getD_append_right _ _ _ _ (by omega), hl, hjm2, Nat.sub_self]
      rfl
  refine ⟨ts, pre.length, h1, h3, ?_, hterm, ?_⟩
  · rw [h3, hmid _ (by omega), List.getD_append_right _ _ _ _ (by omega), hl,
      Nat.add_sub_cancel_left]
    rfl
  · intro j hj
    rw [hterm j hj]
    by_cases hjm : j < tree.feature_count
    · rw [getD_append_left_lt _ _ _ _ (by omega)]
      obtain ⟨dist, hd⟩ := hts j hjm
      refine ⟨dist, ?_⟩
      rw [hd]
      simp [List.getD_eq_getElem?_getD, List.getElem?_range hjm]
    · have hjm2 : j = tree.feature_count := by omega
      rw [List.getD_append_right _ _ _ _ (by omega), hl, hjm2, Nat.sub_self]
      exact ⟨_, rfl⟩

theorem visit_count_node (pc : probabilistic_circuit) (h : heap_ordered pc.nodes) (u : Nat) :
    pc.visit_count (u + 1) u =
      1 + ((pc.successors u).map (fun v => pc.visit_count (v + 1) v)).sum :=
  visit_count_succ pc (fun u => u) (heap_ordered_acyclic pc h) u

theorem built_tree_visit_count (lib : math_library) (tree : binary_decision_tree) (D : dataset)
    (hn : bfs_numbered tree.vertices) (pc : probabilistic_circuit)
    (h : heap_ordered pc.nodes) (ptr : Nat → Nat) (hb : built_tree lib tree D pc.nodes ptr) :
    pc.visit_count (ptr 0 + 1) (ptr 0) = tree.vertices.length + (tree.feature_count + 1) *
      ((List.range tree.vertices.length).filter
        (fun i => (tree.find_vertex i).is_leaf)).length := by
  rw [← sum_range_leaf_weights]
  apply bfs_numbered_sum tree hn (fun j => pc.visit_count (ptr j + 1) (ptr j))
  · intro j hj hl
    obtain ⟨iv, -, hleaf⟩ := hb.leaves j hj hl
    obtain ⟨ts, h0, -, s2, s3, -, s5⟩ := leaf_node_shape _ _ _ _ _ _ _ hleaf
    simp only [hl, if_true]
    rw [visit_count_node pc h]
    have hsucc : pc.successors (ptr j) = List.range' h0 (tree.feature_count + 1) := by
      unfold probabilistic_circuit.successors probabilistic_circuit.node
      rw [s3]
    rw [hsucc]
    have hone : ∀ v ∈ List.range' h0 (tree.feature_count + 1),
        pc.visit_count (v + 1) v = 1 := by
      intro v hv
      rw [List.mem_range'_1] at hv
      obtain ⟨dist, hd⟩ := s5 (v - h0) (by omega)
      rw [show h0 + (v - h0) = v by omega] at hd
      rw [visit_count_node pc h]
      unfold probabilistic_circuit.successors probabilistic_circuit.node
      rw [hd]
      simp
    rw [List.map_congr_left hone]
    simp
    omega
  · intro j hj hl
    have hin := hb.inner j hj hl
    simp only [hl, Bool.false_eq_true, if_false]
    rw [visit_count_node pc h]
    unfold probabilistic_circuit.successors probabilistic_circuit.node
    rw [hin]
    simp
    omega

theorem leaf_count_numbered (tree : binary_decision_tree)
    (hn : bfs_numbered tree.vertices) (hU : tree.vertices.length ≤ undefined_index)
    (fuel : Nat) (hfuel : tree.vertices.length ≤ fuel) :
    leaf_count tree fuel = some ((List.range tree.vertices.length).filter
      (fun i => (tree.find_vertex i).is_leaf)).length := by
  obtain ⟨out, o1, o2⟩ := visit_nodes_bfs_numbered tree hn hU fuel hfuel
  simp only [leaf_count, o1, Option.map_some', Option.some.injEq]
  rw [← o2, List.filter_map, List.length_map]
  rfl

theorem mixed_tree_returned :
    learn_decision_tree const_engine mixed_dataset [0, 1, 2, 3, 4] {}
      .threshold gini_gain (node_is_finished mis_classification_small) () 20 =
      .returned mixed_tree := by
  decide!

theorem mixed_tree_learned : learned mixed_dataset mixed_tree :=
  ⟨Unit, ℚ, const_engine, [0, 1, 2, 3, 4], {}, .threshold, gini_gain,
    node_is_finished mis_classification_small, (), 20, by decide, mixed_tree_returned,
    by decide⟩

theorem test_library_sqrt (v : Value) : (test_library.sqrt v).lt (.num 0) = false := by
  simp [test_library, Value.lt]

theorem forall2_sum_eq {α β : Type} (g : β → Nat) (h : α → Nat) : ∀ (l1 : List α)
    (l2 : List β), List.Forall₂ (fun a b => g b = h a) l1 l2 →
    (l2.map g).sum = (l1.map h).sum := by
  intro l1 l2 hf
  induction hf with
  | nil => rfl
  | cons hr _ ih => simp [hr, ih]

theorem le_sum_of_mem_map {α : Type} (h : α → Nat) : ∀ (l : List α) (a : α), a ∈ l →
    h a ≤ (l.map h).sum := by
  intro l
  induction l with
  | nil => intro a ha; simp at ha
  | cons x l ih =>
    intro a ha
    rcases List.mem_cons.1 ha with ha | ha
    · rw [ha]; simp
    · have := ih a ha
      simp only [List.map_cons, List.sum_cons]
      omega

theorem expected_pc_size_spec (m fuel : Nat) (L : binary_decision_tree → Nat) :
    ∀ (forest : List binary_decision_tree) (acc : Nat),
    (∀ t ∈ forest, leaf_count t fuel = some (L t)) →
    forest.foldl (fun result tree =>
      match result, leaf_count tree fuel with
      | some r, some l => some (r + tree.vertices.length + (m + 1) * l)
      | _, _ => none) (some acc) =
      some (acc + (forest.map (fun t => t.vertices.length + (m + 1) * L t)).sum) := by
  intro forest
  induction forest with
  | nil => intro acc _; simp
  | cons t rest ih =>
    intro acc h
    simp only [List.foldl_cons, h t (List.mem_cons_self _ _)]
    rw [ih _ (fun t ht => h t (List.mem_cons_of_mem _ ht))]
    simp only [List.map_cons, List.sum_cons]
    congr 1
    omega

theorem learned_feature_count (D : dataset) (tree : binary_decision_tree)
    (h : learned D tree) (m : Nat) (hm : D.category_counts.length = m + 1) :
    tree.feature_count = m := by
  obtain ⟨-, -, hs, -⟩ := learned_spec D tree h
  unfold binary_decision_tree.feature_count
  rw [hs.counts, hm]
  rfl

/-- The size of the circuit of a forest of learned trees. -/
theorem generative_forest_size_spec (lib : math_library)
    (hsqrt : ∀ v, (lib.sqrt v).lt (.num 0) = false) (D : dataset) (hD : D.finite = true)
    (forest : List binary_decision_tree) (hl : ∀ tree ∈ forest, learned D tree)
    (m : Nat) (hm : D.category_counts.length = m + 1) :
    ∃ fuel0 pc, ∀ fuel, fuel0 ≤ fuel →
      build_generative_forest lib forest D fuel = some pc ∧
      (∀ t ∈ forest, leaf_count t fuel = some ((List.range t.vertices.length).filter
        (fun i => (t.find_vertex i).is_leaf)).length) ∧
      probabilistic_circuit_size pc fuel = some (1 + (forest.map (fun t =>
        t.vertices.length + (m + 1) * ((List.range t.vertices.length).filter
          (fun i => (t.find_vertex i).is_leaf)).length)).sum) := by
  obtain ⟨k0, nodes, ptrs, a1, a2, a3⟩ := build_generative_forest_spec lib hsqrt D hD forest hl
  generalize hpc : probabilistic_circuit.mk (nodes ++ [pc_node.mk (.sum (List.replicate
    forest.length ((Value.num 1).div (.num forest.length)))) (ptrs.map (fun ptr => ptr 0))])
    nodes.length D.category_counts = pc at a1
  have hnodes : pc.nodes = nodes ++ [pc_node.mk (.sum (List.replicate
    forest.length ((Value.num 1).div (.num forest.length)))) (ptrs.map (fun ptr => ptr 0))] := by
    rw [← hpc]
  have hroot : pc.root = nodes.length := by rw [← hpc]
  rw [← hnodes] at a2 a3
  have hcount : pc.visit_count (pc.root + 1) pc.root = 1 + (forest.map (fun t =>
      t.vertices.length + (m + 1) * ((List.range t.vertices.length).filter
        (fun i => (t.find_vertex i).is_leaf)).length)).sum := by
    rw [visit_count_node pc a2]
    have hsucc : pc.successors pc.root = ptrs.map (fun ptr => ptr 0) := by
      unfold probabilistic_circuit.successors probabilistic_circuit.node
      rw [hnodes, hroot, List.getD_append_right _ _ _ _ (le_refl _), Nat.sub_self]
      rfl
    rw [hsucc, List.map_map]
    congr 1
    apply forall2_sum_eq
    have hf : ∀ (l1 : List binary_decision_tree) (l2 : List (Nat → Nat)),
        (∀ t ∈ l1, learned D t) →
        List.Forall₂ (fun tree ptr => built_tree lib tree D pc.nodes ptr) l1 l2 →
        List.Forall₂ (fun (a : binary_decision_tree) (b : Nat → Nat) =>
          ((fun v => pc.visit_count (v + 1) v) ∘ fun ptr => ptr 0) b =
            a.vertices.length + (m + 1) * ((List.range a.vertices.length).filter
              (fun i => (a.find_vertex i).is_leaf)).length) l1 l2 := by
      intro l1 l2 hl1 hfa
      induction hfa with
      | nil => exact List.Forall₂.nil
      | cons hr _ ih =>
        rename_i t ptr l1 l2 _
        refine List.Forall₂.cons ?_ (ih (fun t ht => hl1 t (List.mem_cons_of_mem _ ht)))
        have hlt := hl1 t (List.mem_cons_self _ _)
        have hfc := learned_feature_count D t hlt m hm
        have := built_tree_visit_count lib t D (learned_spec D t hlt).1 pc a2 ptr hr
        rw [hfc] at this
        exact this
    exact hf forest ptrs hl a3
  refine ⟨max k0 (1 + (forest.map (fun t =>
      t.vertices.length + (m + 1) * ((List.range t.vertices.length).filter
        (fun i => (t.find_vertex i).is_leaf)).length)).sum), pc, fun fuel hfuel => ?_⟩
  refine ⟨a1 fuel (by omega), ?_, ?_⟩
  · intro t ht
    obtain ⟨hn, -, -, hU⟩ := learned_spec D t (hl t ht)
    apply leaf_count_numbered t hn hU
    have := le_sum_of_mem_map (fun t : binary_decision_tree =>
      t.vertices.length + (m + 1) * ((List.range t.vertices.length).filter
        (fun i => (t.find_vertex i).is_leaf)).length) forest t ht
    simp only at this
    omega
  · obtain ⟨out, o1, o2, -⟩ := pc_visit_nodes_bfs_spec pc (fun u => u)
      (heap_ordered_acyclic pc a2) fuel (by rw [hcount]; omega)
    simp only [probabilistic_circuit_size, o1, Option.map_some', o2, hcount]

/-- C19: for every forest of trees learned on a dataset `D` with `m` features (`D` has a
category count for each of them and for the class, its values are finite or NaN, and `sqrt`
returns no negative number), with enough fuel `build_generative_forest` returns a circuit,
`leaf_count` returns on every tree, and `probabilistic_circuit_size` of the circuit is
`1` plus the sum over the trees `t` of the number of vertices of `t` plus
`(m + 1) * leaf_count(t)`, which is the value of `expected_pc_size(forest, m)`. -/
theorem build_generative_forest_size (lib : math_library)
    (hsqrt : ∀ v, (lib.sqrt v).lt (.num 0) = false) (D : dataset) (hD : D.finite = true)
    (forest : List binary_decision_tree) (hl : ∀ tree ∈ forest, learned D tree)
    (m : Nat) (hm : D.category_counts.length = m + 1) :
    ∃ fuel0, ∀ fuel, fuel0 ≤ fuel →
      ∃ pc, build_generative_forest lib forest D fuel = some pc ∧
        (∀ t ∈ forest, (leaf_count t fuel).isSome = true) ∧
        probabilistic_circuit_size pc fuel = some (1 + (forest.map (fun t =>
          t.vertices.length + (m + 1) * (leaf_count t fuel).getD 0)).sum) ∧
        expected_pc_size forest m fuel = probabilistic_circuit_size pc fuel := by
  obtain ⟨fuel0, pc, h⟩ := generative_forest_size_spec lib hsqrt D hD forest hl m hm
  refine ⟨fuel0, fun fuel hfuel => ?_⟩
  obtain ⟨h1, h2, h3⟩ := h fuel hfuel
  have hmap : forest.map (fun t => t.vertices.length + (m + 1) * (leaf_count t fuel).getD 0) =
      forest.map (fun t => t.vertices.length + (m + 1) *
        ((List.range t.vertices.length).filter (fun i => (t.find_vertex i).is_leaf)).length) := by
    apply List.map_congr_left
    intro t ht
    rw [h2 t ht]
    rfl
  refine ⟨pc, h1, ?_, ?_, ?_⟩
  · intro t ht
    rw [h2 t ht]; rfl
  · rw [hmap]; exact h3
  · rw [h3]
    unfold expected_pc_size
    exact expected_pc_size_spec m fuel _ forest 1 h2

theorem build_generative_forest_size_witness :
    (∀ v, (test_library.sqrt v).lt (.num 0) = false) ∧ mixed_dataset.finite = true ∧
    (∀ tree ∈ [mixed_tree, mixed_tree], learned mixed_dataset tree) ∧
    mixed_dataset.category_counts.length = 2 + 1 ∧
    ∃ fuel0, ∀ fuel, fuel0 ≤ fuel →
      ∃ pc, build_generative_forest test_library [mixed_tree, mixed_tree] mixed_dataset fuel =
          some pc ∧
        (∀ t ∈ [mixed_tree, mixed_tree], (leaf_count t fuel).isSome = true) ∧
        probabilistic_circuit_size pc fuel = some (1 + ([mixed_tree, mixed_tree].map (fun t =>
          t.vertices.length + (2 + 1) * (leaf_count t fuel).getD 0)).sum) ∧
        expected_pc_size [mixed_tree, mixed_tree] 2 fuel = probabilistic_circuit_size pc fuel :=
  ⟨test_library_sqrt, by decide!,
    fun tree ht => by
      simp only [List.mem_cons, List.mem_singleton, List.not_mem_nil, or_false, or_self] at ht
      rw [ht]; exact mixed_tree_learned,
    rfl,
    build_generative_forest_size test_library test_library_sqrt mixed_dataset (by decide!)
      [mixed_tree, mixed_tree]
      (fun tree ht => by
        simp only [List.mem_cons, List.mem_singleton, List.not_mem_nil, or_false, or_self] at ht
        rw [ht]; exact mixed_tree_learned) 2 rfl⟩

/-- The run of `test_decision_tree_to_pc` on a forest of two copies of `mixed_tree`: the
circuit has 29 nodes. -/
theorem mixed_forest_size :
    (build_generative_forest test_library [mixed_tree, mixed_tree] mixed_dataset 20).map
      (fun pc => probabilistic_circuit_size pc 40) = some (some 29) ∧
    expected_pc_size [mixed_tree, mixed_tree] 2 20 = some 29 := by
  decide!

/-! ## The checkers on the circuit of a forest -/

theorem range_union_singleton (j : Nat) : Finset.range j ∪ {j} = Finset.range (j + 1) := by
  ext x
  simp only [Finset.mem_union, Finset.mem_range, Finset.mem_singleton]
  omega

theorem scope_union_loop_terminals (sc : Nat → Bool → Option (Finset Nat × Bool)) :
    ∀ (k h0 j0 : Nat), (∀ j, j < k → sc (h0 + j) true = some ({j0 + j}, true)) →
    scope_union_loop sc (List.range' h0 k) (Finset.range j0) true =
      some (Finset.range (j0 + k), true) := by
  intro k
  induction k with
  | zero => intro h0 j0 _; simp [scope_union_loop]
  | succ k ih =>
    intro h0 j0 h
    rw [List.range'_succ]
    have h1 := h 0 (by omega)
    simp only [Nat.add_zero] at h1
    simp only [scope_union_loop, h1, range_union_singleton]
    rw [ih (h0 + 1) (j0 + 1) (fun j hj => by
      have := h (j + 1) (by omega)
      rw [show h0 + 1 + j = h0 + (j + 1) by omega, show j0 + 1 + j = j0 + (j + 1) by omega]
      exact this)]
    rw [show j0 + 1 + k = j0 + (k + 1) by omega]

theorem decomposability_product_loop_terminals
    (sc : Nat → Bool → Option (Finset Nat × Bool)) :
    ∀ (k h0 j0 : Nat), (∀ j, j < k → sc (h0 + j) true = some ({j0 + j}, true)) →
    decomposability_product_loop sc (List.range' h0 k) (Finset.range j0) true =
      some (Finset.range (j0 + k), true) := by
  intro k
  induction k with
  | zero => intro h0 j0 _; simp [decomposability_product_loop]
  | succ k ih =>
    intro h0 j0 h
    rw [List.range'_succ]
    have h1 := h 0 (by omega)
    simp only [Nat.add_zero] at h1
    have hno : ¬ ∃ x ∈ ({j0} : Finset Nat), x ∈ Finset.range j0 := by
      simp
    simp only [decomposability_product_loop, h1, range_union_singleton, hno, if_false]
    rw [ih (h0 + 1) (j0 + 1) (fun j hj => by
      have := h (j + 1) (by omega)
      rw [show h0 + 1 + j = h0 + (j + 1) by omega, show j0 + 1 + j = j0 + (j + 1) by omega]
      exact this)]
    rw [show j0 + 1 + k = j0 + (k + 1) by omega]

theorem smoothness_sum_loop_same (sc : Nat → Bool → Option (Finset Nat × Bool))
    (S : Finset Nat) (hS : S ≠ ∅) : ∀ (ps : List Nat) (A : Finset Nat), (A = ∅ ∨ A = S) →
    (∀ p ∈ ps, sc p true = some (S, true)) →
    smoothness_sum_loop sc ps A true = some (if ps = [] then A else S, true) := by
  intro ps
  induction ps with
  | nil => intro A _ _; simp [smoothness_sum_loop]
  | cons p ps ih =>
    intro A hA h
    have h1 := h p (List.mem_cons_self _ _)
    have h2 : ∀ q ∈ ps, sc q true = some (S, true) :=
      fun q hq => h q (List.mem_cons_of_mem _ hq)
    simp only [smoothness_sum_loop, h1]
    rcases hA with hA | hA
    · simp only [hA, if_true]
      rw [ih S (Or.inr rfl) h2]
      by_cases hps : ps = [] <;> simp [hps]
    · simp only [hA, hS, if_false, ne_eq, not_true_eq_false]
      rw [ih S (Or.inr rfl) h2]
      by_cases hps : ps = [] <;> simp [hps]

theorem scope_union_loop_same (sc : Nat → Bool → Option (Finset Nat × Bool))
    (S : Finset Nat) : ∀ (ps : List Nat) (A : Finset Nat), (A = ∅ ∨ A = S) →
    (∀ p ∈ ps, sc p true = some (S, true)) →
    scope_union_loop sc ps A true = some (if ps = [] then A else S, true) := by
  intro ps
  induction ps with
  | nil => intro A _ _; simp [scope_union_loop]
  | cons p ps ih =>
    intro A hA h
    have h1 := h p (List.mem_cons_self _ _)
    have h2 : ∀ q ∈ ps, sc q true = some (S, true) :=
      fun q hq => h q (List.mem_cons_of_mem _ hq)
    simp only [scope_union_loop, h1]
    have hAS : A ∪ S = S := by
      rcases hA with hA | hA <;> simp [hA]
    rw [hAS, ih S (Or.inr rfl) h2]
    by_cases hps : ps = [] <;> simp [hps]

theorem range_succ_ne_empty (m : Nat) : Finset.range (m + 1) ≠ ∅ := by
  intro h
  have : m ∈ Finset.range (m + 1) := by simp
  rw [h] at this
  simp at this

/-- Both checkers find the scope `{0, ..., m}` at the node of every vertex of a tree, and
leave `result` true. -/
theorem built_tree_scopes (lib : math_library) (tree : binary_decision_tree) (D : dataset)
    (hch : children_above tree) (pc : probabilistic_circuit) (ptr : Nat → Nat)
    (hb : built_tree lib tree D pc.nodes ptr) :
    ∀ (d ui : Nat), tree.vertices.length - ui ≤ d → ui < tree.vertices.length →
      ∀ fuel, d + 1 ≤ fuel →
      smoothness_checker.scope pc fuel (ptr ui) true =
        some (Finset.range (tree.feature_count + 1), true) ∧
      decomposability_checker.scope pc fuel (ptr ui) true =
        some (Finset.range (tree.feature_count + 1), true) := by
  intro d
  induction d with
  | zero => intro ui h1 h2; omega
  | succ d ih =>
    intro ui hd hui fuel hfuel
    obtain ⟨f, rfl⟩ : ∃ f, fuel = f + 1 := ⟨fuel - 1, by omega⟩
    cases hl : (tree.find_vertex ui).is_leaf with
    | true =>
      obtain ⟨iv, -, hleaf⟩ := hb.leaves ui hui hl
      obtain ⟨ts, h0, -, s2, s3, -, s5⟩ := leaf_node_shape _ _ _ _ _ _ _ hleaf
      obtain ⟨g, rfl⟩ : ∃ g, f = g + 1 := ⟨f - 1, by omega⟩
      have hterm1 : ∀ j, j < tree.feature_count + 1 →
          smoothness_checker.scope pc (g + 1) (h0 + j) true = some ({0 + j}, true) := by
        intro j hj
        obtain ⟨dist, hd2⟩ := s5 j (by omega)
        simp only [smoothness_checker.scope, probabilistic_circuit.node, hd2, Nat.zero_add]
        rfl
      have hterm2 : ∀ j, j < tree.feature_count + 1 →
          decomposability_checker.scope pc (g + 1) (h0 + j) true = some ({0 + j}, true) := by
        intro j hj
        obtain ⟨dist, hd2⟩ := s5 j (by omega)
        simp only [decomposability_checker.scope, probabilistic_circuit.node, hd2, Nat.zero_add]
        rfl
      have e1 := scope_union_loop_terminals (smoothness_checker.scope pc (g + 1)) _ h0 0 hterm1
      have e2 := decomposability_product_loop_terminals
        (decomposability_checker.scope pc (g + 1)) _ h0 0 hterm2
      simp only [Finset.range_zero, Nat.zero_add] at e1 e2
      constructor
      · conv_lhs => unfold smoothness_checker.scope
        simp only [probabilistic_circuit.node, probabilistic_circuit.successors, s3,
          Bool.not_true, Bool.false_eq_true, if_false]
        exact e1
      · conv_lhs => unfold decomposability_checker.scope
        simp only [probabilistic_circuit.node, probabilistic_circuit.successors, s3,
          Bool.not_true, Bool.false_eq_true, if_false]
        exact e2
    | false =>
      obtain ⟨c1, c2, c3, c4⟩ := hch ui hui hl
      have hin := hb.inner ui hui hl
      obtain ⟨l1, l2⟩ := ih _ (by omega) c3 f (by omega)
      obtain ⟨r1, r2⟩ := ih _ (by omega) c4 f (by omega)
      constructor
      · conv_lhs => unfold smoothness_checker.scope
        simp only [probabilistic_circuit.node, probabilistic_circuit.successors, hin,
          Bool.not_true, Bool.false_eq_true, if_false]
        rw [smoothness_sum_loop_same _ _ (range_succ_ne_empty _) _ ∅ (Or.inl rfl) (by
          intro p hp
          simp only [List.mem_cons, List.mem_singleton, List.not_mem_nil, or_false] at hp
          rcases hp with hp | hp
          · rw [hp]; exact l1
          · rw [hp]; exact r1)]
        simp
      · conv_lhs => unfold decomposability_checker.scope
        simp only [probabilistic_circuit.node, probabilistic_circuit.successors, hin,
          Bool.not_true, Bool.false_eq_true, if_false]
        rw [scope_union_loop_same _ _ _ ∅ (Or.inl rfl) (by
          intro p hp
          simp only [List.mem_cons, List.mem_singleton, List.not_mem_nil, or_false] at hp
          rcases hp with hp | hp
          · rw [hp]; exact l2
          · rw [hp]; exact r2)]
        simp

theorem Value.lt_nan (a : Value) : a.lt .nan = false := by
  cases a <;> rfl

theorem is_normalized_foldl (pc : probabilistic_circuit) (tolerance : Value) :
    ∀ (out : List (Nat × Nat)),
    (∀ c ∈ out, weights_normalized tolerance (pc.node c.1) = true) →
    out.foldl (fun result c =>
      match (pc.node c.1).kind with
      | .sum weights | .sum_split weights _ =>
        if tolerance.lt (binary64.sub (binary64.sum weights) (.num 1)).fabs then false else result
      | _ => result) true = true := by
  intro out
  induction out with
  | nil => intro _; rfl
  | cons c out ih =>
    intro h
    have h1 := h c (List.mem_cons_self _ _)
    have h2 := ih (fun c hc => h c (List.mem_cons_of_mem _ hc))
    simp only [List.foldl_cons]
    unfold weights_normalized at h1
    cases hk : (pc.node c.1).kind with
    | sum ws =>
      rw [hk] at h1
      simp only [Bool.not_eq_true'] at h1
      simp only [h1, Bool.false_eq_true, if_false]
      exact h2
    | sum_split ws sp =>
      rw [hk] at h1
      simp only [Bool.not_eq_true'] at h1
      simp only [h1, Bool.false_eq_true, if_false]
      exact h2
    | product => exact h2
    | terminal s d => exact h2

theorem is_normalized_of_reachable (pc : probabilistic_circuit) (tolerance : Value)
    (h : heap_ordered pc.nodes)
    (hok : ∀ u, pc.reachable u → weights_normalized tolerance (pc.node u) = true)
    (fuel : Nat) (hfuel : pc.visit_count (pc.root + 1) pc.root ≤ fuel) :
    is_normalized pc tolerance fuel = some true := by
  obtain ⟨out, o1, -, o3⟩ := pc_visit_nodes_bfs_spec pc (fun u => u)
    (heap_ordered_acyclic pc h) fuel hfuel
  simp only [is_normalized, o1, Option.map_some', Option.some.injEq]
  apply is_normalized_foldl
  intro c hc
  apply hok
  rw [← o3]
  exact List.mem_map_of_mem _ hc

theorem successors_eq (pc : probabilistic_circuit) (u : Nat) (n : pc_node)
    (h : pc.nodes.getD u { kind := .product, successors := [] } = n) :
    pc.successors u = n.successors := by
  unfold probabilistic_circuit.successors probabilistic_circuit.node
  rw [h]

theorem built_tree_generative (lib : math_library) (tree : binary_decision_tree) (D : dataset)
    (pc : probabilistic_circuit) (ptr : Nat → Nat)
    (hb : built_tree lib tree D pc.nodes ptr) :
    generative_tree tree tree.feature_count pc ptr := by
  refine ⟨fun ui hui hl => hb.inner ui hui hl, ?_⟩
  intro ui hui hl
  obtain ⟨iv, -, hleaf⟩ := hb.leaves ui hui hl
  obtain ⟨ts, h0, -, s2, s3, -, s5⟩ := leaf_node_shape _ _ _ _ _ _ _ hleaf
  refine ⟨?_, ?_, ?_⟩
  · simp only [probabilistic_circuit.node, s3]
  · rw [successors_eq pc _ _ s3]
    simp
  · intro j hj
    rw [successors_eq pc _ _ s3]
    have : (List.range' h0 (tree.feature_count + 1)).getD j 0 = h0 + j := by
      rw [List.getD_eq_getElem _ _ (by simp; omega)]
      simp
    simp only [this]
    exact s5 j hj

/-! ## `evi` on a generative tree -/

theorem product_node_loop_prod (ev : Nat → outcome Value) : ∀ (vs : List Nat) (qs : List ℚ),
    List.Forall₂ (fun v q => ev v = .returned (.num q)) vs qs → (∀ q ∈ qs, 0 ≤ q) →
    ∀ (acc : ℚ), 0 ≤ acc →
    product_node_loop ev vs (.num acc) = .returned (.num (acc * qs.prod)) := by
  intro vs qs hf
  induction hf with
  | nil => intro _ acc _; simp [product_node_loop]
  | cons hr _ ih =>
    rename_i v q vs qs _
    intro hq acc hacc
    have hq0 := hq q (List.mem_cons_self _ _)
    have hqs : ∀ q ∈ qs, 0 ≤ q := fun q h => hq q (List.mem_cons_of_mem _ h)
    have hprod : 0 ≤ qs.prod := List.prod_nonneg hqs
    simp only [product_node_loop, hr, Value.mul, Value.le, List.prod_cons]
    by_cases hle : acc * q ≤ 0
    · have h0 : acc * q = 0 := le_antisymm hle (mul_nonneg hacc hq0)
      rw [← mul_assoc, h0, zero_mul]
      simp
    · simp only [hle, decide_False, Bool.false_eq_true, if_false]
      rw [ih hqs (acc * q) (mul_nonneg hacc hq0), mul_assoc]

theorem execute_decision_tree_leaf (tree : binary_decision_tree) (x : List Value) (f ui : Nat)
    (hl : (tree.find_vertex ui).is_leaf = true) :
    execute_decision_tree tree x (f + 1) ui = some ui := by
  simp [execute_decision_tree, hl]

theorem execute_decision_tree_inner (tree : binary_decision_tree) (x : List Value)
    (f ui : Nat) (hl : (tree.find_vertex ui).is_leaf = false)
    (hs : (tree.find_vertex ui).split ≠ splitting_criterion.monostate) :
    execute_decision_tree tree x (f + 1) ui =
      execute_decision_tree tree x f
        (if select (tree.find_vertex ui).split x = 0 then (tree.find_vertex ui).left
         else (tree.find_vertex ui).right) := by
  conv_lhs => unfold execute_decision_tree
  simp only [hl, Bool.false_eq_true, if_false]
  cases hsp : (tree.find_vertex ui).split with
  | monostate => exact absurd hsp hs
  | single s =>
    simp only [select]
    by_cases h : (x.getD s.var Value.nan).eq s.value = true <;> simp [h]
  | subset s =>
    simp only [select, subset_split.contains]
    by_cases h : is_bit_set s.mask (x.getD s.var Value.nan).to_size_t = true <;> simp [h]
  | threshold s =>
    simp only [select]
    by_cases h : (x.getD s.var Value.nan).lt s.value = true <;> simp [h]

/-- The generative tree of `mixed_tree` on the input `(3, 0, 1)`: the decision tree ends in
the leaf 3, which holds 2 of the 5 samples; the densities of the distributions of the leaf are
`1 / 2`, `1 / 2` and `1`, and `evi` is `(2 / 5) * (1 / 4)`. -/
theorem mixed_tree_evi :
    execute_decision_tree mixed_tree [.num 3, .num 0, .num 1] 20 0 = some 3 ∧
    (fit_leaf_terminals mixed_library mixed_tree.category_counts mixed_dataset
        (mixed_tree.range (mixed_tree.find_vertex 3)) [⟨.num 3, .num 5⟩, {}]
        (List.range 2)).map (fun ts =>
      (ts ++ [fit_categorical mixed_dataset (mixed_tree.range (mixed_tree.find_vertex 3))
        2]).map (pc_node.pdf mixed_library [.num 3, .num 0, .num 1])) =
      some [some (.num (1 / 2)), some (.num (1 / 2)), some (.num 1)] ∧
    (build_generative_tree mixed_library mixed_tree mixed_dataset [] 20).map (fun r =>
      pc_node.evi mixed_library (probabilistic_circuit.mk r.1 r.2 [0, 2, 2])
        [.num 3, .num 0, .num 1] 40 r.2) = some (.returned (.num (1 / 10))) := by
  decide!

/-- The indicator nodes that `make_indicator_node` builds for a criterion follow `select` on
an observed value, as long as the cutoff of a threshold split is an integer and the value
tested by a subset split is below 32: the indicator of the side `select(split, x)` evaluates
to 1 and the other one to 0. -/
theorem make_indicator_node_select (lib : math_library) (split : splitting_criterion)
    (x : List Value) (j : Nat) (hj : j < 2)
    (hx : is_missing (x.getD (split_variable split) .nan) = false)
    (hthreshold : ∀ s, split = .threshold s → Value.num s.value.to_int = s.value)
    (hsubset : ∀ s, split = .subset s → s.mask < 2 ^ 32 ∧ (x.getD s.var .nan).to_size_t < 32)
    (hsplit : split ≠ .monostate) :
    ∃ z, make_indicator_node split j = some z ∧ z.successors = [] ∧
      ∃ scope dist, z.kind = .terminal scope dist ∧
        terminal_evi lib scope dist x = some (if select split x = j then .num 1 else .num 0) := by
  have hj01 : j = 0 ∨ j = 1 := by omega
  cases split with
  | monostate => exact absurd rfl hsplit
  | single s =>
    simp only [split_variable] at hx
    refine ⟨_, rfl, rfl, _, _, rfl, ?_⟩
    rcases hj01 with hj0 | hj0 <;> subst hj0 <;>
      by_cases he : (x.getD s.var .nan).eq s.value = true <;>
      simp [-List.getD_eq_getElem?_getD, terminal_evi, select, indicator_contains, he, hx]
  | subset s =>
    simp only [split_variable] at hx
    obtain ⟨hm, hk⟩ := hsubset s rfl
    refine ⟨_, rfl, rfl, _, _, rfl, ?_⟩
    have hk64 : (x.getD s.var .nan).to_size_t < 64 := by omega
    have hc : is_bit_set (2 ^ 32 - 1 - s.mask) (x.getD s.var .nan).to_size_t =
        !is_bit_set s.mask (x.getD s.var .nan).to_size_t := by
      rw [is_bit_set_eq_testBit _ _ hk64, is_bit_set_eq_testBit _ _ hk64,
        show 2 ^ 32 - 1 - s.mask = 2 ^ 32 - (s.mask + 1) by omega,
        Nat.testBit_two_pow_sub_succ hm]
      simp [-List.getD_eq_getElem?_getD, hk]
    norm_num [-List.getD_eq_getElem?_getD] at hc
    rcases hj01 with hj0 | hj0 <;> subst hj0 <;>
      by_cases he : is_bit_set s.mask (x.getD s.var .nan).to_size_t = true <;>
      simp [-List.getD_eq_getElem?_getD, terminal_evi, select, subset_split.contains,
        indicator_contains, he, hx, hc]
  | threshold s =>
    simp only [split_variable] at hx
    have ht := hthreshold s rfl
    refine ⟨_, rfl, rfl, _, _, rfl, ?_⟩
    obtain ⟨n, hn⟩ : ∃ n : Int, s.value.to_int = n := ⟨_, rfl⟩
    rw [hn] at ht ⊢
    cases hxv : x.getD s.var .nan with
    | nan => rw [hxv] at hx; simp [is_missing] at hx
    | num q =>
      rcases hj01 with hj0 | hj0 <;> subst hj0 <;>
        by_cases he : q < (n : ℚ) <;>
        simp [-List.getD_eq_getElem?_getD, terminal_evi, select, indicator_contains, hxv,
          ← ht, Value.lt, Value.le, he, is_missing, le_of_not_lt]

/-- Claim C21: the tree learned from `fraction_dataset` has the root `x0 < 3/2`. For the
input `(6/5, 0)`, a row of the dataset, `select` answers the left side, while the node
`less_node(0, 1)` that `make_indicator_node` builds evaluates to 0 and `greater_equal_node(0,
1)` to 1: the cutoff `3/2` is converted to `int`. The circuit of the forest has `evi` above 0
at this input, the circuit that `expand_sum_split_nodes` leaves has `evi` 0. -/
theorem expand_sum_split_nodes_threshold :
    learn_decision_tree const_engine fraction_dataset [0, 1] {} .threshold gini_gain
      (node_is_finished mis_classification_small) () 20 = .returned fraction_tree ∧
    select (.threshold ⟨0, .num (3 / 2)⟩) [.num (6 / 5), .num 0] = 0 ∧
    make_indicator_node (.threshold ⟨0, .num (3 / 2)⟩) 0 =
      some { kind := .terminal 0 (.less 1), successors := [] } ∧
    make_indicator_node (.threshold ⟨0, .num (3 / 2)⟩) 1 =
      some { kind := .terminal 0 (.greater_equal 1), successors := [] } ∧
    terminal_evi mixed_library 0 (.less 1) [.num (6 / 5), .num 0] = some (.num 0) ∧
    terminal_evi mixed_library 0 (.greater_equal 1) [.num (6 / 5), .num 0] = some (.num 1) ∧
    (build_generative_forest mixed_library [fraction_tree] fraction_dataset 20).map
      (fun pc => evi_query_recursive mixed_library pc [.num (6 / 5), .num 0] 20) =
      some (.returned (.num (1 / (3 + 2 * double_max)))) ∧
    (build_generative_forest mixed_library [fraction_tree] fraction_dataset 20).bind
      (fun pc => (expand_sum_split_nodes pc 20).map
        (fun pc2 => evi_query_recursive mixed_library pc2 [.num (6 / 5), .num 0] 20)) =
      some (.returned (.num 0)) := by
  decide!

/-! ## Terminal nodes on a missing value, product nodes -/

/-- Claim C22, amended: for an input `x` whose value at the variable of a terminal node is
missing, `evi(x) = 1` and `log_evi(x) = 0` for the categorical, normal and truncated normal
nodes (`log_evi` is `std::log(1)`, so the library is asked to give `log 1 = 0`) and for the
indicator nodes less, greater_equal, equal and subset; for a not_equal node `evi(x) = 0` and
`log_evi(x) = -infinity`. -/
theorem terminal_evi_missing (lib : math_library) (hlog : lib.log (.num 1) = .num 0)
    (scope : Nat) (dist : terminal_kind) (x : List Value)
    (hx : is_missing (x.getD scope .nan) = true) :
    terminal_evi lib scope dist x =
      some (match dist with
        | .not_equal _ => .num 0
        | _ => .num 1) ∧
    terminal_log_evi lib scope dist x =
      some (match dist with
        | .not_equal _ => lib.neg_infinity
        | _ => .num 0) := by
  cases dist <;>
    simp [-List.getD_eq_getElem?_getD, terminal_evi, terminal_log_evi, indicator_contains, hx,
      hlog]

theorem terminal_evi_missing_witness :
    test_library.log (.num 1) = .num 0 ∧ is_missing (([.nan] : List Value).getD 0 .nan) = true ∧
    terminal_evi test_library 0 (.categorical [.num 1]) [.nan] = some (.num 1) ∧
    terminal_log_evi test_library 0 (.categorical [.num 1]) [.nan] = some (.num 0) :=
  ⟨rfl, rfl, terminal_evi_missing test_library rfl 0 (.categorical [.num 1]) [.nan] rfl⟩

/-- Claim C22: a node `not_equal_node(0, 1)` on an input whose value of variable 0 is missing
has `evi` 0 and `log_evi` `-infinity`, not 1 and 0: `contains` is
`!is_missing(x) && x != m_value`. -/
theorem not_equal_node_missing :
    is_missing (([.nan] : List Value).getD 0 .nan) = true ∧
    terminal_evi test_library 0 (.not_equal (.num 1)) [.nan] = some (.num 0) ∧
    terminal_evi test_library 0 (.not_equal (.num 1)) [.nan] ≠ some (.num 1) ∧
    terminal_log_evi test_library 0 (.not_equal (.num 1)) [.nan] =
      some test_library.neg_infinity ∧
    terminal_log_evi test_library 0 (.not_equal (.num 1)) [.nan] ≠ some (.num 0) ∧
    pc_node.evi test_library ⟨[⟨.terminal 0 (.not_equal (.num 1)), []⟩], 0, [2]⟩ [.nan] 1 0 =
      .returned (.num 0) ∧
    pc_node.log_evi test_library ⟨[⟨.terminal 0 (.not_equal (.num 1)), []⟩], 0, [2]⟩ [.nan] 1 0 =
      .returned test_library.neg_infinity := by
  decide!

theorem product_of_all_prod (ev : Nat → outcome Value) : ∀ (vs : List Nat) (qs : List ℚ),
    List.Forall₂ (fun v q => ev v = .returned (.num q)) vs qs → ∀ (acc : ℚ),
    product_of_all ev vs (.num acc) = .returned (.num (acc * qs.prod)) := by
  intro vs qs hf
  induction hf with
  | nil => intro acc; simp [product_of_all]
  | cons hr _ ih =>
    intro acc
    simp only [product_of_all, hr, Value.mul, List.prod_cons]
    rw [ih, mul_assoc]

theorem sum_of_all_sum (ev : Nat → outcome Value) : ∀ (vs : List Nat) (ls : List ℚ),
    List.Forall₂ (fun v l => ev v = .returned (.num l)) vs ls → ∀ (acc : ℚ),
    sum_of_all ev vs (.num acc) = .returned (.num (acc + ls.sum)) := by
  intro vs ls hf
  induction hf with
  | nil => intro acc; simp [sum_of_all]
  | cons hr _ ih =>
    intro acc
    simp only [sum_of_all, hr, Value.add, List.sum_cons]
    rw [ih, add_assoc]

theorem log_product_node_loop_sum (lib : math_library) (ev : Nat → outcome Value) :
    ∀ (vs : List Nat) (ls : List ℚ),
    List.Forall₂ (fun v l => ev v = .returned (.num l)) vs ls → ∀ (acc : ℚ),
    (∀ k, 0 < k → k ≤ ls.length →
      (Value.num (acc + (ls.take k).sum)).le lib.neg_infinity = false) →
    log_product_node_loop lib ev vs (.num acc) = .returned (.num (acc + ls.sum)) := by
  intro vs ls hf
  induction hf with
  | nil => intro acc _; simp [log_product_node_loop]
  | cons hr _ ih =>
    rename_i v l vs ls _
    intro acc h
    have h1 := h 1 (by omega) (by simp)
    simp only [List.take_succ_cons, List.take_zero, List.sum_cons, List.sum_nil, add_zero] at h1
    simp only [log_product_node_loop, hr, Value.add, h1, Bool.false_eq_true, if_false,
      List.sum_cons]
    rw [ih (acc + l), add_assoc]
    intro k hk hkl
    have h2 := h (k + 1) (by omega) (by simpa using hkl)
    simpa [List.take_succ_cons, add_assoc] using h2

/-- After `-infinity` the sum over successors that return a number or `-infinity` stays
`-infinity`. -/
theorem log_sum_of_all_neg_inf (fadd : ℚ → ℚ → xdouble) (ev : Nat → outcome xdouble) :
    ∀ (vs : List Nat),
    (∀ v ∈ vs, ∃ r, ev v = .returned r ∧ r ≠ .nan ∧ r ≠ .pos_inf) →
    log_sum_of_all fadd ev vs .neg_inf = .returned .neg_inf := by
  intro vs
  induction vs with
  | nil => intro _; rfl
  | cons v vs ih =>
    intro h
    obtain ⟨r, hr, h1, h2⟩ := h v (List.mem_cons_self _ _)
    have hadd : xdouble.add fadd .neg_inf r = .neg_inf := by
      cases r with
      | nan => exact absurd rfl h1
      | pos_inf => exact absurd rfl h2
      | neg_inf => rfl
      | num q => rfl
    simp only [log_sum_of_all, hr, hadd]
    exact ih (fun w hw => h w (List.mem_cons_of_mem _ hw))

/-- The loop of `product_node::log_evi` over successors that return a number or `-infinity`
returns the sum over all of them. -/
theorem product_node_log_evi_loop_all (fadd : ℚ → ℚ → xdouble)
    (ev : Nat → outcome xdouble) :
    ∀ (vs : List Nat) (result : xdouble),
    (∀ v ∈ vs, ∃ r, ev v = .returned r ∧ r ≠ .nan ∧ r ≠ .pos_inf) →
    product_node_log_evi_loop fadd ev vs result = log_sum_of_all fadd ev vs result := by
  intro vs
  induction vs with
  | nil => intro _ _; rfl
  | cons v vs ih =>
    intro result h
    obtain ⟨r, hr, -, -⟩ := h v (List.mem_cons_self _ _)
    have hrest : ∀ w ∈ vs, ∃ r, ev w = .returned r ∧ r ≠ .nan ∧ r ≠ .pos_inf :=
      fun w hw => h w (List.mem_cons_of_mem _ hw)
    simp only [product_node_log_evi_loop, log_sum_of_all, hr]
    by_cases hle : (xdouble.add fadd result r).le_neg_infinity = true
    · rw [if_pos hle]
      have hs : xdouble.add fadd result r = .neg_inf := by
        cases hv : xdouble.add fadd result r with
        | neg_inf => rfl
        | nan => rw [hv] at hle; exact absurd hle (by decide)
        | pos_inf => rw [hv] at hle; exact absurd hle (by decide)
        | num q => rw [hv] at hle; exact absurd hle (by simp [xdouble.le_neg_infinity])
      rw [hs, log_sum_of_all_neg_inf fadd ev vs hrest]
    · rw [if_neg hle]
      exact ih _ hrest

/-- Claim C23, amended: at a product node whose successors all return a number that is not
negative (the numbers `qs`), `evi(x)` is the product of `evi(x)` over all the successors,
also when a factor 0 makes the loop end early; and when the successors all return a value of
`log_evi(x)` that is a number or `-infinity` (not NaN, not `+infinity`, no exception), the loop
of `log_evi(x)` returns the sum of `log_evi(x)` over all the successors, also when a term
`-infinity` makes the loop end early. -/
theorem product_node_all (lib : math_library) (pc : probabilistic_circuit) (x : List Value)
    (fuel u : Nat) (hu : (pc.node u).kind = .product) (qs : List ℚ) :
    (List.Forall₂ (fun v q => pc_node.evi lib pc x fuel v = .returned (.num q))
        (pc.successors u) qs → (∀ q ∈ qs, 0 ≤ q) →
      pc_node.evi lib pc x (fuel + 1) u = .returned (.num qs.prod) ∧
      pc_node.evi lib pc x (fuel + 1) u =
        product_of_all (pc_node.evi lib pc x fuel) (pc.successors u) (.num 1)) ∧
    (∀ (fadd : ℚ → ℚ → xdouble) (ev : Nat → outcome xdouble),
      (∀ v ∈ pc.successors u, ∃ r, ev v = .returned r ∧ r ≠ .nan ∧ r ≠ .pos_inf) →
      product_node_log_evi_loop fadd ev (pc.successors u) (.num 0) =
        log_sum_of_all fadd ev (pc.successors u) (.num 0)) := by
  constructor
  · intro hf hq
    have h1 := product_node_loop_prod (pc_node.evi lib pc x fuel) _ _ hf hq 1 (by norm_num)
    have h2 := product_of_all_prod (pc_node.evi lib pc x fuel) _ _ hf 1
    rw [one_mul] at h1 h2
    simp only [pc_node.evi, hu]
    exact ⟨h1, h1.trans h2.symm⟩
  · intro fadd ev h
    exact product_node_log_evi_loop_all fadd ev _ _ h

/-- The values on `short_circuit` at the input `(0, 0)`: the first successor returns 0, so
that the loop of `evi` ends after the first factor, and the second successor returns 1; the
first term `-infinity` ends the loop of `log_evi`. -/
theorem product_node_all_witness :
    (short_circuit.node 0).kind = .product ∧
    List.Forall₂ (fun v q => pc_node.evi test_library short_circuit [.num 0, .num 0] 1 v =
      .returned (.num q)) (short_circuit.successors 0) [0, 1] ∧
    (∀ q ∈ ([0, 1] : List ℚ), 0 ≤ q) ∧
    (∀ v ∈ short_circuit.successors 0, ∃ r,
      (fun w => if w = 1 then outcome.returned xdouble.neg_inf
        else outcome.returned (xdouble.num 0)) v = .returned r ∧
      r ≠ .nan ∧ r ≠ .pos_inf) ∧
    (pc_node.evi test_library short_circuit [.num 0, .num 0] (1 + 1) 0 =
        .returned (.num ([0, 1] : List ℚ).prod) ∧
      pc_node.evi test_library short_circuit [.num 0, .num 0] (1 + 1) 0 =
        product_of_all (pc_node.evi test_library short_circuit [.num 0, .num 0] 1)
          (short_circuit.successors 0) (.num 1)) ∧
    product_node_log_evi_loop (fun a b => .num (a + b))
        (fun w => if w = 1 then outcome.returned xdouble.neg_inf
          else outcome.returned (xdouble.num 0)) (short_circuit.successors 0) (.num 0) =
      log_sum_of_all (fun a b => .num (a + b))
        (fun w => if w = 1 then outcome.returned xdouble.neg_inf
          else outcome.returned (xdouble.num 0)) (short_circuit.successors 0) (.num 0) := by
  have h1 : List.Forall₂ (fun v q => pc_node.evi test_library short_circuit [.num 0, .num 0] 1 v =
      .returned (.num q)) (short_circuit.successors 0) [0, 1] :=
    List.Forall₂.cons (by decide!) (List.Forall₂.cons (by decide!) List.Forall₂.nil)
  have h2 : ∀ q ∈ ([0, 1] : List ℚ), 0 ≤ q := by
    intro q hq
    simp only [List.mem_cons, List.mem_singleton, List.not_mem_nil, or_false] at hq
    rcases hq with hq | hq
    · rw [hq]
    · rw [hq]; norm_num
  have h3 : ∀ v ∈ short_circuit.successors 0, ∃ r,
      (fun w => if w = 1 then outcome.returned xdouble.neg_inf
        else outcome.returned (xdouble.num 0)) v = .returned r ∧
      r ≠ .nan ∧ r ≠ .pos_inf := by
    intro v hv
    have hv2 : v = 1 ∨ v = 2 := by
      have : short_circuit.successors 0 = [1, 2] := rfl
      rw [this] at hv
      simpa using hv
    rcases hv2 with hv2 | hv2 <;> subst hv2
    · exact ⟨.neg_inf, rfl, by simp, by simp⟩
    · exact ⟨.num 0, rfl, by simp, by simp⟩
  exact ⟨rfl, h1, h2, h3,
    (product_node_all test_library short_circuit [.num 0, .num 0] 1 0 rfl [0, 1]).1 h1 h2,
    (product_node_all test_library short_circuit [.num 0, .num 0] 1 0 rfl [0, 1]).2 _ _ h3⟩

/-- The values on `short_circuit` at the input `(1, 0)`: both successors return 1, `evi` is 1
and `log_evi` is 0. -/
theorem short_circuit_values :
    pc_node.evi test_library short_circuit [.num 1, .num 0] 1 1 = .returned (.num 1) ∧
    pc_node.evi test_library short_circuit [.num 1, .num 0] 1 2 = .returned (.num 1) ∧
    pc_node.evi test_library short_circuit [.num 1, .num 0] 2 0 = .returned (.num 1) ∧
    pc_node.log_evi test_library short_circuit [.num 1, .num 0] 2 0 = .returned (.num 0) := by
  decide!

/-- The values on `short_circuit` at the input `(0, 0)`: the successors return 0 and 1, the
loop of `evi` ends after the first factor and returns 0, the value of the product. -/
theorem short_circuit_early_exit_values :
    pc_node.evi test_library short_circuit [.num 0, .num 0] 1 1 = .returned (.num 0) ∧
    pc_node.evi test_library short_circuit [.num 0, .num 0] 1 2 = .returned (.num 1) ∧
    pc_node.evi test_library short_circuit [.num 0, .num 0] 2 0 = .returned (.num 0) := by
  decide!

/-- Claim C23: on `nan_circuit` and the input `(0, 0)` the successors of the product node
return 0 and NaN. The product over all the successors is NaN, while `product_node::evi`
leaves its loop after the first factor and returns 0. On `short_circuit` and the input
`(0, 5)` the second successor throws, and `product_node::evi` returns 0. In the same way the
loop of `product_node::log_evi` over two successors that return `-infinity` and NaN returns
`-infinity`, while the sum over all the successors is NaN. -/
theorem product_node_early_exit :
    (nan_circuit.node 0).kind = .product ∧
    pc_node.evi test_library nan_circuit [.num 0, .num 0] 1 1 = .returned (.num 0) ∧
    pc_node.evi test_library nan_circuit [.num 0, .num 0] 1 2 = .returned .nan ∧
    product_of_all (pc_node.evi test_library nan_circuit [.num 0, .num 0] 1)
      (nan_circuit.successors 0) (.num 1) = .returned .nan ∧
    pc_node.evi test_library nan_circuit [.num 0, .num 0] 2 0 = .returned (.num 0) ∧
    pc_node.evi test_library nan_circuit [.num 0, .num 0] 2 0 ≠
      product_of_all (pc_node.evi test_library nan_circuit [.num 0, .num 0] 1)
        (nan_circuit.successors 0) (.num 1) ∧
    product_of_all (pc_node.evi test_library short_circuit [.num 0, .num 5] 1)
      (short_circuit.successors 0) (.num 1) = .exception ∧
    pc_node.evi test_library short_circuit [.num 0, .num 5] 2 0 = .returned (.num 0) ∧
    product_node_log_evi_loop (fun a b => .num (a + b))
      (fun w => if w = 1 then .returned .neg_inf else .returned .nan) [1, 2] (.num 0) =
      .returned .neg_inf ∧
    log_sum_of_all (fun a b => .num (a + b))
      (fun w => if w = 1 then .returned .neg_inf else .returned .nan) [1, 2] (.num 0) =
      .returned .nan := by
  decide!

/-! ## The optimization of `enumerate_threshold_splits` -/

theorem perspective_term (h : ℚ → ℚ) (hc : ConcaveOn ℚ (Set.Icc 0 1) h) (x n d : Nat)
    (hx : x ≤ n) (hn : 1 ≤ n) (hd : d ≤ 1) :
    ((n : ℚ) + 2) * h (((x : ℚ) + 2 * d) / ((n : ℚ) + 2)) + (n : ℚ) * h ((x : ℚ) / (n : ℚ)) ≤
      2 * (((n : ℚ) + 1) * h (((x : ℚ) + d) / ((n : ℚ) + 1))) := by
  have hn0 : (0 : ℚ) < n := by exact_mod_cast hn
  have hxn : (x : ℚ) ≤ n := by exact_mod_cast hx
  have hx0 : (0 : ℚ) ≤ x := by exact_mod_cast Nat.zero_le x
  have hd0 : (0 : ℚ) ≤ d := by exact_mod_cast Nat.zero_le d
  have hd1 : (d : ℚ) ≤ 1 := by exact_mod_cast hd
  have h1 : ((x : ℚ) + 2 * d) / ((n : ℚ) + 2) ∈ Set.Icc (0 : ℚ) 1 := by
    constructor
    · positivity
    · rw [div_le_one (by linarith)]; linarith
  have h2 : (x : ℚ) / (n : ℚ) ∈ Set.Icc (0 : ℚ) 1 := by
    constructor
    · positivity
    · rw [div_le_one hn0]; exact hxn
  have key : (((n : ℚ) + 2) / (2 * ((n : ℚ) + 1))) • h (((x : ℚ) + 2 * d) / ((n : ℚ) + 2)) +
      ((n : ℚ) / (2 * ((n : ℚ) + 1))) • h ((x : ℚ) / (n : ℚ)) ≤
      h ((((n : ℚ) + 2) / (2 * ((n : ℚ) + 1))) • (((x : ℚ) + 2 * d) / ((n : ℚ) + 2)) +
        ((n : ℚ) / (2 * ((n : ℚ) + 1))) • ((x : ℚ) / (n : ℚ))) :=
    hc.2 h1 h2 (by positivity) (by positivity) (by field_simp; ring)
  simp only [smul_eq_mul] at key
  have e : ((n : ℚ) + 2) / (2 * ((n : ℚ) + 1)) * (((x : ℚ) + 2 * d) / ((n : ℚ) + 2)) +
      (n : ℚ) / (2 * ((n : ℚ) + 1)) * ((x : ℚ) / (n : ℚ)) = ((x : ℚ) + d) / ((n : ℚ) + 1) := by
    field_simp
    ring
  rw [e] at key
  have hpos : (0 : ℚ) < 2 * ((n : ℚ) + 1) := by positivity
  have := mul_le_mul_of_nonneg_left key hpos.le
  calc ((n : ℚ) + 2) * h (((x : ℚ) + 2 * d) / ((n : ℚ) + 2)) + (n : ℚ) * h ((x : ℚ) / (n : ℚ))
      = 2 * ((n : ℚ) + 1) * (((n : ℚ) + 2) / (2 * ((n : ℚ) + 1)) *
          h (((x : ℚ) + 2 * d) / ((n : ℚ) + 2)) +
          (n : ℚ) / (2 * ((n : ℚ) + 1)) * h ((x : ℚ) / (n : ℚ))) := by
        field_simp
    _ ≤ 2 * ((n : ℚ) + 1) * h (((x : ℚ) + d) / ((n : ℚ) + 1)) := this
    _ = 2 * (((n : ℚ) + 1) * h (((x : ℚ) + d) / ((n : ℚ) + 1))) := by ring

theorem map_eq_range_map {β : Type} (f : Nat → β) (l : List Nat) :
    l.map f = (List.range l.length).map (fun k => f (l.getD k 0)) := by
  apply List.ext_getElem
  · simp
  · intro i h1 h2
    simp only [List.getElem_map, List.getElem_range]
    rw [List.getD_eq_getElem _ _ (by simpa using h1)]

theorem sum_incr (C : List Nat) (c : Nat) (hc : c < C.length) :
    (incr C c).sum = C.sum + 1 := by
  induction C generalizing c with
  | nil => simp at hc
  | cons a C ih =>
    cases c with
    | zero => simp [incr]; omega
    | succ c =>
      have := ih c (by simpa using hc)
      simp only [incr, List.getD_cons_succ, List.set_cons_succ, List.sum_cons] at this ⊢
      omega

theorem getD_le_sum (C : List Nat) (k : Nat) : C.getD k 0 ≤ C.sum := by
  induction C generalizing k with
  | nil => simp
  | cons a C ih =>
    cases k with
    | zero => simp
    | succ k =>
      have := ih k
      simp only [List.getD_cons_succ, List.sum_cons]
      omega

/-- Moving two samples of one class into a set changes `perspective_sum` by increments that
do not grow, for a concave `h`. -/
theorem perspective_sum_mid (h : ℚ → ℚ) (hc : ConcaveOn ℚ (Set.Icc 0 1) h) (C : List Nat)
    (c : Nat) (hcl : c < C.length) (hn : 1 ≤ C.sum) :
    perspective_sum h (incr (incr C c) c) + perspective_sum h C ≤
      2 * perspective_sum h (incr C c) := by
  have hl1 : (incr C c).length = C.length := incr_length C c
  have hl2 : (incr (incr C c) c).length = C.length := by rw [incr_length, incr_length]
  have hs1 : (incr C c).sum = C.sum + 1 := sum_incr C c hcl
  have hs2 : (incr (incr C c) c).sum = C.sum + 2 := by
    rw [sum_incr _ _ (by rw [hl1]; exact hcl), hs1]
  unfold perspective_sum
  rw [map_eq_range_map _ (incr (incr C c) c), map_eq_range_map _ (incr C c),
    map_eq_range_map _ C, hl1, hl2, hs1, hs2, ← List.sum_map_add, ← List.sum_map_mul_left]
  apply List.sum_le_sum
  intro k hk
  have hk2 : k < C.length := List.mem_range.1 hk
  rw [incr_getD, incr_getD, hl1]
  by_cases hkc : k = c
  · simp only [hkc, hcl, and_self, if_true]
    have := perspective_term h hc (C.getD c 0) C.sum 1 (getD_le_sum C c) hn (le_refl _)
    push_cast at this ⊢
    have e : ((C.getD c 0 : ℕ) : ℚ) + 1 + 1 = (C.getD c 0 : ℚ) + 2 * 1 := by ring
    rw [e]
    exact this
  · simp only [hkc, false_and, if_false, add_zero]
    have := perspective_term h hc (C.getD k 0) C.sum 0 (getD_le_sum C k) hn (by norm_num)
    push_cast at this ⊢
    simpa using this

theorem foldl_max_ge (C : List Nat) : ∀ (m : Nat), m ≤ C.foldl max m := by
  induction C with
  | nil => intro m; simp
  | cons a C ih => intro m; exact le_trans (le_max_left m a) (ih _)

theorem foldl_max_mono (C : List Nat) : ∀ (m m2 : Nat), m ≤ m2 →
    C.foldl max m ≤ C.foldl max m2 := by
  induction C with
  | nil => intro m m2 h; simpa using h
  | cons a C ih => intro m m2 h; exact ih _ _ (max_le_max h (le_refl a))

theorem foldl_max_incr (C : List Nat) : ∀ (c m : Nat), c < C.length →
    (incr C c).foldl max m = max (C.foldl max m) (C.getD c 0 + 1) := by
  induction C with
  | nil => intro c m hc; simp at hc
  | cons a C ih =>
    intro c m hc
    cases c with
    | zero =>
      simp only [incr, List.getD_cons_zero, List.set_cons_zero, List.foldl_cons]
      have h1 := foldl_max_ge C (max m (a + 1))
      have h2 := foldl_max_mono C (max m a) (max m (a + 1)) (max_le_max (le_refl m) (by omega))
      have h3 : C.foldl max (max m (a + 1)) ≤ max (C.foldl max (max m a)) (a + 1) := by
        have : ∀ (l : List Nat) (p q : Nat), l.foldl max (max p q) = max (l.foldl max p) q := by
          intro l
          induction l with
          | nil => intro p q; rfl
          | cons b l ihl =>
            intro p q
            simp only [List.foldl_cons]
            rw [show max (max p q) b = max (max p b) q by
              rw [max_assoc, max_comm q b, ← max_assoc]]
            exact ihl _ _
        rw [this C m (a + 1), this C m a]
        omega
      have h4 : max (C.foldl max (max m a)) (a + 1) ≤ C.foldl max (max m (a + 1)) :=
        max_le h2 (le_trans (le_max_right _ _) h1)
      exact le_antisymm h3 h4
    | succ c =>
      have := ih c (max m a) (by simpa using hc)
      simpa [incr] using this

theorem coe_list (C : List Nat) :
    ((C : List Nat) : List ℚ) = List.map (fun (a : Nat) => (a : ℚ)) C := by
  induction C with
  | nil => rfl
  | cons a C ih =>
    rw [List.map_cons, ← ih]
    rfl

theorem gini_index_eq (C : List Nat) :
    gini_index C = 1 - (C.map (fun (c : Nat) => ((c : ℚ) / (C.sum : ℚ)) ^ 2)).sum := by
  unfold gini_index
  rw [coe_list, List.map_map]
  rfl

theorem cross_entropy_eq (log2 : ℚ → ℚ) (C : List Nat) :
    cross_entropy log2 C = -(C.map (fun (c : Nat) =>
      ((c : ℚ) / (C.sum : ℚ) + 1 / 10 ^ 12) * log2 ((c : ℚ) / (C.sum : ℚ) + 1 / 10 ^ 12))).sum := by
  unfold cross_entropy
  rw [coe_list, List.map_map]
  rfl

theorem sum_map_neg_rat {α : Type} (f : α → ℚ) (l : List α) :
    (l.map (fun a => -f a)).sum = -(l.map f).sum := by
  induction l with
  | nil => simp
  | cons a l ih => simp only [List.map_cons, List.sum_cons, ih]; ring

theorem mul_one_sub_div (n m : ℚ) (hn : n ≠ 0) : n * (1 - m / n) = n - m := by
  field_simp

theorem weighted_gini_eq (C : List Nat) :
    (C.sum : ℚ) * gini_index C = (C.sum : ℚ) + perspective_sum (fun p => -(p ^ 2)) C := by
  rw [gini_index_eq, perspective_sum, mul_sub, mul_one, ← List.sum_map_mul_left, sub_eq_add_neg,
    ← sum_map_neg_rat]
  congr 2
  apply List.map_congr_left
  intro c _
  ring

theorem weighted_entropy_eq (log2 : ℚ → ℚ) (C : List Nat) :
    (C.sum : ℚ) * cross_entropy log2 C =
      perspective_sum (fun p => -((p + 1 / 10 ^ 12) * log2 (p + 1 / 10 ^ 12))) C := by
  rw [cross_entropy_eq, perspective_sum, mul_neg, ← List.sum_map_mul_left, ← sum_map_neg_rat]
  congr 1
  apply List.map_congr_left
  intro c _
  ring

theorem concave_neg_sq : ConcaveOn ℚ (Set.Icc (0 : ℚ) 1) (fun p => -(p ^ 2)) :=
  ((Even.convexOn_pow (by decide : Even 2)).subset (Set.subset_univ _) (convex_Icc 0 1)).neg

theorem concave_entropy_term (log2 : ℚ → ℚ)
    (hlog : ConvexOn ℚ (Set.Ioi (0 : ℚ)) (fun x => x * log2 x)) :
    ConcaveOn ℚ (Set.Icc (0 : ℚ) 1)
      (fun p => -((p + 1 / 10 ^ 12) * log2 (p + 1 / 10 ^ 12))) := by
  refine ⟨convex_Icc 0 1, ?_⟩
  intro x hx y hy a b ha hb hab
  have hx1 : x + 1 / 10 ^ 12 ∈ Set.Ioi (0 : ℚ) := by
    have := hx.1
    show (0 : ℚ) < x + 1 / 10 ^ 12
    positivity
  have hy1 : y + 1 / 10 ^ 12 ∈ Set.Ioi (0 : ℚ) := by
    have := hy.1
    show (0 : ℚ) < y + 1 / 10 ^ 12
    positivity
  have key := hlog.2 hx1 hy1 ha hb hab
  simp only [smul_eq_mul] at key ⊢
  have e : a * (x + 1 / 10 ^ 12) + b * (y + 1 / 10 ^ 12) = a * x + b * y + 1 / 10 ^ 12 := by
    have : b = 1 - a := by linarith
    rw [this]; ring
  rw [e] at key
  linarith

/-- Moving two samples of one class into a set of samples changes `|D| * impurity(D)` by
increments that do not grow, for each of the three impurity measures; `x * log2(x)` is asked
to be convex on the positive numbers. -/
theorem weighted_impurity_mid (log2 : ℚ → ℚ)
    (hlog : ConvexOn ℚ (Set.Ioi (0 : ℚ)) (fun x => x * log2 x)) (imp : impurity_measure)
    (C : List Nat) (c : Nat) (hcl : c < C.length) (hn : 1 ≤ C.sum) :
    ((incr (incr C c) c).sum : ℚ) * impurity log2 imp (incr (incr C c) c) +
      (C.sum : ℚ) * impurity log2 imp C ≤
      2 * (((incr C c).sum : ℚ) * impurity log2 imp (incr C c)) := by
  have hl1 : (incr C c).length = C.length := incr_length C c
  have hs1 : (incr C c).sum = C.sum + 1 := sum_incr C c hcl
  have hs2 : (incr (incr C c) c).sum = C.sum + 2 := by
    rw [sum_incr _ _ (by rw [hl1]; exact hcl), hs1]
  cases imp with
  | gini =>
    simp only [impurity]
    rw [weighted_gini_eq, weighted_gini_eq, weighted_gini_eq, hs1, hs2]
    have := perspective_sum_mid _ concave_neg_sq C c hcl hn
    push_cast
    linarith
  | entropy =>
    simp only [impurity]
    rw [weighted_entropy_eq, weighted_entropy_eq, weighted_entropy_eq]
    exact perspective_sum_mid _ (concave_entropy_term log2 hlog) C c hcl hn
  | mis_classification =>
    simp only [impurity, mis_classification]
    rw [hs1, hs2, foldl_max_incr _ _ _ (by rw [hl1]; exact hcl), foldl_max_incr _ _ _ hcl,
      incr_getD]
    simp only [hcl, and_self, if_true]
    have hn0 : (C.sum : ℚ) ≠ 0 := by
      have : (0 : ℚ) < C.sum := by exact_mod_cast hn
      exact ne_of_gt this
    have hle : C.getD c 0 ≤ C.foldl max 0 := by
      have : ∀ (l : List Nat) (k m : Nat), k < l.length → l.getD k 0 ≤ l.foldl max m := by
        intro l
        induction l with
        | nil => intro k m hk; simp at hk
        | cons a l ih =>
          intro k m hk
          cases k with
          | zero =>
            simp only [List.getD_cons_zero, List.foldl_cons]
            exact le_trans (le_max_right m a) (foldl_max_ge l _)
          | succ k => simpa using ih k (max m a) (by simpa using hk)
      exact this C c 0 hcl
    obtain ⟨x, hx⟩ : ∃ x, C.getD c 0 = x := ⟨_, rfl⟩
    obtain ⟨m0, hm0⟩ : ∃ m0, C.foldl max 0 = m0 := ⟨_, rfl⟩
    rw [hx] at hle ⊢
    rw [hm0] at hle ⊢
    obtain ⟨m1, hm1⟩ : ∃ m1, max m0 (x + 1) = m1 := ⟨_, rfl⟩
    obtain ⟨m2, hm2⟩ : ∃ m2, max m1 (x + 1 + 1) = m2 := ⟨_, rfl⟩
    rw [hm1, hm2]
    have e4 : 2 * m1 ≤ m2 + m0 := by omega
    have e5 : (2 : ℚ) * (m1 : ℚ) ≤ (m2 : ℚ) + (m0 : ℚ) := by exact_mod_cast e4
    rw [mul_one_sub_div _ _ hn0, mul_one_sub_div _ _ (by positivity),
      mul_one_sub_div _ _ (by positivity)]
    push_cast
    linarith

/-- A function on the natural numbers whose increments do not grow between `a` and `b` is at
least the smaller of its values at `a` and at `b` in between. -/
theorem discrete_concave_min (f : ℕ → ℚ) (a b : ℕ)
    (h : ∀ t, a < t → t < b → f (t - 1) + f (t + 1) ≤ 2 * f t) :
    ∀ t, a ≤ t → t ≤ b → min (f a) (f b) ≤ f t := by
  have step : ∀ w, a ≤ w → w + 2 ≤ b → f (w + 2) - f (w + 1) ≤ f (w + 1) - f w := by
    intro w h1 h2
    have := h (w + 1) (by omega) (by omega)
    simp only [Nat.add_sub_cancel] at this
    rw [show w + 1 + 1 = w + 2 by omega] at this
    linarith
  have anti : ∀ d u, a ≤ u → u + d + 1 ≤ b → f (u + d + 1) - f (u + d) ≤ f (u + 1) - f u := by
    intro d
    induction d with
    | zero => intro u _ _; simp
    | succ d ih =>
      intro u h1 h2
      have h3 := ih u h1 (by omega)
      have h4 := step (u + d) (by omega) (by omega)
      rw [show u + (d + 1) + 1 = u + d + 2 by omega, show u + (d + 1) = u + d + 1 by omega]
      linarith
  intro t hat htb
  by_cases hdec : ∃ u, a ≤ u ∧ u < t ∧ f (u + 1) - f u < 0
  · obtain ⟨u, hu1, hu2, hu3⟩ := hdec
    have down : ∀ d, t + d ≤ b → f (t + d) ≤ f t := by
      intro d
      induction d with
      | zero => intro _; simp
      | succ d ih =>
        intro hd
        have h5 := ih (by omega)
        have h6 := anti (t + d - u) u hu1 (by omega)
        rw [show u + (t + d - u) + 1 = t + (d + 1) by omega,
          show u + (t + d - u) = t + d by omega] at h6
        linarith
    have := down (b - t) (by omega)
    rw [show t + (b - t) = b by omega] at this
    exact le_trans (min_le_right _ _) this
  · have up : ∀ d, a + d ≤ t → f a ≤ f (a + d) := by
      intro d
      induction d with
      | zero => intro _; simp
      | succ d ih =>
        intro hd
        have h5 := ih (by omega)
        have h6 : ¬ (f (a + d + 1) - f (a + d) < 0) := fun hlt =>
          hdec ⟨a + d, by omega, by omega, hlt⟩
        rw [show a + (d + 1) = a + d + 1 by omega]
        linarith [not_lt.1 h6]
    have := up (t - a) (by omega)
    rw [show a + (t - a) = t by omega] at this
    exact le_trans (min_le_left _ _) this

theorem count_classes_cons (D : dataset) (K : Nat) (x : Nat) (l : List Nat) :
    count_classes D K (x :: l) = incr (count_classes D K l) (D.class_of x) := by
  apply counts_ext
  · rw [incr_length, count_classes_length, count_classes_length]
  · intro j hj
    rw [count_classes_length] at hj
    rw [incr_getD, count_classes_getD _ _ _ _ hj, count_classes_getD _ _ _ _ hj,
      count_classes_length, List.countP_cons]
    by_cases hc : D.class_of x = j
    · simp [hc, hj]
    · have : ¬ (j = D.class_of x ∧ D.class_of x < K) := fun h => hc h.1.symm
      simp [hc, this]

theorem zipWith_count_classes (D : dataset) (K : Nat) (l1 l2 : List Nat) :
    List.zipWith (fun a b : Nat => a + b) (count_classes D K l1) (count_classes D K l2) =
      count_classes D K (l1 ++ l2) := by
  unfold count_classes
  rw [List.zipWith_map_left, List.zipWith_map_right]
  generalize List.range K = r
  induction r with
  | nil => rfl
  | cons k r ih => simp only [List.zipWith_cons_cons, List.map_cons, ih, List.countP_append]

/-- Along a run of samples of one class between the positions `a` and `b` of a range `s`,
the gain of the cut at a position of the run is at most the larger of the gains of the cuts at
`a` and at `b`; the cut at `t` has the first `t` samples on the left. -/
theorem gain_run_le (log2 : ℚ → ℚ) (hlog : ConvexOn ℚ (Set.Ioi (0 : ℚ)) (fun x => x * log2 x))
    (imp : impurity_measure) (D : dataset) (s : List Nat) (K a b : Nat)
    (hK : ∀ i ∈ s, D.class_of i < K) (ha : 1 ≤ a) (hb : b < s.length)
    (hrun : ∀ k, a ≤ k → k < b → D.class_of (s.getD k 0) = D.class_of (s.getD a 0))
    (t : Nat) (hat : a ≤ t) (htb : t ≤ b) :
    gain (impurity log2 imp) (compute_class_counts D (s.take t) K)
        (compute_class_counts D (s.drop t) K) ≤
      max (gain (impurity log2 imp) (compute_class_counts D (s.take a) K)
          (compute_class_counts D (s.drop a) K))
        (gain (impurity log2 imp) (compute_class_counts D (s.take b) K)
          (compute_class_counts D (s.drop b) K)) := by
  obtain ⟨c, hc⟩ : ∃ c, D.class_of (s.getD a 0) = c := ⟨_, rfl⟩
  rw [hc] at hrun
  obtain ⟨f, hf⟩ : ∃ f : ℕ → ℚ, f = fun t =>
      ((compute_class_counts D (s.take t) K).sum : ℚ) *
        impurity log2 imp (compute_class_counts D (s.take t) K) +
      ((compute_class_counts D (s.drop t) K).sum : ℚ) *
        impurity log2 imp (compute_class_counts D (s.drop t) K) := ⟨_, rfl⟩
  have hlen : ∀ l : List Nat, (compute_class_counts D l K).length = K := by
    intro l; rw [compute_class_counts_eq, count_classes_length]
  have hsum_take : ∀ u, u ≤ s.length → (compute_class_counts D (s.take u) K).sum = u := by
    intro u hu
    rw [compute_class_counts_eq, count_classes_sum _ _ _
      (fun i hi => hK i (List.mem_of_mem_take hi)), List.length_take, min_eq_left hu]
  have hsum_drop : ∀ u, (compute_class_counts D (s.drop u) K).sum = s.length - u := by
    intro u
    rw [compute_class_counts_eq, count_classes_sum _ _ _
      (fun i hi => hK i (List.mem_of_mem_drop hi)), List.length_drop]
  have hmid : ∀ u, a < u → u < b → f (u - 1) + f (u + 1) ≤ 2 * f u := by
    intro u hau hub
    have hcK : c < K := by
      rw [← hrun a (le_refl a) (by omega)]
      exact hK _ (by rw [List.getD_eq_getElem _ _ (by omega)]; exact List.getElem_mem _)
    have hL1 : compute_class_counts D (s.take u) K =
        incr (compute_class_counts D (s.take (u - 1)) K) c := by
      rw [← hrun (u - 1) (by omega) (by omega), compute_class_counts_take_succ _ _ _ _ (by omega),
        show u - 1 + 1 = u by omega]
    have hL2 : compute_class_counts D (s.take (u + 1)) K =
        incr (incr (compute_class_counts D (s.take (u - 1)) K) c) c := by
      rw [← hL1, ← hrun u (by omega) hub, compute_class_counts_take_succ _ _ _ _ (by omega)]
    have hdrop : ∀ w, a ≤ w → w < b → compute_class_counts D (s.drop w) K =
        incr (compute_class_counts D (s.drop (w + 1)) K) c := by
      intro w h1 h2
      rw [List.drop_eq_getElem_cons (by omega : w < s.length), compute_class_counts_eq,
        count_classes_cons, ← compute_class_counts_eq, ← hrun w h1 h2,
        List.getD_eq_getElem _ _ (by omega : w < s.length)]
    have hR1 : compute_class_counts D (s.drop u) K =
        incr (compute_class_counts D (s.drop (u + 1)) K) c := hdrop u (by omega) hub
    have hR2 : compute_class_counts D (s.drop (u - 1)) K =
        incr (incr (compute_class_counts D (s.drop (u + 1)) K) c) c := by
      rw [← hR1]
      have := hdrop (u - 1) (by omega) (by omega)
      rwa [show u - 1 + 1 = u by omega] at this
    have m1 := weighted_impurity_mid log2 hlog imp (compute_class_counts D (s.take (u - 1)) K) c
      (by rw [hlen]; exact hcK) (by rw [hsum_take _ (by omega)]; omega)
    have m2 := weighted_impurity_mid log2 hlog imp (compute_class_counts D (s.drop (u + 1)) K) c
      (by rw [hlen]; exact hcK) (by rw [hsum_drop]; omega)
    rw [← hL2, ← hL1] at m1
    rw [← hR2, ← hR1] at m2
    rw [hf]
    simp only
    linarith
  have hmin := discrete_concave_min f a b hmid t hat htb
  have hT : ∀ u, List.zipWith (fun a b : Nat => a + b) (compute_class_counts D (s.take u) K)
      (compute_class_counts D (s.drop u) K) = compute_class_counts D s K := by
    intro u
    rw [compute_class_counts_eq, compute_class_counts_eq, zipWith_count_classes,
      List.take_append_drop, compute_class_counts_eq]
  have hg : ∀ u, gain (impurity log2 imp) (compute_class_counts D (s.take u) K)
      (compute_class_counts D (s.drop u) K) =
      impurity log2 imp (compute_class_counts D s K) -
        f u / ((compute_class_counts D s K).sum : ℚ) := by
    intro u
    rw [gain_eq_gain1, hT, gain1, hf]
    simp only
    ring
  have hN : (0 : ℚ) < ((compute_class_counts D s K).sum : ℚ) := by
    have := hsum_take s.length (le_refl _)
    rw [List.take_length] at this
    rw [this]
    exact_mod_cast (by omega : 0 < s.length)
  rw [hg t, hg a, hg b]
  rcases min_le_iff.1 hmin with h1 | h1
  · apply le_max_of_le_left
    have := div_le_div_of_nonneg_right h1 hN.le
    linarith
  · apply le_max_of_le_right
    have := div_le_div_of_nonneg_right h1 hN.le
    linarith

theorem Value.eq_of_eq_true (a b : Value) (h : a.eq b = true) : a = b := by
  cases a <;> cases b <;> simp_all [Value.eq]

theorem class_of_eq_of_y_eq (D : dataset) (p q : Nat) (h : (D.y p).eq (D.y q) = true) :
    D.class_of p = D.class_of q := by
  unfold dataset.class_of
  rw [Value.eq_of_eq_true _ _ h]

/-- The reports of the loop of `enumerate_threshold_splits` with the optimization are among the
reports without it, in the same order. -/
theorem threshold_sweep_sublist (D : dataset) (v : Nat) (options options2 : decision_tree_options)
    (hopt : options2.optimization = false) (s : List Nat) (first last : Nat) :
    ∀ (n i : Nat) (D1 D2 : List Nat) (same_y same_y2 : Bool),
    (threshold_sweep D v options s first last n i D1 D2 same_y).Sublist
      (threshold_sweep D v options2 s first last n i D1 D2 same_y2) := by
  intro n
  induction n with
  | zero => intro i D1 D2 _ _; simp [threshold_sweep]
  | succ n ih =>
    intro i D1 D2 same_y same_y2
    simp only [threshold_sweep, hopt, Bool.false_eq_true, if_false]
    by_cases heq : (D.at (s.getD (i - 1) 0) v).eq (D.at (s.getD i 0) v) = true
    · simp only [heq, if_true]
      exact ih _ _ _ _ _
    · have hcand : (D.at (s.getD (i - 1) 0) v).eq (D.at (s.getD i 0) v) = false := by
        simpa using heq
      simp only [hcand, Bool.false_eq_true, if_false]
      by_cases ho : options.optimization = true
      · simp only [ho, if_true]
        split
        · exact List.Sublist.cons _ (ih _ _ _ _ _)
        · exact List.Sublist.cons₂ _ (ih _ _ _ _ _)
      · simp only [ho, if_false]
        exact List.Sublist.cons₂ _ (ih _ _ _ _ _)

/-- The loop of `enumerate_threshold_splits` with the optimization, from the offset `i` on:
the gain of the cut at an offset whose value differs from the value before it is at most the
gain of a cut that is reported, or, as long as `same_y` holds, the gain of the cut `a` from
which the run of samples of one class started. -/
theorem threshold_sweep_optimized (imp : List Nat → ℚ) (D : dataset) (v : Nat)
    (options : decision_tree_options) (hopt : options.optimization = true) (s : List Nat)
    (K first last : Nat) (hfirst : 1 ≤ first) (hlast : last ≤ s.length)
    (hrun_le : ∀ a b t, 1 ≤ a → b < s.length →
      (∀ k, a ≤ k → k < b → D.class_of (s.getD k 0) = D.class_of (s.getD a 0)) →
      a ≤ t → t ≤ b →
      gain imp (compute_class_counts D (s.take t) K) (compute_class_counts D (s.drop t) K) ≤
        max (gain imp (compute_class_counts D (s.take a) K) (compute_class_counts D (s.drop a) K))
          (gain imp (compute_class_counts D (s.take b) K)
            (compute_class_counts D (s.drop b) K))) :
    ∀ (n i : Nat) (D1 D2 : List Nat) (same_y : Bool) (a : Nat), first ≤ i → i + n = last →
    (if i ≠ first then incr D1 (D.class_of (s.getD (i - 1) 0)) else D1) =
      compute_class_counts D (s.take i) K →
    (if i ≠ first then decr D2 (D.class_of (s.getD (i - 1) 0)) else D2) =
      compute_class_counts D (s.drop i) K →
    (same_y = true → first ≤ a ∧ a < i ∧ 0 < n ∧
      (D.at (s.getD (i - 1) 0) v).eq (D.at (s.getD i 0) v) = false ∧
      ∀ k, a ≤ k → k ≤ i → D.class_of (s.getD k 0) = D.class_of (s.getD a 0)) →
    (same_y = true → ∃ j, i ≤ j ∧ j < i + n ∧
      (∃ r ∈ threshold_sweep D v options s first last n i D1 D2 same_y,
        r.D1_counts = compute_class_counts D (s.take j) K ∧
        r.D2_counts = compute_class_counts D (s.drop j) K) ∧
      ∀ k, a ≤ k → k < j → D.class_of (s.getD k 0) = D.class_of (s.getD a 0)) ∧
    ∀ j, i ≤ j → j < i + n → (D.at (s.getD (j - 1) 0) v).eq (D.at (s.getD j 0) v) = false →
      (∃ r ∈ threshold_sweep D v options s first last n i D1 D2 same_y,
        gain imp (compute_class_counts D (s.take j) K) (compute_class_counts D (s.drop j) K) ≤
          gain imp r.D1_counts r.D2_counts) ∨
      (same_y = true ∧
        gain imp (compute_class_counts D (s.take j) K) (compute_class_counts D (s.drop j) K) ≤
          gain imp (compute_class_counts D (s.take a) K)
            (compute_class_counts D (s.drop a) K)) := by
  intro n
  induction n with
  | zero =>
    intro i D1 D2 same_y a _ _ _ _ hinv
    refine ⟨fun hs => ?_, fun j h1 h2 => ?_⟩
    · have := (hinv hs).2.2.1
      omega
    · omega
  | succ n ih =>
    intro i D1 D2 same_y a hi hlen h1 h2 hinv
    have hnext1 : (if i + 1 ≠ first then
        incr (compute_class_counts D (s.take i) K) (D.class_of (s.getD (i + 1 - 1) 0))
        else compute_class_counts D (s.take i) K) =
        compute_class_counts D (s.take (i + 1)) K := by
      rw [if_pos (by omega), Nat.add_sub_cancel]
      exact compute_class_counts_take_succ D s i K (by omega)
    have hnext2 : (if i + 1 ≠ first then
        decr (compute_class_counts D (s.drop i) K) (D.class_of (s.getD (i + 1 - 1) 0))
        else compute_class_counts D (s.drop i) K) =
        compute_class_counts D (s.drop (i + 1)) K := by
      rw [if_pos (by omega), Nat.add_sub_cancel]
      exact compute_class_counts_drop_succ D s i K (by omega)
    simp only [threshold_sweep, hopt, if_true]
    rw [h1, h2]
    by_cases heq : (D.at (s.getD (i - 1) 0) v).eq (D.at (s.getD i 0) v) = true
    · -- no split between two equal values
      have hsy : same_y = false := by
        cases hs : same_y with
        | false => rfl
        | true =>
          have := (hinv hs).2.2.2.1
          rw [heq] at this
          exact absurd this (by decide)
      have hsn : ¬ same_y = true := by rw [hsy]; decide
      rw [if_pos heq]
      have hnew : (if (!(D.y (s.getD (i - 1) 0)).eq (D.y (s.getD i 0))) = true then false
          else same_y) = same_y := by
        rw [hsy]; simp
      rw [hnew]
      obtain ⟨_, ihC⟩ := ih (i + 1) _ _ same_y a (by omega) (by omega) hnext1 hnext2
        (fun h => absurd h hsn)
      refine ⟨fun h => absurd h hsn, fun j hj1 hj2 hc => ?_⟩
      by_cases hji : j = i
      · subst hji
        rw [heq] at hc
        exact absurd hc (by decide)
      · exact ihC j (by omega) (by omega) hc
    · have hcand : (D.at (s.getD (i - 1) 0) v).eq (D.at (s.getD i 0) v) = false := by
        simpa using heq
      rw [if_neg heq]
      obtain ⟨nsy, hnsy⟩ : ∃ nsy, (decide (i + 1 ≠ last) && (D.y (s.getD i 0)).eq
          (D.y (s.getD (i + 1) 0)) && !(D.at (s.getD i 0) v).eq (D.at (s.getD (i + 1) 0) v)) = nsy :=
        ⟨_, rfl⟩
      rw [hnsy]
      have hnsy_inv : nsy = true → first ≤ i ∧ i < i + 1 ∧ 0 < n ∧
          (D.at (s.getD (i + 1 - 1) 0) v).eq (D.at (s.getD (i + 1) 0) v) = false ∧
          D.class_of (s.getD (i + 1) 0) = D.class_of (s.getD i 0) := by
        intro h
        rw [← hnsy] at h
        simp only [Bool.and_eq_true, decide_eq_true_eq, Bool.not_eq_true'] at h
        refine ⟨hi, by omega, by omega, ?_, ?_⟩
        · rw [Nat.add_sub_cancel]; exact h.2
        · exact (class_of_eq_of_y_eq D _ _ h.1.2).symm
      by_cases hs : same_y = true
      · obtain ⟨ha1, ha2, _, _, hcls⟩ := hinv hs
        by_cases hn : nsy = true
        · -- the candidate is skipped
          rw [if_pos (by rw [hs, hn]; rfl)]
          obtain ⟨_, _, hn0, hc1, hc2⟩ := hnsy_inv hn
          obtain ⟨ihB, ihC⟩ := ih (i + 1) _ _ same_y a (by omega) (by omega) hnext1 hnext2
            (fun _ => ⟨ha1, by omega, hn0, hc1, fun k hk1 hk2 => by
              by_cases hki : k = i + 1
              · rw [hki, hc2]; exact hcls i (by omega) (le_refl _)
              · exact hcls k hk1 (by omega)⟩)
          obtain ⟨j2, hj1, hj2, ⟨r, hr, hr1, hr2⟩, hrun⟩ := ihB hs
          refine ⟨fun _ => ⟨j2, by omega, by omega, ⟨r, hr, hr1, hr2⟩, hrun⟩,
            fun j hj3 hj4 hc => ?_⟩
          by_cases hji : j = i
          · subst hji
            have hle := hrun_le a j2 j (by omega) (by omega) hrun (by omega) (by omega)
            rcases le_max_iff.1 hle with hle | hle
            · exact Or.inr ⟨hs, hle⟩
            · exact Or.inl ⟨r, hr, by rw [hr1, hr2]; exact hle⟩
          · exact ihC j (by omega) (by omega) hc
        · have hn2 : nsy = false := by simpa using hn
          rw [if_neg (by rw [hs, hn2]; decide)]
          obtain ⟨_, ihC⟩ := ih (i + 1) _ _ nsy a (by omega) (by omega) hnext1 hnext2
            (fun h => absurd h hn)
          refine ⟨fun _ => ⟨i, le_refl _, by omega, ⟨_, List.mem_cons_self _ _, rfl, rfl⟩,
            fun k hk1 hk2 => hcls k hk1 (by omega)⟩, fun j hj3 hj4 hc => ?_⟩
          by_cases hji : j = i
          · subst hji
            exact Or.inl ⟨_, List.mem_cons_self _ _, le_refl _⟩
          · rcases ihC j (by omega) (by omega) hc with ⟨r, hr, hle⟩ | ⟨hf, _⟩
            · exact Or.inl ⟨r, List.mem_cons_of_mem _ hr, hle⟩
            · exact absurd hf hn
      · have hs2 : same_y = false := by simpa using hs
        rw [if_neg (by rw [hs2]; simp)]
        obtain ⟨_, ihC⟩ := ih (i + 1) _ _ nsy i (by omega) (by omega) hnext1 hnext2
          (fun h => by
            obtain ⟨q1, q2, q3, q4, q5⟩ := hnsy_inv h
            refine ⟨q1, q2, q3, q4, fun k hk1 hk2 => ?_⟩
            by_cases hki : k = i + 1
            · rw [hki, q5]
            · rw [show k = i by omega])
        refine ⟨fun h => absurd h hs, fun j hj3 hj4 hc => ?_⟩
        by_cases hji : j = i
        · subst hji
          exact Or.inl ⟨_, List.mem_cons_self _ _, le_refl _⟩
        · rcases ihC j (by omega) (by omega) hc with ⟨r, hr, hle⟩ | ⟨_, hle⟩
          · exact Or.inl ⟨r, List.mem_cons_of_mem _ hr, hle⟩
          · exact Or.inl ⟨_, List.mem_cons_self _ _, hle⟩

theorem best_gain_foldl (gain0 : List Nat → List Nat → ℚ) (lowest : ℚ) :
    ∀ (reports : List split_report) (best : ℚ × splitting_criterion),
    (reports.foldl (best_split_update
      (gain_function.mk gain0 (fun a b => decide (a > b)) lowest)) best).1 =
      reports.foldl (fun m r => max m (gain0 r.D1_counts r.D2_counts)) best.1 := by
  intro reports
  induction reports with
  | nil => intro best; rfl
  | cons r reports ih =>
    intro best
    simp only [List.foldl_cons]
    rw [ih]
    congr 1
    simp only [best_split_update]
    by_cases h : gain0 r.D1_counts r.D2_counts > best.1
    · simp only [h, decide_True, if_true]
      exact (max_eq_right (le_of_lt h)).symm
    · simp only [h, decide_False, Bool.false_eq_true, if_false]
      exact (max_eq_left (not_lt.1 h)).symm

theorem foldl_max_le_iff {α : Type} (f : α → ℚ) : ∀ (l : List α) (m x : ℚ),
    l.foldl (fun m r => max m (f r)) m ≤ x ↔ m ≤ x ∧ ∀ r ∈ l, f r ≤ x := by
  intro l
  induction l with
  | nil => intro m x; simp
  | cons r l ih =>
    intro m x
    simp only [List.foldl_cons, ih, max_le_iff, List.mem_cons, forall_eq_or_imp]
    tauto

/-- Two lists of candidates of which the first is part of the second, and holds for every
candidate of the second one that is at least as good, give the same best score. -/
theorem foldl_max_eq_of_dominated {α : Type} (f : α → ℚ) (l1 l2 : List α) (m : ℚ)
    (hsub : ∀ r ∈ l1, r ∈ l2) (hdom : ∀ r ∈ l2, ∃ r2 ∈ l1, f r ≤ f r2) :
    l1.foldl (fun m r => max m (f r)) m = l2.foldl (fun m r => max m (f r)) m := by
  apply le_antisymm
  · rw [foldl_max_le_iff]
    have h2 := (foldl_max_le_iff f l2 m _).1 (le_refl _)
    exact ⟨h2.1, fun r hr => h2.2 r (hsub r hr)⟩
  · rw [foldl_max_le_iff]
    have h1 := (foldl_max_le_iff f l1 m _).1 (le_refl _)
    refine ⟨h1.1, fun r hr => ?_⟩
    obtain ⟨r2, hr2, hle⟩ := hdom r hr
    exact le_trans hle (h1.2 r2 hr2)

/-- The optimization of `enumerate_threshold_splits` in exact arithmetic: the reports with the
optimization are reports of the run without it, every report of the run without it has a
gain that is at most the gain of a report of the run with it, and the best score is the
same. -/
theorem threshold_splits_optimization_exact (log2 : ℚ → ℚ)
    (hlog : ConvexOn ℚ (Set.Ioi (0 : ℚ)) (fun x => x * log2 x)) (imp : impurity_measure)
    (D : dataset) (I : List Nat) (v : Nat) (options : decision_tree_options) (K : Nat)
    (lowest : ℚ) (hmsl : 1 ≤ options.min_samples_leaf)
    (hm : ∀ i ∈ I, is_missing (D.at i v) = false) (hK : ∀ i ∈ I, D.class_of i < K) :
    (enumerate_threshold_splits D I v { options with optimization := true } K).1 =
      (enumerate_threshold_splits D I v { options with optimization := false } K).1 ∧
    (enumerate_threshold_splits D I v { options with optimization := true } K).2.Sublist
      (enumerate_threshold_splits D I v { options with optimization := false } K).2 ∧
    (∀ r ∈ (enumerate_threshold_splits D I v { options with optimization := false } K).2,
      ∃ r2 ∈ (enumerate_threshold_splits D I v { options with optimization := true } K).2,
        gain (impurity log2 imp) r.D1_counts r.D2_counts ≤
          gain (impurity log2 imp) r2.D1_counts r2.D2_counts) ∧
    ((enumerate_threshold_splits D I v { options with optimization := true } K).2.foldl
      (best_split_update
        (gain_function.mk (gain (impurity log2 imp)) (fun a b => decide (a > b)) lowest)) (lowest, .monostate)).1 =
    ((enumerate_threshold_splits D I v { options with optimization := false } K).2.foldl
      (best_split_update
        (gain_function.mk (gain (impurity log2 imp)) (fun a b => decide (a > b)) lowest)) (lowest, .monostate)).1 := by
  obtain ⟨o1, ho1⟩ : ∃ o1 : decision_tree_options, o1 = { options with optimization := true } :=
    ⟨_, rfl⟩
  obtain ⟨o2, ho2⟩ : ∃ o2 : decision_tree_options, o2 = { options with optimization := false } :=
    ⟨_, rfl⟩
  rw [← ho1, ← ho2]
  have hopt1 : o1.optimization = true := by rw [ho1]
  have hopt2 : o2.optimization = false := by rw [ho2]
  have hmsl1 : o1.min_samples_leaf = options.min_samples_leaf := by rw [ho1]
  have hmsl2 : o2.min_samples_leaf = options.min_samples_leaf := by rw [ho2]
  have hs1 : sort_range D I v o1 = sort_range D I v options := by rw [ho1]; rfl
  have hs2 : sort_range D I v o2 = sort_range D I v options := by rw [ho2]; rfl
  obtain ⟨s, hsdef⟩ : ∃ s, s = (sort_range D I v options).1 := ⟨_, rfl⟩
  have hperm : s.Perm I := by rw [hsdef]; exact sort_range_perm D I v options
  obtain ⟨hend, _⟩ := sort_range_sorted D I v options hm
  have hend2 : (sort_range D I v options).2 = s.length := by rw [hend, hperm.length_eq]
  have hKs : ∀ i ∈ s, D.class_of i < K := fun i hi => hK i (hperm.subset hi)
  have hfst : (enumerate_threshold_splits D I v o1 K).1 =
      (enumerate_threshold_splits D I v o2 K).1 := by
    rw [enumerate_threshold_splits_fst, enumerate_threshold_splits_fst, hs1, hs2]
  have hmain : (enumerate_threshold_splits D I v o1 K).2.Sublist
      (enumerate_threshold_splits D I v o2 K).2 ∧
      (∀ r ∈ (enumerate_threshold_splits D I v o2 K).2,
        ∃ r2 ∈ (enumerate_threshold_splits D I v o1 K).2,
          gain (impurity log2 imp) r.D1_counts r.D2_counts ≤
            gain (impurity log2 imp) r2.D1_counts r2.D2_counts) := by
    unfold enumerate_threshold_splits
    simp only [hs1, hs2, hmsl1, hmsl2, ← hsdef, hend2]
    by_cases hsmall : s.length + 1 ≤ options.min_samples_leaf + options.min_samples_leaf
    · simp only [hsmall, if_true]
      exact ⟨List.Sublist.refl _, fun r hr => by simp at hr⟩
    · simp only [hsmall, if_false]
      refine ⟨threshold_sweep_sublist D v o1 o2 hopt2 s _ _ _ _ _ _ _ _, ?_⟩
      have hd : (s.take s.length).drop options.min_samples_leaf =
          s.drop options.min_samples_leaf := by rw [List.take_length]
      rw [hd]
      have hspec := threshold_sweep_spec D v o2 hopt2 s K options.min_samples_leaf
        (s.length + 1 - options.min_samples_leaf)
        (s.length + 1 - options.min_samples_leaf - options.min_samples_leaf)
        options.min_samples_leaf (compute_class_counts D (s.take options.min_samples_leaf) K)
        (compute_class_counts D (s.drop options.min_samples_leaf) K) false (le_refl _)
        (by omega) (by simp) (by simp)
      rw [hspec]
      intro r hr
      obtain ⟨j, hj, hrj⟩ := List.mem_map.1 hr
      obtain ⟨hj1, hj2⟩ := List.mem_filter.1 hj
      obtain ⟨hj3, hj4⟩ := List.mem_range'_1.1 hj1
      have hopt := threshold_sweep_optimized (impurity log2 imp) D v o1 hopt1 s K
        options.min_samples_leaf (s.length + 1 - options.min_samples_leaf) hmsl (by omega)
        (fun a b t h1 h2 h3 h4 h5 => gain_run_le log2 hlog imp D s K a b hKs h1 h2 h3 t h4 h5)
        (s.length + 1 - options.min_samples_leaf - options.min_samples_leaf)
        options.min_samples_leaf (compute_class_counts D (s.take options.min_samples_leaf) K)
        (compute_class_counts D (s.drop options.min_samples_leaf) K) false 0 (le_refl _)
        (by omega) (by simp) (by simp) (fun h => absurd h (by decide))
      rcases hopt.2 j hj3 hj4 (by simpa using hj2) with ⟨r2, hr2, hle⟩ | ⟨hf, _⟩
      · refine ⟨r2, hr2, ?_⟩
        rw [← hrj]
        exact hle
      · exact absurd hf (by decide)
  refine ⟨hfst, hmain.1, hmain.2, ?_⟩
  rw [best_gain_foldl, best_gain_foldl]
  exact foldl_max_eq_of_dominated _ _ _ _ (fun r hr => hmain.1.subset hr) hmain.2

/-- The score of a report on doubles as a number: a NaN counts as `m0`. -/
theorem binary64.best_score_foldl (gain0 : List Nat → List Nat → Value) (m0 : ℚ) :
    ∀ (reports : List split_report) (best : ℚ) (c : splitting_criterion), m0 ≤ best →
    (reports.foldl (best_split_update
      (gain_function.mk gain0 (fun a b => b.lt a) (.num m0))) (.num best, c)).1 =
      .num (reports.foldl (fun m r => max m
        (match gain0 r.D1_counts r.D2_counts with
          | .num q => q
          | .nan => m0)) best) := by
  intro reports
  induction reports with
  | nil => intro best c _; rfl
  | cons r reports ih =>
    intro best c hb
    simp only [List.foldl_cons]
    cases hs : gain0 r.D1_counts r.D2_counts with
    | nan =>
      have hstep : best_split_update (gain_function.mk gain0 (fun a b => b.lt a) (.num m0))
          (.num best, c) r = (.num best, c) := by
        simp [best_split_update, hs, Value.lt]
      rw [hstep, ih best c hb, max_eq_left hb]
    | num q =>
      by_cases h : best < q
      · have hstep : best_split_update (gain_function.mk gain0 (fun a b => b.lt a) (.num m0))
            (.num best, c) r = (.num q, r.split) := by
          simp [best_split_update, hs, Value.lt, h]
        rw [hstep, ih q _ (le_trans hb (le_of_lt h)), max_eq_right (le_of_lt h)]
      · have hstep : best_split_update (gain_function.mk gain0 (fun a b => b.lt a) (.num m0))
            (.num best, c) r = (.num best, c) := by
          simp [best_split_update, hs, Value.lt, h]
        rw [hstep, ih best c hb, max_eq_left (not_lt.1 h)]

/-- The best score on doubles of a part of the reports is at most the best score of all
reports. -/
theorem binary64.best_gain_sublist (gain0 : List Nat → List Nat → Value)
    (l1 l2 : List split_report) (h : l1.Sublist l2) :
    ∃ q1 q2 : ℚ,
      (l1.foldl (best_split_update (binary64.gain_function gain0))
        ((binary64.gain_function gain0).lowest, .monostate)).1 = .num q1 ∧
      (l2.foldl (best_split_update (binary64.gain_function gain0))
        ((binary64.gain_function gain0).lowest, .monostate)).1 = .num q2 ∧ q1 ≤ q2 := by
  refine ⟨_, _, binary64.best_score_foldl gain0 double_lowest l1 double_lowest .monostate
    (le_refl _), binary64.best_score_foldl gain0 double_lowest l2 double_lowest .monostate
    (le_refl _), ?_⟩
  rw [foldl_max_le_iff]
  have h2 := (foldl_max_le_iff (fun r : split_report =>
    match gain0 r.D1_counts r.D2_counts with
      | .num q => q
      | .nan => double_lowest) l2 double_lowest _).1 (le_refl _)
  exact ⟨h2.1, fun r hr => h2.2 r (h.subset hr)⟩

/-- Claim C24, amended: for a range `I` without missing values of the variable `v`, classes
below the size `K` of the count vectors and `min_samples_leaf >= 1`,
`enumerate_threshold_splits` with the optimization leaves the range as without it and its
reports are reports of the run without the optimization, in the same order; for every gain
on doubles the best score that `learn_decision_tree` computes from the reports with the
optimization is a number that is at most the best score without it. In exact arithmetic, for
each of the three impurity measures (for the entropy `x * log2(x)` is asked to be convex on
the positive numbers), every report of the run without the optimization has a gain that is
at most the gain of a report of the run with it, and the best score is the same. -/
theorem enumerate_threshold_splits_optimization (log2 : ℚ → ℚ)
    (hlog : ConvexOn ℚ (Set.Ioi (0 : ℚ)) (fun x => x * log2 x)) (imp : impurity_measure)
    (D : dataset) (I : List Nat) (v : Nat) (options : decision_tree_options) (K : Nat)
    (lowest : ℚ) (hmsl : 1 ≤ options.min_samples_leaf)
    (hm : ∀ i ∈ I, is_missing (D.at i v) = false) (hK : ∀ i ∈ I, D.class_of i < K) :
    (enumerate_threshold_splits D I v { options with optimization := true } K).1 =
      (enumerate_threshold_splits D I v { options with optimization := false } K).1 ∧
    (enumerate_threshold_splits D I v { options with optimization := true } K).2.Sublist
      (enumerate_threshold_splits D I v { options with optimization := false } K).2 ∧
    (∀ gain0 : List Nat → List Nat → Value, ∃ q1 q2 : ℚ,
      ((enumerate_threshold_splits D I v { options with optimization := true } K).2.foldl
        (best_split_update (binary64.gain_function gain0))
        ((binary64.gain_function gain0).lowest, .monostate)).1 = .num q1 ∧
      ((enumerate_threshold_splits D I v { options with optimization := false } K).2.foldl
        (best_split_update (binary64.gain_function gain0))
        ((binary64.gain_function gain0).lowest, .monostate)).1 = .num q2 ∧ q1 ≤ q2) ∧
    (∀ r ∈ (enumerate_threshold_splits D I v { options with optimization := false } K).2,
      ∃ r2 ∈ (enumerate_threshold_splits D I v { options with optimization := true } K).2,
        gain (impurity log2 imp) r.D1_counts r.D2_counts ≤
          gain (impurity log2 imp) r2.D1_counts r2.D2_counts) ∧
    ((enumerate_threshold_splits D I v { options with optimization := true } K).2.foldl
      (best_split_update
        (gain_function.mk (gain (impurity log2 imp)) (fun a b => decide (a > b)) lowest)) (lowest, .monostate)).1 =
    ((enumerate_threshold_splits D I v { options with optimization := false } K).2.foldl
      (best_split_update
        (gain_function.mk (gain (impurity log2 imp)) (fun a b => decide (a > b)) lowest)) (lowest, .monostate)).1 := by
  obtain ⟨h1, h2, h3, h4⟩ :=
    threshold_splits_optimization_exact log2 hlog imp D I v options K lowest hmsl hm hK
  exact ⟨h1, h2, fun gain0 => binary64.best_gain_sublist gain0 _ _ h2, h3, h4⟩

theorem convex_mul_pred : ConvexOn ℚ (Set.Ioi (0 : ℚ)) (fun x => x * (x - 1)) := by
  have h1 : ConvexOn ℚ (Set.Ioi (0 : ℚ)) (fun x : ℚ => x ^ 2) :=
    (Even.convexOn_pow (by decide : Even 2)).subset (Set.subset_univ _) (convex_Ioi 0)
  have h2 : ConcaveOn ℚ (Set.Ioi (0 : ℚ)) (fun x : ℚ => x) :=
    ⟨convex_Ioi 0, fun x _ y _ a b _ _ _ => le_refl _⟩
  have h3 := h1.sub h2
  refine h3.congr ?_
  intro x _
  simp only [Pi.sub_apply]
  ring

theorem enumerate_threshold_splits_optimization_witness :
    ConvexOn ℚ (Set.Ioi (0 : ℚ)) (fun x => x * (fun y : ℚ => y - 1) x) ∧
    1 ≤ default_options.min_samples_leaf ∧
    (∀ i ∈ [0, 1, 2, 3, 4], is_missing (run_dataset.at i 0) = false) ∧
    (∀ i ∈ [0, 1, 2, 3, 4], run_dataset.class_of i < 2) ∧
    ((enumerate_threshold_splits run_dataset [0, 1, 2, 3, 4] 0
        { default_options with optimization := true } 2).1 =
      (enumerate_threshold_splits run_dataset [0, 1, 2, 3, 4] 0
        { default_options with optimization := false } 2).1 ∧
    (enumerate_threshold_splits run_dataset [0, 1, 2, 3, 4] 0
        { default_options with optimization := true } 2).2.Sublist
      (enumerate_threshold_splits run_dataset [0, 1, 2, 3, 4] 0
        { default_options with optimization := false } 2).2 ∧
    (∀ gain0 : List Nat → List Nat → Value, ∃ q1 q2 : ℚ,
      ((enumerate_threshold_splits run_dataset [0, 1, 2, 3, 4] 0
          { default_options with optimization := true } 2).2.foldl
        (best_split_update (binary64.gain_function gain0))
        ((binary64.gain_function gain0).lowest, .monostate)).1 = .num q1 ∧
      ((enumerate_threshold_splits run_dataset [0, 1, 2, 3, 4] 0
          { default_options with optimization := false } 2).2.foldl
        (best_split_update (binary64.gain_function gain0))
        ((binary64.gain_function gain0).lowest, .monostate)).1 = .num q2 ∧ q1 ≤ q2) ∧
    (∀ r ∈ (enumerate_threshold_splits run_dataset [0, 1, 2, 3, 4] 0
        { default_options with optimization := false } 2).2,
      ∃ r2 ∈ (enumerate_threshold_splits run_dataset [0, 1, 2, 3, 4] 0
          { default_options with optimization := true } 2).2,
        gain (impurity (fun y : ℚ => y - 1) .entropy) r.D1_counts r.D2_counts ≤
          gain (impurity (fun y : ℚ => y - 1) .entropy) r2.D1_counts r2.D2_counts) ∧
    ((enumerate_threshold_splits run_dataset [0, 1, 2, 3, 4] 0
        { default_options with optimization := true } 2).2.foldl
      (best_split_update (gain_function.mk (gain (impurity (fun y : ℚ => y - 1) .entropy))
        (fun a b => decide (a > b)) (-1))) (-1, .monostate)).1 =
    ((enumerate_threshold_splits run_dataset [0, 1, 2, 3, 4] 0
        { default_options with optimization := false } 2).2.foldl
      (best_split_update (gain_function.mk (gain (impurity (fun y : ℚ => y - 1) .entropy))
        (fun a b => decide (a > b)) (-1))) (-1, .monostate)).1) :=
  ⟨convex_mul_pred, by decide, by decide, by decide,
    enumerate_threshold_splits_optimization (fun y : ℚ => y - 1) convex_mul_pred .entropy
      run_dataset [0, 1, 2, 3, 4] 0 default_options 2 (-1) (by decide) (by decide) (by decide)⟩

/-- Claim C24: on `optimization_dataset` (values 1 to 8, classes 0 except for the value 7)
with the misclassification gain on doubles, the best score without the optimization is
2^-55, at the threshold 3, and the best score with the optimization is 0, at the threshold
6: the candidate of the threshold 3 is skipped. In exact arithmetic the gain of every report
is 0. -/
theorem threshold_splits_optimization_rounded :
    (∀ i ∈ [0, 1, 2, 3, 4, 5, 6, 7], is_missing (optimization_dataset.at i 0) = false) ∧
    (enumerate_threshold_splits optimization_dataset [0, 1, 2, 3, 4, 5, 6, 7] 0
        { default_options with optimization := false } 2).2.foldl
      (best_split_update (binary64.gain_function (binary64.gain binary64.mis_classification)))
      ((binary64.gain_function (binary64.gain binary64.mis_classification)).lowest,
        .monostate) = (.num (1 / 2 ^ 55), .threshold ⟨0, .num 3⟩) ∧
    (enumerate_threshold_splits optimization_dataset [0, 1, 2, 3, 4, 5, 6, 7] 0
        { default_options with optimization := true } 2).2.foldl
      (best_split_update (binary64.gain_function (binary64.gain binary64.mis_classification)))
      ((binary64.gain_function (binary64.gain binary64.mis_classification)).lowest,
        .monostate) = (.num 0, .threshold ⟨0, .num 6⟩) ∧
    (Value.num 0).lt (.num (1 / 2 ^ 55)) = true ∧
    (∀ r ∈ (enumerate_threshold_splits optimization_dataset [0, 1, 2, 3, 4, 5, 6, 7] 0
        { default_options with optimization := false } 2).2,
      gain mis_classification r.D1_counts r.D2_counts = 0) := by
  decide!

/-- The run of `enumerate_threshold_splits` on `run_dataset`: without the optimization the
thresholds 2, 3, 4 and 5 are reported, with it the threshold 3 is left out; the best gini
gain is 8/25 with the threshold 5 in both runs. -/
theorem run_dataset_reports :
    ((enumerate_threshold_splits run_dataset [0, 1, 2, 3, 4] 0
      { default_options with optimization := false } 2).2.map (fun r => r.split)) =
      [.threshold ⟨0, .num 2⟩, .threshold ⟨0, .num 3⟩, .threshold ⟨0, .num 4⟩,
        .threshold ⟨0, .num 5⟩] ∧
    ((enumerate_threshold_splits run_dataset [0, 1, 2, 3, 4] 0
      { default_options with optimization := true } 2).2.map (fun r => r.split)) =
      [.threshold ⟨0, .num 2⟩, .threshold ⟨0, .num 4⟩, .threshold ⟨0, .num 5⟩] ∧
    (enumerate_threshold_splits run_dataset [0, 1, 2, 3, 4] 0
      { default_options with optimization := true } 2).2.foldl (best_split_update gini_gain)
      (gini_gain.lowest, .monostate) = (8 / 25, .threshold ⟨0, .num 5⟩) ∧
    (enumerate_threshold_splits run_dataset [0, 1, 2, 3, 4] 0
      { default_options with optimization := false } 2).2.foldl (best_split_update gini_gain)
      (gini_gain.lowest, .monostate) = (8 / 25, .threshold ⟨0, .num 5⟩) := by
  decide!



/-! ## `predict` and `decision_tree_predictor` -/

theorem tree_class_counts_getD (tree : binary_decision_tree) (I : List Nat) (K k : Nat)
    (hk : k < K) :
    (tree.compute_class_counts I K).getD k 0 = tree.count_class I k := by
  unfold binary_decision_tree.compute_class_counts binary_decision_tree.count_class
  rw [foldl_incr_getD _ _ _ _ (by simpa using hk)]
  rw [replicate_zero_getD, Nat.zero_add]

/-- The loop of `majority_class`: at the end the first `N` entries of `max_counts` are
classes with a maximal count. -/
theorem majority_loop_spec (counts : List Nat) (K : Nat) :
    ∀ (n j : Nat) (mc : List Nat) (N : Nat), j + n = K → 1 ≤ j → mc.length = K → 1 ≤ N →
    N ≤ j → (∀ k, k < j → counts.getD k 0 ≤ counts.getD (mc.getD 0 0) 0) →
    (∀ k, k < N → mc.getD k 0 < j ∧
      counts.getD (mc.getD k 0) 0 = counts.getD (mc.getD 0 0) 0) →
    1 ≤ (majority_loop counts n j mc N).2 ∧
    ∀ k, k < (majority_loop counts n j mc N).2 →
      (majority_loop counts n j mc N).1.getD k 0 < K ∧
      ∀ k2, k2 < K →
        counts.getD k2 0 ≤ counts.getD ((majority_loop counts n j mc N).1.getD k 0) 0 := by
  intro n
  induction n with
  | zero =>
    intro j mc N hj _ _ hN _ hmax hent
    simp only [majority_loop]
    refine ⟨hN, fun k hk => ⟨by have := (hent k hk).1; omega, fun k2 hk2 => ?_⟩⟩
    rw [(hent k hk).2]
    exact hmax k2 (by omega)
  | succ n ih =>
    intro j mc N hj hj1 hlen hN hNj hmax hent
    simp only [majority_loop]
    by_cases h1 : counts.getD j 0 > counts.getD (mc.getD 0 0) 0
    · rw [if_pos h1]
      have e0 : (mc.set 0 j).getD 0 0 = j := getD_set_self _ _ _ _ (by omega)
      apply ih (j + 1) _ 1 (by omega) (by omega) (by simpa using hlen) (le_refl _) (by omega)
      · intro k hk
        rw [e0]
        by_cases hkj : k = j
        · rw [hkj]
        · exact le_trans (hmax k (by omega)) (le_of_lt h1)
      · intro k hk
        have : k = 0 := by omega
        rw [this, e0]
        exact ⟨by omega, rfl⟩
    · rw [if_neg h1]
      by_cases h2 : counts.getD j 0 = counts.getD (mc.getD 0 0) 0
      · rw [if_pos h2]
        have e0 : (mc.set N j).getD 0 0 = mc.getD 0 0 := getD_set_ne _ _ _ _ _ (by omega)
        apply ih (j + 1) _ (N + 1) (by omega) (by omega) (by simpa using hlen) (by omega)
          (by omega)
        · intro k hk
          rw [e0]
          by_cases hkj : k = j
          · rw [hkj, h2]
          · exact hmax k (by omega)
        · intro k hk
          rw [e0]
          by_cases hkN : k = N
          · rw [hkN, getD_set_self _ _ _ _ (by omega)]
            exact ⟨by omega, h2⟩
          · rw [getD_set_ne _ _ _ _ _ (fun h => hkN h.symm)]
            have := hent k (by omega)
            exact ⟨by omega, this.2⟩
      · rw [if_neg h2]
        apply ih (j + 1) _ N (by omega) (by omega) hlen hN (by omega)
        · intro k hk
          by_cases hkj : k = j
          · rw [hkj]; omega
          · exact hmax k (by omega)
        · intro k hk
          have := hent k hk
          exact ⟨by omega, this.2⟩

/-- The class that `majority_class` returns is below the number of classes and has a maximal
count among the samples of the range of the vertex, for a generator that answers between the
bounds it is given. -/
theorem majority_class_spec {ρ : Type} (random_integer : Nat → Nat → ρ → Nat × ρ)
    (hrand : ∀ lo hi rng, lo ≤ hi → lo ≤ (random_integer lo hi rng).1 ∧
      (random_integer lo hi rng).1 ≤ hi)
    (tree : binary_decision_tree) (u : vertex) (rng : ρ) (hK : 1 ≤ tree.class_count)
    (hy : ∀ i ∈ tree.range u, tree.classes.getD i 0 < tree.class_count) :
    (majority_class random_integer tree u rng).1 < tree.class_count ∧
    ∀ k, k < tree.class_count →
      tree.count_class (tree.range u) k ≤
        tree.count_class (tree.range u) (majority_class random_integer tree u rng).1 := by
  unfold majority_class
  simp only
  by_cases h1 : (tree.range u).length = 1
  · rw [if_pos h1]
    simp only
    obtain ⟨i, hi⟩ := List.length_eq_one.1 h1
    rw [hi] at hy ⊢
    simp only [List.headD_cons]
    refine ⟨hy i (List.mem_singleton_self i), fun k _ => ?_⟩
    unfold binary_decision_tree.count_class
    simp only [List.countP_cons, List.countP_nil, decide_True, if_true]
    split <;> omega
  · rw [if_neg h1]
    simp only
    obtain ⟨K, hKdef⟩ : ∃ K, tree.class_count = K := ⟨_, rfl⟩
    rw [hKdef] at hK hy ⊢
    have hspec := majority_loop_spec (tree.compute_class_counts (tree.range u) K) K (K - 1) 1
      ((List.replicate K 0).set 0 0) 1 (by omega) (le_refl _) (by simp) (le_refl _) (le_refl _)
      (fun k hk => by
        have : k = 0 := by omega
        rw [this, getD_set_self _ _ _ _ (by simpa using hK)])
      (fun k hk => by
        have : k = 0 := by omega
        rw [this, getD_set_self _ _ _ _ (by simpa using hK)]
        exact ⟨by omega, rfl⟩)
    obtain ⟨hN, hent⟩ := hspec
    have hr := hrand 0 ((majority_loop (tree.compute_class_counts (tree.range u) K) (K - 1) 1
      ((List.replicate K 0).set 0 0) 1).2 - 1) rng (Nat.zero_le _)
    obtain ⟨hc, hm⟩ := hent _ (lt_of_le_of_lt hr.2 (by omega))
    refine ⟨hc, fun k hk => ?_⟩
    rw [← tree_class_counts_getD tree _ K k hk, ← tree_class_counts_getD tree _ K _ hc]
    exact hm k hk

/-- On a tree whose children have greater indices than their parents and whose inner vertices
have a defined split, `execute_decision_tree` ends in a leaf, along the path that `select`
picks. -/
theorem execute_decision_tree_path (tree : binary_decision_tree) (x : List Value)
    (hch : children_above tree)
    (hdef : ∀ i, i < tree.vertices.length → (tree.find_vertex i).is_leaf = false →
      (tree.find_vertex i).split ≠ splitting_criterion.monostate) :
    ∀ (d ui : Nat), tree.vertices.length - ui ≤ d → ui < tree.vertices.length →
      ∃ leaf path, leaf < tree.vertices.length ∧ (tree.find_vertex leaf).is_leaf = true ∧
        List.Chain (descends tree x) ui path ∧ (ui :: path).getLast? = some leaf ∧
        ∀ fuel, d ≤ fuel → execute_decision_tree tree x fuel ui = some leaf := by
  intro d
  induction d with
  | zero => intro ui h1 h2; omega
  | succ d ih =>
    intro ui h1 h2
    by_cases hl : (tree.find_vertex ui).is_leaf = true
    · refine ⟨ui, [], h2, hl, List.Chain.nil, rfl, fun fuel hf => ?_⟩
      obtain ⟨f, rfl⟩ : ∃ f, fuel = f + 1 := ⟨fuel - 1, by omega⟩
      exact execute_decision_tree_leaf tree x f ui hl
    · have hl2 : (tree.find_vertex ui).is_leaf = false := by simpa using hl
      obtain ⟨c1, c2, c3, c4⟩ := hch ui h2 hl2
      obtain ⟨w, hw⟩ : ∃ w, w = (if select (tree.find_vertex ui).split x = 0 then
          (tree.find_vertex ui).left else (tree.find_vertex ui).right) := ⟨_, rfl⟩
      have hw1 : ui < w ∧ w < tree.vertices.length := by
        rw [hw]; split <;> omega
      obtain ⟨leaf, path, q1, q2, q3, q4, q5⟩ := ih w (by omega) hw1.2
      refine ⟨leaf, w :: path, q1, q2, List.Chain.cons ⟨hl2, hw⟩ q3, ?_, fun fuel hf => ?_⟩
      · rw [List.getLast?_cons_cons]; exact q4
      · obtain ⟨f, rfl⟩ : ∃ f, fuel = f + 1 := ⟨fuel - 1, by omega⟩
        rw [execute_decision_tree_inner tree x f ui hl2 (hdef ui h2 hl2), ← hw]
        exact q5 f (by omega)

/-- The loop of `visit_nodes_bfs` on a tree whose children have greater indices than their
parents: it ends, and the vertices visited hold the root and the children of every vertex
visited. The sum of `3 ^ (n - t)` over the queue decreases. -/
theorem visit_nodes_bfs_loop_reach (tree : binary_decision_tree) (hch : children_above tree)
    (hU : tree.vertices.length ≤ undefined_index) :
    ∀ (fuel : Nat) (st : bfs_state),
    (st.todo.map (fun t => 3 ^ (tree.vertices.length - t))).sum ≤ fuel →
    (∀ t ∈ st.todo, t < tree.vertices.length) →
    (∀ u ∈ st.out.map Prod.fst, u < tree.vertices.length ∧
      ((tree.find_vertex u).is_leaf = false →
        ((tree.find_vertex u).left ∈ st.out.map Prod.fst ∨ (tree.find_vertex u).left ∈ st.todo) ∧
        ((tree.find_vertex u).right ∈ st.out.map Prod.fst ∨
          (tree.find_vertex u).right ∈ st.todo))) →
    ∃ st2, visit_nodes_bfs_loop tree fuel st = some st2 ∧
      (∀ u ∈ st.out.map Prod.fst, u ∈ st2.out.map Prod.fst) ∧
      (∀ u ∈ st.todo, u ∈ st2.out.map Prod.fst) ∧
      ∀ u ∈ st2.out.map Prod.fst, u < tree.vertices.length ∧
        ((tree.find_vertex u).is_leaf = false →
          (tree.find_vertex u).left ∈ st2.out.map Prod.fst ∧
          (tree.find_vertex u).right ∈ st2.out.map Prod.fst) := by
  intro fuel
  induction fuel with
  | zero =>
    intro st hm ht hinv
    have hnil : st.todo = [] := by
      cases htodo : st.todo with
      | nil => rfl
      | cons t rest =>
        rw [htodo] at hm
        simp only [List.map_cons, List.sum_cons] at hm
        have : 0 < 3 ^ (tree.vertices.length - t) := by positivity
        omega
    refine ⟨st, by simp [visit_nodes_bfs_loop, hnil], fun u hu => hu,
      fun u hu => by rw [hnil] at hu; simp at hu, fun u hu => ?_⟩
    obtain ⟨h1, h2⟩ := hinv u hu
    refine ⟨h1, fun hl => ?_⟩
    obtain ⟨h3, h4⟩ := h2 hl
    rw [hnil] at h3 h4
    simp only [List.not_mem_nil, or_false] at h3 h4
    exact ⟨h3, h4⟩
  | succ fuel ih =>
    intro st hm ht hinv
    cases htodo : st.todo with
    | nil =>
      refine ⟨st, by simp [visit_nodes_bfs_loop, htodo], fun u hu => hu,
        fun u hu => by simp at hu, fun u hu => ?_⟩
      obtain ⟨h1, h2⟩ := hinv u hu
      refine ⟨h1, fun hl => ?_⟩
      obtain ⟨h3, h4⟩ := h2 hl
      rw [htodo] at h3 h4
      simp only [List.not_mem_nil, or_false] at h3 h4
      exact ⟨h3, h4⟩
    | cons ui rest =>
      rw [visit_nodes_bfs_loop_succ tree fuel st (by rw [htodo]; simp)]
      obtain ⟨s1, s2, _, _⟩ := visit_nodes_bfs_step_cons tree st ui rest htodo
      have hui : ui < tree.vertices.length := ht ui (by rw [htodo]; simp)
      rw [htodo] at hm hinv
      simp only [List.map_cons, List.sum_cons] at hm
      have hrest : ∀ t ∈ rest, t < tree.vertices.length := fun t h =>
        ht t (by rw [htodo]; exact List.mem_cons_of_mem _ h)
      have hp0 : 0 < 3 ^ (tree.vertices.length - ui) := by positivity
      by_cases hl : (tree.find_vertex ui).is_leaf = true
      · have hlr : (tree.find_vertex ui).left = undefined_index ∧
            (tree.find_vertex ui).right = undefined_index := by
          simpa [vertex.is_leaf] using hl
        rw [hlr.1, hlr.2] at s1
        simp only [ne_eq, not_true_eq_false, if_false] at s1
        obtain ⟨st2, r1, r2, r3, r4⟩ := ih (visit_nodes_bfs_step tree st)
          (by rw [s1]; omega) (by rw [s1]; exact hrest)
          (by
            rw [s1, s2]
            intro u hu
            simp only [List.map_append, List.map_cons, List.map_nil, List.mem_append,
              List.mem_singleton] at hu ⊢
            rcases hu with hu | hu
            · obtain ⟨h1, h2⟩ := hinv u hu
              refine ⟨h1, fun hlu => ?_⟩
              obtain ⟨h3, h4⟩ := h2 hlu
              simp only [List.mem_cons] at h3 h4
              constructor
              · rcases h3 with h3 | h3 | h3
                · exact Or.inl (Or.inl h3)
                · exact Or.inl (Or.inr h3)
                · exact Or.inr h3
              · rcases h4 with h4 | h4 | h4
                · exact Or.inl (Or.inl h4)
                · exact Or.inl (Or.inr h4)
                · exact Or.inr h4
            · rw [hu]
              exact ⟨hui, fun hlu => by rw [hl] at hlu; exact absurd hlu (by decide)⟩)
        refine ⟨st2, r1, fun u hu => r2 u (by rw [s2]; simp [hu]), fun u hu => ?_, r4⟩
        rcases List.mem_cons.1 hu with hu | hu
        · exact r2 u (by rw [s2, hu]; simp)
        · exact r3 u (by rw [s1]; exact hu)
      · have hl2 : (tree.find_vertex ui).is_leaf = false := by simpa using hl
        obtain ⟨c1, c2, c3, c4⟩ := hch ui hui hl2
        have hlu : (tree.find_vertex ui).left ≠ undefined_index := by omega
        have hru : (tree.find_vertex ui).right ≠ undefined_index := by omega
        simp only [hlu, hru, ne_eq, not_false_eq_true, if_true] at s1
        have hpow : 3 ^ (tree.vertices.length - (tree.find_vertex ui).left) +
            3 ^ (tree.vertices.length - (tree.find_vertex ui).right) <
            3 ^ (tree.vertices.length - ui) := by
          have e : tree.vertices.length - ui = (tree.vertices.length - ui - 1) + 1 := by omega
          have p1 : 3 ^ (tree.vertices.length - (tree.find_vertex ui).left) ≤
              3 ^ (tree.vertices.length - ui - 1) :=
            Nat.pow_le_pow_right (by norm_num) (by omega)
          have p2 : 3 ^ (tree.vertices.length - (tree.find_vertex ui).right) ≤
              3 ^ (tree.vertices.length - ui - 1) :=
            Nat.pow_le_pow_right (by norm_num) (by omega)
          have p3 : 0 < 3 ^ (tree.vertices.length - ui - 1) := by positivity
          rw [e, pow_succ]
          omega
        obtain ⟨st2, r1, r2, r3, r4⟩ := ih (visit_nodes_bfs_step tree st)
          (by
            rw [s1]
            simp only [List.map_append, List.map_cons, List.map_nil, List.sum_append,
              List.sum_cons, List.sum_nil]
            omega)
          (by
            rw [s1]
            intro t h
            simp only [List.mem_append, List.mem_singleton] at h
            rcases h with (h | h) | h
            · exact hrest t h
            · rw [h]; exact c3
            · rw [h]; exact c4)
          (by
            rw [s1, s2]
            intro u hu
            simp only [List.map_append, List.map_cons, List.map_nil, List.mem_append,
              List.mem_singleton] at hu ⊢
            rcases hu with hu | hu
            · obtain ⟨h1, h2⟩ := hinv u hu
              refine ⟨h1, fun hlu => ?_⟩
              obtain ⟨h3, h4⟩ := h2 hlu
              simp only [List.mem_cons] at h3 h4
              constructor
              · rcases h3 with h3 | h3 | h3
                · exact Or.inl (Or.inl h3)
                · exact Or.inl (Or.inr h3)
                · exact Or.inr (Or.inl (Or.inl h3))
              · rcases h4 with h4 | h4 | h4
                · exact Or.inl (Or.inl h4)
                · exact Or.inl (Or.inr h4)
                · exact Or.inr (Or.inl (Or.inl h4))
            · rw [hu]
              exact ⟨hui, fun _ => ⟨Or.inr (Or.inl (Or.inr rfl)), Or.inr (Or.inr rfl)⟩⟩)
        refine ⟨st2, r1, fun u hu => r2 u (by rw [s2]; simp [hu]), fun u hu => ?_, r4⟩
        rcases List.mem_cons.1 hu with hu | hu
        · exact r2 u (by rw [s2, hu]; simp)
        · exact r3 u (by rw [s1]; simp [hu])

theorem visit_nodes_bfs_reach (tree : binary_decision_tree) (hch : children_above tree)
    (hU : tree.vertices.length ≤ undefined_index) (hn : 0 < tree.vertices.length)
    (fuel : Nat) (hfuel : 3 ^ tree.vertices.length ≤ fuel) :
    ∃ out, visit_nodes_bfs tree fuel = some out ∧ 0 ∈ out.map Prod.fst ∧
      ∀ u ∈ out.map Prod.fst, u < tree.vertices.length ∧
        ((tree.find_vertex u).is_leaf = false →
          (tree.find_vertex u).left ∈ out.map Prod.fst ∧
          (tree.find_vertex u).right ∈ out.map Prod.fst) := by
  obtain ⟨st2, r1, _, r3, r4⟩ := visit_nodes_bfs_loop_reach tree hch hU fuel
    { todo := [0], depth := 0, level := 1, out := [] } (by simpa using hfuel)
    (by intro t ht; simp only [List.mem_singleton] at ht; omega)
    (by intro u hu; simp at hu)
  exact ⟨st2.out, by simp [visit_nodes_bfs, r1], r3 0 (by simp), r4⟩

theorem chain_descends_mem (tree : binary_decision_tree) (x : List Value) (S : List Nat)
    (hS : ∀ u ∈ S, (tree.find_vertex u).is_leaf = false →
      (tree.find_vertex u).left ∈ S ∧ (tree.find_vertex u).right ∈ S) :
    ∀ (path : List Nat) (ui leaf : Nat), ui ∈ S → List.Chain (descends tree x) ui path →
      (ui :: path).getLast? = some leaf → leaf ∈ S := by
  intro path
  induction path with
  | nil =>
    intro ui leaf hui _ hlast
    simp only [List.getLast?_singleton, Option.some.injEq] at hlast
    rw [← hlast]; exact hui
  | cons w path ih =>
    intro ui leaf hui hc hlast
    rw [List.getLast?_cons_cons] at hlast
    obtain ⟨⟨hl, hw⟩, hc2⟩ := List.chain_cons.1 hc
    refine ih w leaf ?_ hc2 hlast
    rw [hw]
    split
    · exact (hS ui hui hl).1
    · exact (hS ui hui hl).2

/-- The array `m_values` that the constructor of `decision_tree_predictor` fills: the entry
of a vertex that `visit_nodes_bfs` visits is a result of `majority_class` for the vertex. -/
theorem predictor_values {ρ : Type} (random_integer : Nat → Nat → ρ → Nat × ρ)
    (tree : binary_decision_tree) :
    ∀ (out : List (Nat × Nat)) (acc : List Nat × ρ) (S : Nat → Prop),
    acc.1.length = tree.vertices.length → (∀ c ∈ out, c.1 < tree.vertices.length) →
    (∀ u, S u → ∃ rng2, acc.1.getD u 0 =
      (majority_class random_integer tree (tree.find_vertex u) rng2).1 % 2 ^ 32) →
    ∀ u, S u ∨ u ∈ out.map Prod.fst → ∃ rng2,
      (out.foldl (fun (acc : List Nat × ρ) c =>
        ((acc.1.set c.1 ((majority_class random_integer tree (tree.find_vertex c.1) acc.2).1
            % 2 ^ 32)),
          (majority_class random_integer tree (tree.find_vertex c.1) acc.2).2)) acc).1.getD u 0 =
        (majority_class random_integer tree (tree.find_vertex u) rng2).1 % 2 ^ 32 := by
  intro out
  induction out with
  | nil =>
    intro acc S _ _ hS u hu
    simp only [List.map_nil, List.not_mem_nil, or_false] at hu
    exact hS u hu
  | cons c out ih =>
    intro acc S hlen hout hS u hu
    simp only [List.foldl_cons]
    apply ih _ (fun w => S w ∨ w = c.1) (by simpa using hlen)
      (fun c2 h2 => hout c2 (List.mem_cons_of_mem _ h2))
    · intro w hw
      by_cases hwc : w = c.1
      · refine ⟨acc.2, ?_⟩
        rw [hwc, getD_set_self _ _ _ _ (by rw [hlen]; exact hout c (List.mem_cons_self _ _))]
      · rcases hw with hw | hw
        · obtain ⟨rng2, h2⟩ := hS w hw
          exact ⟨rng2, by rw [getD_set_ne _ _ _ _ _ (fun h => hwc h.symm)]; exact h2⟩
        · exact absurd hw hwc
    · rcases hu with hu | hu
      · exact Or.inl (Or.inl hu)
      · simp only [List.map_cons, List.mem_cons] at hu
        rcases hu with hu | hu
        · exact Or.inl (Or.inr hu)
        · exact Or.inr hu

theorem range_subset_indices (tree : binary_decision_tree) (u : vertex) :
    ∀ i ∈ tree.range u, i ∈ tree.indices := by
  intro i hi
  unfold binary_decision_tree.range at hi
  exact List.mem_of_mem_take (List.mem_of_mem_drop hi)

/-- Claim C25: for a tree with at least one and at most `2^32 - 1` vertices, in which the
children of every vertex that is not a leaf have greater indices (inside the vertex array)
and its split is defined, with classes below the number of classes `K >= 1` (at most
`2^32`), and a generator `random_integer` that answers between its bounds, `predict(tree, x)`
returns for every sufficiently large bound on the iterations: `execute_decision_tree` goes
from the root along the children that `select` picks (left iff `select(split, x) = 0`) to a
leaf, and the class returned is below `K` and has a maximal count among the samples of the
leaf; when no leaf has two classes of maximal count, `decision_tree_predictor::predict`
returns the same class. -/
theorem predict_spec {ρ : Type} (random_integer : Nat → Nat → ρ → Nat × ρ)
    (hrand : ∀ lo hi rng, lo ≤ hi → lo ≤ (random_integer lo hi rng).1 ∧
      (random_integer lo hi rng).1 ≤ hi)
    (tree : binary_decision_tree) (x : List Value) (hn : 0 < tree.vertices.length)
    (hU : tree.vertices.length ≤ undefined_index) (hch : children_above tree)
    (hdef : ∀ i, i < tree.vertices.length → (tree.find_vertex i).is_leaf = false →
      (tree.find_vertex i).split ≠ splitting_criterion.monostate)
    (hK : 1 ≤ tree.class_count) (hK32 : tree.class_count ≤ 2 ^ 32)
    (hy : ∀ i ∈ tree.indices, tree.classes.getD i 0 < tree.class_count) :
    ∃ fuel0 leaf path, leaf < tree.vertices.length ∧ (tree.find_vertex leaf).is_leaf = true ∧
      List.Chain (descends tree x) 0 path ∧ (0 :: path).getLast? = some leaf ∧
      ∀ fuel, fuel0 ≤ fuel → ∀ rng : ρ,
        execute_decision_tree tree x fuel 0 = some leaf ∧
        ∃ c rng2, predict random_integer tree x rng fuel = some (c, rng2) ∧
          c < tree.class_count ∧
          (∀ k, k < tree.class_count →
            tree.count_class (tree.range (tree.find_vertex leaf)) k ≤
              tree.count_class (tree.range (tree.find_vertex leaf)) c) ∧
          ((∀ l, l < tree.vertices.length → (tree.find_vertex l).is_leaf = true →
              ∀ k1 k2, k1 < tree.class_count → k2 < tree.class_count →
              (∀ k, k < tree.class_count → tree.count_class (tree.range (tree.find_vertex l)) k ≤
                tree.count_class (tree.range (tree.find_vertex l)) k1) →
              (∀ k, k < tree.class_count → tree.count_class (tree.range (tree.find_vertex l)) k ≤
                tree.count_class (tree.range (tree.find_vertex l)) k2) → k1 = k2) →
            ∀ rng0 : ρ, ∃ m_values rng3,
              decision_tree_predictor.make random_integer tree rng0 fuel =
                some (m_values, rng3) ∧
              decision_tree_predictor.predict m_values tree x fuel = some c) := by
  obtain ⟨leaf, path, q1, q2, q3, q4, q5⟩ :=
    execute_decision_tree_path tree x hch hdef tree.vertices.length 0 (by omega) hn
  refine ⟨3 ^ tree.vertices.length, leaf, path, q1, q2, q3, q4, fun fuel hfuel rng => ?_⟩
  have hlt : tree.vertices.length < 3 ^ tree.vertices.length :=
    Nat.lt_pow_self (by norm_num) _
  have hex := q5 fuel (by omega)
  have hyl : ∀ (l : Nat), ∀ i ∈ tree.range (tree.find_vertex l),
      tree.classes.getD i 0 < tree.class_count :=
    fun l i hi => hy i (range_subset_indices tree _ i hi)
  have hspec := majority_class_spec random_integer hrand tree (tree.find_vertex leaf) rng hK
    (hyl leaf)
  refine ⟨hex, (majority_class random_integer tree (tree.find_vertex leaf) rng).1,
    (majority_class random_integer tree (tree.find_vertex leaf) rng).2, ?_, hspec.1, hspec.2,
    fun hnotie rng0 => ?_⟩
  · simp [predict, hex]
  · obtain ⟨out, o1, o2, o3⟩ := visit_nodes_bfs_reach tree hch hU hn fuel hfuel
    have hleaf : leaf ∈ out.map Prod.fst :=
      chain_descends_mem tree x (out.map Prod.fst) (fun u hu => (o3 u hu).2) path 0 leaf o2 q3 q4
    obtain ⟨rng2, hv⟩ := predictor_values random_integer tree out
      (List.replicate tree.vertices.length 0, rng0) (fun _ => False) (by simp)
      (fun c hc => (o3 c.1 (List.mem_map_of_mem _ hc)).1) (fun u hu => absurd hu id) leaf
      (Or.inr hleaf)
    have hspec2 := majority_class_spec random_integer hrand tree (tree.find_vertex leaf) rng2 hK
      (hyl leaf)
    have heq := hnotie leaf q1 q2 _ _ hspec2.1 hspec.1 hspec2.2 hspec.2
    refine ⟨_, _, by simp only [decision_tree_predictor.make, o1, Option.map_some']; rfl, ?_⟩
    simp only [decision_tree_predictor.predict, hex, Option.map_some']
    rw [hv, heq, Nat.mod_eq_of_lt (by omega)]

theorem mixed_tree_children_above : children_above mixed_tree := by
  unfold children_above
  decide!

theorem predict_spec_witness :
    (∀ lo hi (rng : Unit), lo ≤ hi → lo ≤ ((fun (lo _ : Nat) (s : Unit) => (lo, s)) lo hi rng).1 ∧
      ((fun (lo _ : Nat) (s : Unit) => (lo, s)) lo hi rng).1 ≤ hi) ∧
    0 < mixed_tree.vertices.length ∧ mixed_tree.vertices.length ≤ undefined_index ∧
    children_above mixed_tree ∧
    (∀ i, i < mixed_tree.vertices.length → (mixed_tree.find_vertex i).is_leaf = false →
      (mixed_tree.find_vertex i).split ≠ splitting_criterion.monostate) ∧
    1 ≤ mixed_tree.class_count ∧ mixed_tree.class_count ≤ 2 ^ 32 ∧
    (∀ i ∈ mixed_tree.indices, mixed_tree.classes.getD i 0 < mixed_tree.class_count) ∧
    ∃ fuel0 leaf path, leaf < mixed_tree.vertices.length ∧
      (mixed_tree.find_vertex leaf).is_leaf = true ∧
      List.Chain (descends mixed_tree [.num 4, .num 1, .num 1]) 0 path ∧
      (0 :: path).getLast? = some leaf ∧
      ∀ fuel, fuel0 ≤ fuel → ∀ rng : Unit,
        execute_decision_tree mixed_tree [.num 4, .num 1, .num 1] fuel 0 = some leaf ∧
        ∃ c rng2, predict (fun (lo _ : Nat) (s : Unit) => (lo, s)) mixed_tree
            [.num 4, .num 1, .num 1] rng fuel = some (c, rng2) ∧
          c < mixed_tree.class_count ∧
          (∀ k, k < mixed_tree.class_count →
            mixed_tree.count_class (mixed_tree.range (mixed_tree.find_vertex leaf)) k ≤
              mixed_tree.count_class (mixed_tree.range (mixed_tree.find_vertex leaf)) c) ∧
          ((∀ l, l < mixed_tree.vertices.length → (mixed_tree.find_vertex l).is_leaf = true →
              ∀ k1 k2, k1 < mixed_tree.class_count → k2 < mixed_tree.class_count →
              (∀ k, k < mixed_tree.class_count →
                mixed_tree.count_class (mixed_tree.range (mixed_tree.find_vertex l)) k ≤
                mixed_tree.count_class (mixed_tree.range (mixed_tree.find_vertex l)) k1) →
              (∀ k, k < mixed_tree.class_count →
                mixed_tree.count_class (mixed_tree.range (mixed_tree.find_vertex l)) k ≤
                mixed_tree.count_class (mixed_tree.range (mixed_tree.find_vertex l)) k2) →
              k1 = k2) →
            ∀ rng0 : Unit, ∃ m_values rng3,
              decision_tree_predictor.make (fun (lo _ : Nat) (s : Unit) => (lo, s)) mixed_tree rng0
                fuel = some (m_values, rng3) ∧
              decision_tree_predictor.predict m_values mixed_tree [.num 4, .num 1, .num 1]
                fuel = some c) :=
  ⟨fun lo hi _ h => ⟨le_refl lo, h⟩, by decide, by decide, mixed_tree_children_above,
    by decide!, by decide, by decide, by decide,
    predict_spec (fun (lo _ : Nat) (s : Unit) => (lo, s)) (fun lo hi _ h => ⟨le_refl lo, h⟩) mixed_tree
      [.num 4, .num 1, .num 1] (by decide) (by decide) mixed_tree_children_above (by decide!)
      (by decide) (by decide) (by decide)⟩

/-- The run of `predict` and of `decision_tree_predictor` on `mixed_tree`: the input
`(4, 1, 1)` ends in leaf 3, whose two samples are of class 1; no leaf has a tie, and the
array `m_values` is the same whatever the random numbers are. -/
theorem mixed_tree_predict :
    execute_decision_tree mixed_tree [.num 4, .num 1, .num 1] 5 0 = some 3 ∧
    predict (fun (lo _ : Nat) (s : Unit) => (lo, s)) mixed_tree [.num 4, .num 1, .num 1] () 5 =
      some (1, ()) ∧
    decision_tree_predictor.make (fun (lo _ : Nat) (s : Unit) => (lo, s)) mixed_tree () 5 =
      some ([0, 0, 1, 1, 0], ()) ∧
    decision_tree_predictor.make (fun (_ hi : Nat) (s : Unit) => (hi, s)) mixed_tree () 5 =
      some ([0, 0, 1, 1, 0], ()) ∧
    decision_tree_predictor.predict [0, 0, 1, 1, 0] mixed_tree [.num 4, .num 1, .num 1] 5 =
      some 1 ∧
    (∀ l, l < mixed_tree.vertices.length → (mixed_tree.find_vertex l).is_leaf = true →
      ∀ k1, k1 < mixed_tree.class_count → ∀ k2, k2 < mixed_tree.class_count →
      (∀ k, k < mixed_tree.class_count →
        mixed_tree.count_class (mixed_tree.range (mixed_tree.find_vertex l)) k ≤
        mixed_tree.count_class (mixed_tree.range (mixed_tree.find_vertex l)) k1) →
      (∀ k, k < mixed_tree.class_count →
        mixed_tree.count_class (mixed_tree.range (mixed_tree.find_vertex l)) k ≤
        mixed_tree.count_class (mixed_tree.range (mixed_tree.find_vertex l)) k2) →
      k1 = k2) := by
  refine ⟨by decide!, by decide!, by decide!, by decide!, by decide!, ?_⟩
  intro l hl
  have hl5 : l < 5 := hl
  interval_cases l <;> decide!

/-! ## The order of the indices after `apply_split` -/

/-- The side that the predicate of `apply_split` chooses for a sample: a sample for which it
is false has `select = 1`; a sample for which it is true has `select = 0`, or the value of
the split variable is missing and `support_missing_values` is set, in which case the side is
the random one. -/
theorem apply_split_pred_sides {ρ : Type} (eng : random_engine ρ) (D : dataset)
    (smv : Bool) (split : splitting_criterion) (h : split ≠ .monostate) (rng : ρ) (i : Nat) :
    ((apply_split_pred eng D smv split rng i).1 = true →
      select split (D.X.getD i []) = 0 ∨
      (smv = true ∧ is_missing (D.at i (split_variable split)) = true)) ∧
    ((apply_split_pred eng D smv split rng i).1 = false → select split (D.X.getD i []) = 1) := by
  have e : ∀ v, (D.X.getD i []).getD v Value.nan = D.at i v := fun v => rfl
  cases split with
  | monostate => exact absurd rfl h
  | single s =>
    simp only [select, e, split_variable]
    by_cases hc : (D.at i s.var).eq s.value = true
    · simp [apply_split_pred, hc]
    · by_cases hm : (smv && is_missing (D.at i s.var)) = true
      · have hm2 := hm
        simp only [Bool.and_eq_true] at hm2
        simp [apply_split_pred, hc, hm, hm2.1, hm2.2]
      · simp [apply_split_pred, hc, hm]
  | subset s =>
    simp only [select, e]
    by_cases hc : s.contains (D.at i s.var).to_size_t = true <;>
      simp [apply_split_pred, hc, is_missing]
  | threshold s =>
    simp only [select, e, split_variable]
    by_cases hc : (D.at i s.var).lt s.value = true
    · simp [apply_split_pred, hc]
    · by_cases hm : (smv && is_missing (D.at i s.var)) = true
      · have hm2 := hm
        simp only [Bool.and_eq_true] at hm2
        simp [apply_split_pred, hc, hm, hm2.1, hm2.2]
      · simp [apply_split_pred, hc, hm]

/-- Claim C26, amended: for either value of `support_missing_values`, `apply_split` is a
partition that is not stable. The returned left range followed by the returned right range
is a permutation of `I`; every index of the right range has `select(split, X[i]) = 1`; every
index of the left range has `select(split, X[i]) = 0`, or the value of the split variable is
missing and `support_missing_values` is set (such a sample is sent to a random side). When
`support_missing_values` is false or no value of the split variable is missing in `I`, the
left range is therefore a permutation of the indices of `I` with `select = 0` and the right
range a permutation of those with `select = 1`. The order inside the two ranges is the one
that `std::partition` leaves, which need not be the order that the indices had in `I`. -/
theorem apply_split_permutes {ρ : Type} (eng : random_engine ρ) (split : splitting_criterion)
    (D : dataset) (I : List Nat) (rng : ρ) (smv : Bool) (h : split ≠ .monostate) :
    ∃ I1 I2 rng2, apply_split eng split D I rng smv = some ((I1, I2), rng2) ∧
      (I1 ++ I2).Perm I ∧
      (∀ i ∈ I1, select split (D.X.getD i []) = 0 ∨
        (smv = true ∧ is_missing (D.at i (split_variable split)) = true)) ∧
      (∀ i ∈ I2, select split (D.X.getD i []) = 1) ∧
      ((smv = false ∨ ∀ i ∈ I, is_missing (D.at i (split_variable split)) = false) →
        I1.Perm (I.filter (fun i => decide (select split (D.X.getD i []) = 0))) ∧
        I2.Perm (I.filter (fun i => decide (select split (D.X.getD i []) = 1)))) := by
  have hp := std_partition_perm (apply_split_pred eng D smv split) I rng
  have hl : ∀ i ∈ (std_partition (apply_split_pred eng D smv split) I rng).1.1,
      select split (D.X.getD i []) = 0 ∨
        (smv = true ∧ is_missing (D.at i (split_variable split)) = true) := by
    intro i hi
    obtain ⟨s0, hs0⟩ := std_partition_left _ _ _ i hi
    exact (apply_split_pred_sides eng D smv split h s0 i).1 hs0
  have hr : ∀ i ∈ (std_partition (apply_split_pred eng D smv split) I rng).1.2,
      select split (D.X.getD i []) = 1 := by
    intro i hi
    obtain ⟨s0, hs0⟩ := std_partition_right _ _ _ i hi
    exact (apply_split_pred_sides eng D smv split h s0 i).2 hs0
  refine ⟨_, _, _, apply_split_some eng split D I rng smv h, hp, hl, hr, ?_⟩
  intro hcond
  have hl0 : ∀ i ∈ (std_partition (apply_split_pred eng D smv split) I rng).1.1,
      select split (D.X.getD i []) = 0 := by
    intro i hi
    rcases hl i hi with h0 | ⟨h1, h2⟩
    · exact h0
    · rcases hcond with hc | hc
      · rw [hc] at h1
        exact absurd h1 (by decide)
      · have := hc i (hp.subset (List.mem_append_left _ hi))
        rw [this] at h2
        exact absurd h2 (by decide)
  constructor
  · have := hp.filter (fun i => decide (select split (D.X.getD i []) = 0))
    rw [List.filter_append, filter_eq_self_of_all _ _ (fun i hi => by rw [hl0 i hi]; rfl),
      filter_eq_nil_of_none _ _ (fun i hi => by rw [hr i hi]; rfl), List.append_nil] at this
    exact this
  · have := hp.filter (fun i => decide (select split (D.X.getD i []) = 1))
    rw [List.filter_append, filter_eq_nil_of_none _ _ (fun i hi => by rw [hl0 i hi]; rfl),
      filter_eq_self_of_all _ _ (fun i hi => by rw [hr i hi]; rfl), List.nil_append] at this
    exact this

theorem apply_split_permutes_witness :
    splitting_criterion.threshold ⟨0, .num 2⟩ ≠ .monostate ∧
    ∃ I1 I2 rng2, apply_split const_engine (.threshold ⟨0, .num 2⟩) test_apply_split_dataset
        [0, 2, 1] () true = some ((I1, I2), rng2) ∧
      (I1 ++ I2).Perm [0, 2, 1] ∧
      I1.Perm ([0, 2, 1].filter (fun i => decide (select (.threshold ⟨0, .num 2⟩)
        (test_apply_split_dataset.X.getD i []) = 0))) ∧
      I2.Perm ([0, 2, 1].filter (fun i => decide (select (.threshold ⟨0, .num 2⟩)
        (test_apply_split_dataset.X.getD i []) = 1))) := by
  refine ⟨by decide, ?_⟩
  obtain ⟨I1, I2, rng2, h1, h2, -, -, h5⟩ := apply_split_permutes const_engine
    (.threshold ⟨0, .num 2⟩) test_apply_split_dataset [0, 2, 1] () true (by decide)
  exact ⟨I1, I2, rng2, h1, h2, h5 (Or.inr (by decide))⟩

/-- Claim C26: on the data of `test_apply_split` (column values 2, 1, 3, 2) the range
`0, 2, 1` is split by `threshold_split(0, 2)` into the left range `1` and the right range
`2, 0`: `std::partition` swaps the indices 0 and 1, so that 2 comes before 0 in the right
range, while 0 comes before 2 in `I`. A stable partition gives the right range `0, 2`. -/
theorem apply_split_not_stable :
    apply_split const_engine (.threshold ⟨0, .num 2⟩) test_apply_split_dataset [0, 2, 1] ()
      false = some (([1], [2, 0]), ()) ∧
    [0, 2, 1].filter (fun i => decide (select (.threshold ⟨0, .num 2⟩)
      (test_apply_split_dataset.X.getD i []) = 1)) = [0, 2] ∧
    ¬ ([2, 0] : List Nat).Sublist [0, 2, 1] := by
  decide!

/-! ## `mean_standard_deviation` and `fit_normal` on degenerate ranges -/

theorem binary64.standard_deviation_nonneg (lib : math_library)
    (hsqrt : ∀ v, (lib.sqrt v).lt (.num 0) = false) (D : dataset) (I : List Nat) (v : Nat) :
    (binary64.mean_standard_deviation lib D I v).2.lt (.num 0) = false := by
  unfold binary64.mean_standard_deviation
  simp only
  split
  · simp [Value.lt]
  · split
    · simp [Value.lt, double_min]
    · exact hsqrt _

theorem binary64.fit_normal_returns (lib : math_library)
    (hsqrt : ∀ v, (lib.sqrt v).lt (.num 0) = false) (D : dataset) (I : List Nat) (i : Nat)
    (ab : interval) (hab : ab.b.lt ab.a = false) :
    ∃ mu sigma, binary64.fit_normal lib D I i ab = some
      (pc_node.mk (.terminal i (if ab.is_maximal then .normal mu sigma
        else .truncated_normal mu sigma ab.a ab.b)) []) := by
  have hsig : (if I.isEmpty then (Value.num 0, Value.num 1)
      else binary64.mean_standard_deviation lib D I i).2.lt (.num 0) = false := by
    split
    · simp [Value.lt]
    · exact binary64.standard_deviation_nonneg lib hsqrt D I i
  unfold binary64.fit_normal
  simp only
  generalize (if I.isEmpty then (Value.num 0, Value.num 1)
      else binary64.mean_standard_deviation lib D I i) = ms at hsig
  refine ⟨ms.1, ms.2, ?_⟩
  cases hmax : ab.is_maximal <;> simp [hsig, hab]

/-- Three samples with the value 0.1: the sum 0.1 + 0.1 + 0.1 rounds to
0.30000000000000004 and the mean to 0.10000000000000002, the variance that is divided by
the count is positive (2^-112), and the standard deviation is the square root of it, not
`std::numeric_limits<double>::min()`: with a square root that is 1 on the positive numbers
the result is (0.10000000000000002, 1). -/
theorem mean_standard_deviation_rounded :
    binary64.sum [.num double_tenth, .num double_tenth, .num double_tenth] =
      .num (5404319552844596 / 2 ^ 54) ∧
    binary64.mean tenth_dataset [0, 1, 2] 0 = .num (7205759403792795 / 2 ^ 56) ∧
    (∀ lib : math_library, binary64.mean_standard_deviation lib tenth_dataset [0, 1, 2] 0 =
      if (lib.sqrt (.num (1 / 2 ^ 112))).eq (.num 0) then
        (.num (7205759403792795 / 2 ^ 56), .num double_min)
      else (.num (7205759403792795 / 2 ^ 56), lib.sqrt (.num (1 / 2 ^ 112)))) ∧
    binary64.mean_standard_deviation unit_sqrt_library tenth_dataset [0, 1, 2] 0 =
      (.num (7205759403792795 / 2 ^ 56), .num 1) := by
  have hv : ([0, 1, 2].map (fun i => tenth_dataset.at i 0)).filter (fun x => !is_missing x) =
      [.num double_tenth, .num double_tenth, .num double_tenth] := by decide!
  have hm : binary64.mean tenth_dataset [0, 1, 2] 0 = .num (7205759403792795 / 2 ^ 56) := by
    decide!
  have hvar : binary64.div ([Value.num double_tenth, .num double_tenth, .num double_tenth].foldl
      (fun (acc x_i : Value) => binary64.add acc (binary64.mul
        (binary64.sub x_i (.num (7205759403792795 / 2 ^ 56)))
        (binary64.sub x_i (.num (7205759403792795 / 2 ^ 56))))) (.num 0))
      (binary64.of_nat 3) = .num (1 / 2 ^ 112) := by decide!
  have hall : ∀ lib : math_library,
      binary64.mean_standard_deviation lib tenth_dataset [0, 1, 2] 0 =
      if (lib.sqrt (.num (1 / 2 ^ 112))).eq (.num 0) then
        (.num (7205759403792795 / 2 ^ 56), .num double_min)
      else (.num (7205759403792795 / 2 ^ 56), lib.sqrt (.num (1 / 2 ^ 112))) := by
    intro lib
    simp only [binary64.mean_standard_deviation, hv, hm, List.length_cons, List.length_nil]
    rw [if_neg (by decide)]
    exact congrArg (fun x => if (lib.sqrt x).eq (.num 0) then
      ((Value.num (7205759403792795 / 2 ^ 56), Value.num double_min))
      else (Value.num (7205759403792795 / 2 ^ 56), lib.sqrt x)) hvar
  refine ⟨by decide!, hm, hall, ?_⟩
  rw [hall]
  decide!

theorem isPrefixOf_append_false (p a rest : List Char)
    (h : (p.take a.length).isPrefixOf a = false) : p.isPrefixOf (a ++ rest) = false := by
  induction p generalizing a with
  | nil => simp at h
  | cons x p ih =>
    cases a with
    | nil => simp at h
    | cons y a =>
      simp only [List.length_cons, List.take_succ_cons, List.cons_append, List.isPrefixOf,
        Bool.and_eq_false_imp] at h ⊢
      intro hxy
      exact ih a (h hxy)

theorem parse_line_skip (lib : text_library)
    (hsw : ∀ s p, lib.starts_with s p = p.isPrefixOf s) (name rest : List Char)
    (st : circuit_parser_state)
    (hname : name = ("equal_to: ").toList ∨ name = ("not_equal_to: ").toList) :
    parse_line lib (name ++ rest) st = some st := by
  have key : ∀ p : List Char, (p.take name.length).isPrefixOf name = false →
      lib.starts_with (name ++ rest) p = false := by
    intro p h1
    rw [hsw]
    exact isPrefixOf_append_false p name rest h1
  unfold parse_line
  rcases hname with h | h <;> subst h
  all_goals
    rw [if_neg (by rw [key _ (by decide)]; simp)]
    rw [if_neg (by rw [key _ (by decide)]; simp)]
    rw [if_neg (by rw [key _ (by decide)]; simp)]
    rw [if_neg (by rw [key _ (by decide)]; simp)]
    rw [if_neg (by rw [key _ (by decide)]; simp)]
    rw [if_neg (by rw [key _ (by decide)]; simp)]
    rw [if_neg (by rw [key _ (by decide)]; simp)]
    rw [if_neg (by rw [key _ (by decide)]; simp)]
    rw [if_neg (by rw [key _ (by decide)]; simp)]
    rw [if_neg (by rw [key _ (by decide)]; simp)]
    rw [if_neg (by rw [key _ (by decide)]; simp)]
    rw [if_neg (by rw [key _ (by decide)]; simp)]
    rw [if_neg (by rw [key _ (by decide)]; simp)]
    rw [if_neg (by rw [key _ (by decide)]; simp)]

theorem parse_append (lib : text_library) : ∀ (pre post : List (List Char))
    (st : circuit_parser_state),
    circuit_parser_state.parse lib (pre ++ post) st =
      (circuit_parser_state.parse lib pre st).bind
        (circuit_parser_state.parse lib post) := by
  intro pre
  induction pre with
  | nil => intro post st; rfl
  | cons l pre ih =>
    intro post st
    simp only [List.cons_append, circuit_parser_state.parse]
    cases parse_line lib l st with
    | none => rfl
    | some st1 => simp only [Option.some_bind]; exact ih post st1

theorem save_equal_name (lib : text_library) (scope : Nat) (value : Value) (index : Nat)
    (successors : List Nat) :
    (∃ rest, pc_node_kind.save lib (.terminal scope (.equal value)) index successors =
      ("equal_to: ").toList ++ rest) ∧
    (∃ rest, pc_node_kind.save lib (.terminal scope (.not_equal value)) index successors =
      ("not_equal_to: ").toList ++ rest) := by
  constructor
  · exact ⟨_, by simp only [pc_node_kind.save, save_node]; simp [List.append_assoc]; rfl⟩
  · exact ⟨_, by simp only [pc_node_kind.save, save_node]; simp [List.append_assoc]; rfl⟩

/-- Claim C28: `save` writes the line of an `equal_node` with the name `equal_to` and the
line of a `not_equal_node` with the name `not_equal_to`, and `parse_line` looks for lines
that start with `equal:` and `not_equal:`. With a `starts_with` that compares the first
characters, `parse_line` passes over the line that `save` writes for such a node and leaves
the parser as it is, so the text read is read as the text without that line: the node is
not made and its entry of `vertices` stays null. -/
theorem parse_line_equal_to (lib : text_library)
    (hsw : ∀ s p, lib.starts_with s p = p.isPrefixOf s) (scope : Nat) (value : Value)
    (index : Nat) (successors : List Nat) (st : circuit_parser_state)
    (before after : List (List Char)) :
    parse_line lib (pc_node_kind.save lib (.terminal scope (.equal value)) index successors)
      st = some st ∧
    parse_line lib (pc_node_kind.save lib (.terminal scope (.not_equal value)) index
      successors) st = some st ∧
    circuit_parser_state.parse lib (before ++
      pc_node_kind.save lib (.terminal scope (.equal value)) index successors :: after) st =
      circuit_parser_state.parse lib (before ++ after) st ∧
    circuit_parser_state.parse lib (before ++
      pc_node_kind.save lib (.terminal scope (.not_equal value)) index successors :: after)
      st = circuit_parser_state.parse lib (before ++ after) st := by
  obtain ⟨⟨r1, h1⟩, ⟨r2, h2⟩⟩ := save_equal_name lib scope value index successors
  have e1 : ∀ st1, parse_line lib
      (pc_node_kind.save lib (.terminal scope (.equal value)) index successors) st1 =
      some st1 := by
    intro st1
    rw [h1]
    exact parse_line_skip lib hsw _ r1 st1 (Or.inl rfl)
  have e2 : ∀ st1, parse_line lib
      (pc_node_kind.save lib (.terminal scope (.not_equal value)) index successors) st1 =
      some st1 := by
    intro st1
    rw [h2]
    exact parse_line_skip lib hsw _ r2 st1 (Or.inr rfl)
  refine ⟨e1 st, e2 st, ?_, ?_⟩
  · rw [parse_append, parse_append]
    congr 1
    funext st1
    simp only [circuit_parser_state.parse, e1 st1, Option.some_bind]
  · rw [parse_append, parse_append]
    congr 1
    funext st1
    simp only [circuit_parser_state.parse, e2 st1, Option.some_bind]

theorem parse_line_equal_to_witness :
    (∀ s p, plain_text_library.starts_with s p = p.isPrefixOf s) ∧
    parse_line plain_text_library
      (pc_node_kind.save plain_text_library (.terminal 0 (.equal (.num 1))) 0 [])
      { category_counts := [2], vertices := [none], nodes := [] } =
      some { category_counts := [2], vertices := [none], nodes := [] } :=
  ⟨fun _ _ => rfl,
    (parse_line_equal_to plain_text_library (fun _ _ => rfl) 0 (.num 1) 0 []
      { category_counts := [2], vertices := [none], nodes := [] } [] []).1⟩

/-! ## The iterations of `learn_decision_tree` in detail -/

/-- What `split_vertex` computes: the reports of the enumeration on the range of the vertex
for the sampled variables, the best of them as kept by the callback, and the tree that
results. -/
theorem split_vertex_detail {ρ S : Type} (eng : random_engine ρ) (D : dataset)
    (options : decision_tree_options) (fam : split_family) (g : gain_function S)
    (tree : binary_decision_tree) (rng : ρ) (todo : List Nat) (depth ui : Nat)
    (res : binary_decision_tree × ρ × List Nat)
    (h : split_vertex eng D options fam g tree rng todo depth ui = some res)
    (hui : ui < tree.vertices.length)
    (hb : (tree.find_vertex ui).I_begin ≤ (tree.find_vertex ui).I_end)
    (he : (tree.find_vertex ui).I_end ≤ tree.indices.length) :
    ∃ (I' : List Nat) (reports : List split_report) (J : List Nat),
      fam.enumerate D options (tree.range (tree.find_vertex ui))
        (eng.sample (List.range D.feature_count)
          (min options.max_features D.feature_count) rng).1 = some (I', reports) ∧
      J.Perm (tree.range (tree.find_vertex ui)) ∧
      res.1.indices = write_range tree.indices (tree.find_vertex ui).I_begin
        (tree.find_vertex ui).I_end J ∧
      (((reports.foldl (best_split_update g) (g.lowest, splitting_criterion.monostate)).2 =
          splitting_criterion.monostate ∧ res.1.vertices = tree.vertices ∧ res.2.2 = todo) ∨
       ((reports.foldl (best_split_update g) (g.lowest, splitting_criterion.monostate)).2 ≠
          splitting_criterion.monostate ∧
        ∃ mid, (tree.find_vertex ui).I_begin ≤ mid ∧ mid ≤ (tree.find_vertex ui).I_end ∧
        res.1.vertices = (tree.vertices ++
            [({ I_begin := (tree.find_vertex ui).I_begin, I_end := mid } : vertex),
             { I_begin := mid, I_end := (tree.find_vertex ui).I_end }]).set ui
          { I_begin := (tree.find_vertex ui).I_begin, I_end := (tree.find_vertex ui).I_end,
            split := (reports.foldl (best_split_update g)
              (g.lowest, splitting_criterion.monostate)).2,
            left := tree.vertices.length % 2 ^ 32,
            right := (tree.vertices.length + 1) % 2 ^ 32 } ∧
        res.2.2 = if depth < options.max_depth then
            todo ++ [tree.vertices.length % 2 ^ 32, (tree.vertices.length + 1) % 2 ^ 32]
          else todo)) := by
  unfold split_vertex at h
  simp only at h
  generalize hu : tree.find_vertex ui = u at h hb he ⊢
  generalize eng.sample (List.range D.feature_count) (min options.max_features D.feature_count)
    rng = Z at h ⊢
  cases hen : fam.enumerate D options (tree.range u) Z.1 with
  | none => simp [hen] at h
  | some r1 =>
    obtain ⟨I', reports⟩ := r1
    simp only [hen] at h
    have hperm1 : I'.Perm (tree.range u) := enumerate_perm fam D options Z.1 _ _ hen
    have hrl : (tree.range u).length = u.I_end - u.I_begin := range_length_eq tree u he
    have hI'l : I'.length = u.I_end - u.I_begin := by rw [hperm1.length_eq, hrl]
    generalize hbest : (reports.foldl (best_split_update g)
      (g.lowest, splitting_criterion.monostate)) = best at h ⊢
    by_cases hm : best.2 = splitting_criterion.monostate
    · simp only [hm, if_true, Option.some.injEq] at h
      rw [← h]
      exact ⟨I', reports, I', rfl, hperm1, rfl, Or.inl ⟨by rw [hbest]; exact hm, rfl, rfl⟩⟩
    · simp only [hm, if_false] at h
      generalize htree2 : binary_decision_tree.update_vertex
        { tree with indices := write_range tree.indices u.I_begin u.I_end I' } ui
        (fun w => { w with split := best.2 }) = tree2 at h
      have hind2 : tree2.indices = write_range tree.indices u.I_begin u.I_end I' := by
        rw [← htree2]; rfl
      have hvs2 : tree2.vertices = tree.vertices.set ui { u with split := best.2 } := by
        rw [← htree2]
        simp only [binary_decision_tree.update_vertex, binary_decision_tree.find_vertex]
        unfold binary_decision_tree.find_vertex at hu
        rw [hu]
      have hr2 : tree2.range u = I' := by
        unfold binary_decision_tree.range
        rw [hind2]
        exact range_write_range_self _ _ _ _ hb he hI'l
      cases hap : apply_split eng best.2 D (tree2.range u) Z.2 options.support_missing_values with
      | none => simp [hap] at h
      | some r2 =>
        obtain ⟨⟨I1, I2⟩, rng2⟩ := r2
        simp only [hap, Option.some.injEq] at h
        have hsome := apply_split_some eng best.2 D (tree2.range u) Z.2
          options.support_missing_values hm
        rw [hap] at hsome
        simp only [Option.some.injEq] at hsome
        have hperm2 : (I1 ++ I2).Perm (tree2.range u) := by
          have hp := std_partition_perm (apply_split_pred eng D options.support_missing_values
            best.2) (tree2.range u) Z.2
          rw [← hsome] at hp
          exact hp
        rw [hr2] at hperm2
        have hl12 : I1.length + I2.length = u.I_end - u.I_begin := by
          rw [← List.length_append, hperm2.length_eq, hI'l]
        rw [← h]
        refine ⟨I', reports, I1 ++ I2, rfl, hperm2.trans hperm1, ?_,
          Or.inr ⟨by rw [hbest]; exact hm, u.I_begin + I1.length, by omega, by omega, ?_, ?_⟩⟩
        · simp only [binary_decision_tree.update_vertex, binary_decision_tree.add_vertex]
          rw [hind2]
          exact write_range_write_range _ _ _ _ _ hb he hI'l
        · rw [hbest]
          simp only [binary_decision_tree.update_vertex, binary_decision_tree.add_vertex,
            binary_decision_tree.find_vertex, hvs2, List.length_set, List.length_append,
            List.length_singleton]
          have hget : ((tree.vertices.set ui { u with split := best.2 } ++
              [({ I_begin := u.I_begin, I_end := u.I_begin + I1.length } : vertex)] ++
              [({ I_begin := u.I_begin + I1.length, I_end := u.I_end } : vertex)]).getD ui
              { I_begin := 0, I_end := 0 }) = { u with split := best.2 } := by
            rw [List.append_assoc, List.getD_append _ _ _ _ (by simpa using hui)]
            rw [List.getD_eq_getElem _ _ (by simpa using hui)]
            simp
          rw [hget]
          rw [List.append_assoc, List.set_append_left _ _ (by simpa using hui), List.set_set]
          rw [List.set_append_left _ _ hui]
          rfl
        · simp only [binary_decision_tree.update_vertex, binary_decision_tree.add_vertex,
            hvs2, List.length_set, List.length_append, List.length_singleton]

/-- What an iteration of `learn_decision_tree` computes, see `split_vertex_detail`. -/
theorem learn_step_detail {ρ S : Type} (eng : random_engine ρ) (D : dataset)
    (options : decision_tree_options) (fam : split_family) (g : gain_function S)
    (stop : List Nat → dataset → Nat → decision_tree_options → Bool)
    (st st2 : learn_state ρ) (ui : Nat) (todo : List Nat) (htodo : st.todo = ui :: todo)
    (h : learn_step eng D options fam g stop st = some st2)
    (hui : ui < st.tree.vertices.length)
    (hb : (st.tree.find_vertex ui).I_begin ≤ (st.tree.find_vertex ui).I_end)
    (he : (st.tree.find_vertex ui).I_end ≤ st.tree.indices.length) :
    (stop (st.tree.range (st.tree.find_vertex ui)) D st.depth options = true ∧
      st2.tree = st.tree ∧ st2.todo = todo) ∨
    (stop (st.tree.range (st.tree.find_vertex ui)) D st.depth options = false ∧
     ∃ (I' : List Nat) (reports : List split_report) (J : List Nat),
      fam.enumerate D options (st.tree.range (st.tree.find_vertex ui))
        (eng.sample (List.range D.feature_count)
          (min options.max_features D.feature_count) st.rng).1 = some (I', reports) ∧
      J.Perm (st.tree.range (st.tree.find_vertex ui)) ∧
      st2.tree.indices = write_range st.tree.indices (st.tree.find_vertex ui).I_begin
        (st.tree.find_vertex ui).I_end J ∧
      (((reports.foldl (best_split_update g) (g.lowest, splitting_criterion.monostate)).2 =
          splitting_criterion.monostate ∧ st2.tree.vertices = st.tree.vertices ∧
          st2.todo = todo) ∨
       ((reports.foldl (best_split_update g) (g.lowest, splitting_criterion.monostate)).2 ≠
          splitting_criterion.monostate ∧
        ∃ mid, (st.tree.find_vertex ui).I_begin ≤ mid ∧
          mid ≤ (st.tree.find_vertex ui).I_end ∧
        st2.tree.vertices = (st.tree.vertices ++
            [({ I_begin := (st.tree.find_vertex ui).I_begin, I_end := mid } : vertex),
             { I_begin := mid, I_end := (st.tree.find_vertex ui).I_end }]).set ui
          { I_begin := (st.tree.find_vertex ui).I_begin,
            I_end := (st.tree.find_vertex ui).I_end,
            split := (reports.foldl (best_split_update g)
              (g.lowest, splitting_criterion.monostate)).2,
            left := st.tree.vertices.length % 2 ^ 32,
            right := (st.tree.vertices.length + 1) % 2 ^ 32 } ∧
        st2.todo = if st.depth < options.max_depth then
            todo ++ [st.tree.vertices.length % 2 ^ 32,
              (st.tree.vertices.length + 1) % 2 ^ 32]
          else todo))) := by
  unfold learn_step at h
  rw [htodo] at h
  simp only at h
  by_cases hstop : stop (st.tree.range (st.tree.find_vertex ui)) D st.depth options = true
  · left
    simp only [hstop, Bool.not_true, Bool.false_eq_true, if_false] at h
    by_cases hl : st.level_count - 1 = 0
    · simp only [hl, if_true, Option.some.injEq] at h
      rw [← h]; exact ⟨hstop, rfl, rfl⟩
    · simp only [hl, if_false, Option.some.injEq] at h
      rw [← h]; exact ⟨hstop, rfl, rfl⟩
  · right
    have hstop2 : stop (st.tree.range (st.tree.find_vertex ui)) D st.depth options = false := by
      simpa using hstop
    simp only [hstop2, Bool.not_false, if_true] at h
    cases hsv : split_vertex eng D options fam g st.tree st.rng todo st.depth ui with
    | none => simp [hsv] at h
    | some res =>
      obtain ⟨tree, rng, todo2⟩ := res
      simp only [hsv] at h
      have hd := split_vertex_detail eng D options fam g st.tree st.rng todo st.depth ui _ hsv
        hui hb he
      simp only at hd
      have e : st2.tree = tree ∧ st2.todo = todo2 := by
        by_cases hl : st.level_count - 1 = 0
        · simp only [hl, if_true, Option.some.injEq] at h
          rw [← h]; exact ⟨rfl, rfl⟩
        · simp only [hl, if_false, Option.some.injEq] at h
          rw [← h]; exact ⟨rfl, rfl⟩
      rw [e.1, e.2]
      exact ⟨hstop2, hd⟩

theorem range_inv_init (D : dataset) (I : List Nat) :
    range_inv (binary_decision_tree.make D I) := by
  have hleaf : ∀ i, ((binary_decision_tree.make D I).find_vertex i).is_leaf = true := by
    intro i
    simp only [binary_decision_tree.make, binary_decision_tree.find_vertex]
    cases i with
    | zero => simp [vertex.is_leaf]
    | succ i => simp [vertex.is_leaf]
  refine ⟨?_, ?_⟩
  · intro i j hi hj hne
    simp only [binary_decision_tree.make, List.length_singleton] at hi hj
    omega
  · intro l w _ _ _ hw
    rw [hleaf] at hw; exact absurd hw (by simp)

/-- An iteration of `learn_decision_tree` keeps the invariant on the position of the ranges,
does not move the range of a vertex, and permutes the content of the range of every
vertex. -/
theorem learn_step_ranges {ρ S : Type} (eng : random_engine ρ) (D : dataset)
    (options : decision_tree_options) (fam : split_family) (g : gain_function S)
    (stop : List Nat → dataset → Nat → decision_tree_options → Bool)
    (st st2 : learn_state ρ) (hinv : learn_inv st) (hs : range_inv st.tree)
    (h : learn_step eng D options fam g stop st = some st2)
    (hU : st2.tree.vertices.length ≤ undefined_index) :
    range_inv st2.tree ∧ ∀ w, w < st.tree.vertices.length →
      (st2.tree.find_vertex w).I_begin = (st.tree.find_vertex w).I_begin ∧
      (st2.tree.find_vertex w).I_end = (st.tree.find_vertex w).I_end ∧
      (st2.tree.range (st2.tree.find_vertex w)).Perm (st.tree.range (st.tree.find_vertex w)) := by
  cases htodo : st.todo with
  | nil =>
    rw [learn_step_nil eng D options fam g stop st htodo] at h
    simp only [Option.some.injEq] at h
    rw [← h]; exact ⟨hs, fun w _ => ⟨rfl, rfl, List.Perm.refl _⟩⟩
  | cons ui todo =>
    have hmem : ui ∈ st.todo := by rw [htodo]; exact List.mem_cons_self _ _
    have hui := (hinv.pending ui hmem).1
    have huleaf := (hinv.pending ui hmem).2
    have hb := (hinv.nested.bounds ui hui).1
    have he := (hinv.nested.bounds ui hui).2
    have hpos : ∀ w, w < st.tree.vertices.length →
        ((st.tree.find_vertex w).I_begin ≤ (st.tree.find_vertex ui).I_begin ∧
          (st.tree.find_vertex ui).I_end ≤ (st.tree.find_vertex w).I_end) ∨
        (st.tree.find_vertex w).I_end ≤ (st.tree.find_vertex ui).I_begin ∨
        (st.tree.find_vertex ui).I_end ≤ (st.tree.find_vertex w).I_begin := by
      intro w hw
      cases hwl : (st.tree.find_vertex w).is_leaf with
      | true =>
        by_cases hwu : w = ui
        · rw [hwu]; exact Or.inl ⟨le_refl _, le_refl _⟩
        · rcases hs.leaves_disjoint ui w hui hw (Ne.symm hwu) huleaf hwl with h1 | h1
          · exact Or.inr (Or.inr h1)
          · exact Or.inr (Or.inl h1)
      | false =>
        rcases hs.laminar ui w hui hw huleaf hwl with h1 | h1 | h1
        · exact Or.inl h1
        · exact Or.inr (Or.inr h1)
        · exact Or.inr (Or.inl h1)
    rcases learn_step_detail eng D options fam g stop st st2 ui todo htodo h hui hb he with
      ⟨-, htree, -⟩ | ⟨-, I', reports, J, -, hJ, hind, hcase⟩
    · rw [htree]; exact ⟨hs, fun w _ => ⟨rfl, rfl, List.Perm.refl _⟩⟩
    · have hJ2 : J.Perm ((st.tree.indices.take (st.tree.find_vertex ui).I_end).drop
          (st.tree.find_vertex ui).I_begin) := hJ
      have hJl : J.length =
          (st.tree.find_vertex ui).I_end - (st.tree.find_vertex ui).I_begin := by
        rw [hJ.length_eq]; exact range_length_eq _ _ he
      have hperm : ∀ w, w < st.tree.vertices.length →
          (((st2.tree.indices.take (st.tree.find_vertex w).I_end).drop
            (st.tree.find_vertex w).I_begin)).Perm (st.tree.range (st.tree.find_vertex w)) := by
        intro w hw
        rw [hind]
        rcases hpos w hw with h1 | h1
        · exact range_write_range_contains _ _ _ _ hb he hJ2 _ _ h1.1 h1.2
        · rw [range_write_range_disjoint _ _ _ _ hb he hJl _ _ h1]
          exact List.Perm.refl _
      rcases hcase with ⟨-, hvs, -⟩ | ⟨-, mid, hm1, hm2, hvs, -⟩
      · have hfv : ∀ i, st2.tree.find_vertex i = st.tree.find_vertex i := by
          intro i; simp only [binary_decision_tree.find_vertex, hvs]
        refine ⟨⟨?_, ?_⟩, ?_⟩
        · intro i j hi hj hne hli hlj
          rw [hvs] at hi hj
          rw [hfv] at hli hlj ⊢
          rw [hfv]
          exact hs.leaves_disjoint i j hi hj hne hli hlj
        · intro l w hl hw hll hwl
          rw [hvs] at hl hw
          rw [hfv] at hll hwl ⊢
          rw [hfv]
          exact hs.laminar l w hl hw hll hwl
        · intro w hw
          rw [hfv]
          exact ⟨rfl, rfl, hperm w hw⟩
      · have hn2 : st.tree.vertices.length + 2 ≤ undefined_index := by
          rw [hvs] at hU; simpa using hU
        obtain ⟨hmod1, hmod2⟩ := mod_uint32_of_le _ hn2
        rw [hmod1, hmod2] at hvs
        obtain ⟨sp, hsp⟩ : ∃ sp, (reports.foldl (best_split_update g)
          (g.lowest, splitting_criterion.monostate)).2 = sp := ⟨_, rfl⟩
        rw [hsp] at hvs
        obtain ⟨u2, hu2⟩ : ∃ u2 : vertex, vertex.mk (st.tree.find_vertex ui).I_begin
            (st.tree.find_vertex ui).I_end st.tree.vertices.length
            (st.tree.vertices.length + 1) sp = u2 := ⟨_, rfl⟩
        obtain ⟨vl, hvl⟩ : ∃ vl : vertex, vertex.mk (st.tree.find_vertex ui).I_begin
            mid undefined_index undefined_index splitting_criterion.monostate = vl := ⟨_, rfl⟩
        obtain ⟨vr, hvr⟩ : ∃ vr : vertex, vertex.mk mid
            (st.tree.find_vertex ui).I_end
            undefined_index undefined_index splitting_criterion.monostate = vr := ⟨_, rfl⟩
        rw [hu2, hvl, hvr] at hvs
        have hu2l : u2.left = st.tree.vertices.length := by rw [← hu2]
        have hu2b : u2.I_begin = (st.tree.find_vertex ui).I_begin := by rw [← hu2]
        have hu2e : u2.I_end = (st.tree.find_vertex ui).I_end := by rw [← hu2]
        have hvlb : vl.I_begin = (st.tree.find_vertex ui).I_begin := by rw [← hvl]
        have hvle : vl.I_end = mid := by rw [← hvl]
        have hvrb : vr.I_begin = mid := by rw [← hvr]
        have hvre : vr.I_end = (st.tree.find_vertex ui).I_end := by rw [← hvr]
        have hvll : vl.is_leaf = true := by rw [← hvl]; simp [vertex.is_leaf]
        have hvrl : vr.is_leaf = true := by rw [← hvr]; simp [vertex.is_leaf]
        have hu2leaf : u2.is_leaf = false :=
          is_leaf_false_of_left u2 (by rw [hu2l]; omega)
        have hlen2 : st2.tree.vertices.length = st.tree.vertices.length + 2 := by
          rw [hvs]; simp
        have hfself : st2.tree.find_vertex ui = u2 := by
          simp only [binary_decision_tree.find_vertex, hvs]
          exact getD_split_self _ _ _ _ _ _ hui
        have hfold : ∀ i, i < st.tree.vertices.length → i ≠ ui →
            st2.tree.find_vertex i = st.tree.find_vertex i := by
          intro i hi hne
          simp only [binary_decision_tree.find_vertex, hvs]
          exact getD_split_old _ _ _ _ _ _ _ hi hne
        have hfl : st2.tree.find_vertex st.tree.vertices.length = vl := by
          simp only [binary_decision_tree.find_vertex, hvs]
          exact getD_split_left _ _ _ _ _ _ hui
        have hfr : st2.tree.find_vertex (st.tree.vertices.length + 1) = vr := by
          simp only [binary_decision_tree.find_vertex, hvs]
          exact getD_split_right _ _ _ _ _ _ hui
        have hrange : ∀ i, i < st.tree.vertices.length →
            (st2.tree.find_vertex i).I_begin = (st.tree.find_vertex i).I_begin ∧
            (st2.tree.find_vertex i).I_end = (st.tree.find_vertex i).I_end := by
          intro i hi
          by_cases hne : i = ui
          · rw [hne, hfself]; exact ⟨hu2b, hu2e⟩
          · rw [hfold i hi hne]; exact ⟨rfl, rfl⟩
        have hcases : ∀ i, i < st2.tree.vertices.length →
            (i < st.tree.vertices.length ∧ i ≠ ui ∧
              st2.tree.find_vertex i = st.tree.find_vertex i) ∨
            (i = ui ∧ st2.tree.find_vertex i = u2) ∨
            (i = st.tree.vertices.length ∧ st2.tree.find_vertex i = vl) ∨
            (i = st.tree.vertices.length + 1 ∧ st2.tree.find_vertex i = vr) := by
          intro i hi
          by_cases hold : i < st.tree.vertices.length
          · by_cases hne : i = ui
            · exact Or.inr (Or.inl ⟨hne, by rw [hne]; exact hfself⟩)
            · exact Or.inl ⟨hold, hne, hfold i hold hne⟩
          · have : i = st.tree.vertices.length ∨ i = st.tree.vertices.length + 1 := by omega
            rcases this with h1 | h1
            · exact Or.inr (Or.inr (Or.inl ⟨h1, by rw [h1]; exact hfl⟩))
            · exact Or.inr (Or.inr (Or.inr ⟨h1, by rw [h1]; exact hfr⟩))
        have hout : ∀ i, i < st.tree.vertices.length → i ≠ ui →
            (st.tree.find_vertex i).is_leaf = true →
            (st.tree.find_vertex i).I_end ≤ (st.tree.find_vertex ui).I_begin ∨
            (st.tree.find_vertex ui).I_end ≤ (st.tree.find_vertex i).I_begin := by
          intro i hi hne hl
          exact hs.leaves_disjoint i ui hi hui hne hl huleaf
        refine ⟨⟨?_, ?_⟩, ?_⟩
        · intro i j hi hj hne hli hlj
          rcases hcases i hi with ⟨i1, i2, i3⟩ | ⟨i1, i3⟩ | ⟨i1, i3⟩ | ⟨i1, i3⟩ <;>
          rcases hcases j hj with ⟨j1, j2, j3⟩ | ⟨j1, j3⟩ | ⟨j1, j3⟩ | ⟨j1, j3⟩ <;>
          rw [i3] at hli ⊢ <;> rw [j3] at hlj ⊢
          · exact hs.leaves_disjoint i j i1 j1 hne hli hlj
          · rw [hu2leaf] at hlj; exact absurd hlj (by simp)
          · rw [hvlb, hvle]
            rcases hout i i1 i2 hli with h1 | h1
            · exact Or.inl h1
            · right; omega
          · rw [hvrb, hvre]
            rcases hout i i1 i2 hli with h1 | h1
            · left; omega
            · exact Or.inr h1
          · rw [hu2leaf] at hli; exact absurd hli (by simp)
          · rw [hu2leaf] at hli; exact absurd hli (by simp)
          · rw [hu2leaf] at hli; exact absurd hli (by simp)
          · rw [hu2leaf] at hli; exact absurd hli (by simp)
          · rw [hvlb, hvle]
            rcases hout j j1 j2 hlj with h1 | h1
            · exact Or.inr h1
            · left; omega
          · rw [hu2leaf] at hlj; exact absurd hlj (by simp)
          · exact absurd (i1.trans j1.symm) hne
          · rw [hvle, hvrb]; exact Or.inl (le_refl _)
          · rw [hvrb, hvre]
            rcases hout j j1 j2 hlj with h1 | h1
            · right; omega
            · exact Or.inl h1
          · rw [hu2leaf] at hlj; exact absurd hlj (by simp)
          · rw [hvle, hvrb]; exact Or.inr (le_refl _)
          · exact absurd (i1.trans j1.symm) hne
        · intro l w hl hw hll hwl
          rcases hcases l hl with ⟨i1, i2, i3⟩ | ⟨i1, i3⟩ | ⟨i1, i3⟩ | ⟨i1, i3⟩ <;>
          rcases hcases w hw with ⟨j1, j2, j3⟩ | ⟨j1, j3⟩ | ⟨j1, j3⟩ | ⟨j1, j3⟩ <;>
          rw [i3] at hll ⊢ <;> rw [j3] at hwl ⊢
          · exact hs.laminar l w i1 j1 hll hwl
          · rw [hu2b, hu2e]
            rcases hout l i1 i2 hll with h1 | h1
            · exact Or.inr (Or.inl h1)
            · exact Or.inr (Or.inr h1)
          · rw [hvll] at hwl; exact absurd hwl (by simp)
          · rw [hvrl] at hwl; exact absurd hwl (by simp)
          · rw [hu2leaf] at hll; exact absurd hll (by simp)
          · rw [hu2leaf] at hll; exact absurd hll (by simp)
          · rw [hu2leaf] at hll; exact absurd hll (by simp)
          · rw [hu2leaf] at hll; exact absurd hll (by simp)
          · rw [hvlb, hvle]
            rcases hs.laminar ui w hui j1 huleaf hwl with h1 | h1 | h1
            · left; omega
            · right; left; omega
            · right; right; omega
          · rw [hvlb, hvle, hu2b, hu2e]
            left; omega
          · rw [hvll] at hwl; exact absurd hwl (by simp)
          · rw [hvrl] at hwl; exact absurd hwl (by simp)
          · rw [hvrb, hvre]
            rcases hs.laminar ui w hui j1 huleaf hwl with h1 | h1 | h1
            · left; omega
            · right; left; omega
            · right; right; omega
          · rw [hvrb, hvre, hu2b, hu2e]
            left; omega
          · rw [hvll] at hwl; exact absurd hwl (by simp)
          · rw [hvrl] at hwl; exact absurd hwl (by simp)
        · intro w hw
          obtain ⟨r1, r2⟩ := hrange w hw
          refine ⟨r1, r2, ?_⟩
          unfold binary_decision_tree.range
          rw [r1, r2]
          exact hperm w hw

/-- The range of a vertex is not moved by the rest of the loop, and its content is
permuted. -/
theorem learn_loop_ranges {ρ S : Type} (eng : random_engine ρ) (D : dataset)
    (options : decision_tree_options) (fam : split_family) (g : gain_function S)
    (stop : List Nat → dataset → Nat → decision_tree_options → Bool)
    (T : binary_decision_tree) (hU : T.vertices.length ≤ undefined_index) (fuel : Nat) :
    ∀ (st : learn_state ρ), learn_inv st → range_inv st.tree →
    learn_loop eng D options fam g stop fuel st = .returned T →
    ∀ w, w < st.tree.vertices.length →
      (T.find_vertex w).I_begin = (st.tree.find_vertex w).I_begin ∧
      (T.find_vertex w).I_end = (st.tree.find_vertex w).I_end ∧
      (T.range (T.find_vertex w)).Perm (st.tree.range (st.tree.find_vertex w)) := by
  induction fuel with
  | zero =>
    intro st _ _ h w _
    unfold learn_loop at h
    split at h
    · simp only [learn_result.returned.injEq] at h
      rw [← h]; exact ⟨rfl, rfl, List.Perm.refl _⟩
    · exact absurd h (by simp)
  | succ fuel ih =>
    intro st hinv hs h w hw
    unfold learn_loop at h
    split at h
    · simp only [learn_result.returned.injEq] at h
      rw [← h]; exact ⟨rfl, rfl, List.Perm.refl _⟩
    · cases hst : learn_step eng D options fam g stop st with
      | none => simp [hst] at h
      | some st2 =>
        simp only [hst] at h
        have hlen := learn_loop_length eng D options fam g stop T fuel st2 h
        have hU2 := le_trans hlen hU
        have hinv2 := learn_step_inv eng D options fam g stop st st2 hinv hst hU2
        obtain ⟨hs2, hstep⟩ := learn_step_ranges eng D options fam g stop st st2 hinv hs hst hU2
        have hw2 : w < st2.tree.vertices.length :=
          lt_of_lt_of_le hw (learn_step_length eng D options fam g stop st st2 hst)
        obtain ⟨a1, a2, a3⟩ := ih st2 hinv2 hs2 h w hw2
        obtain ⟨b1, b2, b3⟩ := hstep w hw
        exact ⟨a1.trans b1, a2.trans b2, a3.trans b3⟩

/-! ## The best split of `learn_decision_tree` -/

theorem enumerate_variable_defined (fam : split_family) (D : dataset)
    (options : decision_tree_options) (I : List Nat) (v : Nat)
    (res : List Nat × List split_report)
    (h : fam.enumerate_variable D options I v = some res) :
    ∀ r ∈ res.2, r.split ≠ splitting_criterion.monostate := by
  intro r hr
  have hthr : ∀ r ∈ (enumerate_threshold_splits D I v options D.class_count).2,
      r.split ≠ splitting_criterion.monostate := by
    intro r hr
    unfold enumerate_threshold_splits at hr
    simp only at hr
    split at hr
    · simp at hr
    · obtain ⟨j, -, -, j3⟩ := threshold_sweep_values D v options _ _ _ _ _ _ _ _ r hr
      rw [j3]; simp
  unfold split_family.enumerate_variable at h
  cases fam with
  | threshold =>
    simp only [Option.some.injEq] at h
    rw [← h] at hr
    exact hthr r hr
  | threshold_plus_single =>
    simp only at h
    split at h
    · simp only [Option.some.injEq] at h
      rw [← h] at hr
      obtain ⟨c, hc⟩ := single_sweep_splits D v options _ _ _ _ _ r hr
      rw [hc]; simp
    · simp only [Option.some.injEq] at h
      rw [← h] at hr
      exact hthr r hr
  | threshold_plus_subset =>
    simp only at h
    split at h
    · unfold enumerate_subset_splits at h
      simp only at h
      split at h
      · exact absurd h (by simp)
      · split at h
        · simp only [Option.some.injEq] at h
          rw [← h] at hr
          simp at hr
        · simp only [Option.some.injEq] at h
          rw [← h] at hr
          obtain ⟨c, hc⟩ := subset_outer_splits v options _ _ _ _ _ _ _ r hr
          rw [hc]; simp
    · simp only [Option.some.injEq] at h
      rw [← h] at hr
      exact hthr r hr

/-- Every report of `split_family.enumerate` carries a defined splitting criterion. -/
theorem enumerate_defined (fam : split_family) (D : dataset)
    (options : decision_tree_options) (V : List Nat) :
    ∀ (I : List Nat) (res : List Nat × List split_report),
    fam.enumerate D options I V = some res →
    ∀ r ∈ res.2, r.split ≠ splitting_criterion.monostate := by
  induction V with
  | nil =>
    intro I res h r hr
    simp only [split_family.enumerate, Option.some.injEq] at h
    rw [← h] at hr
    simp at hr
  | cons v V ih =>
    intro I res h r hr
    simp only [split_family.enumerate] at h
    cases h1 : fam.enumerate_variable D options I v with
    | none => simp [h1] at h
    | some r1 =>
      obtain ⟨I1, rep1⟩ := r1
      simp only [h1] at h
      cases h2 : split_family.enumerate fam D options I1 V with
      | none => simp [h2] at h
      | some r2 =>
        obtain ⟨I2, rep2⟩ := r2
        simp only [h2, Option.some.injEq] at h
        rw [← h] at hr
        rcases List.mem_append.1 hr with hr | hr
        · exact enumerate_variable_defined fam D options I v _ h1 r hr
        · exact ih I1 _ h2 r hr

/-- The callback of `learn_decision_tree` ends with the initial pair when no report has a
gain above the initial score, and otherwise with the first report of maximal gain. -/
theorem best_split_foldl_first {S : Type} [LinearOrder S] (g : gain_function S)
    (hgt : ∀ a b, g.gt a b = true ↔ b < a) (reports : List split_report) :
    ∀ (best : S × splitting_criterion),
    ((∀ r ∈ reports, ¬ best.1 < g.gain r.D1_counts r.D2_counts) ∧
      reports.foldl (best_split_update g) best = best) ∨
    ∃ k r, first_best g reports k r ∧ best.1 < g.gain r.D1_counts r.D2_counts ∧
      reports.foldl (best_split_update g) best = (g.gain r.D1_counts r.D2_counts, r.split) := by
  induction reports with
  | nil => intro best; left; exact ⟨by simp, rfl⟩
  | cons r rs ih =>
    intro best
    simp only [List.foldl_cons]
    by_cases hr : best.1 < g.gain r.D1_counts r.D2_counts
    · have hup : best_split_update g best r = (g.gain r.D1_counts r.D2_counts, r.split) := by
        simp only [best_split_update, (hgt _ _).2 hr, if_true]
      rw [hup]
      right
      rcases ih (g.gain r.D1_counts r.D2_counts, r.split) with ⟨h1, h2⟩ | ⟨k, r2, h1, h2, h3⟩
      · refine ⟨0, r, ⟨by simp, ?_⟩, hr, h2⟩
        intro j r2 hj
        cases j with
        | zero =>
          simp only [List.getElem?_cons_zero, Option.some.injEq] at hj
          rw [← hj]; exact ⟨le_refl _, fun hc => absurd hc (by omega)⟩
        | succ j =>
          simp only [List.getElem?_cons_succ] at hj
          have := h1 r2 (List.getElem?_mem hj)
          exact ⟨not_lt.1 this, fun hc => absurd hc (by omega)⟩
      · refine ⟨k + 1, r2, ⟨by simpa using h1.1, ?_⟩, lt_trans hr h2, h3⟩
        intro j r3 hj
        cases j with
        | zero =>
          simp only [List.getElem?_cons_zero, Option.some.injEq] at hj
          rw [← hj]; exact ⟨le_of_lt h2, fun _ => h2⟩
        | succ j =>
          simp only [List.getElem?_cons_succ] at hj
          obtain ⟨a1, a2⟩ := h1.2 j r3 hj
          exact ⟨a1, fun hc => a2 (by omega)⟩
    · have hup : best_split_update g best r = best := by
        have : g.gt (g.gain r.D1_counts r.D2_counts) best.1 = false := by
          cases hc : g.gt (g.gain r.D1_counts r.D2_counts) best.1 with
          | false => rfl
          | true => exact absurd ((hgt _ _).1 hc) hr
        simp only [best_split_update, this, Bool.false_eq_true, if_false]
      rw [hup]
      rcases ih best with ⟨h1, h2⟩ | ⟨k, r2, h1, h2, h3⟩
      · left
        refine ⟨?_, h2⟩
        intro r2 hr2
        rcases List.mem_cons.1 hr2 with h | h
        · rw [h]; exact hr
        · exact h1 r2 h
      · right
        refine ⟨k + 1, r2, ⟨by simpa using h1.1, ?_⟩, h2, h3⟩
        intro j r3 hj
        cases j with
        | zero =>
          simp only [List.getElem?_cons_zero, Option.some.injEq] at hj
          rw [← hj]
          exact ⟨le_of_lt (lt_of_le_of_lt (not_lt.1 hr) h2),
            fun _ => lt_of_le_of_lt (not_lt.1 hr) h2⟩
        | succ j =>
          simp only [List.getElem?_cons_succ] at hj
          obtain ⟨a1, a2⟩ := h1.2 j r3 hj
          exact ⟨a1, fun hc => a2 (by omega)⟩

theorem first_best_unique {S : Type} [LinearOrder S] (g : gain_function S)
    (reports : List split_report) (k1 k2 : Nat) (r1 r2 : split_report)
    (h1 : first_best g reports k1 r1) (h2 : first_best g reports k2 r2) :
    k1 = k2 ∧ r1 = r2 := by
  have hk : k1 = k2 := by
    rcases Nat.lt_trichotomy k1 k2 with h | h | h
    · have a := (h2.2 k1 r1 h1.1).2 h
      have b := (h1.2 k2 r2 h2.1).1
      exact absurd a (not_lt.2 b)
    · exact h
    · have a := (h1.2 k2 r2 h2.1).2 h
      have b := (h2.2 k1 r1 h1.1).1
      exact absurd a (not_lt.2 b)
  refine ⟨hk, ?_⟩
  have e1 := h1.1
  rw [hk, h2.1] at e1
  simpa using e1.symm

theorem learn_loop_candidates_succ {ρ S : Type} (eng : random_engine ρ) (D : dataset)
    (options : decision_tree_options) (fam : split_family) (g : gain_function S)
    (stop : List Nat → dataset → Nat → decision_tree_options → Bool) (fuel : Nat)
    (st st2 : learn_state ρ) (ui : Nat) (todo : List Nat) (htodo : st.todo = ui :: todo)
    (hstep : learn_step eng D options fam g stop st = some st2)
    (i : Nat) (reports : List split_report) :
    (i, reports) ∈ learn_loop_candidates eng D options fam g stop (fuel + 1) st ↔
      (i = ui ∧ stop (st.tree.range (st.tree.find_vertex ui)) D st.depth options = false ∧
        ∃ I', fam.enumerate D options (st.tree.range (st.tree.find_vertex ui))
          (eng.sample (List.range D.feature_count)
            (min options.max_features D.feature_count) st.rng).1 = some (I', reports)) ∨
      (i, reports) ∈ learn_loop_candidates eng D options fam g stop fuel st2 := by
  conv_lhs => rw [learn_loop_candidates]
  simp only [htodo, hstep, List.mem_append]
  apply or_congr _ Iff.rfl
  cases hs : stop (st.tree.range (st.tree.find_vertex ui)) D st.depth options with
  | true => simp
  | false =>
    cases he : fam.enumerate D options (st.tree.range (st.tree.find_vertex ui))
        (eng.sample (List.range D.feature_count)
          (min options.max_features D.feature_count) st.rng).1 with
    | none => simp
    | some res =>
      obtain ⟨I', rep⟩ := res
      simp only [Bool.false_eq_true, if_false, List.mem_singleton, Prod.mk.injEq, true_and,
        Option.some.injEq, exists_eq_left']
      exact and_congr_right (fun _ => eq_comm)

theorem leaf_undefined_init (D : dataset) (I : List Nat) :
    leaf_undefined (binary_decision_tree.make D I) := by
  intro i hi _
  simp only [binary_decision_tree.make, List.length_singleton] at hi
  have : i = 0 := by omega
  subst this
  rfl

theorem learn_step_leaf_undefined {ρ S : Type} (eng : random_engine ρ) (D : dataset)
    (options : decision_tree_options) (fam : split_family) (g : gain_function S)
    (stop : List Nat → dataset → Nat → decision_tree_options → Bool)
    (st st2 : learn_state ρ) (hinv : learn_inv st) (hl : leaf_undefined st.tree)
    (h : learn_step eng D options fam g stop st = some st2)
    (hU : st2.tree.vertices.length ≤ undefined_index) : leaf_undefined st2.tree := by
  cases htodo : st.todo with
  | nil =>
    rw [learn_step_nil eng D options fam g stop st htodo] at h
    simp only [Option.some.injEq] at h
    rw [← h]; exact hl
  | cons ui todo =>
    have hmem : ui ∈ st.todo := by rw [htodo]; exact List.mem_cons_self _ _
    have hui := (hinv.pending ui hmem).1
    obtain ⟨-, -, -, c4⟩ := learn_step_cases eng D options fam g stop st st2 ui todo htodo h
      hui (hinv.nested.bounds ui hui).1
    rcases c4 with ⟨hvs, -⟩ | ⟨-, mid, sp, -, -, -, hvs, -⟩
    · intro i hi hleaf
      have hfv : st2.tree.find_vertex i = st.tree.find_vertex i := by
        simp only [binary_decision_tree.find_vertex, hvs]
      rw [hfv] at hleaf ⊢
      exact hl i (by rw [← hvs]; exact hi) hleaf
    · have hn2 : st.tree.vertices.length + 2 ≤ undefined_index := by
        rw [hvs] at hU; simpa using hU
      obtain ⟨hmod1, hmod2⟩ := mod_uint32_of_le _ hn2
      rw [hmod1, hmod2] at hvs
      intro i hi hleaf
      have hlen2 : st2.tree.vertices.length = st.tree.vertices.length + 2 := by
        rw [hvs]; simp
      by_cases hold : i < st.tree.vertices.length
      · by_cases hne : i = ui
        · exfalso
          rw [hne] at hleaf
          simp only [binary_decision_tree.find_vertex, hvs] at hleaf
          rw [getD_split_self _ _ _ _ _ _ hui] at hleaf
          have : (vertex.mk (st.tree.find_vertex ui).I_begin (st.tree.find_vertex ui).I_end
              st.tree.vertices.length (st.tree.vertices.length + 1) sp).is_leaf = false :=
            is_leaf_false_of_left _ (by simp only; omega)
          simp only [binary_decision_tree.find_vertex] at this
          rw [this] at hleaf
          exact absurd hleaf (by simp)
        · have hfv : st2.tree.find_vertex i = st.tree.find_vertex i := by
            simp only [binary_decision_tree.find_vertex, hvs]
            exact getD_split_old _ _ _ _ _ _ _ hold hne
          rw [hfv] at hleaf ⊢
          exact hl i hold hleaf
      · have : i = st.tree.vertices.length ∨ i = st.tree.vertices.length + 1 := by omega
        rcases this with h1 | h1
        · rw [h1]
          simp only [binary_decision_tree.find_vertex, hvs]
          rw [getD_split_left _ _ _ _ _ _ hui]
        · rw [h1]
          simp only [binary_decision_tree.find_vertex, hvs]
          rw [getD_split_right _ _ _ _ _ _ hui]

/-- The tree returned by the loop of `learn_decision_tree` keeps, at every vertex for which
candidates have been enumerated, the first candidate of maximal gain, and every vertex that
is not a leaf is such a vertex. -/
theorem learn_loop_best {ρ S : Type} [LinearOrder S] (eng : random_engine ρ) (D : dataset)
    (options : decision_tree_options) (fam : split_family) (g : gain_function S)
    (hgt : ∀ a b, g.gt a b = true ↔ b < a)
    (stop : List Nat → dataset → Nat → decision_tree_options → Bool)
    (T : binary_decision_tree) (hU : T.vertices.length ≤ undefined_index) (fuel : Nat) :
    ∀ (st : learn_state ρ), learn_inv st → range_inv st.tree → leaf_undefined st.tree →
    learn_loop eng D options fam g stop fuel st = .returned T →
    (∀ i reports, (i, reports) ∈ learn_loop_candidates eng D options fam g stop fuel st →
      i < T.vertices.length ∧
      ((∀ r ∈ reports, ¬ g.lowest < g.gain r.D1_counts r.D2_counts) →
        (T.find_vertex i).is_leaf = true ∧
        (T.find_vertex i).split = splitting_criterion.monostate) ∧
      (∀ k r, first_best g reports k r → g.lowest < g.gain r.D1_counts r.D2_counts →
        (T.find_vertex i).is_leaf = false ∧ (T.find_vertex i).split = r.split) ∧
      ∃ (I0 : List Nat) (rng : ρ) (I' : List Nat), I0.Perm (T.range (T.find_vertex i)) ∧
        fam.enumerate D options I0 (eng.sample (List.range D.feature_count)
          (min options.max_features D.feature_count) rng).1 = some (I', reports)) ∧
    (∀ i, i < T.vertices.length → (T.find_vertex i).is_leaf = false →
      (i < st.tree.vertices.length ∧ (st.tree.find_vertex i).is_leaf = false) ∨
      ∃ reports, (i, reports) ∈ learn_loop_candidates eng D options fam g stop fuel st) ∧
    leaf_undefined T := by
  induction fuel with
  | zero =>
    intro st _ _ hl h
    unfold learn_loop at h
    split at h
    · simp only [learn_result.returned.injEq] at h
      rw [← h]
      refine ⟨?_, fun i hi hn => Or.inl ⟨hi, hn⟩, hl⟩
      intro i reports hm
      simp [learn_loop_candidates] at hm
    · exact absurd h (by simp)
  | succ fuel ih =>
    intro st hinv hs hl h
    have h0 := h
    unfold learn_loop at h
    split at h
    · rename_i hnil
      simp only [learn_result.returned.injEq] at h
      rw [← h]
      refine ⟨?_, fun i hi hn => Or.inl ⟨hi, hn⟩, hl⟩
      intro i reports hm
      simp [learn_loop_candidates, hnil] at hm
    · rename_i hne
      cases hst : learn_step eng D options fam g stop st with
      | none => simp [hst] at h
      | some st2 =>
        simp only [hst] at h
        have hlen := learn_loop_length eng D options fam g stop T fuel st2 h
        have hU2 := le_trans hlen hU
        have hinv2 := learn_step_inv eng D options fam g stop st st2 hinv hst hU2
        obtain ⟨hs2, -⟩ := learn_step_ranges eng D options fam g stop st st2 hinv hs hst hU2
        have hl2 := learn_step_leaf_undefined eng D options fam g stop st st2 hinv hl hst hU2
        obtain ⟨A2, B2, C2⟩ := ih st2 hinv2 hs2 hl2 h
        cases htodo : st.todo with
        | nil => exact absurd htodo hne
        | cons ui todo =>
          have hmem : ui ∈ st.todo := by rw [htodo]; exact List.mem_cons_self _ _
          have hui := (hinv.pending ui hmem).1
          have huleaf := (hinv.pending ui hmem).2
          have hb := (hinv.nested.bounds ui hui).1
          have he := (hinv.nested.bounds ui hui).2
          have hsorted := hinv.sorted
          rw [htodo] at hsorted
          have hsorted2 := List.pairwise_cons.1 hsorted
          have hnot0 : ui ∉ todo := fun hc => absurd (hsorted2.1 ui hc) (lt_irrefl _)
          have hui2 : ui < st2.tree.vertices.length :=
            lt_of_lt_of_le hui (learn_step_length eng D options fam g stop st st2 hst)
          have hstable : ui ∉ st2.todo → T.find_vertex ui = st2.tree.find_vertex ui :=
            learn_loop_stable eng D options fam g stop T hU fuel st2 hinv2 h ui hui2
          have hperm := (learn_loop_ranges eng D options fam g stop T hU (fuel + 1) st hinv hs
            h0 ui hui).2.2
          have hdetail := learn_step_detail eng D options fam g stop st st2 ui todo htodo hst
            hui hb he
          refine ⟨?_, ?_, C2⟩
          · intro i reports hm
            rw [learn_loop_candidates_succ eng D options fam g stop fuel st st2 ui todo htodo
              hst] at hm
            rcases hm with ⟨hi, hstopf, I', hen⟩ | hm
            swap
            · exact A2 i reports hm
            subst hi
            rcases hdetail with ⟨hstopt, -, -⟩ | ⟨-, I2, rep2, J, hen2, hJ, hind, hcase⟩
            · rw [hstopt] at hstopf; exact absurd hstopf (by simp)
            rw [hen] at hen2
            simp only [Option.some.injEq, Prod.mk.injEq] at hen2
            obtain ⟨e1, e2⟩ := hen2
            subst e1 e2
            have hdef := enumerate_defined fam D options _ _ _ hen
            simp only at hdef
            have hfold := best_split_foldl_first g hgt reports
              (g.lowest, splitting_criterion.monostate)
            simp only at hfold
            refine ⟨lt_of_lt_of_le hui2 hlen, ?_, ?_,
              ⟨st.tree.range (st.tree.find_vertex i), st.rng, I', hperm.symm, hen⟩⟩
            · intro hall
              rcases hcase with ⟨hbm, hvs, htd⟩ | ⟨hbn, mid, -, -, hvs, htd⟩
              · have hfv : T.find_vertex i = st.tree.find_vertex i := by
                  rw [hstable (by rw [htd]; exact hnot0)]
                  simp only [binary_decision_tree.find_vertex, hvs]
                rw [hfv]
                exact ⟨huleaf, hl i hui huleaf⟩
              · exfalso
                rcases hfold with ⟨-, f2⟩ | ⟨k2, r2, f1, f2, -⟩
                · rw [f2] at hbn; exact hbn rfl
                · exact hall r2 (List.getElem?_mem f1.1) f2
            · intro k r hfb hlow
              have hrm : r ∈ reports := List.getElem?_mem hfb.1
              rcases hfold with ⟨f1, -⟩ | ⟨k2, r2, f1, -, f3⟩
              · exact absurd hlow (f1 r hrm)
              obtain ⟨-, er⟩ := first_best_unique g reports k k2 r r2 hfb f1
              subst er
              rcases hcase with ⟨hbm, hvs, htd⟩ | ⟨hbn, mid, -, -, hvs, htd⟩
              · rw [f3] at hbm
                exact absurd hbm (hdef r hrm)
              · have hn2 : st.tree.vertices.length + 2 ≤ undefined_index := by
                  rw [hvs] at hU2; simpa using hU2
                obtain ⟨hmod1, hmod2⟩ := mod_uint32_of_le _ hn2
                rw [hmod1, hmod2] at hvs htd
                have hnot : i ∉ st2.todo := by
                  rw [htd]
                  split
                  · simp only [List.mem_append, List.mem_cons, List.mem_singleton,
                      List.not_mem_nil, or_false, not_or]
                    exact ⟨hnot0, by omega, by omega⟩
                  · exact hnot0
                rw [hstable hnot]
                simp only [binary_decision_tree.find_vertex, hvs]
                rw [getD_split_self _ _ _ _ _ _ hui, f3]
                exact ⟨is_leaf_false_of_left _ (by simp only; omega), rfl⟩
          · intro i hi hleaf
            rcases B2 i hi hleaf with ⟨hi2, hnl2⟩ | ⟨reports, hm⟩
            swap
            · exact Or.inr ⟨reports, (learn_loop_candidates_succ eng D options fam g stop fuel
                st st2 ui todo htodo hst i reports).2 (Or.inr hm)⟩
            by_cases hold : i < st.tree.vertices.length ∧ (st.tree.find_vertex i).is_leaf = false
            · exact Or.inl hold
            rcases hdetail with ⟨-, htree, -⟩ | ⟨hstopf, I', reports, J, hen, -, -, hcase⟩
            · rw [htree] at hi2 hnl2
              exact absurd ⟨hi2, hnl2⟩ hold
            rcases hcase with ⟨-, hvs, -⟩ | ⟨-, mid, -, -, hvs, -⟩
            · have hfv : st2.tree.find_vertex i = st.tree.find_vertex i := by
                simp only [binary_decision_tree.find_vertex, hvs]
              rw [hvs] at hi2
              rw [hfv] at hnl2
              exact absurd ⟨hi2, hnl2⟩ hold
            · have hn2 : st.tree.vertices.length + 2 ≤ undefined_index := by
                rw [hvs] at hU2; simpa using hU2
              obtain ⟨hmod1, hmod2⟩ := mod_uint32_of_le _ hn2
              rw [hmod1, hmod2] at hvs
              have hlen2 : st2.tree.vertices.length = st.tree.vertices.length + 2 := by
                rw [hvs]; simp
              by_cases hio : i < st.tree.vertices.length
              · by_cases hiu : i = ui
                · right
                  exact ⟨reports, (learn_loop_candidates_succ eng D options fam g stop fuel
                    st st2 ui todo htodo hst i reports).2 (Or.inl ⟨hiu, hstopf, I', hen⟩)⟩
                · have hfv : st2.tree.find_vertex i = st.tree.find_vertex i := by
                    simp only [binary_decision_tree.find_vertex, hvs]
                    exact getD_split_old _ _ _ _ _ _ _ hio hiu
                  rw [hfv] at hnl2
                  exact absurd ⟨hio, hnl2⟩ hold
              · exfalso
                have : i = st.tree.vertices.length ∨ i = st.tree.vertices.length + 1 := by
                  omega
                rcases this with h1 | h1
                · rw [h1] at hnl2
                  simp only [binary_decision_tree.find_vertex, hvs] at hnl2
                  rw [getD_split_left _ _ _ _ _ _ hui] at hnl2
                  simp [vertex.is_leaf] at hnl2
                · rw [h1] at hnl2
                  simp only [binary_decision_tree.find_vertex, hvs] at hnl2
                  rw [getD_split_right _ _ _ _ _ _ hui] at hnl2
                  simp [vertex.is_leaf] at hnl2

/-- Claim C29: in a tree returned by `learn_decision_tree`, every vertex that is not a leaf
is a vertex for which the loop has enumerated candidates (the reports of
`split_family.enumerate` on the samples of the vertex for the sampled variables, in the
order of the reports), and its criterion is the one of the first report whose gain is
maximal among these reports. For every vertex with enumerated candidates, the first report
of maximal gain is stored when its gain is above the initial score `lowest()`, and when
nothing is reported the vertex stays a leaf with no children and an undefined criterion. The
comparison `score > best_score` is the strict order of the scores. -/
theorem learn_decision_tree_best_split {ρ S : Type} [LinearOrder S] (eng : random_engine ρ)
    (D : dataset) (I : List Nat) (options : decision_tree_options) (fam : split_family)
    (g : gain_function S) (hgt : ∀ a b, g.gt a b = true ↔ b < a)
    (stop : List Nat → dataset → Nat → decision_tree_options → Bool) (seed : ρ) (fuel : Nat)
    (tree : binary_decision_tree)
    (h : learn_decision_tree eng D I options fam g stop seed fuel = .returned tree)
    (hU : tree.vertices.length ≤ undefined_index) :
    (∀ i, i < tree.vertices.length → (tree.find_vertex i).is_leaf = false →
      ∃ reports k r,
        (i, reports) ∈ learn_loop_candidates eng D options fam g stop fuel
          (learn_state.mk (binary_decision_tree.make D I) seed [0] 0 1) ∧
        first_best g reports k r ∧ (tree.find_vertex i).split = r.split ∧
        ∃ (I0 : List Nat) (rng : ρ) (I' : List Nat),
          I0.Perm (tree.range (tree.find_vertex i)) ∧
          fam.enumerate D options I0 (eng.sample (List.range D.feature_count)
            (min options.max_features D.feature_count) rng).1 = some (I', reports)) ∧
    (∀ i reports, (i, reports) ∈ learn_loop_candidates eng D options fam g stop fuel
        (learn_state.mk (binary_decision_tree.make D I) seed [0] 0 1) →
      (∀ k r, first_best g reports k r → g.lowest < g.gain r.D1_counts r.D2_counts →
        (tree.find_vertex i).is_leaf = false ∧ (tree.find_vertex i).split = r.split) ∧
      (reports = [] → (tree.find_vertex i).left = undefined_index ∧
        (tree.find_vertex i).right = undefined_index ∧
        (tree.find_vertex i).split = splitting_criterion.monostate)) := by
  unfold learn_decision_tree at h
  obtain ⟨A, B, -⟩ := learn_loop_best eng D options fam g hgt stop tree hU fuel _
    (learn_inv_init D I seed) (range_inv_init D I) (leaf_undefined_init D I) h
  constructor
  · intro i hi hleaf
    rcases B i hi hleaf with ⟨h1, h2⟩ | ⟨reports, hm⟩
    · exfalso
      simp only [binary_decision_tree.make, List.length_singleton] at h1
      have : i = 0 := by omega
      subst this
      simp [binary_decision_tree.make, binary_decision_tree.find_vertex, vertex.is_leaf] at h2
    · obtain ⟨-, a2, a3, a4⟩ := A i reports hm
      rcases best_split_foldl_first g hgt reports (g.lowest, splitting_criterion.monostate)
        with ⟨f1, -⟩ | ⟨k, r, f1, f2, -⟩
      · have := (a2 f1).1
        rw [hleaf] at this
        exact absurd this (by simp)
      · exact ⟨reports, k, r, hm, f1, (a3 k r f1 f2).2, a4⟩
  · intro i reports hm
    obtain ⟨-, a2, a3, -⟩ := A i reports hm
    refine ⟨a3, ?_⟩
    intro hnil
    obtain ⟨b1, b2⟩ := a2 (by rw [hnil]; simp)
    obtain ⟨c1, c2⟩ := (is_leaf_true_iff _).1 b1
    exact ⟨c1, c2, b2⟩

theorem learn_decision_tree_best_split_witness :
    (∀ a b : ℚ, gini_gain.gt a b = true ↔ b < a) ∧
    learn_decision_tree const_engine test_apply_split_dataset [0, 1, 2, 3] {}
      .threshold_plus_single gini_gain (node_is_finished mis_classification_small) () 10 =
      .returned test_tree ∧
    test_tree.vertices.length ≤ undefined_index ∧
    ∀ i, i < test_tree.vertices.length → (test_tree.find_vertex i).is_leaf = false →
      ∃ reports k r,
        (i, reports) ∈ learn_loop_candidates const_engine test_apply_split_dataset {}
          .threshold_plus_single gini_gain (node_is_finished mis_classification_small) 10
          (learn_state.mk (binary_decision_tree.make test_apply_split_dataset [0, 1, 2, 3])
            () [0] 0 1) ∧
        first_best gini_gain reports k r ∧ (test_tree.find_vertex i).split = r.split ∧
        ∃ (I0 : List Nat) (rng : Unit) (I' : List Nat),
          I0.Perm (test_tree.range (test_tree.find_vertex i)) ∧
          split_family.threshold_plus_single.enumerate test_apply_split_dataset {} I0
            (const_engine.sample (List.range test_apply_split_dataset.feature_count)
              (min ({} : decision_tree_options).max_features
                test_apply_split_dataset.feature_count) rng).1 = some (I', reports) :=
  ⟨fun a b => by simp [gini_gain], test_tree_learned, test_tree_size,
    (learn_decision_tree_best_split const_engine test_apply_split_dataset [0, 1, 2, 3] {}
      .threshold_plus_single gini_gain (fun a b => by simp [gini_gain])
      (node_is_finished mis_classification_small) () 10 test_tree test_tree_learned
      test_tree_size).1⟩

/-- The candidates of the run that learns `test_tree`, with their gains: at the root four
candidates have the maximal gain 1/6 and the first of them is stored, at vertex 2 two
candidates have the maximal gain 4/9 and the first of them is stored; no candidate is
enumerated for the vertices 1, 3 and 4. -/
theorem test_tree_candidates :
    (learn_loop_candidates const_engine test_apply_split_dataset {} .threshold_plus_single
      gini_gain (node_is_finished mis_classification_small) 10
      (learn_state.mk (binary_decision_tree.make test_apply_split_dataset [0, 1, 2, 3])
        () [0] 0 1)).map
      (fun e => (e.1, e.2.map (fun r => (r.split, gini_gain.gain r.D1_counts r.D2_counts)))) =
    [(0, [(.single ⟨0, .num 1⟩, 1 / 6), (.single ⟨0, .num 2⟩, 0), (.single ⟨0, .num 3⟩, 1 / 6),
          (.single ⟨1, .num 3⟩, 1 / 6), (.single ⟨1, .num 4⟩, 1 / 6)]),
     (2, [(.single ⟨0, .num 2⟩, 1 / 9), (.single ⟨0, .num 3⟩, 1 / 9),
          (.single ⟨1, .num 3⟩, 4 / 9), (.single ⟨1, .num 4⟩, 4 / 9)])] ∧
    (test_tree.find_vertex 0).split = .single ⟨0, .num 1⟩ ∧
    (test_tree.find_vertex 2).split = .single ⟨1, .num 3⟩ := by
  decide!

/-! ## The stop criterion `node_is_finished` and the leaves -/

theorem bfs_numbered_left_right (tree : binary_decision_tree)
    (hn : bfs_numbered tree.vertices) (u : Nat) (hu : u < tree.vertices.length)
    (hl : (tree.find_vertex u).is_leaf = false) :
    (tree.find_vertex u).left = 1 + 2 * nonleaf_count tree.vertices u ∧
    (tree.find_vertex u).right = 2 + 2 * nonleaf_count tree.vertices u := by
  rcases hn.links u hu with h | h
  · unfold binary_decision_tree.find_vertex at hl
    rw [h] at hl; exact absurd hl (by simp)
  · exact h

theorem nonleaf_count_inj (tree : binary_decision_tree) (u w : Nat)
    (hu : u < tree.vertices.length) (hw : w < tree.vertices.length)
    (hlu : (tree.find_vertex u).is_leaf = false) (hlw : (tree.find_vertex w).is_leaf = false)
    (h : nonleaf_count tree.vertices u = nonleaf_count tree.vertices w) : u = w := by
  rcases Nat.lt_trichotomy u w with h1 | h1 | h1
  · have := nonleaf_count_lt tree.vertices u w h1 hu hlu
    omega
  · exact h1
  · have := nonleaf_count_lt tree.vertices w u h1 hw hlw
    omega

/-- In a tree numbered breadth first a vertex has one depth. -/
theorem at_depth_unique (tree : binary_decision_tree) (hn : bfs_numbered tree.vertices) :
    ∀ i d, at_depth tree i d → ∀ j d2, at_depth tree j d2 → i = j → d = d2 := by
  intro i d h1
  induction h1 with
  | root =>
    intro j d2 h2 hij
    cases h2 with
    | root => rfl
    | left u d3 _ hu hl =>
      have := (bfs_numbered_left_right tree hn u hu hl).1
      omega
    | right u d3 _ hu hl =>
      have := (bfs_numbered_left_right tree hn u hu hl).2
      omega
  | left u d _ hu hl ih =>
    intro j d2 h2 hij
    have e1 := (bfs_numbered_left_right tree hn u hu hl).1
    cases h2 with
    | root => omega
    | left u2 d3 h3 hu2 hl2 =>
      have e2 := (bfs_numbered_left_right tree hn u2 hu2 hl2).1
      have := nonleaf_count_inj tree u u2 hu hu2 hl hl2 (by omega)
      rw [ih u2 d3 h3 this]
    | right u2 d3 h3 hu2 hl2 =>
      have e2 := (bfs_numbered_left_right tree hn u2 hu2 hl2).2
      omega
  | right u d _ hu hl ih =>
    intro j d2 h2 hij
    have e1 := (bfs_numbered_left_right tree hn u hu hl).2
    cases h2 with
    | root => omega
    | left u2 d3 h3 hu2 hl2 =>
      have e2 := (bfs_numbered_left_right tree hn u2 hu2 hl2).1
      omega
    | right u2 d3 h3 hu2 hl2 =>
      have e2 := (bfs_numbered_left_right tree hn u2 hu2 hl2).2
      have := nonleaf_count_inj tree u u2 hu hu2 hl hl2 (by omega)
      rw [ih u2 d3 h3 this]

theorem compute_class_counts_perm (D : dataset) (K : Nat) (l1 l2 : List Nat)
    (h : l1.Perm l2) : compute_class_counts D l1 K = compute_class_counts D l2 K := by
  rw [compute_class_counts_eq, compute_class_counts_eq]
  exact count_classes_perm D K l1 l2 h

/-- With the stop criterion `node_is_finished`, every vertex of the returned tree that is
not a leaf was taken from the queue when the criterion was false for it, at its depth in
the tree. -/
theorem learn_loop_stop {ρ S : Type} (eng : random_engine ρ) (D : dataset)
    (options : decision_tree_options) (fam : split_family) (g : gain_function S)
    (small : List Nat → Bool)
    (T : binary_decision_tree) (hU : T.vertices.length ≤ undefined_index) (fuel : Nat) :
    ∀ (st : learn_state ρ), learn_inv st → range_inv st.tree → depth_inv options st →
    depth_queue T st →
    learn_loop eng D options fam g (node_is_finished small) fuel st = .returned T →
    ∀ i, i < T.vertices.length → (T.find_vertex i).is_leaf = false →
      (i < st.tree.vertices.length ∧ (st.tree.find_vertex i).is_leaf = false) ∨
      (options.min_samples_leaf < (T.range (T.find_vertex i)).length ∧
        small (compute_class_counts D (T.range (T.find_vertex i)) D.class_count) = false ∧
        ∃ d, at_depth T i d ∧ d < options.max_depth) := by
  induction fuel with
  | zero =>
    intro st _ _ _ _ h i hi hn
    unfold learn_loop at h
    split at h
    · simp only [learn_result.returned.injEq] at h
      rw [← h] at hi hn
      exact Or.inl ⟨hi, hn⟩
    · exact absurd h (by simp)
  | succ fuel ih =>
    intro st hinv hs hd hq h i hi hn
    have h0 := h
    unfold learn_loop at h
    split at h
    · simp only [learn_result.returned.injEq] at h
      rw [← h] at hi hn
      exact Or.inl ⟨hi, hn⟩
    · rename_i hne
      cases hst : learn_step eng D options fam g (node_is_finished small) st with
      | none => simp [hst] at h
      | some st2 =>
        simp only [hst] at h
        have hlen := learn_loop_length eng D options fam g (node_is_finished small) T fuel st2 h
        have hU2 := le_trans hlen hU
        have hinv2 := learn_step_inv eng D options fam g (node_is_finished small) st st2 hinv
          hst hU2
        obtain ⟨hs2, -⟩ := learn_step_ranges eng D options fam g (node_is_finished small) st st2
          hinv hs hst hU2
        cases htodo : st.todo with
        | nil => exact absurd htodo hne
        | cons ui todo =>
          have hmem : ui ∈ st.todo := by rw [htodo]; exact List.mem_cons_self _ _
          have hui := (hinv.pending ui hmem).1
          have huleaf := (hinv.pending ui hmem).2
          obtain ⟨-, cd, cl, c4⟩ := learn_step_cases eng D options fam g
            (node_is_finished small) st st2 ui todo htodo hst hui (hinv.nested.bounds ui hui).1
          have hsorted := hinv.sorted
          rw [htodo] at hsorted
          have hsorted2 := List.pairwise_cons.1 hsorted
          have hnot0 : ui ∉ todo := fun hc => absurd (hsorted2.1 ui hc) (lt_irrefl _)
          obtain ⟨d1, d2, d3, d4⟩ := hd hne
          rw [htodo] at d2 d4
          simp only [List.length_cons] at d2 d4
          obtain ⟨l, hl⟩ : ∃ l, st.level_count = l + 1 := ⟨st.level_count - 1, by omega⟩
          rw [hl] at cd cl d2 d4
          simp only [Nat.add_sub_cancel] at cd cl
          obtain ⟨q1, q2⟩ := hq
          rw [htodo, hl] at q1 q2
          simp only [List.take_succ_cons, List.drop_succ_cons, List.mem_cons,
            forall_eq_or_imp] at q1 q2
          obtain ⟨qu, q1⟩ := q1
          have hui2 : ui < st2.tree.vertices.length :=
            lt_of_lt_of_le hui (learn_step_length eng D options fam g (node_is_finished small)
              st st2 hst)
          have hstable : ui ∉ st2.todo → T.find_vertex ui = st2.tree.find_vertex ui :=
            learn_loop_stable eng D options fam g (node_is_finished small) T hU fuel st2 hinv2
              h ui hui2
          have hperm := (learn_loop_ranges eng D options fam g (node_is_finished small) T hU
            (fuel + 1) st hinv hs h0 ui hui).2.2
          rcases c4 with ⟨hvs, htd⟩ | ⟨hstop, mid, sp, -, -, -, hvs, htd⟩
          · have hd2 : depth_inv options st2 := by
              intro hne2
              rw [htd] at hne2
              have hpos : 0 < todo.length := List.length_pos.2 hne2
              rw [cd, cl, htd]
              by_cases hl0 : l = 0
              · simp only [hl0, if_true]
                have := d4 (by omega)
                exact ⟨by omega, le_refl _, by omega, fun hc => absurd hc (lt_irrefl _)⟩
              · simp only [hl0, if_false]
                exact ⟨by omega, by omega, d3, fun hc => d4 (by omega)⟩
            have hq2 : depth_queue T st2 := by
              unfold depth_queue
              rw [cd, cl, htd]
              by_cases hl0 : l = 0
              · simp only [hl0, if_true, List.take_length, List.drop_length, List.not_mem_nil,
                  false_imp_iff, implies_true, and_true]
                rw [hl0] at q2
                simpa using q2
              · simp only [hl0, if_false]
                exact ⟨q1, q2⟩
            rcases ih st2 hinv2 hs2 hd2 hq2 h i hi hn with ⟨r1, r2⟩ | r
            · left
              rw [hvs] at r1
              have hfv : st2.tree.find_vertex i = st.tree.find_vertex i := by
                simp only [binary_decision_tree.find_vertex, hvs]
              rw [hfv] at r2
              exact ⟨r1, r2⟩
            · exact Or.inr r
          · have hdepth := node_is_finished_false_depth _ _ _ _ _ hstop
            have hn2 : st.tree.vertices.length + 2 ≤ undefined_index := by
              rw [hvs] at hU2; simpa using hU2
            obtain ⟨hmod1, hmod2⟩ := mod_uint32_of_le _ hn2
            rw [hmod1, hmod2] at htd hvs
            simp only [hdepth, if_true] at htd
            have hlen2 : st2.tree.vertices.length = st.tree.vertices.length + 2 := by
              rw [hvs]; simp
            have hnot : ui ∉ st2.todo := by
              rw [htd]
              simp only [List.mem_append, List.mem_cons, List.mem_singleton,
                List.not_mem_nil, or_false, not_or]
              exact ⟨hnot0, by omega, by omega⟩
            have hfl : (T.find_vertex ui).left = st.tree.vertices.length := by
              rw [hstable hnot]
              simp only [binary_decision_tree.find_vertex, hvs]
              rw [getD_split_self _ _ _ _ _ _ hui]
            have hfr : (T.find_vertex ui).right = st.tree.vertices.length + 1 := by
              rw [hstable hnot]
              simp only [binary_decision_tree.find_vertex, hvs]
              rw [getD_split_self _ _ _ _ _ _ hui]
            have hTl : (T.find_vertex ui).is_leaf = false :=
              is_leaf_false_of_left _ (by rw [hfl]; omega)
            have huT : ui < T.vertices.length := lt_of_lt_of_le hui2 hlen
            have ql : at_depth T st.tree.vertices.length (st.depth + 1) := by
              have := at_depth.left ui st.depth qu huT hTl
              rwa [hfl] at this
            have qr : at_depth T (st.tree.vertices.length + 1) (st.depth + 1) := by
              have := at_depth.right ui st.depth qu huT hTl
              rwa [hfr] at this
            have hd2 : depth_inv options st2 := by
              intro _
              rw [cd, cl, htd]
              simp only [List.length_append, List.length_cons, List.length_nil]
              by_cases hl0 : l = 0
              · simp only [hl0, if_true]
                exact ⟨by omega, le_refl _, by omega, fun hc => absurd hc (lt_irrefl _)⟩
              · simp only [hl0, if_false]
                exact ⟨by omega, by omega, d3, fun _ => hdepth⟩
            have hq2 : depth_queue T st2 := by
              unfold depth_queue
              rw [cd, cl, htd]
              by_cases hl0 : l = 0
              · simp only [hl0, if_true, List.take_length, List.drop_length, List.not_mem_nil,
                  false_imp_iff, implies_true, and_true]
                rw [hl0] at q2
                simp only [List.drop_zero] at q2
                intro a ha
                simp only [List.mem_append, List.mem_cons, List.mem_singleton,
                  List.not_mem_nil, or_false] at ha
                rcases ha with ha | ha | ha
                · exact q2 a ha
                · rw [ha]; exact ql
                · rw [ha]; exact qr
              · simp only [hl0, if_false]
                have hle : l ≤ todo.length := by omega
                rw [List.take_append_of_le_length hle, List.drop_append_of_le_length hle]
                refine ⟨q1, ?_⟩
                intro b hb
                simp only [List.mem_append, List.mem_cons, List.mem_singleton,
                  List.not_mem_nil, or_false] at hb
                rcases hb with hb | hb | hb
                · exact q2 b hb
                · rw [hb]; exact ql
                · rw [hb]; exact qr
            rcases ih st2 hinv2 hs2 hd2 hq2 h i hi hn with ⟨r1, r2⟩ | r
            swap
            · exact Or.inr r
            by_cases hio : i < st.tree.vertices.length
            · by_cases hiu : i = ui
              · right
                rw [hiu]
                unfold node_is_finished at hstop
                simp only [Bool.or_eq_false_iff, decide_eq_false_iff_not, not_le, ge_iff_le]
                  at hstop
                obtain ⟨⟨s1, s2⟩, s3⟩ := hstop
                refine ⟨by rw [hperm.length_eq]; exact s1, ?_, st.depth, qu, s3⟩
                rw [compute_class_counts_perm D D.class_count _ _ hperm]
                exact s2
              · left
                have hfv : st2.tree.find_vertex i = st.tree.find_vertex i := by
                  simp only [binary_decision_tree.find_vertex, hvs]
                  exact getD_split_old _ _ _ _ _ _ _ hio hiu
                rw [hfv] at r2
                exact ⟨hio, r2⟩
            · exfalso
              have : i = st.tree.vertices.length ∨ i = st.tree.vertices.length + 1 := by
                omega
              rcases this with h1 | h1
              · rw [h1] at r2
                simp only [binary_decision_tree.find_vertex, hvs] at r2
                rw [getD_split_left _ _ _ _ _ _ hui] at r2
                simp [vertex.is_leaf] at r2
              · rw [h1] at r2
                simp only [binary_decision_tree.find_vertex, hvs] at r2
                rw [getD_split_right _ _ _ _ _ _ hui] at r2
                simp [vertex.is_leaf] at r2

/-- Claim C30: in a tree returned by `learn_decision_tree` with the stop criterion
`node_is_finished`, every vertex `u` that is not a leaf has more than `min_samples_leaf`
samples, the test `mis_classification <= 0.01` is false for the class counts of its samples
(with the test in exact arithmetic, the misclassification impurity is above 1/100), and its
depth in the tree, which is unique, is below `max_depth`; hence a vertex at which
`node_is_finished` holds, at its depth in the tree, is a leaf. -/
theorem learn_decision_tree_stop_leaf {ρ S : Type} (eng : random_engine ρ) (D : dataset)
    (I : List Nat) (options : decision_tree_options) (fam : split_family)
    (g : gain_function S) (small : List Nat → Bool) (seed : ρ) (fuel : Nat)
    (tree : binary_decision_tree)
    (h : learn_decision_tree eng D I options fam g (node_is_finished small) seed fuel =
      .returned tree)
    (hU : tree.vertices.length ≤ undefined_index) :
    (∀ i, i < tree.vertices.length → (tree.find_vertex i).is_leaf = false →
      options.min_samples_leaf < (tree.range (tree.find_vertex i)).length ∧
      small (compute_class_counts D (tree.range (tree.find_vertex i)) D.class_count) = false ∧
      ((∀ c, small c = mis_classification_small c) →
        1 / 100 < mis_classification
          (compute_class_counts D (tree.range (tree.find_vertex i)) D.class_count)) ∧
      ∃ d, at_depth tree i d ∧ (∀ d2, at_depth tree i d2 → d2 = d) ∧ d < options.max_depth) ∧
    (∀ i d, i < tree.vertices.length → at_depth tree i d →
      node_is_finished small (tree.range (tree.find_vertex i)) D d options = true →
      (tree.find_vertex i).is_leaf = true) := by
  unfold learn_decision_tree at h
  obtain ⟨hnum, -, -⟩ := learn_loop_inv eng D options fam g (node_is_finished small) tree hU
    fuel _ (learn_inv_init D I seed) h
  have hd : depth_inv options (learn_state.mk (binary_decision_tree.make D I) seed [0] 0 1) := by
    intro _
    simp
  have hq : depth_queue tree
      (learn_state.mk (binary_decision_tree.make D I) seed [0] 0 1) := by
    unfold depth_queue
    simp only [List.take_succ_cons, List.take_zero, List.mem_singleton, forall_eq,
      List.drop_succ_cons, List.drop_nil, List.not_mem_nil, false_imp_iff, implies_true,
      and_true]
    exact at_depth.root
  have key : ∀ i, i < tree.vertices.length → (tree.find_vertex i).is_leaf = false →
      options.min_samples_leaf < (tree.range (tree.find_vertex i)).length ∧
      small (compute_class_counts D (tree.range (tree.find_vertex i)) D.class_count) = false ∧
      ∃ d, at_depth tree i d ∧ d < options.max_depth := by
    intro i hi hleaf
    rcases learn_loop_stop eng D options fam g small tree hU fuel _ (learn_inv_init D I seed)
      (range_inv_init D I) hd hq h i hi hleaf with ⟨h1, h2⟩ | h1
    · exfalso
      simp only [binary_decision_tree.make, List.length_singleton] at h1
      have : i = 0 := by omega
      subst this
      simp [binary_decision_tree.make, binary_decision_tree.find_vertex, vertex.is_leaf] at h2
    · exact h1
  constructor
  · intro i hi hleaf
    obtain ⟨k1, k2, d, k3, k4⟩ := key i hi hleaf
    refine ⟨k1, k2, ?_, d, k3, ?_, k4⟩
    · intro hsm
      rw [hsm] at k2
      simpa [mis_classification_small] using k2
    · intro d2 hd2
      exact at_depth_unique tree hnum i d2 hd2 i d k3 rfl
  · intro i d hi hdep hfin
    cases hleaf : (tree.find_vertex i).is_leaf with
    | true => rfl
    | false =>
      exfalso
      obtain ⟨k1, k2, d0, k3, k4⟩ := key i hi hleaf
      have e := at_depth_unique tree hnum i d hdep i d0 k3 rfl
      subst e
      unfold node_is_finished at hfin
      simp only [Bool.or_eq_true, decide_eq_true_eq, ge_iff_le] at hfin
      rcases hfin with (hfin | hfin) | hfin
      · omega
      · rw [k2] at hfin; exact absurd hfin (by simp)
      · omega

theorem learn_decision_tree_stop_leaf_witness :
    learn_decision_tree const_engine test_apply_split_dataset [0, 1, 2, 3] {}
      .threshold_plus_single gini_gain (node_is_finished mis_classification_small) () 10 =
      .returned test_tree ∧
    test_tree.vertices.length ≤ undefined_index ∧
    (∀ i, i < test_tree.vertices.length → (test_tree.find_vertex i).is_leaf = false →
      ({} : decision_tree_options).min_samples_leaf <
        (test_tree.range (test_tree.find_vertex i)).length ∧
      mis_classification_small (compute_class_counts test_apply_split_dataset
        (test_tree.range (test_tree.find_vertex i)) test_apply_split_dataset.class_count) =
        false ∧
      ((∀ c, mis_classification_small c = mis_classification_small c) →
        1 / 100 < mis_classification (compute_class_counts test_apply_split_dataset
          (test_tree.range (test_tree.find_vertex i))
          test_apply_split_dataset.class_count)) ∧
      ∃ d, at_depth test_tree i d ∧ (∀ d2, at_depth test_tree i d2 → d2 = d) ∧
        d < ({} : decision_tree_options).max_depth) :=
  ⟨test_tree_learned, test_tree_size,
    (learn_decision_tree_stop_leaf const_engine test_apply_split_dataset [0, 1, 2, 3] {}
      .threshold_plus_single gini_gain mis_classification_small () 10 test_tree
      test_tree_learned test_tree_size).1⟩

/-- The vertices of `test_tree` that are not leaves, with their numbers of samples, their
misclassification impurities and their depths; the depth of vertex 2 is 1. -/
theorem test_tree_inner_vertices :
    (test_tree.vertices.map (fun u => u.is_leaf)) = [false, true, false, true, true] ∧
    (test_tree.range (test_tree.find_vertex 0)).length = 4 ∧
    (test_tree.range (test_tree.find_vertex 2)).length = 3 ∧
    mis_classification (compute_class_counts test_apply_split_dataset
      (test_tree.range (test_tree.find_vertex 0)) test_apply_split_dataset.class_count) =
      1 / 2 ∧
    mis_classification (compute_class_counts test_apply_split_dataset
      (test_tree.range (test_tree.find_vertex 2)) test_apply_split_dataset.class_count) =
      1 / 3 ∧
    at_depth test_tree 0 0 ∧ at_depth test_tree 2 1 :=
  ⟨by simp [test_tree, vertex.is_leaf, undefined_index], by decide, by decide, by decide!,
    by decide!, at_depth.root,
    at_depth.right 0 0 at_depth.root (by decide) (by simp [test_tree,
      binary_decision_tree.find_vertex, vertex.is_leaf, undefined_index])⟩

/-! ## `enumerate_intervals` and the intervals computed from scratch -/

theorem left_intervals_scratch (u : vertex) (iv : List interval) :
    left_intervals u iv = scratch_step u.split true iv := by
  unfold left_intervals scratch_step
  cases hs : u.split with
  | threshold s => simp [threshold_value, split_variable, write_bound]
  | monostate => simp only [threshold_value]; exact write_bound_read _ _
  | single s => simp only [threshold_value]; exact write_bound_read _ _
  | subset s => simp only [threshold_value]; exact write_bound_read _ _

theorem right_intervals_scratch (u : vertex) (iv : List interval) :
    right_intervals u iv = scratch_step u.split false iv := by
  unfold right_intervals scratch_step
  cases hs : u.split with
  | threshold s => simp [threshold_value, split_variable, write_bound]
  | monostate => simp only [threshold_value]; exact write_bound_read _ _
  | single s => simp only [threshold_value]; exact write_bound_read _ _
  | subset s => simp only [threshold_value]; exact write_bound_read _ _

/-- The reports of the traversal below `u` are the vertices at the end of the paths from
`u`, each with the intervals computed from scratch along its path. -/
theorem interval_reports_paths (tree : binary_decision_tree) :
    ∀ (d u : Nat) (iv : List interval),
      interval_reports tree d u iv = (subtree_paths tree d u).map
        (fun p => ((descend tree u p).getD 0, scratch_intervals tree u p iv)) := by
  intro d
  induction d with
  | zero => intro u iv; simp [interval_reports, subtree_paths, descend, scratch_intervals]
  | succ d ih =>
    intro u iv
    unfold interval_reports subtree_paths
    cases hl : (tree.find_vertex u).is_leaf with
    | true => simp [descend, scratch_intervals]
    | false =>
      simp only [Bool.false_eq_true, if_false, List.map_cons, List.map_append, List.map_map]
      rw [ih, ih, left_intervals_scratch, right_intervals_scratch]
      simp [descend, scratch_intervals, hl, Function.comp_def]

theorem subtree_paths_nodup (tree : binary_decision_tree) :
    ∀ (d u : Nat), (subtree_paths tree d u).Nodup := by
  intro d
  induction d with
  | zero => intro u; simp [subtree_paths]
  | succ d ih =>
    intro u
    unfold subtree_paths
    split
    · simp
    · rw [List.nodup_cons]
      refine ⟨by simp, ?_⟩
      rw [List.nodup_append]
      refine ⟨(ih _).map (fun a b h => by simpa using h),
        (ih _).map (fun a b h => by simpa using h), ?_⟩
      intro p h1 h2
      simp only [List.mem_map] at h1 h2
      obtain ⟨a, -, ha⟩ := h1
      obtain ⟨b, -, hb⟩ := h2
      rw [← hb] at ha
      simp at ha

theorem subtree_paths_descend (tree : binary_decision_tree) :
    ∀ (d u : Nat) (p : List Bool), p ∈ subtree_paths tree d u →
      (descend tree u p).isSome = true := by
  intro d
  induction d with
  | zero => intro u p hp; simp [subtree_paths] at hp; simp [hp, descend]
  | succ d ih =>
    intro u p hp
    unfold subtree_paths at hp
    cases hl : (tree.find_vertex u).is_leaf with
    | true => simp [hl] at hp; simp [hp, descend]
    | false =>
      simp only [hl, Bool.false_eq_true, if_false, List.mem_cons, List.mem_append,
        List.mem_map] at hp
      rcases hp with hp | ⟨q, hq, hp⟩ | ⟨q, hq, hp⟩
      · simp [hp, descend]
      · rw [← hp]; simpa [descend, hl] using ih _ q hq
      · rw [← hp]; simpa [descend, hl] using ih _ q hq

theorem descend_subtree_paths (tree : binary_decision_tree) (hch : children_above tree) :
    ∀ (d u : Nat) (p : List Bool), tree.vertices.length - u ≤ d → u < tree.vertices.length →
      (descend tree u p).isSome = true → p ∈ subtree_paths tree d u := by
  intro d
  induction d with
  | zero => intro u p hd hu; omega
  | succ d ih =>
    intro u p hd hu hp
    unfold subtree_paths
    cases p with
    | nil => split <;> simp
    | cons b q =>
      cases hl : (tree.find_vertex u).is_leaf with
      | true => simp [descend, hl] at hp
      | false =>
        obtain ⟨c1, c2, c3, c4⟩ := hch u hu hl
        simp only [descend, hl, Bool.false_eq_true, if_false] at hp
        simp only [Bool.false_eq_true, if_false, List.mem_cons, List.mem_append,
          List.mem_map, reduceCtorEq, false_or]
        cases b with
        | true =>
          left
          exact ⟨q, ih _ q (by omega) c3 (by simpa using hp), rfl⟩
        | false =>
          right
          exact ⟨q, ih _ q (by omega) c4 (by simpa using hp), rfl⟩

theorem descend_concat (tree : binary_decision_tree) :
    ∀ (p : List Bool) (u : Nat) (d : Bool),
      descend tree u (p ++ [d]) = (descend tree u p).bind (fun w =>
        if (tree.find_vertex w).is_leaf then none
        else some (if d then (tree.find_vertex w).left else (tree.find_vertex w).right)) := by
  intro p
  induction p with
  | nil => intro u d; simp [descend]
  | cons b p ih =>
    intro u d
    simp only [List.cons_append, descend]
    split
    · rfl
    · exact ih _ d

theorem descend_lt (tree : binary_decision_tree) (hch : children_above tree) :
    ∀ (p : List Bool) (u w : Nat), u < tree.vertices.length → descend tree u p = some w →
      w < tree.vertices.length := by
  intro p
  induction p with
  | nil => intro u w hu h; simp only [descend, Option.some.injEq] at h; omega
  | cons b p ih =>
    intro u w hu h
    cases hl : (tree.find_vertex u).is_leaf with
    | true => simp [descend, hl] at h
    | false =>
      obtain ⟨-, -, c3, c4⟩ := hch u hu hl
      simp only [descend, hl, Bool.false_eq_true, if_false] at h
      cases b with
      | true => exact ih _ w c3 (by simpa using h)
      | false => exact ih _ w c4 (by simpa using h)

theorem descend_concat_some (tree : binary_decision_tree) (p : List Bool) (d : Bool)
    (u v : Nat) (h : descend tree u (p ++ [d]) = some v) :
    ∃ w, descend tree u p = some w ∧ (tree.find_vertex w).is_leaf = false ∧
      v = if d then (tree.find_vertex w).left else (tree.find_vertex w).right := by
  rw [descend_concat] at h
  cases hw : descend tree u p with
  | none => simp [hw] at h
  | some w =>
    simp only [hw, Option.some_bind] at h
    cases hl : (tree.find_vertex w).is_leaf with
    | true => simp [hl] at h
    | false =>
      simp only [hl, Bool.false_eq_true, if_false, Option.some.injEq] at h
      exact ⟨w, rfl, hl, h.symm⟩

/-- In a tree numbered breadth first a vertex is reached from the root by one path. -/
theorem bfs_numbered_path_unique (tree : binary_decision_tree)
    (hn : bfs_numbered tree.vertices) :
    ∀ (p q : List Bool) (u : Nat), descend tree 0 p = some u → descend tree 0 q = some u →
      p = q := by
  have hch := bfs_numbered_children_above tree hn
  have hpos := bfs_numbered_pos _ hn
  have hroot : ∀ (q : List Bool) (e : Bool), descend tree 0 (q ++ [e]) ≠ some 0 := by
    intro q e h
    obtain ⟨w, h1, h2, h3⟩ := descend_concat_some tree q e 0 0 h
    have hw := descend_lt tree hch q 0 w hpos h1
    obtain ⟨c1, c2, -, -⟩ := hch w hw h2
    cases e <;> simp at h3 <;> omega
  intro p
  induction p using List.reverseRecOn with
  | nil =>
    intro q u hp hq
    simp only [descend, Option.some.injEq] at hp
    rcases List.eq_nil_or_concat q with h | ⟨q2, e, h⟩
    · exact h.symm
    · rw [List.concat_eq_append] at h
      rw [h, ← hp] at hq
      exact absurd hq (hroot q2 e)
  | append_singleton p d ih =>
    intro q u hp hq
    rcases List.eq_nil_or_concat q with h | ⟨q2, e, h⟩
    · rw [h] at hq
      simp only [descend, Option.some.injEq] at hq
      rw [← hq] at hp
      exact absurd hp (hroot p d)
    · rw [List.concat_eq_append] at h
      rw [h] at hq ⊢
      obtain ⟨w1, a1, a2, a3⟩ := descend_concat_some tree p d 0 u hp
      obtain ⟨w2, b1, b2, b3⟩ := descend_concat_some tree q2 e 0 u hq
      have hw1 := descend_lt tree hch p 0 w1 hpos a1
      have hw2 := descend_lt tree hch q2 0 w2 hpos b1
      obtain ⟨l1, r1⟩ := bfs_numbered_left_right tree hn w1 hw1 a2
      obtain ⟨l2, r2⟩ := bfs_numbered_left_right tree hn w2 hw2 b2
      have hde : d = e ∧ nonleaf_count tree.vertices w1 = nonleaf_count tree.vertices w2 := by
        cases d <;> cases e <;> simp at a3 b3 <;> constructor <;> first | rfl | omega
      have hw : w1 = w2 := nonleaf_count_inj tree w1 w2 hw1 hw2 a2 b2 hde.2
      rw [← hw] at b1
      rw [ih q2 w1 a1 b1, hde.1]

/-- The loop of `enumerate_intervals` ends with the intervals it started with, an empty
undo stack, and the reports of the depth first traversal. -/
theorem enumerate_intervals_loop_final (tree : binary_decision_tree)
    (hch : children_above tree) (hn : 0 < tree.vertices.length) (m : Nat)
    (hl : (tree.find_vertex 0).is_leaf = false) :
    ∃ k, ∀ fuel, k ≤ fuel → enumerate_intervals_loop tree fuel
      (add_left (tree.find_vertex 0) (add_right (tree.find_vertex 0)
        (intervals_state.mk (List.replicate m {}) [] [] [(0, List.replicate m {})]))) =
      some (intervals_state.mk (List.replicate m {}) [] []
        (interval_reports tree tree.vertices.length 0 (List.replicate m {}))) := by
  obtain ⟨n1, hn1⟩ : ∃ n1, tree.vertices.length = n1 + 1 :=
    ⟨tree.vertices.length - 1, by omega⟩
  obtain ⟨c1, c2, c3, c4⟩ := hch 0 hn hl
  generalize hI1 : List.replicate m ({} : interval) = I1
  generalize hbl : bound_ref.mk (split_variable (tree.find_vertex 0).split) true = bl
  generalize hbr : bound_ref.mk (split_variable (tree.find_vertex 0).split) false = br
  obtain ⟨k1, hk1⟩ := enumerate_intervals_subtree tree hch n1 (tree.find_vertex 0).left
    (by omega) c3 I1
    ((false, bl, read_bound I1 bl) :: (true, br, read_bound I1 br) :: [])
    (((tree.find_vertex 0).right, br,
      threshold_value (tree.find_vertex 0).split (read_bound I1 br)) :: [])
    [(0, I1)] bl (threshold_value (tree.find_vertex 0).split (read_bound I1 bl))
  obtain ⟨k2, hk2⟩ := enumerate_intervals_subtree tree hch n1 (tree.find_vertex 0).right
    (by omega) c4 I1
    ((true, br, read_bound I1 br) :: []) []
    ([(0, I1)] ++ interval_reports tree n1 (tree.find_vertex 0).left
      (write_bound I1 bl (threshold_value (tree.find_vertex 0).split (read_bound I1 bl))))
    br (threshold_value (tree.find_vertex 0).split (read_bound I1 br))
  refine ⟨k2 + k1, fun fuel hfuel => ?_⟩
  obtain ⟨f, rfl⟩ : ∃ f, fuel = f + k2 + k1 := ⟨fuel - (k2 + k1), by omega⟩
  have h0 : add_left (tree.find_vertex 0) (add_right (tree.find_vertex 0)
      (intervals_state.mk I1 [] [] [(0, I1)])) =
      intervals_state.mk I1
        ((false, bl, read_bound I1 bl) :: (true, br, read_bound I1 br) :: [])
        (((tree.find_vertex 0).left, bl,
            threshold_value (tree.find_vertex 0).split (read_bound I1 bl)) ::
          ((tree.find_vertex 0).right, br,
            threshold_value (tree.find_vertex 0).split (read_bound I1 br)) :: [])
        [(0, I1)] := by
    simp [add_left, add_right, hbl, hbr]
  rw [h0, hk1, undo_loop_left, hk2, undo_loop_right, enumerate_intervals_loop_nil _ _ _ rfl]
  simp only [Option.some.injEq, hn1]
  conv_rhs => unfold interval_reports
  simp [hl, left_intervals, right_intervals, hbl, hbr, undo_loop]

/-- Claim C31: on a tree (the children of a vertex have greater indices inside the vertex
array, and a vertex is reached from the root by one path at most) `enumerate_intervals`
returns; its reports are the vertices at the end of the paths from the root, each with
the intervals computed from scratch along its path (`scratch_intervals`: a threshold split
`(i, t)` sets `intervals[i].b = t` on a step to the left and `intervals[i].a = t` on a step
to the right, single and subset splits change nothing), no vertex is reported twice, and
the loop ends with the all-maximal intervals it started with and an empty undo stack. -/
theorem enumerate_intervals_from_scratch (tree : binary_decision_tree)
    (hch : children_above tree) (hn : 0 < tree.vertices.length)
    (htree : ∀ (p q : List Bool) (u : Nat), descend tree 0 p = some u →
      descend tree 0 q = some u → p = q) (m : Nat) :
    ∃ k, ∀ fuel, k ≤ fuel → ∃ reports,
      enumerate_intervals tree m fuel = some reports ∧
      (∀ u iv, (u, iv) ∈ reports ↔ ∃ p, descend tree 0 p = some u ∧
        iv = scratch_intervals tree 0 p (List.replicate m {})) ∧
      (reports.map Prod.fst).Nodup ∧
      ((tree.find_vertex 0).is_leaf = false →
        enumerate_intervals_loop tree fuel
          (add_left (tree.find_vertex 0) (add_right (tree.find_vertex 0)
            (intervals_state.mk (List.replicate m {}) [] [] [(0, List.replicate m {})]))) =
        some (intervals_state.mk (List.replicate m {}) [] [] reports)) := by
  obtain ⟨k1, hk1⟩ := enumerate_intervals_spec tree hch hn m
  have hk2 : ∃ k2, (tree.find_vertex 0).is_leaf = false → ∀ fuel, k2 ≤ fuel →
      enumerate_intervals_loop tree fuel
        (add_left (tree.find_vertex 0) (add_right (tree.find_vertex 0)
          (intervals_state.mk (List.replicate m {}) [] [] [(0, List.replicate m {})]))) =
      some (intervals_state.mk (List.replicate m {}) [] []
        (interval_reports tree tree.vertices.length 0 (List.replicate m {}))) := by
    cases hl : (tree.find_vertex 0).is_leaf with
    | true => exact ⟨0, fun h => absurd h (by simp)⟩
    | false =>
      obtain ⟨k, hk⟩ := enumerate_intervals_loop_final tree hch hn m hl
      exact ⟨k, fun _ => hk⟩
  obtain ⟨k2, hk2⟩ := hk2
  refine ⟨max k1 k2, fun fuel hfuel => ⟨_, hk1 fuel (le_trans (le_max_left _ _) hfuel), ?_, ?_,
    fun hl => hk2 hl fuel (le_trans (le_max_right _ _) hfuel)⟩⟩
  · intro u iv
    rw [interval_reports_paths]
    simp only [List.mem_map, Prod.mk.injEq]
    constructor
    · rintro ⟨p, hp, h1, h2⟩
      have hs := subtree_paths_descend tree _ _ p hp
      obtain ⟨w, hw⟩ := Option.isSome_iff_exists.1 hs
      rw [hw] at h1
      simp only [Option.getD_some] at h1
      exact ⟨p, by rw [hw, h1], h2.symm⟩
    · rintro ⟨p, hp, h2⟩
      refine ⟨p, descend_subtree_paths tree hch _ 0 p (by omega) hn (by rw [hp]; rfl), ?_,
        h2.symm⟩
      rw [hp]; rfl
  · rw [interval_reports_paths, List.map_map]
    apply List.Nodup.map_on _ (subtree_paths_nodup tree _ _)
    intro p hp q hq hpq
    obtain ⟨w1, hw1⟩ := Option.isSome_iff_exists.1 (subtree_paths_descend tree _ _ p hp)
    obtain ⟨w2, hw2⟩ := Option.isSome_iff_exists.1 (subtree_paths_descend tree _ _ q hq)
    simp only [Function.comp, hw1, hw2, Option.getD_some] at hpq
    rw [← hpq] at hw2
    exact htree p q w1 hw1 hw2

theorem intervals_test_tree_numbered : bfs_numbered intervals_test_tree.vertices :=
  ⟨by decide!, by decide!, by decide!⟩

theorem enumerate_intervals_from_scratch_witness :
    children_above intervals_test_tree ∧ 0 < intervals_test_tree.vertices.length ∧
    (∀ (p q : List Bool) (u : Nat), descend intervals_test_tree 0 p = some u →
      descend intervals_test_tree 0 q = some u → p = q) ∧
    ∃ k, ∀ fuel, k ≤ fuel → ∃ reports,
      enumerate_intervals intervals_test_tree 3 fuel = some reports ∧
      (∀ u iv, (u, iv) ∈ reports ↔ ∃ p, descend intervals_test_tree 0 p = some u ∧
        iv = scratch_intervals intervals_test_tree 0 p (List.replicate 3 {})) ∧
      (reports.map Prod.fst).Nodup ∧
      ((intervals_test_tree.find_vertex 0).is_leaf = false →
        enumerate_intervals_loop intervals_test_tree fuel
          (add_left (intervals_test_tree.find_vertex 0)
            (add_right (intervals_test_tree.find_vertex 0)
              (intervals_state.mk (List.replicate 3 {}) [] []
                [(0, List.replicate 3 {})]))) =
        some (intervals_state.mk (List.replicate 3 {}) [] [] reports)) :=
  ⟨bfs_numbered_children_above _ intervals_test_tree_numbered, by decide,
    bfs_numbered_path_unique _ intervals_test_tree_numbered,
    enumerate_intervals_from_scratch intervals_test_tree
      (bfs_numbered_children_above _ intervals_test_tree_numbered) (by decide)
      (bfs_numbered_path_unique _ intervals_test_tree_numbered) 3⟩

/-- The reports of `enumerate_intervals` on the tree of `test_intervals2`: the single split
of vertex 2 leaves the intervals of the vertices 5 and 6 as they are at vertex 2. -/
theorem intervals_test_tree_reports :
    enumerate_intervals intervals_test_tree 3 10 = some
      [(0, [{}, {}, {}]),
       (1, [{}, {}, { b := .num 5 }]),
       (3, [{ b := .num 3 }, {}, { b := .num 5 }]),
       (4, [{ a := .num 3 }, {}, { b := .num 5 }]),
       (2, [{}, {}, { a := .num 5 }]),
       (5, [{}, {}, { a := .num 5 }]),
       (6, [{}, {}, { a := .num 5 }])] := by
  decide!

/-! ## `enumerate_single_splits` with missing values -/

/-- Claim C32: on `missing_category_dataset` with `support_missing_values`, the sample 1
with a missing value is moved to the back of the range, and `enumerate_single_splits`
reports for it the single split with the value NaN, with the sample counted in
`D1_counts`; `enumerate_threshold_splits` on the same input reports no split with the value
NaN. The outer loop runs to `I.end()` and not to `Iend`. -/
theorem enumerate_single_splits_missing :
    enumerate_single_splits missing_category_dataset [0, 1, 2] 0
      { support_missing_values := true } 2 =
      ([0, 2, 1],
       [{ split := .single ⟨0, .num 0⟩, D1_counts := [1, 0], D2_counts := [1, 1] },
        { split := .single ⟨0, .num 1⟩, D1_counts := [1, 0], D2_counts := [1, 1] },
        { split := .single ⟨0, .nan⟩, D1_counts := [0, 1], D2_counts := [2, 0] }]) ∧
    is_missing (missing_category_dataset.at 1 0) = true ∧
    missing_category_dataset.class_of 1 = 1 ∧
    enumerate_threshold_splits missing_category_dataset [0, 1, 2] 0
      { support_missing_values := true } 2 =
      ([0, 2, 1],
       [{ split := .threshold ⟨0, .num 1⟩, D1_counts := [1, 0], D2_counts := [1, 0] }]) := by
  decide!

/-! ## The bound `max_categorical_size` -/

/-- Claim C33, amended: a variable whose category count is greater than
`options.max_categorical_size` is treated as a continuous variable: the families
`threshold_plus_single` and `threshold_plus_subset` enumerate threshold splits for it; a
variable with `2 <= ncat[v] <= max_categorical_size`, the count `max_categorical_size`
itself included, gets the single splits or the subset splits. The test of the families is
`2 <= ncat_v && ncat_v <= options.max_categorical_size`. -/
theorem enumerate_variable_max_categorical_size (D : dataset)
    (options : decision_tree_options) (I : List Nat) (v : Nat) :
    (options.max_categorical_size < D.category_counts.getD v 0 →
      split_family.threshold_plus_single.enumerate_variable D options I v =
        some (enumerate_threshold_splits D I v options D.class_count) ∧
      split_family.threshold_plus_subset.enumerate_variable D options I v =
        some (enumerate_threshold_splits D I v options D.class_count)) ∧
    (2 ≤ D.category_counts.getD v 0 →
      D.category_counts.getD v 0 ≤ options.max_categorical_size →
      split_family.threshold_plus_single.enumerate_variable D options I v =
        some (enumerate_single_splits D I v options D.class_count) ∧
      split_family.threshold_plus_subset.enumerate_variable D options I v =
        enumerate_subset_splits D I v options) := by
  constructor
  · intro h
    have hn : ¬ (2 ≤ D.category_counts.getD v 0 ∧
        D.category_counts.getD v 0 ≤ options.max_categorical_size) := by omega
    simp only [split_family.enumerate_variable, hn, if_false, and_self]
  · intro h1 h2
    have hp : 2 ≤ D.category_counts.getD v 0 ∧
        D.category_counts.getD v 0 ≤ options.max_categorical_size := ⟨h1, h2⟩
    simp only [split_family.enumerate_variable, hp, and_self, if_true]

theorem enumerate_variable_max_categorical_size_witness :
    ((3 < test_apply_split_dataset.category_counts.getD 0 0) ∧
      split_family.threshold_plus_single.enumerate_variable test_apply_split_dataset
          { max_categorical_size := 3 } [0, 1, 2, 3] 0 =
        some (enumerate_threshold_splits test_apply_split_dataset [0, 1, 2, 3] 0
          { max_categorical_size := 3 } test_apply_split_dataset.class_count) ∧
      split_family.threshold_plus_subset.enumerate_variable test_apply_split_dataset
          { max_categorical_size := 3 } [0, 1, 2, 3] 0 =
        some (enumerate_threshold_splits test_apply_split_dataset [0, 1, 2, 3] 0
          { max_categorical_size := 3 } test_apply_split_dataset.class_count)) ∧
    (2 ≤ test_apply_split_dataset.category_counts.getD 0 0 ∧
      test_apply_split_dataset.category_counts.getD 0 0 ≤ 4 ∧
      split_family.threshold_plus_single.enumerate_variable test_apply_split_dataset
          { max_categorical_size := 4 } [0, 1, 2, 3] 0 =
        some (enumerate_single_splits test_apply_split_dataset [0, 1, 2, 3] 0
          { max_categorical_size := 4 } test_apply_split_dataset.class_count) ∧
      split_family.threshold_plus_subset.enumerate_variable test_apply_split_dataset
          { max_categorical_size := 4 } [0, 1, 2, 3] 0 =
        enumerate_subset_splits test_apply_split_dataset [0, 1, 2, 3] 0
          { max_categorical_size := 4 }) :=
  ⟨⟨by decide, (enumerate_variable_max_categorical_size test_apply_split_dataset
      { max_categorical_size := 3 } [0, 1, 2, 3] 0).1 (by decide)⟩,
    ⟨by decide, by decide, (enumerate_variable_max_categorical_size test_apply_split_dataset
      { max_categorical_size := 4 } [0, 1, 2, 3] 0).2 (by decide) (by decide)⟩⟩

/-- Claim C33: variable 0 of the dataset of `test_apply_split` has 4 categories; with
`max_categorical_size = 4`, so that `ncat[v] >= max_categorical_size` holds, the family
`threshold_plus_single` enumerates single splits for it and the family
`threshold_plus_subset` enumerates subset splits, not the threshold splits that both
enumerate with `max_categorical_size = 3`. -/
theorem enumerate_variable_at_max_categorical_size :
    test_apply_split_dataset.category_counts.getD 0 0 = 4 ∧
    (split_family.threshold_plus_single.enumerate_variable test_apply_split_dataset
      { max_categorical_size := 4 } [0, 1, 2, 3] 0).map (fun r => r.2.map (fun c => c.split)) =
      some [.single ⟨0, .num 1⟩, .single ⟨0, .num 2⟩, .single ⟨0, .num 3⟩] ∧
    (split_family.threshold_plus_subset.enumerate_variable test_apply_split_dataset
      { max_categorical_size := 4 } [0, 1, 2, 3] 0).map (fun r => r.2.map (fun c => c.split)) =
      some [.subset ⟨0, 6⟩, .subset ⟨0, 10⟩] ∧
    (split_family.threshold_plus_single.enumerate_variable test_apply_split_dataset
      { max_categorical_size := 3 } [0, 1, 2, 3] 0).map (fun r => r.2.map (fun c => c.split)) =
      some [.threshold ⟨0, .num 2⟩, .threshold ⟨0, .num 3⟩] ∧
    (split_family.threshold_plus_subset.enumerate_variable test_apply_split_dataset
      { max_categorical_size := 3 } [0, 1, 2, 3] 0).map (fun r => r.2.map (fun c => c.split)) =
      some [.threshold ⟨0, .num 2⟩, .threshold ⟨0, .num 3⟩] := by
  decide!

/-! ## `accuracy` and `accuracy_parallel` of a random forest -/

/-- Claim C34: for the forest with the one tree `mixed_tree` and the two indices 0 and 1 of
`mixed_dataset`, both predicted correctly, `accuracy` returns 1 and `accuracy_parallel`
returns 1/2: the vector `correct` of `accuracy_parallel` has one element for every tree,
not for every index, so only the first index is evaluated. -/
theorem accuracy_parallel_trees :
    random_forest.accuracy (fun (lo _ : Nat) (s : Unit) => (lo, s)) [mixed_tree] [0, 1]
      mixed_dataset () 20 = some (.num 1) ∧
    random_forest.accuracy_parallel (fun (lo _ : Nat) (s : Unit) => (lo, s)) [mixed_tree]
      [0, 1] mixed_dataset () 20 = some (.num (1 / 2)) ∧
    (∀ i ∈ [0, 1], predict (fun (lo _ : Nat) (s : Unit) => (lo, s)) mixed_tree
      (mixed_dataset.X.getD i []) () 20 = some (mixed_dataset.class_of i, ())) ∧
    random_forest.accuracy (fun (lo _ : Nat) (s : Unit) => (lo, s)) [mixed_tree, mixed_tree]
      [0, 1] mixed_dataset () 20 = some (.num 1) ∧
    random_forest.accuracy_parallel (fun (lo _ : Nat) (s : Unit) => (lo, s))
      [mixed_tree, mixed_tree] [0, 1] mixed_dataset () 20 = some (.num 1) := by
  decide!

/-! ## The section found by `find_categorical_section` -/

theorem find_categorical_section_loop_some (x : Value) :
    ∀ (rest : List Value) (i : Nat) (sum : Value) (r : Nat),
      find_categorical_section_loop x rest i sum = some r →
      i ≤ r ∧ r < i + rest.length ∧
      x.le ((rest.take (r - i + 1)).foldl binary64.add sum) = true ∧
      ∀ j, j < r - i → x.le ((rest.take (j + 1)).foldl binary64.add sum) = false := by
  intro rest
  induction rest with
  | nil => intro i sum r h; simp [find_categorical_section_loop] at h
  | cons p_i rest ih =>
    intro i sum r h
    unfold find_categorical_section_loop at h
    by_cases hx : x.le (binary64.add sum p_i) = true
    · rw [if_pos hx] at h
      simp only [Option.some.injEq] at h
      subst h
      refine ⟨le_refl _, by simp, by simpa using hx, fun j hj => absurd hj (by omega)⟩
    · rw [if_neg hx] at h
      obtain ⟨a1, a2, a3, a4⟩ := ih (i + 1) (binary64.add sum p_i) r h
      refine ⟨by omega, by simp only [List.length_cons]; omega, ?_, ?_⟩
      · have e : r - i + 1 = (r - (i + 1) + 1) + 1 := by omega
        rw [e, List.take_succ_cons, List.foldl_cons]
        exact a3
      · intro j hj
        cases j with
        | zero => simpa using hx
        | succ j =>
          rw [List.take_succ_cons, List.foldl_cons]
          exact a4 j (by omega)

theorem find_categorical_section_loop_none (x : Value) :
    ∀ (rest : List Value) (i : Nat) (sum : Value),
      find_categorical_section_loop x rest i sum = none →
      ∀ j, j < rest.length → x.le ((rest.take (j + 1)).foldl binary64.add sum) = false := by
  intro rest
  induction rest with
  | nil => intro i sum _ j hj; simp at hj
  | cons p_i rest ih =>
    intro i sum h j hj
    unfold find_categorical_section_loop at h
    by_cases hx : x.le (binary64.add sum p_i) = true
    · rw [if_pos hx] at h; exact absurd h (by simp)
    · rw [if_neg hx] at h
      cases j with
      | zero => simpa using hx
      | succ j =>
        rw [List.take_succ_cons, List.foldl_cons]
        exact ih (i + 1) (binary64.add sum p_i) h j (by simpa using hj)

/-- Claim C35: for a sequence `p` that is not empty,
`find_categorical_section(p, x)` is a valid index for every `x`; and for an `x` with
`x <= p[0] + ... + p[n-1]` it is the smallest index `i` with `x <= p[0] + ... + p[i]`,
the sums being the doubles that the loop computes: the weights are added from left to
right, with a rounding after every addition. A sum node with as many
successors as weights is therefore given the index of an existing child. -/
theorem find_categorical_section_spec (p : List Value) (x : Value) (hp : p ≠ []) :
    find_categorical_section p x < p.length ∧
    (∀ successors : List Nat, successors.length = p.length →
      find_categorical_section p x < successors.length) ∧
    (x.le (binary64.sum p) = true →
      x.le (binary64.sum (p.take (find_categorical_section p x + 1))) = true ∧
      ∀ j, j < find_categorical_section p x →
        x.le (binary64.sum (p.take (j + 1))) = false) := by
  have hpos : 0 < p.length := List.length_pos.2 hp
  have hlast : (p.length + (2 ^ 64 - 1)) % 2 ^ 64 ≤ p.length - 1 := by
    have e : p.length + (2 ^ 64 - 1) = (p.length - 1) + 2 ^ 64 := by
      have : 1 ≤ (2 : Nat) ^ 64 := Nat.one_le_two_pow
      generalize (2 : Nat) ^ 64 = t at this ⊢
      omega
    rw [e, Nat.add_mod_right]
    exact Nat.mod_le _ _
  have h1 : find_categorical_section p x < p.length := by
    unfold find_categorical_section
    cases h : find_categorical_section_loop x p 0 (.num 0) with
    | none =>
      rw [Option.getD_none]
      exact lt_of_le_of_lt hlast (Nat.sub_lt hpos Nat.one_pos)
    | some r =>
      obtain ⟨-, a2, -, -⟩ := find_categorical_section_loop_some x p 0 _ r h
      simpa using a2
  refine ⟨h1, fun s hs => by rw [hs]; exact h1, ?_⟩
  intro hx
  unfold find_categorical_section
  cases h : find_categorical_section_loop x p 0 (.num 0) with
  | none =>
    exfalso
    have := find_categorical_section_loop_none x p 0 _ h (p.length - 1) (by omega)
    have e : p.length - 1 + 1 = p.length := by omega
    rw [e, List.take_length] at this
    unfold binary64.sum at hx
    rw [this] at hx
    exact absurd hx (by simp)
  | some r =>
    obtain ⟨-, -, a3, a4⟩ := find_categorical_section_loop_some x p 0 _ r h
    simp only [Option.getD_some, binary64.sum]
    exact ⟨by simpa using a3, fun j hj => a4 j (by simpa using hj)⟩

theorem find_categorical_section_spec_witness :
    ([.num (1 / 4), .num (1 / 4), .num (1 / 2)] : List Value) ≠ [] ∧
    find_categorical_section [.num (1 / 4), .num (1 / 4), .num (1 / 2)] (.num (1 / 2)) <
      ([.num (1 / 4), .num (1 / 4), .num (1 / 2)] : List Value).length :=
  ⟨by simp,
    (find_categorical_section_spec [.num (1 / 4), .num (1 / 4), .num (1 / 2)] (.num (1 / 2))
      (by simp)).1⟩

/-- The sections found for the weights 1/4, 1/4, 1/2: a number on the border of two
sections belongs to the first of them, a number above the sum of the weights and NaN are
given the last index. -/
theorem find_categorical_section_values :
    find_categorical_section [.num (1 / 4), .num (1 / 4), .num (1 / 2)] (.num 0) = 0 ∧
    find_categorical_section [.num (1 / 4), .num (1 / 4), .num (1 / 2)] (.num (1 / 4)) = 0 ∧
    find_categorical_section [.num (1 / 4), .num (1 / 4), .num (1 / 2)] (.num (1 / 2)) = 1 ∧
    find_categorical_section [.num (1 / 4), .num (1 / 4), .num (1 / 2)] (.num (3 / 5)) = 2 ∧
    find_categorical_section [.num (1 / 4), .num (1 / 4), .num (1 / 2)] (.num 2) = 2 ∧
    find_categorical_section [.num (1 / 4), .num (1 / 4), .num (1 / 2)] .nan = 2 := by
  decide!

/-- The section found for the weights 0.1, 0.2, 0.7 (the doubles nearest to them) and
`x = 0.30000000000000004`: the loop adds 0.1 and 0.2 to the double 0.30000000000000004, so
that `x <= sum` holds at index 1, which is returned; the sum of the two weights without the
rounding is below `x`. -/
theorem find_categorical_section_rounded :
    find_categorical_section
      [.num (binary64.round (1 / 10)), .num (binary64.round (2 / 10)),
        .num (binary64.round (7 / 10))] (.num (5404319552844596 / 2 ^ 54)) = 1 ∧
    binary64.sum [.num (binary64.round (1 / 10)), .num (binary64.round (2 / 10))] =
      .num (5404319552844596 / 2 ^ 54) ∧
    (Value.num (5404319552844596 / 2 ^ 54)).le
      (Value.sum [.num (binary64.round (1 / 10)), .num (binary64.round (2 / 10))]) = false := by
  decide!

/-! ## The routing of the training samples -/

theorem single_sweep_var (D : dataset) (v : Nat) (options : decision_tree_options)
    (D_sum : Nat) : ∀ (fuel : Nat) (rest D1 D2 : List Nat),
    ∀ r ∈ single_sweep D v options D_sum fuel rest D1 D2, split_variable r.split = v := by
  intro fuel
  induction fuel with
  | zero => intro rest D1 D2 r hr; simp [single_sweep] at hr
  | succ n ih =>
    intro rest D1 D2 r hr
    cases rest with
    | nil => simp [single_sweep] at hr
    | cons f t =>
      unfold single_sweep at hr
      simp only at hr
      split at hr
      · exact ih _ _ _ r hr
      · rcases List.mem_cons.1 hr with h | h
        · rw [h]; rfl
        · exact ih _ _ _ r h

theorem subset_outer_var (v : Nat) (options : decision_tree_options) (W : List Nat)
    (K : Nat) (pos D_counts : List Nat) (p : Nat) : ∀ (is : List Nat) (mask : Nat),
    ∀ r ∈ subset_outer v options W K pos D_counts p is mask, split_variable r.split = v := by
  intro is
  induction is with
  | nil => intro mask r hr; simp [subset_outer] at hr
  | cons i is ih =>
    intro mask r hr
    unfold subset_outer at hr
    simp only at hr
    split at hr
    · rcases List.mem_cons.1 hr with h | h
      · rw [h]; rfl
      · exact ih _ r h
    · exact ih _ r hr

theorem enumerate_variable_var (fam : split_family) (D : dataset)
    (options : decision_tree_options) (I : List Nat) (v : Nat)
    (res : List Nat × List split_report)
    (h : fam.enumerate_variable D options I v = some res) :
    ∀ r ∈ res.2, split_variable r.split = v := by
  intro r hr
  have hthr : ∀ r ∈ (enumerate_threshold_splits D I v options D.class_count).2,
      split_variable r.split = v := by
    intro r hr
    unfold enumerate_threshold_splits at hr
    simp only at hr
    split at hr
    · simp at hr
    · obtain ⟨j, -, -, j3⟩ := threshold_sweep_values D v options _ _ _ _ _ _ _ _ r hr
      rw [j3]; rfl
  unfold split_family.enumerate_variable at h
  cases fam with
  | threshold =>
    simp only [Option.some.injEq] at h
    rw [← h] at hr
    exact hthr r hr
  | threshold_plus_single =>
    simp only at h
    split at h
    · simp only [Option.some.injEq] at h
      rw [← h] at hr
      exact single_sweep_var D v options _ _ _ _ _ r hr
    · simp only [Option.some.injEq] at h
      rw [← h] at hr
      exact hthr r hr
  | threshold_plus_subset =>
    simp only at h
    split at h
    · unfold enumerate_subset_splits at h
      simp only at h
      split at h
      · exact absurd h (by simp)
      · split at h
        · simp only [Option.some.injEq] at h
          rw [← h] at hr
          simp at hr
        · simp only [Option.some.injEq] at h
          rw [← h] at hr
          exact subset_outer_var v options _ _ _ _ _ _ _ r hr
    · simp only [Option.some.injEq] at h
      rw [← h] at hr
      exact hthr r hr

/-- The split variable of a report of `split_family.enumerate` is one of the variables
given. -/
theorem enumerate_var (fam : split_family) (D : dataset)
    (options : decision_tree_options) (V : List Nat) :
    ∀ (I : List Nat) (res : List Nat × List split_report),
    fam.enumerate D options I V = some res →
    ∀ r ∈ res.2, split_variable r.split ∈ V := by
  induction V with
  | nil =>
    intro I res h r hr
    simp only [split_family.enumerate, Option.some.injEq] at h
    rw [← h] at hr
    simp at hr
  | cons v V ih =>
    intro I res h r hr
    simp only [split_family.enumerate] at h
    cases h1 : fam.enumerate_variable D options I v with
    | none => simp [h1] at h
    | some r1 =>
      obtain ⟨I1, rep1⟩ := r1
      simp only [h1] at h
      cases h2 : split_family.enumerate fam D options I1 V with
      | none => simp [h2] at h
      | some r2 =>
        obtain ⟨I2, rep2⟩ := r2
        simp only [h2, Option.some.injEq] at h
        rw [← h] at hr
        rcases List.mem_append.1 hr with hr | hr
        · rw [enumerate_variable_var fam D options I v _ h1 r hr]
          exact List.mem_cons_self _ _
        · exact List.mem_cons_of_mem _ (ih I1 _ h2 r hr)

/-- On a sample whose value of the split variable is not missing, the predicate of
`apply_split` is the test `select(split, x) = 0`, whatever the option
`support_missing_values`. -/
theorem apply_split_pred_select {ρ : Type} (eng : random_engine ρ) (D : dataset)
    (smv : Bool) (split : splitting_criterion) (h : split ≠ .monostate) (rng : ρ) (i : Nat)
    (hm : is_missing (D.at i (split_variable split)) = false) :
    ((apply_split_pred eng D smv split rng i).1 = true → select split (D.X.getD i []) = 0) ∧
    ((apply_split_pred eng D smv split rng i).1 = false → select split (D.X.getD i []) = 1) := by
  have e : ∀ v, (D.X.getD i []).getD v Value.nan = D.at i v := fun v => rfl
  cases split with
  | monostate => exact absurd rfl h
  | single s =>
    simp only [split_variable] at hm
    simp only [select, e]
    by_cases hc : (D.at i s.var).eq s.value = true <;> simp [apply_split_pred, hc, hm]
  | subset s =>
    simp only [select, e]
    by_cases hc : s.contains (D.at i s.var).to_size_t = true <;>
      simp [apply_split_pred, hc, is_missing]
  | threshold s =>
    simp only [split_variable] at hm
    simp only [select, e]
    by_cases hc : (D.at i s.var).lt s.value = true <;> simp [apply_split_pred, hc, hm]

/-- The two parts that `split_vertex` makes of the range of the vertex: the samples of the
first part satisfy the predicate of `apply_split` for the best split, the samples of the
second part do not. -/
theorem split_vertex_parts {ρ S : Type} (eng : random_engine ρ) (D : dataset)
    (options : decision_tree_options) (fam : split_family) (g : gain_function S)
    (tree : binary_decision_tree) (rng : ρ) (todo : List Nat) (depth ui : Nat)
    (res : binary_decision_tree × ρ × List Nat)
    (h : split_vertex eng D options fam g tree rng todo depth ui = some res)
    (hui : ui < tree.vertices.length)
    (hb : (tree.find_vertex ui).I_begin ≤ (tree.find_vertex ui).I_end)
    (he : (tree.find_vertex ui).I_end ≤ tree.indices.length) :
    res.1.vertices = tree.vertices ∨
    ∃ (I1 I2 : List Nat) (split : splitting_criterion),
      split ≠ splitting_criterion.monostate ∧
      split_variable split ∈ (eng.sample (List.range D.feature_count)
        (min options.max_features D.feature_count) rng).1 ∧
      (I1 ++ I2).Perm (tree.range (tree.find_vertex ui)) ∧
      res.1.indices = write_range tree.indices (tree.find_vertex ui).I_begin
        (tree.find_vertex ui).I_end (I1 ++ I2) ∧
      (∀ s ∈ I1, ∃ r0, (apply_split_pred eng D options.support_missing_values split r0 s).1
        = true) ∧
      (∀ s ∈ I2, ∃ r0, (apply_split_pred eng D options.support_missing_values split r0 s).1
        = false) ∧
      res.1.vertices = (tree.vertices ++
          [({ I_begin := (tree.find_vertex ui).I_begin,
              I_end := (tree.find_vertex ui).I_begin + I1.length } : vertex),
           { I_begin := (tree.find_vertex ui).I_begin + I1.length,
             I_end := (tree.find_vertex ui).I_end }]).set ui
        { I_begin := (tree.find_vertex ui).I_begin, I_end := (tree.find_vertex ui).I_end,
          split := split, left := tree.vertices.length % 2 ^ 32,
          right := (tree.vertices.length + 1) % 2 ^ 32 } := by
  unfold split_vertex at h
  simp only at h
  generalize hu : tree.find_vertex ui = u at h hb he ⊢
  generalize eng.sample (List.range D.feature_count) (min options.max_features D.feature_count)
    rng = Z at h ⊢
  cases hen : fam.enumerate D options (tree.range u) Z.1 with
  | none => simp [hen] at h
  | some r1 =>
    obtain ⟨I', reports⟩ := r1
    simp only [hen] at h
    have hperm1 : I'.Perm (tree.range u) := enumerate_perm fam D options Z.1 _ _ hen
    have hrl : (tree.range u).length = u.I_end - u.I_begin := range_length_eq tree u he
    have hI'l : I'.length = u.I_end - u.I_begin := by rw [hperm1.length_eq, hrl]
    generalize hbest : (reports.foldl (best_split_update g)
      (g.lowest, splitting_criterion.monostate)) = best at h
    by_cases hm : best.2 = splitting_criterion.monostate
    · simp only [hm, if_true, Option.some.injEq] at h
      rw [← h]
      exact Or.inl rfl
    · simp only [hm, if_false] at h
      generalize htree2 : binary_decision_tree.update_vertex
        { tree with indices := write_range tree.indices u.I_begin u.I_end I' } ui
        (fun w => { w with split := best.2 }) = tree2 at h
      have hind2 : tree2.indices = write_range tree.indices u.I_begin u.I_end I' := by
        rw [← htree2]; rfl
      have hvs2 : tree2.vertices = tree.vertices.set ui { u with split := best.2 } := by
        rw [← htree2]
        simp only [binary_decision_tree.update_vertex, binary_decision_tree.find_vertex]
        unfold binary_decision_tree.find_vertex at hu
        rw [hu]
      have hr2 : tree2.range u = I' := by
        unfold binary_decision_tree.range
        rw [hind2]
        exact range_write_range_self _ _ _ _ hb he hI'l
      cases hap : apply_split eng best.2 D (tree2.range u) Z.2 options.support_missing_values with
      | none => simp [hap] at h
      | some r2 =>
        obtain ⟨⟨I1, I2⟩, rng2⟩ := r2
        simp only [hap, Option.some.injEq] at h
        have hsome := apply_split_some eng best.2 D (tree2.range u) Z.2
          options.support_missing_values hm
        rw [hap] at hsome
        simp only [Option.some.injEq] at hsome
        have hperm2 : (I1 ++ I2).Perm (tree2.range u) := by
          have hp := std_partition_perm (apply_split_pred eng D options.support_missing_values
            best.2) (tree2.range u) Z.2
          rw [← hsome] at hp
          exact hp
        have hleft := std_partition_left (apply_split_pred eng D
          options.support_missing_values best.2) (tree2.range u) Z.2
        have hright := std_partition_right (apply_split_pred eng D
          options.support_missing_values best.2) (tree2.range u) Z.2
        rw [← hsome] at hleft hright
        simp only at hleft hright
        rw [hr2] at hperm2
        have hrep : ∃ r ∈ reports, best.2 = r.split := by
          rcases best_split_foldl_ne g reports (g.lowest, splitting_criterion.monostate)
            with h1 | h1
          · rw [hbest] at h1
            exact absurd h1 hm
          · rw [hbest] at h1
            exact h1
        obtain ⟨r, hr, hbr⟩ := hrep
        have hvar := enumerate_var fam D options Z.1 _ _ hen r hr
        rw [← hbr] at hvar
        rw [← h]
        refine Or.inr ⟨I1, I2, best.2, hm, hvar, hperm2.trans hperm1, ?_, hleft, hright, ?_⟩
        · simp only [binary_decision_tree.update_vertex, binary_decision_tree.add_vertex]
          rw [hind2]
          exact write_range_write_range _ _ _ _ _ hb he hI'l
        · simp only [binary_decision_tree.update_vertex, binary_decision_tree.add_vertex,
            binary_decision_tree.find_vertex, hvs2, List.length_set, List.length_append,
            List.length_singleton]
          have hget : ((tree.vertices.set ui { u with split := best.2 } ++
              [({ I_begin := u.I_begin, I_end := u.I_begin + I1.length } : vertex)] ++
              [({ I_begin := u.I_begin + I1.length, I_end := u.I_end } : vertex)]).getD ui
              { I_begin := 0, I_end := 0 }) = { u with split := best.2 } := by
            rw [List.append_assoc, List.getD_append _ _ _ _ (by simpa using hui)]
            rw [List.getD_eq_getElem _ _ (by simpa using hui)]
            simp
          rw [hget]
          rw [List.append_assoc, List.set_append_left _ _ (by simpa using hui), List.set_set]
          rw [List.set_append_left _ _ hui]
          rfl

/-- The two parts that an iteration of `learn_decision_tree` makes, see
`split_vertex_parts`. -/
theorem learn_step_parts {ρ S : Type} (eng : random_engine ρ) (D : dataset)
    (options : decision_tree_options) (fam : split_family) (g : gain_function S)
    (stop : List Nat → dataset → Nat → decision_tree_options → Bool)
    (st st2 : learn_state ρ) (ui : Nat) (todo : List Nat) (htodo : st.todo = ui :: todo)
    (h : learn_step eng D options fam g stop st = some st2)
    (hui : ui < st.tree.vertices.length)
    (hb : (st.tree.find_vertex ui).I_begin ≤ (st.tree.find_vertex ui).I_end)
    (he : (st.tree.find_vertex ui).I_end ≤ st.tree.indices.length) :
    st2.tree.vertices = st.tree.vertices ∨
    ∃ (I1 I2 : List Nat) (split : splitting_criterion) (rng : ρ),
      split ≠ splitting_criterion.monostate ∧
      split_variable split ∈ (eng.sample (List.range D.feature_count)
        (min options.max_features D.feature_count) rng).1 ∧
      (I1 ++ I2).Perm (st.tree.range (st.tree.find_vertex ui)) ∧
      st2.tree.indices = write_range st.tree.indices (st.tree.find_vertex ui).I_begin
        (st.tree.find_vertex ui).I_end (I1 ++ I2) ∧
      (∀ s ∈ I1, ∃ r0, (apply_split_pred eng D options.support_missing_values split r0 s).1
        = true) ∧
      (∀ s ∈ I2, ∃ r0, (apply_split_pred eng D options.support_missing_values split r0 s).1
        = false) ∧
      st2.tree.vertices = (st.tree.vertices ++
          [({ I_begin := (st.tree.find_vertex ui).I_begin,
              I_end := (st.tree.find_vertex ui).I_begin + I1.length } : vertex),
           { I_begin := (st.tree.find_vertex ui).I_begin + I1.length,
             I_end := (st.tree.find_vertex ui).I_end }]).set ui
        { I_begin := (st.tree.find_vertex ui).I_begin,
          I_end := (st.tree.find_vertex ui).I_end,
          split := split, left := st.tree.vertices.length % 2 ^ 32,
          right := (st.tree.vertices.length + 1) % 2 ^ 32 } := by
  unfold learn_step at h
  rw [htodo] at h
  simp only at h
  by_cases hstop : stop (st.tree.range (st.tree.find_vertex ui)) D st.depth options = true
  · left
    simp only [hstop, Bool.not_true, Bool.false_eq_true, if_false] at h
    by_cases hl : st.level_count - 1 = 0
    · simp only [hl, if_true, Option.some.injEq] at h
      rw [← h]
    · simp only [hl, if_false, Option.some.injEq] at h
      rw [← h]
  · have hstop2 : stop (st.tree.range (st.tree.find_vertex ui)) D st.depth options = false := by
      simpa using hstop
    simp only [hstop2, Bool.not_false, if_true] at h
    cases hsv : split_vertex eng D options fam g st.tree st.rng todo st.depth ui with
    | none => simp [hsv] at h
    | some res =>
      obtain ⟨tree, rng, todo2⟩ := res
      simp only [hsv] at h
      have hd := split_vertex_parts eng D options fam g st.tree st.rng todo st.depth ui _ hsv
        hui hb he
      simp only at hd
      have e : st2.tree = tree := by
        by_cases hl : st.level_count - 1 = 0
        · simp only [hl, if_true, Option.some.injEq] at h
          rw [← h]
        · simp only [hl, if_false, Option.some.injEq] at h
          rw [← h]
      rw [e]
      rcases hd with hd | ⟨I1, I2, split, k⟩
      · exact Or.inl hd
      · exact Or.inr ⟨I1, I2, split, st.rng, k⟩

theorem mem_range_indices (tree : binary_decision_tree) (u : vertex) (s : Nat)
    (h : s ∈ tree.range u) : s ∈ tree.indices := by
  unfold binary_decision_tree.range at h
  exact List.mem_of_mem_take (List.mem_of_mem_drop h)

theorem learn_step_route {ρ S : Type} (eng : random_engine ρ) (D : dataset)
    (options : decision_tree_options) (fam : split_family) (g : gain_function S)
    (stop : List Nat → dataset → Nat → decision_tree_options → Bool)
    (hV : ∀ vars n (rng : ρ), ∀ v ∈ (eng.sample vars n rng).1, v ∈ vars)
    (st st2 : learn_state ρ) (hinv : learn_inv st) (hs : range_inv st.tree)
    (hr : route_inv D st.tree)
    (hD : ∀ s ∈ st.tree.indices, ∀ v, v < D.feature_count → is_missing (D.at s v) = false)
    (h : learn_step eng D options fam g stop st = some st2)
    (hU : st2.tree.vertices.length ≤ undefined_index) : route_inv D st2.tree := by
  cases htodo : st.todo with
  | nil =>
    rw [learn_step_nil eng D options fam g stop st htodo] at h
    simp only [Option.some.injEq] at h
    rw [← h]; exact hr
  | cons ui todo =>
    have hmem : ui ∈ st.todo := by rw [htodo]; exact List.mem_cons_self _ _
    have hui := (hinv.pending ui hmem).1
    have huleaf := (hinv.pending ui hmem).2
    have hb := (hinv.nested.bounds ui hui).1
    have he := (hinv.nested.bounds ui hui).2
    obtain ⟨-, hranges⟩ := learn_step_ranges eng D options fam g stop st st2 hinv hs h hU
    have hmemr : ∀ w, w < st.tree.vertices.length → ∀ s,
        s ∈ st2.tree.range (st2.tree.find_vertex w) → s ∈ st.tree.range (st.tree.find_vertex w) :=
      fun w hw s hsm => (hranges w hw).2.2.subset hsm
    have hchild : ∀ i, i < st.tree.vertices.length → (st.tree.find_vertex i).is_leaf = false →
        (st.tree.find_vertex i).left < st.tree.vertices.length ∧
        (st.tree.find_vertex i).right < st.tree.vertices.length := by
      intro i hi hl
      obtain ⟨-, -, k3, k4⟩ := bfs_numbered_children_above st.tree hinv.numbered i hi hl
      exact ⟨k3, k4⟩
    rcases learn_step_parts eng D options fam g stop st st2 ui todo htodo h hui hb he with
      hvs | ⟨I1, I2, sp, rng, hsp, hvar, hperm, hind, hleft, hright, hvs⟩
    · have hfv : ∀ i, st2.tree.find_vertex i = st.tree.find_vertex i := by
        intro i; simp only [binary_decision_tree.find_vertex, hvs]
      intro w hw hl
      rw [hvs] at hw
      rw [hfv] at hl ⊢
      obtain ⟨r1, r2, r3⟩ := hr w hw hl
      obtain ⟨c1, c2⟩ := hchild w hw hl
      refine ⟨r1, fun s hsm => r2 s ?_, fun s hsm => r3 s ?_⟩
      · exact hmemr _ c1 s hsm
      · exact hmemr _ c2 s hsm
    · have hn2 : st.tree.vertices.length + 2 ≤ undefined_index := by
        rw [hvs] at hU; simpa using hU
      obtain ⟨hmod1, hmod2⟩ := mod_uint32_of_le _ hn2
      rw [hmod1, hmod2] at hvs
      have hI12 : I1.length + I2.length =
          (st.tree.find_vertex ui).I_end - (st.tree.find_vertex ui).I_begin := by
        rw [← List.length_append, hperm.length_eq]
        exact range_length_eq _ _ he
      have hlen2 : st2.tree.vertices.length = st.tree.vertices.length + 2 := by
        rw [hvs]; simp
      intro w hw hl
      by_cases hold : w < st.tree.vertices.length
      · by_cases hne : w = ui
        · subst hne
          have hfself : st2.tree.find_vertex w = vertex.mk (st.tree.find_vertex w).I_begin
              (st.tree.find_vertex w).I_end st.tree.vertices.length
              (st.tree.vertices.length + 1) sp := by
            simp only [binary_decision_tree.find_vertex, hvs]
            exact getD_split_self _ _ _ _ _ _ hui
          have hfl : st2.tree.find_vertex st.tree.vertices.length =
              vertex.mk (st.tree.find_vertex w).I_begin
                ((st.tree.find_vertex w).I_begin + I1.length) undefined_index undefined_index
                splitting_criterion.monostate := by
            simp only [binary_decision_tree.find_vertex, hvs]
            exact getD_split_left _ _ _ _ _ _ hui
          have hfr : st2.tree.find_vertex (st.tree.vertices.length + 1) =
              vertex.mk ((st.tree.find_vertex w).I_begin + I1.length)
                (st.tree.find_vertex w).I_end undefined_index undefined_index
                splitting_criterion.monostate := by
            simp only [binary_decision_tree.find_vertex, hvs]
            exact getD_split_right _ _ _ _ _ _ hui
          have hmiss : ∀ s ∈ I1 ++ I2, is_missing (D.at s (split_variable sp)) = false := by
            intro s hsm
            have h1 : s ∈ st.tree.indices := mem_range_indices _ _ s (hperm.subset hsm)
            have h2 := hV _ _ _ _ hvar
            exact hD s h1 _ (by simpa using h2)
          rw [hfself]
          simp only
          rw [hfl, hfr]
          refine ⟨hsp, ?_, ?_⟩
          · intro s hsm
            unfold binary_decision_tree.range at hsm
            simp only at hsm
            rw [hind, range_write_range_left _ _ _ _ _ hb he] at hsm
            obtain ⟨r0, hr0⟩ := hleft s hsm
            exact (apply_split_pred_select eng D _ sp hsp r0 s
              (hmiss s (List.mem_append_left _ hsm))).1 hr0
          · intro s hsm
            unfold binary_decision_tree.range at hsm
            simp only at hsm
            rw [hind, range_write_range_right _ _ _ _ _ hb he hI12] at hsm
            obtain ⟨r0, hr0⟩ := hright s hsm
            exact (apply_split_pred_select eng D _ sp hsp r0 s
              (hmiss s (List.mem_append_right _ hsm))).2 hr0
        · have hfv : st2.tree.find_vertex w = st.tree.find_vertex w := by
            simp only [binary_decision_tree.find_vertex, hvs]
            exact getD_split_old _ _ _ _ _ _ _ hold hne
          rw [hfv] at hl ⊢
          obtain ⟨r1, r2, r3⟩ := hr w hold hl
          obtain ⟨c1, c2⟩ := hchild w hold hl
          refine ⟨r1, fun s hsm => r2 s ?_, fun s hsm => r3 s ?_⟩
          · exact hmemr _ c1 s hsm
          · exact hmemr _ c2 s hsm
      · exfalso
        have : w = st.tree.vertices.length ∨ w = st.tree.vertices.length + 1 := by omega
        rcases this with h1 | h1
        · rw [h1] at hl
          simp only [binary_decision_tree.find_vertex, hvs] at hl
          rw [getD_split_left _ _ _ _ _ _ hui] at hl
          simp [vertex.is_leaf] at hl
        · rw [h1] at hl
          simp only [binary_decision_tree.find_vertex, hvs] at hl
          rw [getD_split_right _ _ _ _ _ _ hui] at hl
          simp [vertex.is_leaf] at hl

theorem learn_loop_route {ρ S : Type} (eng : random_engine ρ) (D : dataset)
    (options : decision_tree_options) (fam : split_family) (g : gain_function S)
    (stop : List Nat → dataset → Nat → decision_tree_options → Bool)
    (hV : ∀ vars n (rng : ρ), ∀ v ∈ (eng.sample vars n rng).1, v ∈ vars)
    (T : binary_decision_tree) (hU : T.vertices.length ≤ undefined_index) (fuel : Nat) :
    ∀ (st : learn_state ρ), learn_inv st → range_inv st.tree → route_inv D st.tree →
    (∀ s ∈ st.tree.indices, ∀ v, v < D.feature_count → is_missing (D.at s v) = false) →
    learn_loop eng D options fam g stop fuel st = .returned T → route_inv D T := by
  induction fuel with
  | zero =>
    intro st _ _ hr _ h
    unfold learn_loop at h
    split at h
    · simp only [learn_result.returned.injEq] at h
      rw [← h]; exact hr
    · exact absurd h (by simp)
  | succ fuel ih =>
    intro st hinv hs hr hD h
    unfold learn_loop at h
    split at h
    · simp only [learn_result.returned.injEq] at h
      rw [← h]; exact hr
    · rename_i hne
      cases hst : learn_step eng D options fam g stop st with
      | none => simp [hst] at h
      | some st2 =>
        simp only [hst] at h
        have hlen := learn_loop_length eng D options fam g stop T fuel st2 h
        have hU2 := le_trans hlen hU
        have hinv2 := learn_step_inv eng D options fam g stop st st2 hinv hst hU2
        obtain ⟨hs2, -⟩ := learn_step_ranges eng D options fam g stop st st2 hinv hs hst hU2
        have hr2 := learn_step_route eng D options fam g stop hV st st2 hinv hs hr hD hst hU2
        have hD2 : ∀ s ∈ st2.tree.indices, ∀ v, v < D.feature_count →
            is_missing (D.at s v) = false := by
          cases htodo : st.todo with
          | nil => exact absurd htodo hne
          | cons ui todo =>
            have hmem : ui ∈ st.todo := by rw [htodo]; exact List.mem_cons_self _ _
            have hui := (hinv.pending ui hmem).1
            obtain ⟨c1, -, -, -⟩ := learn_step_cases eng D options fam g stop st st2 ui todo
              htodo hst hui (hinv.nested.bounds ui hui).1
            intro s hsm
            exact hD s (c1.subset hsm)
        exact ih st2 hinv2 hs2 hr2 hD2 h

theorem route_inv_init (D : dataset) (I : List Nat) :
    route_inv D (binary_decision_tree.make D I) := by
  intro w hw hl
  exfalso
  simp only [binary_decision_tree.make, List.length_singleton] at hw
  have : w = 0 := by omega
  subst this
  simp [binary_decision_tree.make, binary_decision_tree.find_vertex, vertex.is_leaf] at hl

theorem descend_range (tree : binary_decision_tree) (hn : bfs_numbered tree.vertices)
    (hr : ranges_nested tree) :
    ∀ (p : List Bool) (c u : Nat), c < tree.vertices.length → descend tree c p = some u →
      ∀ s ∈ tree.range (tree.find_vertex u), s ∈ tree.range (tree.find_vertex c) := by
  intro p
  induction p with
  | nil =>
    intro c u _ h s hs
    simp only [descend, Option.some.injEq] at h
    rw [h]; exact hs
  | cons b p ih =>
    intro c u hc h s hs
    cases hl : (tree.find_vertex c).is_leaf with
    | true => simp [descend, hl] at h
    | false =>
      obtain ⟨-, -, c3, c4⟩ := bfs_numbered_children_above tree hn c hc hl
      simp only [descend, hl, Bool.false_eq_true, if_false] at h
      rw [range_children tree hn hr c hc hl]
      cases b with
      | true => exact List.mem_append_left _ (ih _ u c3 (by simpa using h) s hs)
      | false => exact List.mem_append_right _ (ih _ u c4 (by simpa using h) s hs)

/-- The execution of the tree on a sample of the range of a vertex `u` that is reached from
`w` by the path `p` goes from `w` to `u`. -/
theorem execute_decision_tree_descend (D : dataset) (tree : binary_decision_tree)
    (hn : bfs_numbered tree.vertices) (hr : ranges_nested tree) (hroute : route_inv D tree)
    (s : Nat) :
    ∀ (p : List Bool) (w u : Nat), w < tree.vertices.length → descend tree w p = some u →
      (tree.find_vertex u).is_leaf = true → s ∈ tree.range (tree.find_vertex u) →
      ∀ fuel, p.length < fuel →
        execute_decision_tree tree (D.X.getD s []) fuel w = some u := by
  intro p
  induction p with
  | nil =>
    intro w u _ h hl _ fuel hf
    simp only [descend, Option.some.injEq] at h
    obtain ⟨f, rfl⟩ : ∃ f, fuel = f + 1 := ⟨fuel - 1, by simp at hf; omega⟩
    rw [← h]
    rw [← h] at hl
    exact execute_decision_tree_leaf tree _ f w hl
  | cons b p ih =>
    intro w u hw h hl hs fuel hf
    obtain ⟨f, rfl⟩ : ∃ f, fuel = f + 1 := ⟨fuel - 1, by omega⟩
    cases hwl : (tree.find_vertex w).is_leaf with
    | true => simp [descend, hwl] at h
    | false =>
      obtain ⟨-, -, c3, c4⟩ := bfs_numbered_children_above tree hn w hw hwl
      obtain ⟨r1, r2, r3⟩ := hroute w hw hwl
      simp only [descend, hwl, Bool.false_eq_true, if_false] at h
      rw [execute_decision_tree_inner tree _ f w hwl r1]
      have hf2 : p.length < f := by simp only [List.length_cons] at hf; omega
      cases b with
      | true =>
        simp only [if_true] at h
        have hsel := r2 s (descend_range tree hn hr p _ u c3 h s hs)
        rw [hsel]
        exact ih _ u c3 h hl hs f hf2
      | false =>
        simp only [Bool.false_eq_true, if_false] at h
        have hsel := r3 s (descend_range tree hn hr p _ u c4 h s hs)
        rw [hsel]
        exact ih _ u c4 h hl hs f hf2

/-- In a tree numbered breadth first every vertex is reached from the root by a path that
is not longer than its index. -/
theorem bfs_numbered_path_exists (tree : binary_decision_tree)
    (hn : bfs_numbered tree.vertices) :
    ∀ u, u < tree.vertices.length → ∃ p, descend tree 0 p = some u ∧ p.length ≤ u := by
  intro u
  induction u using Nat.strong_induction_on with
  | _ u ih =>
    intro hu
    by_cases h0 : u = 0
    · exact ⟨[], by rw [h0]; rfl, by simp⟩
    · obtain ⟨j, j1, j2, j3⟩ := bfs_numbered_parent tree hn u (by omega) hu
      obtain ⟨q, hq, hql⟩ := ih j j1 (by omega)
      rcases j3 with j3 | j3
      · refine ⟨q ++ [true], ?_, by simp; omega⟩
        rw [descend_concat, hq]
        simp [j2, j3]
      · refine ⟨q ++ [false], ?_, by simp; omega⟩
        rw [descend_concat, hq]
        simp [j2, j3]

/-- Claim C36: in a tree returned by `learn_decision_tree` on a dataset in which no value
of a feature of a training sample is missing (and with a sampling of the variables that
draws from the variables it is given), the execution of the tree on the row of a sample
`i` of the range of a leaf `u` ends in `u`; and at every vertex that is not a leaf, `select`
sends the samples of the left child to the left and the samples of the right child to the
right. -/
theorem learn_decision_tree_routes {ρ S : Type} (eng : random_engine ρ) (D : dataset)
    (I : List Nat) (options : decision_tree_options) (fam : split_family)
    (g : gain_function S)
    (stop : List Nat → dataset → Nat → decision_tree_options → Bool) (seed : ρ) (fuel : Nat)
    (tree : binary_decision_tree)
    (h : learn_decision_tree eng D I options fam g stop seed fuel = .returned tree)
    (hU : tree.vertices.length ≤ undefined_index)
    (hV : ∀ vars n (rng : ρ), ∀ v ∈ (eng.sample vars n rng).1, v ∈ vars)
    (hD : ∀ i ∈ I, ∀ v, v < D.feature_count → is_missing (D.at i v) = false) :
    (∀ u, u < tree.vertices.length → (tree.find_vertex u).is_leaf = true →
      ∀ i ∈ tree.range (tree.find_vertex u), ∀ fuel2, tree.vertices.length ≤ fuel2 →
        execute_decision_tree tree (D.X.getD i []) fuel2 0 = some u) ∧
    (∀ w, w < tree.vertices.length → (tree.find_vertex w).is_leaf = false →
      (∀ i ∈ tree.range (tree.find_vertex (tree.find_vertex w).left),
        select (tree.find_vertex w).split (D.X.getD i []) = 0) ∧
      (∀ i ∈ tree.range (tree.find_vertex (tree.find_vertex w).right),
        select (tree.find_vertex w).split (D.X.getD i []) = 1)) := by
  unfold learn_decision_tree at h
  obtain ⟨hnum, hnest, -⟩ := learn_loop_inv eng D options fam g stop tree hU fuel _
    (learn_inv_init D I seed) h
  have hroute := learn_loop_route eng D options fam g stop hV tree hU fuel _
    (learn_inv_init D I seed) (range_inv_init D I) (route_inv_init D I) hD h
  constructor
  · intro u hu hl i hi fuel2 hf
    obtain ⟨p, hp, hpl⟩ := bfs_numbered_path_exists tree hnum u hu
    exact execute_decision_tree_descend D tree hnum hnest hroute i p 0 u
      (bfs_numbered_pos _ hnum) hp hl hi fuel2 (by omega)
  · intro w hw hl
    exact (hroute w hw hl).2

theorem learn_decision_tree_routes_witness :
    learn_decision_tree const_engine mixed_dataset [0, 1, 2, 3, 4] {}
      .threshold gini_gain (node_is_finished mis_classification_small) () 20 =
      .returned mixed_tree ∧
    mixed_tree.vertices.length ≤ undefined_index ∧
    (∀ vars n (rng : Unit), ∀ v ∈ (const_engine.sample vars n rng).1, v ∈ vars) ∧
    (∀ i ∈ [0, 1, 2, 3, 4], ∀ v, v < mixed_dataset.feature_count →
      is_missing (mixed_dataset.at i v) = false) ∧
    (∀ u, u < mixed_tree.vertices.length → (mixed_tree.find_vertex u).is_leaf = true →
      ∀ i ∈ mixed_tree.range (mixed_tree.find_vertex u), ∀ fuel2,
        mixed_tree.vertices.length ≤ fuel2 →
        execute_decision_tree mixed_tree (mixed_dataset.X.getD i []) fuel2 0 = some u) :=
  ⟨mixed_tree_returned, by decide,
    fun vars n _ v hv => List.mem_of_mem_take hv, by decide!,
    (learn_decision_tree_routes const_engine mixed_dataset [0, 1, 2, 3, 4] {} .threshold
      gini_gain (node_is_finished mis_classification_small) () 20 mixed_tree
      mixed_tree_returned (by decide) (fun vars n _ v hv => List.mem_of_mem_take hv)
      (by decide!)).1⟩

/-! ## The density of the truncated normal distribution outside of its interval -/

/-- Claim C37: for the truncated normal distribution with the bounds `a = 0` and `b = 1`,
whatever its mean and standard deviation, `truncated_normal_distribution::pdf` and the
method `evi` of the node return 0 below `a` (at `x = -1`) but return 1 above `b` (at
`x = 2`), where the function `truncated_phi` returns 0. -/
theorem truncated_normal_pdf_above (lib : math_library) (mean sd : Value) (scope : Nat) :
    truncated_normal_pdf lib mean sd (.num 0) (.num 1) (.num (-1)) = .num 0 ∧
    truncated_normal_pdf lib mean sd (.num 0) (.num 1) (.num 2) = .num 1 ∧
    terminal_evi lib scope (.truncated_normal mean sd (.num 0) (.num 1))
      (List.replicate scope (.num 0) ++ [.num 2]) = some (.num 1) ∧
    truncated_phi lib (.num 2) mean sd (.num 0) (.num 1) = .num 0 := by
  refine ⟨?_, ?_, ?_, ?_⟩
  · simp [truncated_normal_pdf, Value.lt]
  · simp [truncated_normal_pdf, Value.lt]
  · have hx : (List.replicate scope (Value.num 0) ++ [Value.num 2]).getD scope .nan =
        .num 2 := by
      rw [List.getD_eq_getElem?_getD, List.getElem?_append_right (by simp)]
      simp
    simp only [terminal_evi, hx]
    simp [truncated_normal_pdf, Value.lt, is_missing]
  · simp [truncated_phi, Value.lt]

/-! ## The gain of a split is not negative -/

/-- One term of the gain with the Gini index: a square over a positive number. -/
theorem gini_term (N1 N2 a b : ℚ) (h1 : 0 < N1) (h2 : 0 < N2) :
    N1 / (N1 + N2) * (a / N1) ^ 2 + N2 / (N1 + N2) * (b / N2) ^ 2 - ((a + b) / (N1 + N2)) ^ 2 =
      (a * N2 - b * N1) ^ 2 / (N1 * N2 * (N1 + N2) ^ 2) := by
  have h3 : 0 < N1 + N2 := by linarith
  field_simp
  ring

/-- The sums of squares of the proportions of the two sides and of their union, for any
two positive numbers `N1` and `N2` in the place of the sums. -/
theorem gini_squares (N1 N2 : ℚ) (h1 : 0 < N1) (h2 : 0 < N2) :
    ∀ (D1 D2 : List Nat), D1.length = D2.length →
      ((List.zipWith (fun a b => a + b) D1 D2).map
        (fun (c : Nat) => ((c : ℚ) / (N1 + N2)) ^ 2)).sum ≤
      N1 / (N1 + N2) * (D1.map (fun (c : Nat) => ((c : ℚ) / N1) ^ 2)).sum +
      N2 / (N1 + N2) * (D2.map (fun (c : Nat) => ((c : ℚ) / N2) ^ 2)).sum ∧
      ((∀ i, i < D1.length → (D1.getD i 0 : ℚ) / N1 = (D2.getD i 0 : ℚ) / N2) →
      ((List.zipWith (fun a b => a + b) D1 D2).map
        (fun (c : Nat) => ((c : ℚ) / (N1 + N2)) ^ 2)).sum =
      N1 / (N1 + N2) * (D1.map (fun (c : Nat) => ((c : ℚ) / N1) ^ 2)).sum +
      N2 / (N1 + N2) * (D2.map (fun (c : Nat) => ((c : ℚ) / N2) ^ 2)).sum)
  | [], [], _ => by simp
  | [], _ :: _, h => by simp at h
  | _ :: _, [], h => by simp at h
  | a :: D1, b :: D2, h => by
    obtain ⟨ih1, ih2⟩ := gini_squares N1 N2 h1 h2 D1 D2 (by simpa using h)
    have ht := gini_term N1 N2 a b h1 h2
    have hpos : 0 ≤ ((a : ℚ) * N2 - b * N1) ^ 2 / (N1 * N2 * (N1 + N2) ^ 2) := by positivity
    simp only [List.zipWith_cons_cons, List.map_cons, List.sum_cons, Nat.cast_add]
    constructor
    · have e : N1 / (N1 + N2) * (((a : ℚ) / N1) ^ 2 +
          (D1.map (fun (c : Nat) => ((c : ℚ) / N1) ^ 2)).sum) +
          N2 / (N1 + N2) * (((b : ℚ) / N2) ^ 2 +
          (D2.map (fun (c : Nat) => ((c : ℚ) / N2) ^ 2)).sum) =
          (N1 / (N1 + N2) * ((a : ℚ) / N1) ^ 2 + N2 / (N1 + N2) * ((b : ℚ) / N2) ^ 2) +
          (N1 / (N1 + N2) * (D1.map (fun (c : Nat) => ((c : ℚ) / N1) ^ 2)).sum +
           N2 / (N1 + N2) * (D2.map (fun (c : Nat) => ((c : ℚ) / N2) ^ 2)).sum) := by ring
      rw [e]
      linarith
    · intro hp
      have hp0 := hp 0 (by simp)
      simp only [List.getD_cons_zero] at hp0
      have hz : (a : ℚ) * N2 - b * N1 = 0 := by
        field_simp at hp0
        linarith
      rw [hz] at ht
      have ih := ih2 (fun i hi => by
        have := hp (i + 1) (by simp; omega)
        simpa using this)
      rw [ih]
      have ht2 : ((a : ℚ) + b) / (N1 + N2) =
          ((a : ℚ) + b) / (N1 + N2) := rfl
      simp only [ne_eq, OfNat.ofNat_ne_zero, not_false_eq_true, zero_pow, zero_div] at ht
      linarith

theorem counts_max_le_iff (B : Nat) : ∀ (C : List Nat) (i : Nat),
    C.foldl max i ≤ B ↔ i ≤ B ∧ ∀ c ∈ C, c ≤ B
  | [], i => by simp
  | a :: C, i => by
    simp only [List.foldl_cons, List.mem_cons, forall_eq_or_imp]
    rw [counts_max_le_iff B C (max i a)]
    simp only [max_le_iff]
    tauto

theorem counts_max_mem : ∀ (C : List Nat) (i : Nat),
    C.foldl max i = i ∨ C.foldl max i ∈ C
  | [], i => by simp
  | a :: C, i => by
    simp only [List.foldl_cons, List.mem_cons]
    rcases counts_max_mem C (max i a) with h | h
    · rw [h]
      rcases le_total i a with hia | hia
      · rw [max_eq_right hia]; exact Or.inr (Or.inl rfl)
      · rw [max_eq_left hia]; exact Or.inl rfl
    · exact Or.inr (Or.inr h)

/-- The greatest count of a non-empty vector is one of its entries. -/
theorem foldl_max_index (C : List Nat) (h : C ≠ []) :
    ∃ k, k < C.length ∧ C.getD k 0 = C.foldl max 0 := by
  have hmem : C.foldl max 0 ∈ C := by
    rcases counts_max_mem C 0 with h0 | h0
    · rw [h0]
      obtain ⟨a, C2, rfl⟩ := List.exists_cons_of_ne_nil h
      have := (counts_max_le_iff 0 (a :: C2) 0).1 (by rw [h0])
      have ha := this.2 a (List.mem_cons_self _ _)
      have : a = 0 := by omega
      rw [this]; exact List.mem_cons_self _ _
    · exact h0
  obtain ⟨k, hk, e⟩ := List.getElem_of_mem hmem
  exact ⟨k, hk, by rw [List.getD_eq_getElem _ _ hk]; exact e⟩

theorem mem_zipWith_add (D1 D2 : List Nat) (c : Nat)
    (h : c ∈ List.zipWith (fun a b => a + b) D1 D2) :
    ∃ k, k < D1.length ∧ k < D2.length ∧ c = D1.getD k 0 + D2.getD k 0 := by
  obtain ⟨k, hk, e⟩ := List.getElem_of_mem h
  have hk2 := hk
  simp only [List.length_zipWith, lt_min_iff] at hk2
  refine ⟨k, hk2.1, hk2.2, ?_⟩
  rw [← e, List.getElem_zipWith, List.getD_eq_getElem _ _ hk2.1, List.getD_eq_getElem _ _ hk2.2]

theorem getD_le_foldl_max (C : List Nat) (k : Nat) : C.getD k 0 ≤ C.foldl max 0 := by
  by_cases hk : k < C.length
  · rw [List.getD_eq_getElem _ _ hk]
    exact ((counts_max_le_iff _ C 0).1 le_rfl).2 _ (List.getElem_mem _)
  · rw [List.getD_eq_default _ _ (by omega)]
    exact Nat.zero_le _

/-- The greatest count of the union is at most the sum of the greatest counts of the two
sides, and equal to it when the proportions of the two sides are the same. -/
theorem foldl_max_zipWith (D1 D2 : List Nat) (hlen : D1.length = D2.length) (h1 : 0 < D1.sum)
    (h2 : 0 < D2.sum) :
    (List.zipWith (fun a b => a + b) D1 D2).foldl max 0 ≤ D1.foldl max 0 + D2.foldl max 0 ∧
    ((∀ i, i < D1.length → (D1.getD i 0 : ℚ) / D1.sum = (D2.getD i 0 : ℚ) / D2.sum) →
      (List.zipWith (fun a b => a + b) D1 D2).foldl max 0 =
        D1.foldl max 0 + D2.foldl max 0) := by
  have hle : (List.zipWith (fun a b => a + b) D1 D2).foldl max 0 ≤
      D1.foldl max 0 + D2.foldl max 0 := by
    rw [counts_max_le_iff]
    refine ⟨Nat.zero_le _, fun c hc => ?_⟩
    obtain ⟨k, -, -, rfl⟩ := mem_zipWith_add D1 D2 c hc
    exact Nat.add_le_add (getD_le_foldl_max D1 k) (getD_le_foldl_max D2 k)
  refine ⟨hle, fun hp => le_antisymm hle ?_⟩
  have hne : D1 ≠ [] := by
    intro h; rw [h] at h1; simp at h1
  obtain ⟨k, hk, ek⟩ := foldl_max_index D1 hne
  have q1 : (0 : ℚ) < (D1.sum : ℚ) := by exact_mod_cast h1
  have q2 : (0 : ℚ) < (D2.sum : ℚ) := by exact_mod_cast h2
  -- the entry `k` of `D2` is its greatest count
  have hk2 : D2.foldl max 0 ≤ D2.getD k 0 := by
    rw [counts_max_le_iff]
    refine ⟨Nat.zero_le _, fun c hc => ?_⟩
    obtain ⟨j, hj, e⟩ := List.getElem_of_mem hc
    have hj1 : j < D1.length := by omega
    have pj := hp j hj1
    have pk := hp k hk
    have hjk : D1.getD j 0 ≤ D1.getD k 0 := by rw [ek]; exact getD_le_foldl_max D1 j
    have hjkq : (D1.getD j 0 : ℚ) ≤ (D1.getD k 0 : ℚ) := by exact_mod_cast hjk
    have hd : (D1.getD j 0 : ℚ) / D1.sum ≤ (D1.getD k 0 : ℚ) / D1.sum :=
      div_le_div_of_nonneg_right hjkq q1.le
    rw [pj, pk, div_le_div_iff_of_pos_right q2] at hd
    rw [← e, ← List.getD_eq_getElem _ 0 hj]
    exact_mod_cast hd
  have hmem : D1.getD k 0 + D2.getD k 0 ∈ List.zipWith (fun a b => a + b) D1 D2 := by
    have hkz : k < (List.zipWith (fun a b => a + b) D1 D2).length := by
      simp only [List.length_zipWith, lt_min_iff]; omega
    have : (List.zipWith (fun a b => a + b) D1 D2)[k] = D1.getD k 0 + D2.getD k 0 := by
      rw [List.getElem_zipWith, List.getD_eq_getElem _ _ hk,
        List.getD_eq_getElem _ _ (by omega : k < D2.length)]
    rw [← this]
    exact List.getElem_mem _
  have := ((counts_max_le_iff _ (List.zipWith (fun a b => a + b) D1 D2) 0).1 le_rfl).2 _ hmem
  omega

/-- Claim C39: for the Gini index and the misclassification impurity and two vectors of
class counts of the same length with positive sums, the gain is not negative in exact
arithmetic, and it is 0 when the two vectors have the same class proportions
(`D1[i] / sum(D1) = D2[i] / sum(D2)` for every class `i`). -/
theorem gain_nonneg (D1_counts D2_counts : List Nat)
    (hlen : D1_counts.length = D2_counts.length) (h1 : 0 < D1_counts.sum)
    (h2 : 0 < D2_counts.sum) :
    0 ≤ gain gini_index D1_counts D2_counts ∧
    0 ≤ gain mis_classification D1_counts D2_counts ∧
    ((∀ i, i < D1_counts.length →
        (D1_counts.getD i 0 : ℚ) / D1_counts.sum = (D2_counts.getD i 0 : ℚ) / D2_counts.sum) →
      gain gini_index D1_counts D2_counts = 0 ∧
      gain mis_classification D1_counts D2_counts = 0) := by
  have q1 : (0 : ℚ) < (D1_counts.sum : ℚ) := by exact_mod_cast h1
  have q2 : (0 : ℚ) < (D2_counts.sum : ℚ) := by exact_mod_cast h2
  have q3 : (0 : ℚ) < (D1_counts.sum : ℚ) + (D2_counts.sum : ℚ) := by linarith
  obtain ⟨g1, g2⟩ := gini_squares _ _ q1 q2 D1_counts D2_counts hlen
  obtain ⟨m1, m2⟩ := foldl_max_zipWith D1_counts D2_counts hlen h1 h2
  have hs := sum_zipWith_add D1_counts D2_counts hlen
  have egini : gain gini_index D1_counts D2_counts =
      (D1_counts.sum : ℚ) / ((D1_counts.sum : ℚ) + D2_counts.sum) *
        (D1_counts.map (fun (c : Nat) => ((c : ℚ) / (D1_counts.sum : ℚ)) ^ 2)).sum +
      (D2_counts.sum : ℚ) / ((D1_counts.sum : ℚ) + D2_counts.sum) *
        (D2_counts.map (fun (c : Nat) => ((c : ℚ) / (D2_counts.sum : ℚ)) ^ 2)).sum -
      ((List.zipWith (fun a b => a + b) D1_counts D2_counts).map
        (fun (c : Nat) => ((c : ℚ) / ((D1_counts.sum : ℚ) + D2_counts.sum)) ^ 2)).sum := by
    have hN : ((D1_counts.sum + D2_counts.sum : Nat) : ℚ) =
        (D1_counts.sum : ℚ) + (D2_counts.sum : ℚ) := Nat.cast_add _ _
    simp only [gain, gini_index_eq, hs, hN]
    generalize (D1_counts.sum : ℚ) = N1 at q3 ⊢
    generalize (D2_counts.sum : ℚ) = N2 at q3 ⊢
    generalize (D1_counts.map (fun (c : Nat) => ((c : ℚ) / N1) ^ 2)).sum = A
    generalize (D2_counts.map (fun (c : Nat) => ((c : ℚ) / N2) ^ 2)).sum = B
    generalize ((List.zipWith (fun a b => a + b) D1_counts D2_counts).map
        (fun (c : Nat) => ((c : ℚ) / (N1 + N2)) ^ 2)).sum = C
    have hne : N1 + N2 ≠ 0 := ne_of_gt q3
    field_simp
    ring
  have emis : gain mis_classification D1_counts D2_counts =
      (((D1_counts.foldl max 0 : Nat) : ℚ) + ((D2_counts.foldl max 0 : Nat) : ℚ) -
        (((List.zipWith (fun a b => a + b) D1_counts D2_counts).foldl max 0 : Nat) : ℚ)) /
      ((D1_counts.sum : ℚ) + D2_counts.sum) := by
    have hN : ((D1_counts.sum + D2_counts.sum : Nat) : ℚ) =
        (D1_counts.sum : ℚ) + (D2_counts.sum : ℚ) := Nat.cast_add _ _
    simp only [gain, mis_classification, hs, hN]
    generalize (((List.zipWith (fun a b => a + b) D1_counts D2_counts).foldl max 0 : Nat) : ℚ)
      = C
    generalize ((D1_counts.foldl max 0 : Nat) : ℚ) = A
    generalize ((D2_counts.foldl max 0 : Nat) : ℚ) = B
    generalize (D1_counts.sum : ℚ) = N1 at q1 q3 ⊢
    generalize (D2_counts.sum : ℚ) = N2 at q2 q3 ⊢
    have hne : N1 + N2 ≠ 0 := ne_of_gt q3
    have hne1 : N1 ≠ 0 := ne_of_gt q1
    have hne2 : N2 ≠ 0 := ne_of_gt q2
    field_simp
    ring
  have m1q : (((List.zipWith (fun a b => a + b) D1_counts D2_counts).foldl max 0 : Nat) : ℚ) ≤
      ((D1_counts.foldl max 0 : Nat) : ℚ) + ((D2_counts.foldl max 0 : Nat) : ℚ) := by
    exact_mod_cast m1
  refine ⟨?_, ?_, fun hp => ⟨?_, ?_⟩⟩
  · rw [egini]; linarith
  · rw [emis]; exact div_nonneg (by linarith) q3.le
  · rw [egini, g2 hp]; ring
  · rw [emis, m2 hp]; push_cast; ring

theorem gain_nonneg_witness :
    ([1, 2] : List Nat).length = ([2, 4] : List Nat).length ∧ 0 < ([1, 2] : List Nat).sum ∧
    0 < ([2, 4] : List Nat).sum ∧
    0 ≤ gain gini_index [1, 2] [2, 4] ∧ 0 ≤ gain mis_classification [1, 2] [2, 4] ∧
    ((∀ i, i < ([1, 2] : List Nat).length →
        ((([1, 2] : List Nat).getD i 0 : Nat) : ℚ) / (([1, 2] : List Nat).sum : ℚ) =
        ((([2, 4] : List Nat).getD i 0 : Nat) : ℚ) / (([2, 4] : List Nat).sum : ℚ)) →
      gain gini_index [1, 2] [2, 4] = 0 ∧ gain mis_classification [1, 2] [2, 4] = 0) :=
  ⟨rfl, by decide, by decide, gain_nonneg [1, 2] [2, 4] rfl (by decide) (by decide)⟩

/-- The gains of two splits of six samples: with the same proportions on both sides the
gain is 0, with the classes separated it is positive. -/
theorem gain_values :
    gain gini_index [1, 2] [2, 4] = 0 ∧ gain mis_classification [1, 2] [2, 4] = 0 ∧
    gain gini_index [3, 0] [0, 3] = 1 / 2 ∧ gain mis_classification [3, 0] [0, 3] = 1 / 2 ∧
    gain mis_classification [3, 1] [2, 1] = 0 := by
  decide!

/-! ## Both sides of a reported split hold a sample -/

theorem threshold_sweep_positions (D : dataset) (v : Nat) (options : decision_tree_options)
    (s : List Nat) (first last : Nat) :
    ∀ (n i : Nat) (D1 D2 : List Nat) (same_y : Bool),
    ∀ r ∈ threshold_sweep D v options s first last n i D1 D2 same_y,
      ∃ j, i ≤ j ∧ j < i + n ∧ r.split = .threshold ⟨v, D.at (s.getD j 0) v⟩ ∧
        (D.at (s.getD (j - 1) 0) v).eq (D.at (s.getD j 0) v) = false := by
  intro n
  induction n with
  | zero => intro i D1 D2 same_y r hr; simp [threshold_sweep] at hr
  | succ n ih =>
    intro i D1 D2 same_y r hr
    unfold threshold_sweep at hr
    simp only at hr
    have hrec : ∀ (D1 D2 : List Nat) (sy : Bool),
        r ∈ threshold_sweep D v options s first last n (i + 1) D1 D2 sy →
        ∃ j, i ≤ j ∧ j < i + (n + 1) ∧ r.split = .threshold ⟨v, D.at (s.getD j 0) v⟩ ∧
          (D.at (s.getD (j - 1) 0) v).eq (D.at (s.getD j 0) v) = false := by
      intro D1 D2 sy h
      obtain ⟨j, j1, j2, j3⟩ := ih (i + 1) D1 D2 sy r h
      exact ⟨j, by omega, by omega, j3⟩
    by_cases heq : (D.at (s.getD (i - 1) 0) v).eq (D.at (s.getD i 0) v) = true
    · rw [if_pos heq] at hr
      exact hrec _ _ _ hr
    · rw [if_neg heq] at hr
      have heq2 : (D.at (s.getD (i - 1) 0) v).eq (D.at (s.getD i 0) v) = false := by
        simpa using heq
      split at hr
      · split at hr
        · exact hrec _ _ _ hr
        · rcases List.mem_cons.1 hr with h | h
          · exact ⟨i, le_refl _, by omega, by rw [h], heq2⟩
          · exact hrec _ _ _ h
      · rcases List.mem_cons.1 hr with h | h
        · exact ⟨i, le_refl _, by omega, by rw [h], heq2⟩
        · exact hrec _ _ _ h

/-- Without missing values and with `min_samples_leaf >= 1`, a threshold split that is
reported sends a sample of the range to the left and another one to the right. -/
theorem enumerate_threshold_splits_sides (D : dataset) (I : List Nat) (v : Nat)
    (options : decision_tree_options) (K : Nat) (hmsl : 1 ≤ options.min_samples_leaf)
    (hm : ∀ i ∈ I, is_missing (D.at i v) = false) :
    ∀ r ∈ (enumerate_threshold_splits D I v options K).2,
      (∃ s ∈ I, select r.split (D.X.getD s []) = 0) ∧
      (∃ s ∈ I, select r.split (D.X.getD s []) = 1) := by
  intro r hr
  obtain ⟨hend, hsorted⟩ := sort_range_sorted D I v options hm
  have hperm := sort_range_perm D I v options
  unfold enumerate_threshold_splits at hr
  simp only at hr
  split at hr
  · simp at hr
  · rename_i hlast
    obtain ⟨j, j1, j2, j3, j4⟩ := threshold_sweep_positions D v options _ _ _ _ _ _ _ _ r hr
    have hlen : (sort_range D I v options).1.length = I.length := hperm.length_eq
    have hj : j < (sort_range D I v options).1.length := by omega
    have hj0 : j - 1 < (sort_range D I v options).1.length := by omega
    have hmem : ∀ a, a < (sort_range D I v options).1.length →
        (sort_range D I v options).1.getD a 0 ∈ I := by
      intro a ha
      apply hperm.subset
      rw [List.getD_eq_getElem _ _ ha]
      exact List.getElem_mem _
    have hle := sorted_key_le (fun i => (D.at i v).key) _ hsorted (j - 1) j (by omega) hj
    simp only at hle
    have m1 := hm _ (hmem _ hj0)
    have m2 := hm _ (hmem _ hj)
    rw [Value.eq_eq_key _ _ m1 m2] at j4
    have hne : (D.at ((sort_range D I v options).1.getD (j - 1) 0) v).key ≠
        (D.at ((sort_range D I v options).1.getD j 0) v).key := by simpa using j4
    have hlt := lt_of_le_of_ne hle hne
    have e : ∀ i w, (D.X.getD i []).getD w Value.nan = D.at i w := fun _ _ => rfl
    refine ⟨⟨_, hmem _ hj0, ?_⟩, ⟨_, hmem _ hj, ?_⟩⟩
    · rw [j3]
      simp only [select, e]
      rw [Value.lt_eq_key _ _ m1 m2, decide_eq_true hlt]
      rfl
    · rw [j3]
      simp only [select, e, Value.lt_irrefl]
      simp

/-- Without missing values and with `min_samples_leaf >= 1`, a single split that is
reported sends a sample of the range to the left and another one to the right. -/
theorem enumerate_single_splits_sides (D : dataset) (I : List Nat) (v : Nat)
    (options : decision_tree_options) (K : Nat) (hmsl : 1 ≤ options.min_samples_leaf)
    (hm : ∀ i ∈ I, is_missing (D.at i v) = false) (hK : ∀ i ∈ I, D.class_of i < K) :
    ∀ r ∈ (enumerate_single_splits D I v options K).2,
      (∃ s ∈ I, select r.split (D.X.getD s []) = 0) ∧
      (∃ s ∈ I, select r.split (D.X.getD s []) = 1) := by
  obtain ⟨s, hsdef⟩ : ∃ s, s = (sort_range D I v options).1 := ⟨_, rfl⟩
  have hperm : s.Perm I := by rw [hsdef]; exact sort_range_perm D I v options
  obtain ⟨-, hsorted0⟩ := sort_range_sorted D I v options hm
  have hsorted : s.Pairwise (fun i j => (D.at i v).key ≤ (D.at j v).key) := by
    rw [hsdef]; exact hsorted0
  have hms : ∀ i ∈ s, is_missing (D.at i v) = false := fun i hi => hm i (hperm.subset hi)
  have hsum : (compute_class_counts D s K).sum = s.length := by
    rw [compute_class_counts_eq]
    exact count_classes_sum D K s (fun i hi => hK i (hperm.subset hi))
  obtain ⟨vals, v1, -, v3⟩ := single_sweep_spec D v options K s hms hsorted s.length [] s
    (by simp) (le_refl _) (by simp)
  have hres : enumerate_single_splits D I v options K =
      (s, vals.map (single_split_report D K v s)) := by
    unfold enumerate_single_splits
    simp only [← hsdef, hsum]
    rw [compute_class_counts_eq, v1]
  rw [hres]
  intro r hr
  simp only [List.mem_map] at hr
  obtain ⟨c, hc, rfl⟩ := hr
  obtain ⟨⟨i, hi, hic⟩, h2, h3⟩ := (v3 c).1 hc
  have e : ∀ i w, (D.X.getD i []).getD w Value.nan = D.at i w := fun _ _ => rfl
  have hcm : is_missing c = false := by rw [← hic]; exact hms i hi
  refine ⟨⟨i, hperm.subset hi, ?_⟩, ?_⟩
  · simp only [single_split_report, select, e]
    rw [hic, (Value.eq_true_iff c c hcm hcm).2 rfl]
    rfl
  · have hlt : s.countP (fun i => (D.at i v).eq c) < s.length := by
      have := List.countP_le_length (fun i => (D.at i v).eq c) (l := s)
      omega
    have hex : ∃ x ∈ s, (D.at x v).eq c = false := by
      by_contra hcon
      push_neg at hcon
      have : s.countP (fun i => (D.at i v).eq c) = s.length := by
        rw [List.countP_eq_length]
        intro x hx
        simpa using hcon x hx
      omega
    obtain ⟨x, hx, hxc⟩ := hex
    refine ⟨x, hperm.subset hx, ?_⟩
    simp only [single_split_report, select, e, hxc]
    rfl

theorem exists_testBit_false (i p : Nat) (h : i < 2 ^ p - 1) :
    ∃ j, j < p ∧ i.testBit j = false := by
  by_contra hcon
  push_neg at hcon
  have hi : i < 2 ^ p := by omega
  have : i = 2 ^ p - 1 := by
    apply Nat.eq_of_testBit_eq
    intro j
    rw [Nat.testBit_two_pow_sub_one]
    by_cases hj : j < p
    · have := hcon j hj
      simp only [hj, decide_True]
      simpa using this
    · simp only [hj, decide_False]
      exact testBit_false_of_lt_of_le i p j hi (by omega)
  omega

/-- The reports of the outer loop of `enumerate_subset_splits`, for at most 64 categories:
the mask of a report holds the first category and encodes a subset number of the list, and
the counts of the first part are the sums of the rows `0` and `j + 1` of the table for the
bits `j` of the subset number. -/
theorem subset_outer_sides (v : Nat) (options : decision_tree_options) (W : List Nat) (K : Nat)
    (pos D_counts : List Nat) (p : Nat) (hp : p < 64)
    (hpos : ∀ j, j < p → pos.getD (j + 1) 0 < 64)
    (hinj : ∀ j, j < p → ∀ j2, j2 < p → pos.getD (j + 1) 0 = pos.getD (j2 + 1) 0 → j = j2)
    (h0ne : ∀ j, j < p → pos.getD (j + 1) 0 ≠ pos.getD 0 0) :
    ∀ (is : List Nat) (mask : Nat), mask < 2 ^ 64 →
    mask.testBit (pos.getD 0 0) = true →
    ∀ r ∈ subset_outer v options W K pos D_counts p is mask, ∃ i ∈ is, ∃ m,
      r.split = .subset (subset_split.make v m) ∧ m.testBit (pos.getD 0 0) = true ∧
      (∀ j, j < p → m.testBit (pos.getD (j + 1) 0) = i.testBit j) ∧
      options.min_samples_leaf ≤ r.D1_counts.sum ∧ r.D1_counts.length = K ∧
      ∀ k, k < K → r.D1_counts.getD k 0 = W.getD k 0 +
        (((List.range p).filter (fun j => is_bit_set i j)).map
          (fun j => W.getD ((j + 1) * K + k) 0)).sum := by
  intro is
  induction is with
  | nil => intro mask _ _ r hr; simp [subset_outer] at hr
  | cons i is ih =>
    intro mask hm h0
    obtain ⟨m1, m2, m3⟩ := subset_inner_mask W K pos i (List.range p) mask
      (subset_add W K (List.replicate K 0) 0) hm
      (fun j hj => ⟨by have := List.mem_range.mp hj; omega,
        by have := hpos j (List.mem_range.mp hj); omega⟩)
      (List.nodup_range p)
      (fun j hj j2 hj2 => hinj j (List.mem_range.mp hj) j2 (List.mem_range.mp hj2))
    obtain ⟨a1, a2⟩ := subset_add_spec W K (List.replicate K 0) 0
    obtain ⟨c1, c2⟩ := subset_inner_counts W K pos i (List.range p) mask
      (subset_add W K (List.replicate K 0) 0) (by rw [a1]; simp)
    obtain ⟨st, hst⟩ : ∃ st, st = subset_inner W K pos i (List.range p)
      (mask, subset_add W K (List.replicate K 0) 0) := ⟨_, rfl⟩
    rw [← hst] at m1 m2 m3 c1 c2
    have hst0 : st.1.testBit (pos.getD 0 0) = true := by
      rw [m2 _ (fun j hj => h0ne j (List.mem_range.mp hj))]; exact h0
    have ih1 := ih st.1 m1 hst0
    have hD1 : ∀ k, k < K → st.2.getD k 0 = W.getD k 0 +
        (((List.range p).filter (fun j => is_bit_set i j)).map
          (fun j => W.getD ((j + 1) * K + k) 0)).sum := by
      intro k hk
      rw [c2 k hk, a2 k]
      simp only [hk, List.length_replicate, and_self, if_true]
      have e0 : (List.replicate K 0).getD k 0 = 0 := by
        simp [List.getD_eq_getElem?_getD, List.getElem?_replicate, hk]
      rw [e0]
      simp
    have henc : ∀ j, j < p → st.1.testBit (pos.getD (j + 1) 0) = i.testBit j :=
      fun j hj => m3 j (List.mem_range.mpr hj)
    intro r hr
    simp only [subset_outer, ← hst] at hr
    split_ifs at hr with hcond
    · rcases List.mem_cons.mp hr with rfl | hr
      · exact ⟨i, List.mem_cons_self _ _, st.1, rfl, hst0, henc, hcond.1, c1, hD1⟩
      · obtain ⟨i2, hi2, rest⟩ := ih1 r hr
        exact ⟨i2, List.mem_cons_of_mem _ hi2, rest⟩
    · obtain ⟨i2, hi2, rest⟩ := ih1 r hr
      exact ⟨i2, List.mem_cons_of_mem _ hi2, rest⟩

theorem subset_pos_sorted (W : List Nat) (K ncat_v : Nat) :
    (subset_pos W K ncat_v).Pairwise (fun a b => a < b) :=
  List.Pairwise.filter _ (List.pairwise_lt_range ncat_v)

theorem subset_pos_first_le (W : List Nat) (K ncat_v c : Nat)
    (h : c ∈ subset_pos W K ncat_v) : (subset_pos W K ncat_v).getD 0 0 ≤ c := by
  obtain ⟨a, ha, e⟩ := List.getElem_of_mem h
  have hs := subset_pos_sorted W K ncat_v
  rw [List.getD_eq_getElem _ _ (by omega : 0 < (subset_pos W K ncat_v).length)]
  by_cases ha0 : a = 0
  · subst ha0
    rw [e]
  · have := (List.pairwise_iff_getElem.1 hs) 0 a (by omega) ha (by omega)
    rw [e] at this
    omega

/-- A subset split that is reported sends a sample of the range to the left and another one
to the right, when `min_samples_leaf >= 1` and the classes are below the class count. -/
theorem enumerate_subset_splits_sides (D : dataset) (I : List Nat) (v : Nat)
    (options : decision_tree_options) (hmsl : 1 ≤ options.min_samples_leaf)
    (hclass : ∀ i ∈ I, D.class_of i < D.class_count)
    (res : List Nat × List split_report)
    (h : enumerate_subset_splits D I v options = some res) :
    ∀ r ∈ res.2,
      (∃ s ∈ I, select r.split (D.X.getD s []) = 0) ∧
      (∃ s ∈ I, select r.split (D.X.getD s []) = 1) := by
  unfold enumerate_subset_splits at h
  simp only [] at h
  by_cases hcat : D.category_counts.getD v 0 > subset_split.max_subset_size
  · rw [if_pos hcat] at h
    exact absurd h (by simp)
  rw [if_neg hcat] at h
  by_cases hn : (sort_range D I v options).2 = 0
  · rw [if_pos hn] at h
    simp only [Option.some.injEq] at h
    rw [← h]
    intro r hr
    simp at hr
  rw [if_neg hn] at h
  simp only [Option.some.injEq] at h
  rw [← h]
  simp only
  obtain ⟨K, hK⟩ : ∃ K, K = D.class_count := ⟨_, rfl⟩
  obtain ⟨n, hn2⟩ : ∃ n, n = D.category_counts.getD v 0 := ⟨_, rfl⟩
  obtain ⟨s, hs⟩ : ∃ s, s = (sort_range D I v options).1 := ⟨_, rfl⟩
  obtain ⟨I1, hI1⟩ : ∃ I1, I1 = s.take (sort_range D I v options).2 := ⟨_, rfl⟩
  obtain ⟨W, hW⟩ : ∃ W, W = subset_table D v K n I1 := ⟨_, rfl⟩
  obtain ⟨pos, hpos⟩ : ∃ pos, pos = subset_pos W K n := ⟨_, rfl⟩
  rw [← hK, ← hn2, ← hs, ← hI1, ← hW, ← hpos]
  have hn64 : n ≤ 64 := by
    rw [hn2]
    unfold subset_split.max_subset_size at hcat
    omega
  have hI1mem := sort_range_take_mem D I v options
  rw [← hs, ← hI1] at hI1mem
  have hI1class : ∀ i ∈ I1, D.class_of i < K := by
    intro i hi; rw [hK]; exact hclass i (hI1mem i hi).1
  have hposmem : ∀ c ∈ pos, c < n ∧ ∃ i ∈ I, (D.at i v).to_size_t = c := by
    intro c hc
    rw [hpos] at hc
    obtain ⟨h1, j, hj, hWj⟩ := subset_pos_mem W K n c hc
    refine ⟨h1, ?_⟩
    have hle2 := subset_table_le D v K n I1 (c * K + j)
    rw [← hW] at hle2
    have := lt_of_lt_of_le hWj hle2
    rw [List.countP_pos_iff] at this
    obtain ⟨i, hi, hfi⟩ := this
    simp only [decide_eq_true_eq] at hfi
    have hyi := hI1class i hi
    refine ⟨i, (hI1mem i hi).1, ?_⟩
    have h1 : ((D.at i v).to_size_t * K + D.class_of i) / K = (c * K + j) / K := by rw [hfi]
    rw [Nat.mul_comm, Nat.mul_add_div (by omega), Nat.mul_comm c K, Nat.mul_add_div (by omega),
      Nat.div_eq_of_lt hyi, Nat.div_eq_of_lt hj] at h1
    simpa using h1
  have hnd : pos.Nodup := by rw [hpos]; exact subset_pos_nodup W K n
  have hlen : pos.length ≤ 64 := by
    rw [hpos]; exact le_trans (subset_pos_length W K n) hn64
  rcases List.eq_nil_or_concat pos with hnil | ⟨_, _, hcc⟩
  · rw [hnil]
    simp [subset_outer]
  have hposlen : 0 < pos.length := by rw [hcc]; simp
  clear hcc
  have hget : ∀ a, a < pos.length → pos.getD a 0 ∈ pos := by
    intro a ha
    rw [List.getD_eq_getElem _ _ ha]
    exact List.getElem_mem _
  have h064 : pos.getD 0 0 < 64 := by
    have := (hposmem _ (hget 0 hposlen)).1; omega
  have spec := subset_outer_sides v options W K pos (compute_class_counts D s K)
    (pos.length - 1) (by omega)
    (fun j hj => by have := (hposmem _ (hget (j + 1) (by omega))).1; omega)
    (fun j hj j2 hj2 h => by
      rw [List.getD_eq_getElem _ _ (by omega : j + 1 < pos.length),
        List.getD_eq_getElem _ _ (by omega : j2 + 1 < pos.length)] at h
      have := (List.Nodup.getElem_inj_iff hnd).mp h
      omega)
    (fun j hj h => by
      rw [List.getD_eq_getElem _ _ (by omega : j + 1 < pos.length),
        List.getD_eq_getElem _ _ hposlen] at h
      have := (List.Nodup.getElem_inj_iff hnd).mp h
      omega)
    (List.range (2 ^ (pos.length - 1) - 1)) (set_bit 0 (pos.getD 0 0) true)
    (set_bit_lt _ _ _ (by norm_num))
    (by rw [set_bit_testBit _ _ _ h064 (by norm_num), if_pos rfl])
  intro r hr
  obtain ⟨i, hi, m, h1, h2, h3, h4, h5, h6⟩ := spec r hr
  have hi2 := List.mem_range.mp hi
  have e : ∀ i w, (D.X.getD i []).getD w Value.nan = D.at i w := fun _ _ => rfl
  have hsel : ∀ x c, (D.at x v).to_size_t = c → c < 64 →
      select r.split (D.X.getD x []) = if c < 32 ∧ m.testBit c = true then 0 else 1 := by
    intro x c hxc hc
    rw [h1]
    simp only [select, subset_split.make, subset_split.contains, e, hxc]
    rw [is_bit_set_eq_testBit _ _ hc, Nat.testBit_mod_two_pow]
    by_cases hc32 : c < 32 <;> by_cases hb : m.testBit c = true <;> simp [hc32, hb]
  -- the first category is below 32: otherwise the counts of the first part are zero
  have h032 : pos.getD 0 0 < 32 := by
    by_contra hge
    have hcard : pos.length ≤ n - pos.getD 0 0 := by
      have hsub : pos.toFinset ⊆ Finset.Ico (pos.getD 0 0) n := by
        intro c hc
        rw [List.mem_toFinset] at hc
        rw [Finset.mem_Ico]
        refine ⟨?_, (hposmem c hc).1⟩
        rw [hpos] at hc ⊢
        exact subset_pos_first_le W K n c hc
      have := Finset.card_le_card hsub
      rw [List.toFinset_card_of_nodup hnd, Nat.card_Ico] at this
      exact this
    have hrow : ∀ row k, row < pos.getD 0 0 → k < K → W.getD (row * K + k) 0 = 0 := by
      intro row k hrow hk
      by_contra hne
      have hmem : row ∈ subset_pos W K n := by
        unfold subset_pos
        rw [List.mem_filter]
        refine ⟨List.mem_range.mpr (by have := (hposmem _ (hget 0 hposlen)).1; omega), ?_⟩
        rw [List.any_eq_true]
        exact ⟨k, List.mem_range.mpr hk, by simpa using Nat.pos_of_ne_zero hne⟩
      have := subset_pos_first_le W K n row hmem
      rw [← hpos] at this
      omega
    have hzero : ∀ x ∈ r.D1_counts, x = 0 := by
      intro x hx
      obtain ⟨k, hk, rfl⟩ := List.getElem_of_mem hx
      rw [h5] at hk
      have := h6 k hk
      rw [List.getD_eq_getElem _ _ (by rw [h5]; exact hk)] at this
      rw [this]
      have e0 := hrow 0 k (by omega) hk
      simp only [Nat.zero_mul, Nat.zero_add] at e0
      rw [e0, Nat.zero_add]
      apply List.sum_eq_zero
      intro y hy
      simp only [List.mem_map, List.mem_filter, List.mem_range] at hy
      obtain ⟨j, ⟨hj, -⟩, rfl⟩ := hy
      exact hrow (j + 1) k (by omega) hk
    have := List.sum_eq_zero hzero
    omega
  constructor
  · obtain ⟨-, x, hx, hxc⟩ := hposmem _ (hget 0 hposlen)
    refine ⟨x, hx, ?_⟩
    rw [hsel x _ hxc h064, if_pos ⟨h032, h2⟩]
  · obtain ⟨j, hj, hbit⟩ := exists_testBit_false i (pos.length - 1) hi2
    obtain ⟨hc, x, hx, hxc⟩ := hposmem _ (hget (j + 1) (by omega))
    refine ⟨x, hx, ?_⟩
    rw [hsel x _ hxc (by omega), if_neg]
    rw [h3 j hj, hbit]
    simp

/-- A split that is reported for a variable sends a sample of the range to the left and
another one to the right. -/
theorem enumerate_variable_sides (fam : split_family) (D : dataset)
    (options : decision_tree_options) (hmsl : 1 ≤ options.min_samples_leaf)
    (I : List Nat) (v : Nat) (hm : ∀ i ∈ I, is_missing (D.at i v) = false)
    (hclass : ∀ i ∈ I, D.class_of i < D.class_count)
    (res : List Nat × List split_report)
    (h : fam.enumerate_variable D options I v = some res) :
    ∀ r ∈ res.2,
      (∃ s ∈ I, select r.split (D.X.getD s []) = 0) ∧
      (∃ s ∈ I, select r.split (D.X.getD s []) = 1) := by
  unfold split_family.enumerate_variable at h
  cases fam with
  | threshold =>
    simp only [Option.some.injEq] at h
    rw [← h]
    exact enumerate_threshold_splits_sides D I v options _ hmsl hm
  | threshold_plus_single =>
    simp only at h
    split at h
    · simp only [Option.some.injEq] at h
      rw [← h]
      exact enumerate_single_splits_sides D I v options _ hmsl hm hclass
    · simp only [Option.some.injEq] at h
      rw [← h]
      exact enumerate_threshold_splits_sides D I v options _ hmsl hm
  | threshold_plus_subset =>
    simp only at h
    split at h
    · exact enumerate_subset_splits_sides D I v options hmsl hclass res h
    · simp only [Option.some.injEq] at h
      rw [← h]
      exact enumerate_threshold_splits_sides D I v options _ hmsl hm

/-- Every split that `split_family.enumerate` reports sends a sample of the range to the
left and another one to the right, when no value of a variable of `V` is missing in the
range. -/
theorem enumerate_sides (fam : split_family) (D : dataset)
    (options : decision_tree_options) (hmsl : 1 ≤ options.min_samples_leaf)
    (V : List Nat) : ∀ (I : List Nat) (res : List Nat × List split_report),
    (∀ i ∈ I, ∀ v ∈ V, is_missing (D.at i v) = false) →
    (∀ i ∈ I, D.class_of i < D.class_count) →
    fam.enumerate D options I V = some res →
    ∀ r ∈ res.2,
      (∃ s ∈ I, select r.split (D.X.getD s []) = 0) ∧
      (∃ s ∈ I, select r.split (D.X.getD s []) = 1) := by
  induction V with
  | nil =>
    intro I res _ _ h r hr
    simp only [split_family.enumerate, Option.some.injEq] at h
    rw [← h] at hr
    simp at hr
  | cons v V ih =>
    intro I res hm hclass h r hr
    simp only [split_family.enumerate] at h
    cases h1 : fam.enumerate_variable D options I v with
    | none => simp [h1] at h
    | some r1 =>
      obtain ⟨I1, rep1⟩ := r1
      simp only [h1] at h
      cases h2 : split_family.enumerate fam D options I1 V with
      | none => simp [h2] at h
      | some r2 =>
        obtain ⟨I2, rep2⟩ := r2
        simp only [h2, Option.some.injEq] at h
        rw [← h] at hr
        have hp := enumerate_variable_perm fam D options I v _ h1
        rcases List.mem_append.1 hr with hr | hr
        · exact enumerate_variable_sides fam D options hmsl I v
            (fun i hi => hm i hi v (List.mem_cons_self _ _)) hclass _ h1 r hr
        · obtain ⟨⟨a, a1, a2⟩, ⟨b, b1, b2⟩⟩ := ih I1 _
            (fun i hi w hw => hm i (hp.subset hi) w (List.mem_cons_of_mem _ hw))
            (fun i hi => hclass i (hp.subset hi)) h2 r hr
          exact ⟨⟨a, hp.subset a1, a2⟩, ⟨b, hp.subset b1, b2⟩⟩

/-- The enumeration throws only in the family with subset splits, for a variable with more
categories than a mask holds and `max_categorical_size` above that number. -/
theorem enumerate_none (fam : split_family) (D : dataset)
    (options : decision_tree_options) (V : List Nat) : ∀ (I : List Nat),
    fam.enumerate D options I V = none →
    fam = .threshold_plus_subset ∧
      subset_split.max_subset_size < options.max_categorical_size := by
  induction V with
  | nil => intro I h; simp [split_family.enumerate] at h
  | cons v V ih =>
    intro I h
    simp only [split_family.enumerate] at h
    cases h1 : fam.enumerate_variable D options I v with
    | none =>
      unfold split_family.enumerate_variable at h1
      cases fam with
      | threshold => simp at h1
      | threshold_plus_single =>
        simp only at h1
        split at h1 <;> simp at h1
      | threshold_plus_subset =>
        simp only at h1
        split at h1
        · rename_i hc
          unfold enumerate_subset_splits at h1
          simp only at h1
          split at h1
          · rename_i hgt
            exact ⟨rfl, by omega⟩
          · split at h1 <;> simp at h1
        · simp at h1
    | some r1 =>
      obtain ⟨I1, rep1⟩ := r1
      simp only [h1] at h
      cases h2 : split_family.enumerate fam D options I1 V with
      | none => exact ih I1 h2
      | some r2 => simp [h2] at h

/-! ## The two parts of a split are not empty -/

/-- With `min_samples_leaf >= 1` and without missing values in the range of the vertex, the
two parts that `split_vertex` makes of the range are not empty. -/
theorem split_vertex_sides {ρ S : Type} (eng : random_engine ρ) (D : dataset)
    (options : decision_tree_options) (fam : split_family) (g : gain_function S)
    (tree : binary_decision_tree) (rng : ρ) (todo : List Nat) (depth ui : Nat)
    (res : binary_decision_tree × ρ × List Nat)
    (h : split_vertex eng D options fam g tree rng todo depth ui = some res)
    (hui : ui < tree.vertices.length)
    (hb : (tree.find_vertex ui).I_begin ≤ (tree.find_vertex ui).I_end)
    (he : (tree.find_vertex ui).I_end ≤ tree.indices.length)
    (hmsl : 1 ≤ options.min_samples_leaf)
    (hV : ∀ vars n (rng : ρ), ∀ v ∈ (eng.sample vars n rng).1, v ∈ vars)
    (hD : ∀ s ∈ tree.range (tree.find_vertex ui), ∀ v, v < D.feature_count →
      is_missing (D.at s v) = false)
    (hclass : ∀ s ∈ tree.range (tree.find_vertex ui), D.class_of s < D.class_count) :
    (res.1.vertices = tree.vertices ∧ res.2.2 = todo) ∨
    ∃ (I1 I2 : List Nat) (split : splitting_criterion),
      I1 ≠ [] ∧ I2 ≠ [] ∧
      (I1 ++ I2).Perm (tree.range (tree.find_vertex ui)) ∧
      res.1.vertices = (tree.vertices ++
          [({ I_begin := (tree.find_vertex ui).I_begin,
              I_end := (tree.find_vertex ui).I_begin + I1.length } : vertex),
           { I_begin := (tree.find_vertex ui).I_begin + I1.length,
             I_end := (tree.find_vertex ui).I_end }]).set ui
        { I_begin := (tree.find_vertex ui).I_begin, I_end := (tree.find_vertex ui).I_end,
          split := split, left := tree.vertices.length % 2 ^ 32,
          right := (tree.vertices.length + 1) % 2 ^ 32 } ∧
      res.2.2 = if depth < options.max_depth then
          todo ++ [tree.vertices.length % 2 ^ 32, (tree.vertices.length + 1) % 2 ^ 32]
        else todo := by
  unfold split_vertex at h
  simp only at h
  generalize hu : tree.find_vertex ui = u at h hb he hD hclass ⊢
  have hZ : ∀ v ∈ (eng.sample (List.range D.feature_count)
      (min options.max_features D.feature_count) rng).1, v < D.feature_count :=
    fun v hv => List.mem_range.mp (hV _ _ _ v hv)
  generalize eng.sample (List.range D.feature_count) (min options.max_features D.feature_count)
    rng = Z at h hZ ⊢
  cases hen : fam.enumerate D options (tree.range u) Z.1 with
  | none => simp [hen] at h
  | some r1 =>
    obtain ⟨I', reports⟩ := r1
    simp only [hen] at h
    have hperm1 : I'.Perm (tree.range u) := enumerate_perm fam D options Z.1 _ _ hen
    have hrl : (tree.range u).length = u.I_end - u.I_begin := range_length_eq tree u he
    have hI'l : I'.length = u.I_end - u.I_begin := by rw [hperm1.length_eq, hrl]
    generalize hbest : (reports.foldl (best_split_update g)
      (g.lowest, splitting_criterion.monostate)) = best at h
    by_cases hm : best.2 = splitting_criterion.monostate
    · simp only [hm, if_true, Option.some.injEq] at h
      rw [← h]
      exact Or.inl ⟨rfl, rfl⟩
    · simp only [hm, if_false] at h
      generalize htree2 : binary_decision_tree.update_vertex
        { tree with indices := write_range tree.indices u.I_begin u.I_end I' } ui
        (fun w => { w with split := best.2 }) = tree2 at h
      have hind2 : tree2.indices = write_range tree.indices u.I_begin u.I_end I' := by
        rw [← htree2]; rfl
      have hvs2 : tree2.vertices = tree.vertices.set ui { u with split := best.2 } := by
        rw [← htree2]
        simp only [binary_decision_tree.update_vertex, binary_decision_tree.find_vertex]
        unfold binary_decision_tree.find_vertex at hu
        rw [hu]
      have hr2 : tree2.range u = I' := by
        unfold binary_decision_tree.range
        rw [hind2]
        exact range_write_range_self _ _ _ _ hb he hI'l
      cases hap : apply_split eng best.2 D (tree2.range u) Z.2 options.support_missing_values with
      | none => simp [hap] at h
      | some r2 =>
        obtain ⟨⟨I1, I2⟩, rng2⟩ := r2
        simp only [hap, Option.some.injEq] at h
        have hsome := apply_split_some eng best.2 D (tree2.range u) Z.2
          options.support_missing_values hm
        rw [hap] at hsome
        simp only [Option.some.injEq] at hsome
        have hperm2 : (I1 ++ I2).Perm (tree2.range u) := by
          have hp := std_partition_perm (apply_split_pred eng D options.support_missing_values
            best.2) (tree2.range u) Z.2
          rw [← hsome] at hp
          exact hp
        have hleft := std_partition_left (apply_split_pred eng D
          options.support_missing_values best.2) (tree2.range u) Z.2
        have hright := std_partition_right (apply_split_pred eng D
          options.support_missing_values best.2) (tree2.range u) Z.2
        rw [← hsome] at hleft hright
        simp only at hleft hright
        rw [hr2] at hperm2
        have hperm3 := hperm2.trans hperm1
        have hrep : ∃ r ∈ reports, best.2 = r.split := by
          rcases best_split_foldl_ne g reports (g.lowest, splitting_criterion.monostate)
            with h1 | h1
          · rw [hbest] at h1
            exact absurd h1 hm
          · rw [hbest] at h1
            exact h1
        obtain ⟨r, hr, hbr⟩ := hrep
        have hvar := enumerate_var fam D options Z.1 _ _ hen r hr
        rw [← hbr] at hvar
        have hvar2 := hZ _ hvar
        obtain ⟨⟨a, a1, a2⟩, ⟨b, b1, b2⟩⟩ := enumerate_sides fam D options hmsl Z.1
          (tree.range u) _ (fun i hi v hv => hD i hi v (hZ v hv)) hclass hen r hr
        rw [← hbr] at a2 b2
        have ha : a ∈ I1 := by
          rcases List.mem_append.1 (hperm3.symm.subset a1) with ha | ha
          · exact ha
          · obtain ⟨r0, hr0⟩ := hright a ha
            have := (apply_split_pred_select eng D options.support_missing_values best.2 hm
              r0 a (hD a a1 _ hvar2)).2 hr0
            rw [a2] at this
            exact absurd this (by decide)
        have hb2 : b ∈ I2 := by
          rcases List.mem_append.1 (hperm3.symm.subset b1) with hb2 | hb2
          · obtain ⟨r0, hr0⟩ := hleft b hb2
            have := (apply_split_pred_select eng D options.support_missing_values best.2 hm
              r0 b (hD b b1 _ hvar2)).1 hr0
            rw [b2] at this
            exact absurd this (by decide)
          · exact hb2
        rw [← h]
        refine Or.inr ⟨I1, I2, best.2, List.ne_nil_of_mem ha, List.ne_nil_of_mem hb2,
          hperm3, ?_, ?_⟩
        · simp only [binary_decision_tree.update_vertex, binary_decision_tree.add_vertex,
            binary_decision_tree.find_vertex, hvs2, List.length_set, List.length_append,
            List.length_singleton]
          have hget : ((tree.vertices.set ui { u with split := best.2 } ++
              [({ I_begin := u.I_begin, I_end := u.I_begin + I1.length } : vertex)] ++
              [({ I_begin := u.I_begin + I1.length, I_end := u.I_end } : vertex)]).getD ui
              { I_begin := 0, I_end := 0 }) = { u with split := best.2 } := by
            rw [List.append_assoc, List.getD_append _ _ _ _ (by simpa using hui)]
            rw [List.getD_eq_getElem _ _ (by simpa using hui)]
            simp
          rw [hget]
          rw [List.append_assoc, List.set_append_left _ _ (by simpa using hui), List.set_set]
          rw [List.set_append_left _ _ hui]
          rfl
        · simp only [binary_decision_tree.update_vertex, binary_decision_tree.add_vertex,
            hvs2, List.length_set, List.length_append, List.length_singleton]

/-- The two parts that an iteration of `learn_decision_tree` makes are not empty, see
`split_vertex_sides`; the iteration throws only when the enumeration of the splits does. -/
theorem learn_step_sides {ρ S : Type} (eng : random_engine ρ) (D : dataset)
    (options : decision_tree_options) (fam : split_family) (g : gain_function S)
    (stop : List Nat → dataset → Nat → decision_tree_options → Bool)
    (st : learn_state ρ) (ui : Nat) (todo : List Nat) (htodo : st.todo = ui :: todo)
    (hui : ui < st.tree.vertices.length)
    (hb : (st.tree.find_vertex ui).I_begin ≤ (st.tree.find_vertex ui).I_end)
    (he : (st.tree.find_vertex ui).I_end ≤ st.tree.indices.length)
    (hmsl : 1 ≤ options.min_samples_leaf)
    (hV : ∀ vars n (rng : ρ), ∀ v ∈ (eng.sample vars n rng).1, v ∈ vars)
    (hD : ∀ s ∈ st.tree.indices, ∀ v, v < D.feature_count → is_missing (D.at s v) = false)
    (hclass : ∀ s ∈ st.tree.indices, D.class_of s < D.class_count) :
    (learn_step eng D options fam g stop st = none ∧ fam = .threshold_plus_subset ∧
      subset_split.max_subset_size < options.max_categorical_size) ∨
    ∃ st2, learn_step eng D options fam g stop st = some st2 ∧
    ((st2.tree.vertices = st.tree.vertices ∧ st2.todo = todo) ∨
    ∃ (I1 I2 : List Nat) (split : splitting_criterion),
      I1 ≠ [] ∧ I2 ≠ [] ∧
      (I1 ++ I2).Perm (st.tree.range (st.tree.find_vertex ui)) ∧
      st2.tree.vertices = (st.tree.vertices ++
          [({ I_begin := (st.tree.find_vertex ui).I_begin,
              I_end := (st.tree.find_vertex ui).I_begin + I1.length } : vertex),
           { I_begin := (st.tree.find_vertex ui).I_begin + I1.length,
             I_end := (st.tree.find_vertex ui).I_end }]).set ui
        { I_begin := (st.tree.find_vertex ui).I_begin,
          I_end := (st.tree.find_vertex ui).I_end,
          split := split, left := st.tree.vertices.length % 2 ^ 32,
          right := (st.tree.vertices.length + 1) % 2 ^ 32 } ∧
      st2.todo = if st.depth < options.max_depth then
          todo ++ [st.tree.vertices.length % 2 ^ 32, (st.tree.vertices.length + 1) % 2 ^ 32]
        else todo) := by
  unfold learn_step
  rw [htodo]
  simp only
  by_cases hstop : stop (st.tree.range (st.tree.find_vertex ui)) D st.depth options = true
  · right
    simp only [hstop, Bool.not_true, Bool.false_eq_true, if_false]
    by_cases hl : st.level_count - 1 = 0
    · simp only [hl, if_true]
      exact ⟨_, rfl, Or.inl ⟨rfl, rfl⟩⟩
    · simp only [hl, if_false]
      exact ⟨_, rfl, Or.inl ⟨rfl, rfl⟩⟩
  · have hstop2 : stop (st.tree.range (st.tree.find_vertex ui)) D st.depth options = false := by
      simpa using hstop
    simp only [hstop2, Bool.not_false, if_true]
    cases hsv : split_vertex eng D options fam g st.tree st.rng todo st.depth ui with
    | none =>
      left
      refine ⟨rfl, ?_⟩
      unfold split_vertex at hsv
      simp only at hsv
      cases hen : fam.enumerate D options (st.tree.range (st.tree.find_vertex ui))
          (eng.sample (List.range D.feature_count)
            (min options.max_features D.feature_count) st.rng).1 with
      | none => exact enumerate_none fam D options _ _ hen
      | some r1 =>
        exfalso
        simp only [hen] at hsv
        split at hsv
        · simp at hsv
        · rename_i hm
          rw [apply_split_some _ _ _ _ _ _ hm] at hsv
          simp at hsv
    | some res =>
      right
      obtain ⟨tree, rng, todo2⟩ := res
      have hd := split_vertex_sides eng D options fam g st.tree st.rng todo st.depth ui _ hsv
        hui hb he hmsl hV (fun s hs => hD s (mem_range_indices _ _ _ hs))
        (fun s hs => hclass s (mem_range_indices _ _ _ hs))
      simp only at hd
      by_cases hl : st.level_count - 1 = 0
      · simp only [hl, if_true]
        exact ⟨_, rfl, hd⟩
      · simp only [hl, if_false]
        exact ⟨_, rfl, hd⟩

/-! ## Termination of `learn_decision_tree` and the size of the tree -/

theorem queue_slack_congr (tree tree2 : binary_decision_tree) (todo : List Nat)
    (h : ∀ t ∈ todo, (tree2.find_vertex t).I_begin = (tree.find_vertex t).I_begin ∧
      (tree2.find_vertex t).I_end = (tree.find_vertex t).I_end) :
    queue_slack tree2 todo = queue_slack tree todo := by
  unfold queue_slack
  congr 1
  apply List.map_congr_left
  intro t ht
  rw [(h t ht).1, (h t ht).2]

/-- One iteration of the loop: the invariants are kept and the measure
`2 * queue_slack + |todo|` decreases, unless the enumeration of the splits throws. -/
theorem learn_step_size {ρ S : Type} (eng : random_engine ρ) (D : dataset)
    (options : decision_tree_options) (fam : split_family) (g : gain_function S)
    (stop : List Nat → dataset → Nat → decision_tree_options → Bool)
    (hmsl : 1 ≤ options.min_samples_leaf)
    (hV : ∀ vars n (rng : ρ), ∀ v ∈ (eng.sample vars n rng).1, v ∈ vars)
    (n : Nat) (hn : 2 * n - 1 ≤ undefined_index)
    (st : learn_state ρ) (hinv : learn_inv st) (hs : size_inv n st)
    (hD : ∀ s ∈ st.tree.indices, ∀ v, v < D.feature_count → is_missing (D.at s v) = false)
    (hclass : ∀ s ∈ st.tree.indices, D.class_of s < D.class_count)
    (hne : st.todo ≠ []) :
    (learn_step eng D options fam g stop st = none ∧ fam = .threshold_plus_subset ∧
      subset_split.max_subset_size < options.max_categorical_size) ∨
    ∃ st2, learn_step eng D options fam g stop st = some st2 ∧
      learn_inv st2 ∧ size_inv n st2 ∧ st2.tree.indices.Perm st.tree.indices ∧
      2 * queue_slack st2.tree st2.todo + st2.todo.length <
        2 * queue_slack st.tree st.todo + st.todo.length := by
  obtain ⟨ui, todo, htodo⟩ := List.exists_cons_of_ne_nil hne
  have hmem : ui ∈ st.todo := by rw [htodo]; exact List.mem_cons_self _ _
  have hui := (hinv.pending ui hmem).1
  have hb := (hinv.nested.bounds ui hui).1
  have he := (hinv.nested.bounds ui hui).2
  have hpos := hs.nonempty ui hui
  have hpot := hs.potential
  have hslack : queue_slack st.tree st.todo =
      ((st.tree.find_vertex ui).I_end - (st.tree.find_vertex ui).I_begin - 1) +
        queue_slack st.tree todo := by
    rw [htodo]
    simp [queue_slack]
  have hlenq : st.todo.length = todo.length + 1 := by rw [htodo]; simp
  rcases learn_step_sides eng D options fam g stop st ui todo htodo hui hb he hmsl hV hD hclass
    with hnone | ⟨st2, hstep, hcase⟩
  · exact Or.inl hnone
  right
  refine ⟨st2, hstep, ?_⟩
  have hperm := (learn_step_cases eng D options fam g stop st st2 ui todo htodo hstep hui hb).1
  rcases hcase with ⟨hvs, htd⟩ | ⟨I1, I2, split, h1, h2, hp, hvs, htd⟩
  · -- no split
    have hfv : ∀ t, st2.tree.find_vertex t = st.tree.find_vertex t := by
      intro t; simp only [binary_decision_tree.find_vertex, hvs]
    have hq : ∀ l, queue_slack st2.tree l = queue_slack st.tree l :=
      fun l => queue_slack_congr _ _ _ (fun t _ => by rw [hfv t]; exact ⟨rfl, rfl⟩)
    have hinv2 := learn_step_inv eng D options fam g stop st st2 hinv hstep
      (by rw [hvs]; omega)
    refine ⟨hinv2, ⟨?_, ?_⟩, hperm, ?_⟩
    · intro u hu
      rw [hfv u]
      rw [hvs] at hu
      exact hs.nonempty u hu
    · rw [hvs, htd, hq]
      omega
    · rw [htd, hq]
      omega
  · -- the vertex is split
    have hrl := range_length_eq st.tree (st.tree.find_vertex ui) he
    have hl12 : I1.length + I2.length =
        (st.tree.find_vertex ui).I_end - (st.tree.find_vertex ui).I_begin := by
      rw [← hrl, ← hp.length_eq, List.length_append]
    have hl1 : 0 < I1.length := List.length_pos.2 h1
    have hl2 : 0 < I2.length := List.length_pos.2 h2
    have hlen2 : st2.tree.vertices.length = st.tree.vertices.length + 2 := by
      rw [hvs]; simp
    have hU2 : st.tree.vertices.length + 2 ≤ undefined_index := by omega
    obtain ⟨e1, e2⟩ := mod_uint32_of_le _ hU2
    have hinv2 := learn_step_inv eng D options fam g stop st st2 hinv hstep
      (by rw [hlen2]; exact hU2)
    have hold : ∀ t, t < st.tree.vertices.length →
        (st2.tree.find_vertex t).I_begin = (st.tree.find_vertex t).I_begin ∧
        (st2.tree.find_vertex t).I_end = (st.tree.find_vertex t).I_end := by
      intro t ht
      simp only [binary_decision_tree.find_vertex, hvs]
      by_cases htu : t = ui
      · rw [htu, getD_split_self _ _ _ _ _ _ hui]
        exact ⟨rfl, rfl⟩
      · rw [getD_split_old _ _ _ _ _ _ _ ht htu]
        exact ⟨rfl, rfl⟩
    have hleft : st2.tree.find_vertex st.tree.vertices.length =
        { I_begin := (st.tree.find_vertex ui).I_begin,
          I_end := (st.tree.find_vertex ui).I_begin + I1.length } := by
      simp only [binary_decision_tree.find_vertex, hvs]
      exact getD_split_left _ _ _ _ _ _ hui
    have hright : st2.tree.find_vertex (st.tree.vertices.length + 1) =
        { I_begin := (st.tree.find_vertex ui).I_begin + I1.length,
          I_end := (st.tree.find_vertex ui).I_end } := by
      simp only [binary_decision_tree.find_vertex, hvs]
      exact getD_split_right _ _ _ _ _ _ hui
    have hq : queue_slack st2.tree todo = queue_slack st.tree todo := by
      apply queue_slack_congr
      intro t ht
      exact hold t (hinv.pending t (by rw [htodo]; exact List.mem_cons_of_mem _ ht)).1
    have hq2 : queue_slack st2.tree
        (todo ++ [st.tree.vertices.length, st.tree.vertices.length + 1]) =
        queue_slack st.tree todo + (I1.length - 1) + (I2.length - 1) := by
      have : queue_slack st2.tree
          (todo ++ [st.tree.vertices.length, st.tree.vertices.length + 1]) =
          queue_slack st2.tree todo +
          (((st2.tree.find_vertex st.tree.vertices.length).I_end -
            (st2.tree.find_vertex st.tree.vertices.length).I_begin - 1) +
           ((st2.tree.find_vertex (st.tree.vertices.length + 1)).I_end -
            (st2.tree.find_vertex (st.tree.vertices.length + 1)).I_begin - 1)) := by
        simp [queue_slack]
      rw [this, hq, hleft, hright]
      simp only
      omega
    refine ⟨hinv2, ⟨?_, ?_⟩, hperm, ?_⟩
    · intro u hu
      rw [hlen2] at hu
      by_cases hu1 : u < st.tree.vertices.length
      · rw [(hold u hu1).1, (hold u hu1).2]
        exact hs.nonempty u hu1
      · by_cases hu2 : u = st.tree.vertices.length
        · rw [hu2, hleft]
          simp only
          omega
        · have hu3 : u = st.tree.vertices.length + 1 := by omega
          rw [hu3, hright]
          simp only
          omega
    · rw [hlen2, htd, e1, e2]
      by_cases hdp : st.depth < options.max_depth
      · rw [if_pos hdp, hq2]
        omega
      · rw [if_neg hdp, hq]
        omega
    · rw [htd, e1, e2]
      by_cases hdp : st.depth < options.max_depth
      · rw [if_pos hdp, hq2]
        simp only [List.length_append, List.length_cons, List.length_nil]
        omega
      · rw [if_neg hdp, hq]
        omega

/-- The loop of `learn_decision_tree` ends within `2 * queue_slack + |todo|` iterations: it
throws, or it returns a tree that satisfies the invariants. -/
theorem learn_loop_size {ρ S : Type} (eng : random_engine ρ) (D : dataset)
    (options : decision_tree_options) (fam : split_family) (g : gain_function S)
    (stop : List Nat → dataset → Nat → decision_tree_options → Bool)
    (hmsl : 1 ≤ options.min_samples_leaf)
    (hV : ∀ vars n (rng : ρ), ∀ v ∈ (eng.sample vars n rng).1, v ∈ vars)
    (n : Nat) (hn : 2 * n - 1 ≤ undefined_index) :
    ∀ (k : Nat) (st : learn_state ρ), learn_inv st → size_inv n st →
    (∀ s ∈ st.tree.indices, ∀ v, v < D.feature_count → is_missing (D.at s v) = false) →
    (∀ s ∈ st.tree.indices, D.class_of s < D.class_count) →
    2 * queue_slack st.tree st.todo + st.todo.length ≤ k →
    ∀ fuel, k ≤ fuel →
    (learn_loop eng D options fam g stop fuel st = .exception ∧ fam = .threshold_plus_subset ∧
      subset_split.max_subset_size < options.max_categorical_size) ∨
    ∃ tree, learn_loop eng D options fam g stop fuel st = .returned tree ∧
      bfs_numbered tree.vertices ∧ ranges_nested tree ∧
      (∀ u, u < tree.vertices.length →
        (tree.find_vertex u).I_begin < (tree.find_vertex u).I_end) ∧
      tree.vertices.length ≤ 2 * n - 1 := by
  intro k
  induction k with
  | zero =>
    intro st hinv hs _ _ hk fuel _
    have htodo : st.todo = [] := List.length_eq_zero.1 (by omega)
    right
    refine ⟨st.tree, ?_, hinv.numbered, hinv.nested, hs.nonempty, ?_⟩
    · cases fuel with
      | zero => simp [learn_loop, htodo]
      | succ f => simp [learn_loop, htodo]
    · have := hs.potential
      omega
  | succ k ih =>
    intro st hinv hs hD hclass hk fuel hfuel
    by_cases htodo : st.todo = []
    · right
      refine ⟨st.tree, ?_, hinv.numbered, hinv.nested, hs.nonempty, ?_⟩
      · cases fuel with
        | zero => simp [learn_loop, htodo]
        | succ f => simp [learn_loop, htodo]
      · have := hs.potential
        omega
    · obtain ⟨f, rfl⟩ : ∃ f, fuel = f + 1 := ⟨fuel - 1, by omega⟩
      rcases learn_step_size eng D options fam g stop hmsl hV n hn st hinv hs hD hclass htodo
        with ⟨hnone, hex⟩ | ⟨st2, hstep, hinv2, hs2, hperm, hlt⟩
      · left
        refine ⟨?_, hex⟩
        simp only [learn_loop, htodo, if_false, hnone]
      · have := ih st2 hinv2 hs2 (fun s hs0 => hD s (hperm.subset hs0))
          (fun s hs0 => hclass s (hperm.subset hs0)) (by omega) f (by omega)
        simp only [learn_loop, htodo, if_false, hstep]
        exact this

theorem size_inv_init {ρ : Type} (D : dataset) (I : List Nat) (hI : I ≠ []) (seed : ρ) :
    size_inv I.length (learn_state.mk (binary_decision_tree.make D I) seed [0] 0 1) := by
  have hl : 0 < I.length := List.length_pos.2 hI
  constructor
  · intro u hu
    simp only [binary_decision_tree.make, List.length_singleton] at hu
    have : u = 0 := by omega
    subst this
    simp only [binary_decision_tree.make, binary_decision_tree.find_vertex,
      List.getD_cons_zero]
    exact hl
  · simp only [binary_decision_tree.make, queue_slack, binary_decision_tree.find_vertex,
      List.length_singleton, List.map_cons, List.map_nil, List.getD_cons_zero, List.sum_cons,
      List.sum_nil]
    omega

/-- The leaves of a tree numbered breadth first are one more than the other vertices. -/
theorem bfs_numbered_leaves (vs : List vertex) (hn : bfs_numbered vs) :
    2 * (vs.filter (fun u => u.is_leaf)).length = vs.length + 1 := by
  have h1 := hn.size
  have h2 : nonleaf_count vs vs.length = vs.countP (fun u => !u.is_leaf) := by
    unfold nonleaf_count
    rw [List.take_length]
  have h3 := List.length_eq_countP_add_countP (fun u : vertex => u.is_leaf) (l := vs)
  rw [← List.countP_eq_length_filter]
  have h4 : vs.countP (fun u => !u.is_leaf) = vs.countP (fun a => ¬ (a.is_leaf = true)) := by
    apply List.countP_congr
    intro a _
    simp
  omega

/-- Claim C40: for `min_samples_leaf >= 1`, a non-empty index list `I` (of at most `2 ^ 31`
samples, so that the vertices are counted by 32 bit indices) and a dataset in which no value
of a feature of a training sample is missing and the classes are below the class count,
`learn_decision_tree` ends within `2 |I| - 1` iterations of its loop, for each split family,
gain function and stop criterion: it returns a tree in which every vertex has a non-empty
range, with at most `|I|` leaves and at most `2 |I| - 1` vertices; the only other outcome is
the exception of `enumerate_subset_splits`, in the family with subset splits when
`max_categorical_size` is above `subset_split::max_subset_size`. -/
theorem learn_decision_tree_terminates {ρ S : Type} (eng : random_engine ρ) (D : dataset)
    (I : List Nat) (options : decision_tree_options) (fam : split_family)
    (g : gain_function S)
    (stop : List Nat → dataset → Nat → decision_tree_options → Bool) (seed : ρ)
    (hmsl : 1 ≤ options.min_samples_leaf) (hI : I ≠ [])
    (hV : ∀ vars n (rng : ρ), ∀ v ∈ (eng.sample vars n rng).1, v ∈ vars)
    (hD : ∀ i ∈ I, ∀ v, v < D.feature_count → is_missing (D.at i v) = false)
    (hclass : ∀ i ∈ I, D.class_of i < D.class_count)
    (hsize : 2 * I.length ≤ 2 ^ 32) :
    ∀ fuel, 2 * I.length - 1 ≤ fuel →
    (learn_decision_tree eng D I options fam g stop seed fuel = .exception ∧
      fam = .threshold_plus_subset ∧
      subset_split.max_subset_size < options.max_categorical_size) ∨
    ∃ tree, learn_decision_tree eng D I options fam g stop seed fuel = .returned tree ∧
      (∀ u, u < tree.vertices.length → tree.range (tree.find_vertex u) ≠ []) ∧
      (tree.vertices.filter (fun u => u.is_leaf)).length ≤ I.length ∧
      tree.vertices.length ≤ 2 * I.length - 1 := by
  intro fuel hfuel
  have hl : 0 < I.length := List.length_pos.2 hI
  have hn : 2 * I.length - 1 ≤ undefined_index := by
    unfold undefined_index
    omega
  have hk : 2 * queue_slack (binary_decision_tree.make D I) [0] + ([0] : List Nat).length ≤
      2 * I.length - 1 := by
    simp only [binary_decision_tree.make, queue_slack, binary_decision_tree.find_vertex,
      List.length_singleton, List.map_cons, List.map_nil, List.getD_cons_zero, List.sum_cons,
      List.sum_nil]
    omega
  unfold learn_decision_tree
  rcases learn_loop_size eng D options fam g stop hmsl hV I.length hn (2 * I.length - 1)
    (learn_state.mk (binary_decision_tree.make D I) seed [0] 0 1)
    (learn_inv_init D I seed) (size_inv_init D I hI seed) hD hclass hk fuel hfuel
    with hex | ⟨tree, h1, h2, h3, h4, h5⟩
  · exact Or.inl hex
  · right
    refine ⟨tree, h1, ?_, ?_, h5⟩
    · intro u hu hnil
      have hlen := range_length_eq tree (tree.find_vertex u) (h3.bounds u hu).2
      rw [hnil] at hlen
      have := h4 u hu
      simp only [List.length_nil] at hlen
      omega
    · have := bfs_numbered_leaves tree.vertices h2
      omega

theorem learn_decision_tree_terminates_witness :
    1 ≤ ({} : decision_tree_options).min_samples_leaf ∧ ([0, 1, 2, 3, 4] : List Nat) ≠ [] ∧
    (∀ vars n (rng : Unit), ∀ v ∈ (const_engine.sample vars n rng).1, v ∈ vars) ∧
    (∀ i ∈ [0, 1, 2, 3, 4], ∀ v, v < mixed_dataset.feature_count →
      is_missing (mixed_dataset.at i v) = false) ∧
    (∀ i ∈ [0, 1, 2, 3, 4], mixed_dataset.class_of i < mixed_dataset.class_count) ∧
    2 * ([0, 1, 2, 3, 4] : List Nat).length ≤ 2 ^ 32 ∧
    ((learn_decision_tree const_engine mixed_dataset [0, 1, 2, 3, 4] {}
        .threshold gini_gain (node_is_finished mis_classification_small) () 9 = .exception ∧
      split_family.threshold = .threshold_plus_subset ∧
      subset_split.max_subset_size < ({} : decision_tree_options).max_categorical_size) ∨
    ∃ tree, learn_decision_tree const_engine mixed_dataset [0, 1, 2, 3, 4] {}
        .threshold gini_gain (node_is_finished mis_classification_small) () 9 =
        .returned tree ∧
      (∀ u, u < tree.vertices.length → tree.range (tree.find_vertex u) ≠ []) ∧
      (tree.vertices.filter (fun u => u.is_leaf)).length ≤ ([0, 1, 2, 3, 4] : List Nat).length ∧
      tree.vertices.length ≤ 2 * ([0, 1, 2, 3, 4] : List Nat).length - 1) :=
  ⟨by decide, by decide, fun vars n _ v hv => List.mem_of_mem_take hv, by decide!,
    by decide!, by norm_num,
    learn_decision_tree_terminates const_engine mixed_dataset [0, 1, 2, 3, 4] {} .threshold
      gini_gain (node_is_finished mis_classification_small) () (by decide) (by decide)
      (fun vars n _ v hv => List.mem_of_mem_take hv) (by decide!) (by decide!) (by norm_num)
      9 (by decide)⟩

/-- The run of the learner on `mixed_dataset` with nine iterations: the tree `mixed_tree`,
whose five vertices have the ranges `[0, 5)`, `[0, 2)`, `[2, 5)`, `[2, 4)`, `[4, 5)`. -/
theorem mixed_tree_sizes :
    learn_decision_tree const_engine mixed_dataset [0, 1, 2, 3, 4] {}
      .threshold gini_gain (node_is_finished mis_classification_small) () 9 =
      .returned mixed_tree ∧
    mixed_tree.vertices.map (fun u => (u.I_begin, u.I_end)) =
      [(0, 5), (0, 2), (2, 5), (2, 4), (4, 5)] ∧
    (mixed_tree.vertices.filter (fun u => u.is_leaf)).length = 3 := by
  decide!

/-! ## One iteration of the inner loop of `expand_sum_split_nodes` -/

theorem make_indicator_node_some (s : splitting_criterion) (h : s ≠ .monostate) (j : Nat) :
    ∃ dist, make_indicator_node s j =
      some { kind := .terminal (split_variable s) dist, successors := [] } := by
  cases s with
  | monostate => exact absurd rfl h
  | single s => exact ⟨_, rfl⟩
  | subset s => exact ⟨_, rfl⟩
  | threshold s => exact ⟨_, rfl⟩

/-- A successor that is not a sum-split node is put in the queue. -/
theorem expand_visit_other (u n k : Nat) (nodes : List pc_node) (todo : List Nat)
    (h : ∀ w s, (nodes.getD ((nodes.getD u { kind := .product, successors := [] }).successors.getD
      k 0) { kind := .product, successors := [] }).kind ≠ .sum_split w s) :
    expand_visit u (n + 1) k nodes todo =
      expand_visit u n (k + 1) nodes
        (todo ++ [(nodes.getD u { kind := .product, successors := [] }).successors.getD k 0]) := by
  conv_lhs => unfold expand_visit
  simp only

/-- A successor `v` that is a sum-split node over `a` and `b` is expanded: five nodes are
allocated, the node `v` is left without weights and successors, and the new sum node takes
its place among the successors of `u` and in the queue. -/
theorem expand_visit_split (u n k : Nat) (nodes : List pc_node) (todo : List Nat)
    (v a b : Nat) (w : List Value) (s : splitting_criterion) (hs : s ≠ .monostate)
    (hu : u < nodes.length) (hv : v < nodes.length) (huv : u ≠ v)
    (hk : (nodes.getD u { kind := .product, successors := [] }).successors.getD k 0 = v)
    (hnode : nodes.getD v { kind := .product, successors := [] } =
      { kind := .sum_split w s, successors := [a, b] }) :
    ∃ (nodes3 : List pc_node) (d0 d1 : terminal_kind),
      expand_visit u (n + 1) k nodes todo =
        expand_visit u n (k + 1) nodes3 (todo ++ [nodes.length + 4]) ∧
      nodes3.length = nodes.length + 5 ∧
      (∀ q, q < nodes.length → q ≠ u → q ≠ v →
        nodes3.getD q { kind := .product, successors := [] } =
          nodes.getD q { kind := .product, successors := [] }) ∧
      nodes3.getD v { kind := .product, successors := [] } =
        { kind := .sum_split [] s, successors := [] } ∧
      nodes3.getD u { kind := .product, successors := [] } =
        { kind := (nodes.getD u { kind := .product, successors := [] }).kind,
          successors := (nodes.getD u { kind := .product, successors := [] }).successors.set k
            (nodes.length + 4) } ∧
      nodes3.getD nodes.length { kind := .product, successors := [] } =
        { kind := .product, successors := [a, nodes.length + 1] } ∧
      nodes3.getD (nodes.length + 1) { kind := .product, successors := [] } =
        { kind := .terminal (split_variable s) d0, successors := [] } ∧
      nodes3.getD (nodes.length + 2) { kind := .product, successors := [] } =
        { kind := .product, successors := [b, nodes.length + 3] } ∧
      nodes3.getD (nodes.length + 3) { kind := .product, successors := [] } =
        { kind := .terminal (split_variable s) d1, successors := [] } ∧
      nodes3.getD (nodes.length + 4) { kind := .product, successors := [] } =
        { kind := .sum w, successors := [nodes.length, nodes.length + 2] } := by
  obtain ⟨d0, hd0⟩ := make_indicator_node_some s hs 0
  obtain ⟨d1, hd1⟩ := make_indicator_node_some s hs 1
  obtain ⟨ext, hext⟩ : ∃ ext : List pc_node, ext =
      [(pc_node.mk .product [a, nodes.length + 1]),
       (pc_node.mk (.terminal (split_variable s) d0) []),
       (pc_node.mk .product [b, nodes.length + 3]),
       (pc_node.mk (.terminal (split_variable s) d1) []),
       (pc_node.mk (.sum w) [nodes.length, nodes.length + 2])] := ⟨_, rfl⟩
  have hexp : expand_sum_split_node nodes v w s =
      some (nodes.set v (pc_node.mk (.sum_split [] s) []) ++ ext, nodes.length + 4) := by
    unfold expand_sum_split_node
    rw [hnode]
    simp only [expand_successors, List.length_nil, hd0, List.nil_append, List.length_singleton,
      hd1, List.length_append, List.length_cons]
    rw [hext, List.append_assoc nodes, List.set_append_left _ _ hv]
    simp
  generalize hN2 : nodes.set v (pc_node.mk (.sum_split [] s) []) ++ ext = N2 at hexp
  have hlen2 : N2.length = nodes.length + 5 := by
    rw [← hN2, hext]; simp
  have hget2 : ∀ q, q < nodes.length → q ≠ v →
      N2.getD q { kind := .product, successors := [] } =
        nodes.getD q { kind := .product, successors := [] } := by
    intro q hq hqv
    rw [← hN2, List.getD_append _ _ _ _ (by simpa using hq), getD_set_ne _ _ _ _ _ (Ne.symm hqv)]
  have hgetv : N2.getD v { kind := .product, successors := [] } =
      pc_node.mk (.sum_split [] s) [] := by
    rw [← hN2, List.getD_append _ _ _ _ (by simpa using hv), getD_set_self _ _ _ _ hv]
  have hnew : ∀ i, N2.getD (nodes.length + i) { kind := .product, successors := [] } =
      ext.getD i { kind := .product, successors := [] } := by
    intro i
    rw [← hN2, List.getD_append_right _ _ _ _ (by simp)]
    simp
  refine ⟨N2.set u { (N2.getD u { kind := .product, successors := [] }) with
      successors := (N2.getD u { kind := .product, successors := [] }).successors.set k
        (nodes.length + 4) }, d0, d1, ?_, ?_, ?_, ?_, ?_, ?_, ?_, ?_, ?_, ?_⟩
  · conv_lhs => unfold expand_visit
    simp only [hk, hnode, hexp]
  · simp [hlen2]
  · intro q hq hqu hqv
    rw [getD_set_ne _ _ _ _ _ (Ne.symm hqu)]
    exact hget2 q hq hqv
  · rw [getD_set_ne _ _ _ _ _ huv]
    exact hgetv
  · rw [getD_set_self _ _ _ _ (by omega), hget2 u hu huv]
  · rw [getD_set_ne _ _ _ _ _ (by omega)]
    have := hnew 0
    rw [hext] at this
    simpa using this
  · rw [getD_set_ne _ _ _ _ _ (by omega)]
    have := hnew 1
    rw [hext] at this
    simpa using this
  · rw [getD_set_ne _ _ _ _ _ (by omega)]
    have := hnew 2
    rw [hext] at this
    simpa using this
  · rw [getD_set_ne _ _ _ _ _ (by omega)]
    have := hnew 3
    rw [hext] at this
    simpa using this
  · rw [getD_set_ne _ _ _ _ _ (by omega)]
    have := hnew 4
    rw [hext] at this
    simpa using this

/-! ## The invariant of `expand_sum_split_nodes` -/

/-- In a tree numbered breadth first a vertex is the child of one vertex, on one side. -/
theorem child_of_inj (tree : binary_decision_tree) (hn : bfs_numbered tree.vertices)
    (c c2 : Nat) (side side2 : Bool) (hc : c < tree.vertices.length)
    (hc2 : c2 < tree.vertices.length) (hl : (tree.find_vertex c).is_leaf = false)
    (hl2 : (tree.find_vertex c2).is_leaf = false)
    (h : child_of tree c side = child_of tree c2 side2) : c = c2 ∧ side = side2 := by
  obtain ⟨a1, a2⟩ := bfs_numbered_left_right tree hn c hc hl
  obtain ⟨b1, b2⟩ := bfs_numbered_left_right tree hn c2 hc2 hl2
  unfold child_of at h
  cases side <;> cases side2 <;> simp only [Bool.false_eq_true, if_false, if_true] at h
  · rw [a1, b1] at h
    exact ⟨nonleaf_count_inj tree c c2 hc hc2 hl hl2 (by omega), rfl⟩
  · rw [a1, b2] at h
    omega
  · rw [a2, b1] at h
    omega
  · rw [a2, b2] at h
    exact ⟨nonleaf_count_inj tree c c2 hc hc2 hl hl2 (by omega), rfl⟩

theorem child_of_above (tree : binary_decision_tree) (hn : bfs_numbered tree.vertices)
    (c : Nat) (side : Bool) (hc : c < tree.vertices.length)
    (hl : (tree.find_vertex c).is_leaf = false) :
    c < child_of tree c side ∧ child_of tree c side < tree.vertices.length := by
  obtain ⟨c1, c2, c3, c4⟩ := bfs_numbered_children_above tree hn c hc hl
  unfold child_of
  cases side
  · simp only [Bool.false_eq_true, if_false]; exact ⟨c1, c3⟩
  · simp only [if_true]; exact ⟨c2, c4⟩

theorem cur_mark (x : expansion) (ptr : Nat → Nat → Nat) (t c b t2 c2 : Nat) :
    (x.mark t c b).cur ptr t2 c2 =
      if t2 = t ∧ c2 = c then b + 4 else x.cur ptr t2 c2 := by
  unfold expansion.cur expansion.mark
  by_cases h : t2 = t ∧ c2 = c
  · simp [h]
  · simp [h]

theorem cur_fresh (x : expansion) (ptr : Nat → Nat → Nat) (t c : Nat)
    (h : x.done t c = false) : x.cur ptr t c = ptr t c := by
  unfold expansion.cur
  simp [h]

theorem map_range_set (f : Nat → Nat) (N t y : Nat) :
    ((List.range N).map f).set t y = (List.range N).map (fun i => if i = t then y else f i) := by
  apply List.ext_getElem (by simp)
  intro i h1 h2
  simp only [List.getElem_set, List.getElem_map, List.getElem_range]
  by_cases hit : t = i
  · simp [hit]
  · have : ¬ i = t := fun h => hit h.symm
    simp [hit, this]

theorem getD_map_range (f : Nat → Nat) (N t : Nat) (ht : t < N) :
    ((List.range N).map f).getD t 0 = f t := by
  rw [List.getD_eq_getElem _ _ (by simpa using ht)]
  simp

/-- The node of a vertex that is not a leaf is not the root of the circuit. -/
theorem generative_forest_root_ne (pc : probabilistic_circuit)
    (forest : List binary_decision_tree) (ptr : Nat → Nat → Nat) (m : Nat)
    (hg : generative_forest pc forest ptr m) (t c : Nat) (ht : t < forest.length)
    (hc : c < (tree_at forest t).vertices.length)
    (hl : ((tree_at forest t).find_vertex c).is_leaf = false) : pc.root ≠ ptr t c := by
  intro h
  obtain ⟨w, hw⟩ := hg.root
  have := (hg.trees t ht).inner c hc hl
  rw [← h, hw] at this
  simp at this

/-- The expansion of the sum-split node of the vertex `ch` of tree `t`, found as successor
`k` of the node `u` that holds it (the root of the circuit, or a product node made by an
earlier expansion), keeps the invariant. -/
theorem expand_visit_vertex (pc0 : probabilistic_circuit) (forest : List binary_decision_tree)
    (ptr : Nat → Nat → Nat) (m : Nat) (hg : generative_forest pc0 forest ptr m)
    (nodes : List pc_node) (x : expansion) (hinv : expand_inv pc0 forest ptr nodes x)
    (t ch : Nat) (ht : t < forest.length) (hch : ch < (tree_at forest t).vertices.length)
    (hl : ((tree_at forest t).find_vertex ch).is_leaf = false) (hd : x.done t ch = false)
    (u k : Nat)
    (hown : (u = pc0.root ∧ ch = 0 ∧ k = t) ∨
      ∃ c side, x.done t c = true ∧ u = x.prod_ptr t c side ∧
        ch = child_of (tree_at forest t) c side ∧ k = 0)
    (n : Nat) (todo : List Nat) :
    ∃ nodes3, expand_visit u (n + 1) k nodes todo =
        expand_visit u n (k + 1) nodes3 (todo ++ [nodes.length + 4]) ∧
      nodes3.length = nodes.length + 5 ∧
      expand_inv pc0 forest ptr nodes3 (x.mark t ch nodes.length) := by
  have hnum := hg.numbered t ht
  have hgen := (hg.trees t ht).inner ch hch hl
  have hvL0 := hg.bound t ht ch hch
  have hv : ptr t ch < nodes.length := lt_of_lt_of_le hvL0 hinv.len
  have hRL0 : pc0.root < pc0.nodes.length := hg.closed.1
  obtain ⟨hfresh, hkids⟩ := hinv.fresh t ch ht hch hl hd
  have hnode : nodes.getD (ptr t ch) { kind := .product, successors := [] } =
      { kind := .sum_split
          [(Value.num ((tree_at forest t).range ((tree_at forest t).find_vertex
              ((tree_at forest t).find_vertex ch).left)).length).div
              (.num ((tree_at forest t).range ((tree_at forest t).find_vertex ch)).length),
           (Value.num ((tree_at forest t).range ((tree_at forest t).find_vertex
              ((tree_at forest t).find_vertex ch).right)).length).div
              (.num ((tree_at forest t).range ((tree_at forest t).find_vertex ch)).length)]
          ((tree_at forest t).find_vertex ch).split,
        successors := [ptr t ((tree_at forest t).find_vertex ch).left,
          ptr t ((tree_at forest t).find_vertex ch).right] } := by
    have := hfresh
    unfold node_at at this
    rw [this, hgen]
  have hRv : pc0.root ≠ ptr t ch := generative_forest_root_ne pc0 forest ptr m hg t ch ht hch hl
  -- the node `u`
  have hu : u < nodes.length ∧ u ≠ ptr t ch ∧
      (nodes.getD u { kind := .product, successors := [] }).successors.getD k 0 = ptr t ch := by
    rcases hown with ⟨h1, h2, h3⟩ | ⟨c, side, h1, h2, h3, h4⟩
    · rw [h1, h3]
      refine ⟨lt_of_lt_of_le hRL0 hinv.len, hRv, ?_⟩
      have := hinv.rootn
      unfold node_at at this
      rw [this]
      simp only
      rw [getD_map_range _ _ _ ht]
      have := cur_fresh x ptr t ch hd
      rw [h2] at this
      rw [this, h2]
    · obtain ⟨e1, e2, -, e4⟩ := hinv.expd t c h1
      have hub : u = x.base t c + (if side then 2 else 0) := h2
      refine ⟨by rw [hub]; split <;> omega, by rw [hub]; split <;> omega, ?_⟩
      have := (e4 side).1
      unfold node_at at this
      rw [h2, this, h4]
      simp only [List.getD_cons_zero]
      rw [← h3, cur_fresh x ptr t ch hd]
  obtain ⟨hu1, hu2, hu3⟩ := hu
  obtain ⟨nodes3, d0, d1, f1, f2, f3, f4, f5, f6, f7, f8, f9, f10⟩ :=
    expand_visit_split u n k nodes todo (ptr t ch) _ _ _ _ (hg.splits t ht ch hch hl).1
      hu1 hv hu2 hu3 hnode
  refine ⟨nodes3, f1, f2, ?_⟩
  have hL0L : pc0.nodes.length ≤ nodes.length := hinv.len
  -- the pointers of `u`
  have hucase : (u = pc0.root ∧ ch = 0 ∧ k = t) ∨
      (pc0.nodes.length ≤ u ∧ ch ≠ 0 ∧ ∃ c side, x.done t c = true ∧ u = x.prod_ptr t c side ∧
        ch = child_of (tree_at forest t) c side ∧ k = 0) := by
    rcases hown with h | ⟨c, side, h1, h2, h3, h4⟩
    · exact Or.inl h
    · right
      obtain ⟨e1, -, -, -⟩ := hinv.expd t c h1
      obtain ⟨i1, i2, i3⟩ := hinv.inner t c h1
      have := child_of_above _ hnum c side i2 i3
      refine ⟨?_, by omega, c, side, h1, h2, h3, h4⟩
      have hub : u = x.base t c + (if side then 2 else 0) := h2
      rw [hub]; omega
  constructor
  · -- len
    omega
  · -- frame
    intro q hq hqR hkind
    have hqu : q ≠ u := by
      rcases hucase with ⟨h1, -, -⟩ | ⟨h1, -, -⟩
      · rw [h1]; exact hqR
      · omega
    have hqv : q ≠ ptr t ch := by
      intro h
      rw [h, hgen] at hkind
      exact hkind _ _ rfl
    have := f3 q (by omega) hqu hqv
    unfold node_at
    rw [this]
    exact hinv.frame q hq hqR hkind
  · -- rootn
    rcases hucase with ⟨h1, h2, h3⟩ | ⟨h1, h2, -⟩
    · unfold node_at
      rw [← h1, f5]
      have := hinv.rootn
      unfold node_at at this
      rw [← h1] at this
      rw [this]
      simp only
      rw [h3, map_range_set]
      congr 1
      apply List.map_congr_left
      intro i _
      rw [cur_mark, h2]
      by_cases hi : i = t
      · simp [hi]
      · simp [hi]
    · have := f3 pc0.root (by omega) (by omega) hRv
      unfold node_at
      rw [this]
      have := hinv.rootn
      unfold node_at at this
      rw [this]
      congr 1
      apply List.map_congr_left
      intro i _
      rw [cur_mark]
      have : ¬ (i = t ∧ 0 = ch) := fun h => h2 h.2.symm
      simp [this]
  · -- inner
    intro t2 c2 h
    simp only [expansion.mark] at h
    by_cases he : t2 = t ∧ c2 = ch
    · rw [he.1, he.2]; exact ⟨ht, hch, hl⟩
    · rw [if_neg he] at h
      exact hinv.inner t2 c2 h
  · -- fresh
    intro t2 c2 ht2 hc2 hl2 hd2
    simp only [expansion.mark] at hd2
    have hne : ¬ (t2 = t ∧ c2 = ch) := by
      intro he
      rw [if_pos he] at hd2
      exact absurd hd2 (by simp)
    rw [if_neg hne] at hd2
    obtain ⟨g1, g2⟩ := hinv.fresh t2 c2 ht2 hc2 hl2 hd2
    have hp2 := hg.bound t2 ht2 c2 hc2
    have hgen2 := (hg.trees t2 ht2).inner c2 hc2 hl2
    constructor
    · have hqu : ptr t2 c2 ≠ u := by
        rcases hucase with ⟨h1, -, -⟩ | ⟨h1, -, -⟩
        · rw [h1]
          exact (generative_forest_root_ne pc0 forest ptr m hg t2 c2 ht2 hc2 hl2).symm
        · omega
      have hqv : ptr t2 c2 ≠ ptr t ch := by
        intro h
        exact hne (hg.distinct t2 c2 t ch ht2 hc2 hl2 ht hch hl h)
      have := f3 (ptr t2 c2) (by omega) hqu hqv
      unfold node_at
      rw [this]
      exact g1
    · intro side
      simp only [expansion.mark]
      have hne2 : ¬ (t2 = t ∧ child_of (tree_at forest t2) c2 side = ch) := by
        rintro ⟨e1, e2⟩
        subst e1
        rcases hucase with ⟨-, h2, -⟩ | ⟨-, -, c, side0, k1, -, k3, -⟩
        · have := child_of_above _ hnum c2 side hc2 hl2
          omega
        · obtain ⟨i1, i2, i3⟩ := hinv.inner t2 c k1
          rw [k3] at e2
          have := (child_of_inj _ hnum c2 c side side0 hc2 i2 hl2 i3 e2).1
          rw [this, k1] at hd2
          exact absurd hd2 (by simp)
      rw [if_neg hne2]
      exact g2 side
  · -- expd
    intro t2 c2 hd2
    by_cases he : t2 = t ∧ c2 = ch
    · obtain ⟨rfl, rfl⟩ := he
      have hb : (x.mark t2 c2 nodes.length).base t2 c2 = nodes.length := by
        simp [expansion.mark]
      rw [hb]
      refine ⟨hL0L, by omega, ⟨_, f10⟩, ?_⟩
      intro side
      have hcur : (x.mark t2 c2 nodes.length).cur ptr t2 (child_of (tree_at forest t2) c2 side) =
          ptr t2 (child_of (tree_at forest t2) c2 side) := by
        rw [cur_mark]
        have := child_of_above _ hnum c2 side hch hl
        have hne : ¬ (t2 = t2 ∧ child_of (tree_at forest t2) c2 side = c2) := by
          intro h; omega
        rw [if_neg hne, cur_fresh x ptr _ _ (hkids side)]
      rw [hcur]
      cases side
      · simp only [expansion.prod_ptr, expansion.ind_ptr, hb, Bool.false_eq_true, if_false,
          Nat.add_zero, child_of]
        exact ⟨f6, _, f7⟩
      · simp only [expansion.prod_ptr, expansion.ind_ptr, hb, if_true, child_of]
        exact ⟨f8, _, f9⟩
    · have hd3 : x.done t2 c2 = true := by
        simp only [expansion.mark] at hd2
        rw [if_neg he] at hd2
        exact hd2
      have hb : (x.mark t ch nodes.length).base t2 c2 = x.base t2 c2 := by
        simp only [expansion.mark]
        rw [if_neg he]
      obtain ⟨e1, e2, ⟨w, e3⟩, e4⟩ := hinv.expd t2 c2 hd3
      obtain ⟨i1, i2, i3⟩ := hinv.inner t2 c2 hd3
      rw [hb]
      -- the five nodes of the vertex are not touched, except the product node `u`
      have hkeep : ∀ q, x.base t2 c2 ≤ q → q < x.base t2 c2 + 5 → q ≠ u →
          node_at nodes3 q = node_at nodes q := by
        intro q h1 h2 h3
        unfold node_at
        exact f3 q (by omega) h3 (by omega)
      have hune : ∀ q, x.base t2 c2 ≤ q → q < x.base t2 c2 + 5 → q = u →
          ∃ side, u = x.prod_ptr t2 c2 side ∧ t2 = t ∧
            ch = child_of (tree_at forest t) c2 side ∧ k = 0 := by
        intro q h1 h2 h3
        rcases hucase with ⟨k1, -, -⟩ | ⟨-, -, c, side, k1, k2, k3, k4⟩
        · omega
        · have hub : u = x.base t c + (if side then 2 else 0) := k2
          have hsame : t2 = t ∧ c2 = c := by
            by_contra hne
            have hne2 : t2 ≠ t ∨ c2 ≠ c := by
              by_cases h : t2 = t
              · right; intro h'; exact hne ⟨h, h'⟩
              · left; exact h
            have := hinv.apart t2 c2 t c hd3 k1 hne2
            split at hub <;> omega
          obtain ⟨rfl, rfl⟩ := hsame
          exact ⟨side, k2, rfl, k3, k4⟩
      refine ⟨e1, by omega, ⟨w, ?_⟩, ?_⟩
      · have hne4 : x.base t2 c2 + 4 ≠ u := by
          intro h
          obtain ⟨side, k2, -, -, -⟩ := hune _ (by omega) (by omega) h
          have hub : u = x.base t2 c2 + (if side then 2 else 0) := k2
          split at hub <;> omega
        rw [hkeep _ (by omega) (by omega) hne4]
        exact e3
      · intro side
        have hpp : (x.mark t ch nodes.length).prod_ptr t2 c2 side = x.prod_ptr t2 c2 side := by
          simp only [expansion.prod_ptr, hb]
        have hip : (x.mark t ch nodes.length).ind_ptr t2 c2 side = x.ind_ptr t2 c2 side := by
          simp only [expansion.ind_ptr, hb]
        rw [hpp, hip]
        obtain ⟨e5, d, e6⟩ := e4 side
        have hpb : x.prod_ptr t2 c2 side = x.base t2 c2 + (if side then 2 else 0) := rfl
        have hib : x.ind_ptr t2 c2 side = x.base t2 c2 + (if side then 3 else 1) := rfl
        constructor
        · by_cases hpu : x.prod_ptr t2 c2 side = u
          · obtain ⟨side0, k2, k3, k4, k5⟩ := hune _ (by rw [hpb]; omega)
              (by rw [hpb]; split <;> omega) hpu
            have hss : side0 = side := by
              have h1 : u = x.base t2 c2 + (if side0 then 2 else 0) := k2
              rw [hpb] at hpu
              cases side <;> cases side0 <;> simp at h1 hpu ⊢ <;> omega
            subst hss
            subst k3
            unfold node_at
            rw [hpu, f5]
            have := e5
            unfold node_at at this
            rw [hpu] at this
            rw [this, k5]
            simp only [List.set_cons_zero]
            rw [cur_mark, ← k4]
            simp
          · rw [hkeep _ (by rw [hpb]; omega) (by rw [hpb]; split <;> omega) hpu, cur_mark]
            have hne5 : ¬ (t2 = t ∧ child_of (tree_at forest t2) c2 side = ch) := by
              rintro ⟨h1, h2⟩
              subst h1
              rcases hucase with ⟨-, k2, -⟩ | ⟨-, -, c, side0, k1, k2, k3, k4⟩
              · have := child_of_above _ hnum c2 side i2 i3
                omega
              · obtain ⟨j1, j2, j3⟩ := hinv.inner t2 c k1
                rw [k3] at h2
                obtain ⟨rfl, rfl⟩ := child_of_inj _ hnum c2 c side side0 i2 j2 i3 j3 h2
                exact hpu k2.symm
            rw [if_neg hne5]
            exact e5
        · have hiu : x.ind_ptr t2 c2 side ≠ u := by
            intro h
            obtain ⟨side0, k2, -, -, -⟩ := hune _ (by rw [hib]; omega)
              (by rw [hib]; split <;> omega) h
            have h1 : u = x.base t2 c2 + (if side0 then 2 else 0) := k2
            rw [hib] at h
            cases side <;> cases side0 <;> simp at h1 h <;> omega
          rw [hkeep _ (by rw [hib]; omega) (by rw [hib]; split <;> omega) hiu]
          exact ⟨d, e6⟩
  · -- apart
    intro t2 c2 t3 c3 h2 h3 hne
    simp only [expansion.mark] at h2 h3 ⊢
    by_cases he2 : t2 = t ∧ c2 = ch
    · by_cases he3 : t3 = t ∧ c3 = ch
      · exfalso
        rcases hne with h | h
        · exact h (he2.1.trans he3.1.symm)
        · exact h (he2.2.trans he3.2.symm)
      · rw [if_neg he3] at h3
        rw [if_pos he2, if_neg he3]
        have := (hinv.expd t3 c3 h3).2.1
        right; omega
    · rw [if_neg he2] at h2
      by_cases he3 : t3 = t ∧ c3 = ch
      · rw [if_neg he2, if_pos he3]
        have := (hinv.expd t2 c2 h2).2.1
        left; omega
      · rw [if_neg he3] at h3
        rw [if_neg he2, if_neg he3]
        exact hinv.apart t2 c2 t3 c3 h2 h3 hne

theorem expansion_le_refl (x : expansion) : x.le x := fun _ _ h => ⟨h, rfl⟩

theorem expansion_le_trans (x x2 x3 : expansion) (h1 : x.le x2) (h2 : x2.le x3) : x.le x3 := by
  intro t c h
  obtain ⟨a1, a2⟩ := h1 t c h
  obtain ⟨b1, b2⟩ := h2 t c a1
  exact ⟨b1, by rw [b2, a2]⟩

theorem expansion_le_mark (x : expansion) (t c b : Nat) (h : x.done t c = false) :
    x.le (x.mark t c b) := by
  intro t2 c2 h2
  have hne : ¬ (t2 = t ∧ c2 = c) := by
    rintro ⟨rfl, rfl⟩
    rw [h] at h2
    exact absurd h2 (by simp)
  simp only [expansion.mark, if_neg hne]
  exact ⟨h2, trivial⟩

theorem valid_le (forest : List binary_decision_tree) (m : Nat) (x x2 : expansion)
    (h : x.le x2) (i : expand_item) (hv : i.valid forest m x) : i.valid forest m x2 := by
  cases i with
  | root => trivial
  | vert t c =>
    obtain ⟨a1, a2, a3⟩ := hv
    refine ⟨a1, a2, ?_⟩
    rcases a3 with a3 | a3
    · exact Or.inl a3
    · exact Or.inr (h t c a3).1
  | prod t c side => exact (h t c hv).1
  | term t c j => exact hv
  | ind t c side => exact (h t c hv).1

/-- The pointer of a valid item does not change when the expansion is extended. -/
theorem ptr_le (pc0 : probabilistic_circuit) (forest : List binary_decision_tree)
    (ptr : Nat → Nat → Nat) (m : Nat) (x x2 : expansion) (h : x.le x2)
    (hin : ∀ t c, x2.done t c = true → ((tree_at forest t).find_vertex c).is_leaf = false)
    (i : expand_item) (hv : i.valid forest m x) : i.ptr pc0 ptr x2 = i.ptr pc0 ptr x := by
  cases i with
  | root => rfl
  | vert t c =>
    obtain ⟨-, -, a3⟩ := hv
    simp only [expand_item.ptr, expansion.cur]
    rcases a3 with a3 | a3
    · have h1 : x2.done t c = false := by
        by_contra hne
        have := hin t c (by simpa using hne)
        rw [a3] at this
        exact absurd this (by simp)
      have h2 : x.done t c = false := by
        by_contra hne
        have := (h t c (by simpa using hne)).1
        rw [h1] at this
        exact absurd this (by simp)
      simp [h1, h2]
    · obtain ⟨b1, b2⟩ := h t c a3
      simp [a3, b1, b2]
  | prod t c side =>
    simp only [expand_item.ptr, expansion.prod_ptr, (h t c hv).2]
  | term t c j => rfl
  | ind t c side =>
    simp only [expand_item.ptr, expansion.ind_ptr, (h t c hv).2]

theorem map_ptr_le (pc0 : probabilistic_circuit) (forest : List binary_decision_tree)
    (ptr : Nat → Nat → Nat) (m : Nat) (x x2 : expansion) (h : x.le x2)
    (hin : ∀ t c, x2.done t c = true → ((tree_at forest t).find_vertex c).is_leaf = false)
    (items : List expand_item) (hv : ∀ i ∈ items, i.valid forest m x) :
    items.map (expand_item.ptr pc0 ptr x2) = items.map (expand_item.ptr pc0 ptr x) :=
  List.map_congr_left (fun i hi => ptr_le pc0 forest ptr m x x2 h hin i (hv i hi))

/-- The end of the inner loop. -/
theorem expand_visit_zero (u k : Nat) (nodes : List pc_node) (todo : List Nat) :
    expand_visit u 0 k nodes todo = some (nodes, todo) := by
  unfold expand_visit
  rfl

/-- The inner loop over successors that are not sum-split nodes: they are put in the
queue. -/
theorem expand_visit_inert (u : Nat) (nodes : List pc_node) :
    ∀ (n k : Nat) (todo : List Nat), k + n = (node_at nodes u).successors.length →
    (∀ j, k ≤ j → j < (node_at nodes u).successors.length → ∀ w s,
      (node_at nodes ((node_at nodes u).successors.getD j 0)).kind ≠ .sum_split w s) →
    expand_visit u n k nodes todo = some (nodes, todo ++ (node_at nodes u).successors.drop k) := by
  intro n
  induction n with
  | zero =>
    intro k todo hk _
    rw [expand_visit_zero, List.drop_of_length_le (by omega)]
    simp
  | succ n ih =>
    intro k todo hk h
    rw [expand_visit_other u n k nodes todo (h k (le_refl _) (by omega))]
    rw [ih (k + 1) _ (by omega) (fun j hj1 hj2 => h j (by omega) hj2)]
    congr 1
    rw [List.append_assoc]
    congr 1
    have hk2 : k < (node_at nodes u).successors.length := by omega
    rw [List.drop_eq_getElem_cons hk2, List.getD_eq_getElem _ _ hk2]
    rfl

theorem expanded_size_fuel (tree : binary_decision_tree) (hch : children_above tree) (m : Nat) :
    ∀ (d c f : Nat), tree.vertices.length - c ≤ d → c < tree.vertices.length →
      tree.vertices.length - c ≤ f →
      expanded_size tree m f c = expanded_size tree m (tree.vertices.length - c) c := by
  intro d
  induction d with
  | zero => intro c f h1 h2 _; omega
  | succ d ih =>
    intro c f h1 h2 h3
    obtain ⟨f0, rfl⟩ : ∃ f0, f = f0 + 1 := ⟨f - 1, by omega⟩
    obtain ⟨g0, hg0⟩ : ∃ g0, tree.vertices.length - c = g0 + 1 :=
      ⟨tree.vertices.length - c - 1, by omega⟩
    rw [hg0]
    simp only [expanded_size]
    cases hl : (tree.find_vertex c).is_leaf with
    | true => simp
    | false =>
      obtain ⟨c1, c2, c3, c4⟩ := hch c h2 hl
      simp only [Bool.false_eq_true, if_false]
      rw [ih _ f0 (by omega) c3 (by omega), ih _ g0 (by omega) c3 (by omega),
        ih _ f0 (by omega) c4 (by omega), ih _ g0 (by omega) c4 (by omega)]

theorem vertex_weight_leaf (forest : List binary_decision_tree) (m t c : Nat)
    (hc : c < (tree_at forest t).vertices.length)
    (hl : ((tree_at forest t).find_vertex c).is_leaf = true) :
    vertex_weight forest m t c = m + 2 := by
  unfold vertex_weight
  obtain ⟨g0, hg0⟩ : ∃ g0, (tree_at forest t).vertices.length - c = g0 + 1 :=
    ⟨(tree_at forest t).vertices.length - c - 1, by omega⟩
  rw [hg0]
  simp [expanded_size, hl]

theorem vertex_weight_inner (forest : List binary_decision_tree) (m t c : Nat)
    (hn : bfs_numbered (tree_at forest t).vertices)
    (hc : c < (tree_at forest t).vertices.length)
    (hl : ((tree_at forest t).find_vertex c).is_leaf = false) :
    vertex_weight forest m t c =
      5 + vertex_weight forest m t (child_of (tree_at forest t) c false) +
        vertex_weight forest m t (child_of (tree_at forest t) c true) := by
  have hch := bfs_numbered_children_above _ hn
  obtain ⟨c1, c2, c3, c4⟩ := hch c hc hl
  unfold vertex_weight child_of
  simp only [Bool.false_eq_true, if_false, if_true]
  obtain ⟨g0, hg0⟩ : ∃ g0, (tree_at forest t).vertices.length - c = g0 + 1 :=
    ⟨(tree_at forest t).vertices.length - c - 1, by omega⟩
  rw [hg0]
  simp only [expanded_size, hl, Bool.false_eq_true, if_false]
  rw [expanded_size_fuel _ hch m _ _ g0 (le_refl _) c3 (by omega),
    expanded_size_fuel _ hch m _ _ g0 (le_refl _) c4 (by omega)]

theorem vertex_weight_pos (forest : List binary_decision_tree) (m t c : Nat)
    (hc : c < (tree_at forest t).vertices.length) : 0 < vertex_weight forest m t c := by
  unfold vertex_weight
  obtain ⟨g0, hg0⟩ : ∃ g0, (tree_at forest t).vertices.length - c = g0 + 1 :=
    ⟨(tree_at forest t).vertices.length - c - 1, by omega⟩
  rw [hg0]
  simp only [expanded_size]
  split <;> omega

theorem item_weight_pos (forest : List binary_decision_tree) (m : Nat) (x : expansion)
    (i : expand_item) (hv : i.valid forest m x) : 0 < i.weight forest m := by
  cases i with
  | root => simp [expand_item.weight]
  | vert t c => exact vertex_weight_pos forest m t c hv.2.1
  | prod t c side => simp [expand_item.weight]
  | term t c j => simp [expand_item.weight]
  | ind t c side => simp [expand_item.weight]

theorem getD_mem_of_lt (l : List Nat) (j : Nat) (h : j < l.length) : l.getD j 0 ∈ l := by
  rw [List.getD_eq_getElem _ _ h]
  exact List.getElem_mem _

theorem map_range_getD (l : List Nat) (n : Nat) (h : l.length = n) :
    (List.range n).map (fun j => l.getD j 0) = l := by
  apply List.ext_getElem (by simp [h])
  intro i h1 h2
  simp only [List.getElem_map, List.getElem_range]
  rw [List.getD_eq_getElem _ _ h2]

/-- The nodes of a leaf are those of the generative forest. -/
theorem leaf_nodes (pc0 : probabilistic_circuit) (forest : List binary_decision_tree)
    (ptr : Nat → Nat → Nat) (m : Nat) (hg : generative_forest pc0 forest ptr m)
    (nodes : List pc_node) (x : expansion) (hinv : expand_inv pc0 forest ptr nodes x)
    (t c : Nat) (ht : t < forest.length) (hc : c < (tree_at forest t).vertices.length)
    (hl : ((tree_at forest t).find_vertex c).is_leaf = true) :
    x.cur ptr t c = ptr t c ∧
    node_at nodes (ptr t c) = pc0.node (ptr t c) ∧ (pc0.node (ptr t c)).kind = .product ∧
    (pc0.node (ptr t c)).successors.length = m + 1 ∧
    ∀ j, j ≤ m → ∃ dist, node_at nodes ((pc0.node (ptr t c)).successors.getD j 0) =
      pc_node.mk (.terminal j dist) [] := by
  obtain ⟨g1, g2, g3⟩ := (hg.trees t ht).leaves c hc hl
  obtain ⟨w, hw⟩ := hg.root
  have hb := hg.bound t ht c hc
  have hcur : x.cur ptr t c = ptr t c := by
    apply cur_fresh
    by_contra hne
    have := (hinv.inner t c (by simpa using hne)).2.2
    rw [hl] at this
    exact absurd this (by simp)
  have hne : ptr t c ≠ pc0.root := by
    intro h
    rw [h, hw] at g1
    simp at g1
  refine ⟨hcur, hinv.frame _ hb hne (by rw [g1]; simp), g1, g2, ?_⟩
  intro j hj
  obtain ⟨dist, hd⟩ := g3 j hj
  refine ⟨dist, ?_⟩
  unfold probabilistic_circuit.successors at hd g2
  rw [← hd]
  apply hinv.frame
  · exact hg.closed.2 _ hb _ (getD_mem_of_lt _ _ (by
      simp only [probabilistic_circuit.successors]; omega))
  · intro h
    rw [h, hw] at hd
    simp at hd
  · rw [hd]; simp

/-- The nodes of an expanded vertex. -/
theorem expanded_nodes (pc0 : probabilistic_circuit) (forest : List binary_decision_tree)
    (ptr : Nat → Nat → Nat) (nodes : List pc_node) (x : expansion)
    (hinv : expand_inv pc0 forest ptr nodes x) (t c : Nat) (hd : x.done t c = true) :
    x.cur ptr t c = x.base t c + 4 ∧
    (∃ w, node_at nodes (x.base t c + 4) =
      pc_node.mk (.sum w) [x.prod_ptr t c false, x.prod_ptr t c true]) ∧
    ∀ side, node_at nodes (x.prod_ptr t c side) = pc_node.mk .product
        [x.cur ptr t (child_of (tree_at forest t) c side), x.ind_ptr t c side] ∧
      ∃ d, node_at nodes (x.ind_ptr t c side) = pc_node.mk
        (.terminal (split_variable ((tree_at forest t).find_vertex c).split) d) [] := by
  obtain ⟨-, -, ⟨w, e3⟩, e4⟩ := hinv.expd t c hd
  refine ⟨by simp [expansion.cur, hd], ⟨w, ?_⟩, e4⟩
  rw [e3]
  simp [expansion.prod_ptr]

/-- The node that stands for a vertex that is a leaf or expanded is not a sum-split node. -/
theorem cur_kind (pc0 : probabilistic_circuit) (forest : List binary_decision_tree)
    (ptr : Nat → Nat → Nat) (m : Nat) (hg : generative_forest pc0 forest ptr m)
    (nodes : List pc_node) (x : expansion) (hinv : expand_inv pc0 forest ptr nodes x)
    (t c : Nat) (ht : t < forest.length) (hc : c < (tree_at forest t).vertices.length)
    (h : ((tree_at forest t).find_vertex c).is_leaf = true ∨ x.done t c = true) :
    ∀ w s, (node_at nodes (x.cur ptr t c)).kind ≠ .sum_split w s := by
  intro w s
  rcases h with h | h
  · obtain ⟨a1, a2, a3, -⟩ := leaf_nodes pc0 forest ptr m hg nodes x hinv t c ht hc h
    rw [a1, a2, a3]
    simp
  · obtain ⟨a1, ⟨w2, a2⟩, -⟩ := expanded_nodes pc0 forest ptr nodes x hinv t c h
    rw [a1, a2]
    simp

theorem weight_sum_append (forest : List binary_decision_tree) (m : Nat)
    (a b : List expand_item) :
    ((a ++ b).map (expand_item.weight forest m)).sum =
      (a.map (expand_item.weight forest m)).sum + (b.map (expand_item.weight forest m)).sum := by
  simp

/-- An iteration of the outer loop for an item that is not the root of the circuit. -/
theorem expand_step_item (pc0 : probabilistic_circuit) (forest : List binary_decision_tree)
    (ptr : Nat → Nat → Nat) (m : Nat) (hg : generative_forest pc0 forest ptr m)
    (nodes : List pc_node) (x : expansion) (i : expand_item) (rest : List expand_item)
    (hs : expand_state pc0 forest ptr m nodes x (i :: rest)) (hi : i ≠ .root) :
    ∃ nodes2 x2 items2,
      expand_visit (i.ptr pc0 ptr x) (node_at nodes (i.ptr pc0 ptr x)).successors.length 0 nodes
        (rest.map (expand_item.ptr pc0 ptr x)) =
        some (nodes2, items2.map (expand_item.ptr pc0 ptr x2)) ∧
      expand_state pc0 forest ptr m nodes2 x2 items2 ∧
      (items2.map (expand_item.weight forest m)).sum + 1 =
        ((i :: rest).map (expand_item.weight forest m)).sum := by
  have hinv := hs.inv
  have hvi := hs.valid i (List.mem_cons_self _ _)
  have hvrest : ∀ j ∈ rest, j.valid forest m x :=
    fun j hj => hs.valid j (List.mem_cons_of_mem _ hj)
  have hin : ∀ (nodes2 : List pc_node) (x2 : expansion), expand_inv pc0 forest ptr nodes2 x2 →
      ∀ t c, x2.done t c = true → ((tree_at forest t).find_vertex c).is_leaf = false :=
    fun nodes2 x2 h t c hd => (h.inner t c hd).2.2
  cases i with
  | root => exact absurd rfl hi
  | term t c j =>
    obtain ⟨a1, a2, a3, a4⟩ := hvi
    obtain ⟨-, -, -, -, b5⟩ := leaf_nodes pc0 forest ptr m hg nodes x hinv t c a1 a2 a3
    obtain ⟨dist, hd⟩ := b5 j a4
    refine ⟨nodes, x, rest, ?_, ⟨hinv, hvrest, ?_⟩, ?_⟩
    · simp only [expand_item.ptr, probabilistic_circuit.successors]
      rw [hd]
      exact expand_visit_zero _ _ _ _
    · constructor
      · intro t2 ht2
        rcases hs.cover.roots t2 ht2 with h | h
        · rcases List.mem_cons.1 h with h | h
          · exact absurd h (by simp)
          · exact Or.inl h
        · exact Or.inr h
      · intro t2 c2 hd2 side
        rcases hs.cover.kids t2 c2 hd2 side with h | h | h | h
        · exact Or.inl h
        · exact Or.inr (Or.inl h)
        · rcases List.mem_cons.1 h with h | h
          · exact absurd h (by simp)
          · exact Or.inr (Or.inr (Or.inl h))
        · rcases List.mem_cons.1 h with h | h
          · exact absurd h (by simp)
          · exact Or.inr (Or.inr (Or.inr h))
    · simp only [List.map_cons, List.sum_cons, expand_item.weight]
      omega
  | ind t c side =>
    obtain ⟨-, -, b3⟩ := expanded_nodes pc0 forest ptr nodes x hinv t c hvi
    obtain ⟨d, hd⟩ := (b3 side).2
    refine ⟨nodes, x, rest, ?_, ⟨hinv, hvrest, ?_⟩, ?_⟩
    · simp only [expand_item.ptr]
      rw [hd]
      exact expand_visit_zero _ _ _ _
    · constructor
      · intro t2 ht2
        rcases hs.cover.roots t2 ht2 with h | h
        · rcases List.mem_cons.1 h with h | h
          · exact absurd h (by simp)
          · exact Or.inl h
        · exact Or.inr h
      · intro t2 c2 hd2 side
        rcases hs.cover.kids t2 c2 hd2 side with h | h | h | h
        · exact Or.inl h
        · exact Or.inr (Or.inl h)
        · rcases List.mem_cons.1 h with h | h
          · exact absurd h (by simp)
          · exact Or.inr (Or.inr (Or.inl h))
        · rcases List.mem_cons.1 h with h | h
          · exact absurd h (by simp)
          · exact Or.inr (Or.inr (Or.inr h))
    · simp only [List.map_cons, List.sum_cons, expand_item.weight]
      omega
  | vert t c =>
    obtain ⟨a1, a2, a3⟩ := hvi
    have hnum := hg.numbered t a1
    by_cases hl : ((tree_at forest t).find_vertex c).is_leaf = true
    · -- a leaf: its terminal nodes are put in the queue
      obtain ⟨b1, b2, b3, b4, b5⟩ := leaf_nodes pc0 forest ptr m hg nodes x hinv t c a1 a2 hl
      refine ⟨nodes, x, rest ++ (List.range (m + 1)).map (fun j => .term t c j), ?_,
        ⟨hinv, ?_, ?_⟩, ?_⟩
      · simp only [expand_item.ptr]
        rw [b1]
        rw [expand_visit_inert (ptr t c) nodes _ 0 _ (by omega) ?_]
        · rw [b2, List.drop_zero, List.map_append, List.map_map]
          congr 2
          congr 1
          rw [← map_range_getD (pc0.node (ptr t c)).successors (m + 1) b4]
          apply List.map_congr_left
          intro j _
          simp [expand_item.ptr, probabilistic_circuit.successors]
        · intro j _ hj w s
          rw [b2] at hj ⊢
          obtain ⟨dist, hd⟩ := b5 j (by omega)
          rw [hd]
          simp
      · intro i hi2
        rcases List.mem_append.1 hi2 with h | h
        · exact hvrest i h
        · simp only [List.mem_map, List.mem_range] at h
          obtain ⟨j, hj, rfl⟩ := h
          exact ⟨a1, a2, hl, by omega⟩
      · constructor
        · intro t2 ht2
          rcases hs.cover.roots t2 ht2 with h | h
          · rcases List.mem_cons.1 h with h | h
            · exact absurd h (by simp)
            · exact Or.inl (List.mem_append_left _ h)
          · exact Or.inr h
        · intro t2 c2 hd2 side
          rcases hs.cover.kids t2 c2 hd2 side with h | h | h | h
          · exact Or.inl h
          · exact Or.inr (Or.inl h)
          · rcases List.mem_cons.1 h with h | h
            · exact absurd h (by simp)
            · exact Or.inr (Or.inr (Or.inl (List.mem_append_left _ h)))
          · rcases List.mem_cons.1 h with h | h
            · simp only [expand_item.vert.injEq] at h
              have := hin nodes x hinv t2 c2 hd2
              rw [h.1, h.2, hl] at this
              exact absurd this (by simp)
            · exact Or.inr (Or.inr (Or.inr (List.mem_append_left _ h)))
      · rw [weight_sum_append]
        simp only [List.map_cons, List.sum_cons, expand_item.weight, List.map_map]
        rw [vertex_weight_leaf forest m t c a2 hl]
        have : ((List.range (m + 1)).map
            (expand_item.weight forest m ∘ fun j => expand_item.term t c j)).sum = m + 1 := by
          have e : (expand_item.weight forest m ∘ fun j => expand_item.term t c j) =
              fun _ => 1 := by
            funext j; rfl
          rw [e]
          simp
        rw [this]
        omega
    · -- an expanded vertex: its two product nodes are put in the queue
      have hl2 : ((tree_at forest t).find_vertex c).is_leaf = false := by simpa using hl
      have hd : x.done t c = true := by
        rcases a3 with h | h
        · exact absurd h hl
        · exact h
      obtain ⟨b1, ⟨w, b2⟩, b3⟩ := expanded_nodes pc0 forest ptr nodes x hinv t c hd
      refine ⟨nodes, x, rest ++ [.prod t c false, .prod t c true], ?_, ⟨hinv, ?_, ?_⟩, ?_⟩
      · simp only [expand_item.ptr]
        rw [b1]
        rw [expand_visit_inert (x.base t c + 4) nodes _ 0 _ (by omega) ?_]
        · rw [b2, List.drop_zero, List.map_append]
          rfl
        · intro j _ hj w2 s
          rw [b2] at hj ⊢
          simp only [List.length_cons, List.length_nil] at hj
          have hj2 : j = 0 ∨ j = 1 := by omega
          rcases hj2 with rfl | rfl
          · simp only [List.getD_cons_zero]
            rw [(b3 false).1]
            simp
          · simp only [List.getD_cons_succ, List.getD_cons_zero]
            rw [(b3 true).1]
            simp
      · intro i hi2
        rcases List.mem_append.1 hi2 with h | h
        · exact hvrest i h
        · simp only [List.mem_cons, List.mem_singleton, List.not_mem_nil, or_false] at h
          rcases h with rfl | rfl
          · exact hd
          · exact hd
      · constructor
        · intro t2 ht2
          rcases hs.cover.roots t2 ht2 with h | h
          · rcases List.mem_cons.1 h with h | h
            · exact absurd h (by simp)
            · exact Or.inl (List.mem_append_left _ h)
          · exact Or.inr h
        · intro t2 c2 hd2 side
          rcases hs.cover.kids t2 c2 hd2 side with h | h | h | h
          · exact Or.inl h
          · exact Or.inr (Or.inl h)
          · rcases List.mem_cons.1 h with h | h
            · exact absurd h (by simp)
            · exact Or.inr (Or.inr (Or.inl (List.mem_append_left _ h)))
          · rcases List.mem_cons.1 h with h | h
            · simp only [expand_item.vert.injEq] at h
              rw [h.1, h.2]
              refine Or.inr (Or.inr (Or.inl (List.mem_append_right _ ?_)))
              cases side <;> simp
            · exact Or.inr (Or.inr (Or.inr (List.mem_append_left _ h)))
      · rw [weight_sum_append]
        simp only [List.map_cons, List.sum_cons, expand_item.weight, List.map_nil, List.sum_nil]
        rw [vertex_weight_inner forest m t c hnum a2 hl2]
        omega
  | prod t c side =>
    have hd : x.done t c = true := hvi
    obtain ⟨i1, i2, i3⟩ := hinv.inner t c hd
    have hnum := hg.numbered t i1
    obtain ⟨b1, -, b3⟩ := expanded_nodes pc0 forest ptr nodes x hinv t c hd
    obtain ⟨b4, d, b5⟩ := b3 side
    obtain ⟨k1, k2⟩ := child_of_above _ hnum c side i2 i3
    by_cases hready : ((tree_at forest t).find_vertex
        (child_of (tree_at forest t) c side)).is_leaf = true ∨
        x.done t (child_of (tree_at forest t) c side) = true
    · -- the child is a leaf or expanded
      refine ⟨nodes, x, rest ++ [.vert t (child_of (tree_at forest t) c side), .ind t c side],
        ?_, ⟨hinv, ?_, ?_⟩, ?_⟩
      · simp only [expand_item.ptr]
        rw [expand_visit_inert (x.prod_ptr t c side) nodes _ 0 _ (by omega) ?_]
        · rw [b4, List.drop_zero, List.map_append]
          rfl
        · intro j _ hj w2 s
          rw [b4] at hj ⊢
          simp only [List.length_cons, List.length_nil] at hj
          have hj2 : j = 0 ∨ j = 1 := by omega
          rcases hj2 with rfl | rfl
          · simp only [List.getD_cons_zero]
            exact cur_kind pc0 forest ptr m hg nodes x hinv t _ i1 k2 hready w2 s
          · simp only [List.getD_cons_succ, List.getD_cons_zero]
            rw [b5]
            simp
      · intro i hi2
        rcases List.mem_append.1 hi2 with h | h
        · exact hvrest i h
        · simp only [List.mem_cons, List.mem_singleton, List.not_mem_nil, or_false] at h
          rcases h with rfl | rfl
          · exact ⟨i1, k2, hready⟩
          · exact hd
      · constructor
        · intro t2 ht2
          rcases hs.cover.roots t2 ht2 with h | h
          · rcases List.mem_cons.1 h with h | h
            · exact absurd h (by simp)
            · exact Or.inl (List.mem_append_left _ h)
          · exact Or.inr h
        · intro t2 c2 hd2 side2
          rcases hs.cover.kids t2 c2 hd2 side2 with h | h | h | h
          · exact Or.inl h
          · exact Or.inr (Or.inl h)
          · rcases List.mem_cons.1 h with h | h
            · simp only [expand_item.prod.injEq] at h
              obtain ⟨rfl, rfl, rfl⟩ := h
              rcases hready with h | h
              · exact Or.inl h
              · exact Or.inr (Or.inl h)
            · exact Or.inr (Or.inr (Or.inl (List.mem_append_left _ h)))
          · rcases List.mem_cons.1 h with h | h
            · exact absurd h (by simp)
            · exact Or.inr (Or.inr (Or.inr (List.mem_append_left _ h)))
      · rw [weight_sum_append]
        simp only [List.map_cons, List.sum_cons, expand_item.weight, List.map_nil, List.sum_nil]
        omega
    · -- the child is a sum-split node: it is expanded
      have hl2 : ((tree_at forest t).find_vertex
          (child_of (tree_at forest t) c side)).is_leaf = false := by
        by_contra h
        exact hready (Or.inl (by simpa using h))
      have hd2 : x.done t (child_of (tree_at forest t) c side) = false := by
        by_contra h
        exact hready (Or.inr (by simpa using h))
      obtain ⟨nodes3, f1, f2, f3⟩ := expand_visit_vertex pc0 forest ptr m hg nodes x hinv t
        (child_of (tree_at forest t) c side) i1 k2 hl2 hd2 (x.prod_ptr t c side) 0
        (Or.inr ⟨c, side, hd, rfl, rfl, rfl⟩) 1 (rest.map (expand_item.ptr pc0 ptr x))
      generalize hx2 : x.mark t (child_of (tree_at forest t) c side) nodes.length = x2 at f3
      have hle : x.le x2 := by rw [← hx2]; exact expansion_le_mark x _ _ _ hd2
      have hdn : x2.done t (child_of (tree_at forest t) c side) = true := by
        rw [← hx2]; simp [expansion.mark]
      have hd3 : x2.done t c = true := (hle t c hd).1
      obtain ⟨-, -, e3⟩ := expanded_nodes pc0 forest ptr nodes3 x2 f3 t c hd3
      obtain ⟨e4, d2, e5⟩ := e3 side
      have hpp : x2.prod_ptr t c side = x.prod_ptr t c side := by
        simp only [expansion.prod_ptr, (hle t c hd).2]
      have hcur2 : x2.cur ptr t (child_of (tree_at forest t) c side) = nodes.length + 4 := by
        rw [← hx2, cur_mark]
        simp
      refine ⟨nodes3, x2, rest ++ [.vert t (child_of (tree_at forest t) c side), .ind t c side],
        ?_, ⟨f3, ?_, ?_⟩, ?_⟩
      · simp only [expand_item.ptr]
        rw [b4]
        simp only [List.length_cons, List.length_nil, Nat.zero_add]
        rw [f1]
        rw [expand_visit_other _ 0 1 nodes3 _ ?_, expand_visit_zero]
        · rw [List.map_append, map_ptr_le pc0 forest ptr m x x2 hle (hin nodes3 x2 f3) rest hvrest]
          simp only [← hpp, e4, List.map_cons, List.map_nil, expand_item.ptr, hcur2,
            List.getD_cons_succ, List.getD_cons_zero, List.append_assoc, List.singleton_append]
        · intro w2 s
          have : node_at nodes3 (x.prod_ptr t c side) = node_at nodes3 (x2.prod_ptr t c side) := by
            rw [hpp]
          unfold node_at at this e4 e5
          rw [this, e4]
          simp only [List.getD_cons_succ, List.getD_cons_zero]
          rw [e5]
          simp
      · intro i hi2
        rcases List.mem_append.1 hi2 with h | h
        · exact valid_le forest m x x2 hle i (hvrest i h)
        · simp only [List.mem_cons, List.mem_singleton, List.not_mem_nil, or_false] at h
          rcases h with rfl | rfl
          · exact ⟨i1, k2, Or.inr hdn⟩
          · exact hd3
      · constructor
        · intro t2 ht2
          rcases hs.cover.roots t2 ht2 with h | h | h
          · rcases List.mem_cons.1 h with h | h
            · exact absurd h (by simp)
            · exact Or.inl (List.mem_append_left _ h)
          · exact Or.inr (Or.inl (hle t2 0 h).1)
          · exact Or.inr (Or.inr h)
        · intro t2 c2 hd4 side2
          by_cases hold : x.done t2 c2 = true
          · rcases hs.cover.kids t2 c2 hold side2 with h | h | h | h
            · exact Or.inl h
            · exact Or.inr (Or.inl (hle _ _ h).1)
            · rcases List.mem_cons.1 h with h | h
              · simp only [expand_item.prod.injEq] at h
                obtain ⟨rfl, rfl, rfl⟩ := h
                exact Or.inr (Or.inl hdn)
              · exact Or.inr (Or.inr (Or.inl (List.mem_append_left _ h)))
            · rcases List.mem_cons.1 h with h | h
              · exact absurd h (by simp)
              · exact Or.inr (Or.inr (Or.inr (List.mem_append_left _ h)))
          · -- the vertex that has just been expanded
            have hnew : t2 = t ∧ c2 = child_of (tree_at forest t) c side := by
              rw [← hx2] at hd4
              simp only [expansion.mark] at hd4
              by_contra hne
              rw [if_neg hne] at hd4
              exact hold hd4
            obtain ⟨rfl, rfl⟩ := hnew
            exact Or.inr (Or.inr (Or.inr (List.mem_append_right _ (by simp))))
      · rw [weight_sum_append]
        simp only [List.map_cons, List.sum_cons, expand_item.weight, List.map_nil, List.sum_nil]
        omega

/-- The inner loop of `expand_sum_split_nodes` over the successors of the root of the
circuit, from the tree `k` on: every root of a tree that is a sum-split node is expanded. -/
theorem expand_visit_roots (pc0 : probabilistic_circuit) (forest : List binary_decision_tree)
    (ptr : Nat → Nat → Nat) (m : Nat) (hg : generative_forest pc0 forest ptr m) (n : Nat) :
    ∀ (k : Nat) (nodes : List pc_node) (x : expansion) (todo : List Nat),
    k + n = forest.length → expand_inv pc0 forest ptr nodes x →
    ∃ nodes2 x2, expand_visit pc0.root n k nodes todo =
        some (nodes2, todo ++ (List.range' k n).map (fun t => x2.cur ptr t 0)) ∧
      expand_inv pc0 forest ptr nodes2 x2 ∧ x.le x2 ∧
      (∀ t, k ≤ t → t < forest.length →
        ((tree_at forest t).find_vertex 0).is_leaf = true ∨ x2.done t 0 = true) ∧
      (∀ t c, x2.done t c = true → x.done t c = true ∨ (c = 0 ∧ k ≤ t)) := by
  induction n with
  | zero =>
    intro k nodes x todo hk hinv
    refine ⟨nodes, x, ?_, hinv, expansion_le_refl x, ?_, fun t c h => Or.inl h⟩
    · rw [expand_visit_zero]
      simp
    · intro t h1 h2
      omega
  | succ n ih =>
    intro k nodes x todo hk hinv
    have hkN : k < forest.length := by omega
    have hpos : 0 < (tree_at forest k).vertices.length := bfs_numbered_pos _ (hg.numbered k hkN)
    have hsucc : (node_at nodes pc0.root).successors.getD k 0 = x.cur ptr k 0 := by
      rw [hinv.rootn]
      exact getD_map_range _ _ _ hkN
    by_cases hready : ((tree_at forest k).find_vertex 0).is_leaf = true ∨ x.done k 0 = true
    · have hkind := cur_kind pc0 forest ptr m hg nodes x hinv k 0 hkN hpos hready
      obtain ⟨nodes2, x2, e1, e2, e3, e4, e5⟩ := ih (k + 1) nodes x
        (todo ++ [x.cur ptr k 0]) (by omega) hinv
      refine ⟨nodes2, x2, ?_, e2, e3, ?_, ?_⟩
      · rw [expand_visit_other _ _ _ _ _ (by
          intro w s
          have := hkind w s
          unfold node_at at hsucc this
          rw [hsucc]
          exact this)]
        unfold node_at at hsucc
        rw [hsucc, e1, List.range'_succ, List.map_cons, List.append_assoc]
        have := ptr_le pc0 forest ptr m x x2 e3 (fun t c h => (e2.inner t c h).2.2)
          (.vert k 0) ⟨hkN, hpos, hready⟩
        simp only [expand_item.ptr] at this
        rw [this]
        rfl
      · intro t h1 h2
        by_cases htk : t = k
        · subst htk
          rcases hready with h | h
          · exact Or.inl h
          · exact Or.inr (e3 _ _ h).1
        · exact e4 t (by omega) h2
      · intro t c h
        rcases e5 t c h with h | ⟨h1, h2⟩
        · exact Or.inl h
        · exact Or.inr ⟨h1, by omega⟩
    · have hl2 : ((tree_at forest k).find_vertex 0).is_leaf = false := by
        by_contra h
        exact hready (Or.inl (by simpa using h))
      have hd2 : x.done k 0 = false := by
        by_contra h
        exact hready (Or.inr (by simpa using h))
      obtain ⟨nodes3, f1, f2, f3⟩ := expand_visit_vertex pc0 forest ptr m hg nodes x hinv k 0
        hkN hpos hl2 hd2 pc0.root k (Or.inl ⟨rfl, rfl, rfl⟩) n todo
      have hle := expansion_le_mark x k 0 nodes.length hd2
      have hdn : (x.mark k 0 nodes.length).done k 0 = true := by simp [expansion.mark]
      obtain ⟨nodes2, x2, e1, e2, e3, e4, e5⟩ := ih (k + 1) nodes3 (x.mark k 0 nodes.length)
        (todo ++ [nodes.length + 4]) (by omega) f3
      refine ⟨nodes2, x2, ?_, e2, expansion_le_trans _ _ _ hle e3, ?_, ?_⟩
      · rw [f1, e1, List.range'_succ, List.map_cons, List.append_assoc]
        have := ptr_le pc0 forest ptr m _ x2 e3 (fun t c h => (e2.inner t c h).2.2)
          (.vert k 0) ⟨hkN, hpos, Or.inr hdn⟩
        simp only [expand_item.ptr] at this
        rw [this, cur_mark]
        simp
      · intro t h1 h2
        by_cases htk : t = k
        · subst htk
          exact Or.inr (e3 _ _ hdn).1
        · exact e4 t (by omega) h2
      · intro t c h
        rcases e5 t c h with h | ⟨h1, h2⟩
        · by_cases hnew : t = k ∧ c = 0
          · exact Or.inr ⟨hnew.2, by omega⟩
          · simp only [expansion.mark, if_neg hnew] at h
            exact Or.inl h
        · exact Or.inr ⟨h1, by omega⟩

/-- An iteration of the outer loop of `expand_sum_split_nodes`: the first item of the queue
is replaced by the items of its successors, the sum-split nodes among which are expanded. -/
theorem expand_step (pc0 : probabilistic_circuit) (forest : List binary_decision_tree)
    (ptr : Nat → Nat → Nat) (m : Nat) (hg : generative_forest pc0 forest ptr m)
    (nodes : List pc_node) (x : expansion) (i : expand_item) (rest : List expand_item)
    (hs : expand_state pc0 forest ptr m nodes x (i :: rest)) :
    ∃ nodes2 x2 items2,
      expand_visit (i.ptr pc0 ptr x) (node_at nodes (i.ptr pc0 ptr x)).successors.length 0 nodes
        (rest.map (expand_item.ptr pc0 ptr x)) =
        some (nodes2, items2.map (expand_item.ptr pc0 ptr x2)) ∧
      expand_state pc0 forest ptr m nodes2 x2 items2 ∧
      (items2.map (expand_item.weight forest m)).sum + 1 =
        ((i :: rest).map (expand_item.weight forest m)).sum := by
  by_cases hi : i = .root
  · subst hi
    have hinv := hs.inv
    have hvrest : ∀ j ∈ rest, j.valid forest m x :=
      fun j hj => hs.valid j (List.mem_cons_of_mem _ hj)
    obtain ⟨nodes2, x2, e1, e2, e3, e4, e5⟩ := expand_visit_roots pc0 forest ptr m hg
      forest.length 0 nodes x (rest.map (expand_item.ptr pc0 ptr x)) (by omega) hinv
    refine ⟨nodes2, x2, rest ++ (List.range forest.length).map (fun t => .vert t 0), ?_,
      ⟨e2, ?_, ?_⟩, ?_⟩
    · simp only [expand_item.ptr]
      rw [hinv.rootn]
      simp only [List.length_map, List.length_range]
      rw [e1, List.map_append,
        map_ptr_le pc0 forest ptr m x x2 e3 (fun t c h => (e2.inner t c h).2.2) rest hvrest,
        List.map_map, List.range_eq_range']
      rfl
    · intro i hi2
      rcases List.mem_append.1 hi2 with h | h
      · exact valid_le forest m x x2 e3 i (hvrest i h)
      · simp only [List.mem_map, List.mem_range] at h
        obtain ⟨t, ht, rfl⟩ := h
        exact ⟨ht, bfs_numbered_pos _ (hg.numbered t ht), e4 t (by omega) ht⟩
    · constructor
      · intro t ht
        rcases e4 t (by omega) ht with h | h
        · exact Or.inr (Or.inr h)
        · exact Or.inr (Or.inl h)
      · intro t c hd side
        rcases e5 t c hd with hold | ⟨h1, -⟩
        · rcases hs.cover.kids t c hold side with h | h | h | h
          · exact Or.inl h
          · exact Or.inr (Or.inl (e3 _ _ h).1)
          · rcases List.mem_cons.1 h with h | h
            · exact absurd h (by simp)
            · exact Or.inr (Or.inr (Or.inl (List.mem_append_left _ h)))
          · rcases List.mem_cons.1 h with h | h
            · exact absurd h (by simp)
            · exact Or.inr (Or.inr (Or.inr (List.mem_append_left _ h)))
        · subst h1
          refine Or.inr (Or.inr (Or.inr (List.mem_append_right _ ?_)))
          simp only [List.mem_map, List.mem_range]
          exact ⟨t, (e2.inner t 0 hd).1, rfl⟩
    · rw [weight_sum_append]
      simp only [List.map_cons, List.sum_cons, expand_item.weight, List.map_map]
      have : (expand_item.weight forest m ∘ fun t => expand_item.vert t 0) =
          fun t => vertex_weight forest m t 0 := by
        funext t; rfl
      rw [this]
      omega
  · exact expand_step_item pc0 forest ptr m hg nodes x i rest hs hi

/-- The outer loop of `expand_sum_split_nodes` returns when the fuel is not less than the
sum of the weights of the items of the queue, and then no item is left. -/
theorem expand_loop_state (pc0 : probabilistic_circuit) (forest : List binary_decision_tree)
    (ptr : Nat → Nat → Nat) (m : Nat) (hg : generative_forest pc0 forest ptr m) (k : Nat) :
    ∀ (nodes : List pc_node) (x : expansion) (items : List expand_item),
    expand_state pc0 forest ptr m nodes x items →
    (items.map (expand_item.weight forest m)).sum ≤ k →
    ∀ fuel, k ≤ fuel →
    ∃ nodes2 x2, expand_loop fuel nodes (items.map (expand_item.ptr pc0 ptr x)) = some nodes2 ∧
      expand_state pc0 forest ptr m nodes2 x2 [] := by
  induction k with
  | zero =>
    intro nodes x items hs hw fuel hfuel
    cases items with
    | nil =>
      refine ⟨nodes, x, ?_, hs⟩
      cases fuel <;> simp [expand_loop]
    | cons i rest =>
      have := item_weight_pos forest m x i (hs.valid i (List.mem_cons_self _ _))
      simp only [List.map_cons, List.sum_cons] at hw
      omega
  | succ k ih =>
    intro nodes x items hs hw fuel hfuel
    cases items with
    | nil =>
      refine ⟨nodes, x, ?_, hs⟩
      cases fuel <;> simp [expand_loop]
    | cons i rest =>
      obtain ⟨fuel2, rfl⟩ : ∃ f, fuel = f + 1 := ⟨fuel - 1, by omega⟩
      obtain ⟨nodes2, x2, items2, e1, e2, e3⟩ := expand_step pc0 forest ptr m hg nodes x i rest hs
      obtain ⟨nodes3, x3, f1, f2⟩ := ih nodes2 x2 items2 e2 (by omega) fuel2 (by omega)
      refine ⟨nodes3, x3, ?_, f2⟩
      simp only [List.map_cons, expand_loop]
      unfold node_at at e1
      rw [e1]
      exact f1

/-! ## The checkers on the expanded circuit -/

theorem smoothness_checker_sum (pc : probabilistic_circuit) (f u : Nat) (w : List Value)
    (h : (pc.node u).kind = .sum w) :
    smoothness_checker.scope pc (f + 1) u true =
      smoothness_sum_loop (smoothness_checker.scope pc f) (pc.successors u) ∅ true := by
  conv_lhs => unfold smoothness_checker.scope
  simp only [h, Bool.not_true, Bool.false_eq_true, if_false]

theorem smoothness_checker_product (pc : probabilistic_circuit) (f u : Nat)
    (h : (pc.node u).kind = .product) :
    smoothness_checker.scope pc (f + 1) u true =
      scope_union_loop (smoothness_checker.scope pc f) (pc.successors u) ∅ true := by
  conv_lhs => unfold smoothness_checker.scope
  simp only [h, Bool.not_true, Bool.false_eq_true, if_false]

theorem smoothness_checker_terminal (pc : probabilistic_circuit) (f u v : Nat)
    (d : terminal_kind) (h : (pc.node u).kind = .terminal v d) :
    smoothness_checker.scope pc (f + 1) u true = some ({v}, true) := by
  conv_lhs => unfold smoothness_checker.scope
  simp only [h, Bool.not_true, Bool.false_eq_true, if_false]

theorem decomposability_checker_sum (pc : probabilistic_circuit) (f u : Nat) (w : List Value)
    (h : (pc.node u).kind = .sum w) :
    decomposability_checker.scope pc (f + 1) u true =
      scope_union_loop (decomposability_checker.scope pc f) (pc.successors u) ∅ true := by
  conv_lhs => unfold decomposability_checker.scope
  simp only [h, Bool.not_true, Bool.false_eq_true, if_false]

theorem decomposability_checker_product (pc : probabilistic_circuit) (f u : Nat)
    (h : (pc.node u).kind = .product) :
    decomposability_checker.scope pc (f + 1) u true =
      decomposability_product_loop (decomposability_checker.scope pc f) (pc.successors u)
        ∅ true := by
  conv_lhs => unfold decomposability_checker.scope
  simp only [h, Bool.not_true, Bool.false_eq_true, if_false]

theorem decomposability_checker_terminal (pc : probabilistic_circuit) (f u v : Nat)
    (d : terminal_kind) (h : (pc.node u).kind = .terminal v d) :
    decomposability_checker.scope pc (f + 1) u true = some ({v}, true) := by
  conv_lhs => unfold decomposability_checker.scope
  simp only [h, Bool.not_true, Bool.false_eq_true, if_false]

theorem decomposability_checker_false (pc : probabilistic_circuit) (f u : Nat) :
    decomposability_checker.scope pc (f + 1) u false = some (∅, false) := by
  conv_lhs => unfold decomposability_checker.scope
  simp

theorem scope_union_loop_list_terminals (sc : Nat → Bool → Option (Finset Nat × Bool)) :
    ∀ (ts : List Nat) (j0 : Nat),
    (∀ j, j < ts.length → sc (ts.getD j 0) true = some ({j0 + j}, true)) →
    scope_union_loop sc ts (Finset.range j0) true =
      some (Finset.range (j0 + ts.length), true) := by
  intro ts
  induction ts with
  | nil => intro j0 _; simp [scope_union_loop]
  | cons p ts ih =>
    intro j0 h
    have h1 := h 0 (by simp)
    simp only [List.getD_cons_zero, Nat.add_zero] at h1
    simp only [scope_union_loop, h1, range_union_singleton]
    rw [ih (j0 + 1) (fun j hj => by
      have := h (j + 1) (by simpa using hj)
      rw [List.getD_cons_succ] at this
      rw [show j0 + 1 + j = j0 + (j + 1) by omega]
      exact this)]
    rw [List.length_cons, show j0 + 1 + ts.length = j0 + (ts.length + 1) by omega]

theorem decomposability_product_loop_list_terminals
    (sc : Nat → Bool → Option (Finset Nat × Bool)) :
    ∀ (ts : List Nat) (j0 : Nat),
    (∀ j, j < ts.length → sc (ts.getD j 0) true = some ({j0 + j}, true)) →
    decomposability_product_loop sc ts (Finset.range j0) true =
      some (Finset.range (j0 + ts.length), true) := by
  intro ts
  induction ts with
  | nil => intro j0 _; simp [decomposability_product_loop]
  | cons p ts ih =>
    intro j0 h
    have h1 := h 0 (by simp)
    simp only [List.getD_cons_zero, Nat.add_zero] at h1
    have hno : ¬ ∃ x ∈ ({j0} : Finset Nat), x ∈ Finset.range j0 := by
      simp
    simp only [decomposability_product_loop, h1, range_union_singleton, hno, if_false]
    rw [ih (j0 + 1) (fun j hj => by
      have := h (j + 1) (by simpa using hj)
      rw [List.getD_cons_succ] at this
      rw [show j0 + 1 + j = j0 + (j + 1) by omega]
      exact this)]
    rw [List.length_cons, show j0 + 1 + ts.length = j0 + (ts.length + 1) by omega]

/-- The loop `scope_u = set_union(scope_u, scope(v))` over the nodes `g t` of a list: `result`
stays true when it stays true in every call. -/
theorem scope_union_loop_result (sc : Nat → Bool → Option (Finset Nat × Bool))
    (g : Nat → Nat) (D : Nat → Prop) :
    ∀ (ts : List Nat) (A : Finset Nat) (r : Bool),
    (∀ t ∈ ts, ∀ r, ∃ s b, sc (g t) r = some (s, b) ∧ (b = true ↔ r = true ∧ D t)) →
    ∃ A2 b, scope_union_loop sc (ts.map g) A r = some (A2, b) ∧
      (b = true ↔ r = true ∧ ∀ t ∈ ts, D t) := by
  intro ts
  induction ts with
  | nil =>
    intro A r _
    exact ⟨A, r, by simp [scope_union_loop], by simp⟩
  | cons t ts ih =>
    intro A r h
    obtain ⟨s, b, h1, h2⟩ := h t (List.mem_cons_self _ _) r
    obtain ⟨A2, b2, h3, h4⟩ := ih (A ∪ s) b (fun t2 ht2 => h t2 (List.mem_cons_of_mem _ ht2))
    refine ⟨A2, b2, ?_, ?_⟩
    · simp only [List.map_cons, scope_union_loop, h1]
      exact h3
    · rw [h4, h2]
      simp only [List.mem_cons, forall_eq_or_imp]
      tauto

theorem tree_at_length_le (forest : List binary_decision_tree) (t : Nat)
    (ht : t < forest.length) :
    (tree_at forest t).vertices.length ≤ (forest.map (fun tree => tree.vertices.length)).sum := by
  apply List.le_sum_of_mem
  simp only [List.mem_map]
  refine ⟨forest.get ⟨t, ht⟩, List.get_mem _ _ _, ?_⟩
  unfold tree_at
  rw [List.getD_eq_getElem _ _ ht]
  rfl

theorem forest_all_leaves (forest : List binary_decision_tree) :
    forest.all (fun tree => (tree.find_vertex 0).is_leaf) = true ↔
      ∀ t ∈ List.range forest.length, ((tree_at forest t).find_vertex 0).is_leaf = true := by
  simp only [List.all_eq_true, List.mem_range]
  constructor
  · intro h t ht
    apply h
    unfold tree_at
    rw [List.getD_eq_getElem _ _ ht]
    exact List.getElem_mem _
  · intro h tree hmem
    obtain ⟨t, ht, rfl⟩ := List.getElem_of_mem hmem
    have := h t ht
    unfold tree_at at this
    rw [List.getD_eq_getElem _ _ ht] at this
    exact this

/-- The nodes of the expanded circuit that can be reached from the root stand for the root,
for a leaf or for an expanded vertex. -/
theorem reachable_expanded_node (pc0 pc : probabilistic_circuit)
    (forest : List binary_decision_tree) (ptr : Nat → Nat → Nat) (m : Nat)
    (hg : generative_forest pc0 forest ptr m) (x : expansion) (hroot : pc.root = pc0.root)
    (hs : expand_state pc0 forest ptr m pc.nodes x []) (q : Nat) (hq : pc.reachable q) :
    expanded_node pc0 forest ptr m x q := by
  have hinv := hs.inv
  unfold probabilistic_circuit.reachable at hq
  induction hq with
  | refl => exact Or.inl hroot
  | @tail a b _ hstep ih =>
    have hcur : ∀ t c, t < forest.length → c < (tree_at forest t).vertices.length →
        (((tree_at forest t).find_vertex c).is_leaf = true ∨ x.done t c = true) →
        expanded_node pc0 forest ptr m x (x.cur ptr t c) := by
      intro t c ht hc h
      by_cases hl : ((tree_at forest t).find_vertex c).is_leaf = true
      · obtain ⟨a1, -⟩ := leaf_nodes pc0 forest ptr m hg pc.nodes x hinv t c ht hc hl
        exact Or.inr ⟨t, c, ht, hc, Or.inl ⟨hl, Or.inl a1⟩⟩
      · have hd : x.done t c = true := by
          rcases h with h | h
          · exact absurd h hl
          · exact h
        obtain ⟨a1, -⟩ := expanded_nodes pc0 forest ptr pc.nodes x hinv t c hd
        exact Or.inr ⟨t, c, ht, hc, Or.inr ⟨hd, Or.inl a1⟩⟩
    have hb : b ∈ (node_at pc.nodes a).successors := hstep
    rcases ih with h | ⟨t, c, ht, hc, h⟩
    · rw [h, hinv.rootn] at hb
      simp only [List.mem_map, List.mem_range] at hb
      obtain ⟨t, ht, rfl⟩ := hb
      have hready : ((tree_at forest t).find_vertex 0).is_leaf = true ∨ x.done t 0 = true := by
        rcases hs.cover.roots t ht with h | h | h
        · exact absurd h (by simp)
        · exact Or.inr h
        · exact Or.inl h
      exact hcur t 0 ht (bfs_numbered_pos _ (hg.numbered t ht)) hready
    · rcases h with ⟨hl, h⟩ | ⟨hd, h⟩
      · obtain ⟨a1, a2, a3, a4, a5⟩ := leaf_nodes pc0 forest ptr m hg pc.nodes x hinv t c ht hc hl
        rcases h with h | ⟨j, hj, h⟩
        · rw [h, a2] at hb
          obtain ⟨j, hj, rfl⟩ := List.getElem_of_mem hb
          refine Or.inr ⟨t, c, ht, hc, Or.inl ⟨hl, Or.inr ⟨j, by omega, ?_⟩⟩⟩
          rw [List.getD_eq_getElem _ _ hj]
        · obtain ⟨dist, hd⟩ := a5 j hj
          rw [h, hd] at hb
          exact absurd hb (by simp)
      · obtain ⟨a1, ⟨w, a2⟩, a3⟩ := expanded_nodes pc0 forest ptr pc.nodes x hinv t c hd
        obtain ⟨i1, i2, i3⟩ := hinv.inner t c hd
        rcases h with h | ⟨side, h | h⟩
        · rw [h, a2] at hb
          simp only [List.mem_cons, List.mem_singleton, List.not_mem_nil, or_false] at hb
          rcases hb with rfl | rfl
          · exact Or.inr ⟨t, c, ht, hc, Or.inr ⟨hd, Or.inr ⟨false, Or.inl rfl⟩⟩⟩
          · exact Or.inr ⟨t, c, ht, hc, Or.inr ⟨hd, Or.inr ⟨true, Or.inl rfl⟩⟩⟩
        · rw [h, (a3 side).1] at hb
          simp only [List.mem_cons, List.mem_singleton, List.not_mem_nil, or_false] at hb
          rcases hb with rfl | rfl
          · have hready : ((tree_at forest t).find_vertex
                (child_of (tree_at forest t) c side)).is_leaf = true ∨
                x.done t (child_of (tree_at forest t) c side) = true := by
              rcases hs.cover.kids t c hd side with h | h | h | h
              · exact Or.inl h
              · exact Or.inr h
              · exact absurd h (by simp)
              · exact absurd h (by simp)
            exact hcur t _ ht (child_of_above _ (hg.numbered t ht) c side i2 i3).2 hready
          · exact Or.inr ⟨t, c, ht, hc, Or.inr ⟨hd, Or.inr ⟨side, Or.inr rfl⟩⟩⟩
        · obtain ⟨d, hd2⟩ := (a3 side).2
          rw [h, hd2] at hb
          exact absurd hb (by simp)

/-- No node of the expanded circuit that stands for the root, a leaf or an expanded vertex
is a sum-split node. -/
theorem expanded_node_kind (pc0 : probabilistic_circuit)
    (forest : List binary_decision_tree) (ptr : Nat → Nat → Nat) (m : Nat)
    (hg : generative_forest pc0 forest ptr m) (nodes : List pc_node) (x : expansion)
    (hinv : expand_inv pc0 forest ptr nodes x) (q : Nat)
    (hq : expanded_node pc0 forest ptr m x q) :
    ∀ w s, (node_at nodes q).kind ≠ .sum_split w s := by
  intro w s
  rcases hq with h | ⟨t, c, ht, hc, h⟩
  · obtain ⟨w2, hw⟩ := hg.root
    rw [h, hinv.rootn, hw]
    simp
  · rcases h with ⟨hl, h⟩ | ⟨hd, h⟩
    · obtain ⟨a1, a2, a3, a4, a5⟩ := leaf_nodes pc0 forest ptr m hg nodes x hinv t c ht hc hl
      rcases h with h | ⟨j, hj, h⟩
      · rw [h, a2, a3]
        simp
      · obtain ⟨dist, hd⟩ := a5 j hj
        rw [h, hd]
        simp
    · obtain ⟨a1, ⟨w2, a2⟩, a3⟩ := expanded_nodes pc0 forest ptr nodes x hinv t c hd
      rcases h with h | ⟨side, h | h⟩
      · rw [h, a2]
        simp
      · rw [h, (a3 side).1]
        simp
      · obtain ⟨d, hd2⟩ := (a3 side).2
        rw [h, hd2]
        simp

/-- The smoothness checker finds the scope `{0, ..., m}` at the node that stands for a vertex
of the expanded circuit, and leaves `result` true. -/
theorem expanded_vertex_smooth (pc0 pc : probabilistic_circuit)
    (forest : List binary_decision_tree) (ptr : Nat → Nat → Nat) (m : Nat)
    (hg : generative_forest pc0 forest ptr m) (x : expansion)
    (hs : expand_state pc0 forest ptr m pc.nodes x []) (t : Nat) (ht : t < forest.length) :
    ∀ (d c : Nat), (tree_at forest t).vertices.length - c ≤ d →
      c < (tree_at forest t).vertices.length →
      (((tree_at forest t).find_vertex c).is_leaf = true ∨ x.done t c = true) →
      ∀ fuel, 2 * d ≤ fuel →
      smoothness_checker.scope pc fuel (x.cur ptr t c) true =
        some (Finset.range (m + 1), true) := by
  have hinv := hs.inv
  intro d
  induction d with
  | zero => intro c h1 h2; omega
  | succ d ih =>
    intro c hd hc hready fuel hfuel
    obtain ⟨f, rfl⟩ : ∃ f, fuel = f + 2 := ⟨fuel - 2, by omega⟩
    by_cases hl : ((tree_at forest t).find_vertex c).is_leaf = true
    · obtain ⟨a1, a2, a3, a4, a5⟩ := leaf_nodes pc0 forest ptr m hg pc.nodes x hinv t c ht hc hl
      have hk : (pc.node (x.cur ptr t c)).kind = .product := by
        rw [a1]
        show (node_at pc.nodes (ptr t c)).kind = _
        rw [a2, a3]
      have hsu : pc.successors (x.cur ptr t c) = (pc0.node (ptr t c)).successors := by
        rw [a1]
        show (node_at pc.nodes (ptr t c)).successors = _
        rw [a2]
      rw [smoothness_checker_product pc (f + 1) _ hk, hsu]
      have := scope_union_loop_list_terminals (smoothness_checker.scope pc (f + 1))
        (pc0.node (ptr t c)).successors 0 (by
          intro j hj
          obtain ⟨dist, hd2⟩ := a5 j (by omega)
          rw [Nat.zero_add]
          exact smoothness_checker_terminal pc f _ j dist (by
            show (node_at pc.nodes _).kind = _
            rw [hd2]))
      rw [Finset.range_zero, Nat.zero_add, a4] at this
      exact this
    · have hdn : x.done t c = true := by
        rcases hready with h | h
        · exact absurd h hl
        · exact h
      obtain ⟨b1, ⟨w, b2⟩, b3⟩ := expanded_nodes pc0 forest ptr pc.nodes x hinv t c hdn
      obtain ⟨i1, i2, i3⟩ := hinv.inner t c hdn
      have hprod : ∀ side, smoothness_checker.scope pc (f + 1) (x.prod_ptr t c side) true =
          some (Finset.range (m + 1), true) := by
        intro side
        obtain ⟨e1, dd, e2⟩ := b3 side
        obtain ⟨k1, k2⟩ := child_of_above _ (hg.numbered t ht) c side i2 i3
        have hready2 : ((tree_at forest t).find_vertex
            (child_of (tree_at forest t) c side)).is_leaf = true ∨
            x.done t (child_of (tree_at forest t) c side) = true := by
          rcases hs.cover.kids t c hdn side with h | h | h | h
          · exact Or.inl h
          · exact Or.inr h
          · exact absurd h (by simp)
          · exact absurd h (by simp)
        obtain ⟨g, rfl⟩ : ∃ g, f = g + 1 := ⟨f - 1, by omega⟩
        have hchild := ih _ (by omega) k2 hready2 (g + 1) (by omega)
        have hind := smoothness_checker_terminal pc g (x.ind_ptr t c side) _ dd (by
          show (node_at pc.nodes _).kind = _
          rw [e2])
        have hvar := (hg.splits t ht c i2 i3).2
        rw [smoothness_checker_product pc (g + 1) _ (by
          show (node_at pc.nodes _).kind = _
          rw [e1])]
        have hsu : pc.successors (x.prod_ptr t c side) =
            [x.cur ptr t (child_of (tree_at forest t) c side), x.ind_ptr t c side] := by
          show (node_at pc.nodes _).successors = _
          rw [e1]
        rw [hsu]
        simp only [scope_union_loop, hchild, hind]
        congr 2
        ext v
        simp only [Finset.mem_union, Finset.mem_range, Finset.mem_singleton,
          Finset.not_mem_empty, false_or]
        omega
      rw [b1, smoothness_checker_sum pc (f + 1) _ w (by
        show (node_at pc.nodes _).kind = _
        rw [b2])]
      have hsu : pc.successors (x.base t c + 4) = [x.prod_ptr t c false, x.prod_ptr t c true] := by
        show (node_at pc.nodes _).successors = _
        rw [b2]
      rw [hsu, smoothness_sum_loop_same _ _ (range_succ_ne_empty m) _ ∅ (Or.inl rfl) (by
        intro p hp
        simp only [List.mem_cons, List.mem_singleton, List.not_mem_nil, or_false] at hp
        rcases hp with rfl | rfl
        · exact hprod false
        · exact hprod true)]
      simp

/-- The decomposability checker at the node that stands for a vertex of the expanded circuit:
`result` stays true only at a leaf, the scope of which is `{0, ..., m}`. -/
theorem expanded_vertex_decomposable (pc0 pc : probabilistic_circuit)
    (forest : List binary_decision_tree) (ptr : Nat → Nat → Nat) (m : Nat)
    (hg : generative_forest pc0 forest ptr m) (x : expansion)
    (hs : expand_state pc0 forest ptr m pc.nodes x []) (t : Nat) (ht : t < forest.length) :
    ∀ (d c : Nat), (tree_at forest t).vertices.length - c ≤ d →
      c < (tree_at forest t).vertices.length →
      (((tree_at forest t).find_vertex c).is_leaf = true ∨ x.done t c = true) →
      ∀ fuel, 2 * d ≤ fuel → ∀ r, ∃ s b,
      decomposability_checker.scope pc fuel (x.cur ptr t c) r = some (s, b) ∧
        (b = true → s = Finset.range (m + 1)) ∧
        (b = true ↔ r = true ∧ ((tree_at forest t).find_vertex c).is_leaf = true) := by
  have hinv := hs.inv
  intro d
  induction d with
  | zero => intro c h1 h2; omega
  | succ d ih =>
    intro c hd hc hready fuel hfuel r
    obtain ⟨f, rfl⟩ : ∃ f, fuel = f + 2 := ⟨fuel - 2, by omega⟩
    by_cases hr : r = true
    swap
    · have hr2 : r = false := by simpa using hr
      subst hr2
      exact ⟨∅, false, decomposability_checker_false pc (f + 1) _, by simp, by simp⟩
    subst hr
    by_cases hl : ((tree_at forest t).find_vertex c).is_leaf = true
    · obtain ⟨a1, a2, a3, a4, a5⟩ := leaf_nodes pc0 forest ptr m hg pc.nodes x hinv t c ht hc hl
      have hk : (pc.node (x.cur ptr t c)).kind = .product := by
        rw [a1]
        show (node_at pc.nodes (ptr t c)).kind = _
        rw [a2, a3]
      have hsu : pc.successors (x.cur ptr t c) = (pc0.node (ptr t c)).successors := by
        rw [a1]
        show (node_at pc.nodes (ptr t c)).successors = _
        rw [a2]
      refine ⟨Finset.range (m + 1), true, ?_, fun _ => rfl, by simp [hl]⟩
      rw [decomposability_checker_product pc (f + 1) _ hk, hsu]
      have := decomposability_product_loop_list_terminals
        (decomposability_checker.scope pc (f + 1)) (pc0.node (ptr t c)).successors 0 (by
          intro j hj
          obtain ⟨dist, hd2⟩ := a5 j (by omega)
          rw [Nat.zero_add]
          exact decomposability_checker_terminal pc f _ j dist (by
            show (node_at pc.nodes _).kind = _
            rw [hd2]))
      rw [Finset.range_zero, Nat.zero_add, a4] at this
      exact this
    · have hdn : x.done t c = true := by
        rcases hready with h | h
        · exact absurd h hl
        · exact h
      obtain ⟨b1, ⟨w, b2⟩, b3⟩ := expanded_nodes pc0 forest ptr pc.nodes x hinv t c hdn
      obtain ⟨i1, i2, i3⟩ := hinv.inner t c hdn
      obtain ⟨e1, dd, e2⟩ := b3 false
      obtain ⟨k1, k2⟩ := child_of_above _ (hg.numbered t ht) c false i2 i3
      have hready2 : ((tree_at forest t).find_vertex
          (child_of (tree_at forest t) c false)).is_leaf = true ∨
          x.done t (child_of (tree_at forest t) c false) = true := by
        rcases hs.cover.kids t c hdn false with h | h | h | h
        · exact Or.inl h
        · exact Or.inr h
        · exact absurd h (by simp)
        · exact absurd h (by simp)
      obtain ⟨g, rfl⟩ : ∃ g, f = g + 1 := ⟨f - 1, by omega⟩
      obtain ⟨s1, b1c, hchild, hs1, -⟩ := ih _ (by omega) k2 hready2 (g + 1) (by omega) true
      have hvar := (hg.splits t ht c i2 i3).2
      have hprod : ∃ s, decomposability_checker.scope pc (g + 1 + 1) (x.prod_ptr t c false) true =
          some (s, false) := by
        rw [decomposability_checker_product pc (g + 1) _ (by
          show (node_at pc.nodes _).kind = _
          rw [e1])]
        have hsu : pc.successors (x.prod_ptr t c false) =
            [x.cur ptr t (child_of (tree_at forest t) c false), x.ind_ptr t c false] := by
          show (node_at pc.nodes _).successors = _
          rw [e1]
        rw [hsu]
        cases b1c with
        | false =>
          refine ⟨∅ ∪ s1 ∪ ∅, ?_⟩
          have hf := decomposability_checker_false pc g (x.ind_ptr t c false)
          simp only [decomposability_product_loop, hchild, hf]
          simp [hf]
        | true =>
          have hind := decomposability_checker_terminal pc g (x.ind_ptr t c false) _ dd (by
            show (node_at pc.nodes _).kind = _
            rw [e2])
          refine ⟨∅ ∪ s1 ∪ {split_variable ((tree_at forest t).find_vertex c).split}, ?_⟩
          have hov : ∃ v ∈ ({split_variable ((tree_at forest t).find_vertex c).split} :
              Finset Nat), v ∈ (∅ : Finset Nat) ∪ s1 := by
            refine ⟨_, Finset.mem_singleton_self _, ?_⟩
            rw [hs1 rfl]
            simp only [Finset.empty_union, Finset.mem_range]
            omega
          simp only [decomposability_product_loop, hchild, hind, Finset.not_mem_empty,
            and_false, exists_false, if_false, hov, if_true]
      obtain ⟨s, hps⟩ := hprod
      refine ⟨∅ ∪ s ∪ ∅, false, ?_, by simp, by simp [hl]⟩
      rw [b1, decomposability_checker_sum pc (g + 1 + 1) _ w (by
        show (node_at pc.nodes _).kind = _
        rw [b2])]
      have hsu : pc.successors (x.base t c + 4) = [x.prod_ptr t c false, x.prod_ptr t c true] := by
        show (node_at pc.nodes _).successors = _
        rw [b2]
      rw [hsu]
      have hf := decomposability_checker_false pc (g + 1) (x.prod_ptr t c true)
      simp only [scope_union_loop, hps, hf]

/-- The checkers on the expanded circuit: it is smooth, and it is decomposable only when
every tree of the forest is a leaf. -/
theorem expanded_checks (pc0 pc : probabilistic_circuit)
    (forest : List binary_decision_tree) (ptr : Nat → Nat → Nat) (m : Nat)
    (hg : generative_forest pc0 forest ptr m) (x : expansion) (hroot : pc.root = pc0.root)
    (hs : expand_state pc0 forest ptr m pc.nodes x []) (fuel : Nat)
    (hfuel : checker_fuel forest ≤ fuel) :
    is_smooth pc fuel = some true ∧
    is_decomposable pc fuel =
      some (forest.all (fun tree => (tree.find_vertex 0).is_leaf)) := by
  have hinv := hs.inv
  obtain ⟨w, hw⟩ := hg.root
  obtain ⟨f, rfl⟩ : ∃ f, fuel = f + 1 := ⟨fuel - 1, by unfold checker_fuel at hfuel; omega⟩
  have hk : (pc.node pc.root).kind = .sum w := by
    rw [hroot]
    show (node_at pc.nodes _).kind = _
    rw [hinv.rootn, hw]
  have hsu : pc.successors pc.root = (List.range forest.length).map (fun t => x.cur ptr t 0) := by
    rw [hroot]
    show (node_at pc.nodes _).successors = _
    rw [hinv.rootn]
  have hready : ∀ t, t < forest.length →
      ((tree_at forest t).find_vertex 0).is_leaf = true ∨ x.done t 0 = true := by
    intro t ht
    rcases hs.cover.roots t ht with h | h | h
    · exact absurd h (by simp)
    · exact Or.inr h
    · exact Or.inl h
  have hf : ∀ t, t < forest.length → 2 * (tree_at forest t).vertices.length ≤ f := by
    intro t ht
    have := tree_at_length_le forest t ht
    unfold checker_fuel at hfuel
    omega
  constructor
  · unfold is_smooth
    rw [smoothness_checker_sum pc f _ w hk, hsu,
      smoothness_sum_loop_same _ _ (range_succ_ne_empty m) _ ∅ (Or.inl rfl) (by
        intro p hp
        simp only [List.mem_map, List.mem_range] at hp
        obtain ⟨t, ht, rfl⟩ := hp
        exact expanded_vertex_smooth pc0 pc forest ptr m hg x hs t ht _ 0 (by omega)
          (bfs_numbered_pos _ (hg.numbered t ht)) (hready t ht) f (hf t ht))]
    rfl
  · unfold is_decomposable
    rw [decomposability_checker_sum pc f _ w hk, hsu]
    obtain ⟨A2, b, h1, h2⟩ := scope_union_loop_result (decomposability_checker.scope pc f)
      (fun t => x.cur ptr t 0) (fun t => ((tree_at forest t).find_vertex 0).is_leaf = true)
      (List.range forest.length) ∅ true (by
        intro t ht r
        rw [List.mem_range] at ht
        obtain ⟨s, b, e1, -, e3⟩ := expanded_vertex_decomposable pc0 pc forest ptr m hg x hs t ht
          _ 0 (by omega) (bfs_numbered_pos _ (hg.numbered t ht)) (hready t ht) f (hf t ht) r
        exact ⟨s, b, e1, e3⟩)
    rw [h1]
    simp only [Option.map_some']
    congr 1
    rw [Bool.eq_iff_iff, h2, forest_all_leaves]
    simp

/-- The state of `expand_sum_split_nodes` at the start. -/
theorem expand_state_init (pc0 : probabilistic_circuit) (forest : List binary_decision_tree)
    (ptr : Nat → Nat → Nat) (m : Nat) (hg : generative_forest pc0 forest ptr m) :
    expand_state pc0 forest ptr m pc0.nodes ⟨fun _ _ => false, fun _ _ => 0⟩ [.root] := by
  obtain ⟨w, hw⟩ := hg.root
  refine ⟨⟨le_refl _, fun _ _ _ _ => rfl, ?_, ?_, ?_, ?_, ?_⟩, ?_, ⟨?_, ?_⟩⟩
  · show pc0.node pc0.root = _
    rw [hw]
    rfl
  · intro t c h
    exact absurd h (by simp)
  · intro t c _ _ _ _
    exact ⟨rfl, fun _ => rfl⟩
  · intro t c h
    exact absurd h (by simp)
  · intro t c t2 c2 h
    exact absurd h (by simp)
  · intro i hi
    rw [List.mem_singleton] at hi
    subst hi
    trivial
  · intro t _
    exact Or.inl (List.mem_singleton_self _)
  · intro t c h
    exact absurd h (by simp)

/-- The function `expand_sum_split_nodes` on a generative forest returns a circuit with the
same root in which no sum-split node can be reached, which is smooth, and which is
decomposable only when every tree of the forest is a leaf. -/
theorem expand_sum_split_nodes_spec (pc : probabilistic_circuit)
    (forest : List binary_decision_tree) (ptr : Nat → Nat → Nat) (m : Nat)
    (hg : generative_forest pc forest ptr m) (fuel : Nat)
    (hfuel : expansion_fuel forest m ≤ fuel) :
    ∃ pc2, expand_sum_split_nodes pc fuel = some pc2 ∧ pc2.root = pc.root ∧
      (∀ u, pc2.reachable u → ∀ w s, (pc2.node u).kind ≠ .sum_split w s) ∧
      ∀ fuel2, checker_fuel forest ≤ fuel2 →
        is_smooth pc2 fuel2 = some true ∧
        is_decomposable pc2 fuel2 =
          some (forest.all (fun tree => (tree.find_vertex 0).is_leaf)) := by
  have h0 := expand_state_init pc forest ptr m hg
  obtain ⟨nodes2, x2, e1, e2⟩ := expand_loop_state pc forest ptr m hg (expansion_fuel forest m)
    pc.nodes _ [.root] h0 (by
      simp only [List.map_cons, List.map_nil, List.sum_cons, List.sum_nil, expand_item.weight,
        expansion_fuel]
      omega) fuel hfuel
  simp only [List.map_cons, List.map_nil, expand_item.ptr] at e1
  refine ⟨{ pc with nodes := nodes2 }, ?_, rfl, ?_, ?_⟩
  · unfold expand_sum_split_nodes
    rw [e1]
    rfl
  · intro u hu
    exact expanded_node_kind pc forest ptr m hg nodes2 x2 e2.inv u
      (reachable_expanded_node pc { pc with nodes := nodes2 } forest ptr m hg x2 rfl e2 u hu)
  · intro fuel2 hfuel2
    exact expanded_checks pc { pc with nodes := nodes2 } forest ptr m hg x2 rfl e2 fuel2 hfuel2

/-! ## The checkers on a generative forest -/

/-- Both checkers find the scope `{0, ..., m}` at the node of every vertex of a generative
tree, and leave `result` true. -/
theorem generative_tree_scopes (tree : binary_decision_tree) (m : Nat)
    (pc : probabilistic_circuit) (ptr : Nat → Nat) (hch : children_above tree)
    (hb : generative_tree tree m pc ptr) :
    ∀ (d ui : Nat), tree.vertices.length - ui ≤ d → ui < tree.vertices.length →
      ∀ fuel, 2 * d ≤ fuel →
      smoothness_checker.scope pc fuel (ptr ui) true = some (Finset.range (m + 1), true) ∧
      decomposability_checker.scope pc fuel (ptr ui) true =
        some (Finset.range (m + 1), true) := by
  intro d
  induction d with
  | zero => intro ui h1 h2; omega
  | succ d ih =>
    intro ui hd hui fuel hfuel
    obtain ⟨f, rfl⟩ : ∃ f, fuel = f + 2 := ⟨fuel - 2, by omega⟩
    cases hl : (tree.find_vertex ui).is_leaf with
    | true =>
      obtain ⟨a1, a2, a3⟩ := hb.leaves ui hui hl
      have e1 := scope_union_loop_list_terminals (smoothness_checker.scope pc (f + 1))
        (pc.successors (ptr ui)) 0 (by
          intro j hj
          obtain ⟨dist, hd2⟩ := a3 j (by omega)
          rw [Nat.zero_add]
          exact smoothness_checker_terminal pc f _ j dist (by rw [hd2]))
      have e2 := decomposability_product_loop_list_terminals
        (decomposability_checker.scope pc (f + 1)) (pc.successors (ptr ui)) 0 (by
          intro j hj
          obtain ⟨dist, hd2⟩ := a3 j (by omega)
          rw [Nat.zero_add]
          exact decomposability_checker_terminal pc f _ j dist (by rw [hd2]))
      rw [Finset.range_zero, Nat.zero_add, a2] at e1 e2
      exact ⟨by rw [smoothness_checker_product pc (f + 1) _ a1]; exact e1,
        by rw [decomposability_checker_product pc (f + 1) _ a1]; exact e2⟩
    | false =>
      obtain ⟨c1, c2, c3, c4⟩ := hch ui hui hl
      have hin := hb.inner ui hui hl
      obtain ⟨l1, l2⟩ := ih _ (by omega) c3 (f + 1) (by omega)
      obtain ⟨r1, r2⟩ := ih _ (by omega) c4 (f + 1) (by omega)
      have hsu : pc.successors (ptr ui) =
          [ptr (tree.find_vertex ui).left, ptr (tree.find_vertex ui).right] := by
        unfold probabilistic_circuit.successors
        rw [hin]
      constructor
      · conv_lhs => unfold smoothness_checker.scope
        simp only [hin, Bool.not_true, Bool.false_eq_true, if_false]
        rw [hsu, smoothness_sum_loop_same _ _ (range_succ_ne_empty _) _ ∅ (Or.inl rfl) (by
          intro p hp
          simp only [List.mem_cons, List.mem_singleton, List.not_mem_nil, or_false] at hp
          rcases hp with hp | hp
          · rw [hp]; exact l1
          · rw [hp]; exact r1)]
        simp
      · conv_lhs => unfold decomposability_checker.scope
        simp only [hin, Bool.not_true, Bool.false_eq_true, if_false]
        rw [hsu, scope_union_loop_same _ _ _ ∅ (Or.inl rfl) (by
          intro p hp
          simp only [List.mem_cons, List.mem_singleton, List.not_mem_nil, or_false] at hp
          rcases hp with hp | hp
          · rw [hp]; exact l2
          · rw [hp]; exact r2)]
        simp

/-- A generative forest is smooth and decomposable. -/
theorem generative_forest_checks (pc : probabilistic_circuit)
    (forest : List binary_decision_tree) (ptr : Nat → Nat → Nat) (m : Nat)
    (hg : generative_forest pc forest ptr m) (fuel : Nat)
    (hfuel : checker_fuel forest ≤ fuel) :
    is_smooth pc fuel = some true ∧ is_decomposable pc fuel = some true := by
  obtain ⟨w, hw⟩ := hg.root
  obtain ⟨f, rfl⟩ : ∃ f, fuel = f + 1 := ⟨fuel - 1, by unfold checker_fuel at hfuel; omega⟩
  have hk : (pc.node pc.root).kind = .sum w := by rw [hw]
  have hsu : pc.successors pc.root = (List.range forest.length).map (fun t => ptr t 0) := by
    unfold probabilistic_circuit.successors
    rw [hw]
  have hv : ∀ p ∈ (List.range forest.length).map (fun t => ptr t 0),
      smoothness_checker.scope pc f p true = some (Finset.range (m + 1), true) ∧
      decomposability_checker.scope pc f p true = some (Finset.range (m + 1), true) := by
    intro p hp
    simp only [List.mem_map, List.mem_range] at hp
    obtain ⟨t, ht, rfl⟩ := hp
    have := tree_at_length_le forest t ht
    exact generative_tree_scopes _ m pc (ptr t)
      (bfs_numbered_children_above _ (hg.numbered t ht)) (hg.trees t ht)
      (tree_at forest t).vertices.length 0 (by omega)
      (bfs_numbered_pos _ (hg.numbered t ht)) f (by unfold checker_fuel at hfuel; omega)
  constructor
  · unfold is_smooth
    rw [smoothness_checker_sum pc f _ w hk, hsu,
      smoothness_sum_loop_same _ _ (range_succ_ne_empty m) _ ∅ (Or.inl rfl)
        (fun p hp => (hv p hp).1)]
    rfl
  · unfold is_decomposable
    rw [decomposability_checker_sum pc f _ w hk, hsu,
      scope_union_loop_same _ _ _ ∅ (Or.inl rfl) (fun p hp => (hv p hp).2)]
    rfl

/-- The circuit `fraction_circuit` is the generative forest of `fraction_tree`. -/
theorem fraction_circuit_generative :
    generative_forest fraction_circuit [fraction_tree] fraction_ptr 1 := by
  have ht0 : ∀ t, t < [fraction_tree].length → t = 0 := by
    intro t ht
    simp only [List.length_singleton] at ht
    omega
  have htree : tree_at [fraction_tree] 0 = fraction_tree := rfl
  have hlen : fraction_tree.vertices.length = 3 := rfl
  refine ⟨?_, ⟨[.num 1], by decide!⟩, ?_, ?_, ?_, ?_, ?_⟩
  · refine ⟨by decide, ?_⟩
    intro u hu v hv
    have hu2 : u < 8 := hu
    show v < 8
    interval_cases u <;> revert v <;> decide!
  · intro t ht
    rw [ht0 t ht, htree]
    refine ⟨?_, ?_⟩
    · intro ui hui hl
      rw [hlen] at hui
      interval_cases ui
      · decide!
      · exact absurd hl (by decide!)
      · exact absurd hl (by decide!)
    · intro ui hui hl
      rw [hlen] at hui
      interval_cases ui
      · exact absurd hl (by decide!)
      · refine ⟨by decide!, by decide!, ?_⟩
        intro j hj
        interval_cases j
        · exact ⟨_, rfl⟩
        · exact ⟨_, rfl⟩
      · refine ⟨by decide!, by decide!, ?_⟩
        intro j hj
        interval_cases j
        · exact ⟨_, rfl⟩
        · exact ⟨_, rfl⟩
  · intro t ht
    rw [ht0 t ht, htree]
    refine ⟨?_, by decide!, ?_⟩
    · intro i hi
      have hi2 : i < 3 := hi
      interval_cases i <;> decide!
    · intro k hk
      have hk2 : k < 3 := hk
      interval_cases k <;> decide!
  · intro t ht c hc hl
    rw [ht0 t ht, htree] at hc hl ⊢
    rw [hlen] at hc
    interval_cases c
    · exact ⟨by decide!, by decide!⟩
    · exact absurd hl (by decide!)
    · exact absurd hl (by decide!)
  · intro t ht c hc
    rw [ht0 t ht, htree] at hc
    rw [hlen] at hc
    show fraction_ptr t c < 8
    interval_cases c <;> simp [fraction_ptr]
  · intro t c t2 c2 ht hc hl ht2 hc2 hl2 _
    rw [ht0 t ht, htree] at hc hl
    rw [ht0 t2 ht2, htree] at hc2 hl2
    rw [hlen] at hc hc2
    refine ⟨by rw [ht0 t ht, ht0 t2 ht2], ?_⟩
    interval_cases c
    · interval_cases c2
      · rfl
      · exact absurd hl2 (by decide!)
      · exact absurd hl2 (by decide!)
    · exact absurd hl (by decide!)
    · exact absurd hl (by decide!)

/-- Claim C38, amended: for every generative forest `pc` (the root a sum node over the nodes
of the roots of the trees, the node of a vertex a sum-split node over the nodes of its
children or, for a leaf, a product node over terminal nodes of the variables `0, ..., m`),
`is_smooth(pc)` and `is_decomposable(pc)` return true; with enough fuel
`expand_sum_split_nodes(pc)` returns, after it no sum-split node is reachable from the root
and `is_smooth(pc)` still returns true, but `is_decomposable(pc)` returns true only when the
root of every tree is a leaf, so that there was no sum-split node to expand, and false
otherwise: both successors of a product node `y_j = (v_j, z_j)` made by the expansion have
the split variable in their scope. -/
theorem expand_sum_split_nodes_expanded (pc : probabilistic_circuit)
    (forest : List binary_decision_tree) (ptr : Nat → Nat → Nat) (m : Nat)
    (hg : generative_forest pc forest ptr m) (fuel : Nat)
    (hfuel : expansion_fuel forest m ≤ fuel) :
    ∃ pc2, expand_sum_split_nodes pc fuel = some pc2 ∧
      (∀ u, pc2.reachable u → ∀ w s, (pc2.node u).kind ≠ .sum_split w s) ∧
      ∀ fuel2, checker_fuel forest ≤ fuel2 →
        is_smooth pc fuel2 = some true ∧ is_decomposable pc fuel2 = some true ∧
        is_smooth pc2 fuel2 = some true ∧
        is_decomposable pc2 fuel2 =
          some (forest.all (fun tree => (tree.find_vertex 0).is_leaf)) := by
  obtain ⟨pc2, h1, -, h3, h4⟩ := expand_sum_split_nodes_spec pc forest ptr m hg fuel hfuel
  refine ⟨pc2, h1, h3, fun fuel2 hfuel2 => ?_⟩
  obtain ⟨a1, a2⟩ := generative_forest_checks pc forest ptr m hg fuel2 hfuel2
  obtain ⟨b1, b2⟩ := h4 fuel2 hfuel2
  exact ⟨a1, a2, b1, b2⟩

theorem expand_sum_split_nodes_expanded_witness :
    generative_forest fraction_circuit [fraction_tree] fraction_ptr 1 ∧
    expansion_fuel [fraction_tree] 1 ≤ 12 ∧
    ∃ pc2, expand_sum_split_nodes fraction_circuit 12 = some pc2 ∧
      (∀ u, pc2.reachable u → ∀ w s, (pc2.node u).kind ≠ .sum_split w s) ∧
      ∀ fuel2, checker_fuel [fraction_tree] ≤ fuel2 →
        is_smooth fraction_circuit fuel2 = some true ∧
        is_decomposable fraction_circuit fuel2 = some true ∧
        is_smooth pc2 fuel2 = some true ∧
        is_decomposable pc2 fuel2 =
          some ([fraction_tree].all (fun tree => (tree.find_vertex 0).is_leaf)) :=
  ⟨fraction_circuit_generative, by decide!,
    expand_sum_split_nodes_expanded fraction_circuit [fraction_tree] fraction_ptr 1
      fraction_circuit_generative 12 (by decide!)⟩

/-- The circuit of the forest of the single tree `fraction_tree`, which is
`fraction_circuit`, is smooth and decomposable; after `expand_sum_split_nodes` it is smooth
and `is_decomposable` returns false. -/
theorem expand_sum_split_nodes_fraction :
    build_generative_forest mixed_library [fraction_tree] fraction_dataset 20 =
      some fraction_circuit ∧
    is_smooth fraction_circuit 40 = some true ∧
    is_decomposable fraction_circuit 40 = some true ∧
    (expand_sum_split_nodes fraction_circuit 20).map
      (fun pc => (is_smooth pc 40, is_decomposable pc 40)) = some (some true, some false) := by
  refine ⟨by decide!, by decide!, by decide!, by decide!⟩

/-! ## The pointers of the sum-split nodes of a generative forest -/

theorem build_inner_nodes_ptrs (tree : binary_decision_tree) (base : Nat) :
    ∀ (k : Nat), k ≤ tree.vertices.length → ∀ (nodes : List pc_node)
      (pc_nodes : List (Option Nat)) (nodes2 : List pc_node) (pc2 : List (Option Nat)),
    build_inner_nodes tree (List.range k).reverse (nodes, pc_nodes) = some (nodes2, pc2) →
    inner_ptrs tree k base nodes pc_nodes → inner_ptrs tree 0 base nodes2 pc2 := by
  intro k
  induction k with
  | zero =>
    intro _ nodes pc_nodes nodes2 pc2 h hp
    simp only [List.range_zero, List.reverse_nil, build_inner_nodes, Option.some.injEq,
      Prod.mk.injEq] at h
    rw [← h.1, ← h.2]
    exact hp
  | succ k ih =>
    intro hk nodes pc_nodes nodes2 pc2 h hp
    rw [List.range_succ, List.reverse_append, List.reverse_singleton,
      List.singleton_append] at h
    have hkn : k < tree.vertices.length := by omega
    cases hl : (tree.find_vertex k).is_leaf with
    | true =>
      rw [build_inner_nodes_leaf tree k _ _ _ hl] at h
      apply ih (by omega) nodes pc_nodes nodes2 pc2 h
      refine ⟨hp.size, hp.base_le, ?_, ?_⟩
      · intro ui p h1 h2 h3 h4
        have hne : ui ≠ k := by
          intro he; rw [he, hl] at h3; exact absurd h3 (by simp)
        exact hp.range ui p (by omega) h2 h3 h4
      · intro ui uj p h1 h2 h3 h4 h5 h6 h7 h8
        have hne : ui ≠ k := by
          intro he; rw [he, hl] at h3; exact absurd h3 (by simp)
        have hne2 : uj ≠ k := by
          intro he; rw [he, hl] at h6; exact absurd h6 (by simp)
        exact hp.inj ui uj p (by omega) h2 h3 (by omega) h5 h6 h7 h8
    | false =>
      cases h1 : pc_nodes.getD (tree.find_vertex k).left none with
      | none =>
        conv at h => lhs; unfold build_inner_nodes
        simp [-List.getD_eq_getElem?_getD, hl, h1] at h
      | some p1 =>
        cases h2 : pc_nodes.getD (tree.find_vertex k).right none with
        | none =>
          conv at h => lhs; unfold build_inner_nodes
          simp [-List.getD_eq_getElem?_getD, hl, h1, h2] at h
        | some p2 =>
          rw [build_inner_nodes_inner tree k _ _ _ p1 p2 hl h1 h2] at h
          apply ih (by omega) _ _ nodes2 pc2 h
          have hb := hp.base_le
          refine ⟨by simpa using hp.size, by simp only [List.length_append]; omega, ?_, ?_⟩
          · intro ui p g1 g2 g3 g4
            simp only [List.length_append, List.length_singleton]
            by_cases he : ui = k
            · rw [he, getD_set_self _ _ _ _ (by rw [hp.size]; exact hkn)] at g4
              have := Option.some.inj g4
              omega
            · rw [getD_set_ne _ _ _ _ _ (Ne.symm he)] at g4
              have := hp.range ui p (by omega) g2 g3 g4
              omega
          · intro ui uj p g1 g2 g3 g4 g5 g6 g7 g8
            by_cases he : ui = k
            · by_cases he2 : uj = k
              · rw [he, he2]
              · rw [he, getD_set_self _ _ _ _ (by rw [hp.size]; exact hkn)] at g7
                rw [getD_set_ne _ _ _ _ _ (Ne.symm he2)] at g8
                have := Option.some.inj g7
                have := hp.range uj p (by omega) g5 g6 g8
                omega
            · rw [getD_set_ne _ _ _ _ _ (Ne.symm he)] at g7
              by_cases he2 : uj = k
              · rw [he2, getD_set_self _ _ _ _ (by rw [hp.size]; exact hkn)] at g8
                have := Option.some.inj g8
                have := hp.range ui p (by omega) g2 g3 g7
                omega
              · rw [getD_set_ne _ _ _ _ _ (Ne.symm he2)] at g8
                exact hp.inj ui uj p (by omega) g2 g3 (by omega) g5 g6 g7 g8

/-- The function `build_generative_tree` on a learned tree, as `build_generative_tree_spec`
states it, with the pointers of the sum-split nodes: they point to the nodes that the call
allocates, and two vertices do not share their sum-split node. -/
theorem build_generative_tree_ptrs (lib : math_library)
    (hsqrt : ∀ v, (lib.sqrt v).lt (.num 0) = false) (D : dataset) (hD : D.finite = true)
    (tree : binary_decision_tree) (hn : bfs_numbered tree.vertices) (hr : ranges_nested tree)
    (hs : split_inv D tree) (hU : tree.vertices.length ≤ undefined_index) :
    ∃ k0, ∀ (nodes : List pc_node), heap_ordered nodes →
      ∃ ext ptr, (∀ fuel, k0 ≤ fuel →
          build_generative_tree lib tree D nodes fuel = some (nodes ++ ext, ptr 0)) ∧
        heap_ordered (nodes ++ ext) ∧ built_tree lib tree D (nodes ++ ext) ptr ∧
        (∀ ui, ui < tree.vertices.length → (tree.find_vertex ui).is_leaf = false →
          nodes.length ≤ ptr ui ∧ ptr ui < (nodes ++ ext).length) ∧
        (∀ ui uj, ui < tree.vertices.length → (tree.find_vertex ui).is_leaf = false →
          uj < tree.vertices.length → (tree.find_vertex uj).is_leaf = false →
          ptr ui = ptr uj → ui = uj) := by
  have hch := bfs_numbered_children_above tree hn
  have hpos := bfs_numbered_pos _ hn
  obtain ⟨k1, hk1⟩ := enumerate_intervals_spec tree hch hpos tree.feature_count
  refine ⟨max k1 tree.vertices.length, fun nodes hh => ?_⟩
  have hok : ∀ c ∈ interval_reports tree tree.vertices.length 0
      (List.replicate tree.feature_count {}), (tree.find_vertex c.1).is_leaf = true →
      ∃ ts, fit_leaf_terminals lib tree.category_counts D (tree.range (tree.find_vertex c.1))
        c.2 (List.range tree.feature_count) = some ts := by
    intro c hc _
    have h1 := (interval_reports_hold D hD tree hn hr hs tree.feature_count c hc).2
    exact fit_leaf_terminals_isSome lib hsqrt _ D _ c.2 (fun i => (h1 i).1) _
  obtain ⟨ext1, pc1, f1, f2, f3, f4, f5, f6⟩ := fit_leave_nodes_spec lib tree D _ nodes
    (List.replicate tree.vertices.length none) hok hh (by
      intro ui p h
      simp only [List.getD_eq_getElem?_getD] at h
      by_cases hui : ui < tree.vertices.length
      · rw [List.getElem?_eq_getElem (by simpa using hui)] at h
        simp at h
      · rw [List.getElem?_eq_none (by simpa using hui)] at h
        simp at h)
  simp only [List.length_replicate] at f2 f5
  have hinv : build_inv lib tree D tree.vertices.length (nodes ++ ext1) pc1 := by
    refine ⟨f2, f3, f4, ?_, ?_⟩
    · intro ui hui hl
      exact f5 ui hui hl (interval_reports_complete tree hn _ ui hui)
    · intro ui h1 h2; omega
  obtain ⟨ext2, pc2, g1, g2⟩ := build_inner_nodes_spec lib tree D hch _ (le_refl _) _ _ hinv
  have hptr0 : inner_ptrs tree tree.vertices.length nodes.length (nodes ++ ext1) pc1 := by
    refine ⟨f2, by simp, ?_, ?_⟩
    · intro ui p h1 h2; omega
    · intro ui uj p h1 h2; omega
  have hptr := build_inner_nodes_ptrs tree nodes.length _ (le_refl _) _ _ _ _ g1 hptr0
  rw [List.append_assoc] at g1 g2 hptr
  refine ⟨ext1 ++ ext2, fun ui => (pc2.getD ui none).getD 0, ?_, g2.ordered,
    build_inv_built_tree lib tree D _ _ g2, ?_, ?_⟩
  · intro fuel hfuel
    obtain ⟨p, hp⟩ := build_inv_child lib tree D _ _ _ g2 0 (Nat.zero_le _) hpos
    have hhead : pc2.head? = some (some p) := by
      cases hpc : pc2 with
      | nil =>
        have := g2.size
        rw [hpc] at this
        simp at this
        omega
      | cons a l =>
        rw [hpc] at hp
        simp only [List.getD_cons_zero] at hp
        simp [hp]
    unfold build_generative_tree
    rw [hk1 fuel (by omega)]
    simp only [f1]
    rw [topological_ordering_numbered tree hn hU fuel (by omega)]
    simp only [g1, hhead, hp, Option.getD_some]
  · intro ui hui hl
    obtain ⟨p, hp⟩ := build_inv_child lib tree D _ _ _ g2 ui (Nat.zero_le _) hui
    simp only [hp, Option.getD_some]
    exact hptr.range ui p (Nat.zero_le _) hui hl hp
  · intro ui uj hui hl huj hl2 he
    obtain ⟨p, hp⟩ := build_inv_child lib tree D _ _ _ g2 ui (Nat.zero_le _) hui
    obtain ⟨q, hq⟩ := build_inv_child lib tree D _ _ _ g2 uj (Nat.zero_le _) huj
    simp only [hp, hq, Option.getD_some] at he
    rw [← he] at hq
    exact hptr.inj ui uj p (Nat.zero_le _) hui hl (Nat.zero_le _) huj hl2 hp hq

theorem tree_at_cons_zero (tree : binary_decision_tree) (rest : List binary_decision_tree) :
    tree_at (tree :: rest) 0 = tree := rfl

theorem tree_at_cons_succ (tree : binary_decision_tree) (rest : List binary_decision_tree)
    (t : Nat) : tree_at (tree :: rest) (t + 1) = tree_at rest t := rfl

theorem ptr_at_cons_zero (ptr : Nat → Nat) (ptrs : List (Nat → Nat)) (c : Nat) :
    ptr_at (ptr :: ptrs) 0 c = ptr c := rfl

theorem ptr_at_cons_succ (ptr : Nat → Nat) (ptrs : List (Nat → Nat)) (t c : Nat) :
    ptr_at (ptr :: ptrs) (t + 1) c = ptr_at ptrs t c := rfl

/-- The loop over the trees of `build_generative_forest`, as `build_generative_trees_spec`
states it, with the pointers of the sum-split nodes. -/
theorem build_generative_trees_ptrs (lib : math_library)
    (hsqrt : ∀ v, (lib.sqrt v).lt (.num 0) = false) (D : dataset) (hD : D.finite = true) :
    ∀ (forest : List binary_decision_tree), (∀ tree ∈ forest, learned D tree) →
    ∃ k0, ∀ (nodes : List pc_node) (successors : List Nat), heap_ordered nodes →
      ∃ (ext : List pc_node) (ptrs : List (Nat → Nat)),
        (∀ fuel, k0 ≤ fuel → build_generative_trees lib D fuel forest (nodes, successors) =
          some (nodes ++ ext, successors ++ ptrs.map (fun ptr => ptr 0))) ∧
        heap_ordered (nodes ++ ext) ∧
        List.Forall₂ (fun tree ptr => built_tree lib tree D (nodes ++ ext) ptr) forest ptrs ∧
        (∀ t ui, t < forest.length → ui < (tree_at forest t).vertices.length →
          ((tree_at forest t).find_vertex ui).is_leaf = false →
          nodes.length ≤ ptr_at ptrs t ui ∧ ptr_at ptrs t ui < (nodes ++ ext).length) ∧
        (∀ t ui t2 uj, t < forest.length → ui < (tree_at forest t).vertices.length →
          ((tree_at forest t).find_vertex ui).is_leaf = false →
          t2 < forest.length → uj < (tree_at forest t2).vertices.length →
          ((tree_at forest t2).find_vertex uj).is_leaf = false →
          ptr_at ptrs t ui = ptr_at ptrs t2 uj → t = t2 ∧ ui = uj) := by
  intro forest
  induction forest with
  | nil =>
    intro _
    refine ⟨0, fun nodes successors hh => ⟨[], [], ?_, by simpa using hh, List.Forall₂.nil,
      ?_, ?_⟩⟩
    · intro fuel _
      simp [build_generative_trees]
    · intro t ui ht
      simp at ht
    · intro t ui t2 uj ht
      simp at ht
  | cons tree rest ih =>
    intro hl
    obtain ⟨hn, hr, hs, hU⟩ := learned_spec D tree (hl tree (List.mem_cons_self _ _))
    obtain ⟨k1, hk1⟩ := build_generative_tree_ptrs lib hsqrt D hD tree hn hr hs hU
    obtain ⟨k2, hk2⟩ := ih (fun t ht => hl t (List.mem_cons_of_mem _ ht))
    refine ⟨max k1 k2, fun nodes successors hh => ?_⟩
    obtain ⟨ext1, ptr, a1, a2, a3, a4, a5⟩ := hk1 nodes hh
    obtain ⟨ext2, ptrs, b1, b2, b3, b4, b5⟩ := hk2 (nodes ++ ext1) (successors ++ [ptr 0]) a2
    rw [List.append_assoc] at b1 b2 b3 b4
    have hlen : (nodes ++ ext1).length ≤ (nodes ++ (ext1 ++ ext2)).length := by
      simp only [List.length_append]
      omega
    have hlen2 : nodes.length ≤ (nodes ++ ext1).length := by
      simp only [List.length_append]
      omega
    refine ⟨ext1 ++ ext2, ptr :: ptrs, ?_, b2, List.Forall₂.cons ?_ b3, ?_, ?_⟩
    · intro fuel hfuel
      simp only [build_generative_trees, a1 fuel (by omega), b1 fuel (by omega),
        List.map_cons, List.append_assoc, List.singleton_append]
    · rw [← List.append_assoc]
      exact built_tree_append _ _ _ _ _ _ a3
    · intro t ui ht hui hleaf
      cases t with
      | zero =>
        rw [tree_at_cons_zero] at hui hleaf
        rw [ptr_at_cons_zero]
        have := a4 ui hui hleaf
        omega
      | succ t =>
        rw [tree_at_cons_succ] at hui hleaf
        rw [ptr_at_cons_succ]
        have := b4 t ui (by simpa using ht) hui hleaf
        omega
    · intro t ui t2 uj ht hui hleaf ht2 huj hleaf2 he
      cases t with
      | zero =>
        rw [tree_at_cons_zero] at hui hleaf
        rw [ptr_at_cons_zero] at he
        cases t2 with
        | zero =>
          rw [tree_at_cons_zero] at huj hleaf2
          rw [ptr_at_cons_zero] at he
          exact ⟨rfl, a5 ui uj hui hleaf huj hleaf2 he⟩
        | succ t2 =>
          rw [tree_at_cons_succ] at huj hleaf2
          rw [ptr_at_cons_succ] at he
          have := a4 ui hui hleaf
          have := b4 t2 uj (by simpa using ht2) huj hleaf2
          omega
      | succ t =>
        rw [tree_at_cons_succ] at hui hleaf
        rw [ptr_at_cons_succ] at he
        cases t2 with
        | zero =>
          rw [tree_at_cons_zero] at huj hleaf2
          rw [ptr_at_cons_zero] at he
          have := a4 uj huj hleaf2
          have := b4 t ui (by simpa using ht) hui hleaf
          omega
        | succ t2 =>
          rw [tree_at_cons_succ] at huj hleaf2
          rw [ptr_at_cons_succ] at he
          obtain ⟨c1, c2⟩ := b5 t ui t2 uj (by simpa using ht) hui hleaf (by simpa using ht2)
            huj hleaf2 he
          exact ⟨by rw [c1], c2⟩

theorem forall2_tree_at (R : binary_decision_tree → (Nat → Nat) → Prop) :
    ∀ (forest : List binary_decision_tree) (ptrs : List (Nat → Nat)),
    List.Forall₂ R forest ptrs →
    ptrs.length = forest.length ∧
    ∀ t, t < forest.length → R (tree_at forest t) (fun c => ptr_at ptrs t c) := by
  intro forest ptrs h
  induction h with
  | nil => exact ⟨rfl, fun t ht => by simp at ht⟩
  | cons hr _ ih =>
    refine ⟨by simp [ih.1], ?_⟩
    intro t ht
    cases t with
    | zero => exact hr
    | succ t => exact ih.2 t (by simpa using ht)

/-- The circuit that `build_generative_forest` returns for a forest of learned trees, the
splits of which are on the features `0, ..., m - 1` of the dataset, is a generative forest. -/
theorem build_generative_forest_generative (lib : math_library)
    (hsqrt : ∀ v, (lib.sqrt v).lt (.num 0) = false) (D : dataset) (hD : D.finite = true)
    (forest : List binary_decision_tree) (hl : ∀ tree ∈ forest, learned D tree)
    (m : Nat) (hm : D.category_counts.length = m + 1)
    (hvars : ∀ t c, t < forest.length → c < (tree_at forest t).vertices.length →
      ((tree_at forest t).find_vertex c).is_leaf = false →
      split_variable ((tree_at forest t).find_vertex c).split < m) :
    ∃ (fuel0 : Nat) (pc : probabilistic_circuit) (ptr : Nat → Nat → Nat),
      (∀ fuel, fuel0 ≤ fuel → build_generative_forest lib forest D fuel = some pc) ∧
      generative_forest pc forest ptr m := by
  obtain ⟨k0, hk0⟩ := build_generative_trees_ptrs lib hsqrt D hD forest hl
  obtain ⟨ext, ptrs, a1, a2, a3, a4, a5⟩ := hk0 [] [] (by intro u hu; simp at hu)
  simp only [List.nil_append, List.length_nil] at a1 a2 a3 a4
  generalize hroot : pc_node.mk (.sum (List.replicate forest.length
    ((Value.num 1).div (.num forest.length)))) (ptrs.map (fun ptr => ptr 0)) = rootn
  have hmem : ∀ t, t < forest.length → tree_at forest t ∈ forest := by
    intro t ht
    unfold tree_at
    rw [List.getD_eq_getElem _ _ ht]
    exact List.getElem_mem _
  have hforall := forall2_tree_at
    (fun tree ptr => built_tree lib tree D (ext ++ [rootn]) ptr) forest ptrs
    (a3.imp (fun tree ptr h => built_tree_append _ _ _ _ _ _ h))
  obtain ⟨hlen, hbuilt⟩ := hforall
  have hord : heap_ordered (ext ++ [rootn]) := by
    apply heap_ordered_append _ _ a2
    intro j hj v hv
    simp only [List.length_singleton] at hj
    have hj0 : j = 0 := by omega
    rw [hj0, ← hroot] at hv
    simp only [List.getD_cons_zero, List.mem_map] at hv
    obtain ⟨ptr, hp1, hp2⟩ := hv
    obtain ⟨tree, htm, ht⟩ := forall2_mem_right _ _ _ a3 ptr hp1
    have hb := ht.bound 0 (bfs_numbered_pos _ (learned_spec D tree (hl tree htm)).1)
    omega
  refine ⟨k0, probabilistic_circuit.mk (ext ++ [rootn]) ext.length D.category_counts,
    ptr_at ptrs, ?_, ?_⟩
  · intro fuel hfuel
    simp only [build_generative_forest, a1 fuel hfuel, hroot]
  · refine ⟨heap_ordered_closed _ hord (by simp), ?_, ?_, ?_, ?_, ?_, ?_⟩
    · refine ⟨List.replicate forest.length ((Value.num 1).div (.num forest.length)), ?_⟩
      show (ext ++ [rootn]).getD ext.length _ = _
      rw [List.getD_append_right _ _ _ _ (le_refl _), Nat.sub_self, List.getD_cons_zero,
        ← hroot]
      congr 1
      apply List.ext_getElem (by simp [hlen])
      intro i h1 h2
      simp only [List.getElem_map, List.getElem_range]
      unfold ptr_at
      rw [List.getD_eq_getElem _ _ (by simpa using h1)]
    · intro t ht
      have := built_tree_generative lib _ D
        (probabilistic_circuit.mk (ext ++ [rootn]) ext.length D.category_counts) _ (hbuilt t ht)
      rw [learned_feature_count D _ (hl _ (hmem t ht)) m hm] at this
      exact this
    · intro t ht
      exact (learned_spec D _ (hl _ (hmem t ht))).1
    · intro t ht c hc hleaf
      exact ⟨(learned_spec D _ (hl _ (hmem t ht))).2.2.1.defined c hc hleaf,
        le_of_lt (hvars t c ht hc hleaf)⟩
    · intro t ht c hc
      exact (hbuilt t ht).bound c hc
    · intro t c t2 c2 ht hc hleaf ht2 hc2 hleaf2 he
      exact a5 t c t2 c2 ht hc hleaf ht2 hc2 hleaf2 he

/-- The function `expand_sum_split_nodes` on the circuit that `build_generative_forest`
returns for a forest of learned trees: the circuit is smooth and decomposable; after the
expansion no sum-split node can be reached from the root, the circuit is smooth, and it is
decomposable only when every tree of the forest is a leaf. -/
theorem build_generative_forest_expand (lib : math_library)
    (hsqrt : ∀ v, (lib.sqrt v).lt (.num 0) = false) (D : dataset) (hD : D.finite = true)
    (forest : List binary_decision_tree) (hl : ∀ tree ∈ forest, learned D tree)
    (m : Nat) (hm : D.category_counts.length = m + 1)
    (hvars : ∀ t c, t < forest.length → c < (tree_at forest t).vertices.length →
      ((tree_at forest t).find_vertex c).is_leaf = false →
      split_variable ((tree_at forest t).find_vertex c).split < m) :
    ∃ (fuel0 : Nat) (pc : probabilistic_circuit),
      (∀ fuel, fuel0 ≤ fuel → build_generative_forest lib forest D fuel = some pc) ∧
      ∀ fuel, expansion_fuel forest m ≤ fuel →
        ∃ pc2, expand_sum_split_nodes pc fuel = some pc2 ∧
          (∀ u, pc2.reachable u → ∀ w s, (pc2.node u).kind ≠ .sum_split w s) ∧
          ∀ fuel2, checker_fuel forest ≤ fuel2 →
            is_smooth pc fuel2 = some true ∧ is_decomposable pc fuel2 = some true ∧
            is_smooth pc2 fuel2 = some true ∧
            is_decomposable pc2 fuel2 =
              some (forest.all (fun tree => (tree.find_vertex 0).is_leaf)) := by
  obtain ⟨fuel0, pc, ptr, h1, hg⟩ := build_generative_forest_generative lib hsqrt D hD forest
    hl m hm hvars
  refine ⟨fuel0, pc, h1, fun fuel hfuel => ?_⟩
  obtain ⟨pc2, e1, -, e3, e4⟩ := expand_sum_split_nodes_spec pc forest ptr m hg fuel hfuel
  refine ⟨pc2, e1, e3, fun fuel2 hfuel2 => ?_⟩
  obtain ⟨a1, a2⟩ := generative_forest_checks pc forest ptr m hg fuel2 hfuel2
  obtain ⟨b1, b2⟩ := e4 fuel2 hfuel2
  exact ⟨a1, a2, b1, b2⟩

/-! ## The circuit of a forest on doubles -/

theorem binary64.fit_normal_kind_rounded (lib : math_library) (D : dataset) (I : List Nat) (i : Nat)
    (ab : interval) (n : pc_node) (h : binary64.fit_normal lib D I i ab = some n) :
    ∃ dist, n = { kind := .terminal i dist, successors := [] } := by
  unfold binary64.fit_normal at h
  simp only at h
  generalize (if I.isEmpty then (Value.num 0, Value.num 1)
      else binary64.mean_standard_deviation lib D I i) = ms at h
  by_cases h1 : ab.is_maximal = true
  · by_cases h2 : ms.2.lt (.num 0) = true
    · simp [h1, h2] at h
    · simp only [h1, h2, if_true, Bool.false_eq_true, if_false, Option.some.injEq] at h
      exact ⟨_, h.symm⟩
  · by_cases h2 : ms.2.lt (.num 0) = true
    · simp [h1, h2] at h
    · by_cases h3 : ab.b.lt ab.a = true
      · simp [h1, h2, h3] at h
      · simp only [h1, h2, h3, Bool.false_eq_true, if_false, Option.some.injEq] at h
        exact ⟨_, h.symm⟩

theorem binary64.fit_leaf_terminals_spec_rounded (lib : math_library) (ncat : List Nat) (D : dataset)
    (I : List Nat) (iv : List interval) : ∀ (is : List Nat) (ts : List pc_node),
    binary64.fit_leaf_terminals lib ncat D I iv is = some ts →
    ts.length = is.length ∧
    ∀ j, j < is.length → ∃ dist, ts.getD j { kind := .product, successors := [] } =
      { kind := .terminal (is.getD j 0) dist, successors := [] } := by
  intro is
  induction is with
  | nil =>
    intro ts h
    simp only [binary64.fit_leaf_terminals, Option.some.injEq] at h
    rw [← h]
    exact ⟨rfl, fun j hj => absurd hj (by simp)⟩
  | cons i is ih =>
    intro ts h
    unfold binary64.fit_leaf_terminals at h
    simp only at h
    generalize hv : (if ncat.getD i 0 < 2 then binary64.fit_normal lib D I i (iv.getD i {})
      else some (binary64.fit_categorical D I i)) = v_i at h
    cases v_i with
    | none => simp at h
    | some n =>
      simp only at h
      cases hrec : binary64.fit_leaf_terminals lib ncat D I iv is with
      | none => simp [hrec] at h
      | some ns =>
        simp only [hrec, Option.some.injEq] at h
        obtain ⟨l1, l2⟩ := ih ns hrec
        rw [← h]
        refine ⟨by simp [l1], ?_⟩
        intro j hj
        cases j with
        | zero =>
          simp only [List.getD_cons_zero]
          split at hv
          · exact binary64.fit_normal_kind_rounded lib D I i _ n hv
          · simp only [Option.some.injEq] at hv
            exact ⟨_, hv.symm⟩
        | succ j =>
          simp only [List.getD_cons_succ]
          exact l2 j (by simpa using hj)

theorem binary64.fit_leaf_terminals_isSome_rounded (lib : math_library)
    (hsqrt : ∀ v, (lib.sqrt v).lt (.num 0) = false) (ncat : List Nat) (D : dataset)
    (I : List Nat) (iv : List interval)
    (hiv : ∀ i, (iv.getD i {}).b.lt (iv.getD i {}).a = false) : ∀ (is : List Nat),
    ∃ ts, binary64.fit_leaf_terminals lib ncat D I iv is = some ts := by
  intro is
  induction is with
  | nil => exact ⟨[], rfl⟩
  | cons i is ih =>
    obtain ⟨ns, hns⟩ := ih
    obtain ⟨mu, sigma, hfit⟩ := binary64.fit_normal_returns lib hsqrt D I i (iv.getD i {}) (hiv i)
    unfold binary64.fit_leaf_terminals
    simp only [hns, hfit]
    by_cases hc : ncat.getD i 0 < 2
    · simp only [hc, if_true]
      exact ⟨_, rfl⟩
    · simp only [hc, if_false]
      exact ⟨_, rfl⟩

theorem binary64.leaf_node_append_rounded (lib : math_library) (tree : binary_decision_tree) (D : dataset)
    (nodes ext : List pc_node) (ui : Nat) (iv : List interval) (p : Nat)
    (h : binary64.leaf_node lib tree D nodes ui iv p) : binary64.leaf_node lib tree D (nodes ++ ext) ui iv p := by
  obtain ⟨ts, pre, post, h1, h2, h3⟩ := h
  refine ⟨ts, pre, post ++ ext, h1, ?_, h3⟩
  rw [h2]
  simp only [List.append_assoc]

theorem binary64.leaf_node_lt_rounded (lib : math_library) (tree : binary_decision_tree) (D : dataset)
    (nodes : List pc_node) (ui : Nat) (iv : List interval) (p : Nat)
    (h : binary64.leaf_node lib tree D nodes ui iv p) : p < nodes.length := by
  obtain ⟨ts, pre, post, h1, h2, h3⟩ := h
  have hl := (binary64.fit_leaf_terminals_spec_rounded _ _ _ _ _ _ _ h1).1
  rw [h2, h3]
  simp only [List.length_append, List.length_cons, List.length_nil, hl, List.length_range]
  omega

theorem binary64.fit_leaf_spec_rounded (lib : math_library) (tree : binary_decision_tree) (D : dataset)
    (nodes : List pc_node) (ui : Nat) (iv : List interval) (ts : List pc_node)
    (h : binary64.fit_leaf_terminals lib tree.category_counts D (tree.range (tree.find_vertex ui)) iv
      (List.range tree.feature_count) = some ts) (hh : heap_ordered nodes) :
    ∃ ext, binary64.fit_leaf lib tree D nodes (tree.range (tree.find_vertex ui)) iv =
        some (nodes ++ ext, nodes.length + (tree.feature_count + 1)) ∧
      heap_ordered (nodes ++ ext) ∧
      binary64.leaf_node lib tree D (nodes ++ ext) ui iv (nodes.length + (tree.feature_count + 1)) := by
  obtain ⟨hl, hts⟩ := binary64.fit_leaf_terminals_spec_rounded _ _ _ _ _ _ _ h
  simp only [List.length_range] at hl hts
  refine ⟨ts ++ [binary64.fit_categorical D (tree.range (tree.find_vertex ui)) tree.feature_count,
    { kind := .product, successors := List.range' nodes.length (tree.feature_count + 1) }],
    ?_, ?_, ?_⟩
  · unfold binary64.fit_leaf
    simp only [h, List.length_append, List.length_singleton, hl, List.append_assoc,
      List.singleton_append, Nat.add_assoc]
  · apply heap_ordered_append _ _ hh
    intro j hj v hv
    simp only [List.length_append, List.length_cons, List.length_nil, hl] at hj
    by_cases hj1 : j < ts.length
    · rw [getD_append_left_lt _ _ _ _ hj1] at hv
      obtain ⟨dist, hd⟩ := hts j (by omega)
      rw [hd] at hv
      simp at hv
    · rw [List.getD_append_right _ _ _ _ (Nat.le_of_not_lt hj1)] at hv
      have hcase : j - ts.length = 0 ∨ j - ts.length = 1 := by omega
      rcases hcase with h0 | h0
      · rw [h0] at hv
        simp [binary64.fit_categorical] at hv
      · rw [h0] at hv
        simp only [List.getD_cons_succ, List.getD_cons_zero, List.mem_range'_1] at hv
        omega
  · exact ⟨ts, nodes, [], h, by simp, rfl⟩

/-- The function `binary64.fit_leave_nodes` on calls of `report_node` for which no constructor throws:
the leaves reported get their product node, the other entries of `pc_nodes` are kept. -/
theorem binary64.fit_leave_nodes_spec_rounded (lib : math_library) (tree : binary_decision_tree) (D : dataset) :
    ∀ (reports : List (Nat × List interval)) (nodes : List pc_node)
      (pc_nodes : List (Option Nat)),
    (∀ c ∈ reports, (tree.find_vertex c.1).is_leaf = true →
      ∃ ts, binary64.fit_leaf_terminals lib tree.category_counts D (tree.range (tree.find_vertex c.1))
        c.2 (List.range tree.feature_count) = some ts) →
    heap_ordered nodes →
    (∀ ui p, pc_nodes.getD ui none = some p → p < nodes.length) →
    ∃ ext pc1, binary64.fit_leave_nodes lib tree D reports (nodes, pc_nodes) = some (nodes ++ ext, pc1) ∧
      pc1.length = pc_nodes.length ∧ heap_ordered (nodes ++ ext) ∧
      (∀ ui p, pc1.getD ui none = some p → p < (nodes ++ ext).length) ∧
      (∀ ui, ui < pc_nodes.length → (tree.find_vertex ui).is_leaf = true →
        (∃ iv, (ui, iv) ∈ reports) →
        ∃ iv p, (ui, iv) ∈ reports ∧ pc1.getD ui none = some p ∧
          binary64.leaf_node lib tree D (nodes ++ ext) ui iv p) ∧
      (∀ ui, ((tree.find_vertex ui).is_leaf = false ∨ ∀ iv, (ui, iv) ∉ reports) →
        pc1.getD ui none = pc_nodes.getD ui none) := by
  intro reports
  induction reports with
  | nil =>
    intro nodes pc_nodes _ hh hp
    refine ⟨[], pc_nodes, by simp [binary64.fit_leave_nodes], rfl, by simpa using hh, ?_, ?_, ?_⟩
    · intro ui p h; simpa using hp ui p h
    · intro ui _ _ h
      obtain ⟨iv, hiv⟩ := h
      simp at hiv
    · intro ui _; rfl
  | cons c rest ih =>
    intro nodes pc_nodes hok hh hp
    obtain ⟨ui0, iv0⟩ := c
    have hok2 : ∀ c ∈ rest, (tree.find_vertex c.1).is_leaf = true →
        ∃ ts, binary64.fit_leaf_terminals lib tree.category_counts D
          (tree.range (tree.find_vertex c.1)) c.2 (List.range tree.feature_count) = some ts :=
      fun c hc => hok c (List.mem_cons_of_mem _ hc)
    cases hl : (tree.find_vertex ui0).is_leaf with
    | false =>
      obtain ⟨ext, pc1, h1, h2, h3, h4, h5, h6⟩ := ih nodes pc_nodes hok2 hh hp
      refine ⟨ext, pc1, ?_, h2, h3, h4, ?_, ?_⟩
      · simp only [binary64.fit_leave_nodes, hl, Bool.false_eq_true, if_false]
        exact h1
      · intro ui hui hul hex
        obtain ⟨iv, hiv⟩ := hex
        rcases List.mem_cons.1 hiv with hiv | hiv
        · simp only [Prod.mk.injEq] at hiv
          rw [hiv.1, hl] at hul
          exact absurd hul (by simp)
        · obtain ⟨iv2, p, k1, k2, k3⟩ := h5 ui hui hul ⟨iv, hiv⟩
          exact ⟨iv2, p, List.mem_cons_of_mem _ k1, k2, k3⟩
      · intro ui hcase
        apply h6
        rcases hcase with hcase | hcase
        · exact Or.inl hcase
        · exact Or.inr (fun iv hiv => hcase iv (List.mem_cons_of_mem _ hiv))
    | true =>
      obtain ⟨ts, hts⟩ := hok (ui0, iv0) (List.mem_cons_self _ _) hl
      obtain ⟨e0, f1, f2, f3⟩ := binary64.fit_leaf_spec_rounded lib tree D nodes ui0 iv0 ts hts hh
      have hp2 : ∀ ui p, (pc_nodes.set ui0
          (some (nodes.length + (tree.feature_count + 1)))).getD ui none = some p →
          p < (nodes ++ e0).length := by
        intro ui p h
        rcases getD_set_some _ _ _ _ _ h with h1 | h1
        · rw [h1]; exact binary64.leaf_node_lt_rounded _ _ _ _ _ _ _ f3
        · have := hp ui p h1
          simp only [List.length_append]
          omega
      obtain ⟨ext, pc1, h1, h2, h3, h4, h5, h6⟩ := ih (nodes ++ e0) _ hok2 f2 hp2
      rw [List.append_assoc] at h1 h3 h4 h5
      refine ⟨e0 ++ ext, pc1, ?_, by simpa using h2, h3, h4, ?_, ?_⟩
      · simp only [binary64.fit_leave_nodes, hl, if_true, f1]
        exact h1
      · intro ui hui hul hex
        by_cases hrest : ∃ iv, (ui, iv) ∈ rest
        · obtain ⟨iv2, p, k1, k2, k3⟩ := h5 ui (by simpa using hui) hul hrest
          exact ⟨iv2, p, List.mem_cons_of_mem _ k1, k2, k3⟩
        · obtain ⟨iv, hiv⟩ := hex
          rcases List.mem_cons.1 hiv with hiv | hiv
          · simp only [Prod.mk.injEq] at hiv
            have h7 := h6 ui (Or.inr (fun iv2 hiv2 => hrest ⟨iv2, hiv2⟩))
            rw [hiv.1] at h7 hui ⊢
            rw [getD_set_self _ _ _ _ hui] at h7
            refine ⟨iv0, _, List.mem_cons_self _ _, h7, ?_⟩
            rw [← List.append_assoc]
            exact binary64.leaf_node_append_rounded _ _ _ _ _ _ _ _ f3
          · exact absurd ⟨iv, hiv⟩ hrest
      · intro ui hcase
        have hne : ui0 ≠ ui := by
          intro he
          rcases hcase with hcase | hcase
          · rw [← he, hl] at hcase
            exact absurd hcase (by simp)
          · rw [← he] at hcase
            exact hcase iv0 (List.mem_cons_self _ _)
        rw [h6 ui ?_, getD_set_ne _ _ _ _ _ hne]
        rcases hcase with hcase | hcase
        · exact Or.inl hcase
        · exact Or.inr (fun iv hiv => hcase iv (List.mem_cons_of_mem _ hiv))

theorem binary64.build_inner_nodes_leaf_rounded (tree : binary_decision_tree) (ui : Nat) (order : List Nat)
    (nodes : List pc_node) (pc_nodes : List (Option Nat))
    (hl : (tree.find_vertex ui).is_leaf = true) :
    binary64.build_inner_nodes tree (ui :: order) (nodes, pc_nodes) =
      binary64.build_inner_nodes tree order (nodes, pc_nodes) := by
  simp [binary64.build_inner_nodes, hl]

theorem binary64.build_inner_nodes_inner_rounded (tree : binary_decision_tree) (ui : Nat) (order : List Nat)
    (nodes : List pc_node) (pc_nodes : List (Option Nat)) (p1 p2 : Nat)
    (hl : (tree.find_vertex ui).is_leaf = false)
    (h1 : pc_nodes.getD (tree.find_vertex ui).left none = some p1)
    (h2 : pc_nodes.getD (tree.find_vertex ui).right none = some p2) :
    binary64.build_inner_nodes tree (ui :: order) (nodes, pc_nodes) =
      binary64.build_inner_nodes tree order
        (nodes ++ [pc_node.mk (.sum_split
            [binary64.div (binary64.of_nat (tree.range (tree.find_vertex (tree.find_vertex ui).left)).length)
                (binary64.of_nat (tree.range (tree.find_vertex ui)).length),
             binary64.div (binary64.of_nat (tree.range (tree.find_vertex (tree.find_vertex ui).right)).length)
                (binary64.of_nat (tree.range (tree.find_vertex ui)).length)]
            (tree.find_vertex ui).split) [p1, p2]],
          pc_nodes.set ui (some nodes.length)) := by
  conv_lhs => unfold binary64.build_inner_nodes
  simp only [hl, Bool.not_false, if_true, h1, h2]

theorem binary64.build_inv_child_rounded (lib : math_library) (tree : binary_decision_tree) (D : dataset)
    (k : Nat) (nodes : List pc_node) (pc_nodes : List (Option Nat))
    (h : binary64.build_inv lib tree D k nodes pc_nodes) (c : Nat) (hk : k ≤ c)
    (hc : c < tree.vertices.length) : ∃ p, pc_nodes.getD c none = some p := by
  cases hl : (tree.find_vertex c).is_leaf with
  | true =>
    obtain ⟨iv, p, -, h2, -⟩ := h.leaves c hc hl
    exact ⟨p, h2⟩
  | false =>
    obtain ⟨p, p1, p2, h2, -⟩ := h.inner c hk hc hl
    exact ⟨p, h2⟩

theorem binary64.build_inner_nodes_spec_rounded (lib : math_library) (tree : binary_decision_tree) (D : dataset)
    (hch : children_above tree) :
    ∀ (k : Nat), k ≤ tree.vertices.length → ∀ (nodes : List pc_node)
      (pc_nodes : List (Option Nat)), binary64.build_inv lib tree D k nodes pc_nodes →
    ∃ ext pc2, binary64.build_inner_nodes tree (List.range k).reverse (nodes, pc_nodes) =
        some (nodes ++ ext, pc2) ∧ binary64.build_inv lib tree D 0 (nodes ++ ext) pc2 := by
  intro k
  induction k with
  | zero =>
    intro _ nodes pc_nodes h
    exact ⟨[], pc_nodes, by simp [binary64.build_inner_nodes], by simpa using h⟩
  | succ k ih =>
    intro hk nodes pc_nodes h
    rw [List.range_succ, List.reverse_append, List.reverse_singleton, List.singleton_append]
    have hkn : k < tree.vertices.length := by omega
    cases hl : (tree.find_vertex k).is_leaf with
    | true =>
      rw [binary64.build_inner_nodes_leaf_rounded tree k _ _ _ hl]
      apply ih (by omega) nodes pc_nodes
      refine ⟨h.size, h.ordered, h.valid, h.leaves, ?_⟩
      intro ui hui1 hui2 hul
      have hne : ui ≠ k := by
        intro he; rw [he, hl] at hul; exact absurd hul (by simp)
      exact h.inner ui (by omega) hui2 hul
    | false =>
      obtain ⟨c1, c2, c3, c4⟩ := hch k hkn hl
      obtain ⟨p1, hp1⟩ := binary64.build_inv_child_rounded lib tree D _ _ _ h _ (by omega) c3
      obtain ⟨p2, hp2⟩ := binary64.build_inv_child_rounded lib tree D _ _ _ h _ (by omega) c4
      rw [binary64.build_inner_nodes_inner_rounded tree k _ _ _ p1 p2 hl hp1 hp2]
      generalize hnode : pc_node.mk (.sum_split
            [binary64.div (binary64.of_nat (tree.range (tree.find_vertex (tree.find_vertex k).left)).length)
                (binary64.of_nat (tree.range (tree.find_vertex k)).length),
             binary64.div (binary64.of_nat (tree.range (tree.find_vertex (tree.find_vertex k).right)).length)
                (binary64.of_nat (tree.range (tree.find_vertex k)).length)]
            (tree.find_vertex k).split) [p1, p2] = node
      have hsucc : node.successors = [p1, p2] := by rw [← hnode]
      have hinv : binary64.build_inv lib tree D k (nodes ++ [node])
          (pc_nodes.set k (some nodes.length)) := by
        refine ⟨by simpa using h.size, ?_, ?_, ?_, ?_⟩
        · apply heap_ordered_append _ _ h.ordered
          intro j hj v hv
          simp only [List.length_singleton] at hj
          have hj0 : j = 0 := by omega
          rw [hj0] at hv ⊢
          simp only [List.getD_cons_zero, hsucc, List.mem_cons, List.mem_singleton,
            List.not_mem_nil, or_false] at hv
          rcases hv with hv | hv
          · rw [hv]; exact h.valid _ _ hp1
          · rw [hv]; exact h.valid _ _ hp2
        · intro ui p hp
          simp only [List.length_append, List.length_singleton]
          rcases getD_set_some _ _ _ _ _ hp with h1 | h1
          · omega
          · have := h.valid ui p h1
            omega
        · intro ui hui hul
          have hne : k ≠ ui := by
            intro he; rw [← he, hl] at hul; exact absurd hul (by simp)
          obtain ⟨iv, p, k1, k2, k3⟩ := h.leaves ui hui hul
          refine ⟨iv, p, k1, ?_, binary64.leaf_node_append_rounded _ _ _ _ _ _ _ _ k3⟩
          rw [getD_set_ne _ _ _ _ _ hne]; exact k2
        · intro ui hui1 hui2 hul
          by_cases he : ui = k
          · rw [he]
            refine ⟨nodes.length, p1, p2, ?_, ?_, ?_, ?_⟩
            · exact getD_set_self _ _ _ _ (by rw [h.size]; exact hkn)
            · rw [getD_set_ne _ _ _ _ _ (by omega)]; exact hp1
            · rw [getD_set_ne _ _ _ _ _ (by omega)]; exact hp2
            · rw [List.getD_append_right _ _ _ _ (le_refl _), Nat.sub_self,
                List.getD_cons_zero, hnode]
          · obtain ⟨d1, d2, d3, d4⟩ := hch ui hui2 hul
            obtain ⟨p, q1, q2, k1, k2, k3, k4⟩ := h.inner ui (by omega) hui2 hul
            refine ⟨p, q1, q2, ?_, ?_, ?_, ?_⟩
            · rw [getD_set_ne _ _ _ _ _ (Ne.symm he)]; exact k1
            · rw [getD_set_ne _ _ _ _ _ (by omega)]; exact k2
            · rw [getD_set_ne _ _ _ _ _ (by omega)]; exact k3
            · rw [getD_append_left_lt _ _ _ _ (h.valid _ _ k1)]; exact k4
      obtain ⟨ext, pc2, e1, e2⟩ := ih (by omega) _ _ hinv
      rw [List.append_assoc] at e1 e2
      exact ⟨[node] ++ ext, pc2, e1, e2⟩

theorem binary64.build_inv_built_tree_rounded (lib : math_library) (tree : binary_decision_tree) (D : dataset)
    (nodes : List pc_node) (pc_nodes : List (Option Nat))
    (h : binary64.build_inv lib tree D 0 nodes pc_nodes) :
    binary64.built_tree lib tree D nodes (fun ui => (pc_nodes.getD ui none).getD 0) := by
  refine ⟨?_, ?_, ?_⟩
  · intro ui hui hl
    obtain ⟨iv, p, k1, k2, k3⟩ := h.leaves ui hui hl
    refine ⟨iv, k1, ?_⟩
    simp only [k2, Option.getD_some]
    exact k3
  · intro ui hui hl
    obtain ⟨p, p1, p2, k1, k2, k3, k4⟩ := h.inner ui (Nat.zero_le _) hui hl
    simp only [k1, k2, k3, Option.getD_some]
    exact k4
  · intro ui hui
    obtain ⟨p, hp⟩ := binary64.build_inv_child_rounded lib tree D _ _ _ h ui (Nat.zero_le _) hui
    simp only [hp, Option.getD_some]
    exact h.valid _ _ hp

theorem binary64.built_tree_append_rounded (lib : math_library) (tree : binary_decision_tree) (D : dataset)
    (nodes ext : List pc_node) (ptr : Nat → Nat) (h : binary64.built_tree lib tree D nodes ptr) :
    binary64.built_tree lib tree D (nodes ++ ext) ptr := by
  refine ⟨?_, ?_, ?_⟩
  · intro ui hui hl
    obtain ⟨iv, k1, k2⟩ := h.leaves ui hui hl
    exact ⟨iv, k1, binary64.leaf_node_append_rounded _ _ _ _ _ _ _ _ k2⟩
  · intro ui hui hl
    rw [getD_append_left_lt _ _ _ _ (h.bound ui hui)]
    exact h.inner ui hui hl
  · intro ui hui
    have := h.bound ui hui
    simp only [List.length_append]
    omega

/-- The function `binary64.build_generative_tree` on a learned tree: with enough fuel it returns, and
the nodes that it allocates hold the circuit of the tree. -/
theorem binary64.build_generative_tree_spec_rounded (lib : math_library)
    (hsqrt : ∀ v, (lib.sqrt v).lt (.num 0) = false) (D : dataset) (hD : D.finite = true)
    (tree : binary_decision_tree) (hn : bfs_numbered tree.vertices) (hr : ranges_nested tree)
    (hs : split_inv D tree) (hU : tree.vertices.length ≤ undefined_index) :
    ∃ k0, ∀ (nodes : List pc_node), heap_ordered nodes →
      ∃ ext ptr, (∀ fuel, k0 ≤ fuel →
          binary64.build_generative_tree lib tree D nodes fuel = some (nodes ++ ext, ptr 0)) ∧
        heap_ordered (nodes ++ ext) ∧ binary64.built_tree lib tree D (nodes ++ ext) ptr := by
  have hch := bfs_numbered_children_above tree hn
  have hpos := bfs_numbered_pos _ hn
  obtain ⟨k1, hk1⟩ := enumerate_intervals_spec tree hch hpos tree.feature_count
  refine ⟨max k1 tree.vertices.length, fun nodes hh => ?_⟩
  have hok : ∀ c ∈ interval_reports tree tree.vertices.length 0
      (List.replicate tree.feature_count {}), (tree.find_vertex c.1).is_leaf = true →
      ∃ ts, binary64.fit_leaf_terminals lib tree.category_counts D (tree.range (tree.find_vertex c.1))
        c.2 (List.range tree.feature_count) = some ts := by
    intro c hc _
    have h1 := (interval_reports_hold D hD tree hn hr hs tree.feature_count c hc).2
    exact binary64.fit_leaf_terminals_isSome_rounded lib hsqrt _ D _ c.2 (fun i => (h1 i).1) _
  obtain ⟨ext1, pc1, f1, f2, f3, f4, f5, f6⟩ := binary64.fit_leave_nodes_spec_rounded lib tree D _ nodes
    (List.replicate tree.vertices.length none) hok hh (by
      intro ui p h
      simp only [List.getD_eq_getElem?_getD] at h
      by_cases hui : ui < tree.vertices.length
      · rw [List.getElem?_eq_getElem (by simpa using hui)] at h
        simp at h
      · rw [List.getElem?_eq_none (by simpa using hui)] at h
        simp at h)
  simp only [List.length_replicate] at f2 f5
  have hinv : binary64.build_inv lib tree D tree.vertices.length (nodes ++ ext1) pc1 := by
    refine ⟨f2, f3, f4, ?_, ?_⟩
    · intro ui hui hl
      exact f5 ui hui hl (interval_reports_complete tree hn _ ui hui)
    · intro ui h1 h2; omega
  obtain ⟨ext2, pc2, g1, g2⟩ := binary64.build_inner_nodes_spec_rounded lib tree D hch _ (le_refl _) _ _ hinv
  rw [List.append_assoc] at g1 g2
  refine ⟨ext1 ++ ext2, fun ui => (pc2.getD ui none).getD 0, ?_, g2.ordered,
    binary64.build_inv_built_tree_rounded lib tree D _ _ g2⟩
  intro fuel hfuel
  obtain ⟨p, hp⟩ := binary64.build_inv_child_rounded lib tree D _ _ _ g2 0 (Nat.zero_le _) hpos
  have hhead : pc2.head? = some (some p) := by
    cases hpc : pc2 with
    | nil =>
      have := g2.size
      rw [hpc] at this
      simp at this
      omega
    | cons a l =>
      rw [hpc] at hp
      simp only [List.getD_cons_zero] at hp
      simp [hp]
  unfold binary64.build_generative_tree
  rw [hk1 fuel (by omega)]
  simp only [f1]
  rw [topological_ordering_numbered tree hn hU fuel (by omega)]
  simp only [g1, hhead, hp, Option.getD_some]

theorem binary64.build_generative_trees_spec_rounded (lib : math_library)
    (hsqrt : ∀ v, (lib.sqrt v).lt (.num 0) = false) (D : dataset) (hD : D.finite = true) :
    ∀ (forest : List binary_decision_tree), (∀ tree ∈ forest, learned D tree) →
    ∃ k0, ∀ (nodes : List pc_node) (successors : List Nat), heap_ordered nodes →
      ∃ (ext : List pc_node) (ptrs : List (Nat → Nat)),
        (∀ fuel, k0 ≤ fuel → binary64.build_generative_trees lib D fuel forest (nodes, successors) =
          some (nodes ++ ext, successors ++ ptrs.map (fun ptr => ptr 0))) ∧
        heap_ordered (nodes ++ ext) ∧
        List.Forall₂ (fun tree ptr => binary64.built_tree lib tree D (nodes ++ ext) ptr) forest ptrs := by
  intro forest
  induction forest with
  | nil =>
    intro _
    refine ⟨0, fun nodes successors hh => ⟨[], [], ?_, by simpa using hh, List.Forall₂.nil⟩⟩
    intro fuel _
    simp [binary64.build_generative_trees]
  | cons tree rest ih =>
    intro hl
    obtain ⟨hn, hr, hs, hU⟩ := learned_spec D tree (hl tree (List.mem_cons_self _ _))
    obtain ⟨k1, hk1⟩ := binary64.build_generative_tree_spec_rounded lib hsqrt D hD tree hn hr hs hU
    obtain ⟨k2, hk2⟩ := ih (fun t ht => hl t (List.mem_cons_of_mem _ ht))
    refine ⟨max k1 k2, fun nodes successors hh => ?_⟩
    obtain ⟨ext1, ptr, a1, a2, a3⟩ := hk1 nodes hh
    obtain ⟨ext2, ptrs, b1, b2, b3⟩ := hk2 (nodes ++ ext1) (successors ++ [ptr 0]) a2
    rw [List.append_assoc] at b1 b2 b3
    refine ⟨ext1 ++ ext2, ptr :: ptrs, ?_, b2, List.Forall₂.cons ?_ b3⟩
    · intro fuel hfuel
      simp only [binary64.build_generative_trees, a1 fuel (by omega), b1 fuel (by omega),
        List.map_cons, List.append_assoc, List.singleton_append]
    · rw [← List.append_assoc]
      exact binary64.built_tree_append_rounded _ _ _ _ _ _ a3

/-- The function `binary64.build_generative_forest` on a forest of learned trees: with enough fuel it
returns; the root is the last node allocated, a sum node over the nodes of the roots of the
trees with the weights `1 / N`. -/
theorem binary64.build_generative_forest_spec_rounded (lib : math_library)
    (hsqrt : ∀ v, (lib.sqrt v).lt (.num 0) = false) (D : dataset) (hD : D.finite = true)
    (forest : List binary_decision_tree) (hl : ∀ tree ∈ forest, learned D tree) :
    ∃ (k0 : Nat) (nodes : List pc_node) (ptrs : List (Nat → Nat)),
      (∀ fuel, k0 ≤ fuel → binary64.build_generative_forest lib forest D fuel = some
        (probabilistic_circuit.mk (nodes ++ [pc_node.mk (.sum (List.replicate forest.length
            (binary64.div (.num 1) (binary64.of_nat forest.length)))) (ptrs.map (fun ptr => ptr 0))])
          nodes.length D.category_counts)) ∧
      heap_ordered (nodes ++ [pc_node.mk (.sum (List.replicate forest.length
            (binary64.div (.num 1) (binary64.of_nat forest.length)))) (ptrs.map (fun ptr => ptr 0))]) ∧
      List.Forall₂ (fun tree ptr => binary64.built_tree lib tree D
        (nodes ++ [pc_node.mk (.sum (List.replicate forest.length
            (binary64.div (.num 1) (binary64.of_nat forest.length)))) (ptrs.map (fun ptr => ptr 0))]) ptr)
        forest ptrs := by
  obtain ⟨k0, hk0⟩ := binary64.build_generative_trees_spec_rounded lib hsqrt D hD forest hl
  obtain ⟨ext, ptrs, a1, a2, a3⟩ := hk0 [] [] (by intro u hu; simp at hu)
  simp only [List.nil_append] at a1 a2 a3
  refine ⟨k0, ext, ptrs, ?_, ?_, ?_⟩
  · intro fuel hfuel
    simp only [binary64.build_generative_forest, a1 fuel hfuel]
  · apply heap_ordered_append _ _ a2
    intro j hj v hv
    simp only [List.length_singleton] at hj
    have hj0 : j = 0 := by omega
    rw [hj0] at hv
    simp only [List.getD_cons_zero, List.mem_map] at hv
    obtain ⟨ptr, hp1, hp2⟩ := hv
    obtain ⟨tree, htm, ht⟩ := forall2_mem_right _ _ _ a3 ptr hp1
    have hb := ht.bound 0 (bfs_numbered_pos _ (learned_spec D tree (hl tree htm)).1)
    omega
  · exact a3.imp (fun tree ptr h => binary64.built_tree_append_rounded _ _ _ _ _ _ h)

theorem binary64.leaf_node_shape_rounded (lib : math_library) (tree : binary_decision_tree) (D : dataset)
    (nodes : List pc_node) (ui : Nat) (iv : List interval) (p : Nat)
    (h : binary64.leaf_node lib tree D nodes ui iv p) :
    ∃ (ts : List pc_node) (h0 : Nat),
      binary64.fit_leaf_terminals lib tree.category_counts D (tree.range (tree.find_vertex ui)) iv
        (List.range tree.feature_count) = some ts ∧
      p = h0 + (tree.feature_count + 1) ∧
      nodes.getD p { kind := .product, successors := [] } =
        { kind := .product, successors := List.range' h0 (tree.feature_count + 1) } ∧
      (∀ j, j ≤ tree.feature_count →
        nodes.getD (h0 + j) { kind := .product, successors := [] } =
          (ts ++ [binary64.fit_categorical D (tree.range (tree.find_vertex ui))
            tree.feature_count]).getD j { kind := .product, successors := [] }) ∧
      (∀ j, j ≤ tree.feature_count → ∃ dist,
        nodes.getD (h0 + j) { kind := .product, successors := [] } =
          { kind := .terminal j dist, successors := [] }) := by
  obtain ⟨ts, pre, post, h1, h2, h3⟩ := h
  obtain ⟨hl, hts⟩ := binary64.fit_leaf_terminals_spec_rounded _ _ _ _ _ _ _ h1
  simp only [List.length_range] at hl hts
  have hmid : ∀ j, j < tree.feature_count + 2 →
      nodes.getD (pre.length + j) { kind := .product, successors := [] } =
      (ts ++ [binary64.fit_categorical D (tree.range (tree.find_vertex ui)) tree.feature_count,
        { kind := .product, successors := List.range' pre.length (tree.feature_count + 1) }]).getD
        j { kind := .product, successors := [] } := by
    intro j hj
    rw [h2, List.append_assoc, List.getD_append_right _ _ _ _ (by omega),
      Nat.add_sub_cancel_left, getD_append_left_lt _ _ _ _ (by simp [hl]; omega)]
  have hterm : ∀ j, j ≤ tree.feature_count →
      nodes.getD (pre.length + j) { kind := .product, successors := [] } =
        (ts ++ [binary64.fit_categorical D (tree.range (tree.find_vertex ui))
          tree.feature_count]).getD j { kind := .product, successors := [] } := by
    intro j hj
    rw [hmid j (by omega)]
    by_cases hjm : j < tree.feature_count
    · rw [getD_append_left_lt _ _ _ _ (by omega), getD_append_left_lt _ _ _ _ (by omega)]
    · have hjm2 : j = tree.feature_count := by omega
      rw [List.getD_append_right _ _ _ _ (by omega),
        List.getD_append_right _ _ _ _ (by omega), hl, hjm2, Nat.sub_self]
      rfl
  refine ⟨ts, pre.length, h1, h3, ?_, hterm, ?_⟩
  · rw [h3, hmid _ (by omega), List.getD_append_right _ _ _ _ (by omega), hl,
      Nat.add_sub_cancel_left]
    rfl
  · intro j hj
    rw [hterm j hj]
    by_cases hjm : j < tree.feature_count
    · rw [getD_append_left_lt _ _ _ _ (by omega)]
      obtain ⟨dist, hd⟩ := hts j hjm
      refine ⟨dist, ?_⟩
      rw [hd]
      simp [List.getD_eq_getElem?_getD, List.getElem?_range hjm]
    · have hjm2 : j = tree.feature_count := by omega
      rw [List.getD_append_right _ _ _ _ (by omega), hl, hjm2, Nat.sub_self]
      exact ⟨_, rfl⟩

/-- Both checkers find the scope `{0, ..., m}` at the node of every vertex of a tree, and
leave `result` true. -/
theorem binary64.built_tree_scopes_rounded (lib : math_library) (tree : binary_decision_tree) (D : dataset)
    (hch : children_above tree) (pc : probabilistic_circuit) (ptr : Nat → Nat)
    (hb : binary64.built_tree lib tree D pc.nodes ptr) :
    ∀ (d ui : Nat), tree.vertices.length - ui ≤ d → ui < tree.vertices.length →
      ∀ fuel, d + 1 ≤ fuel →
      smoothness_checker.scope pc fuel (ptr ui) true =
        some (Finset.range (tree.feature_count + 1), true) ∧
      decomposability_checker.scope pc fuel (ptr ui) true =
        some (Finset.range (tree.feature_count + 1), true) := by
  intro d
  induction d with
  | zero => intro ui h1 h2; omega
  | succ d ih =>
    intro ui hd hui fuel hfuel
    obtain ⟨f, rfl⟩ : ∃ f, fuel = f + 1 := ⟨fuel - 1, by omega⟩
    cases hl : (tree.find_vertex ui).is_leaf with
    | true =>
      obtain ⟨iv, -, hleaf⟩ := hb.leaves ui hui hl
      obtain ⟨ts, h0, -, s2, s3, -, s5⟩ := binary64.leaf_node_shape_rounded _ _ _ _ _ _ _ hleaf
      obtain ⟨g, rfl⟩ : ∃ g, f = g + 1 := ⟨f - 1, by omega⟩
      have hterm1 : ∀ j, j < tree.feature_count + 1 →
          smoothness_checker.scope pc (g + 1) (h0 + j) true = some ({0 + j}, true) := by
        intro j hj
        obtain ⟨dist, hd2⟩ := s5 j (by omega)
        simp only [smoothness_checker.scope, probabilistic_circuit.node, hd2, Nat.zero_add]
        rfl
      have hterm2 : ∀ j, j < tree.feature_count + 1 →
          decomposability_checker.scope pc (g + 1) (h0 + j) true = some ({0 + j}, true) := by
        intro j hj
        obtain ⟨dist, hd2⟩ := s5 j (by omega)
        simp only [decomposability_checker.scope, probabilistic_circuit.node, hd2, Nat.zero_add]
        rfl
      have e1 := scope_union_loop_terminals (smoothness_checker.scope pc (g + 1)) _ h0 0 hterm1
      have e2 := decomposability_product_loop_terminals
        (decomposability_checker.scope pc (g + 1)) _ h0 0 hterm2
      simp only [Finset.range_zero, Nat.zero_add] at e1 e2
      constructor
      · conv_lhs => unfold smoothness_checker.scope
        simp only [probabilistic_circuit.node, probabilistic_circuit.successors, s3,
          Bool.not_true, Bool.false_eq_true, if_false]
        exact e1
      · conv_lhs => unfold decomposability_checker.scope
        simp only [probabilistic_circuit.node, probabilistic_circuit.successors, s3,
          Bool.not_true, Bool.false_eq_true, if_false]
        exact e2
    | false =>
      obtain ⟨c1, c2, c3, c4⟩ := hch ui hui hl
      have hin := hb.inner ui hui hl
      obtain ⟨l1, l2⟩ := ih _ (by omega) c3 f (by omega)
      obtain ⟨r1, r2⟩ := ih _ (by omega) c4 f (by omega)
      constructor
      · conv_lhs => unfold smoothness_checker.scope
        simp only [probabilistic_circuit.node, probabilistic_circuit.successors, hin,
          Bool.not_true, Bool.false_eq_true, if_false]
        rw [smoothness_sum_loop_same _ _ (range_succ_ne_empty _) _ ∅ (Or.inl rfl) (by
          intro p hp
          simp only [List.mem_cons, List.mem_singleton, List.not_mem_nil, or_false] at hp
          rcases hp with hp | hp
          · rw [hp]; exact l1
          · rw [hp]; exact r1)]
        simp
      · conv_lhs => unfold decomposability_checker.scope
        simp only [probabilistic_circuit.node, probabilistic_circuit.successors, hin,
          Bool.not_true, Bool.false_eq_true, if_false]
        rw [scope_union_loop_same _ _ _ ∅ (Or.inl rfl) (by
          intro p hp
          simp only [List.mem_cons, List.mem_singleton, List.not_mem_nil, or_false] at hp
          rcases hp with hp | hp
          · rw [hp]; exact l2
          · rw [hp]; exact r2)]
        simp

theorem binary64.built_tree_generative_rounded (lib : math_library) (tree : binary_decision_tree) (D : dataset)
    (pc : probabilistic_circuit) (ptr : Nat → Nat)
    (hb : binary64.built_tree lib tree D pc.nodes ptr) :
    binary64.generative_tree tree tree.feature_count pc ptr := by
  refine ⟨fun ui hui hl => hb.inner ui hui hl, ?_⟩
  intro ui hui hl
  obtain ⟨iv, -, hleaf⟩ := hb.leaves ui hui hl
  obtain ⟨ts, h0, -, s2, s3, -, s5⟩ := binary64.leaf_node_shape_rounded _ _ _ _ _ _ _ hleaf
  refine ⟨?_, ?_, ?_⟩
  · simp only [probabilistic_circuit.node, s3]
  · rw [successors_eq pc _ _ s3]
    simp
  · intro j hj
    rw [successors_eq pc _ _ s3]
    have : (List.range' h0 (tree.feature_count + 1)).getD j 0 = h0 + j := by
      rw [List.getD_eq_getElem _ _ (by simp; omega)]
      simp
    simp only [this]
    exact s5 j hj

theorem binary64.built_tree_normalized (lib : math_library) (tree : binary_decision_tree)
    (D : dataset) (hn : bfs_numbered tree.vertices) (hr : ranges_nested tree)
    (pc : probabilistic_circuit) (ptr : Nat → Nat)
    (hb : binary64.built_tree lib tree D pc.nodes ptr) (tolerance : ℚ)
    (htol : 1 / 2 ^ 50 ≤ tolerance) :
    ∀ (d ui : Nat), tree.vertices.length - ui ≤ d → ui < tree.vertices.length →
      ∀ w, Relation.ReflTransGen (fun a b => b ∈ pc.successors a) (ptr ui) w →
      weights_normalized (.num tolerance) (pc.node w) = true := by
  have hch := bfs_numbered_children_above tree hn
  intro d
  induction d with
  | zero => intro ui h1 h2; omega
  | succ d ih =>
    intro ui hd hui w hw
    cases hl : (tree.find_vertex ui).is_leaf with
    | true =>
      obtain ⟨iv, -, hleaf⟩ := hb.leaves ui hui hl
      obtain ⟨ts, h0, -, s2, s3, -, s5⟩ := binary64.leaf_node_shape_rounded _ _ _ _ _ _ _ hleaf
      rcases Relation.ReflTransGen.cases_head hw with h1 | ⟨c, hc, hcw⟩
      · rw [← h1]
        simp only [weights_normalized, probabilistic_circuit.node, s3]
      · rw [successors_eq pc _ _ s3] at hc
        simp only [List.mem_range'_1] at hc
        obtain ⟨dist, hd2⟩ := s5 (c - h0) (by omega)
        rw [show h0 + (c - h0) = c by omega] at hd2
        rcases Relation.ReflTransGen.cases_head hcw with h1 | ⟨c2, hc2, -⟩
        · rw [← h1]
          simp only [weights_normalized, probabilistic_circuit.node, hd2]
        · rw [successors_eq pc _ _ hd2] at hc2
          simp at hc2
    | false =>
      obtain ⟨c1, c2, c3, c4⟩ := hch ui hui hl
      have hin := hb.inner ui hui hl
      rcases Relation.ReflTransGen.cases_head hw with h1 | ⟨c, hc, hcw⟩
      · rw [← h1]
        have hrc := range_children tree hn hr ui hui hl
        simp only [weights_normalized, probabilistic_circuit.node, hin, Bool.not_eq_true']
        apply binary64.sum_split_weights_normalized tolerance htol
        rw [hrc, List.length_append]
      · rw [successors_eq pc _ _ hin] at hc
        simp only [List.mem_cons, List.mem_singleton, List.not_mem_nil, or_false] at hc
        rcases hc with hc | hc
        · rw [hc] at hcw
          exact ih _ (by omega) c3 w hcw
        · rw [hc] at hcw
          exact ih _ (by omega) c4 w hcw

theorem is_normalized_foldl_false (pc : probabilistic_circuit) (tolerance : Value) :
    ∀ (out : List (Nat × Nat)) (init : Bool),
    (init = false ∨ ∃ c ∈ out, weights_normalized tolerance (pc.node c.1) = false) →
    out.foldl (fun result c =>
      match (pc.node c.1).kind with
      | .sum weights | .sum_split weights _ =>
        if tolerance.lt (binary64.sub (binary64.sum weights) (.num 1)).fabs then false
        else result
      | _ => result) init = false := by
  intro out
  induction out with
  | nil =>
    intro init h
    rcases h with h | ⟨c, hc, _⟩
    · exact h
    · simp at hc
  | cons c out ih =>
    intro init h
    simp only [List.foldl_cons]
    apply ih
    rcases h with h | ⟨c2, hc2, hf⟩
    · left
      subst h
      cases (pc.node c.1).kind <;> simp
    · rcases List.mem_cons.1 hc2 with h1 | h1
      · left
        subst h1
        unfold weights_normalized at hf
        cases hk : (pc.node c2.1).kind with
        | sum ws =>
          rw [hk] at hf
          simp only [Bool.not_eq_false'] at hf
          simp only [hf, if_true]
        | sum_split ws sp =>
          rw [hk] at hf
          simp only [Bool.not_eq_false'] at hf
          simp only [hf, if_true]
        | product => rw [hk] at hf; simp at hf
        | terminal s d => rw [hk] at hf; simp at hf
      · right
        exact ⟨c2, h1, hf⟩

theorem is_normalized_false_of_reachable (pc : probabilistic_circuit) (tolerance : Value)
    (h : heap_ordered pc.nodes) (u : Nat) (hu : pc.reachable u)
    (hf : weights_normalized tolerance (pc.node u) = false)
    (fuel : Nat) (hfuel : pc.visit_count (pc.root + 1) pc.root ≤ fuel) :
    is_normalized pc tolerance fuel = some false := by
  obtain ⟨out, o1, -, o3⟩ := pc_visit_nodes_bfs_spec pc (fun u => u)
    (heap_ordered_acyclic pc h) fuel hfuel
  simp only [is_normalized, o1, Option.map_some', Option.some.injEq]
  apply is_normalized_foldl_false
  right
  rw [← o3] at hu
  obtain ⟨c, hc, hcu⟩ := List.mem_map.1 hu
  exact ⟨c, hc, by rw [hcu]; exact hf⟩

/-- The circuit of a non-empty forest of learned trees passes the checks on smoothness and
decomposability, and the check on normalization with a tolerance of at least
(N + 3) 2^-52 when there are at most 2^51 trees. -/
theorem binary64.build_generative_forest_checks (lib : math_library)
    (hsqrt : ∀ v, (lib.sqrt v).lt (.num 0) = false) (D : dataset) (hD : D.finite = true)
    (forest : List binary_decision_tree) (hl : ∀ tree ∈ forest, learned D tree)
    (hne : forest ≠ []) (m : Nat) (hm : D.category_counts.length = m + 1) :
    ∃ (fuel0 : Nat) (pc : probabilistic_circuit) (ptrs : List (Nat → Nat)),
      (∀ fuel, fuel0 ≤ fuel → binary64.build_generative_forest lib forest D fuel = some pc ∧
        is_smooth pc fuel = some true ∧ is_decomposable pc fuel = some true ∧
        (∀ tolerance : ℚ, forest.length ≤ 2 ^ 51 →
          ((forest.length : ℚ) + 3) / 2 ^ 52 ≤ tolerance →
          is_normalized pc (.num tolerance) fuel = some true)) ∧
      heap_ordered pc.nodes ∧
      pc.node pc.root = pc_node.mk (.sum (List.replicate forest.length
          (binary64.div (.num 1) (binary64.of_nat forest.length))))
        (ptrs.map (fun ptr => ptr 0)) ∧
      List.Forall₂ (fun tree ptr => binary64.built_tree lib tree D pc.nodes ptr) forest ptrs := by
  obtain ⟨k0, nodes, ptrs, a1, a2, a3⟩ :=
    binary64.build_generative_forest_spec_rounded lib hsqrt D hD forest hl
  generalize hpc : probabilistic_circuit.mk (nodes ++ [pc_node.mk (.sum (List.replicate
    forest.length (binary64.div (.num 1) (binary64.of_nat forest.length))))
    (ptrs.map (fun ptr => ptr 0))])
    nodes.length D.category_counts = pc at a1
  have hnodes : pc.nodes = nodes ++ [pc_node.mk (.sum (List.replicate
    forest.length (binary64.div (.num 1) (binary64.of_nat forest.length))))
    (ptrs.map (fun ptr => ptr 0))] := by
    rw [← hpc]
  have hroot : pc.root = nodes.length := by rw [← hpc]
  rw [← hnodes] at a2 a3
  have hrootnode : pc.nodes.getD pc.root { kind := .product, successors := [] } =
      pc_node.mk (.sum (List.replicate forest.length
          (binary64.div (.num 1) (binary64.of_nat forest.length))))
        (ptrs.map (fun ptr => ptr 0)) := by
    rw [hnodes, hroot, List.getD_append_right _ _ _ _ (le_refl _), Nat.sub_self]
    rfl
  have hptrs : ptrs.map (fun ptr => ptr 0) ≠ [] := by
    intro h
    have h1 := a3.length_eq
    rw [List.map_eq_nil_iff] at h
    rw [h] at h1
    exact hne (List.length_eq_zero.1 h1)
  have hN : forest.length ≠ 0 := fun h => hne (List.length_eq_zero.1 h)
  have hscope : ∀ fuel, 1 + (forest.map (fun t => t.vertices.length)).sum ≤ fuel →
      ∀ p ∈ ptrs.map (fun ptr => ptr 0),
      smoothness_checker.scope pc fuel p true = some (Finset.range (m + 1), true) ∧
      decomposability_checker.scope pc fuel p true = some (Finset.range (m + 1), true) := by
    intro fuel hfuel p hp
    obtain ⟨ptr, hp1, hp2⟩ := List.mem_map.1 hp
    obtain ⟨tree, ht1, ht2⟩ := forall2_mem_right _ _ _ a3 ptr hp1
    have hlt := hl tree ht1
    obtain ⟨hn, -, -, -⟩ := learned_spec D tree hlt
    have hle := le_sum_of_mem_map (fun t : binary_decision_tree => t.vertices.length)
      forest tree ht1
    simp only at hle
    have := binary64.built_tree_scopes_rounded lib tree D (bfs_numbered_children_above tree hn) pc ptr
      ht2 tree.vertices.length 0 (by omega) (bfs_numbered_pos _ hn) fuel (by omega)
    rw [learned_feature_count D tree hlt m hm, hp2] at this
    exact this
  have hok : ∀ tolerance : ℚ, forest.length ≤ 2 ^ 51 →
      ((forest.length : ℚ) + 3) / 2 ^ 52 ≤ tolerance →
      ∀ u, pc.reachable u → weights_normalized (.num tolerance) (pc.node u) = true := by
    intro tolerance hN51 htol u hu
    have htol2 : (1 : ℚ) / 2 ^ 50 ≤ tolerance := by
      have h1 : (1 : ℚ) ≤ forest.length := by
        exact_mod_cast Nat.one_le_iff_ne_zero.2 hN
      have h2 : (1 : ℚ) / 2 ^ 50 ≤ ((forest.length : ℚ) + 3) / 2 ^ 52 := by
        rw [div_le_div_iff₀ (by positivity) (by positivity)]
        have : (2 : ℚ) ^ 52 = 4 * 2 ^ 50 := by norm_num
        rw [this]
        have h3 : (0 : ℚ) < 2 ^ 50 := by positivity
        nlinarith
      linarith
    rcases Relation.ReflTransGen.cases_head hu with h1 | ⟨c, hc, hcu⟩
    · rw [← h1]
      simp only [weights_normalized, probabilistic_circuit.node, hrootnode, Bool.not_eq_true']
      exact binary64.root_weights_normalized tolerance _ hN hN51 htol
    · rw [successors_eq pc _ _ hrootnode] at hc
      obtain ⟨ptr, hp1, hp2⟩ := List.mem_map.1 hc
      obtain ⟨tree, ht1, ht2⟩ := forall2_mem_right _ _ _ a3 ptr hp1
      obtain ⟨hn, hr, -, -⟩ := learned_spec D tree (hl tree ht1)
      rw [← hp2] at hcu
      exact binary64.built_tree_normalized lib tree D hn hr pc ptr ht2 tolerance htol2
        tree.vertices.length 0 (by omega) (bfs_numbered_pos _ hn) u hcu
  refine ⟨max k0 (max (2 + (forest.map (fun t => t.vertices.length)).sum)
    (pc.visit_count (pc.root + 1) pc.root)), pc, ptrs, fun fuel hfuel => ⟨a1 fuel (by omega),
    ?_, ?_, fun tolerance hN51 htol =>
      is_normalized_of_reachable pc (.num tolerance) a2 (hok tolerance hN51 htol) fuel
        (by omega)⟩, a2, hrootnode, a3⟩
  · obtain ⟨f, rfl⟩ : ∃ f, fuel = f + 1 := ⟨fuel - 1, by omega⟩
    unfold is_smooth
    conv_lhs => unfold smoothness_checker.scope
    simp only [probabilistic_circuit.node, probabilistic_circuit.successors, hrootnode,
      Bool.not_true, Bool.false_eq_true, if_false]
    rw [smoothness_sum_loop_same _ _ (range_succ_ne_empty m) _ ∅ (Or.inl rfl)
      (fun p hp => (hscope f (by omega) p hp).1)]
    simp
  · obtain ⟨f, rfl⟩ : ∃ f, fuel = f + 1 := ⟨fuel - 1, by omega⟩
    unfold is_decomposable
    conv_lhs => unfold decomposability_checker.scope
    simp only [probabilistic_circuit.node, probabilistic_circuit.successors, hrootnode,
      Bool.not_true, Bool.false_eq_true, if_false]
    rw [scope_union_loop_same _ _ _ ∅ (Or.inl rfl)
      (fun p hp => (hscope f (by omega) p hp).2)]
    simp

/-- The root of the circuit of a forest fails the test of `is_normalized` when the sum of
its weights misses 1 by more than the tolerance. -/
theorem binary64.build_generative_forest_root_test (lib : math_library)
    (hsqrt : ∀ v, (lib.sqrt v).lt (.num 0) = false) (D : dataset) (hD : D.finite = true)
    (forest : List binary_decision_tree) (hl : ∀ tree ∈ forest, learned D tree)
    (hne : forest ≠ []) (m : Nat) (hm : D.category_counts.length = m + 1)
    (tolerance : Value)
    (hsum : tolerance.lt (binary64.sub (binary64.sum (List.replicate forest.length
      (binary64.div (.num 1) (binary64.of_nat forest.length)))) (.num 1)).fabs = true) :
    ∃ (fuel0 : Nat) (pc : probabilistic_circuit),
      ∀ fuel, fuel0 ≤ fuel → binary64.build_generative_forest lib forest D fuel = some pc ∧
        is_smooth pc fuel = some true ∧ is_decomposable pc fuel = some true ∧
        is_normalized pc tolerance fuel = some false := by
  obtain ⟨fuel0, pc, ptrs, h1, h2, h3, -⟩ :=
    binary64.build_generative_forest_checks lib hsqrt D hD forest hl hne m hm
  refine ⟨max fuel0 (pc.visit_count (pc.root + 1) pc.root), pc, fun fuel hfuel => ?_⟩
  obtain ⟨b1, b2, b3, -⟩ := h1 fuel (by omega)
  refine ⟨b1, b2, b3, is_normalized_false_of_reachable pc tolerance h2 pc.root
    Relation.ReflTransGen.refl ?_ fuel (by omega)⟩
  rw [h3]
  simp only [weights_normalized, hsum, Bool.not_true]

/-- Claim C18, amended: for every non-empty forest of `N` trees learned on a dataset `D` with
the variables `0, ..., m` (the `m` features and the class; the values of `D` are finite or
NaN and `sqrt` returns no negative number), with enough fuel `build_generative_forest`
returns a circuit on which `is_smooth` and `is_decomposable` return true, and on which
`is_normalized` returns true for every tolerance of at least (N + 3) 2^-52 when
`N <= 2^51`. The root of the circuit is a sum node over the nodes of the roots of the `N`
trees with the weights `1.0 / N`, rounded; for every tree, every vertex `u` that is not a
leaf becomes a sum-split node with the split of `u` and the rounded weights
`|left.I| / |u.I|` and `|right.I| / |u.I|`, and every leaf becomes a product node with
`m + 1` successors, of which successor `j` is a terminal node of variable `j`. -/
theorem build_generative_forest_properties (lib : math_library)
    (hsqrt : ∀ v, (lib.sqrt v).lt (.num 0) = false) (D : dataset) (hD : D.finite = true)
    (forest : List binary_decision_tree) (hl : ∀ tree ∈ forest, learned D tree)
    (hne : forest ≠ []) (m : Nat) (hm : D.category_counts.length = m + 1) :
    ∃ (fuel0 : Nat) (pc : probabilistic_circuit) (ptrs : List (Nat → Nat)),
      (∀ fuel, fuel0 ≤ fuel → binary64.build_generative_forest lib forest D fuel = some pc ∧
        is_smooth pc fuel = some true ∧ is_decomposable pc fuel = some true ∧
        (∀ tolerance : ℚ, forest.length ≤ 2 ^ 51 →
          ((forest.length : ℚ) + 3) / 2 ^ 52 ≤ tolerance →
          is_normalized pc (.num tolerance) fuel = some true)) ∧
      pc.node pc.root = pc_node.mk (.sum (List.replicate forest.length
          (binary64.div (.num 1) (binary64.of_nat forest.length))))
        (ptrs.map (fun ptr => ptr 0)) ∧
      List.Forall₂ (fun tree ptr => binary64.generative_tree tree m pc ptr) forest ptrs := by
  obtain ⟨fuel0, pc, ptrs, h1, -, h2, h3⟩ :=
    binary64.build_generative_forest_checks lib hsqrt D hD forest hl hne m hm
  refine ⟨fuel0, pc, ptrs, h1, h2, ?_⟩
  have hf : ∀ (l1 : List binary_decision_tree) (l2 : List (Nat → Nat)),
      (∀ t ∈ l1, learned D t) →
      List.Forall₂ (fun tree ptr => binary64.built_tree lib tree D pc.nodes ptr) l1 l2 →
      List.Forall₂ (fun tree ptr => binary64.generative_tree tree m pc ptr) l1 l2 := by
    intro l1 l2 hl1 hfa
    induction hfa with
    | nil => exact List.Forall₂.nil
    | cons hr _ ih =>
      rename_i t ptr l1 l2 _
      refine List.Forall₂.cons ?_ (ih (fun t ht => hl1 t (List.mem_cons_of_mem _ ht)))
      have := binary64.built_tree_generative_rounded lib t D pc ptr hr
      rw [learned_feature_count D t (hl1 t (List.mem_cons_self _ _)) m hm] at this
      exact this
  exact hf forest ptrs hl h3

theorem build_generative_forest_properties_witness :
    (∀ v, (test_library.sqrt v).lt (.num 0) = false) ∧ mixed_dataset.finite = true ∧
    (∀ tree ∈ [mixed_tree, mixed_tree], learned mixed_dataset tree) ∧
    [mixed_tree, mixed_tree] ≠ [] ∧ mixed_dataset.category_counts.length = 2 + 1 ∧
    ∃ (fuel0 : Nat) (pc : probabilistic_circuit) (ptrs : List (Nat → Nat)),
      (∀ fuel, fuel0 ≤ fuel →
        binary64.build_generative_forest test_library [mixed_tree, mixed_tree] mixed_dataset
          fuel = some pc ∧
        is_smooth pc fuel = some true ∧ is_decomposable pc fuel = some true ∧
        (∀ tolerance : ℚ, [mixed_tree, mixed_tree].length ≤ 2 ^ 51 →
          (([mixed_tree, mixed_tree].length : ℚ) + 3) / 2 ^ 52 ≤ tolerance →
          is_normalized pc (.num tolerance) fuel = some true)) ∧
      pc.node pc.root = pc_node.mk (.sum (List.replicate [mixed_tree, mixed_tree].length
          (binary64.div (.num 1) (binary64.of_nat [mixed_tree, mixed_tree].length))))
        (ptrs.map (fun ptr => ptr 0)) ∧
      List.Forall₂ (fun tree ptr => binary64.generative_tree tree 2 pc ptr)
        [mixed_tree, mixed_tree] ptrs :=
  ⟨test_library_sqrt, by decide!,
    fun tree ht => by
      simp only [List.mem_cons, List.mem_singleton, List.not_mem_nil, or_false, or_self] at ht
      rw [ht]; exact mixed_tree_learned,
    by simp, rfl,
    build_generative_forest_properties test_library test_library_sqrt mixed_dataset (by decide!)
      [mixed_tree, mixed_tree]
      (fun tree ht => by
        simp only [List.mem_cons, List.mem_singleton, List.not_mem_nil, or_false, or_self] at ht
        rw [ht]; exact mixed_tree_learned) (by simp) 2 rfl⟩

/-- Claim C18: for a forest of ten million copies of `mixed_tree` the circuit is smooth and
decomposable and `is_normalized` returns false at the default tolerance 1e-10: the ten
million weights `1.0 / 10000000` of the root add to 1 - 2.4983e-10. For a forest of six
copies `is_normalized` returns false at the tolerance 0: the six weights add to
1 - 2^-53. -/
theorem build_generative_forest_not_normalized :
    (∃ (fuel0 : Nat) (pc : probabilistic_circuit), ∀ fuel, fuel0 ≤ fuel →
      binary64.build_generative_forest test_library (List.replicate 10000000 mixed_tree)
        mixed_dataset fuel = some pc ∧
      is_smooth pc fuel = some true ∧ is_decomposable pc fuel = some true ∧
      is_normalized pc (.num default_tolerance) fuel = some false) ∧
    binary64.sum (List.replicate 10000000
        (binary64.div (.num 1) (binary64.of_nat 10000000))) =
      .num (9007199252490723 / 2 ^ 53) ∧
    (∃ (fuel0 : Nat) (pc : probabilistic_circuit), ∀ fuel, fuel0 ≤ fuel →
      binary64.build_generative_forest test_library (List.replicate 6 mixed_tree)
        mixed_dataset fuel = some pc ∧
      is_smooth pc fuel = some true ∧ is_decomposable pc fuel = some true ∧
      is_normalized pc (.num 0) fuel = some false) ∧
    binary64.sum (List.replicate 6 (binary64.div (.num 1) (binary64.of_nat 6))) =
      .num (9007199254740991 / 2 ^ 53) := by
  have hw : binary64.div (.num 1) (binary64.of_nat 10000000) =
      .num (944473296573929 / 2 ^ 73) := by decide!
  have hs : binary64.sum (List.replicate 10000000
      (binary64.div (.num 1) (binary64.of_nat 10000000))) =
      .num (9007199252490723 / 2 ^ 53) := by
    rw [hw]
    exact binary64.sum_ten_million
  have hlearned : ∀ n : Nat, ∀ tree ∈ List.replicate n mixed_tree,
      learned mixed_dataset tree := by
    intro n tree ht
    rw [List.eq_of_mem_replicate ht]
    exact mixed_tree_learned
  have hne : ∀ n : Nat, n ≠ 0 → List.replicate n mixed_tree ≠ [] := by
    intro n hn h
    have := congrArg List.length h
    rw [List.length_replicate] at this
    exact hn this
  refine ⟨?_, hs, ?_, by decide!⟩
  · apply binary64.build_generative_forest_root_test test_library test_library_sqrt
      mixed_dataset (by decide!) _ (hlearned _) (hne _ (by decide)) 2 rfl
    rw [List.length_replicate, hs]
    decide!
  · apply binary64.build_generative_forest_root_test test_library test_library_sqrt
      mixed_dataset (by decide!) _ (hlearned _) (hne _ (by decide)) 2 rfl
    decide!

/-- The checks of `test_pc_properties` on the circuit of a forest of two copies of
`mixed_tree`, with the default tolerance of `is_normalized`. -/
theorem mixed_forest_checks :
    (binary64.build_generative_forest test_library [mixed_tree, mixed_tree] mixed_dataset
        20).map
      (fun pc => (is_smooth pc 40, is_decomposable pc 40,
        is_normalized pc (.num default_tolerance) 40)) =
      some (some true, some true, some true) ∧
    default_tolerance = binary64.round (1 / 10 ^ 10) := by
  decide!

end aitools
